import Mathlib

set_option linter.all false

namespace MallocLab

/-! ## Machine words and the memory facade -/

/-- Number of values of a 32-bit word (the allocators are built for a 32-bit target:
`WSIZE` is 4 and link pointers are stored through `unsigned int`). -/
def W32 : Nat := 4294967296

/-- Unsigned 32-bit addition (`size_t` and pointer arithmetic). -/
def add32 (a b : Nat) : Nat := (a + b) % W32

/-- Unsigned 32-bit subtraction (`size_t` and pointer arithmetic). -/
def sub32 (a b : Nat) : Nat := (a + (W32 - b % W32)) % W32

/-- Unsigned 32-bit multiplication. -/
def mul32 (a b : Nat) : Nat := (a * b) % W32

/-- Conversion of a 32-bit word to `int` (two's complement). -/
def toInt32 (n : Nat) : Int := if n % W32 < 2147483648 then (n % W32 : Nat) else (n % W32 : Nat) - 4294967296

/-- Conversion of an `int` to an unsigned 32-bit word. -/
def ofInt32 (i : Int) : Nat := (i % 4294967296).toNat

/-- Wrap-around of `int` arithmetic. -/
def wrapInt (i : Int) : Int := toInt32 (ofInt32 i)

/-- Modelled from the spec: the memory-system facade (`memlib`, outside this repository's
sources). The heap is the byte range `[lo, brk)`; `hi` is the ceiling up to which the facade
is willing to grow it; `w` gives the 32-bit word stored at each word address. -/
structure Mem where
  lo : Nat
  brk : Nat
  hi : Nat
  w : Nat → Nat

/-- Modelled from the spec: `extend the heap by N bytes, returning the old break (or failure)`.
The argument is an `int`; a negative increment or one that passes the ceiling is refused
(`none` stands for the `(void *)-1` failure value). -/
def mem_sbrk (m : Mem) (incr : Nat) : Option (Nat × Mem) :=
  if toInt32 incr < 0 ∨ m.brk + incr % W32 > m.hi then none
  else some (m.brk, { m with brk := m.brk + incr % W32 })

/-- A word access is defined when the word lies inside the heap and is word-aligned. -/
def Mem.ok (m : Mem) (p : Nat) : Prop := m.lo ≤ p ∧ p + 4 ≤ m.brk ∧ p % 4 = 0

instance (m : Mem) (p : Nat) : Decidable (m.ok p) :=
  inferInstanceAs (Decidable (m.lo ≤ p ∧ p + 4 ≤ m.brk ∧ p % 4 = 0))

/-- Ways in which a run of the model stops without a result: an access outside the heap
(undefined behaviour of the C code), or a loop that exhausted the fuel it was given. -/
inductive Err where
  | fault
  | fuel
  deriving DecidableEq, Repr

/-- Read of a 32-bit word; an access outside the heap is a fault. -/
def load (m : Mem) (p : Nat) : Except Err Nat :=
  if m.ok p then .ok (m.w p % W32) else .error .fault

/-- Write of a 32-bit word; an access outside the heap is a fault. -/
def store (m : Mem) (p v : Nat) : Except Err Mem :=
  if m.ok p then .ok { m with w := fun a => if a = p then v % W32 else m.w a } else .error .fault

/-- The byte at address `a` (little-endian words). -/
def byteAt (m : Mem) (a : Nat) : Nat := (m.w (a - a % 4) % W32) / 256 ^ (a % 4) % 256

/-- The words of memory after copying `n` bytes from `src` to `dst` (both word-aligned):
whole words are copied; of a trailing partial word only the low `n % 4` bytes are replaced. -/
def memcpyWords (w : Nat → Nat) (dst src n : Nat) : Nat → Nat := fun a =>
  if dst ≤ a ∧ a < dst + n ∧ a % 4 = 0 then
    if a + 4 ≤ dst + n then w (src + (a - dst))
    else (w (src + (a - dst)) % W32) % 256 ^ (dst + n - a) +
          (w a % W32) / 256 ^ (dst + n - a) * 256 ^ (dst + n - a)
  else w a

/-- The C library's `memcpy(dst, src, n)` on word-aligned pointers (as the allocators call it).
The destination range must lie inside the heap: a write outside it is a fault, as for
`store`. The source bytes are read as they are before the call, wherever they lie: the
segregated `mm_realloc` copies the requested size from the smaller old block, so that the
source range may run past the old block, past the break, or into the destination. (For
overlapping ranges C leaves the bytes copied from the overlap undefined; here they are the
bytes before the call.) -/
def memcpy (m : Mem) (dst src n : Nat) : Except Err Mem :=
  if n = 0 then .ok m
  else if m.lo ≤ dst ∧ dst + n ≤ m.brk ∧ dst % 4 = 0 ∧ src % 4 = 0 then
    .ok { m with w := memcpyWords m.w dst src n }
  else .error .fault


/-- All-zero memory handed out by a facade whose arena is `[lo, hi)`, before any extension. -/
def zeroMem (lo hi : Nat) : Mem := { lo := lo, brk := lo, hi := hi, w := fun _ => 0 }

/-! ## Implicit variant (`mm_1implicit_comments.c`) -/

namespace Implicit

def WSIZE : Nat := 4
def DSIZE : Nat := 8
def CHUNKSIZE : Nat := 4096

/-- `MAX(x, y)` on `size_t`. -/
def MAX (x y : Nat) : Nat := if x > y then x else y

/-- `PACK(size, alloc)`: `size | alloc`. -/
def PACK (size alloc : Nat) : Nat := size ||| alloc

def PUT (m : Mem) (p val : Nat) : Except Err Mem := store m p val
def GET (m : Mem) (p : Nat) : Except Err Nat := load m p

def GET_SIZE (m : Mem) (p : Nat) : Except Err Nat := do
  let v ← GET m p
  pure (v &&& 4294967288)

def GET_ALLOC (m : Mem) (p : Nat) : Except Err Nat := do
  let v ← GET m p
  pure (v &&& 1)

def HDRP (bp : Nat) : Nat := sub32 bp WSIZE

def FTRP (m : Mem) (bp : Nat) : Except Err Nat := do
  let sz ← GET_SIZE m (HDRP bp)
  pure (sub32 (add32 bp sz) DSIZE)

def NEXT_BLKP (m : Mem) (bp : Nat) : Except Err Nat := do
  let sz ← GET_SIZE m (sub32 bp WSIZE)
  pure (add32 bp sz)

def PREV_BLKP (m : Mem) (bp : Nat) : Except Err Nat := do
  let sz ← GET_SIZE m (sub32 bp DSIZE)
  pure (sub32 bp sz)

/-- Allocator globals of the implicit variant together with the heap. -/
structure State where
  mem : Mem
  heap_listp : Nat
  next_fit_position : Nat

def coalesce (s : State) (bp : Nat) : Except Err (State × Nat) := do
  let prev ← PREV_BLKP s.mem bp
  let pf ← FTRP s.mem prev
  let prev_alloc ← GET_ALLOC s.mem pf
  let next ← NEXT_BLKP s.mem bp
  let next_alloc ← GET_ALLOC s.mem (HDRP next)
  let size ← GET_SIZE s.mem (HDRP bp)
  if prev_alloc ≠ 0 ∧ next_alloc ≠ 0 then
    pure ({ s with next_fit_position := bp }, bp)
  else if prev_alloc ≠ 0 ∧ ¬ next_alloc ≠ 0 then do
    let nsz ← GET_SIZE s.mem (HDRP next)
    let size := add32 size nsz
    let m ← PUT s.mem (HDRP bp) (PACK size 0)
    let f ← FTRP m bp
    let m ← PUT m f (PACK size 0)
    pure ({ s with mem := m, next_fit_position := bp }, bp)
  else if ¬ prev_alloc ≠ 0 ∧ next_alloc ≠ 0 then do
    let psz ← GET_SIZE s.mem (HDRP prev)
    let size := add32 size psz
    let f ← FTRP s.mem bp
    let m ← PUT s.mem f (PACK size 0)
    let prev ← PREV_BLKP m bp
    let m ← PUT m (HDRP prev) (PACK size 0)
    let bp ← PREV_BLKP m bp
    pure ({ s with mem := m, next_fit_position := bp }, bp)
  else do
    let psz ← GET_SIZE s.mem (HDRP prev)
    let nf ← FTRP s.mem next
    let nsz ← GET_SIZE s.mem nf
    let size := add32 size (add32 psz nsz)
    let m ← PUT s.mem (HDRP prev) (PACK size 0)
    let next ← NEXT_BLKP m bp
    let f ← FTRP m next
    let m ← PUT m f (PACK size 0)
    let bp ← PREV_BLKP m bp
    pure ({ s with mem := m, next_fit_position := bp }, bp)

/-- `extend_heap(words)`; the returned pointer is `0` (`NULL`) when the facade refuses. -/
def extend_heap (s : State) (words : Nat) : Except Err (State × Nat) := do
  let size := if words % 2 ≠ 0 then mul32 (add32 words 1) WSIZE else mul32 words WSIZE
  match mem_sbrk s.mem size with
  | none => pure (s, 0)
  | some (bp, m) => do
    let m ← PUT m (HDRP bp) (PACK size 0)
    let f ← FTRP m bp
    let m ← PUT m f (PACK size 0)
    let next ← NEXT_BLKP m bp
    let m ← PUT m (HDRP next) (PACK 0 1)
    coalesce { s with mem := m } bp

/-- The `for` loop of `find_fit`, started at `bp`. -/
def findLoop (s : State) (asize : Nat) : Nat → Nat → Except Err (State × Nat)
  | 0, _ => .error .fuel
  | n + 1, bp => do
    let sz ← GET_SIZE s.mem (HDRP bp)
    if sz > 0 then do
      let al ← GET_ALLOC s.mem (HDRP bp)
      if al = 0 ∧ asize ≤ sz then pure ({ s with next_fit_position := bp }, bp)
      else do
        let next ← NEXT_BLKP s.mem bp
        findLoop s asize n next
    else pure ({ s with next_fit_position := s.heap_listp }, 0)

def find_fit (fuel : Nat) (s : State) (asize : Nat) : Except Err (State × Nat) :=
  findLoop s asize fuel s.next_fit_position

def place (s : State) (bp asize : Nat) : Except Err State := do
  let csize ← GET_SIZE s.mem (HDRP bp)
  if sub32 csize asize ≥ 2 * DSIZE then do
    let m ← PUT s.mem (HDRP bp) (PACK asize 1)
    let f ← FTRP m bp
    let m ← PUT m f (PACK asize 1)
    let bp ← NEXT_BLKP m bp
    let m ← PUT m (HDRP bp) (PACK (sub32 csize asize) 0)
    let f ← FTRP m bp
    let m ← PUT m f (PACK (sub32 csize asize) 0)
    pure { s with mem := m }
  else do
    let m ← PUT s.mem (HDRP bp) (PACK csize 1)
    let f ← FTRP m bp
    let m ← PUT m f (PACK csize 1)
    pure { s with mem := m }

/-- `mm_init`; the result is the C return value (`0` or `-1`) with the state reached. -/
def mm_init (m : Mem) : Except Err (State × Int) := do
  match mem_sbrk m (4 * WSIZE) with
  | none => pure ({ mem := m, heap_listp := W32 - 1, next_fit_position := 0 }, -1)
  | some (heap_listp, m) => do
    let m ← PUT m heap_listp 0
    let m ← PUT m (add32 heap_listp (1 * WSIZE)) (PACK DSIZE 1)
    let m ← PUT m (add32 heap_listp (2 * WSIZE)) (PACK DSIZE 1)
    let m ← PUT m (add32 heap_listp (3 * WSIZE)) (PACK 0 1)
    let heap_listp := add32 heap_listp (2 * WSIZE)
    let s : State := { mem := m, heap_listp := heap_listp, next_fit_position := heap_listp }
    let (s, p) ← extend_heap s (CHUNKSIZE / WSIZE)
    if p = 0 then pure (s, -1) else pure (s, 0)

/-- The adjusted block size computed at the top of `mm_malloc`. -/
def adjust (size : Nat) : Nat :=
  if size ≤ DSIZE then 2 * DSIZE
  else mul32 DSIZE ((add32 (add32 size DSIZE) (DSIZE - 1)) / DSIZE)

def mm_malloc (fuel : Nat) (s : State) (size : Nat) : Except Err (State × Nat) := do
  if size = 0 then pure (s, 0)
  else do
    let asize := adjust size
    let (s, bp) ← find_fit fuel s asize
    if bp ≠ 0 then do
      let s ← place s bp asize
      pure (s, bp)
    else do
      let extendsize := MAX asize CHUNKSIZE
      let (s, bp) ← extend_heap s (extendsize / WSIZE)
      if bp = 0 then pure (s, 0)
      else do
        let s ← place s bp asize
        pure (s, bp)

def mm_free (s : State) (bp : Nat) : Except Err State := do
  let size ← GET_SIZE s.mem (HDRP bp)
  let m ← PUT s.mem (HDRP bp) (PACK size 0)
  let f ← FTRP m bp
  let m ← PUT m f (PACK size 0)
  let (s, _) ← coalesce { s with mem := m } bp
  pure s

def mm_realloc (fuel : Nat) (s : State) (ptr size : Nat) : Except Err (State × Nat) := do
  let oldptr := ptr
  let (s, newptr) ← mm_malloc fuel s size
  if newptr = 0 then pure (s, 0)
  else do
    let copySize ← GET_SIZE s.mem (HDRP oldptr)
    let copySize := if size < copySize then size else copySize
    let m ← memcpy s.mem newptr oldptr copySize
    let s ← mm_free { s with mem := m } oldptr
    pure (s, newptr)

end Implicit

/-! ## Explicit variant (`mm_2explicit_comments.c`) -/

namespace Explicit

def WSIZE : Nat := 4
def DSIZE : Nat := 8
def INITSIZE : Nat := 16
def MINBLOCKSIZE : Nat := 16

/-- `ALIGN(size)`: `((size) + 7) & ~0x7` on `size_t`. -/
def ALIGN (size : Nat) : Nat := (add32 size 7) &&& 4294967288

/-- `MAX(x, y)` on `size_t`. -/
def MAX (x y : Nat) : Nat := if x > y then x else y

/-- `PACK(size, alloc)`: `size | alloc`. -/
def PACK (size alloc : Nat) : Nat := size ||| alloc

def PUT (m : Mem) (p val : Nat) : Except Err Mem := store m p val
def GET (m : Mem) (p : Nat) : Except Err Nat := load m p

def GET_SIZE (m : Mem) (p : Nat) : Except Err Nat := do
  let v ← GET m p
  pure (v &&& 4294967288)

def GET_ALLOC (m : Mem) (p : Nat) : Except Err Nat := do
  let v ← GET m p
  pure (v &&& 1)

def HDRP (bp : Nat) : Nat := sub32 bp WSIZE

def FTRP (m : Mem) (bp : Nat) : Except Err Nat := do
  let sz ← GET_SIZE m (HDRP bp)
  pure (sub32 (add32 bp sz) DSIZE)

def NEXT_BLKP (m : Mem) (bp : Nat) : Except Err Nat := do
  let sz ← GET_SIZE m (HDRP bp)
  pure (add32 bp sz)

def PREV_BLKP (m : Mem) (bp : Nat) : Except Err Nat := do
  let sz ← GET_SIZE m (sub32 (HDRP bp) WSIZE)
  pure (sub32 bp sz)

/-- `NEXT_FREE(bp)` read as an rvalue. -/
def NEXT_FREE (m : Mem) (bp : Nat) : Except Err Nat := load m bp
/-- `PREV_FREE(bp)` read as an rvalue. -/
def PREV_FREE (m : Mem) (bp : Nat) : Except Err Nat := load m (add32 bp WSIZE)
/-- `NEXT_FREE(bp) = v`. -/
def setNEXT_FREE (m : Mem) (bp v : Nat) : Except Err Mem := store m bp v
/-- `PREV_FREE(bp) = v`. -/
def setPREV_FREE (m : Mem) (bp v : Nat) : Except Err Mem := store m (add32 bp WSIZE) v

/-- Allocator globals of the explicit variant together with the heap. -/
structure State where
  mem : Mem
  heap_listp : Nat
  free_listp : Nat

def remove_freeblock (s : State) (bp : Nat) : Except Err State := do
  if bp ≠ 0 then do
    let pf ← PREV_FREE s.mem bp
    let s ← (if pf ≠ 0 then do
        let nf ← NEXT_FREE s.mem bp
        let m ← setNEXT_FREE s.mem pf nf
        pure { s with mem := m }
      else do
        let nf ← NEXT_FREE s.mem bp
        pure { s with free_listp := nf } : Except Err State)
    let nf ← NEXT_FREE s.mem bp
    if nf ≠ 0 then do
      let pf ← PREV_FREE s.mem bp
      let m ← setPREV_FREE s.mem nf pf
      pure { s with mem := m }
    else pure s
  else pure s

/-- The insertion at the front of the free list that ends `coalesce`. -/
def pushFront (s : State) (bp : Nat) : Except Err (State × Nat) := do
  let m ← setNEXT_FREE s.mem bp s.free_listp
  let m ← setPREV_FREE m s.free_listp bp
  let m ← setPREV_FREE m bp 0
  pure ({ s with mem := m, free_listp := bp }, bp)

def coalesce (s : State) (bp : Nat) : Except Err (State × Nat) := do
  let prev ← PREV_BLKP s.mem bp
  let pf ← FTRP s.mem prev
  let pa ← GET_ALLOC s.mem pf
  let prev_alloc := if pa ≠ 0 ∨ prev = bp then 1 else 0
  let next ← NEXT_BLKP s.mem bp
  let next_alloc ← GET_ALLOC s.mem (HDRP next)
  let size ← GET_SIZE s.mem (HDRP bp)
  if prev_alloc ≠ 0 ∧ ¬ next_alloc ≠ 0 then do
    let nsz ← GET_SIZE s.mem (HDRP next)
    let size := add32 size nsz
    let s ← remove_freeblock s next
    let m ← PUT s.mem (HDRP bp) (PACK size 0)
    let f ← FTRP m bp
    let m ← PUT m f (PACK size 0)
    pushFront { s with mem := m } bp
  else if ¬ prev_alloc ≠ 0 ∧ next_alloc ≠ 0 then do
    let psz ← GET_SIZE s.mem (HDRP prev)
    let size := add32 size psz
    let bp := prev
    let s ← remove_freeblock s bp
    let m ← PUT s.mem (HDRP bp) (PACK size 0)
    let f ← FTRP m bp
    let m ← PUT m f (PACK size 0)
    pushFront { s with mem := m } bp
  else if ¬ prev_alloc ≠ 0 ∧ ¬ next_alloc ≠ 0 then do
    let psz ← GET_SIZE s.mem (HDRP prev)
    let nsz ← GET_SIZE s.mem (HDRP next)
    let size := add32 size (add32 psz nsz)
    let s ← remove_freeblock s prev
    let next ← NEXT_BLKP s.mem bp
    let s ← remove_freeblock s next
    let bp ← PREV_BLKP s.mem bp
    let m ← PUT s.mem (HDRP bp) (PACK size 0)
    let f ← FTRP m bp
    let m ← PUT m f (PACK size 0)
    pushFront { s with mem := m } bp
  else pushFront s bp

/-- `extend_heap(words)`; the returned pointer is `0` (`NULL`) when the facade refuses. -/
def extend_heap (s : State) (words : Nat) : Except Err (State × Nat) := do
  let asize := if words % 2 ≠ 0 then mul32 (add32 words 1) WSIZE else mul32 words WSIZE
  let asize := if asize < MINBLOCKSIZE then MINBLOCKSIZE else asize
  match mem_sbrk s.mem asize with
  | none => pure (s, 0)
  | some (bp, m) => do
    let m ← PUT m (HDRP bp) (PACK asize 0)
    let f ← FTRP m bp
    let m ← PUT m f (PACK asize 0)
    let next ← NEXT_BLKP m bp
    let m ← PUT m (HDRP next) (PACK 0 1)
    coalesce { s with mem := m } bp

/-- The `for` loop of `find_fit`, started at `bp`. -/
def findLoop (m : Mem) (size : Nat) : Nat → Nat → Except Err Nat
  | 0, _ => .error .fuel
  | n + 1, bp => do
    let al ← GET_ALLOC m (HDRP bp)
    if al = 0 then do
      let sz ← GET_SIZE m (HDRP bp)
      if size ≤ sz then pure bp
      else do
        let nf ← NEXT_FREE m bp
        findLoop m size n nf
    else pure 0

def find_fit (fuel : Nat) (s : State) (size : Nat) : Except Err Nat :=
  findLoop s.mem size fuel s.free_listp

def place (s : State) (bp asize : Nat) : Except Err State := do
  let fsize ← GET_SIZE s.mem (HDRP bp)
  if sub32 fsize asize ≥ MINBLOCKSIZE then do
    let m ← PUT s.mem (HDRP bp) (PACK asize 1)
    let f ← FTRP m bp
    let m ← PUT m f (PACK asize 1)
    let s ← remove_freeblock { s with mem := m } bp
    let bp ← NEXT_BLKP s.mem bp
    let m ← PUT s.mem (HDRP bp) (PACK (sub32 fsize asize) 0)
    let f ← FTRP m bp
    let m ← PUT m f (PACK (sub32 fsize asize) 0)
    let (s, _) ← coalesce { s with mem := m } bp
    pure s
  else do
    let m ← PUT s.mem (HDRP bp) (PACK fsize 1)
    let f ← FTRP m bp
    let m ← PUT m f (PACK fsize 1)
    remove_freeblock { s with mem := m } bp

/-- `mm_init`; the result is the C return value (`0` or `-1`) with the state reached. -/
def mm_init (m : Mem) : Except Err (State × Int) := do
  match mem_sbrk m (INITSIZE + MINBLOCKSIZE) with
  | none => pure ({ mem := m, heap_listp := W32 - 1, free_listp := 0 }, -1)
  | some (heap_listp, m) => do
    let m ← PUT m heap_listp (PACK WSIZE 1)
    let m ← PUT m (add32 heap_listp (1 * WSIZE)) (PACK MINBLOCKSIZE 0)
    let m ← PUT m (add32 heap_listp (2 * WSIZE)) (PACK 0 0)
    let m ← PUT m (add32 heap_listp (3 * WSIZE)) (PACK 0 0)
    let m ← PUT m (add32 heap_listp (4 * WSIZE)) (PACK MINBLOCKSIZE 0)
    let m ← PUT m (add32 heap_listp (5 * WSIZE)) (PACK 0 1)
    pure ({ mem := m, heap_listp := heap_listp, free_listp := add32 heap_listp WSIZE }, 0)

/-- The adjusted block size `MAX(ALIGN(size) + DSIZE, MINBLOCKSIZE)`. -/
def adjust (size : Nat) : Nat := MAX (add32 (ALIGN size) DSIZE) MINBLOCKSIZE

def mm_malloc (fuel : Nat) (s : State) (size : Nat) : Except Err (State × Nat) := do
  if size = 0 then pure (s, 0)
  else do
    let asize := adjust size
    let bp ← find_fit fuel s asize
    if bp ≠ 0 then do
      let s ← place s bp asize
      pure (s, bp)
    else do
      let extendsize := MAX asize MINBLOCKSIZE
      let (s, bp) ← extend_heap s (extendsize / WSIZE)
      if bp = 0 then pure (s, 0)
      else do
        let s ← place s bp asize
        pure (s, bp)

def mm_free (s : State) (bp : Nat) : Except Err State := do
  if bp = 0 then pure s
  else do
    let size ← GET_SIZE s.mem (HDRP bp)
    let m ← PUT s.mem (HDRP bp) (PACK size 0)
    let f ← FTRP m bp
    let m ← PUT m f (PACK size 0)
    let (s, _) ← coalesce { s with mem := m } bp
    pure s

/-- The shrink branch of `mm_realloc` (`asize <= current_size`). -/
def reallocShrink (fuel : Nat) (s : State) (ptr asize current_size : Nat) :
    Except Err (State × Nat) := do
  if asize > MINBLOCKSIZE ∧ sub32 current_size asize > MINBLOCKSIZE then do
    let m ← PUT s.mem (HDRP ptr) (PACK asize 1)
    let f ← FTRP m ptr
    let m ← PUT m f (PACK asize 1)
    let bp ← NEXT_BLKP m ptr
    let m ← PUT m (HDRP bp) (PACK (sub32 current_size asize) 1)
    let f ← FTRP m bp
    let m ← PUT m f (PACK (sub32 current_size asize) 1)
    let s ← mm_free { s with mem := m } bp
    pure (s, ptr)
  else do
    let (s, bp) ← mm_malloc fuel s asize
    let m ← memcpy s.mem bp ptr asize
    let s ← mm_free { s with mem := m } ptr
    pure (s, bp)

/-- The grow branch of `mm_realloc` (`asize > current_size`). -/
def reallocGrow (fuel : Nat) (s : State) (ptr asize current_size next newsize : Nat) :
    Except Err (State × Nat) := do
  let next_alloc ← GET_ALLOC s.mem next
  if next_alloc = 0 ∧ newsize ≥ asize then do
    let nb ← NEXT_BLKP s.mem ptr
    let s ← remove_freeblock s nb
    let m ← PUT s.mem (HDRP ptr) (PACK asize 1)
    let f ← FTRP m ptr
    let m ← PUT m f (PACK asize 1)
    let bp ← NEXT_BLKP m ptr
    let m ← PUT m (HDRP bp) (PACK (sub32 newsize asize) 1)
    let f ← FTRP m bp
    let m ← PUT m f (PACK (sub32 newsize asize) 1)
    let s ← mm_free { s with mem := m } bp
    pure (s, ptr)
  else do
    let (s, bp) ← mm_malloc fuel s asize
    let m ← memcpy s.mem bp ptr current_size
    let s ← mm_free { s with mem := m } ptr
    pure (s, bp)

def mm_realloc (fuel : Nat) (s : State) (ptr size : Nat) : Except Err (State × Nat) := do
  if ptr = 0 then mm_malloc fuel s size
  else if size = 0 then do
    let s ← mm_free s ptr
    pure (s, 0)
  else do
    let asize := adjust size
    let current_size ← GET_SIZE s.mem (HDRP ptr)
    let nb ← NEXT_BLKP s.mem ptr
    let next := HDRP nb
    let nsz ← GET_SIZE s.mem next
    let newsize := add32 current_size nsz
    if asize = current_size then pure (s, ptr)
    else if asize ≤ current_size then reallocShrink fuel s ptr asize current_size
    else reallocGrow fuel s ptr asize current_size next newsize

end Explicit

/-! ## Segregated variant (`mm_3segregated_comment.c`) -/

namespace Seg

def WSIZE : Nat := 4
def DSIZE : Nat := 8
def INITCHUNKSIZE : Nat := 64
def CHUNKSIZE : Nat := 4096
def LISTLIMIT : Nat := 20
def REALLOC_BUFFER : Nat := 128

/-- `ALIGN(size)`: `((size) + 7) & ~0x7` on `size_t`. -/
def ALIGN (size : Nat) : Nat := (add32 size 7) &&& 4294967288

/-- `PACK(size, alloc)`: `size | (alloc & 0x1)`. -/
def PACK (size alloc : Nat) : Nat := size ||| (alloc &&& 1)

def GET (m : Mem) (p : Nat) : Except Err Nat := load m p

def GET_SIZE (m : Mem) (p : Nat) : Except Err Nat := do
  let v ← GET m p
  pure (v &&& 4294967288)

def GET_ALLOC (m : Mem) (p : Nat) : Except Err Nat := do
  let v ← GET m p
  pure (v &&& 1)

def GET_TAG (m : Mem) (p : Nat) : Except Err Nat := do
  let v ← GET m p
  pure (v &&& 2)

/-- `PUT(p, val)`: stores `val | GET_TAG(p)`. -/
def PUT (m : Mem) (p val : Nat) : Except Err Mem := do
  let t ← GET_TAG m p
  store m p (val ||| t)

def PUT_NOTAG (m : Mem) (p val : Nat) : Except Err Mem := store m p val

/-- `SET_RATAG(p)`: only computes `GET(p) | 0x2`; nothing is stored. -/
def SET_RATAG (m : Mem) (p : Nat) : Except Err Nat := do
  let v ← GET m p
  pure (v ||| 2)

/-- `REMOVE_RATAG(p)`: only computes `GET(p) & 0x2`; nothing is stored. -/
def REMOVE_RATAG (m : Mem) (p : Nat) : Except Err Nat := do
  let v ← GET m p
  pure (v &&& 2)

def HDRP (bp : Nat) : Nat := sub32 bp WSIZE

def FTRP (m : Mem) (bp : Nat) : Except Err Nat := do
  let sz ← GET_SIZE m (HDRP bp)
  pure (sub32 (add32 bp sz) DSIZE)

def NEXT_BLKP (m : Mem) (ptr : Nat) : Except Err Nat := do
  let sz ← GET_SIZE m (sub32 ptr WSIZE)
  pure (add32 ptr sz)

def PREV_BLKP (m : Mem) (ptr : Nat) : Except Err Nat := do
  let sz ← GET_SIZE m (sub32 ptr DSIZE)
  pure (sub32 ptr sz)

def SET_PTR (m : Mem) (p ptr : Nat) : Except Err Mem := store m p ptr
def PRED_PTR (ptr : Nat) : Nat := ptr
def SUCC_PTR (ptr : Nat) : Nat := add32 ptr WSIZE
def PRED (m : Mem) (ptr : Nat) : Except Err Nat := load m ptr
def SUCC (m : Mem) (ptr : Nat) : Except Err Nat := load m (SUCC_PTR ptr)

/-- `MAX` on `int`. -/
def MAX (x y : Int) : Int := if x > y then x else y
/-- `MIN` on `int`. -/
def MIN (x y : Int) : Int := if x < y then x else y

/-- Allocator globals of the segregated variant together with the heap. -/
structure State where
  mem : Mem
  segregated_free_lists : Nat → Nat

def State.setList (s : State) (list ptr : Nat) : State :=
  { s with segregated_free_lists := fun k => if k = list then ptr else s.segregated_free_lists k }

/-- The bucket-selection loop `while ((list < LISTLIMIT - 1) && (size > 1))` shared by
`insert_node` and `delete_node`; it runs at most `LISTLIMIT - 1` times. Returns `(list, size)`. -/
def bucketLoop : Nat → Nat → Nat → Nat × Nat
  | 0, list, size => (list, size)
  | n + 1, list, size =>
    if list < LISTLIMIT - 1 ∧ size > 1 then bucketLoop n (list + 1) (size >>> 1) else (list, size)

/-- The ordering loop of `insert_node`. Returns `(search_ptr, insert_ptr)`. -/
def insertWalk (m : Mem) (size : Nat) : Nat → Nat → Nat → Except Err (Nat × Nat)
  | 0, _, _ => .error .fuel
  | n + 1, search_ptr, insert_ptr =>
    if search_ptr ≠ 0 then do
      let sz ← GET_SIZE m (HDRP search_ptr)
      if size > sz then do
        let p ← PRED m search_ptr
        insertWalk m size n p search_ptr
      else pure (search_ptr, insert_ptr)
    else pure (search_ptr, insert_ptr)

def insert_node (fuel : Nat) (s : State) (ptr size : Nat) : Except Err State := do
  let (list, size) := bucketLoop (LISTLIMIT - 1) 0 size
  let search_ptr := s.segregated_free_lists list
  let (search_ptr, insert_ptr) ← insertWalk s.mem size fuel search_ptr 0
  if search_ptr ≠ 0 then
    if insert_ptr ≠ 0 then do
      let m ← SET_PTR s.mem (SUCC_PTR search_ptr) ptr
      let m ← SET_PTR m (PRED_PTR ptr) search_ptr
      let m ← SET_PTR m (SUCC_PTR ptr) insert_ptr
      let m ← SET_PTR m (PRED_PTR insert_ptr) ptr
      pure { s with mem := m }
    else do
      let m ← SET_PTR s.mem (PRED_PTR ptr) search_ptr
      let m ← SET_PTR m (SUCC_PTR search_ptr) ptr
      let m ← SET_PTR m (SUCC_PTR ptr) 0
      pure ({ s with mem := m }.setList list ptr)
  else
    if insert_ptr ≠ 0 then do
      let m ← SET_PTR s.mem (PRED_PTR ptr) 0
      let m ← SET_PTR m (SUCC_PTR ptr) insert_ptr
      let m ← SET_PTR m (PRED_PTR insert_ptr) ptr
      pure { s with mem := m }
    else do
      let m ← SET_PTR s.mem (PRED_PTR ptr) 0
      let m ← SET_PTR m (SUCC_PTR ptr) 0
      pure ({ s with mem := m }.setList list ptr)

def delete_node (s : State) (ptr : Nat) : Except Err State := do
  let size ← GET_SIZE s.mem (HDRP ptr)
  let (list, _) := bucketLoop (LISTLIMIT - 1) 0 size
  let pred ← PRED s.mem ptr
  if pred ≠ 0 then do
    let succ ← SUCC s.mem ptr
    if succ ≠ 0 then do
      let m ← SET_PTR s.mem (SUCC_PTR pred) succ
      let succ ← SUCC m ptr
      let pred ← PRED m ptr
      let m ← SET_PTR m (PRED_PTR succ) pred
      pure { s with mem := m }
    else do
      let m ← SET_PTR s.mem (SUCC_PTR pred) 0
      let pred ← PRED m ptr
      pure ({ s with mem := m }.setList list pred)
  else do
    let succ ← SUCC s.mem ptr
    if succ ≠ 0 then do
      let m ← SET_PTR s.mem (PRED_PTR succ) 0
      pure { s with mem := m }
    else
      pure (s.setList list 0)


def coalesce (fuel : Nat) (s : State) (ptr : Nat) : Except Err (State × Nat) := do
  let prev ← PREV_BLKP s.mem ptr
  let prev_alloc ← GET_ALLOC s.mem (HDRP prev)
  let next ← NEXT_BLKP s.mem ptr
  let next_alloc ← GET_ALLOC s.mem (HDRP next)
  let size ← GET_SIZE s.mem (HDRP ptr)
  let tag ← GET_TAG s.mem (HDRP prev)
  let prev_alloc := if tag ≠ 0 then 1 else prev_alloc
  if prev_alloc ≠ 0 ∧ next_alloc ≠ 0 then
    pure (s, ptr)
  else if prev_alloc ≠ 0 ∧ ¬ next_alloc ≠ 0 then do
    let s ← delete_node s ptr
    let next ← NEXT_BLKP s.mem ptr
    let s ← delete_node s next
    let next ← NEXT_BLKP s.mem ptr
    let nsz ← GET_SIZE s.mem (HDRP next)
    let size := add32 size nsz
    let m ← PUT s.mem (HDRP ptr) (PACK size 0)
    let f ← FTRP m ptr
    let m ← PUT m f (PACK size 0)
    let s ← insert_node fuel { s with mem := m } ptr size
    pure (s, ptr)
  else if ¬ prev_alloc ≠ 0 ∧ next_alloc ≠ 0 then do
    let s ← delete_node s ptr
    let prev ← PREV_BLKP s.mem ptr
    let s ← delete_node s prev
    let prev ← PREV_BLKP s.mem ptr
    let psz ← GET_SIZE s.mem (HDRP prev)
    let size := add32 size psz
    let f ← FTRP s.mem ptr
    let m ← PUT s.mem f (PACK size 0)
    let prev ← PREV_BLKP m ptr
    let m ← PUT m (HDRP prev) (PACK size 0)
    let ptr ← PREV_BLKP m ptr
    let s ← insert_node fuel { s with mem := m } ptr size
    pure (s, ptr)
  else do
    let s ← delete_node s ptr
    let prev ← PREV_BLKP s.mem ptr
    let s ← delete_node s prev
    let next ← NEXT_BLKP s.mem ptr
    let s ← delete_node s next
    let prev ← PREV_BLKP s.mem ptr
    let psz ← GET_SIZE s.mem (HDRP prev)
    let next ← NEXT_BLKP s.mem ptr
    let nsz ← GET_SIZE s.mem (HDRP next)
    let size := add32 size (add32 psz nsz)
    let m ← PUT s.mem (HDRP prev) (PACK size 0)
    let next ← NEXT_BLKP m ptr
    let f ← FTRP m next
    let m ← PUT m f (PACK size 0)
    let ptr ← PREV_BLKP m ptr
    let s ← insert_node fuel { s with mem := m } ptr size
    pure (s, ptr)

/-- `extend_heap(size)`; the returned pointer is `0` (`NULL`) when the facade refuses. -/
def extend_heap (fuel : Nat) (s : State) (size : Nat) : Except Err (State × Nat) := do
  let asize := ALIGN size
  match mem_sbrk s.mem asize with
  | none => pure (s, 0)
  | some (ptr, m) => do
    let m ← PUT_NOTAG m (HDRP ptr) (PACK asize 0)
    let f ← FTRP m ptr
    let m ← PUT_NOTAG m f (PACK asize 0)
    let next ← NEXT_BLKP m ptr
    let m ← PUT_NOTAG m (HDRP next) (PACK 0 1)
    let s ← insert_node fuel { s with mem := m } ptr asize
    coalesce fuel s ptr

def place (fuel : Nat) (s : State) (ptr asize : Nat) : Except Err (State × Nat) := do
  let ptr_size ← GET_SIZE s.mem (HDRP ptr)
  let remainder := sub32 ptr_size asize
  let s ← delete_node s ptr
  if remainder ≤ DSIZE * 2 then do
    let m ← PUT s.mem (HDRP ptr) (PACK ptr_size 1)
    let f ← FTRP m ptr
    let m ← PUT m f (PACK ptr_size 1)
    pure ({ s with mem := m }, ptr)
  else if asize ≥ 100 then do
    let m ← PUT s.mem (HDRP ptr) (PACK remainder 0)
    let f ← FTRP m ptr
    let m ← PUT m f (PACK remainder 0)
    let next ← NEXT_BLKP m ptr
    let m ← PUT_NOTAG m (HDRP next) (PACK asize 1)
    let next ← NEXT_BLKP m ptr
    let f ← FTRP m next
    let m ← PUT_NOTAG m f (PACK asize 1)
    let s ← insert_node fuel { s with mem := m } ptr remainder
    let next ← NEXT_BLKP s.mem ptr
    pure (s, next)
  else do
    let m ← PUT s.mem (HDRP ptr) (PACK asize 1)
    let f ← FTRP m ptr
    let m ← PUT m f (PACK asize 1)
    let next ← NEXT_BLKP m ptr
    let m ← PUT_NOTAG m (HDRP next) (PACK remainder 0)
    let next ← NEXT_BLKP m ptr
    let f ← FTRP m next
    let m ← PUT_NOTAG m f (PACK remainder 0)
    let next ← NEXT_BLKP m ptr
    let s ← insert_node fuel { s with mem := m } next remainder
    pure (s, ptr)

/-- `mm_init`; the result is the C return value (`0` or `-1`) with the state reached. -/
def mm_init (fuel : Nat) (m : Mem) : Except Err (State × Int) := do
  let s : State := { mem := m, segregated_free_lists := fun _ => 0 }
  match mem_sbrk s.mem (4 * WSIZE) with
  | none => pure (s, -1)
  | some (heap_start, m) => do
    let m ← PUT_NOTAG m heap_start 0
    let m ← PUT_NOTAG m (add32 heap_start (1 * WSIZE)) (PACK DSIZE 1)
    let m ← PUT_NOTAG m (add32 heap_start (2 * WSIZE)) (PACK DSIZE 1)
    let m ← PUT_NOTAG m (add32 heap_start (3 * WSIZE)) (PACK 0 1)
    let (s, p) ← extend_heap fuel { s with mem := m } INITCHUNKSIZE
    if p = 0 then pure (s, -1) else pure (s, 0)

/-- The inner traversal of the fit search in `mm_malloc`. -/
def fitWalk (m : Mem) (asize : Nat) : Nat → Nat → Except Err Nat
  | 0, _ => .error .fuel
  | n + 1, ptr =>
    if ptr ≠ 0 then do
      let sz ← GET_SIZE m (HDRP ptr)
      let t ← GET_TAG m (HDRP ptr)
      if asize > sz ∨ t ≠ 0 then do
        let p ← PRED m ptr
        fitWalk m asize n p
      else pure ptr
    else pure ptr

/-- The loop `while (list < LISTLIMIT)` of `mm_malloc`; the first argument counts the
iterations that remain. Returns `ptr`. -/
def fitLists (fuel : Nat) (s : State) (asize : Nat) : Nat → Nat → Nat → Except Err Nat
  | 0, _, _ => pure 0
  | n + 1, list, searchsize =>
    if list = LISTLIMIT - 1 ∨ (searchsize ≤ 1 ∧ s.segregated_free_lists list ≠ 0) then do
      let ptr ← fitWalk s.mem asize fuel (s.segregated_free_lists list)
      if ptr ≠ 0 then pure ptr
      else fitLists fuel s asize n (list + 1) (searchsize >>> 1)
    else fitLists fuel s asize n (list + 1) (searchsize >>> 1)

/-- The adjusted block size computed at the top of `mm_malloc` and `mm_realloc`. -/
def adjust (size : Nat) : Nat :=
  if size ≤ DSIZE then 2 * DSIZE else ALIGN (add32 size DSIZE)

def mm_malloc (fuel : Nat) (s : State) (size : Nat) : Except Err (State × Nat) := do
  if size = 0 then pure (s, 0)
  else do
    let asize := adjust size
    let ptr ← fitLists fuel s asize LISTLIMIT 0 asize
    if ptr = 0 then do
      let extendsize := ofInt32 (MAX (toInt32 asize) (toInt32 CHUNKSIZE))
      let (s, ptr) ← extend_heap fuel s extendsize
      if ptr = 0 then pure (s, 0)
      else place fuel s ptr asize
    else place fuel s ptr asize

def mm_free (fuel : Nat) (s : State) (ptr : Nat) : Except Err State := do
  let size ← GET_SIZE s.mem (HDRP ptr)
  let next ← NEXT_BLKP s.mem ptr
  let _ ← REMOVE_RATAG s.mem (HDRP next)
  let m ← PUT s.mem (HDRP ptr) (PACK size 0)
  let f ← FTRP m ptr
  let m ← PUT m f (PACK size 0)
  let s ← insert_node fuel { s with mem := m } ptr size
  let (s, _) ← coalesce fuel s ptr
  pure s

def mm_realloc (fuel : Nat) (s : State) (ptr size : Nat) : Except Err (State × Nat) := do
  if size = 0 then pure (s, 0)
  else do
    let new_size := add32 (adjust size) REALLOC_BUFFER
    let cur ← GET_SIZE s.mem (HDRP ptr)
    let balancer := toInt32 (sub32 cur new_size)
    if balancer < 0 then do
      let next ← NEXT_BLKP s.mem ptr
      let next_alloc ← GET_ALLOC s.mem (HDRP next)
      let next_size ← GET_SIZE s.mem (HDRP next)
      if next_alloc = 0 ∨ next_size = 0 then do
        let remainder := toInt32 (sub32 (add32 cur next_size) new_size)
        let grow (s : State) (remainder : Int) : Except Err (State × Nat) := do
          let next ← NEXT_BLKP s.mem ptr
          let s ← delete_node s next
          let m ← PUT_NOTAG s.mem (HDRP ptr) (PACK (add32 new_size (ofInt32 remainder)) 1)
          let f ← FTRP m ptr
          let m ← PUT_NOTAG m f (PACK (add32 new_size (ofInt32 remainder)) 1)
          let sz ← GET_SIZE m (HDRP ptr)
          let balancer := toInt32 (sub32 sz new_size)
          if balancer < 2 * REALLOC_BUFFER then do
            let next ← NEXT_BLKP m ptr
            let _ ← SET_RATAG m (HDRP next)
            pure ({ s with mem := m }, ptr)
          else pure ({ s with mem := m }, ptr)
        if remainder < 0 then do
          let extendsize := MAX (wrapInt (-remainder)) (toInt32 CHUNKSIZE)
          let (s, p) ← extend_heap fuel s (ofInt32 extendsize)
          if p = 0 then pure (s, 0)
          else grow s (wrapInt (remainder + extendsize))
        else grow s remainder
      else do
        let (s, new_ptr) ← mm_malloc fuel s (sub32 new_size DSIZE)
        let m ← memcpy s.mem new_ptr ptr (ofInt32 (MIN (toInt32 size) (toInt32 new_size)))
        let s ← mm_free fuel { s with mem := m } ptr
        let sz ← GET_SIZE s.mem (HDRP new_ptr)
        let balancer := toInt32 (sub32 sz new_size)
        if balancer < 2 * REALLOC_BUFFER then do
          let next ← NEXT_BLKP s.mem new_ptr
          let _ ← SET_RATAG s.mem (HDRP next)
          pure (s, new_ptr)
        else pure (s, new_ptr)
    else
      if balancer < 2 * REALLOC_BUFFER then do
        let next ← NEXT_BLKP s.mem ptr
        let _ ← SET_RATAG s.mem (HDRP next)
        pure (s, ptr)
      else pure (s, ptr)

end Seg

/-! ## The `mm.c` allocator (explicit list with the prologue as list head) -/

namespace Mm

def WSIZE : Nat := 4
def DSIZE : Nat := 8
def CHUNKSIZE : Nat := 4096

/-- `MAX(x, y)` on `size_t`. -/
def MAX (x y : Nat) : Nat := if x > y then x else y

/-- `PACK(size, alloc)`: `size | alloc`. -/
def PACK (size alloc : Nat) : Nat := size ||| alloc

def GET (m : Mem) (p : Nat) : Except Err Nat := load m p
def PUT (m : Mem) (p val : Nat) : Except Err Mem := store m p val

def GET_SIZE (m : Mem) (p : Nat) : Except Err Nat := do
  let v ← GET m p
  pure (v &&& 4294967288)

def GET_ALLOC (m : Mem) (p : Nat) : Except Err Nat := do
  let v ← GET m p
  pure (v &&& 1)

def HDRP (bp : Nat) : Nat := sub32 bp WSIZE

def FTRP (m : Mem) (bp : Nat) : Except Err Nat := do
  let sz ← GET_SIZE m (HDRP bp)
  pure (sub32 (add32 bp sz) DSIZE)

def NEXT_BLKP (m : Mem) (bp : Nat) : Except Err Nat := do
  let sz ← GET_SIZE m (sub32 bp WSIZE)
  pure (add32 bp sz)

def PREV_BLKP (m : Mem) (bp : Nat) : Except Err Nat := do
  let sz ← GET_SIZE m (sub32 bp DSIZE)
  pure (sub32 bp sz)

/-- `PRED_P(bp)` read as an rvalue. -/
def PRED_P (m : Mem) (bp : Nat) : Except Err Nat := load m bp
/-- `SUCC_P(bp)` read as an rvalue. -/
def SUCC_P (m : Mem) (bp : Nat) : Except Err Nat := load m (add32 bp WSIZE)
/-- `PRED_P(bp) = v`. -/
def setPRED_P (m : Mem) (bp v : Nat) : Except Err Mem := store m bp v
/-- `SUCC_P(bp) = v`. -/
def setSUCC_P (m : Mem) (bp v : Nat) : Except Err Mem := store m (add32 bp WSIZE) v

/-- Allocator globals of `mm.c` together with the heap. -/
structure State where
  mem : Mem
  heap_listp : Nat

def list_add (s : State) (p : Nat) : Except Err State := do
  let hs ← SUCC_P s.mem s.heap_listp
  let m ← setSUCC_P s.mem p hs
  let m ← setPRED_P m p s.heap_listp
  let hs ← SUCC_P m s.heap_listp
  let m ← setPRED_P m hs p
  let m ← setSUCC_P m s.heap_listp p
  pure { s with mem := m }

def list_remove (s : State) (p : Nat) : Except Err State := do
  let pp ← PRED_P s.mem p
  let sp ← SUCC_P s.mem p
  let m ← setSUCC_P s.mem pp sp
  let sp ← SUCC_P m p
  let pp ← PRED_P m p
  let m ← setPRED_P m sp pp
  pure { s with mem := m }

def coalesce (s : State) (bp : Nat) : Except Err (State × Nat) := do
  let prev ← PREV_BLKP s.mem bp
  let pf ← FTRP s.mem prev
  let prev_alloc ← GET_ALLOC s.mem pf
  let next ← NEXT_BLKP s.mem bp
  let next_alloc ← GET_ALLOC s.mem (HDRP next)
  let size ← GET_SIZE s.mem (HDRP bp)
  if prev_alloc ≠ 0 ∧ ¬ next_alloc ≠ 0 then do
    let next ← NEXT_BLKP s.mem bp
    let s ← list_remove s next
    let next ← NEXT_BLKP s.mem bp
    let nsz ← GET_SIZE s.mem (HDRP next)
    let size := add32 size nsz
    let m ← PUT s.mem (HDRP bp) (PACK size 0)
    let f ← FTRP m bp
    let m ← PUT m f (PACK size 0)
    let s ← list_add { s with mem := m } bp
    pure (s, bp)
  else if ¬ prev_alloc ≠ 0 ∧ next_alloc ≠ 0 then do
    let prev ← PREV_BLKP s.mem bp
    let s ← list_remove s prev
    let prev ← PREV_BLKP s.mem bp
    let psz ← GET_SIZE s.mem (HDRP prev)
    let size := add32 size psz
    let f ← FTRP s.mem bp
    let m ← PUT s.mem f (PACK size 0)
    let prev ← PREV_BLKP m bp
    let m ← PUT m (HDRP prev) (PACK size 0)
    let bp ← PREV_BLKP m bp
    let s ← list_add { s with mem := m } bp
    pure (s, bp)
  else if ¬ prev_alloc ≠ 0 ∧ ¬ next_alloc ≠ 0 then do
    let prev ← PREV_BLKP s.mem bp
    let s ← list_remove s prev
    let next ← NEXT_BLKP s.mem bp
    let s ← list_remove s next
    let prev ← PREV_BLKP s.mem bp
    let psz ← GET_SIZE s.mem (HDRP prev)
    let next ← NEXT_BLKP s.mem bp
    let nf ← FTRP s.mem next
    let nsz ← GET_SIZE s.mem nf
    let size := add32 size (add32 psz nsz)
    let prev ← PREV_BLKP s.mem bp
    let m ← PUT s.mem (HDRP prev) (PACK size 0)
    let next ← NEXT_BLKP m bp
    let f ← FTRP m next
    let m ← PUT m f (PACK size 0)
    let bp ← PREV_BLKP m bp
    let s ← list_add { s with mem := m } bp
    pure (s, bp)
  else do
    let s ← list_add s bp
    pure (s, bp)

/-- `extend_heap(words)`; the returned pointer is `0` (`NULL`) when the facade refuses. -/
def extend_heap (s : State) (words : Nat) : Except Err (State × Nat) := do
  let size := if words % 2 ≠ 0 then mul32 (add32 words 1) WSIZE else mul32 words WSIZE
  match mem_sbrk s.mem size with
  | none => pure (s, 0)
  | some (bp, m) => do
    let m ← PUT m (HDRP bp) (PACK size 0)
    let f ← FTRP m bp
    let m ← PUT m f (PACK size 0)
    let next ← NEXT_BLKP m bp
    let m ← PUT m (HDRP next) (PACK 0 1)
    coalesce { s with mem := m } bp

/-- `mm_init`; the result is the C return value (`0` or `-1`) with the state reached. -/
def mm_init (m : Mem) : Except Err (State × Int) := do
  match mem_sbrk m (6 * WSIZE) with
  | none => pure ({ mem := m, heap_listp := W32 - 1 }, -1)
  | some (heap_listp, m) => do
    let m ← PUT m heap_listp 0
    let m ← PUT m (add32 heap_listp (1 * WSIZE)) (PACK (2 * DSIZE) 1)
    let m ← PUT m (add32 heap_listp (2 * WSIZE)) (add32 heap_listp (3 * WSIZE))
    let m ← PUT m (add32 heap_listp (3 * WSIZE)) (add32 heap_listp (2 * WSIZE))
    let m ← PUT m (add32 heap_listp (4 * WSIZE)) (PACK (2 * DSIZE) 1)
    let m ← PUT m (add32 heap_listp (5 * WSIZE)) (PACK 0 1)
    let heap_listp := add32 heap_listp (2 * WSIZE)
    let (s, p) ← extend_heap { mem := m, heap_listp := heap_listp } (CHUNKSIZE / WSIZE)
    if p = 0 then pure (s, -1) else pure (s, 0)

/-- The `for` loop of `find_fit`, started at `ptr`. -/
def findLoop (m : Mem) (asize : Nat) : Nat → Nat → Except Err Nat
  | 0, _ => .error .fuel
  | n + 1, ptr => do
    let al ← GET_ALLOC m (HDRP ptr)
    if al = 0 then do
      let sz ← GET_SIZE m (HDRP ptr)
      if asize ≤ sz then pure ptr
      else do
        let nx ← SUCC_P m ptr
        findLoop m asize n nx
    else pure 0

def find_fit (fuel : Nat) (s : State) (asize : Nat) : Except Err Nat := do
  let ptr ← SUCC_P s.mem s.heap_listp
  findLoop s.mem asize fuel ptr

def place (s : State) (p size : Nat) : Except Err State := do
  let free_block ← GET_SIZE s.mem (HDRP p)
  let s ← list_remove s p
  if sub32 free_block size ≥ 2 * DSIZE then do
    let m ← PUT s.mem (HDRP p) (PACK size 1)
    let f ← FTRP m p
    let m ← PUT m f (PACK size 1)
    let p ← NEXT_BLKP m p
    let m ← PUT m (HDRP p) (PACK (sub32 free_block size) 0)
    let f ← FTRP m p
    let m ← PUT m f (PACK (sub32 free_block size) 0)
    list_add { s with mem := m } p
  else do
    let m ← PUT s.mem (HDRP p) (PACK free_block 1)
    let f ← FTRP m p
    let m ← PUT m f (PACK free_block 1)
    pure { s with mem := m }

/-- The adjusted block size computed at the top of `mm_malloc`. -/
def adjust (size : Nat) : Nat :=
  if size ≤ DSIZE then 2 * DSIZE
  else mul32 DSIZE ((add32 (add32 size DSIZE) (DSIZE - 1)) / DSIZE)

def mm_malloc (fuel : Nat) (s : State) (size : Nat) : Except Err (State × Nat) := do
  if size = 0 then pure (s, 0)
  else do
    let asize := adjust size
    let bp ← find_fit fuel s asize
    if bp ≠ 0 then do
      let s ← place s bp asize
      pure (s, bp)
    else do
      let extendsize := MAX asize CHUNKSIZE
      let (s, bp) ← extend_heap s (extendsize / WSIZE)
      if bp = 0 then pure (s, 0)
      else do
        let s ← place s bp asize
        pure (s, bp)

def mm_free (s : State) (ptr : Nat) : Except Err State := do
  let size ← GET_SIZE s.mem (HDRP ptr)
  let m ← PUT s.mem (HDRP ptr) (PACK size 0)
  let f ← FTRP m ptr
  let m ← PUT m f (PACK size 0)
  let (s, _) ← coalesce { s with mem := m } ptr
  pure s

/-- The in-place branch of `mm_realloc`, entered when the next block is free and
`cur_block_size > size`; `none` stands for falling through to the allocate-copy-release
path (`remained > next_block_size`). -/
def reallocInPlace (s : State) (ptr size : Nat) : Except Err (Option State) := do
  let next ← NEXT_BLKP s.mem ptr
  let next_block_size ← GET_SIZE s.mem (HDRP next)
  let cur ← GET_SIZE s.mem (HDRP ptr)
  let remained := sub32 size cur
  if remained ≤ next_block_size then
    if 16 ≤ sub32 next_block_size remained then do
      let m ← PUT s.mem (HDRP ptr) (PACK size 1)
      let f ← FTRP m ptr
      let m ← PUT m f (PACK size 1)
      let next ← NEXT_BLKP m ptr
      let m ← PUT m (HDRP next) (PACK (sub32 next_block_size remained) 0)
      let next ← NEXT_BLKP m ptr
      let f ← FTRP m next
      let m ← PUT m f (PACK (sub32 next_block_size remained) 0)
      let next ← NEXT_BLKP m ptr
      let (s, _) ← coalesce { s with mem := m } next
      pure (some s)
    else do
      let cur_size ← GET_SIZE s.mem (HDRP ptr)
      let next ← NEXT_BLKP s.mem ptr
      let next_size ← GET_SIZE s.mem (HDRP next)
      let m ← PUT s.mem (HDRP ptr) (PACK (add32 cur_size next_size) 1)
      let f ← FTRP m ptr
      let m ← PUT m f (PACK (add32 cur_size next_size) 1)
      pure (some { s with mem := m })
  else pure none

/-- The allocate-copy-release path that ends `mm_realloc`. -/
def reallocCopy (fuel : Nat) (s : State) (ptr size : Nat) : Except Err (State × Nat) := do
  let oldptr := ptr
  let (s, newptr) ← mm_malloc fuel s size
  if newptr = 0 then pure (s, 0)
  else do
    let h ← load s.mem (sub32 oldptr WSIZE)
    let copySize := sub32 h 1
    let copySize := if size < copySize then size else copySize
    let m ← memcpy s.mem newptr oldptr copySize
    let s ← mm_free { s with mem := m } oldptr
    pure (s, newptr)

def mm_realloc (fuel : Nat) (s : State) (ptr size : Nat) : Except Err (State × Nat) := do
  let cur_block_size ← GET_SIZE s.mem (HDRP ptr)
  if size = cur_block_size then pure (s, ptr)
  else do
    let next ← NEXT_BLKP s.mem ptr
    let next_alloc ← GET_ALLOC s.mem (HDRP next)
    if next_alloc = 0 ∧ cur_block_size > size then do
      let r ← reallocInPlace s ptr size
      match r with
      | some s => pure (s, ptr)
      | none => reallocCopy fuel s ptr size
    else reallocCopy fuel s ptr size

end Mm

/-! ## Concrete runs used as witnesses and counterexamples -/

namespace Seg

/-- The run `mm_init(); a = mm_malloc(1); b = mm_malloc(1); c = mm_malloc(1); mm_free(b);
q = mm_realloc(a, 100)` on a fresh zeroed arena starting at address 4096. The result is
`(a, c, q, size in the header of q)`; `c` is never released. -/
def growRun : Except Err (Nat × Nat × Nat × Nat) := do
  let (s, _) ← mm_init 8 (zeroMem 4096 1000000)
  let (s, a) ← mm_malloc 8 s 1
  let (s, b) ← mm_malloc 8 s 1
  let (s, c) ← mm_malloc 8 s 1
  let s ← mm_free 8 s b
  let (s, q) ← mm_realloc 8 s a 100
  let sz ← GET_SIZE s.mem (HDRP q)
  pure (a, c, q, sz)

/-- The run `mm_init(); mm_free(NULL)` on a fresh zeroed arena starting at address 4096. -/
def freeNullRun : Except Err State := do
  let (s, _) ← mm_init 8 (zeroMem 4096 1000000)
  mm_free 8 s 0

end Seg

namespace Explicit

/-- The header word and the footer word of the block at `bp`. -/
def tags (m : Mem) (bp : Nat) : Except Err (Nat × Nat) := do
  let h ← GET m (HDRP bp)
  let f ← FTRP m bp
  let t ← GET m f
  pure (h, t)

/-- The run `mm_init(); p = mm_malloc(8); q = mm_malloc(16); r = mm_malloc(8); mm_free(q);
p2 = mm_realloc(p, 24)` on a fresh zeroed arena starting at address 4096. The result is
`(p, r, p2, block after p2, tags of that block, header word of r, word at r + 8)`; the word at
`r + 8` is the footer that `mm_malloc` wrote for the 16-byte block of `r`. -/
def mergeRun : Except Err (Nat × Nat × Nat × Nat × (Nat × Nat) × Nat × Nat) := do
  let (s, _) ← mm_init (zeroMem 4096 1000000)
  let (s, p) ← mm_malloc 8 s 8
  let (s, q) ← mm_malloc 8 s 16
  let (s, r) ← mm_malloc 8 s 8
  let s ← mm_free s q
  let (s, p2) ← mm_realloc 8 s p 24
  let nb ← NEXT_BLKP s.mem p2
  let t ← tags s.mem nb
  let hr ← GET s.mem (HDRP r)
  let fr ← GET s.mem (add32 r 8)
  pure (p, r, p2, nb, t, hr, fr)

end Explicit

/-! ## Reachable states -/

namespace Implicit

/-- States reachable from `mm_init` on the facade state `m0` by valid calls of `mm_malloc`,
`mm_free` and `mm_realloc`, with the list of live pointers (returned and not yet released).
`okSize` restricts the request sizes that are considered. A call is valid when the pointer
it releases or resizes is live. -/
inductive Reach (okSize : Nat → Prop) (m0 : Mem) : State → List Nat → Prop
  | init {s : State} : mm_init m0 = .ok (s, 0) → Reach okSize m0 s []
  | malloc {s s' : State} {L : List Nat} {fuel n p : Nat} :
      Reach okSize m0 s L → okSize n → mm_malloc fuel s n = .ok (s', p) →
      Reach okSize m0 s' (if p = 0 then L else p :: L)
  | free {s s' : State} {L : List Nat} {p : Nat} :
      Reach okSize m0 s L → p ∈ L → mm_free s p = .ok s' →
      Reach okSize m0 s' (L.erase p)
  | realloc {s s' : State} {L : List Nat} {fuel p n q : Nat} :
      Reach okSize m0 s L → p ∈ L → okSize n → mm_realloc fuel s p n = .ok (s', q) →
      Reach okSize m0 s' (if q = 0 then L else q :: L.erase p)

/-- The alignment facts carried along every run. -/
def Aligned (s : State) : Prop :=
  s.heap_listp % 8 = 0 ∧ s.next_fit_position % 8 = 0 ∧ s.mem.brk % 8 = 0

/-- The state that `mm_init` builds on the fresh zeroed arena starting at address 4096. -/
def initState : State :=
  match mm_init (zeroMem 4096 1000000) with
  | .ok (s, _) => s
  | .error _ => { mem := zeroMem 4096 1000000, heap_listp := 0, next_fit_position := 0 }

end Implicit

/-! ## The block structure of a heap -/

/-- A block of the heap: the address of its payload, its size in bytes (header and footer
included) and its allocation bit. -/
structure Blk where
  addr : Nat
  size : Nat
  alloc : Bool

/-- The boundary-tag word of a block: `size | alloc`. -/
def Blk.tag (b : Blk) : Nat := b.size + b.alloc.toNat

/-- The blocks `bs` lie one after the other from payload address `a` to payload address `e`;
sizes are multiples of 8 and only the last block may have size 0. -/
def Tiles : Nat → List Blk → Nat → Prop
  | a, [], e => a = e
  | a, b :: bs, e =>
      b.addr = a ∧ b.size % 8 = 0 ∧ (bs ≠ [] → 8 ≤ b.size) ∧ Tiles (a + b.size) bs e

/-- No two consecutive blocks are both free. -/
def NoAdjFree (bs : List Blk) : Prop :=
  List.Chain' (fun x y => x.alloc = true ∨ y.alloc = true) bs

namespace Implicit

/-- The heap of state `s` is laid out as the block list `B`: a prologue of size 8 at
`heap_listp`, then the blocks proper, then the epilogue of size 0 at the break;
every block carries its tag in its header and (when its size is not 0) in its footer, and
the rover is the payload address of one of the blocks. -/
structure Rep (s : State) (B : List Blk) : Prop where
  hi_lt : s.mem.hi < W32
  brk_le : s.mem.brk ≤ s.mem.hi
  hl_ge : s.mem.lo + 8 ≤ s.heap_listp
  hl8 : s.heap_listp % 8 = 0
  head : B.head? = some ⟨s.heap_listp, 8, true⟩
  last : B.getLast? = some ⟨s.mem.brk, 0, true⟩
  tiles : Tiles s.heap_listp B s.mem.brk
  hdr : ∀ b ∈ B, load s.mem (b.addr - 4) = .ok b.tag
  ftr : ∀ b ∈ B, b.size ≠ 0 → load s.mem (b.addr + b.size - 8) = .ok b.tag
  rover : ∃ b ∈ B, b.addr = s.next_fit_position

/-- The invariant of the runs: the heap is laid out as some block list without two
consecutive free blocks, and the live pointers are distinct allocated blocks of it. -/
def Inv (s : State) (L : List Nat) : Prop :=
  ∃ B, Rep s B ∧ NoAdjFree B ∧ L.Nodup ∧
    ∀ p ∈ L, ∃ b ∈ B, b.addr = p ∧ b.alloc = true ∧ 16 ≤ b.size

/-- The scan of the heap by boundary tags, from the block at `bp` up to the first block of
size 0 (the epilogue): the list of `(size, alloc)` read from the headers. -/
def scan (m : Mem) : Nat → Nat → Except Err (List (Nat × Nat))
  | 0, _ => .error .fuel
  | n + 1, bp => do
    let sz ← GET_SIZE m (HDRP bp)
    let al ← GET_ALLOC m (HDRP bp)
    if sz = 0 then pure [(sz, al)]
    else do
      let rest ← scan m n (add32 bp sz)
      pure ((sz, al) :: rest)

/-- No two consecutive entries of a scan are both free. -/
def scanNoAdjFree (l : List (Nat × Nat)) : Prop :=
  List.Chain' (fun x y => x.2 ≠ 0 ∨ y.2 ≠ 0) l

/-- The run `mm_init(); x = mm_malloc(4294967288); y = mm_malloc(8); z = mm_malloc(8);
mm_free(x)` on a fresh zeroed arena starting at address 4096, followed by a scan of the heap
from the prologue. The first request makes `size + 15` wrap around. -/
def wrapRun : Except Err (List (Nat × Nat)) := do
  let (s, _) ← mm_init (zeroMem 4096 1000000)
  let (s, x) ← mm_malloc 8 s 4294967288
  let (s, _) ← mm_malloc 8 s 8
  let (s, _) ← mm_malloc 8 s 8
  let s ← mm_free s x
  scan s.mem 8 s.heap_listp

end Implicit

namespace Seg

/-- The index of the segregated list that `insert_node` and `delete_node` select for a block
of `size` bytes. -/
def bucket (size : Nat) : Nat := (bucketLoop (LISTLIMIT - 1) 0 size).1

/-- The nodes `ns` form a segment of a doubly linked free list in memory: the successor
word of the first node holds `prev`, the predecessor word of each node holds the node that
follows it in `ns`, and the predecessor word of the last node holds `nxt`. -/
def DLLseg (m : Mem) : Nat → List Nat → Nat → Prop
  | _, [], _ => True
  | prev, a :: rest, nxt =>
      load m (a + 4) = .ok prev ∧ load m a = .ok (rest.headD nxt) ∧ DLLseg m a rest nxt

/-- The heap of memory `m` is laid out as the block list `B`: a prologue of size 8 at `h0`,
then the blocks proper, then the epilogue of size 0 at the break. Headers hold the exact
tag `size | alloc` (reallocation bit clear); footers hold the size (their low bits are not
constrained, since `PUT` keeps bit 1 of the word it overwrites); free blocks have at least
16 bytes. -/
structure Layout (m : Mem) (h0 : Nat) (B : List Blk) : Prop where
  hi_lt : m.hi < W32
  brk_le : m.brk ≤ m.hi
  h0_ge : m.lo + 8 ≤ h0
  head : B.head? = some ⟨h0, 8, true⟩
  last : B.getLast? = some ⟨m.brk, 0, true⟩
  tiles : Tiles h0 B m.brk
  hdr : ∀ b ∈ B, load m (b.addr - 4) = .ok b.tag
  ftr : ∀ b ∈ B, b.size ≠ 0 → GET_SIZE m (b.addr + b.size - 8) = .ok b.size
  free16 : ∀ b ∈ B, b.alloc = false → 16 ≤ b.size

/-- The segregated lists of heads `hd` hold the node lists `F`: list `k` is a doubly linked
list in memory without repetition, whose nodes are free blocks of `B` with bucket `k`. -/
structure Lists (m : Mem) (hd : Nat → Nat) (B : List Blk) (F : Nat → List Nat) : Prop where
  heads : ∀ k, k < 20 → hd k = (F k).headD 0
  dll : ∀ k, k < 20 → DLLseg m 0 (F k) 0
  nodup : ∀ k, k < 20 → (F k).Nodup
  nodes : ∀ k, k < 20 → ∀ a ∈ F k, ∃ b ∈ B, b.addr = a ∧ b.alloc = false ∧ bucket b.size = k

/-- Every free block is indexed in the list of its bucket. -/
def Complete (B : List Blk) (F : Nat → List Nat) : Prop :=
  ∀ b ∈ B, b.alloc = false → b.addr ∈ F (bucket b.size)

/-- A well-formed heap of the segregated variant: a layout `B` from the prologue at `h0`
whose free blocks are exactly the nodes `F` of the segregated lists. -/
structure WF (s : State) (h0 : Nat) (B : List Blk) (F : Nat → List Nat) : Prop where
  layout : Layout s.mem h0 B
  lists : Lists s.mem s.segregated_free_lists B F
  complete : Complete B F

/-- The word at `q` lies outside every free block of `B` (header and footer included). -/
def Outside (B : List Blk) (q : Nat) : Prop :=
  ∀ f ∈ B, f.alloc = false → q + 8 ≤ f.addr ∨ f.addr + f.size ≤ q + 4

/-- A heap in the middle of an operation: well formed, except that the free blocks at the
addresses `D` are in no list. -/
structure Part (s : State) (h0 : Nat) (B : List Blk) (F : Nat → List Nat) (D : List Nat) :
    Prop where
  layout : Layout s.mem h0 B
  lists : Lists s.mem s.segregated_free_lists B F
  complete : ∀ b ∈ B, b.alloc = false → b.addr ∈ D ∨ b.addr ∈ F (bucket b.size)
  unlinked : ∀ k, k < 20 → ∀ a ∈ F k, a ∉ D

end Seg

/-! ## Segregated variant: runs, reachable states and observations of the heap -/

namespace Seg

/-- States reachable from `mm_init` on the facade state `m0` by `mm_malloc` and valid
`mm_free` calls, with the list of live pointers (returned and not yet released). `okSize`
restricts the request sizes that are considered. A release is valid when its pointer is
live. -/
inductive Reach (okSize : Nat → Prop) (m0 : Mem) : State → List Nat → Prop
  | init {fuel : Nat} {s : State} : mm_init fuel m0 = .ok (s, 0) → Reach okSize m0 s []
  | malloc {s s' : State} {L : List Nat} {fuel n p : Nat} :
      Reach okSize m0 s L → okSize n → mm_malloc fuel s n = .ok (s', p) →
      Reach okSize m0 s' (if p = 0 then L else p :: L)
  | free {s s' : State} {L : List Nat} {fuel p : Nat} :
      Reach okSize m0 s L → p ∈ L → mm_free fuel s p = .ok s' →
      Reach okSize m0 s' (L.erase p)

/-- The invariant of the runs: the heap is well formed without two consecutive free blocks,
the live pointers are exactly the allocated blocks other than the prologue (at `h0`) and the
epilogue, and the heap holds more than the prologue. -/
def Inv (h0 : Nat) (s : State) (L : List Nat) : Prop :=
  ∃ B F, WF s h0 B F ∧ NoAdjFree B ∧ L.Nodup ∧
    (∀ p ∈ L, ∃ b ∈ B, b.addr = p ∧ b.alloc = true ∧ 16 ≤ b.size) ∧
    (∀ b ∈ B, b.alloc = true → b.size ≠ 0 → b.addr = h0 ∨ b.addr ∈ L) ∧
    h0 + 8 < s.mem.brk

/-- The scan of the heap by boundary tags, from the block at `bp` up to the first block of
size 0 (the epilogue): the list of `(size, alloc)` read from the headers. -/
def scan (m : Mem) : Nat → Nat → Except Err (List (Nat × Nat))
  | 0, _ => .error .fuel
  | n + 1, bp => do
    let sz ← GET_SIZE m (HDRP bp)
    let al ← GET_ALLOC m (HDRP bp)
    if sz = 0 then pure [(sz, al)]
    else do
      let rest ← scan m n (add32 bp sz)
      pure ((sz, al) :: rest)

/-- The entries of a segregated list, from its head along the predecessor links. -/
def listWalk (m : Mem) : Nat → Nat → Except Err (List Nat)
  | 0, _ => .error .fuel
  | n + 1, ptr =>
    if ptr = 0 then pure []
    else do
      let p ← PRED m ptr
      let rest ← listWalk m n p
      pure (ptr :: rest)

/-- The state that `mm_init` builds on the fresh zeroed arena starting at address 4096. -/
def initState : State :=
  match mm_init 8 (zeroMem 4096 1000000) with
  | .ok (s, _) => s
  | .error _ => { mem := zeroMem 4096 1000000, segregated_free_lists := fun _ => 0 }

/-- The run `mm_init(); p = mm_malloc(4294967295)` on a fresh zeroed arena starting at
address 4096. The result is `(p, size in the header of p, allocation bit in the header of
p)`. Adding the overhead to the request wraps around. -/
def wrapAllocRun : Except Err (Nat × Nat × Nat) := do
  let (s, _) ← mm_init 8 (zeroMem 4096 1000000)
  let (s, p) ← mm_malloc 8 s 4294967295
  let sz ← GET_SIZE s.mem (HDRP p)
  let al ← GET_ALLOC s.mem (HDRP p)
  pure (p, sz, al)

/-- The run `mm_init(); p = mm_malloc(4294967295); mm_free(p)` on a fresh zeroed arena
starting at address 4096, followed by a scan of the heap from the prologue (at 4104) and by
the heads of the twenty segregated lists. -/
def wrapFreeRun : Except Err (List (Nat × Nat) × List Nat) := do
  let (s, _) ← mm_init 8 (zeroMem 4096 1000000)
  let (s, p) ← mm_malloc 8 s 4294967295
  let s ← mm_free 8 s p
  let l ← scan s.mem 8 4104
  pure (l, (List.range LISTLIMIT).map s.segregated_free_lists)

/-- The result of a run that returns, and `d` for a run that does not. -/
def okOr {α : Type} (d : α) : Except Err α → α
  | .ok a => a
  | .error _ => d

/-- The state and the pointer after `a = mm_malloc(1)` on `initState`. -/
def afterA : State × Nat := okOr (initState, 0) (mm_malloc 8 initState 1)

/-- The state and the pointer after `b = mm_malloc(1)` on `afterA`. -/
def afterB : State × Nat := okOr (initState, 0) (mm_malloc 8 afterA.1 1)

/-- The state after `mm_free(a)` on `afterB`. -/
def afterFreeA : State := okOr initState (mm_free 8 afterB.1 afterA.2)

/-- The state after `mm_free(b)` on `afterFreeA`: the end of the run `mm_init();
a = mm_malloc(1); b = mm_malloc(1); mm_free(a); mm_free(b)` on a fresh zeroed arena
starting at address 4096. -/
def afterFreeB : State := okOr initState (mm_free 8 afterFreeA afterB.2)

/-- The state and the pointer after `mm_malloc(100)` on `initState`. -/
def afterBig : State × Nat := okOr (initState, 0) (mm_malloc 8 initState 100)

end Seg

/-! ## Further concrete runs -/

namespace Seg

/-- The run `mm_init(); p = mm_malloc(1)` on a fresh zeroed arena starting at address 4096,
continued once by `q = mm_realloc(p, 0)` and once by `mm_free(p)`. The result is
`(q, header word of p after the mm_realloc, header word of p after the mm_free)`. -/
def reallocZeroRun : Except Err (Nat × Nat × Nat) := do
  let (s, _) ← mm_init 8 (zeroMem 4096 1000000)
  let (s, p) ← mm_malloc 8 s 1
  let (s1, q) ← mm_realloc 8 s p 0
  let h1 ← GET s1.mem (HDRP p)
  let s2 ← mm_free 8 s p
  let h2 ← GET s2.mem (HDRP p)
  pure (q, h1, h2)

/-- The state after `mm_init(); p = mm_malloc(1); x = mm_malloc(1)` on a fresh zeroed arena
of 1000 bytes starting at address 4096 (the facade refuses a further extension by 4096
bytes), with the two pointers. -/
def oomState : Except Err (State × Nat × Nat) := do
  let (s, _) ← mm_init 8 (zeroMem 4096 5096)
  let (s, p) ← mm_malloc 8 s 1
  let (s, x) ← mm_malloc 8 s 1
  pure (s, p, x)

/-- On `oomState`: the pointers `p` and `x`, the allocation bit of the block after `p`, and
the result of the call `mm_malloc(new_size - DSIZE)` that `mm_realloc(p, 100)` makes
(`new_size = ALIGN(100 + 8) + 128 = 240`). -/
def oomMallocRun : Except Err (Nat × Nat × Nat × Nat) := do
  let (s, p, x) ← oomState
  let next ← NEXT_BLKP s.mem p
  let al ← GET_ALLOC s.mem (HDRP next)
  let (_, r) ← mm_malloc 8 s (sub32 (add32 (adjust 100) REALLOC_BUFFER) DSIZE)
  pure (p, x, al, r)

/-- On `oomState`: the call `mm_realloc(p, 100)`. -/
def oomReallocRun : Except Err Nat := do
  let (s, p, _) ← oomState
  let (_, q) ← mm_realloc 8 s p 100
  pure q

end Seg

namespace Mm

/-- The run `mm_init(); p = mm_malloc(16); q = mm_realloc(p, 24)` on a fresh zeroed arena
starting at address 4096. The result is `(p, size in the header of p before the mm_realloc,
q, size and allocation bit in the header of q after it)`. -/
def sameSizeRun : Except Err (Nat × Nat × Nat × Nat × Nat) := do
  let (s, _) ← mm_init (zeroMem 4096 1000000)
  let (s, p) ← mm_malloc 8 s 16
  let sz ← GET_SIZE s.mem (HDRP p)
  let (s, q) ← mm_realloc 8 s p 24
  let sz2 ← GET_SIZE s.mem (HDRP q)
  let al ← GET_ALLOC s.mem (HDRP q)
  pure (p, sz, q, sz2, al)

end Mm

namespace Implicit

/-- The run `mm_init(); a = mm_malloc(8); x = mm_malloc(4294967288)` on a fresh zeroed arena
starting at address 4096. The result is `(a, x, footer word of a before the second call,
footer word of a after it)`; the second request makes `size + 15` wrap around. -/
def clobberRun : Except Err (Nat × Nat × Nat × Nat) := do
  let (s, _) ← mm_init (zeroMem 4096 1000000)
  let (s, a) ← mm_malloc 8 s 8
  let f0 ← GET s.mem (add32 a 8)
  let (s, x) ← mm_malloc 8 s 4294967288
  let f1 ← GET s.mem (add32 a 8)
  pure (a, x, f0, f1)

/-- The state and the pointer after `a = mm_malloc(16)` on `initState`. -/
def afterA : State × Nat := Seg.okOr (initState, 0) (mm_malloc 8 initState 16)

/-- The state and the pointer after `b = mm_malloc(16)` on `afterA`. -/
def afterB : State × Nat := Seg.okOr (initState, 0) (mm_malloc 8 afterA.1 16)

/-- The state after `mm_free(a)` on `afterB`. -/
def afterFreeA : State := Seg.okOr initState (mm_free afterB.1 afterA.2)

/-- The state and the pointer after `c = mm_malloc(8)` on `afterFreeA`: the end of the run
`a = mm_malloc(16); b = mm_malloc(16); mm_free(a); c = mm_malloc(8)`. -/
def afterC : State × Nat := Seg.okOr (initState, 0) (mm_malloc 8 afterFreeA 8)

end Implicit

namespace Seg

/-- The absorption step of `mm_realloc` (`delete_node(NEXT_BLKP(ptr))`, the two `PUT_NOTAG`
of the size `new_size + remainder`, the recomputation of `balancer` and the tagging of the
next block), for the pointer `ptr`, the target size `new_size` and the `int` `remainder`. -/
def absorbNext (s : State) (ptr new_size : Nat) (remainder : Int) :
    Except Err (State × Nat) := do
  let next ← NEXT_BLKP s.mem ptr
  let s ← delete_node s next
  let m ← PUT_NOTAG s.mem (HDRP ptr) (PACK (add32 new_size (ofInt32 remainder)) 1)
  let f ← FTRP m ptr
  let m ← PUT_NOTAG m f (PACK (add32 new_size (ofInt32 remainder)) 1)
  let sz ← GET_SIZE m (HDRP ptr)
  let balancer := toInt32 (sub32 sz new_size)
  if balancer < 2 * REALLOC_BUFFER then do
    let next ← NEXT_BLKP m ptr
    let _ ← SET_RATAG m (HDRP next)
    pure ({ s with mem := m }, ptr)
  else pure ({ s with mem := m }, ptr)

/-- The allocate-copy-release step of `mm_realloc` (`new_ptr = mm_malloc(new_size - DSIZE);
memcpy(new_ptr, ptr, MIN(size, new_size)); mm_free(ptr)`, the recomputation of `balancer`
and the tagging of the next block). -/
def copyOver (fuel : Nat) (s : State) (ptr size new_size : Nat) : Except Err (State × Nat) := do
  let (s, new_ptr) ← mm_malloc fuel s (sub32 new_size DSIZE)
  let m ← memcpy s.mem new_ptr ptr (ofInt32 (MIN (toInt32 size) (toInt32 new_size)))
  let s ← mm_free fuel { s with mem := m } ptr
  let sz ← GET_SIZE s.mem (HDRP new_ptr)
  let balancer := toInt32 (sub32 sz new_size)
  if balancer < 2 * REALLOC_BUFFER then do
    let next ← NEXT_BLKP s.mem new_ptr
    let _ ← SET_RATAG s.mem (HDRP next)
    pure (s, new_ptr)
  else pure (s, new_ptr)

end Seg

namespace Seg

/-- The run `mm_init(); a = mm_malloc(2147483000); a2 = mm_realloc(a, 2147483600);
r = mm_realloc(a, 1)` on a fresh zeroed arena of 4200000000 - 4096 bytes starting at address
4096. The result is `(a, a2, size and allocation bit in the header of a after the first
mm_realloc, the scan of the heap at that point, r)`. -/
def giantKeepRun : Except Err (Nat × Nat × Nat × Nat × List (Nat × Nat) × Nat) := do
  let (s, _) ← mm_init 8 (zeroMem 4096 4200000000)
  let (s, a) ← mm_malloc 8 s 2147483000
  let (s, a2) ← mm_realloc 8 s a 2147483600
  let sz ← GET_SIZE s.mem (HDRP a)
  let al ← GET_ALLOC s.mem (HDRP a)
  let sc ← scan s.mem 8 (4096 + 8)
  let (_, r) ← mm_realloc 8 s a 1
  pure (a, a2, sz, al, sc, r)

/-- The state and the pointer after `p = mm_malloc(136)` on `initState`. -/
def afterKeep : State × Nat := okOr (initState, 0) (mm_malloc 8 initState 136)

end Seg

namespace Seg

/-- The run `mm_init(); q = mm_malloc(128); p = mm_malloc(128); mm_free(q);
r = mm_realloc(p, 4294967295)` on a fresh zeroed arena starting at address 4096. The result
is `(q, p, header word of p, address and header word of the block after p, all three before
the mm_realloc, r, header word of p after it)`. -/
def absorbWrapRun : Except Err (Nat × Nat × Nat × Nat × Nat × Nat × Nat) := do
  let (s, _) ← mm_init 8 (zeroMem 4096 1000000)
  let (s, q) ← mm_malloc 8 s 128
  let (s, p) ← mm_malloc 8 s 128
  let s ← mm_free 8 s q
  let cur ← GET s.mem (HDRP p)
  let next ← NEXT_BLKP s.mem p
  let nxt ← GET s.mem (HDRP next)
  let (s, r) ← mm_realloc 8 s p 4294967295
  let h ← GET s.mem (HDRP p)
  pure (q, p, cur, next, nxt, r, h)

/-- The run `mm_init(); p = mm_malloc(1); b = mm_malloc(2147483000); c = mm_malloc(1000);
mm_free(b); r = mm_realloc(p, 1)` on a fresh zeroed arena of 4200000000 - 4096 bytes starting
at address 4096. The result is `(p, header word of p, address and header word of the block
after p, the scan of the heap, all before the mm_realloc, r)`. -/
def absorbGiantRun : Except Err (Nat × Nat × Nat × Nat × List (Nat × Nat) × Nat) := do
  let (s, _) ← mm_init 8 (zeroMem 4096 4200000000)
  let (s, p) ← mm_malloc 8 s 1
  let (s, b) ← mm_malloc 8 s 2147483000
  let (s, _) ← mm_malloc 8 s 1000
  let s ← mm_free 8 s b
  let cur ← GET s.mem (HDRP p)
  let next ← NEXT_BLKP s.mem p
  let nxt ← GET s.mem (HDRP next)
  let sc ← scan s.mem 8 (4096 + 8)
  let (_, r) ← mm_realloc 8 s p 1
  pure (p, cur, next, nxt, sc, r)

/-- The state and the pointer after `q = mm_malloc(128)` on `initState`. -/
def afterQ : State × Nat := okOr (initState, 0) (mm_malloc 8 initState 128)

/-- The state and the pointer after `p = mm_malloc(128)` on `afterQ`. -/
def afterP : State × Nat := okOr (initState, 0) (mm_malloc 8 afterQ.1 128)

/-- The state after `mm_free(q)` on `afterP`. -/
def afterFreeQ : State := okOr initState (mm_free 8 afterP.1 afterQ.2)

/-- The state and the pointer after `mm_realloc(p, 100)` on `afterFreeQ`. -/
def afterGrow : State × Nat := okOr (initState, 0) (mm_realloc 8 afterFreeQ afterP.2 100)

end Seg

namespace Seg

end Seg

namespace Seg

/-- The sizes read from the headers of the nodes met by `listWalk` from `hd`. -/
def walkSizes (m : Mem) (fuel hd : Nat) : Except Err (List Nat) := do
  let ns ← listWalk m fuel hd
  ns.mapM fun a => GET_SIZE m (HDRP a)

/-- The first three statements of `mm_free(ptr)`: read the size and write the header and the
footer as free. The result is the state reached and the size. -/
def markFree (s : State) (ptr : Nat) : Except Err (State × Nat) := do
  let size ← GET_SIZE s.mem (HDRP ptr)
  let m ← PUT s.mem (HDRP ptr) (PACK size 0)
  let f ← FTRP m ptr
  let m ← PUT m f (PACK size 0)
  pure ({ s with mem := m }, size)

/-- The run `mm_init(); a = mm_malloc(24); mm_malloc(1); b = mm_malloc(40); mm_malloc(1);
mm_free(a)` on a fresh zeroed arena starting at address 4096, continued by the first steps
of `mm_free(b)` up to and including its call `insert_node(b, size)`. The result is
`(a, b, size, walk of list 5 and the sizes met before the insertion, walk of list 5 and the
sizes met after it)`. -/
def sizeOrderRun :
    Except Err (Nat × Nat × Nat × List Nat × List Nat × List Nat × List Nat) := do
  let (s, _) ← mm_init 8 (zeroMem 4096 1000000)
  let (s, a) ← mm_malloc 8 s 24
  let (s, _) ← mm_malloc 8 s 1
  let (s, b) ← mm_malloc 8 s 40
  let (s, _) ← mm_malloc 8 s 1
  let s ← mm_free 8 s a
  let w0 ← listWalk s.mem 8 (s.segregated_free_lists 5)
  let z0 ← walkSizes s.mem 8 (s.segregated_free_lists 5)
  let (s, size) ← markFree s b
  let s ← insert_node 8 s b size
  let w1 ← listWalk s.mem 8 (s.segregated_free_lists 5)
  let z1 ← walkSizes s.mem 8 (s.segregated_free_lists 5)
  pure (a, b, size, w0, z0, w1, z1)

/-- The run `mm_init(); a = mm_malloc(24); mm_malloc(1); b = mm_malloc(40); mm_malloc(1);
mm_free(b); mm_free(a)` on a fresh zeroed arena starting at address 4096. The result is
`(a, b, walk of list 5 from its head along the predecessor links, scan of the heap)`. -/
def addrOrderRun : Except Err (Nat × Nat × List Nat × List (Nat × Nat)) := do
  let (s, _) ← mm_init 8 (zeroMem 4096 1000000)
  let (s, a) ← mm_malloc 8 s 24
  let (s, _) ← mm_malloc 8 s 1
  let (s, b) ← mm_malloc 8 s 40
  let (s, _) ← mm_malloc 8 s 1
  let s ← mm_free 8 s b
  let s ← mm_free 8 s a
  let w ← listWalk s.mem 8 (s.segregated_free_lists 5)
  let sc ← scan s.mem 12 (4096 + 8)
  pure (a, b, w, sc)

/-- The state after `mm_init(); a = mm_malloc(232); mm_malloc(100); b = mm_malloc(292);
mm_malloc(100); mm_free(a); mm_free(b)` on a fresh zeroed arena starting at address 4096. -/
def bucketState : State :=
  okOr initState (do
    let (s, a) ← mm_malloc 8 initState 232
    let (s, _) ← mm_malloc 8 s 100
    let (s, b) ← mm_malloc 8 s 292
    let (s, _) ← mm_malloc 8 s 100
    let s ← mm_free 8 s a
    mm_free 8 s b)

/-- On `bucketState`: the walks of lists 7 and 8 with the sizes met, the block that the fit
search of `mm_malloc(200)` selects, and the pointer that `mm_malloc(200)` returns. -/
def bucketRun : Except Err (List Nat × List Nat × List Nat × List Nat × Nat × Nat) := do
  let s := bucketState
  let w7 ← listWalk s.mem 8 (s.segregated_free_lists 7)
  let z7 ← walkSizes s.mem 8 (s.segregated_free_lists 7)
  let w8 ← listWalk s.mem 8 (s.segregated_free_lists 8)
  let z8 ← walkSizes s.mem 8 (s.segregated_free_lists 8)
  let r ← fitLists 8 s (adjust 200) LISTLIMIT 0 (adjust 200)
  let (_, p) ← mm_malloc 8 s 200
  pure (w7, z7, w8, z8, r, p)

/-- The run `mm_init(); x = mm_malloc(4000); mm_free(x)` on a fresh zeroed arena starting at
address 4096, followed by the fit search of `mm_malloc(200)`. The result is `(walks of the
twenty lists, block selected, its size, its bucket)`. -/
def bucketHighRun : Except Err (List (List Nat) × Nat × Nat × Nat) := do
  let (s, _) ← mm_init 8 (zeroMem 4096 1000000)
  let (s, x) ← mm_malloc 8 s 4000
  let s ← mm_free 8 s x
  let ws ← (List.range 20).mapM fun k => listWalk s.mem 8 (s.segregated_free_lists k)
  let r ← fitLists 8 s (adjust 200) LISTLIMIT 0 (adjust 200)
  let z ← GET_SIZE s.mem (HDRP r)
  pure (ws, r, z, bucket z)

/-- The run `mm_init(); p = mm_malloc(136); q = mm_realloc(p, 1)` on a fresh zeroed arena
starting at address 4096. The result is `(p, block size of p, q, block size of q after the
call, next_block(q), header word of next_block(q) after the call)`. -/
def raKeepRun : Except Err (Nat × Nat × Nat × Nat × Nat × Nat) := do
  let (s, _) ← mm_init 8 (zeroMem 4096 1000000)
  let (s, p) ← mm_malloc 8 s 136
  let sz0 ← GET_SIZE s.mem (HDRP p)
  let (s, q) ← mm_realloc 8 s p 1
  let sz ← GET_SIZE s.mem (HDRP q)
  let nx ← NEXT_BLKP s.mem q
  let h ← GET s.mem (HDRP nx)
  pure (p, sz0, q, sz, nx, h)

/-- The run `mm_init(); q = mm_malloc(128); p = mm_malloc(128); mm_free(q);
r = mm_realloc(p, 100)` on a fresh zeroed arena starting at address 4096 (the block of `p`
absorbs the free block after it). The result is `(p, r, block size of r after the call,
next_block(r), header word of next_block(r) after the call)`. -/
def raGrowRun : Except Err (Nat × Nat × Nat × Nat × Nat) := do
  let (s, _) ← mm_init 8 (zeroMem 4096 1000000)
  let (s, q) ← mm_malloc 8 s 128
  let (s, p) ← mm_malloc 8 s 128
  let s ← mm_free 8 s q
  let (s, r) ← mm_realloc 8 s p 100
  let sz ← GET_SIZE s.mem (HDRP r)
  let nx ← NEXT_BLKP s.mem r
  let h ← GET s.mem (HDRP nx)
  pure (p, r, sz, nx, h)

/-- The run `mm_init(); p = mm_malloc(40)` on a fresh zeroed arena starting at address 4096
(adjusted size 48, served from the free block of 64 bytes that `mm_init` leaves). The result
is `(scan of the heap before the call, adjusted size, p, scan of the heap after the call,
walks of the twenty lists after the call)`. -/
def placeEdgeRun :
    Except Err (List (Nat × Nat) × Nat × Nat × List (Nat × Nat) × List (List Nat)) := do
  let (s, _) ← mm_init 8 (zeroMem 4096 1000000)
  let sc0 ← scan s.mem 12 (4096 + 8)
  let (s, p) ← mm_malloc 8 s 40
  let sc1 ← scan s.mem 12 (4096 + 8)
  let ws ← (List.range 20).mapM fun k => listWalk s.mem 8 (s.segregated_free_lists k)
  pure (sc0, adjust 40, p, sc1, ws)

end Seg

namespace Seg

/-- The state after `delete_node(4112)` on `initState`: the free block of 64 bytes that
`mm_init` leaves is marked free but is in no list. -/
def unlinked64 : State := okOr initState (delete_node initState 4112)

end Seg

namespace Seg

/-- The walk of list `k` in state `s` from its head along the predecessor links, with 8 units
of fuel (`[]` if the walk does not end). -/
def walkOf (s : State) (k : Nat) : List Nat :=
  okOr [] (listWalk s.mem 8 (s.segregated_free_lists k))

/-- The size in the header of the block at `a` (0 if the header cannot be read). -/
def sizeAt (m : Mem) (a : Nat) : Nat := okOr 0 (GET_SIZE m (HDRP a))

/-- The RA bit in the header of the block at `a` (0 if the header cannot be read). -/
def tagAt (m : Mem) (a : Nat) : Nat := okOr 0 (GET_TAG m (HDRP a))

end Seg

namespace Explicit

/-- The heap of state `s` is laid out as the block list `B`: the 32 bytes that `mm_init`
obtains at `heap_listp`, then the blocks one after the other from payload address
`heap_listp + 32` to the break, each of at least 16 bytes and carrying its tag in its header
and in its footer. The word before the header of the first block holds 0 (it is never
written), and once there is a block the word before the break is the epilogue header. -/
structure Layout (s : State) (B : List Blk) : Prop where
  hi_lt : s.mem.hi < W32
  brk_le : s.mem.brk ≤ s.mem.hi
  lo_le : s.mem.lo ≤ s.heap_listp
  hl8 : s.heap_listp % 8 = 0
  tiles : Tiles (s.heap_listp + 32) B s.mem.brk
  size16 : ∀ b ∈ B, 16 ≤ b.size
  hdr : ∀ b ∈ B, load s.mem (b.addr - 4) = .ok b.tag
  ftr : ∀ b ∈ B, load s.mem (b.addr + b.size - 8) = .ok b.tag
  pad : load s.mem (s.heap_listp + 24) = .ok 0
  epi : B ≠ [] → load s.mem (s.mem.brk - 4) = .ok 1

/-- A well-formed heap of the explicit variant, as far as freeing and reusing one block
depends on it: a layout `B` whose free-list head is the sentinel `heap_listp + 4` that
`mm_init` sets up or a free block of `B`. -/
structure WF (s : State) (B : List Blk) : Prop where
  layout : Layout s B
  head : s.free_listp = s.heap_listp + 4 ∨ ∃ f ∈ B, f.alloc = false ∧ f.addr = s.free_listp

/-- The state after `mm_init(); p = mm_malloc(24)` on a fresh zeroed arena starting at
address 4096. -/
def reuseState : State :=
  match (do
    let (s, _) ← mm_init (zeroMem 4096 1000000)
    let (s, _) ← mm_malloc 8 s 24
    pure s : Except Err State) with
  | .ok s => s
  | .error _ => { mem := zeroMem 0 0, heap_listp := 0, free_listp := 0 }

end Explicit

namespace Mm

/-- States reachable from `mm_init` on the facade state `m0` by `mm_malloc` and valid
`mm_free` calls, with the list of live pointers (returned and not yet released). `okSize`
restricts the request sizes that are considered. A release is valid when its pointer is
live. -/
inductive Reach (okSize : Nat → Prop) (m0 : Mem) : State → List Nat → Prop
  | init {s : State} : mm_init m0 = .ok (s, 0) → Reach okSize m0 s []
  | malloc {s s' : State} {L : List Nat} {fuel n p : Nat} :
      Reach okSize m0 s L → okSize n → mm_malloc fuel s n = .ok (s', p) →
      Reach okSize m0 s' (if p = 0 then L else p :: L)
  | free {s s' : State} {L : List Nat} {p : Nat} :
      Reach okSize m0 s L → p ∈ L → mm_free s p = .ok s' →
      Reach okSize m0 s' (L.erase p)

/-- The nodes met by following successor links from `ptr` until the prologue `hl` is
reached. -/
def ringWalk (m : Mem) (hl : Nat) : Nat → Nat → Except Err (List Nat)
  | 0, _ => .error .fuel
  | n + 1, ptr =>
    if ptr = hl then pure []
    else do
      let nx ← SUCC_P m ptr
      let rest ← ringWalk m hl n nx
      pure (ptr :: rest)

/-- The free list as `find_fit` traverses it: the nodes from `SUCC_P(heap_listp)` until the
prologue is reached again. -/
def ring (fuel : Nat) (s : State) : Except Err (List Nat) := do
  let first ← SUCC_P s.mem s.heap_listp
  ringWalk s.mem s.heap_listp fuel first

/-- The scan of the heap by boundary tags, from the block at `bp` up to the first block of
size 0 (the epilogue): the list of `(bp, size, alloc)`, sizes and allocation bits read
from the headers. -/
def scan (m : Mem) : Nat → Nat → Except Err (List (Nat × Nat × Nat))
  | 0, _ => .error .fuel
  | n + 1, bp => do
    let sz ← GET_SIZE m (HDRP bp)
    let al ← GET_ALLOC m (HDRP bp)
    if sz = 0 then pure [(bp, sz, al)]
    else do
      let rest ← scan m n (add32 bp sz)
      pure ((bp, sz, al) :: rest)

/-- The run `mm_init(); a = mm_malloc(4294967289); b = mm_malloc(8); mm_free(a)` on a fresh
zeroed arena starting at address 4096. The result is `(a, b, ring of the final state, the
first three blocks of the final heap as (bp, size, alloc))`. Adding the overhead to the
first request wraps around: its adjusted size is 8. -/
def wrapRingRun : Except Err (Nat × Nat × List Nat × List (Nat × Nat × Nat)) := do
  let (s, _) ← mm_init (zeroMem 4096 1000000)
  let (s, a) ← mm_malloc 8 s 4294967289
  let (s, b) ← mm_malloc 8 s 8
  let s ← mm_free s a
  let r ← ring 8 s
  let b0 := s.heap_listp
  let s0 ← GET_SIZE s.mem (HDRP b0)
  let a0 ← GET_ALLOC s.mem (HDRP b0)
  let b1 ← NEXT_BLKP s.mem b0
  let s1 ← GET_SIZE s.mem (HDRP b1)
  let a1 ← GET_ALLOC s.mem (HDRP b1)
  let b2 ← NEXT_BLKP s.mem b1
  let s2 ← GET_SIZE s.mem (HDRP b2)
  let a2 ← GET_ALLOC s.mem (HDRP b2)
  pure (a, b, r, [(b0, s0, a0), (b1, s1, a1), (b2, s2, a2)])

/-- The state that `mm_init` builds on the fresh zeroed arena starting at address 4096. -/
def initState : State :=
  match mm_init (zeroMem 4096 1000000) with
  | .ok (s, _) => s
  | .error _ => { mem := zeroMem 4096 1000000, heap_listp := 0 }

/-- The successor word of `x` holds `y` and the predecessor word of `y` holds `x`. -/
def Links (m : Mem) (x y : Nat) : Prop := load m (x + 4) = .ok y ∧ load m y = .ok x

/-- The nodes `xs` form a doubly linked segment from `p` to `n`: each of `p :: xs` is linked
with the node that follows it in `xs ++ [n]`. -/
def RSeg (m : Mem) : Nat → List Nat → Nat → Prop
  | p, [], n => Links m p n
  | p, a :: rest, n => Links m p a ∧ RSeg m a rest n

/-- The heap of memory `m` is laid out as the block list `B`: the prologue of 16 bytes at
`hl` (its payload holds the two link words of the list head), then the blocks proper, then
the epilogue of size 0 at the break. Headers and footers hold the tag `size | alloc`, and
every block but the epilogue has at least 16 bytes. -/
structure Layout (m : Mem) (hl : Nat) (B : List Blk) : Prop where
  hi_lt : m.hi < W32
  brk_le : m.brk ≤ m.hi
  hl_ge : m.lo + 8 ≤ hl
  hl4 : hl % 4 = 0
  head : B.head? = some ⟨hl, 16, true⟩
  last : B.getLast? = some ⟨m.brk, 0, true⟩
  tiles : Tiles hl B m.brk
  hdr : ∀ b ∈ B, load m (b.addr - 4) = .ok b.tag
  ftr : ∀ b ∈ B, b.size ≠ 0 → load m (b.addr + b.size - 8) = .ok b.tag
  min16 : ∀ b ∈ B, b.size ≠ 0 → 16 ≤ b.size

/-- A heap in the middle of an operation: laid out as `B`, with the ring `F` through the
prologue made of free blocks of `B`; the free blocks that are not on the ring are at the
addresses `D`. -/
structure Part (m : Mem) (hl : Nat) (B : List Blk) (F D : List Nat) : Prop where
  layout : Layout m hl B
  ring : RSeg m hl F hl
  nodup : F.Nodup
  nodes : ∀ a ∈ F, ∃ b ∈ B, b.addr = a ∧ b.alloc = false
  complete : ∀ b ∈ B, b.alloc = false → b.addr ∈ F ∨ b.addr ∈ D
  unlinked : ∀ a ∈ F, a ∉ D

/-- A well-formed heap of `mm.c`: a layout `B` whose free blocks are exactly the nodes `F`
met on the ring from the prologue back to the prologue. -/
def WF (s : State) (B : List Blk) (F : List Nat) : Prop := Part s.mem s.heap_listp B F []

/-- The invariant of the runs: the heap is well formed and the live pointers are distinct
allocated blocks other than the prologue. -/
def Inv (s : State) (L : List Nat) : Prop :=
  ∃ B F, WF s B F ∧ L.Nodup ∧
    ∀ p ∈ L, ∃ b ∈ B, b.addr = p ∧ b.alloc = true ∧ 16 ≤ b.size ∧ p ≠ s.heap_listp

/-- The state and the pointer after `a = mm_malloc(24)` on `initState`. -/
def afterA : State × Nat := Seg.okOr (initState, 0) (mm_malloc 8 initState 24)

/-- The state and the pointer after `b = mm_malloc(24)` on `afterA`. -/
def afterB : State × Nat := Seg.okOr (initState, 0) (mm_malloc 8 afterA.1 24)

/-- The state after `mm_free(a)` on `afterB`: the end of the run `mm_init();
a = mm_malloc(24); b = mm_malloc(24); mm_free(a)` on a fresh zeroed arena starting at
address 4096. -/
def afterFreeA : State := Seg.okOr initState (mm_free afterB.1 afterA.2)

end Mm

/-! ## Observations and runs for the helper-level claims -/

namespace Implicit

/-- The payload addresses met by the scan of the heap by boundary tags, from the block at
`bp` up to the first block of size 0 (the epilogue): the block sequence of the heap. -/
def blockStarts (m : Mem) : Nat → Nat → Except Err (List Nat)
  | 0, _ => .error .fuel
  | n + 1, bp => do
    let sz ← GET_SIZE m (HDRP bp)
    if sz = 0 then pure [bp]
    else do
      let rest ← blockStarts m n (add32 bp sz)
      pure (bp :: rest)

/-- The run `mm_init(); a = mm_malloc(16); b = mm_malloc(16); c = mm_malloc(16); mm_free(a);
q = mm_realloc(c, 4294967289)` on a fresh zeroed arena starting at address 4096, followed by
the block sequence of the heap from the prologue. The request of `mm_realloc` makes
`size + 15` wrap around. Returns `(a, b, c, q, rover, block sequence)`. -/
def roverRun : Except Err (Nat × Nat × Nat × Nat × Nat × List Nat) := do
  let (s, _) ← mm_init (zeroMem 4096 1000000)
  let (s, a) ← mm_malloc 8 s 16
  let (s, b) ← mm_malloc 8 s 16
  let (s, c) ← mm_malloc 8 s 16
  let s ← mm_free s a
  let (s, q) ← mm_realloc 8 s c 4294967289
  let starts ← blockStarts s.mem 8 s.heap_listp
  pure (a, b, c, q, s.next_fit_position, starts)

/-- The state after `a = mm_malloc(2000)` on the freshly initialised heap. -/
def missA : State × Nat := Seg.okOr (initState, 0) (mm_malloc 8 initState 2000)

/-- The state after `a = mm_malloc(2000); b = mm_malloc(16)`. -/
def missB : State × Nat := Seg.okOr (initState, 0) (mm_malloc 8 missA.1 16)

/-- The state after `a = mm_malloc(2000); b = mm_malloc(16); mm_free(a)`. -/
def missFreeA : State := Seg.okOr initState (mm_free missB.1 missA.2)

/-- The state after `a = mm_malloc(2000); b = mm_malloc(16); mm_free(a);
c = mm_malloc(2040)`: the rover is at `c`, above the free block left by `a`. -/
def missC : State × Nat := Seg.okOr (initState, 0) (mm_malloc 8 missFreeA 2040)

end Implicit

namespace Mm

/-- The run `mm_init(); p = mm_malloc(16); q = mm_realloc(p, 100)` on a fresh zeroed arena
starting at address 4096. Returns `p`, the block size of `p`, the allocation bit and the size
of the block that follows `p` (all read before the `mm_realloc`), then `q` and the header
word of `p` after the call. -/
def growRun : Except Err (Nat × Nat × Nat × Nat × Nat × Nat) := do
  let (s, _) ← mm_init (zeroMem 4096 1000000)
  let (s, p) ← mm_malloc 8 s 16
  let cur ← GET_SIZE s.mem (HDRP p)
  let nx ← NEXT_BLKP s.mem p
  let nal ← GET_ALLOC s.mem (HDRP nx)
  let nsz ← GET_SIZE s.mem (HDRP nx)
  let (s, q) ← mm_realloc 8 s p 100
  let h ← load s.mem (HDRP p)
  pure (p, cur, nal, nsz, q, h)

end Mm

namespace Seg

/-- The state after `a = mm_malloc(16)` on the freshly initialised heap. -/
def pairA : State × Nat := okOr (initState, 0) (mm_malloc 8 initState 16)

/-- The state after `a = mm_malloc(16); b = mm_malloc(1)`. -/
def pairB : State × Nat := okOr (initState, 0) (mm_malloc 8 pairA.1 1)

/-- The state after `a = mm_malloc(16); b = mm_malloc(1); c = mm_malloc(16)`. -/
def pairC : State × Nat := okOr (initState, 0) (mm_malloc 8 pairB.1 16)

/-- The state after `a = mm_malloc(16); b = mm_malloc(1); c = mm_malloc(16); mm_free(a)`. -/
def pairFreeA : State := okOr initState (mm_free 8 pairC.1 pairA.2)

/-- The state after `a = mm_malloc(16); b = mm_malloc(1); c = mm_malloc(16); mm_free(a);
mm_free(c)`: list 4 holds the two free blocks of 24 bytes, `c` then `a`. -/
def pairFreeC : State := okOr initState (mm_free 8 pairFreeA pairC.2)

/-- The state `pairFreeC` after `delete_node(c)`: the block `c` is marked free but is in no
list, and list 4 holds `a`. -/
def pairUnlinked : State := okOr initState (delete_node pairFreeC pairC.2)

/-- An arena of 1 MiB starting at address 4096 that was not cleared before use: the word at
address 8236 holds 2, every other word holds 0. -/
def staleMem : Mem :=
  { lo := 4096, brk := 4096, hi := 1052672, w := fun a => if a = 8236 then 2 else 0 }

/-- The run `mm_init(); a = mm_malloc(1); b = mm_malloc(1); c = mm_malloc(1); mm_free(b);
q = mm_realloc(a, 100); mm_free(q)` on `staleMem`. The result is `(q, next_block(q) and the
RA bit of its header before mm_free(q), next_block(q) and the RA bit of its header after
mm_free(q))`. -/
def staleTagRun : Except Err (Nat × Nat × Nat × Nat × Nat) := do
  let (s, _) ← mm_init 8 staleMem
  let (s, a) ← mm_malloc 8 s 1
  let (s, b) ← mm_malloc 8 s 1
  let (s, _) ← mm_malloc 8 s 1
  let s ← mm_free 8 s b
  let (s, q) ← mm_realloc 8 s a 100
  let next ← NEXT_BLKP s.mem q
  let t0 ← GET_TAG s.mem (HDRP next)
  let s ← mm_free 8 s q
  let next' ← NEXT_BLKP s.mem q
  let t1 ← GET_TAG s.mem (HDRP next')
  pure (q, next, t0, next', t1)

end Seg

namespace Implicit

/-- The byte count that `extend_heap(words)` passes to the facade (its local `size`). -/
def extendSize (words : Nat) : Nat :=
  if words % 2 ≠ 0 then mul32 (add32 words 1) WSIZE else mul32 words WSIZE

/-- The heap in the middle of `mm_free(b)`, just before its call `coalesce(b)`: after
`a = mm_malloc(16); b = mm_malloc(16); mm_free(a)` on the freshly initialised heap, the
header and the footer of `b = 4136` are marked free. The blocks `a` (24 bytes at 4112), `b`
(24 bytes) and the rest of the heap (4048 bytes at 4160) are all free. -/
def coalState : State :=
  Seg.okOr initState (do
    let (s, a) ← mm_malloc 8 initState 16
    let (s, b) ← mm_malloc 8 s 16
    let s ← mm_free s a
    let m ← PUT s.mem (HDRP b) (PACK 24 0)
    let f ← FTRP m b
    let m ← PUT m f (PACK 24 0)
    pure { s with mem := m })

end Implicit

/-! ## Arithmetic of the boundary-tag encoding -/

theorem land_mask8 (x : Nat) (h : x < 4294967296) : x &&& 4294967288 = x / 8 * 8 := by
  apply Nat.eq_of_testBit_eq
  intro i
  have e1 : (4294967288 : Nat) = (2 ^ 29 - 1) <<< 3 := by decide
  have e2 : x / 8 * 8 = (x >>> 3) <<< 3 := by
    rw [Nat.shiftLeft_eq, Nat.shiftRight_eq_div_pow]
  rw [Nat.testBit_and, e1, e2, Nat.testBit_shiftLeft, Nat.testBit_shiftLeft,
    Nat.testBit_two_pow_sub_one, Nat.testBit_shiftRight]
  by_cases h3 : 3 ≤ i
  · have : 3 + (i - 3) = i := by omega
    rw [this]
    by_cases h32 : i < 32
    · have : i - 3 < 29 := by omega
      simp [h3, this]
    · have hx : x < 2 ^ i := lt_of_lt_of_le h (by
        have : (4294967296 : Nat) = 2 ^ 32 := by norm_num
        rw [this]; exact Nat.pow_le_pow_right (by norm_num) (by omega))
      simp [Nat.testBit_lt_two_pow hx]
  · simp [h3]

theorem land_one (x : Nat) : x &&& 1 = x % 2 := Nat.and_pow_two_sub_one_eq_mod x 1

theorem land_two (x : Nat) : x &&& 2 = 2 * (x / 2 % 2) := by
  apply Nat.eq_of_testBit_eq
  intro i
  have e1 : (2 : Nat) = 1 <<< 1 := by decide
  have e2 : 2 * (x / 2 % 2) = ((x >>> 1) % 2 ^ 1) <<< 1 := by
    rw [Nat.shiftLeft_eq, Nat.shiftRight_eq_div_pow]; ring_nf
  rw [Nat.testBit_and, e2, Nat.testBit_shiftLeft, Nat.testBit_mod_two_pow, Nat.testBit_shiftRight]
  nth_rewrite 1 [e1]
  rw [Nat.testBit_shiftLeft]
  by_cases h1 : 1 ≤ i
  · by_cases h2 : i = 1
    · subst h2; simp
    · have : ¬ (i - 1 < 1) := by omega
      have h0 : i - 1 ≠ 0 := by omega
      have h4 : Nat.testBit 1 (i - 1) = false := by
        cases h5 : Nat.testBit 1 (i - 1)
        · rfl
        · exact absurd (Nat.testBit_one_eq_true_iff_self_eq_zero.mp h5) h0
      simp [h1, this, h4]
  · simp [h1]

/-- `a ||| b` is `a + b` when `a` is a multiple of 8 and `b < 8`. -/
theorem lor_lt8 (a b : Nat) (ha : a % 8 = 0) (hb : b < 8) : a ||| b = a + b := by
  have e : a = 2 ^ 3 * (a / 8) := by omega
  rw [e, ← Nat.mul_add_lt_is_or (by simpa using hb)]


/-! ## Inversion of the error monad and of the memory primitives -/

theorem bind_ok_iff {ε α β : Type} (x : Except ε α) (f : α → Except ε β) (b : β) :
    (x >>= f) = .ok b ↔ ∃ a, x = .ok a ∧ f a = .ok b := by
  cases x with
  | error e => simp [bind, Except.bind]
  | ok a => simp [bind, Except.bind]

theorem pure_ok_iff {ε α : Type} (a b : α) : (pure a : Except ε α) = .ok b ↔ a = b := by
  simp [pure, Except.pure]

theorem store_ok {m m' : Mem} {p v : Nat} (h : store m p v = .ok m') :
    m.ok p ∧ m' = { m with w := fun a => if a = p then v % W32 else m.w a } := by
  unfold store at h
  split at h
  · simp at h; exact ⟨by assumption, h.symm⟩
  · simp at h

theorem store_brk {m m' : Mem} {p v : Nat} (h : store m p v = .ok m') : m'.brk = m.brk := by
  rw [(store_ok h).2]

theorem memcpy_brk {m m' : Mem} {d s n : Nat} (h : memcpy m d s n = .ok m') :
    m'.brk = m.brk := by
  unfold memcpy at h
  split_ifs at h
  · simp at h; rw [← h]
  · simp at h; rw [← h]

theorem mem_sbrk_some {m m' : Mem} {n p : Nat} (h : mem_sbrk m n = some (p, m')) :
    p = m.brk ∧ m'.brk = m.brk + n % W32 := by
  unfold mem_sbrk at h
  split_ifs at h
  simp at h
  obtain ⟨h1, h2⟩ := h
  subst h2
  exact ⟨h1.symm, rfl⟩

theorem land_mask_mod8 (v : Nat) : (v &&& 4294967288) % 8 = 0 := by
  have : (v &&& 4294967288) % 2 ^ 3 = 0 := by
    apply Nat.eq_of_testBit_eq
    intro i
    rw [Nat.testBit_mod_two_pow, Nat.testBit_and]
    have e1 : (4294967288 : Nat) = (2 ^ 29 - 1) <<< 3 := by decide
    rw [e1, Nat.testBit_shiftLeft]
    by_cases h : i < 3
    · have : ¬ (i ≥ 3) := by omega
      simp [this]
    · simp [h]
  simpa using this

theorem add32_mod8 {a b : Nat} (ha : a % 8 = 0) (hb : b % 8 = 0) : add32 a b % 8 = 0 := by
  unfold add32 W32; omega

theorem sub32_mod8 {a b : Nat} (ha : a % 8 = 0) (hb : b % 8 = 0) : sub32 a b % 8 = 0 := by
  unfold sub32 W32; omega

/-! ## Implicit variant: alignment of every returned pointer -/

namespace Implicit

theorem GET_SIZE_mod8 {m : Mem} {p v : Nat} (h : GET_SIZE m p = .ok v) : v % 8 = 0 := by
  unfold GET_SIZE at h
  simp only [bind_ok_iff, pure_ok_iff] at h
  obtain ⟨w, _, rfl⟩ := h
  exact land_mask_mod8 w

theorem FTRP_mod8 {m : Mem} {bp f : Nat} (h : FTRP m bp = .ok f) (hb : bp % 8 = 0) :
    f % 8 = 0 := by
  unfold FTRP at h
  simp only [bind_ok_iff, pure_ok_iff] at h
  obtain ⟨sz, hsz, rfl⟩ := h
  exact sub32_mod8 (add32_mod8 hb (GET_SIZE_mod8 hsz)) (by decide)

theorem NEXT_BLKP_mod8 {m : Mem} {bp f : Nat} (h : NEXT_BLKP m bp = .ok f) (hb : bp % 8 = 0) :
    f % 8 = 0 := by
  unfold NEXT_BLKP at h
  simp only [bind_ok_iff, pure_ok_iff] at h
  obtain ⟨sz, hsz, rfl⟩ := h
  exact add32_mod8 hb (GET_SIZE_mod8 hsz)

theorem PREV_BLKP_mod8 {m : Mem} {bp f : Nat} (h : PREV_BLKP m bp = .ok f) (hb : bp % 8 = 0) :
    f % 8 = 0 := by
  unfold PREV_BLKP at h
  simp only [bind_ok_iff, pure_ok_iff] at h
  obtain ⟨sz, hsz, rfl⟩ := h
  exact sub32_mod8 hb (GET_SIZE_mod8 hsz)

theorem PUT_brk {m m' : Mem} {p v : Nat} (h : PUT m p v = .ok m') : m'.brk = m.brk :=
  store_brk h

/-- What `coalesce` keeps of the alignment facts. -/
theorem coalesce_al {s s' : State} {bp r : Nat} (h : coalesce s bp = .ok (s', r))
    (hb : bp % 8 = 0) :
    r % 8 = 0 ∧ s'.next_fit_position % 8 = 0 ∧ s'.mem.brk = s.mem.brk ∧
      s'.heap_listp = s.heap_listp := by
  unfold coalesce at h
  simp only [bind_ok_iff, pure_ok_iff] at h
  obtain ⟨prev, hprev, pf, hpf, pa, hpa, next, hnext, na, hna, size, hsize, h⟩ := h
  split_ifs at h
  · simp only [bind_ok_iff, pure_ok_iff, Prod.mk.injEq] at h
    obtain ⟨rfl, rfl⟩ := h
    exact ⟨hb, hb, rfl, rfl⟩
  · simp only [bind_ok_iff, pure_ok_iff, Prod.mk.injEq] at h
    obtain ⟨_, _, m1, h1, f, _, m2, h2, rfl, rfl⟩ := h
    exact ⟨hb, hb, by simp [PUT_brk h2, PUT_brk h1], rfl⟩
  · simp only [bind_ok_iff, pure_ok_iff, Prod.mk.injEq] at h
    obtain ⟨_, _, f, _, m1, h1, pv, _, m2, h2, r', hr, rfl, rfl⟩ := h
    exact ⟨PREV_BLKP_mod8 hr hb, PREV_BLKP_mod8 hr hb, by simp [PUT_brk h2, PUT_brk h1], rfl⟩
  · simp only [bind_ok_iff, pure_ok_iff, Prod.mk.injEq] at h
    obtain ⟨_, _, _, _, _, _, m1, h1, nx, _, f, _, m2, h2, r', hr, rfl, rfl⟩ := h
    exact ⟨PREV_BLKP_mod8 hr hb, PREV_BLKP_mod8 hr hb, by simp [PUT_brk h2, PUT_brk h1], rfl⟩

theorem extend_heap_al {s s' : State} {words r : Nat} (h : extend_heap s words = .ok (s', r))
    (hbrk : s.mem.brk % 8 = 0) (hrov : s.next_fit_position % 8 = 0) :
    r % 8 = 0 ∧ s'.next_fit_position % 8 = 0 ∧ s'.mem.brk % 8 = 0 ∧
      s'.heap_listp = s.heap_listp := by
  unfold extend_heap at h
  simp only [bind_ok_iff, pure_ok_iff] at h
  split at h
  · simp only [pure_ok_iff, Prod.mk.injEq] at h
    obtain ⟨rfl, rfl⟩ := h
    exact ⟨rfl, hrov, hbrk, rfl⟩
  · rename_i bp m hs
    simp only [bind_ok_iff] at h
    obtain ⟨m1, h1, f, _, m2, h2, nx, _, m3, h3, h⟩ := h
    obtain ⟨hp, hb⟩ := mem_sbrk_some hs
    have hsz : (if words % 2 ≠ 0 then mul32 (add32 words 1) WSIZE else mul32 words WSIZE) % 8
        = 0 := by
      unfold mul32 add32 WSIZE W32
      split_ifs <;> omega
    have hbp : bp % 8 = 0 := by rw [hp]; exact hbrk
    obtain ⟨c1, c2, c3, c4⟩ := coalesce_al h hbp
    refine ⟨c1, c2, ?_, c4⟩
    rw [c3]
    simp only [PUT_brk h3, PUT_brk h2, PUT_brk h1, hb]
    unfold W32
    omega

theorem findLoop_al {s : State} {asize : Nat} (hh : s.heap_listp % 8 = 0) :
    ∀ (fuel bp : Nat) (s' : State) (r : Nat), findLoop s asize fuel bp = .ok (s', r) →
      bp % 8 = 0 →
      r % 8 = 0 ∧ s'.next_fit_position % 8 = 0 ∧ s'.mem = s.mem ∧
        s'.heap_listp = s.heap_listp := by
  intro fuel
  induction fuel with
  | zero => intro bp s' r h; simp [findLoop] at h
  | succ n ih =>
    intro bp s' r h hb
    unfold findLoop at h
    simp only [bind_ok_iff] at h
    obtain ⟨sz, _, h⟩ := h
    split_ifs at h
    · simp only [bind_ok_iff] at h
      obtain ⟨al, _, h⟩ := h
      split_ifs at h
      · simp only [pure_ok_iff, Prod.mk.injEq] at h
        obtain ⟨rfl, rfl⟩ := h
        exact ⟨hb, hb, rfl, rfl⟩
      · simp only [bind_ok_iff] at h
        obtain ⟨nx, hnx, h⟩ := h
        exact ih nx s' r h (NEXT_BLKP_mod8 hnx hb)
    · simp only [pure_ok_iff, Prod.mk.injEq] at h
      obtain ⟨rfl, rfl⟩ := h
      exact ⟨rfl, hh, rfl, rfl⟩

theorem place_al {s s' : State} {bp asize : Nat} (h : place s bp asize = .ok s') :
    s'.next_fit_position = s.next_fit_position ∧ s'.mem.brk = s.mem.brk ∧
      s'.heap_listp = s.heap_listp := by
  unfold place at h
  simp only [bind_ok_iff] at h
  obtain ⟨cs, _, h⟩ := h
  split_ifs at h
  · simp only [bind_ok_iff, pure_ok_iff] at h
    obtain ⟨m1, h1, _, _, m2, h2, _, _, m3, h3, _, _, m4, h4, rfl⟩ := h
    exact ⟨rfl, by simp [PUT_brk h4, PUT_brk h3, PUT_brk h2, PUT_brk h1], rfl⟩
  · simp only [bind_ok_iff, pure_ok_iff] at h
    obtain ⟨m1, h1, _, _, m2, h2, rfl⟩ := h
    exact ⟨rfl, by simp [PUT_brk h2, PUT_brk h1], rfl⟩

theorem mm_malloc_al {fuel : Nat} {s s' : State} {n p : Nat}
    (h : mm_malloc fuel s n = .ok (s', p)) (ha : Aligned s) : p % 8 = 0 ∧ Aligned s' := by
  obtain ⟨hh, hr, hb⟩ := ha
  unfold mm_malloc at h
  split_ifs at h
  · simp only [pure_ok_iff, Prod.mk.injEq] at h
    obtain ⟨rfl, rfl⟩ := h
    exact ⟨rfl, hh, hr, hb⟩
  · simp only [bind_ok_iff] at h
    obtain ⟨⟨s1, bp⟩, hf, h⟩ := h
    obtain ⟨f1, f2, f3, f4⟩ := findLoop_al hh _ _ _ _ hf hr
    simp only at h
    split_ifs at h
    · simp only [bind_ok_iff, pure_ok_iff, Prod.mk.injEq] at h
      obtain ⟨s2, hp, rfl, rfl⟩ := h
      obtain ⟨p1, p2, p3⟩ := place_al hp
      exact ⟨f1, by rw [p3, f4]; exact hh, by rw [p1]; exact f2, by rw [p2, f3]; exact hb⟩
    · simp only [bind_ok_iff] at h
      obtain ⟨⟨s2, bp2⟩, he, h⟩ := h
      obtain ⟨e1, e2, e3, e4⟩ := extend_heap_al he (by rw [f3]; exact hb) f2
      simp only at h
      split_ifs at h
      · simp only [pure_ok_iff, Prod.mk.injEq] at h
        obtain ⟨rfl, rfl⟩ := h
        exact ⟨rfl, by rw [e4, f4]; exact hh, e2, e3⟩
      · simp only [bind_ok_iff, pure_ok_iff, Prod.mk.injEq] at h
        obtain ⟨s3, hp, rfl, rfl⟩ := h
        obtain ⟨p1, p2, p3⟩ := place_al hp
        exact ⟨e1, by rw [p3, e4, f4]; exact hh, by rw [p1]; exact e2, by rw [p2]; exact e3⟩

theorem mm_free_al {s s' : State} {p : Nat} (h : mm_free s p = .ok s') (ha : Aligned s)
    (hp : p % 8 = 0) : Aligned s' := by
  obtain ⟨hh, hr, hb⟩ := ha
  unfold mm_free at h
  simp only [bind_ok_iff, pure_ok_iff] at h
  obtain ⟨_, _, m1, h1, _, _, m2, h2, ⟨s1, r⟩, hc, rfl⟩ := h
  obtain ⟨c1, c2, c3, c4⟩ := coalesce_al hc hp
  exact ⟨by rw [c4]; exact hh, c2, by rw [c3]; simp [PUT_brk h2, PUT_brk h1, hb]⟩

theorem mm_realloc_al {fuel : Nat} {s s' : State} {p n q : Nat}
    (h : mm_realloc fuel s p n = .ok (s', q)) (ha : Aligned s) (hp : p % 8 = 0) :
    q % 8 = 0 ∧ Aligned s' := by
  unfold mm_realloc at h
  simp only [bind_ok_iff] at h
  obtain ⟨⟨s1, np⟩, hm, h⟩ := h
  obtain ⟨a1, a2⟩ := mm_malloc_al hm ha
  simp only at h
  split_ifs at h
  · simp only [pure_ok_iff, Prod.mk.injEq] at h
    obtain ⟨rfl, rfl⟩ := h
    exact ⟨rfl, a2⟩
  · simp only [bind_ok_iff, pure_ok_iff, Prod.mk.injEq] at h
    obtain ⟨_, _, m1, h1, s2, hf, rfl, rfl⟩ := h
    refine ⟨a1, mm_free_al hf ?_ hp⟩
    exact ⟨a2.1, a2.2.1, by simp [memcpy_brk h1, a2.2.2]⟩

theorem mm_init_al {m0 : Mem} {s : State} (h : mm_init m0 = .ok (s, 0)) (h0 : m0.brk % 8 = 0) :
    Aligned s := by
  unfold mm_init at h
  split at h
  · simp [pure, Except.pure] at h
  · rename_i hl m hs
    obtain ⟨hp, hb⟩ := mem_sbrk_some hs
    simp only [bind_ok_iff] at h
    obtain ⟨m1, h1, m2, h2, m3, h3, m4, h4, ⟨s1, p⟩, he, h⟩ := h
    have hhl : add32 hl (2 * WSIZE) % 8 = 0 := by
      rw [hp]; exact add32_mod8 h0 (by decide)
    obtain ⟨e1, e2, e3, e4⟩ := extend_heap_al he (by
      simp only [PUT_brk h4, PUT_brk h3, PUT_brk h2, PUT_brk h1, hb]
      unfold WSIZE W32; omega) hhl
    have hs1 : s1 = s := by
      split_ifs at h
      · simp [pure, Except.pure] at h
      · simp [pure, Except.pure] at h
        exact h
    subst hs1
    exact ⟨by rw [e4]; exact hhl, e2, e3⟩

theorem reach_aligned {okSize : Nat → Prop} {m0 : Mem} (h0 : m0.brk % 8 = 0) {s : State}
    {L : List Nat} (hr : Reach okSize m0 s L) : Aligned s ∧ ∀ p ∈ L, p % 8 = 0 := by
  induction hr with
  | init h => exact ⟨mm_init_al h h0, by simp⟩
  | malloc _ _ h ih =>
    obtain ⟨a1, a2⟩ := mm_malloc_al h ih.1
    refine ⟨a2, ?_⟩
    split_ifs
    · exact ih.2
    · intro p hp
      rcases List.mem_cons.mp hp with rfl | hp
      · exact a1
      · exact ih.2 p hp
  | free _ hm h ih =>
    exact ⟨mm_free_al h ih.1 (ih.2 _ hm), fun p hp => ih.2 p (List.mem_of_mem_erase hp)⟩
  | realloc _ hm _ h ih =>
    obtain ⟨a1, a2⟩ := mm_realloc_al h ih.1 (ih.2 _ hm)
    refine ⟨a2, ?_⟩
    split_ifs
    · exact ih.2
    · intro p hp
      rcases List.mem_cons.mp hp with rfl | hp
      · exact a1
      · exact ih.2 p (List.mem_of_mem_erase hp)

end Implicit

/-! ## Word arithmetic on addresses in range -/

theorem add32_eq {a b : Nat} (h : a + b < W32) : add32 a b = a + b := by
  unfold add32; exact Nat.mod_eq_of_lt h

theorem sub32_eq {a b : Nat} (h : b ≤ a) (ha : a < W32) : sub32 a b = a - b := by
  unfold sub32 W32 at *; omega

theorem tag_land_mask {sz a : Nat} (h8 : sz % 8 = 0) (ha : a < 8) (hlt : sz + a < W32) :
    (sz + a) &&& 4294967288 = sz := by
  rw [land_mask8 _ hlt]; omega

theorem tag_land_one {sz a : Nat} (h8 : sz % 8 = 0) (ha : a < 2) : (sz + a) &&& 1 = a := by
  rw [land_one]; omega

theorem load_ok_iff {m : Mem} {p v : Nat} : load m p = .ok v ↔ m.ok p ∧ m.w p % W32 = v := by
  unfold load
  split_ifs with h
  · simp [h]
  · simp [h]

theorem load_lt {m : Mem} {p v : Nat} (h : load m p = .ok v) : v < W32 := by
  rw [load_ok_iff] at h
  rw [← h.2]
  exact Nat.mod_lt _ (by decide)

/-- Reading after a write. -/
theorem load_store {m m' : Mem} {p v : Nat} (h : store m p v = .ok m') (a : Nat) :
    load m' a = if a = p then .ok (v % W32) else load m a := by
  obtain ⟨hok, rfl⟩ := store_ok h
  unfold load Mem.ok at *
  by_cases hap : a = p
  · subst hap
    simp [hok, Nat.mod_mod]
  · simp [hap]

theorem store_lo {m m' : Mem} {p v : Nat} (h : store m p v = .ok m') : m'.lo = m.lo := by
  rw [(store_ok h).2]

theorem store_hi {m m' : Mem} {p v : Nat} (h : store m p v = .ok m') : m'.hi = m.hi := by
  rw [(store_ok h).2]

/-! ## Tilings -/

theorem tiles_le : ∀ (bs : List Blk) (a e : Nat), Tiles a bs e → a ≤ e
  | [], a, e, h => by simp [Tiles] at h; omega
  | b :: bs, a, e, h => by
    obtain ⟨_, _, _, h4⟩ := h
    have := tiles_le bs _ _ h4
    omega

theorem tiles_append : ∀ (xs ys : List Blk) (a e : Nat), ys ≠ [] →
    (Tiles a (xs ++ ys) e ↔ ∃ c, Tiles a xs c ∧ Tiles c ys e ∧ (∀ b ∈ xs, 8 ≤ b.size))
  | [], ys, a, e, _ => by simp [Tiles]
  | x :: xs, ys, a, e, hy => by
    have ih := tiles_append xs ys (a + x.size) e hy
    have hne : xs ++ ys ≠ [] := by simp [hy]
    show (x.addr = a ∧ x.size % 8 = 0 ∧ (xs ++ ys ≠ [] → 8 ≤ x.size) ∧
      Tiles (a + x.size) (xs ++ ys) e) ↔ _
    rw [ih]
    constructor
    · rintro ⟨h1, h2, h3, c, h4, h5, h6⟩
      refine ⟨c, ⟨h1, h2, fun _ => h3 hne, h4⟩, h5, ?_⟩
      intro b hb
      rcases List.mem_cons.mp hb with rfl | hb
      · exact h3 hne
      · exact h6 b hb
    · rintro ⟨c, ⟨h1, h2, _, h4⟩, h5, h6⟩
      exact ⟨h1, h2, fun _ => h6 x (List.mem_cons_self _ _), c, h4, h5,
        fun b hb => h6 b (List.mem_cons_of_mem _ hb)⟩

/-- Every block of a tiling lies between its two ends. -/
theorem tiles_mem : ∀ (bs : List Blk) (a e : Nat), Tiles a bs e → ∀ b ∈ bs,
    a ≤ b.addr ∧ b.addr + b.size ≤ e ∧ b.size % 8 = 0
  | [], _, _, _, b, hb => by simp at hb
  | x :: xs, a, e, h, b, hb => by
    obtain ⟨h1, h2, _, h4⟩ := h
    rcases List.mem_cons.mp hb with rfl | hb
    · have := tiles_le xs _ _ h4
      exact ⟨by omega, by omega, h2⟩
    · have := tiles_mem xs _ _ h4 b hb
      exact ⟨by omega, this.2.1, this.2.2⟩

/-! ## Implicit variant: reading boundary tags -/

theorem toNat_lt_two (b : Bool) : b.toNat < 2 := by cases b <;> decide

namespace Implicit

theorem HDRP_eq {b : Nat} (h4 : 4 ≤ b) (hlt : b < W32) : HDRP b = b - 4 := by
  unfold HDRP WSIZE; exact sub32_eq h4 hlt

theorem PACK_eq {z a : Nat} (h8 : z % 8 = 0) (ha : a < 8) : PACK z a = z + a := by
  unfold PACK; exact lor_lt8 z a h8 ha

theorem GET_SIZE_tag {m : Mem} {p z a : Nat} (h : load m p = .ok (z + a)) (h8 : z % 8 = 0)
    (ha : a < 2) : GET_SIZE m p = .ok z := by
  unfold GET_SIZE GET
  rw [h]
  show Except.ok ((z + a) &&& 4294967288) = _
  rw [tag_land_mask h8 (by omega) (load_lt h)]

theorem GET_ALLOC_tag {m : Mem} {p z a : Nat} (h : load m p = .ok (z + a)) (h8 : z % 8 = 0)
    (ha : a < 2) : GET_ALLOC m p = .ok a := by
  unfold GET_ALLOC GET
  rw [h]
  show Except.ok ((z + a) &&& 1) = _
  rw [tag_land_one h8 ha]

theorem NEXT_BLKP_tag {m : Mem} {b z a : Nat} (h : load m (b - 4) = .ok (z + a))
    (h8 : z % 8 = 0) (ha : a < 2) (h4 : 4 ≤ b) (hlt : b + z < W32) :
    NEXT_BLKP m b = .ok (b + z) := by
  unfold NEXT_BLKP WSIZE
  rw [sub32_eq h4 (by omega), GET_SIZE_tag h h8 ha]
  show Except.ok (add32 b z) = _
  rw [add32_eq hlt]

theorem FTRP_tag {m : Mem} {b z a : Nat} (h : load m (b - 4) = .ok (z + a))
    (h8 : z % 8 = 0) (ha : a < 2) (h4 : 8 ≤ b) (hlt : b + z < W32) :
    FTRP m b = .ok (b + z - 8) := by
  unfold FTRP DSIZE
  rw [HDRP_eq (by omega) (by omega), GET_SIZE_tag h h8 ha]
  show Except.ok (sub32 (add32 b z) 8) = _
  rw [add32_eq hlt, sub32_eq (by omega) hlt]

theorem PREV_BLKP_tag {m : Mem} {b z a : Nat} (h : load m (b - 8) = .ok (z + a))
    (h8 : z % 8 = 0) (ha : a < 2) (h4 : 8 ≤ b) (hle : z ≤ b) (hlt : b < W32) :
    PREV_BLKP m b = .ok (b - z) := by
  unfold PREV_BLKP DSIZE
  rw [sub32_eq h4 hlt, GET_SIZE_tag h h8 ha]
  show Except.ok (sub32 b z) = _
  rw [sub32_eq hle hlt]

theorem Rep.brk_lt {s : State} {B : List Blk} (h : Rep s B) : s.mem.brk < W32 :=
  lt_of_le_of_lt h.brk_le h.hi_lt

end Implicit


theorem ok_inj {ε α : Type} {x : Except ε α} {a b : α} (h1 : x = .ok a) (h2 : x = .ok b) :
    a = b := by
  rw [h1] at h2; exact Except.ok.inj h2

theorem tag_lt (b : Blk) (h : b.size + 1 < W32) : b.tag < W32 := by
  unfold Blk.tag
  have := toNat_lt_two b.alloc
  omega

namespace Implicit

/-- Tag loads of the blocks left and right of a rewritten span are kept. -/
theorem tags_frame {m m' : Mem} {L R : List Blk} {a x y e : Nat} (ha : 8 ≤ a)
    (hL : Tiles a L x) (hL8 : ∀ b ∈ L, 8 ≤ b.size) (hR : Tiles y R e)
    (hfr : ∀ q, (q + 8 ≤ x ∨ y ≤ q + 4) → load m' q = load m q)
    (hdr : ∀ b ∈ L ++ R, load m (b.addr - 4) = .ok b.tag)
    (ftr : ∀ b ∈ L ++ R, b.size ≠ 0 → load m (b.addr + b.size - 8) = .ok b.tag) :
    (∀ b ∈ L ++ R, load m' (b.addr - 4) = .ok b.tag) ∧
    (∀ b ∈ L ++ R, b.size ≠ 0 → load m' (b.addr + b.size - 8) = .ok b.tag) := by
  have key : ∀ b ∈ L ++ R, (b.addr - 4 + 8 ≤ x ∨ y ≤ b.addr - 4 + 4) ∧
      (b.size ≠ 0 → (b.addr + b.size - 8 + 8 ≤ x ∨ y ≤ b.addr + b.size - 8 + 4)) := by
    intro b hb
    rcases List.mem_append.mp hb with hb | hb
    · have h1 := tiles_mem L _ _ hL b hb
      have h2 := hL8 b hb
      exact ⟨Or.inl (by omega), fun _ => Or.inl (by omega)⟩
    · have h1 := tiles_mem R _ _ hR b hb
      exact ⟨Or.inr (by omega), fun h0 => Or.inr (by omega)⟩
  constructor
  · intro b hb
    rw [hfr _ (key b hb).1]; exact hdr b hb
  · intro b hb h0
    rw [hfr _ ((key b hb).2 h0)]; exact ftr b hb h0


/-- Replacing a span `X` in the middle of a represented heap by a span `X'` over the same
bytes, when memory outside the tag words of the span is unchanged. -/
theorem Rep.replace {s s' : State} {L X X' R : List Blk} {x y : Nat}
    (h : Rep s (L ++ X ++ R)) (hLne : L ≠ []) (hRne : R ≠ [])
    (hL : Tiles s.heap_listp L x) (hR : Tiles y R s.mem.brk)
    (hX' : Tiles x X' y) (hX'8 : ∀ b ∈ X', 8 ≤ b.size)
    (hm : s'.mem.brk = s.mem.brk ∧ s'.mem.lo = s.mem.lo ∧ s'.mem.hi = s.mem.hi ∧
      s'.heap_listp = s.heap_listp)
    (hfr : ∀ q, (q + 8 ≤ x ∨ y ≤ q + 4) → load s'.mem q = load s.mem q)
    (htags : ∀ b ∈ X', load s'.mem (b.addr - 4) = .ok b.tag ∧
      load s'.mem (b.addr + b.size - 8) = .ok b.tag)
    (hrov : ∃ b ∈ L ++ X' ++ R, b.addr = s'.next_fit_position) :
    Rep s' (L ++ X' ++ R) := by
  obtain ⟨hm1, hm2, hm3, hm4⟩ := hm
  have hL8 : ∀ b ∈ L, 8 ≤ b.size := by
    have := h.tiles
    rw [List.append_assoc, tiles_append L (X ++ R) _ _ (by simp [hRne])] at this
    exact this.choose_spec.2.2
  have hmem : ∀ b, b ∈ L ++ R → b ∈ L ++ X ++ R := by
    intro b hb
    simp only [List.mem_append] at hb ⊢
    tauto
  obtain ⟨f1, f2⟩ := tags_frame (by have := h.hl_ge; omega) hL hL8 hR hfr
    (fun b hb => h.hdr b (hmem b hb)) (fun b hb h0 => h.ftr b (hmem b hb) h0)
  refine ⟨by rw [hm3]; exact h.hi_lt, by rw [hm1, hm3]; exact h.brk_le,
    by rw [hm2, hm4]; exact h.hl_ge, by rw [hm4]; exact h.hl8, ?_, ?_, ?_, ?_, ?_, hrov⟩
  · have := h.head
    rw [hm4]
    cases L with
    | nil => exact absurd rfl hLne
    | cons a L => simpa using this
  · have := h.last
    rw [hm1]
    rw [List.getLast?_append_of_ne_nil _ hRne] at this ⊢
    exact this
  · rw [hm1, hm4, List.append_assoc, tiles_append L (X' ++ R) _ _ (by simp [hRne])]
    refine ⟨x, hL, ?_, hL8⟩
    rw [tiles_append X' R _ _ hRne]
    exact ⟨y, hX', hR, hX'8⟩
  · intro b hb
    simp only [List.mem_append] at hb
    rcases hb with (hb | hb) | hb
    · exact f1 b (List.mem_append_left _ hb)
    · exact (htags b hb).1
    · exact f1 b (List.mem_append_right _ hb)
  · intro b hb h0
    simp only [List.mem_append] at hb
    rcases hb with (hb | hb) | hb
    · exact f2 b (List.mem_append_left _ hb) h0
    · exact (htags b hb).2
    · exact f2 b (List.mem_append_right _ hb) h0


/-- The facts that a represented heap gives about three consecutive blocks. -/
theorem Rep.three {s : State} {L R : List Blk} {p b n : Blk}
    (h : Rep s (L ++ p :: b :: n :: R)) :
    ∃ c0, Tiles s.heap_listp L c0 ∧ (∀ x ∈ L, 8 ≤ x.size) ∧ 8 ≤ c0 ∧
      p.addr = c0 ∧ p.size % 8 = 0 ∧ 8 ≤ p.size ∧
      b.addr = c0 + p.size ∧ b.size % 8 = 0 ∧ 8 ≤ b.size ∧
      n.addr = c0 + p.size + b.size ∧ n.size % 8 = 0 ∧ (R ≠ [] → 8 ≤ n.size) ∧
      Tiles (c0 + p.size + b.size + n.size) R s.mem.brk ∧
      c0 + p.size + b.size + n.size ≤ s.mem.brk ∧ s.mem.brk < W32 := by
  have hT := h.tiles
  rw [tiles_append L _ _ _ (by simp)] at hT
  obtain ⟨c0, hTL, hT2, hL8⟩ := hT
  simp only [Tiles, ne_eq, reduceCtorEq, not_false_eq_true, forall_const] at hT2
  obtain ⟨hp1, hp2, hp3, hb1, hb2, hb3, hn1, hn2, hn3, hTR⟩ := hT2
  have h1 := tiles_le _ _ _ hTL
  have h2 := tiles_le _ _ _ hTR
  have h3 := h.hl_ge
  have h4 := h.brk_lt
  refine ⟨c0, hTL, hL8, by omega, hp1, hp2, hp3, ?_, hb2, hb3, ?_, hn2, hn3, ?_, ?_, h4⟩
  · omega
  · omega
  · exact hTR
  · exact h2



theorem load_store2 {m m1 m2 : Mem} {p1 v1 p2 v2 : Nat} (h1 : store m p1 v1 = .ok m1)
    (h2 : store m1 p2 v2 = .ok m2) (q : Nat) :
    load m2 q = if q = p2 then .ok (v2 % W32) else if q = p1 then .ok (v1 % W32)
      else load m q := by
  rw [load_store h2, load_store h1]

theorem noadj_head_congr {x y : Blk} {R : List Blk} (hxy : x.alloc = y.alloc)
    (h : NoAdjFree (x :: R)) : NoAdjFree (y :: R) := by
  unfold NoAdjFree at *
  cases R with
  | nil => exact List.chain'_singleton _
  | cons z R =>
    rw [List.chain'_cons] at h ⊢
    rw [← hxy]; exact h

theorem noadj_last_congr {x y : Blk} {L : List Blk} (hxy : x.alloc = y.alloc)
    (h : NoAdjFree (L ++ [x])) : NoAdjFree (L ++ [y]) := by
  unfold NoAdjFree at *
  rw [List.chain'_append] at h ⊢
  refine ⟨h.1, List.chain'_singleton _, ?_⟩
  intro a ha b hb
  simp only [List.head?_cons, Option.mem_def, Option.some.injEq] at hb
  subst hb
  have := h.2.2 a ha x (by simp)
  rw [← hxy]; exact this

theorem noadj_overlap {L R : List Blk} {z : Blk} (hL : NoAdjFree (L ++ [z]))
    (hR : NoAdjFree (z :: R)) : NoAdjFree (L ++ z :: R) := by
  unfold NoAdjFree at *
  have hR2 : List.Chain' (fun x y => x.alloc = true ∨ y.alloc = true) ([z] ++ R) := by
    simpa using hR
  have := List.Chain'.append_overlap hL hR2 (by simp)
  simpa using this

/-- Two lists without adjacent free blocks may be joined when one of the two blocks that
meet is allocated. -/
theorem noadj_join {L R : List Blk} {x y : Blk} (hL : NoAdjFree (L ++ [x]))
    (hR : NoAdjFree (y :: R)) (hxy : x.alloc = true ∨ y.alloc = true) :
    NoAdjFree (L ++ x :: y :: R) := by
  unfold NoAdjFree at *
  have : L ++ x :: y :: R = (L ++ [x]) ++ (y :: R) := by simp
  rw [this, List.chain'_append]
  refine ⟨hL, hR, ?_⟩
  intro a ha b hb
  rw [List.getLast?_append_of_ne_nil _ (by simp)] at ha
  simp only [List.getLast?_singleton, Option.mem_def, Option.some.injEq, List.head?_cons]
    at ha hb
  subst ha hb
  exact hxy

theorem Blk.tag_eq (b : Blk) : b.tag = b.size + b.alloc.toNat := rfl

/-- What `coalesce` does on a represented heap, at a free block `b` with neighbours `p`
and `n`. -/
theorem coalesce_spec {s s' : State} {L R : List Blk} {p b n : Blk} {r : Nat}
    (h : Rep s (L ++ p :: b :: n :: R)) (hfree : b.alloc = false)
    (hc : coalesce s b.addr = .ok (s', r)) :
    ∃ B', Rep s' B' ∧
      (NoAdjFree (L ++ [p]) → NoAdjFree (n :: R) → NoAdjFree B') ∧
      (∀ c ∈ L ++ p :: b :: n :: R, c.alloc = true → c ∈ B') ∧
      (∃ c ∈ B', c.addr = r ∧ c.alloc = false ∧ b.size ≤ c.size) ∧
      s'.mem.brk = s.mem.brk ∧ s'.mem.lo = s.mem.lo ∧ s'.mem.hi = s.mem.hi ∧
      s'.heap_listp = s.heap_listp ∧
      (∀ q, (q + 8 ≤ p.addr ∨ n.addr + n.size ≤ q + 4 ∨ (p.alloc = true ∧ q + 8 ≤ b.addr) ∨
        (n.alloc = true ∧ b.addr + b.size ≤ q + 4)) → load s'.mem q = load s.mem q) ∧
      (r = b.addr ∨ (p.alloc = false ∧ r = p.addr)) := by
  obtain ⟨c0, hTL, hL8, hc8, hp1, hp2, hp3, hb1, hb2, hb3, hn1, hn2, hn3, hTR, hend, hlt⟩ :=
    h.three
  have hhp := h.hdr p (by simp)
  have hfp := h.ftr p (by simp) (by omega)
  have hhb := h.hdr b (by simp)
  have hfb := h.ftr b (by simp) (by omega)
  have hhn := h.hdr n (by simp)
  rw [Blk.tag_eq] at hhp hfp hhb hfb hhn
  have tp := toNat_lt_two p.alloc
  have tb := toNat_lt_two b.alloc
  have tn := toNat_lt_two n.alloc
  unfold coalesce at hc
  simp only [bind_ok_iff] at hc
  obtain ⟨prev, hprev, pf, hpf, pa, hpa, next, hnext, na, hna, size, hsize, hc⟩ := hc
  have e1 : b.addr - 8 = p.addr + p.size - 8 := by omega
  obtain rfl : p.addr = prev := by
    have := PREV_BLKP_tag (m := s.mem) (b := b.addr) (by rw [e1]; exact hfp) hp2 tp
      (by omega) (by omega) (by omega)
    have := ok_inj this hprev
    omega
  obtain rfl := ok_inj (FTRP_tag hhp hp2 tp (by omega) (by omega)) hpf
  obtain rfl := ok_inj (GET_ALLOC_tag hfp hp2 tp) hpa
  obtain rfl : next = n.addr := by
    have := ok_inj (NEXT_BLKP_tag hhb hb2 tb (by omega) (by omega)) hnext
    omega
  rw [HDRP_eq (by omega) (by omega)] at hna hsize
  obtain rfl := ok_inj (GET_ALLOC_tag hhn hn2 tn) hna
  obtain rfl := ok_inj (GET_SIZE_tag hhb hb2 tb) hsize
  have hB1 : L ++ p :: b :: n :: R = (L ++ [p]) ++ [b, n] ++ R := by simp
  have hTLp : Tiles s.heap_listp (L ++ [p]) b.addr := by
    rw [tiles_append L [p] _ _ (by simp)]
    exact ⟨c0, hTL, by simp [Tiles]; omega, hL8⟩
  have hRne : n.alloc = false → R ≠ [] := by
    intro hn hR
    have := h.last
    rw [hR] at this
    have e : L ++ [p, b, n] = (L ++ [p, b]) ++ [n] := by simp
    rw [e, List.getLast?_append_of_ne_nil _ (by simp)] at this
    simp only [List.getLast?_singleton, Option.some.injEq] at this
    rw [this] at hn
    simp at hn
  have hLne : p.alloc = false → L ≠ [] := by
    intro hp hL
    have := h.head
    rw [hL] at this
    simp only [List.nil_append, List.head?_cons, Option.some.injEq] at this
    rw [this] at hp
    simp at hp
  cases hpal : p.alloc <;> cases hnal : n.alloc <;>
    simp only [hpal, hnal, Bool.toNat_true, Bool.toNat_false, ne_eq, not_true_eq_false,
      one_ne_zero, not_false_eq_true, and_self, and_true, and_false, if_true, if_false]
      at hc
  · -- both free
    simp only [bind_ok_iff, pure_ok_iff, Prod.mk.injEq] at hc
    obtain ⟨psz, hpsz, nf, hnf, nsz, hnsz, m1, h1, nx, hnx, f, hf, m2, h2, r', hr, rfl, rfl⟩ :=
      hc
    have hR := hRne hnal
    have hL := hLne hpal
    have hn8 := hn3 hR
    have hfn := h.ftr n (by simp) (by omega)
    rw [Blk.tag_eq] at hfn
    rw [HDRP_eq (by omega) (by omega)] at hpsz h1
    obtain rfl := ok_inj (GET_SIZE_tag hhp hp2 tp) hpsz
    obtain rfl := ok_inj (FTRP_tag hhn hn2 tn (by omega) (by omega)) hnf
    obtain rfl := ok_inj (GET_SIZE_tag hfn hn2 tn) hnsz
    rw [add32_eq (by rw [add32_eq (by omega)]; omega), add32_eq (by omega),
      PACK_eq (by omega) (by omega), Nat.add_zero] at h1 h2
    have hv : (b.size + (p.size + n.size)) % W32 = b.size + (p.size + n.size) :=
      Nat.mod_eq_of_lt (by omega)
    have hl1 := load_store h1
    obtain rfl : nx = n.addr := by
      have := ok_inj (NEXT_BLKP_tag (m := m1) (by rw [hl1, if_neg (by omega)]; exact hhb)
        hb2 tb (by omega) (by omega)) hnx
      omega
    obtain rfl := ok_inj (FTRP_tag (m := m1) (by rw [hl1, if_neg (by omega)]; exact hhn)
      hn2 tn (by omega) (by omega)) hf
    have hl2 := load_store2 h1 h2
    obtain rfl : r' = p.addr := by
      have := ok_inj (PREV_BLKP_tag (m := m2) (b := b.addr) (by
        rw [hl2, if_neg (by omega), if_neg (by omega), e1]; exact hfp) hp2 tp
        (by omega) (by omega) (by omega)) hr
      omega
    have hB2 : L ++ p :: b :: n :: R = L ++ [p, b, n] ++ R := by simp
    refine ⟨L ++ [⟨p.addr, p.size + b.size + n.size, false⟩] ++ R, ?_, ?_, ?_, ?_,
      by rw [store_brk h2, store_brk h1], by rw [store_lo h2, store_lo h1],
      by rw [store_hi h2, store_hi h1], rfl, ?_, Or.inr ⟨rfl, rfl⟩⟩
    rotate_right
    · intro q hq
      have hq' : q + 8 ≤ p.addr ∨ n.addr + n.size ≤ q + 4 := by
        rcases hq with h | h | h | h
        · exact Or.inl h
        · exact Or.inr h
        · exact absurd h.1 (by simp)
        · exact absurd h.1 (by simp)
      show load m2 q = _
      rw [hl2, if_neg (by omega), if_neg (by omega)]
    · rw [hB2] at h
      refine Rep.replace (x := c0) (y := n.addr + n.size) h hL hR hTL
        (by rw [hn1]; exact hTR) (by simp [Tiles]; omega) (by simp; omega)
        ⟨by rw [store_brk h2, store_brk h1], by rw [store_lo h2, store_lo h1],
          by rw [store_hi h2, store_hi h1], rfl⟩ ?_ ?_
        ⟨⟨p.addr, p.size + b.size + n.size, false⟩, by simp, rfl⟩
      · intro q hq
        show load m2 q = _
        rw [hl2, if_neg (by omega), if_neg (by omega)]
      · intro x hx
        simp only [List.mem_singleton] at hx
        subst hx
        simp only [Blk.tag_eq, Bool.toNat_false, Nat.add_zero]
        constructor
        · show load m2 _ = _
          rw [hl2, if_neg (by omega), if_pos rfl, hv]
          congr 1; omega
        · show load m2 _ = _
          rw [hl2, if_pos (by omega), hv]
          congr 1; omega
    · intro hL2 hR2
      have h3 : NoAdjFree (⟨p.addr, p.size + b.size + n.size, false⟩ :: R) :=
        noadj_head_congr (x := n) (by simp [hnal]) hR2
      have h4 : NoAdjFree (L ++ [⟨p.addr, p.size + b.size + n.size, false⟩]) :=
        noadj_last_congr (x := p) (by simp [hpal]) hL2
      have := noadj_overlap h4 h3
      simpa using this
    · intro c hc hca
      simp only [List.mem_append, List.mem_cons, List.mem_singleton] at hc ⊢
      rcases hc with hc | rfl | rfl | rfl | hc
      · simp [hc]
      · rw [hpal] at hca; simp at hca
      · rw [hfree] at hca; simp at hca
      · rw [hnal] at hca; simp at hca
      · simp [hc]
    · exact ⟨⟨p.addr, p.size + b.size + n.size, false⟩, by simp, rfl, rfl, by simp; omega⟩
  · -- previous free, next allocated
    simp only [bind_ok_iff, pure_ok_iff, Prod.mk.injEq] at hc
    obtain ⟨psz, hpsz, f, hf, m1, h1, pv, hpv, m2, h2, r', hr, rfl, rfl⟩ := hc
    have hL := hLne hpal
    rw [HDRP_eq (by omega) (by omega)] at hpsz
    obtain rfl := ok_inj (GET_SIZE_tag hhp hp2 tp) hpsz
    obtain rfl := ok_inj (FTRP_tag hhb hb2 tb (by omega) (by omega)) hf
    rw [add32_eq (by omega), PACK_eq (by omega) (by omega), Nat.add_zero] at h1 h2
    have hv : (b.size + p.size) % W32 = b.size + p.size := Nat.mod_eq_of_lt (by omega)
    have hl1 := load_store h1
    obtain rfl : pv = p.addr := by
      have := ok_inj (PREV_BLKP_tag (m := m1) (b := b.addr) (by
        rw [hl1, if_neg (by omega), e1]; exact hfp) hp2 tp (by omega) (by omega) (by omega)) hpv
      omega
    rw [HDRP_eq (by omega) (by omega)] at h2
    have hl2 := load_store2 h1 h2
    obtain rfl : r' = p.addr := by
      have := ok_inj (PREV_BLKP_tag (m := m2) (b := b.addr) (by
        rw [hl2, if_neg (by omega), if_neg (by omega), e1]; exact hfp) hp2 tp
        (by omega) (by omega) (by omega)) hr
      omega
    have hB2 : L ++ p :: b :: n :: R = L ++ [p, b] ++ n :: R := by simp
    refine ⟨L ++ [⟨p.addr, p.size + b.size, false⟩] ++ n :: R, ?_, ?_, ?_, ?_,
      by rw [store_brk h2, store_brk h1], by rw [store_lo h2, store_lo h1],
      by rw [store_hi h2, store_hi h1], rfl, ?_, Or.inr ⟨rfl, rfl⟩⟩
    rotate_right
    · intro q hq
      have hq' : q + 8 ≤ p.addr ∨ b.addr + b.size ≤ q + 4 := by
        rcases hq with h | h | h | h
        · exact Or.inl h
        · exact Or.inr (by omega)
        · exact absurd h.1 (by simp)
        · exact Or.inr h.2
      show load m2 q = _
      rw [hl2, if_neg (by omega), if_neg (by omega)]
    · rw [hB2] at h
      refine Rep.replace (x := c0) (y := n.addr) h hL (by simp) hTL
        (by rw [hn1]; simp only [Tiles]; exact ⟨hn1, hn2, hn3, hTR⟩)
        (by simp [Tiles]; omega) (by simp; omega)
        ⟨by rw [store_brk h2, store_brk h1], by rw [store_lo h2, store_lo h1],
          by rw [store_hi h2, store_hi h1], rfl⟩ ?_ ?_
        ⟨⟨p.addr, p.size + b.size, false⟩, by simp, rfl⟩
      · intro q hq
        show load m2 q = _
        rw [hl2, if_neg (by omega), if_neg (by omega)]
      · intro x hx
        simp only [List.mem_singleton] at hx
        subst hx
        simp only [Blk.tag_eq, Bool.toNat_false, Nat.add_zero]
        constructor
        · show load m2 _ = _
          rw [hl2, if_pos rfl, hv]
          congr 1; omega
        · show load m2 _ = _
          rw [hl2, if_neg (by omega), if_pos (by omega), hv]
          congr 1; omega
    · intro hL2 hR2
      have h4 : NoAdjFree (L ++ [⟨p.addr, p.size + b.size, false⟩]) :=
        noadj_last_congr (x := p) (by simp [hpal]) hL2
      have := noadj_join h4 hR2 (Or.inr hnal)
      simpa using this
    · intro c hc hca
      simp only [List.mem_append, List.mem_cons, List.mem_singleton] at hc ⊢
      rcases hc with hc | rfl | rfl | rfl | hc
      · simp [hc]
      · rw [hpal] at hca; simp at hca
      · rw [hfree] at hca; simp at hca
      · simp
      · simp [hc]
    · exact ⟨⟨p.addr, p.size + b.size, false⟩, by simp, rfl, rfl, by simp⟩
  · -- previous allocated, next free
    simp only [bind_ok_iff, pure_ok_iff, Prod.mk.injEq] at hc
    obtain ⟨nsz, hnsz, m1, h1, f, hf, m2, h2, rfl, rfl⟩ := hc
    have hR := hRne hnal
    have hn8 := hn3 hR
    have hfn := h.ftr n (by simp) (by omega)
    rw [Blk.tag_eq] at hfn
    rw [HDRP_eq (by omega) (by omega)] at hnsz h1
    obtain rfl := ok_inj (GET_SIZE_tag hhn hn2 tn) hnsz
    rw [add32_eq (by omega), PACK_eq (by omega) (by omega), Nat.add_zero] at h1 h2
    have hv : (b.size + n.size) % W32 = b.size + n.size := Nat.mod_eq_of_lt (by omega)
    have hl1 := load_store h1
    obtain rfl := ok_inj (FTRP_tag (m := m1) (b := b.addr) (z := b.size + n.size) (a := 0)
      (by rw [hl1, if_pos rfl, hv]; rfl) (by omega) (by omega) (by omega) (by omega)) hf
    have hl2 := load_store2 h1 h2
    refine ⟨(L ++ [p]) ++ [⟨b.addr, b.size + n.size, false⟩] ++ R, ?_, ?_, ?_, ?_,
      by rw [store_brk h2, store_brk h1], by rw [store_lo h2, store_lo h1],
      by rw [store_hi h2, store_hi h1], rfl, ?_, Or.inl rfl⟩
    rotate_right
    · intro q hq
      have hq' : q + 8 ≤ b.addr ∨ n.addr + n.size ≤ q + 4 := by
        rcases hq with h | h | h | h
        · exact Or.inl (by omega)
        · exact Or.inr h
        · exact Or.inl h.2
        · exact absurd h.1 (by simp)
      show load m2 q = _
      rw [hl2, if_neg (by omega), if_neg (by omega)]
    · rw [hB1] at h
      refine Rep.replace (y := n.addr + n.size) h (by simp) hR hTLp
        (by rw [hn1]; exact hTR) (by simp [Tiles]; omega) (by simp; omega)
        ⟨by rw [store_brk h2, store_brk h1], by rw [store_lo h2, store_lo h1],
          by rw [store_hi h2, store_hi h1], rfl⟩ ?_ ?_
        ⟨⟨b.addr, b.size + n.size, false⟩, by simp, rfl⟩
      · intro q hq
        show load m2 q = _
        rw [hl2, if_neg (by omega), if_neg (by omega)]
      · intro x hx
        simp only [List.mem_singleton] at hx
        subst hx
        simp only [Blk.tag_eq, Bool.toNat_false, Nat.add_zero]
        constructor
        · show load m2 _ = _
          rw [hl2, if_neg (by omega), if_pos rfl, hv]
        · show load m2 _ = _
          rw [hl2, if_pos (by omega), hv]
    · intro hL hR2
      have := noadj_join (x := p) (y := ⟨b.addr, b.size + n.size, false⟩) hL
        (noadj_head_congr (x := n) (by simp [hnal]) hR2) (Or.inl hpal)
      simpa using this
    · intro c hc hca
      simp only [List.mem_append, List.mem_cons, List.mem_singleton] at hc ⊢
      rcases hc with hc | rfl | rfl | rfl | hc
      · simp [hc]
      · simp
      · rw [hfree] at hca; simp at hca
      · rw [hnal] at hca; simp at hca
      · simp [hc]
    · exact ⟨⟨b.addr, b.size + n.size, false⟩, by simp, rfl, rfl, by simp⟩
  · -- both allocated
    simp only [pure_ok_iff, Prod.mk.injEq] at hc
    obtain ⟨rfl, rfl⟩ := hc
    refine ⟨_, ⟨h.hi_lt, h.brk_le, h.hl_ge, h.hl8, h.head, h.last, h.tiles, h.hdr, h.ftr,
      ⟨b, by simp, rfl⟩⟩, ?_, fun c hc _ => hc, ⟨b, by simp, rfl, hfree, le_refl _⟩,
      rfl, rfl, rfl, rfl, fun _ _ => rfl, Or.inl rfl⟩
    intro hL hR
    exact noadj_join hL (noadj_join (L := []) (List.chain'_singleton _) hR (Or.inr hnal))
      (Or.inl hpal)

end Implicit


theorem noadj_split {L R : List Blk} {b : Blk} (h : NoAdjFree (L ++ b :: R)) :
    NoAdjFree (L ++ [b]) ∧ NoAdjFree (b :: R) := by
  unfold NoAdjFree at *
  have e : L ++ b :: R = (L ++ [b]) ++ R := by simp
  constructor
  · rw [e] at h
    exact List.Chain'.left_of_append h
  · exact List.Chain'.right_of_append h

theorem noadj_last_alloc {x y : Blk} {L : List Blk} (hy : y.alloc = true)
    (h : NoAdjFree (L ++ [x])) : NoAdjFree (L ++ [y]) := by
  unfold NoAdjFree at *
  rw [List.chain'_append] at h ⊢
  refine ⟨h.1, List.chain'_singleton _, ?_⟩
  intro a _ b hb
  simp only [List.head?_cons, Option.mem_def, Option.some.injEq] at hb
  subst hb
  exact Or.inr hy

theorem noadj_head_alloc {x y : Blk} {R : List Blk} (hy : y.alloc = true)
    (h : NoAdjFree (x :: R)) : NoAdjFree (y :: R) := by
  unfold NoAdjFree at *
  cases R with
  | nil => exact List.chain'_singleton _
  | cons z R =>
    rw [List.chain'_cons] at h ⊢
    exact ⟨Or.inl hy, h.2⟩

namespace Implicit

/-- The facts that a represented heap gives about one of its blocks. -/
theorem Rep.one {s : State} {L R : List Blk} {b : Blk} (h : Rep s (L ++ b :: R)) :
    Tiles s.heap_listp L b.addr ∧ (∀ x ∈ L, 8 ≤ x.size) ∧ 8 ≤ b.addr ∧
      b.size % 8 = 0 ∧ (R ≠ [] → 8 ≤ b.size) ∧
      Tiles (b.addr + b.size) R s.mem.brk ∧
      b.addr + b.size ≤ s.mem.brk ∧ s.mem.brk < W32 ∧
      (b.alloc = false → L ≠ [] ∧ R ≠ []) := by
  have hT := h.tiles
  rw [tiles_append L _ _ _ (by simp)] at hT
  obtain ⟨c0, hTL, hT2, hL8⟩ := hT
  simp only [Tiles] at hT2
  obtain ⟨hp1, hp2, hp3, hTR⟩ := hT2
  have h1 := tiles_le _ _ _ hTL
  have h2 := tiles_le _ _ _ hTR
  have h3 := h.hl_ge
  have h4 := h.brk_lt
  subst hp1
  refine ⟨hTL, hL8, by omega, hp2, hp3, hTR, h2, h4, ?_⟩
  intro hb
  constructor
  · intro hL
    have := h.head
    rw [hL] at this
    simp only [List.nil_append, List.head?_cons, Option.some.injEq] at this
    rw [this] at hb
    simp at hb
  · intro hR
    have := h.last
    rw [hR, List.getLast?_append_of_ne_nil _ (by simp)] at this
    simp only [List.getLast?_singleton, Option.some.injEq] at this
    rw [this] at hb
    simp at hb

/-- What `place` does on a represented heap, at a free block `b` large enough for
`asize`. -/
theorem place_exact {s s' : State} {L R : List Blk} {b : Blk} {asize : Nat}
    (h : Rep s (L ++ b :: R)) (hfree : b.alloc = false) (ha8 : asize % 8 = 0)
    (ha16 : 16 ≤ asize) (hle : asize ≤ b.size) (hp : place s b.addr asize = .ok s') :
    ∃ B', B' = (if 16 ≤ b.size - asize then
        L ++ [⟨b.addr, asize, true⟩, ⟨b.addr + asize, b.size - asize, false⟩] ++ R
        else L ++ [⟨b.addr, b.size, true⟩] ++ R) ∧ Rep s' B' ∧
      (NoAdjFree (L ++ b :: R) → NoAdjFree B') ∧
      (∀ c ∈ L ++ b :: R, c.alloc = true → c ∈ B') ∧
      (∃ c ∈ B', c.addr = b.addr ∧ c.alloc = true ∧ asize ≤ c.size) ∧
      s'.mem.brk = s.mem.brk ∧ s'.mem.lo = s.mem.lo ∧ s'.mem.hi = s.mem.hi ∧
      s'.heap_listp = s.heap_listp ∧
      (∀ q, (q + 8 ≤ b.addr ∨ b.addr + b.size ≤ q + 4) → load s'.mem q = load s.mem q) := by
  obtain ⟨hTL, hL8, hb8, hb2, hb3, hTR, hend, hlt, hne⟩ := h.one
  obtain ⟨hL, hR⟩ := hne hfree
  have hbs := hb3 hR
  have hhb := h.hdr b (by simp)
  have hfb := h.ftr b (by simp) (by omega)
  rw [Blk.tag_eq] at hhb hfb
  have tb := toNat_lt_two b.alloc
  have hB1 : L ++ b :: R = L ++ [b] ++ R := by simp
  unfold place at hp
  simp only [bind_ok_iff] at hp
  obtain ⟨cs, hcs, hp⟩ := hp
  rw [HDRP_eq (by omega) (by omega)] at hcs hp
  obtain rfl := ok_inj (GET_SIZE_tag hhb hb2 tb) hcs
  have hsub : sub32 b.size asize = b.size - asize := sub32_eq hle (by omega)
  rw [hsub] at hp
  unfold DSIZE at hp
  split_ifs at hp with hsplit
  · simp only [bind_ok_iff, pure_ok_iff] at hp
    obtain ⟨m1, h1, f, hf, m2, h2, nx, hnx, m3, h3, f2, hf2, m4, h4, rfl⟩ := hp
    rw [PACK_eq ha8 (by omega)] at h1 h2
    rw [PACK_eq (by omega) (by omega), Nat.add_zero] at h3 h4
    have hv1 : (asize + 1) % W32 = asize + 1 := Nat.mod_eq_of_lt (by omega)
    have hv2 : (b.size - asize) % W32 = b.size - asize := Nat.mod_eq_of_lt (by omega)
    have hl1 := load_store h1
    obtain rfl := ok_inj (FTRP_tag (m := m1) (b := b.addr) (z := asize) (a := 1)
      (by rw [hl1, if_pos rfl, hv1]) ha8 (by omega) (by omega) (by omega)) hf
    have hl2 := load_store2 h1 h2
    obtain rfl := ok_inj (NEXT_BLKP_tag (m := m2) (b := b.addr) (z := asize) (a := 1)
      (by rw [hl2, if_neg (by omega), if_pos rfl, hv1]) ha8 (by omega) (by omega)
      (by omega)) hnx
    rw [HDRP_eq (by omega) (by omega)] at h3
    have hl3 := load_store h3
    obtain rfl := ok_inj (FTRP_tag (m := m3) (b := b.addr + asize) (z := b.size - asize)
      (a := 0) (by rw [hl3, if_pos rfl, hv2]; rfl) (by omega) (by omega) (by omega)
      (by omega)) hf2
    have hl4 := load_store2 h3 h4
    refine ⟨L ++ [⟨b.addr, asize, true⟩, ⟨b.addr + asize, b.size - asize, false⟩] ++ R,
      by rw [if_pos (by omega)], ?_, ?_, ?_, ?_,
      by rw [store_brk h4, store_brk h3, store_brk h2, store_brk h1],
      by rw [store_lo h4, store_lo h3, store_lo h2, store_lo h1],
      by rw [store_hi h4, store_hi h3, store_hi h2, store_hi h1], rfl, ?_⟩
    rotate_right
    · intro q hq
      show load m4 q = _
      rw [hl4, if_neg (by omega), if_neg (by omega), hl2, if_neg (by omega),
        if_neg (by omega)]
    · obtain ⟨rb, hrb, hrov⟩ := h.rover
      rw [hB1] at h
      refine Rep.replace (x := b.addr) (y := b.addr + b.size) h hL hR hTL hTR
        (by simp [Tiles]; omega) (by simp; omega)
        ⟨by rw [store_brk h4, store_brk h3, store_brk h2, store_brk h1],
          by rw [store_lo h4, store_lo h3, store_lo h2, store_lo h1],
          by rw [store_hi h4, store_hi h3, store_hi h2, store_hi h1], rfl⟩ ?_ ?_ ?_
      · intro q hq
        show load m4 q = _
        rw [hl4, if_neg (by omega), if_neg (by omega), hl2, if_neg (by omega),
          if_neg (by omega)]
      · intro x hx
        simp only [List.mem_cons, List.mem_singleton, List.not_mem_nil, or_false] at hx
        rcases hx with rfl | rfl
        · simp only [Blk.tag_eq, Bool.toNat_true]
          constructor
          · show load m4 _ = _
            rw [hl4, if_neg (by omega), if_neg (by omega), hl2, if_neg (by omega),
              if_pos rfl, hv1]
          · show load m4 _ = _
            rw [hl4, if_neg (by omega), if_neg (by omega), hl2, if_pos rfl, hv1]
        · simp only [Blk.tag_eq, Bool.toNat_false, Nat.add_zero]
          constructor
          · show load m4 _ = _
            rw [hl4, if_neg (by omega), if_pos (by omega), hv2]
          · show load m4 _ = _
            rw [hl4, if_pos (by omega), hv2]
      · show ∃ x ∈ _, x.addr = s.next_fit_position
        simp only [List.mem_append, List.mem_cons, List.mem_singleton] at hrb
        rcases hrb with hrb | rfl | hrb
        · exact ⟨rb, by simp [hrb], hrov⟩
        · exact ⟨⟨rb.addr, asize, true⟩, by simp, hrov⟩
        · exact ⟨rb, by simp [hrb], hrov⟩
    · intro hna
      obtain ⟨n1, n2⟩ := noadj_split hna
      have := noadj_join (x := ⟨b.addr, asize, true⟩)
        (y := ⟨b.addr + asize, b.size - asize, false⟩)
        (noadj_last_alloc (by simp) n1) (noadj_head_congr (x := b) (by simp [hfree]) n2)
        (Or.inl (by simp))
      simpa using this
    · intro c hc hca
      simp only [List.mem_append, List.mem_cons, List.mem_singleton] at hc ⊢
      rcases hc with hc | rfl | hc
      · simp [hc]
      · rw [hfree] at hca; simp at hca
      · simp [hc]
    · exact ⟨⟨b.addr, asize, true⟩, by simp, rfl, rfl, le_refl _⟩
  · simp only [bind_ok_iff, pure_ok_iff] at hp
    obtain ⟨m1, h1, f, hf, m2, h2, rfl⟩ := hp
    rw [PACK_eq hb2 (by omega)] at h1 h2
    have hv1 : (b.size + 1) % W32 = b.size + 1 := Nat.mod_eq_of_lt (by omega)
    have hl1 := load_store h1
    obtain rfl := ok_inj (FTRP_tag (m := m1) (b := b.addr) (z := b.size) (a := 1)
      (by rw [hl1, if_pos rfl, hv1]) hb2 (by omega) (by omega) (by omega)) hf
    have hl2 := load_store2 h1 h2
    refine ⟨L ++ [⟨b.addr, b.size, true⟩] ++ R, by rw [if_neg (by omega)], ?_, ?_, ?_, ?_,
      by rw [store_brk h2, store_brk h1], by rw [store_lo h2, store_lo h1],
      by rw [store_hi h2, store_hi h1], rfl, ?_⟩
    rotate_right
    · intro q hq
      show load m2 q = _
      rw [hl2, if_neg (by omega), if_neg (by omega)]
    · obtain ⟨rb, hrb, hrov⟩ := h.rover
      rw [hB1] at h
      refine Rep.replace (x := b.addr) (y := b.addr + b.size) h hL hR hTL hTR
        (by simp [Tiles]; omega) (by simp; omega)
        ⟨by rw [store_brk h2, store_brk h1], by rw [store_lo h2, store_lo h1],
          by rw [store_hi h2, store_hi h1], rfl⟩ ?_ ?_ ?_
      · intro q hq
        show load m2 q = _
        rw [hl2, if_neg (by omega), if_neg (by omega)]
      · intro x hx
        simp only [List.mem_singleton] at hx
        subst hx
        simp only [Blk.tag_eq, Bool.toNat_true]
        constructor
        · show load m2 _ = _
          rw [hl2, if_neg (by omega), if_pos rfl, hv1]
        · show load m2 _ = _
          rw [hl2, if_pos rfl, hv1]
      · show ∃ x ∈ _, x.addr = s.next_fit_position
        simp only [List.mem_append, List.mem_cons, List.mem_singleton] at hrb
        rcases hrb with hrb | rfl | hrb
        · exact ⟨rb, by simp [hrb], hrov⟩
        · exact ⟨⟨rb.addr, rb.size, true⟩, by simp, hrov⟩
        · exact ⟨rb, by simp [hrb], hrov⟩
    · intro hna
      obtain ⟨n1, n2⟩ := noadj_split hna
      have := noadj_overlap (z := ⟨b.addr, b.size, true⟩)
        (noadj_last_alloc (by simp) n1) (noadj_head_alloc (by simp) n2)
      simpa using this
    · intro c hc hca
      simp only [List.mem_append, List.mem_cons, List.mem_singleton] at hc ⊢
      rcases hc with hc | rfl | hc
      · simp [hc]
      · rw [hfree] at hca; simp at hca
      · simp [hc]
    · exact ⟨⟨b.addr, b.size, true⟩, by simp, rfl, rfl, hle⟩

/-- What `place` does on a represented heap, without the block list spelled out. -/
theorem place_spec {s s' : State} {L R : List Blk} {b : Blk} {asize : Nat}
    (h : Rep s (L ++ b :: R)) (hfree : b.alloc = false) (ha8 : asize % 8 = 0)
    (ha16 : 16 ≤ asize) (hle : asize ≤ b.size) (hp : place s b.addr asize = .ok s') :
    ∃ B', Rep s' B' ∧
      (NoAdjFree (L ++ b :: R) → NoAdjFree B') ∧
      (∀ c ∈ L ++ b :: R, c.alloc = true → c ∈ B') ∧
      (∃ c ∈ B', c.addr = b.addr ∧ c.alloc = true ∧ asize ≤ c.size) ∧
      s'.mem.brk = s.mem.brk ∧ s'.mem.lo = s.mem.lo ∧ s'.mem.hi = s.mem.hi ∧
      s'.heap_listp = s.heap_listp ∧
      (∀ q, (q + 8 ≤ b.addr ∨ b.addr + b.size ≤ q + 4) → load s'.mem q = load s.mem q) := by
  obtain ⟨B', -, h'⟩ := place_exact h hfree ha8 ha16 hle hp
  exact ⟨B', h'⟩

end Implicit


theorem mem_split_next {B : List Blk} {b e : Blk} (hb : b ∈ B) (hl : B.getLast? = some e)
    (hne : b ≠ e) : ∃ L n R, B = L ++ b :: n :: R := by
  obtain ⟨L, R, rfl⟩ := List.append_of_mem hb
  cases R with
  | nil =>
    rw [List.getLast?_append_of_ne_nil _ (by simp)] at hl
    simp only [List.getLast?_singleton, Option.some.injEq] at hl
    exact absurd hl hne
  | cons n R => exact ⟨L, n, R, rfl⟩

namespace Implicit

/-- The facts that a represented heap gives about two consecutive blocks. -/
theorem Rep.two {s : State} {L R : List Blk} {b n : Blk} (h : Rep s (L ++ b :: n :: R)) :
    8 ≤ b.addr ∧ b.size % 8 = 0 ∧ 8 ≤ b.size ∧ n.addr = b.addr + b.size ∧
      n.addr + n.size ≤ s.mem.brk ∧ s.mem.brk < W32 := by
  have hT := h.tiles
  rw [tiles_append L _ _ _ (by simp)] at hT
  obtain ⟨c0, hTL, hT2, hL8⟩ := hT
  simp only [Tiles, ne_eq, reduceCtorEq, not_false_eq_true, forall_const] at hT2
  obtain ⟨hp1, hp2, hp3, hb1, hb2, hb3, hTR⟩ := hT2
  have h1 := tiles_le _ _ _ hTL
  have h2 := tiles_le _ _ _ hTR
  have h3 := h.hl_ge
  have h4 := h.brk_lt
  exact ⟨by omega, hp2, hp3, by omega, by omega, h4⟩

theorem findLoop_spec {s : State} {B : List Blk} {asize : Nat} (h : Rep s B) :
    ∀ (fuel bp : Nat) (s' : State) (r : Nat), (∃ b ∈ B, b.addr = bp) →
      findLoop s asize fuel bp = .ok (s', r) →
      s'.mem = s.mem ∧ s'.heap_listp = s.heap_listp ∧
      ((r = 0 ∧ s'.next_fit_position = s.heap_listp) ∨
        (∃ b ∈ B, b.addr = r ∧ b.alloc = false ∧ asize ≤ b.size ∧ b.size ≠ 0 ∧
          s'.next_fit_position = r)) := by
  intro fuel
  induction fuel with
  | zero => intro bp s' r _ hf; simp [findLoop] at hf
  | succ k ih =>
    intro bp s' r hbp hf
    obtain ⟨b, hb, rfl⟩ := hbp
    have hT := tiles_mem _ _ _ h.tiles b hb
    have hl := h.hl_ge
    have hlt := h.brk_lt
    have hhb := h.hdr b hb
    rw [Blk.tag_eq] at hhb
    have tb := toNat_lt_two b.alloc
    unfold findLoop at hf
    simp only [bind_ok_iff] at hf
    obtain ⟨sz, hsz, hf⟩ := hf
    rw [HDRP_eq (by omega) (by omega)] at hsz hf
    obtain rfl := ok_inj (GET_SIZE_tag hhb hT.2.2 tb) hsz
    split_ifs at hf with h0
    · simp only [bind_ok_iff] at hf
      obtain ⟨al, hal, hf⟩ := hf
      obtain rfl := ok_inj (GET_ALLOC_tag hhb hT.2.2 tb) hal
      split_ifs at hf with hfit
      · simp only [pure_ok_iff, Prod.mk.injEq] at hf
        obtain ⟨rfl, rfl⟩ := hf
        refine ⟨rfl, rfl, Or.inr ⟨b, hb, rfl, ?_, hfit.2, by omega, rfl⟩⟩
        cases hba : b.alloc
        · rfl
        · rw [hba] at hfit; simp at hfit
      · simp only [bind_ok_iff] at hf
        obtain ⟨nx, hnx, hf⟩ := hf
        obtain rfl := ok_inj (NEXT_BLKP_tag hhb hT.2.2 tb (by omega) (by omega)) hnx
        obtain ⟨L, n, R, rfl⟩ := mem_split_next hb h.last (by
          intro he; rw [he] at h0; simp at h0)
        have h2 := h.two
        exact ih _ s' r ⟨n, by simp, h2.2.2.2.1⟩ hf
    · simp only [pure_ok_iff, Prod.mk.injEq] at hf
      obtain ⟨rfl, rfl⟩ := hf
      exact ⟨rfl, rfl, Or.inl ⟨rfl, rfl⟩⟩

/-- The state after `find_fit` still represents the same block list. -/
theorem Rep.of_find {s s' : State} {B : List Blk} (h : Rep s B) (hm : s'.mem = s.mem)
    (hh : s'.heap_listp = s.heap_listp) (hr : ∃ b ∈ B, b.addr = s'.next_fit_position) :
    Rep s' B := by
  refine ⟨by rw [hm]; exact h.hi_lt, by rw [hm]; exact h.brk_le, by rw [hm, hh]; exact h.hl_ge,
    by rw [hh]; exact h.hl8, by rw [hh]; exact h.head, by rw [hm]; exact h.last,
    by rw [hm, hh]; exact h.tiles, by rw [hm]; exact h.hdr, by rw [hm]; exact h.ftr, hr⟩

end Implicit


theorem mem_sbrk_ok {m m' : Mem} {n p : Nat} (h : mem_sbrk m n = some (p, m')) :
    p = m.brk ∧ m' = { m with brk := m.brk + n % W32 } ∧ m.brk + n % W32 ≤ m.hi := by
  unfold mem_sbrk at h
  split_ifs at h with hc
  simp only [Option.some.injEq, Prod.mk.injEq] at h
  exact ⟨h.1.symm, h.2.symm, by omega⟩

theorem load_grow {m : Mem} {b' q : Nat} (hb : m.brk ≤ b') (hq : q + 4 ≤ m.brk) :
    load { m with brk := b' } q = load m q := by
  unfold load Mem.ok
  simp only
  by_cases h : m.lo ≤ q ∧ q + 4 ≤ m.brk ∧ q % 4 = 0
  · rw [if_pos h, if_pos ⟨h.1, by omega, h.2.2⟩]
  · rw [if_neg h, if_neg (by intro h'; exact h ⟨h'.1, hq, h'.2.2⟩)]

namespace Implicit

/-- The state built by `extend_heap` before it calls `coalesce`: the old epilogue has become
the header of a new free block of `sz` bytes, followed by a new epilogue. -/
theorem extend_rep {s : State} {L : List Blk} {p : Blk} {sz : Nat} {m m1 m2 m3 : Mem}
    (h : Rep s (L ++ [p, ⟨s.mem.brk, 0, true⟩])) (hsz8 : sz % 8 = 0) (hsz : 8 ≤ sz)
    (hm : m = { s.mem with brk := s.mem.brk + sz }) (hhi : s.mem.brk + sz ≤ s.mem.hi)
    (h1 : store m (s.mem.brk - 4) sz = .ok m1)
    (h2 : store m1 (s.mem.brk + sz - 8) sz = .ok m2)
    (h3 : store m2 (s.mem.brk + sz - 4) 1 = .ok m3) :
    Rep { s with mem := m3 }
      (L ++ [p, ⟨s.mem.brk, sz, false⟩, ⟨s.mem.brk + sz, 0, true⟩]) := by
  have hB : L ++ [p, ⟨s.mem.brk, 0, true⟩] = (L ++ [p]) ++ [⟨s.mem.brk, 0, true⟩] := by simp
  have hT := h.tiles
  rw [hB, tiles_append _ _ _ _ (by simp)] at hT
  obtain ⟨c, hTL, hTe, hL8⟩ := hT
  simp only [Tiles, Nat.add_zero] at hTe
  obtain ⟨_, _, _, rfl⟩ := hTe
  have hl := h.hl_ge
  have hlt := h.hi_lt
  have hbrk : m3.brk = s.mem.brk + sz := by
    rw [store_brk h3, store_brk h2, store_brk h1, hm]
  have hlo : m3.lo = s.mem.lo := by rw [store_lo h3, store_lo h2, store_lo h1, hm]
  have hhi3 : m3.hi = s.mem.hi := by rw [store_hi h3, store_hi h2, store_hi h1, hm]
  have hge := tiles_le _ _ _ hTL
  have hld : ∀ q, load m3 q = if q = s.mem.brk + sz - 4 then .ok (1 % W32)
      else if q = s.mem.brk + sz - 8 then .ok (sz % W32)
      else if q = s.mem.brk - 4 then .ok (sz % W32) else load m q := by
    intro q
    rw [load_store h3, load_store h2, load_store h1]
  have hv : sz % W32 = sz := Nat.mod_eq_of_lt (by omega)
  have hfr : ∀ q, (q + 8 ≤ s.mem.brk ∨ s.mem.brk + sz + 8 ≤ q + 4) →
      load m3 q = load s.mem q := by
    intro q hq
    rw [hld, if_neg (by omega), if_neg (by omega), if_neg (by omega), hm]
    rcases hq with hq | hq
    · exact load_grow (by omega) (by omega)
    · unfold load Mem.ok
      simp only
      rw [if_neg (by omega), if_neg (by omega)]
  obtain ⟨f1, f2⟩ := tags_frame (R := []) (y := s.mem.brk + sz + 8) (e := s.mem.brk + sz + 8)
    (by omega) hTL hL8 (by simp [Tiles]) hfr
    (fun b hb => h.hdr b (by simp at hb ⊢; tauto))
    (fun b hb h0 => h.ftr b (by simp at hb ⊢; tauto) h0)
  refine ⟨by rw [hhi3]; exact hlt, by rw [hbrk, hhi3]; exact hhi, by rw [hlo]; exact hl,
    h.hl8, ?_, ?_, ?_, ?_, ?_, ?_⟩
  · have := h.head
    cases L with
    | nil => simpa using this
    | cons a L => simpa using this
  · show List.getLast? _ = some ⟨m3.brk, 0, true⟩
    rw [hbrk]
    have e : L ++ [p, ⟨s.mem.brk, sz, false⟩, ⟨s.mem.brk + sz, 0, true⟩]
        = (L ++ [p, ⟨s.mem.brk, sz, false⟩]) ++ [⟨s.mem.brk + sz, 0, true⟩] := by simp
    rw [e, List.getLast?_concat]
  · show Tiles s.heap_listp _ m3.brk
    rw [hbrk]
    have e : L ++ [p, ⟨s.mem.brk, sz, false⟩, ⟨s.mem.brk + sz, 0, true⟩]
        = (L ++ [p]) ++ [⟨s.mem.brk, sz, false⟩, ⟨s.mem.brk + sz, 0, true⟩] := by simp
    rw [e, tiles_append _ _ _ _ (by simp)]
    exact ⟨_, hTL, by simp [Tiles]; omega, hL8⟩
  · intro b hb
    show load m3 _ = _
    simp only [List.mem_append, List.mem_cons, List.mem_singleton, List.not_mem_nil,
      or_false] at hb
    rcases hb with hb | rfl | rfl | rfl
    · exact f1 b (by simp [hb])
    · exact f1 _ (by simp)
    · simp only [Blk.tag_eq, Bool.toNat_false, Nat.add_zero]
      rw [hld, if_neg (by omega), if_neg (by omega), if_pos rfl, hv]
    · simp only [Blk.tag_eq, Bool.toNat_true, Nat.zero_add]
      rw [hld, if_pos rfl]
      rfl
  · intro b hb h0
    show load m3 _ = _
    simp only [List.mem_append, List.mem_cons, List.mem_singleton, List.not_mem_nil,
      or_false] at hb
    rcases hb with hb | rfl | rfl | rfl
    · exact f2 b (by simp [hb]) h0
    · exact f2 _ (by simp) h0
    · simp only [Blk.tag_eq, Bool.toNat_false, Nat.add_zero]
      rw [hld, if_neg (by omega), if_pos rfl, hv]
    · simp at h0
  · obtain ⟨rb, hrb, hrov⟩ := h.rover
    show ∃ x ∈ _, x.addr = s.next_fit_position
    simp only [List.mem_append, List.mem_cons, List.mem_singleton, List.not_mem_nil,
      or_false] at hrb
    rcases hrb with hrb | rfl | rfl
    · exact ⟨rb, by simp [hrb], hrov⟩
    · exact ⟨rb, by simp, hrov⟩
    · exact ⟨⟨s.mem.brk, sz, false⟩, by simp, hrov⟩


/-- A represented heap ends with a block `p` followed by the epilogue. -/
theorem Rep.ends {s : State} {B : List Blk} (h : Rep s B) :
    ∃ L p, B = L ++ [p, ⟨s.mem.brk, 0, true⟩] := by
  obtain ⟨L0, hL0⟩ := List.getLast?_eq_some_iff.mp h.last
  rcases List.eq_nil_or_concat L0 with hn | ⟨L, p, hLp⟩
  · have := h.head
    rw [hL0, hn] at this
    simp at this
  · exact ⟨L, p, by rw [hL0, hLp]; simp⟩

/-- What `extend_heap` does on a represented heap when asked for an even number of
words. -/
theorem extend_heap_spec {s s' : State} {B : List Blk} {words r : Nat} (h : Rep s B)
    (hw2 : words % 2 = 0) (hw : 4 ≤ words) (hwlt : words * 4 < W32)
    (he : extend_heap s words = .ok (s', r)) :
    (r = 0 ∧ s' = s) ∨
    (∃ B', Rep s' B' ∧ (NoAdjFree B → NoAdjFree B') ∧
      (∀ c ∈ B, c.alloc = true → c.size ≠ 0 → c ∈ B') ∧
      (∃ c ∈ B', c.addr = r ∧ c.alloc = false ∧ words * 4 ≤ c.size) ∧
      s'.mem.lo = s.mem.lo ∧ s'.mem.hi = s.mem.hi ∧ s'.heap_listp = s.heap_listp ∧
      (∀ q, q + 8 ≤ s.mem.brk →
        (∀ f ∈ B, f.alloc = false → q + 8 ≤ f.addr ∨ f.addr + f.size ≤ q + 4) →
        load s'.mem q = load s.mem q ∧ q + 8 ≤ r)) := by
  obtain ⟨L, p, rfl⟩ := h.ends
  have hlt := h.brk_lt
  have hl := h.hl_ge
  have hge := (tiles_mem _ _ _ h.tiles ⟨s.mem.brk, 0, true⟩ (by simp)).1
  simp only at hge
  unfold extend_heap at he
  simp only [bind_ok_iff] at he
  have hsz : (if words % 2 ≠ 0 then mul32 (add32 words 1) WSIZE else mul32 words WSIZE)
      = words * 4 := by
    rw [if_neg (by omega)]
    unfold mul32 WSIZE
    exact Nat.mod_eq_of_lt hwlt
  rw [hsz] at he
  split at he
  · simp only [pure_ok_iff, Prod.mk.injEq] at he
    exact Or.inl ⟨he.2.symm, he.1.symm⟩
  · rename_i bp m hs
    right
    obtain ⟨rfl, hm, hhi⟩ := mem_sbrk_ok hs
    rw [Nat.mod_eq_of_lt hwlt] at hm hhi
    simp only [bind_ok_iff] at he
    obtain ⟨m1, h1, f, hf, m2, h2, nx, hnx, m3, h3, he⟩ := he
    rw [HDRP_eq (by omega) (by omega), PACK_eq (by omega) (by omega), Nat.add_zero] at h1
    rw [PACK_eq (by omega) (by omega), Nat.add_zero] at h2
    have hv : (words * 4) % W32 = words * 4 := Nat.mod_eq_of_lt hwlt
    have hbrk1 : s.mem.brk + words * 4 < W32 := by have := h.hi_lt; omega
    have hl1 := load_store h1
    obtain rfl := ok_inj (FTRP_tag (m := m1) (b := s.mem.brk) (z := words * 4) (a := 0)
      (by rw [hl1, if_pos rfl, hv]; rfl) (by omega) (by omega) (by omega) (by omega)) hf
    have hl2 := load_store2 h1 h2
    obtain rfl := ok_inj (NEXT_BLKP_tag (m := m2) (b := s.mem.brk) (z := words * 4) (a := 0)
      (by rw [hl2, if_neg (by omega), if_pos rfl, hv]; rfl) (by omega) (by omega)
      (by omega) (by omega)) hnx
    rw [HDRP_eq (by omega) (by omega)] at h3
    have hP : PACK 0 1 = 1 := by decide
    rw [hP] at h3
    have hrep := extend_rep h (by omega) (by omega) hm hhi h1 h2 h3
    have e : L ++ [p, ⟨s.mem.brk, words * 4, false⟩, ⟨s.mem.brk + words * 4, 0, true⟩]
        = L ++ p :: ⟨s.mem.brk, words * 4, false⟩ :: ⟨s.mem.brk + words * 4, 0, true⟩ :: [] := by
      simp
    rw [e] at hrep
    obtain ⟨B', hB', hna, hal, hres, _, c2, c3, c4, c5, c6⟩ := coalesce_spec hrep rfl he
    refine ⟨B', hB', ?_, ?_, hres, ?_, ?_, c4, ?_⟩
    rotate_right
    · intro q hq hout
      obtain ⟨c0, -, -, -, hp1, -, -, hb1, -⟩ := hrep.three
      simp only at hb1
      have hpq : q + 8 ≤ p.addr ∨ (p.alloc = true ∧ q + 8 ≤ s.mem.brk) := by
        cases hpa : p.alloc
        · rcases hout p (by simp) hpa with h | h
          · exact Or.inl h
          · omega
        · exact Or.inr ⟨rfl, hq⟩
      constructor
      · rw [c5 q (by
          rcases hpq with h | h
          · exact Or.inl h
          · exact Or.inr (Or.inr (Or.inl h)))]
        show load m3 q = _
        rw [load_store h3, if_neg (by omega), hl2, if_neg (by omega), if_neg (by omega), hm]
        exact load_grow (by omega) (by omega)
      · rcases c6 with h | ⟨hpf, h⟩
        · rw [h]; exact hq
        · rw [h]
          rcases hpq with h' | h'
          · exact h'
          · rw [hpf] at h'
            exact absurd h'.1 (by simp)
    · intro hn
      apply hna
      · have e2 : L ++ [p, ⟨s.mem.brk, 0, true⟩] = (L ++ [p]) ++ [⟨s.mem.brk, 0, true⟩] := by
          simp
        rw [e2] at hn
        exact List.Chain'.left_of_append hn
      · exact List.chain'_singleton _
    · intro c hc hca h0
      apply hal c _ hca
      simp only [List.mem_append, List.mem_cons, List.mem_singleton, List.not_mem_nil,
        or_false] at hc ⊢
      rcases hc with hc | rfl | rfl
      · exact Or.inl hc
      · exact Or.inr (Or.inl rfl)
      · simp at h0
    · rw [c2, store_lo h3, store_lo h2, store_lo h1, hm]
    · rw [c3, store_hi h3, store_hi h2, store_hi h1, hm]

end Implicit


/-- In a tiling, two blocks of non-zero size with the same address are the same block. -/
theorem tiles_addr_inj {B : List Blk} {a e : Nat} (hT : Tiles a B e) {b c : Blk} (hb : b ∈ B)
    (hc : c ∈ B) (hbc : b.addr = c.addr) (hb0 : b.size ≠ 0) (hc0 : c.size ≠ 0) : b = c := by
  obtain ⟨X, Y, rfl⟩ := List.append_of_mem hb
  rw [tiles_append X _ _ _ (by simp)] at hT
  obtain ⟨x, hX, hY, hX8⟩ := hT
  simp only [Tiles] at hY
  obtain ⟨h1, _, _, hY⟩ := hY
  simp only [List.mem_append, List.mem_cons] at hc
  rcases hc with hc | hc | hc
  · have := tiles_mem _ _ _ hX c hc
    have := hX8 c hc
    omega
  · exact hc.symm
  · have := tiles_mem _ _ _ hY c hc
    omega

theorem memcpy_ok {m m' : Mem} {d s n : Nat} (h : memcpy m d s n = .ok m') :
    m'.brk = m.brk ∧ m'.lo = m.lo ∧ m'.hi = m.hi ∧
      ∀ q, (q + 4 ≤ d ∨ d + n ≤ q) → load m' q = load m q := by
  unfold memcpy at h
  by_cases h0 : n = 0
  · rw [if_pos h0] at h
    simp only [Except.ok.injEq] at h
    subst h
    exact ⟨rfl, rfl, rfl, fun _ _ => rfl⟩
  · rw [if_neg h0] at h
    split_ifs at h with h1
    simp only [Except.ok.injEq] at h
    subst h
    refine ⟨rfl, rfl, rfl, ?_⟩
    intro q hq
    have hn : ¬ (d ≤ q ∧ q < d + n ∧ q % 4 = 0) := by omega
    simp only [load, Mem.ok, memcpyWords, if_neg hn]

namespace Implicit

/-- A block of at least 16 bytes of a represented heap has a block before it and a block
after it. -/
theorem Rep.around {s : State} {B : List Blk} (h : Rep s B) {b : Blk} (hb : b ∈ B)
    (h16 : 16 ≤ b.size) : ∃ L p n R, B = L ++ p :: b :: n :: R := by
  obtain ⟨X, Y, rfl⟩ := List.append_of_mem hb
  rcases List.eq_nil_or_concat X with hn | ⟨L, p, hLp⟩
  · have := h.head
    rw [hn] at this
    simp only [List.nil_append, List.head?_cons, Option.some.injEq] at this
    rw [this] at h16
    simp at h16
  · cases Y with
    | nil =>
      have := h.last
      rw [List.getLast?_append_of_ne_nil _ (by simp)] at this
      simp only [List.getLast?_singleton, Option.some.injEq] at this
      rw [this] at h16
      simp at h16
    | cons n R => exact ⟨L, p, n, R, by rw [hLp]; simp⟩

/-- Marking an allocated block free (the two `PUT`s of `mm_free`) and coalescing it. -/
theorem mm_free_spec {s s' : State} {L R : List Blk} {p b n : Blk}
    (h : Rep s (L ++ p :: b :: n :: R)) (hf : mm_free s b.addr = .ok s') :
    ∃ B', Rep s' B' ∧
      (NoAdjFree (L ++ [p]) → NoAdjFree (n :: R) → NoAdjFree B') ∧
      (∀ c ∈ L ++ p :: b :: n :: R, c.alloc = true → c ≠ b → c ∈ B') ∧
      s'.mem.brk = s.mem.brk ∧ s'.mem.lo = s.mem.lo ∧ s'.mem.hi = s.mem.hi ∧
      s'.heap_listp = s.heap_listp ∧
      (∀ q, (q + 8 ≤ p.addr ∨ n.addr + n.size ≤ q + 4 ∨ (p.alloc = true ∧ q + 8 ≤ b.addr) ∨
        (n.alloc = true ∧ b.addr + b.size ≤ q + 4)) → load s'.mem q = load s.mem q) := by
  obtain ⟨c0, hTL, hL8, hc8, hp1, hp2, hp3, hb1, hb2, hb3, hn1, hn2, hn3, hTR, hend, hlt⟩ :=
    h.three
  have hhb := h.hdr b (by simp)
  rw [Blk.tag_eq] at hhb
  have tb := toNat_lt_two b.alloc
  unfold mm_free at hf
  simp only [bind_ok_iff, pure_ok_iff] at hf
  obtain ⟨sz, hsz, m1, h1, f, hf1, m2, h2, ⟨s2, r⟩, hco, rfl⟩ := hf
  rw [HDRP_eq (by omega) (by omega)] at hsz h1
  obtain rfl := ok_inj (GET_SIZE_tag hhb hb2 tb) hsz
  rw [PACK_eq hb2 (by omega), Nat.add_zero] at h1 h2
  have hv : b.size % W32 = b.size := Nat.mod_eq_of_lt (by omega)
  have hl1 := load_store h1
  obtain rfl := ok_inj (FTRP_tag (m := m1) (b := b.addr) (z := b.size) (a := 0)
    (by rw [hl1, if_pos rfl, hv]; rfl) hb2 (by omega) (by omega) (by omega)) hf1
  have hl2 := load_store2 h1 h2
  have hB1 : L ++ p :: b :: n :: R = (L ++ [p]) ++ [b] ++ n :: R := by simp
  have hTLp : Tiles s.heap_listp (L ++ [p]) b.addr := by
    rw [tiles_append L [p] _ _ (by simp)]
    exact ⟨c0, hTL, by simp [Tiles]; omega, hL8⟩
  have hrep : Rep { s with mem := m2 } ((L ++ [p]) ++ [⟨b.addr, b.size, false⟩] ++ n :: R) := by
    obtain ⟨rb, hrb, hrov⟩ := h.rover
    rw [hB1] at h
    refine Rep.replace (x := b.addr) (y := n.addr) h (by simp) (by simp) hTLp
      (by rw [hn1]; simp only [Tiles]; exact ⟨hn1, hn2, hn3, hTR⟩)
      (by simp [Tiles]; omega) (by simp; omega)
      ⟨by rw [store_brk h2, store_brk h1], by rw [store_lo h2, store_lo h1],
        by rw [store_hi h2, store_hi h1], rfl⟩ ?_ ?_ ?_
    · intro q hq
      show load m2 q = _
      rw [hl2, if_neg (by omega), if_neg (by omega)]
    · intro x hx
      simp only [List.mem_singleton] at hx
      subst hx
      simp only [Blk.tag_eq, Bool.toNat_false, Nat.add_zero]
      constructor
      · show load m2 _ = _
        rw [hl2, if_neg (by omega), if_pos rfl, hv]
      · show load m2 _ = _
        rw [hl2, if_pos rfl, hv]
    · show ∃ x ∈ _, x.addr = s.next_fit_position
      simp only [List.mem_append, List.mem_cons, List.mem_singleton] at hrb
      rcases hrb with hrb | rfl | rfl | rfl | hrb
      · exact ⟨rb, by simp [hrb], hrov⟩
      · exact ⟨rb, by simp, hrov⟩
      · exact ⟨⟨rb.addr, rb.size, false⟩, by simp, hrov⟩
      · exact ⟨rb, by simp, hrov⟩
      · exact ⟨rb, by simp [hrb], hrov⟩
  have e : (L ++ [p]) ++ [⟨b.addr, b.size, false⟩] ++ n :: R
      = L ++ p :: ⟨b.addr, b.size, false⟩ :: n :: R := by simp
  rw [e] at hrep
  obtain ⟨B', hB', hna, hal, _, c1, c2, c3, c4, c5, _⟩ := coalesce_spec hrep rfl hco
  refine ⟨B', hB', hna, ?_, by rw [c1]; simp [store_brk h2, store_brk h1],
    by rw [c2]; simp [store_lo h2, store_lo h1], by rw [c3]; simp [store_hi h2, store_hi h1],
    c4, ?_⟩
  rotate_right
  · intro q hq
    rw [c5 q hq]
    show load m2 q = _
    rw [hl2, if_neg (by omega), if_neg (by omega)]
  intro c hc hca hcb
  apply hal c _ hca
  simp only [List.mem_append, List.mem_cons] at hc ⊢
  rcases hc with hc | hc | hc | hc | hc
  · exact Or.inl hc
  · exact Or.inr (Or.inl hc)
  · exact absurd hc hcb
  · exact Or.inr (Or.inr (Or.inr (Or.inl hc)))
  · exact Or.inr (Or.inr (Or.inr (Or.inr hc)))

end Implicit

namespace Implicit

theorem adjust_facts {n : Nat} (hn : n + 15 < W32) :
    adjust n % 8 = 0 ∧ 16 ≤ adjust n ∧ n + 8 ≤ adjust n ∧ adjust n < W32 := by
  unfold W32 at hn
  unfold adjust DSIZE mul32 add32 W32
  split_ifs <;> omega

/-- Placing into a free block found somewhere in a represented heap. -/
theorem place_mem_spec {s s' : State} {B : List Blk} {b : Blk} {asize : Nat}
    (h : Rep s B) (hb : b ∈ B) (hfree : b.alloc = false) (ha8 : asize % 8 = 0)
    (ha16 : 16 ≤ asize) (hle : asize ≤ b.size) (hp : place s b.addr asize = .ok s') :
    ∃ B', Rep s' B' ∧ (NoAdjFree B → NoAdjFree B') ∧
      (∀ c ∈ B, c.alloc = true → c ∈ B') ∧
      (∃ c ∈ B', c.addr = b.addr ∧ c.alloc = true ∧ asize ≤ c.size) ∧
      s'.mem.brk = s.mem.brk ∧ s'.mem.lo = s.mem.lo ∧ s'.mem.hi = s.mem.hi ∧
      s'.heap_listp = s.heap_listp ∧
      (∀ q, (q + 8 ≤ b.addr ∨ b.addr + b.size ≤ q + 4) → load s'.mem q = load s.mem q) := by
  obtain ⟨L, R, rfl⟩ := List.append_of_mem hb
  exact place_spec h hfree ha8 ha16 hle hp

theorem mm_malloc_spec {fuel : Nat} {s s' : State} {B : List Blk} {n p : Nat} (h : Rep s B)
    (hn : n + 15 < W32) (hm : mm_malloc fuel s n = .ok (s', p)) :
    ∃ B', Rep s' B' ∧ (NoAdjFree B → NoAdjFree B') ∧
      (∀ c ∈ B, c.alloc = true → c.size ≠ 0 → c ∈ B') ∧
      (p ≠ 0 → (∃ c ∈ B', c.addr = p ∧ c.alloc = true ∧ n + 8 ≤ c.size ∧ 16 ≤ c.size) ∧
        ∀ c ∈ B, c.addr = p → c.size ≠ 0 → c.alloc = false) ∧
      s'.mem.lo = s.mem.lo ∧ s'.mem.hi = s.mem.hi ∧ s'.heap_listp = s.heap_listp ∧
      (∀ q, q + 8 ≤ s.mem.brk →
        (∀ f ∈ B, f.alloc = false → q + 8 ≤ f.addr ∨ f.addr + f.size ≤ q + 4) →
        load s'.mem q = load s.mem q) := by
  obtain ⟨a8, a16, an, alt⟩ := adjust_facts hn
  unfold mm_malloc at hm
  split_ifs at hm with h0
  · simp only [pure_ok_iff, Prod.mk.injEq] at hm
    obtain ⟨rfl, rfl⟩ := hm
    exact ⟨B, h, id, fun c hc _ _ => hc, fun hp => absurd rfl hp, rfl, rfl, rfl,
      fun _ _ _ => rfl⟩
  · simp only [bind_ok_iff] at hm
    obtain ⟨⟨s1, bp⟩, hfind, hm⟩ := hm
    obtain ⟨f1, f2, f3⟩ := findLoop_spec h _ _ _ _ h.rover hfind
    simp only at hm
    rcases f3 with ⟨rfl, hrov⟩ | ⟨b, hb, rfl, hbf, hbs, hb0, hrov⟩
    · -- no fit: extend the heap
      have hrep1 : Rep s1 B := Rep.of_find h f1 f2 (by
        rw [hrov]
        obtain ⟨ys, hys⟩ := List.head?_eq_some_iff.mp h.head
        exact ⟨⟨s.heap_listp, 8, true⟩, by rw [hys]; simp, rfl⟩)
      rw [if_neg (by simp)] at hm
      simp only [bind_ok_iff] at hm
      obtain ⟨⟨s2, bp2⟩, hext, hm⟩ := hm
      have hmax : MAX (adjust n) CHUNKSIZE % 8 = 0 ∧ 16 ≤ MAX (adjust n) CHUNKSIZE ∧
          adjust n ≤ MAX (adjust n) CHUNKSIZE ∧ MAX (adjust n) CHUNKSIZE < W32 := by
        unfold MAX CHUNKSIZE W32
        unfold W32 at alt
        split_ifs <;> omega
      obtain ⟨x8, x16, xle, xlt⟩ := hmax
      have hw : MAX (adjust n) CHUNKSIZE / WSIZE * 4 = MAX (adjust n) CHUNKSIZE := by
        unfold WSIZE; omega
      rcases extend_heap_spec hrep1 (by unfold WSIZE; omega) (by unfold WSIZE; omega)
        (by rw [hw]; exact xlt) hext with ⟨rfl, rfl⟩ | ⟨B2, hB2, hna2, hal2, ⟨c, hc, rfl, hcf, hcs⟩, e1, e2, e3, e4⟩
      · simp only [↓reduceIte, pure_ok_iff, Prod.mk.injEq] at hm
        obtain ⟨rfl, rfl⟩ := hm
        exact ⟨B, hrep1, id, fun c hc _ _ => hc, fun hp => absurd rfl hp,
          by rw [f1], by rw [f1], f2, fun _ _ _ => by rw [f1]⟩
      · simp only at hm
        have hc8 : 8 ≤ c.addr := by
          have := (tiles_mem _ _ _ hB2.tiles c hc).1
          have := hB2.hl_ge
          omega
        rw [if_neg (by omega)] at hm
        simp only [bind_ok_iff, pure_ok_iff, Prod.mk.injEq] at hm
        obtain ⟨s3, hpl, rfl, rfl⟩ := hm
        rw [hw] at hcs
        obtain ⟨B3, hB3, hna3, hal3, ⟨d, hd, hd1, hd2, hd3⟩, g1, g2, g3, g4, g5⟩ :=
          place_mem_spec hB2 hc hcf a8 a16 (by omega) hpl
        refine ⟨B3, hB3, fun hx => hna3 (hna2 hx), fun x hx hxa hx0 => hal3 x (hal2 x hx hxa hx0) hxa,
          fun _ => ⟨⟨d, hd, hd1, hd2, by omega, by omega⟩, ?_⟩,
          by rw [g2, e1, f1], by rw [g3, e2, f1], by rw [g4, e3, f2], ?_⟩
        rotate_right
        · intro q hq hout
          rw [f1] at e4
          obtain ⟨k1, k2⟩ := e4 q hq hout
          rw [g5 q (Or.inl k2), k1]
        intro x hx hxa hx0
        cases hxal : x.alloc
        · rfl
        · have hx2 := hal2 x hx hxal hx0
          have := tiles_addr_inj hB2.tiles hx2 hc hxa hx0 (by omega)
          rw [this, hcf] at hxal
          exact absurd hxal (by simp)
    · -- a fit was found
      have hrep1 : Rep s1 B := Rep.of_find h f1 f2 ⟨b, hb, hrov.symm⟩
      have hb8 : 8 ≤ b.addr := by
        have := (tiles_mem _ _ _ h.tiles b hb).1
        have := h.hl_ge
        omega
      rw [if_pos (by omega)] at hm
      simp only [bind_ok_iff, pure_ok_iff, Prod.mk.injEq] at hm
      obtain ⟨s3, hpl, rfl, rfl⟩ := hm
      obtain ⟨B3, hB3, hna3, hal3, ⟨d, hd, hd1, hd2, hd3⟩, g1, g2, g3, g4, g5⟩ :=
        place_mem_spec hrep1 hb hbf a8 a16 hbs hpl
      refine ⟨B3, hB3, hna3, fun x hx hxa _ => hal3 x hx hxa,
        fun _ => ⟨⟨d, hd, hd1, hd2, by omega, by omega⟩, ?_⟩,
        by rw [g2, f1], by rw [g3, f1], by rw [g4, f2], ?_⟩
      rotate_right
      · intro q hq hout
        rw [g5 q (hout b hb hbf), f1]
      intro x hx hxa hx0
      have := tiles_addr_inj h.tiles hx hb hxa hx0 hb0
      rw [this]; exact hbf

end Implicit

namespace Implicit

theorem inv_malloc {fuel : Nat} {s s' : State} {L : List Nat} {n p : Nat} (h : Inv s L)
    (hn : n + 15 < W32) (hm : mm_malloc fuel s n = .ok (s', p)) :
    Inv s' (if p = 0 then L else p :: L) := by
  obtain ⟨B, hB, hna, hnd, hlive⟩ := h
  obtain ⟨B', hB', hna', hal, hnew, _, _, _⟩ := mm_malloc_spec hB hn hm
  have hkeep : ∀ q ∈ L, ∃ b ∈ B', b.addr = q ∧ b.alloc = true ∧ 16 ≤ b.size := by
    intro q hq
    obtain ⟨b, hb, h1, h2, h3⟩ := hlive q hq
    exact ⟨b, hal b hb h2 (by omega), h1, h2, h3⟩
  refine ⟨B', hB', hna' hna, ?_, ?_⟩
  · split_ifs with h0
    · exact hnd
    · refine List.nodup_cons.mpr ⟨?_, hnd⟩
      intro hp
      obtain ⟨b, hb, h1, h2, h3⟩ := hlive p hp
      have := (hnew h0).2 b hb h1 (by omega)
      rw [this] at h2
      exact absurd h2 (by simp)
  · split_ifs with h0
    · exact hkeep
    · intro q hq
      rcases List.mem_cons.mp hq with rfl | hq
      · obtain ⟨c, hc, h1, h2, _, h4⟩ := (hnew h0).1
        exact ⟨c, hc, h1, h2, h4⟩
      · exact hkeep q hq

theorem noadj_around {L R : List Blk} {p b n : Blk} (h : NoAdjFree (L ++ p :: b :: n :: R)) :
    NoAdjFree (L ++ [p]) ∧ NoAdjFree (n :: R) := by
  have e : L ++ p :: b :: n :: R = (L ++ [p]) ++ b :: n :: R := by simp
  rw [e] at h
  constructor
  · exact List.Chain'.left_of_append h
  · have := List.Chain'.right_of_append h
    exact List.Chain'.tail this

/-- `mm_free` of a live block keeps the invariant, in terms of block lists. -/
theorem free_rep {s s' : State} {B : List Blk} {L : List Nat} {p : Nat} (hB : Rep s B)
    (hna : NoAdjFree B) (hnd : L.Nodup)
    (hlive : ∀ q ∈ L, ∃ b ∈ B, b.addr = q ∧ b.alloc = true ∧ 16 ≤ b.size) (hp : p ∈ L)
    (hf : mm_free s p = .ok s') : Inv s' (L.erase p) := by
  obtain ⟨b, hb, rfl, hba, hb16⟩ := hlive _ hp
  obtain ⟨X, pv, nx, Y, rfl⟩ := hB.around hb hb16
  obtain ⟨B', hB', hna', hal, _⟩ := mm_free_spec hB hf
  obtain ⟨n1, n2⟩ := noadj_around hna
  refine ⟨B', hB', hna' n1 n2, hnd.erase _, ?_⟩
  intro q hq
  rw [hnd.mem_erase_iff] at hq
  obtain ⟨c, hc, h1, h2, h3⟩ := hlive q hq.2
  refine ⟨c, hal c hc h2 ?_, h1, h2, h3⟩
  intro hcb
  rw [hcb] at h1
  exact hq.1 h1.symm

theorem inv_free {s s' : State} {L : List Nat} {p : Nat} (h : Inv s L) (hp : p ∈ L)
    (hf : mm_free s p = .ok s') : Inv s' (L.erase p) := by
  obtain ⟨B, hB, hna, hnd, hlive⟩ := h
  exact free_rep hB hna hnd hlive hp hf

/-- Copying into the payload of an allocated block keeps the representation. -/
theorem memcpy_rep {s : State} {B : List Blk} {d : Blk} {m' : Mem} {src k : Nat}
    (h : Rep s B) (hd : d ∈ B) (hk : k + 8 ≤ d.size) (h16 : 16 ≤ d.size)
    (hc : memcpy s.mem d.addr src k = .ok m') : Rep { s with mem := m' } B := by
  obtain ⟨X, Y, rfl⟩ := List.append_of_mem hd
  obtain ⟨hTL, hL8, hb8, hb2, hb3, hTR, hend, hlt, _⟩ := h.one
  obtain ⟨e1, e2, e3, hfr⟩ := memcpy_ok hc
  have hne : X ≠ [] ∧ Y ≠ [] := by
    constructor
    · intro hX
      have := h.head
      rw [hX] at this
      simp only [List.nil_append, List.head?_cons, Option.some.injEq] at this
      rw [this] at h16
      simp at h16
    · intro hY
      have := h.last
      rw [hY, List.getLast?_append_of_ne_nil _ (by simp)] at this
      simp only [List.getLast?_singleton, Option.some.injEq] at this
      rw [this] at h16
      simp at h16
  have hB1 : X ++ d :: Y = X ++ [d] ++ Y := by simp
  have hh := h.hdr d (by simp)
  have hf := h.ftr d (by simp) (by omega)
  obtain ⟨rb, hrb, hrov⟩ := h.rover
  rw [hB1] at h hrb ⊢
  refine Rep.replace (x := d.addr) (y := d.addr + d.size) h hne.1 hne.2 hTL hTR
    (by simp [Tiles]; omega) (by simp; omega) ⟨e1, e2, e3, rfl⟩ ?_ ?_ ⟨rb, hrb, hrov⟩
  · intro q hq
    exact hfr q (by omega)
  · intro x hx
    simp only [List.mem_singleton] at hx
    subst hx
    constructor
    · show load m' _ = _
      rw [hfr _ (by omega)]; exact hh
    · show load m' _ = _
      rw [hfr _ (by omega)]; exact hf

theorem inv_realloc {fuel : Nat} {s s' : State} {L : List Nat} {p n q : Nat} (h : Inv s L)
    (hp : p ∈ L) (hn : n + 15 < W32) (hr : mm_realloc fuel s p n = .ok (s', q)) :
    Inv s' (if q = 0 then L else q :: L.erase p) := by
  unfold mm_realloc at hr
  simp only [bind_ok_iff] at hr
  obtain ⟨⟨s1, np⟩, hm, hr⟩ := hr
  have h1 := inv_malloc h hn hm
  simp only at hr
  split_ifs at hr with h0
  · simp only [pure_ok_iff, Prod.mk.injEq] at hr
    obtain ⟨rfl, rfl⟩ := hr
    simp only [h0, ↓reduceIte] at h1 ⊢
    exact h1
  · simp only [bind_ok_iff, pure_ok_iff, Prod.mk.injEq] at hr
    obtain ⟨cs, hcs, m', hcp, s2, hf, rfl, rfl⟩ := hr
    rw [if_neg h0] at h1 ⊢
    obtain ⟨B, hB, hna, hnd, hlive⟩ := h
    obtain ⟨B1, hB1, hna1, hal, hnew, _, _, _⟩ := mm_malloc_spec hB hn hm
    obtain ⟨⟨d, hd, hd1, hd2, hd3, hd4⟩, hfresh⟩ := hnew h0
    obtain ⟨b, hb, hb1, hb2, hb3⟩ := hlive p hp
    have hb' := hal b hb hb2 (by omega)
    have hTb := tiles_mem _ _ _ hB1.tiles b hb'
    have hl := hB1.hl_ge
    have hlt := hB1.brk_lt
    have hhb := hB1.hdr b hb'
    rw [Blk.tag_eq] at hhb
    subst hb1
    rw [HDRP_eq (by omega) (by omega)] at hcs
    obtain rfl := ok_inj (GET_SIZE_tag hhb hTb.2.2 (toNat_lt_two _)) hcs
    subst hd1
    have hrep : Rep { s1 with mem := m' } B1 :=
      memcpy_rep hB1 hd (by split_ifs <;> omega) hd4 hcp
    obtain ⟨_, _, _, hnd1, hlive1⟩ := h1
    have hne : d.addr ≠ b.addr := by
      intro he
      have := hfresh b hb he.symm (by omega)
      rw [this] at hb2
      exact absurd hb2 (by simp)
    have := free_rep (L := d.addr :: L) hrep (hna1 hna) hnd1 (by
      intro x hx
      rcases List.mem_cons.mp hx with rfl | hx
      · exact ⟨d, hd, rfl, hd2, hd4⟩
      · obtain ⟨c, hc, c1, c2, c3⟩ := hlive x hx
        exact ⟨c, hal c hc c2 (by omega), c1, c2, c3⟩) (List.mem_cons_of_mem _ hp) hf
    rw [List.erase_cons_tail (by simpa using hne)] at this
    exact this

end Implicit

namespace Implicit

theorem mm_init_spec {m0 : Mem} {s : State} (h1 : m0.lo ≤ m0.brk) (h2 : m0.brk % 8 = 0)
    (h3 : m0.hi < W32) (hi : mm_init m0 = .ok (s, 0)) : Inv s [] := by
  unfold mm_init at hi
  split at hi
  · simp [pure, Except.pure] at hi
  · rename_i hl m hs
    obtain ⟨rfl, hm, hhi⟩ := mem_sbrk_ok hs
    have e16 : (4 * WSIZE) % W32 = 16 := by decide
    rw [e16] at hm hhi
    simp only [bind_ok_iff] at hi
    obtain ⟨m1, p1, m2, p2, m3, p3, m4, p4, ⟨s1, p⟩, he, hi⟩ := hi
    have ea : add32 m0.brk (1 * WSIZE) = m0.brk + 4 := add32_eq (by unfold WSIZE; omega)
    have eb : add32 m0.brk (2 * WSIZE) = m0.brk + 8 := add32_eq (by unfold WSIZE; omega)
    have ec : add32 m0.brk (3 * WSIZE) = m0.brk + 12 := add32_eq (by unfold WSIZE; omega)
    have eP : PACK DSIZE 1 = 9 := by decide
    have eQ : PACK 0 1 = 1 := by decide
    rw [ea, eP] at p2
    rw [eb, eP] at p3
    rw [ec, eQ] at p4
    rw [eb] at he
    have hld : ∀ q, load m4 q = if q = m0.brk + 12 then .ok (1 % W32)
        else if q = m0.brk + 8 then .ok (9 % W32)
        else if q = m0.brk + 4 then .ok (9 % W32)
        else if q = m0.brk then .ok (0 % W32) else load m q := by
      intro q
      rw [load_store p4, load_store p3, load_store p2, load_store p1]
    have hbrk : m4.brk = m0.brk + 16 := by
      rw [store_brk p4, store_brk p3, store_brk p2, store_brk p1, hm]
    have hlo : m4.lo = m0.lo := by
      rw [store_lo p4, store_lo p3, store_lo p2, store_lo p1, hm]
    have hhi4 : m4.hi = m0.hi := by
      rw [store_hi p4, store_hi p3, store_hi p2, store_hi p1, hm]
    have hrep : Rep { mem := m4, heap_listp := m0.brk + 8, next_fit_position := m0.brk + 8 }
        [⟨m0.brk + 8, 8, true⟩, ⟨m4.brk, 0, true⟩] := by
      refine ⟨by rw [hhi4]; exact h3, by rw [hbrk, hhi4]; exact hhi, by rw [hlo]; simp; omega,
        by simp; omega, rfl, rfl, by simp [Tiles, hbrk], ?_, ?_,
        ⟨⟨m0.brk + 8, 8, true⟩, by simp, rfl⟩⟩
      · intro b hb
        simp only [List.mem_cons, List.mem_singleton, List.not_mem_nil, or_false] at hb
        rcases hb with rfl | rfl
        · simp only [Blk.tag_eq, Bool.toNat_true]
          rw [hld, if_neg (by omega), if_neg (by omega), if_pos (by omega)]
          rfl
        · simp only [Blk.tag_eq, Bool.toNat_true, hbrk]
          rw [hld, if_pos (by omega)]
          rfl
      · intro b hb h0
        simp only [List.mem_cons, List.mem_singleton, List.not_mem_nil, or_false] at hb
        rcases hb with rfl | rfl
        · simp only [Blk.tag_eq, Bool.toNat_true]
          rw [hld, if_neg (by omega), if_pos (by omega)]
          rfl
        · simp at h0
    have hs1 : s1 = s ∧ p ≠ 0 := by
      split_ifs at hi with hp
      · simp [pure, Except.pure] at hi
      · simp [pure, Except.pure] at hi
        exact ⟨hi, hp⟩
    obtain ⟨rfl, hp⟩ := hs1
    rcases extend_heap_spec hrep (by decide) (by decide) (by decide) he with
      ⟨rfl, _⟩ | ⟨B', hB', hna, _, _, _, _, _⟩
    · exact absurd rfl hp
    · refine ⟨B', hB', hna ?_, List.nodup_nil, by simp⟩
      unfold NoAdjFree
      simp

theorem scan_tiles (m : Mem) (e : Nat) (he : e < W32) : ∀ (B : List Blk) (a : Nat),
    Tiles a B e → (∀ b ∈ B, load m (b.addr - 4) = .ok b.tag) →
    B.getLast? = some ⟨e, 0, true⟩ → 4 ≤ a →
    scan m B.length a = .ok (B.map fun b => (b.size, b.alloc.toNat))
  | [], _, _, _, hl, _ => by simp at hl
  | b :: rest, a, hT, hh, hl, ha => by
    obtain ⟨rfl, h8, hne, hT'⟩ := hT
    have hle := tiles_le _ _ _ hT'
    have hhb := hh b (by simp)
    rw [Blk.tag_eq] at hhb
    have tb := toNat_lt_two b.alloc
    simp only [List.length_cons, List.map_cons]
    unfold scan
    rw [HDRP_eq ha (by omega), GET_SIZE_tag hhb h8 tb, GET_ALLOC_tag hhb h8 tb]
    simp only [bind, Except.bind]
    by_cases h0 : b.size = 0
    · have hr : rest = [] := by
        by_contra hr
        have := hne hr
        omega
      subst hr
      rw [if_pos h0]
      simp [pure, Except.pure]
    · have hr : rest ≠ [] := by
        intro hr
        subst hr
        simp only [List.getLast?_singleton, Option.some.injEq] at hl
        rw [hl] at h0
        exact h0 rfl
      rw [if_neg h0, add32_eq (by omega)]
      rw [scan_tiles m e he rest _ hT' (fun x hx => hh x (List.mem_cons_of_mem _ hx))
        (by
          rw [← hl]
          cases rest with
          | nil => exact absurd rfl hr
          | cons y ys => simp [List.getLast?_cons_cons]) (by omega)]
      rfl

theorem scan_rep {s : State} {B : List Blk} (h : Rep s B) :
    scan s.mem B.length s.heap_listp = .ok (B.map fun b => (b.size, b.alloc.toNat)) :=
  scan_tiles s.mem s.mem.brk h.brk_lt B s.heap_listp h.tiles h.hdr h.last
    (by have := h.hl_ge; omega)

theorem scanNoAdjFree_map {B : List Blk} (h : NoAdjFree B) :
    scanNoAdjFree (B.map fun b => (b.size, b.alloc.toNat)) := by
  unfold scanNoAdjFree NoAdjFree at *
  rw [List.chain'_map]
  refine List.Chain'.imp ?_ h
  intro x y hxy
  rcases hxy with hx | hy
  · left; simp [hx]
  · right; simp [hy]

theorem reach_inv {m0 : Mem} (h1 : m0.lo ≤ m0.brk) (h2 : m0.brk % 8 = 0) (h3 : m0.hi < W32)
    {s : State} {L : List Nat} (hr : Reach (fun n => n + 15 < W32) m0 s L) : Inv s L := by
  induction hr with
  | init h => exact mm_init_spec h1 h2 h3 h
  | malloc _ hn h ih => exact inv_malloc ih hn h
  | free _ hm h ih => exact inv_free ih hm h
  | realloc _ hm hn h ih => exact inv_realloc ih hm hn h

end Implicit

namespace Seg

theorem bucketLoop_facts : ∀ (n l s : Nat), l + n = 19 →
    l ≤ (bucketLoop n l s).1 ∧ (bucketLoop n l s).1 ≤ 19 ∧
    (bucketLoop n l s).2 = s >>> ((bucketLoop n l s).1 - l) ∧
    ((bucketLoop n l s).1 < 19 → (bucketLoop n l s).2 ≤ 1) ∧
    (l < (bucketLoop n l s).1 → s >>> ((bucketLoop n l s).1 - l - 1) > 1)
  | 0, l, s, h => by
    simp only [bucketLoop]
    exact ⟨le_refl _, by omega, by simp, fun h' => by omega, fun h' => by omega⟩
  | n + 1, l, s, h => by
    unfold bucketLoop LISTLIMIT
    by_cases hc : l < 20 - 1 ∧ s > 1
    · rw [if_pos hc]
      obtain ⟨h1, h2, h3, h4, h5⟩ := bucketLoop_facts n (l + 1) (s >>> 1) (by omega)
      have e : (bucketLoop n (l + 1) (s >>> 1)).1 - l
          = 1 + ((bucketLoop n (l + 1) (s >>> 1)).1 - (l + 1)) := by omega
      refine ⟨by omega, h2, ?_, h4, ?_⟩
      · rw [h3, e, Nat.shiftRight_add]
      · intro _
        by_cases h6 : l + 1 < (bucketLoop n (l + 1) (s >>> 1)).1
        · have := h5 h6
          have e2 : (bucketLoop n (l + 1) (s >>> 1)).1 - l - 1
              = 1 + ((bucketLoop n (l + 1) (s >>> 1)).1 - (l + 1) - 1) := by omega
          rw [e2, Nat.shiftRight_add]
          exact this
        · have e3 : (bucketLoop n (l + 1) (s >>> 1)).1 - l - 1 = 0 := by omega
          rw [e3]
          simpa using hc.2
    · rw [if_neg hc]
      refine ⟨le_refl _, ?_, by simp, ?_, ?_⟩
      · show l ≤ 19
        omega
      · intro _
        show s ≤ 1
        omega
      · intro h'
        exact absurd h' (lt_irrefl _)

theorem bucket_lt (sz : Nat) : bucket sz < 20 := by
  have := (bucketLoop_facts 19 0 sz rfl).2.1
  show (bucketLoop 19 0 sz).1 < 20
  omega

/-- The size left by the bucket loop never exceeds the size of a block of the same bucket
that has at least 16 bytes. -/
theorem bucket_rest_le {sz hs : Nat} (hsz : sz < W32) (h16 : 16 ≤ hs)
    (hb : bucket hs = bucket sz) : (bucketLoop (LISTLIMIT - 1) 0 sz).2 ≤ hs := by
  obtain ⟨_, h2, h3, h4, _⟩ := bucketLoop_facts 19 0 sz rfl
  obtain ⟨_, _, _, _, g5⟩ := bucketLoop_facts 19 0 hs rfl
  have hb : (bucketLoop 19 0 hs).1 = (bucketLoop 19 0 sz).1 := hb
  show (bucketLoop 19 0 sz).2 ≤ hs
  by_cases h19 : (bucketLoop 19 0 sz).1 < 19
  · have := h4 h19
    omega
  · have e : (bucketLoop 19 0 sz).1 = 19 := by omega
    rw [e] at h3 hb
    rw [hb] at g5
    have g := g5 (by omega)
    simp only [Nat.sub_zero, Nat.shiftRight_eq_div_pow] at g h3
    rw [h3]
    unfold W32 at hsz
    have : sz / 2 ^ 19 < 8192 := by
      rw [Nat.div_lt_iff_lt_mul (by norm_num)]
      omega
    have : hs / 2 ^ (19 - 1) > 1 := g
    have : 2 ^ 18 * 2 ≤ hs := by
      have := (Nat.le_div_iff_mul_le (by norm_num : 0 < 2 ^ (19 - 1))).mp (show 2 ≤ hs / 2 ^ (19 - 1) from g)
      omega
    omega

end Seg


/-! ## Segregated variant: reading and writing boundary tags -/

theorem tiles_disjoint : ∀ (B : List Blk) (a e : Nat), Tiles a B e → ∀ b ∈ B, ∀ c ∈ B,
    b = c ∨ b.addr + b.size ≤ c.addr ∨ c.addr + c.size ≤ b.addr
  | [], _, _, _, b, hb, _, _ => by simp at hb
  | x :: xs, a, e, h, b, hb, c, hc => by
    obtain ⟨h1, h2, _, h4⟩ := h
    rcases List.mem_cons.mp hb with hb1 | hb1
    · rcases List.mem_cons.mp hc with hc1 | hc1
      · exact Or.inl (hb1.trans hc1.symm)
      · have := tiles_mem xs _ _ h4 c hc1
        subst hb1
        exact Or.inr (Or.inl (by omega))
    · rcases List.mem_cons.mp hc with hc1 | hc1
      · have := tiles_mem xs _ _ h4 b hb1
        subst hc1
        exact Or.inr (Or.inr (by omega))
      · exact tiles_disjoint xs _ _ h4 b hb1 c hc1

/-- A block of size 0 sits at the end of the tiling. -/
theorem tiles_zero : ∀ (B : List Blk) (a e : Nat), Tiles a B e → ∀ c ∈ B, c.size = 0 →
    c.addr = e
  | [], _, _, _, c, hc, _ => by simp at hc
  | x :: xs, a, e, h, c, hc, h0 => by
    obtain ⟨h1, h2, h3, h4⟩ := h
    rcases List.mem_cons.mp hc with hc1 | hc1
    · subst hc1
      have : xs = [] := by
        by_contra hne
        have := h3 hne
        omega
      subst this
      simp only [Tiles] at h4
      omega
    · exact tiles_zero xs _ _ h4 c hc1 h0

/-- The word `(size + a) | t` written by `PUT` keeps the size under the size mask. -/
theorem tag_or_mask {z a t : Nat} (h8 : z % 8 = 0) (ha : a < 2) (ht : t = 0 ∨ t = 2)
    (hlt : z + a < W32) : ((z + a) ||| t) % W32 &&& 4294967288 = z := by
  have e1 : z + a = z ||| a := (lor_lt8 z a h8 (by omega)).symm
  have e2 : a ||| t < 8 := by
    rcases ht with rfl | rfl <;> interval_cases a <;> decide
  have e3 : (z + a) ||| t = z + (a ||| t) := by
    rw [e1, Nat.lor_assoc, lor_lt8 z _ h8 e2]
  have e4 : z + (a ||| t) < W32 := by unfold W32 at *; omega
  rw [e3, Nat.mod_eq_of_lt e4, tag_land_mask h8 e2 e4]

namespace Seg

theorem seg_HDRP_eq {b : Nat} (h4 : 4 ≤ b) (hlt : b < W32) : HDRP b = b - 4 := by
  unfold HDRP WSIZE; exact sub32_eq h4 hlt

theorem SUCC_PTR_eq {b : Nat} (hlt : b + 4 < W32) : SUCC_PTR b = b + 4 := by
  unfold SUCC_PTR WSIZE; exact add32_eq hlt

theorem seg_PACK_eq {z a : Nat} (h8 : z % 8 = 0) (ha : a < 2) : PACK z a = z + a := by
  unfold PACK
  have : a &&& 1 = a := by rw [land_one]; omega
  rw [this]; exact lor_lt8 z a h8 (by omega)

theorem seg_GET_SIZE_tag {m : Mem} {p z a : Nat} (h : load m p = .ok (z + a)) (h8 : z % 8 = 0)
    (ha : a < 2) : GET_SIZE m p = .ok z := by
  unfold GET_SIZE GET
  rw [h]
  show Except.ok ((z + a) &&& 4294967288) = _
  rw [tag_land_mask h8 (by omega) (load_lt h)]

theorem seg_GET_ALLOC_tag {m : Mem} {p z a : Nat} (h : load m p = .ok (z + a)) (h8 : z % 8 = 0)
    (ha : a < 2) : GET_ALLOC m p = .ok a := by
  unfold GET_ALLOC GET
  rw [h]
  show Except.ok ((z + a) &&& 1) = _
  rw [tag_land_one h8 ha]

theorem GET_TAG_tag {m : Mem} {p z a : Nat} (h : load m p = .ok (z + a)) (h8 : z % 8 = 0)
    (ha : a < 2) : GET_TAG m p = .ok 0 := by
  unfold GET_TAG GET
  rw [h]
  show Except.ok ((z + a) &&& 2) = _
  rw [land_two]
  congr 1
  omega

theorem GET_SIZE_congr {m m' : Mem} {p : Nat} (h : load m' p = load m p) :
    GET_SIZE m' p = GET_SIZE m p := by
  unfold GET_SIZE GET; rw [h]

/-- `PUT` on a word whose reallocation bit is clear stores the value itself. -/
theorem PUT_tag {m m' : Mem} {p v z a : Nat} (h : load m p = .ok (z + a)) (h8 : z % 8 = 0)
    (ha : a < 2) (hp : PUT m p v = .ok m') : store m p v = .ok m' := by
  unfold PUT at hp
  rw [GET_TAG_tag h h8 ha] at hp
  simpa [bind, Except.bind] using hp

/-- `PUT` on any word stores the value with bit 1 of the old word. -/
theorem PUT_any {m m' : Mem} {p v : Nat} (hp : PUT m p v = .ok m') :
    ∃ t, (t = 0 ∨ t = 2) ∧ store m p (v ||| t) = .ok m' := by
  unfold PUT GET_TAG GET at hp
  simp only [bind_ok_iff, pure_ok_iff] at hp
  obtain ⟨t, ⟨w, _, rfl⟩, hs⟩ := hp
  refine ⟨w &&& 2, ?_, hs⟩
  rw [land_two]
  omega

/-- After `PUT` of the tag `z + a`, the written word reads back with size `z`. -/
theorem PUT_size {m m' : Mem} {p z a : Nat} (h8 : z % 8 = 0) (ha : a < 2) (hlt : z + a < W32)
    (hp : PUT m p (z + a) = .ok m') :
    GET_SIZE m' p = .ok z ∧ m'.brk = m.brk ∧ m'.lo = m.lo ∧ m'.hi = m.hi ∧
      ∀ q, q ≠ p → load m' q = load m q := by
  obtain ⟨t, ht, hs⟩ := PUT_any hp
  refine ⟨?_, store_brk hs, store_lo hs, store_hi hs, fun q hq => ?_⟩
  · unfold GET_SIZE GET
    rw [load_store hs, if_pos rfl]
    show Except.ok (((z + a) ||| t) % W32 &&& 4294967288) = _
    rw [tag_or_mask h8 ha ht hlt]
  · rw [load_store hs, if_neg hq]

theorem seg_NEXT_BLKP_tag {m : Mem} {b z a : Nat} (h : load m (b - 4) = .ok (z + a))
    (h8 : z % 8 = 0) (ha : a < 2) (h4 : 4 ≤ b) (hlt : b + z < W32) :
    NEXT_BLKP m b = .ok (b + z) := by
  unfold NEXT_BLKP WSIZE
  rw [sub32_eq h4 (by omega), seg_GET_SIZE_tag h h8 ha]
  show Except.ok (add32 b z) = _
  rw [add32_eq hlt]

theorem seg_FTRP_tag {m : Mem} {b z a : Nat} (h : load m (b - 4) = .ok (z + a))
    (h8 : z % 8 = 0) (ha : a < 2) (h4 : 8 ≤ b) (hlt : b + z < W32) :
    FTRP m b = .ok (b + z - 8) := by
  unfold FTRP DSIZE
  rw [seg_HDRP_eq (by omega) (by omega), seg_GET_SIZE_tag h h8 ha]
  show Except.ok (sub32 (add32 b z) 8) = _
  rw [add32_eq hlt, sub32_eq (by omega) hlt]

theorem PREV_BLKP_size {m : Mem} {b z : Nat} (h : GET_SIZE m (b - 8) = .ok z)
    (h4 : 8 ≤ b) (hle : z ≤ b) (hlt : b < W32) : PREV_BLKP m b = .ok (b - z) := by
  unfold PREV_BLKP DSIZE
  rw [sub32_eq h4 hlt, h]
  show Except.ok (sub32 b z) = _
  rw [sub32_eq hle hlt]

/-! ## Geometry of a layout -/

theorem Layout.lt_brk {m : Mem} {h0 : Nat} {B : List Blk} (h : Layout m h0 B) : m.brk < W32 :=
  lt_of_le_of_lt h.brk_le h.hi_lt

theorem Layout.bounds {m : Mem} {h0 : Nat} {B : List Blk} (h : Layout m h0 B) {b : Blk}
    (hb : b ∈ B) : 8 ≤ h0 ∧ h0 ≤ b.addr ∧ b.addr + b.size ≤ m.brk ∧ b.size % 8 = 0 ∧
      m.brk < W32 := by
  have h1 := tiles_mem _ _ _ h.tiles b hb
  have h2 := h.h0_ge
  have h3 := h.lt_brk
  exact ⟨by omega, h1.1, h1.2.1, h1.2.2, h3⟩

/-- The link words of a free block are no tag words of any block. -/
theorem Layout.link_ne_tag {m : Mem} {h0 : Nat} {B : List Blk} (h : Layout m h0 B) {f d : Blk}
    (hf : f ∈ B) (hf16 : 16 ≤ f.size) (hd : d ∈ B) {q : Nat}
    (hq : q = f.addr ∨ q = f.addr + 4) :
    q ≠ d.addr - 4 ∧ (d.size ≠ 0 → q ≠ d.addr + d.size - 8) := by
  have b1 := h.bounds hf
  have b2 := h.bounds hd
  rcases tiles_disjoint _ _ _ h.tiles f hf d hd with rfl | h1 | h1
  · omega
  · omega
  · omega

/-- Two free blocks at different addresses are at least 16 bytes apart. -/
theorem Layout.free_sep {m : Mem} {h0 : Nat} {B : List Blk} (h : Layout m h0 B) {f g : Blk}
    (hf : f ∈ B) (hg : g ∈ B) (hff : f.alloc = false) (hgf : g.alloc = false)
    (hne : f.addr ≠ g.addr) : f.addr + 16 ≤ g.addr ∨ g.addr + 16 ≤ f.addr := by
  have b1 := h.free16 f hf hff
  have b2 := h.free16 g hg hgf
  rcases tiles_disjoint _ _ _ h.tiles f hf g hg with rfl | h1 | h1
  · exact absurd rfl hne
  · omega
  · omega

/-- A block is determined by its address, unless it is the epilogue. -/
theorem Layout.addr_inj {m : Mem} {h0 : Nat} {B : List Blk} (h : Layout m h0 B) {b c : Blk}
    (hb : b ∈ B) (hc : c ∈ B) (hbc : b.addr = c.addr) (hb0 : b.size ≠ 0) : b = c := by
  have b1 := h.bounds hb
  rcases tiles_disjoint _ _ _ h.tiles b hb c hc with h1 | h1 | h1
  · exact h1
  · omega
  · have b2 := h.bounds hc
    have h0 : c.size = 0 := by omega
    have := tiles_zero _ _ _ h.tiles c hc h0
    omega

/-- Memory that agrees with a laid-out memory on all tag words is laid out in the same way. -/
theorem Layout.of_tags {m m' : Mem} {h0 : Nat} {B : List Blk} (h : Layout m h0 B)
    (hb : m'.brk = m.brk) (hl : m'.lo = m.lo) (hh : m'.hi = m.hi)
    (hfr : ∀ d ∈ B, load m' (d.addr - 4) = load m (d.addr - 4) ∧
      (d.size ≠ 0 → load m' (d.addr + d.size - 8) = load m (d.addr + d.size - 8))) :
    Layout m' h0 B := by
  refine ⟨by rw [hh]; exact h.hi_lt, by rw [hb, hh]; exact h.brk_le, by rw [hl]; exact h.h0_ge,
    h.head, by rw [hb]; exact h.last, by rw [hb]; exact h.tiles, ?_, ?_, h.free16⟩
  · intro d hd
    rw [(hfr d hd).1]; exact h.hdr d hd
  · intro d hd h0
    rw [GET_SIZE_congr ((hfr d hd).2 h0)]; exact h.ftr d hd h0

/-- Writes to link words of free blocks keep the layout. -/
theorem Layout.of_links {m m' : Mem} {h0 : Nat} {B : List Blk} (h : Layout m h0 B)
    (hb : m'.brk = m.brk) (hl : m'.lo = m.lo) (hh : m'.hi = m.hi)
    (hfr : ∀ q, (∀ f ∈ B, f.alloc = false → q ≠ f.addr ∧ q ≠ f.addr + 4) →
      load m' q = load m q) : Layout m' h0 B := by
  refine h.of_tags hb hl hh fun d hd => ⟨hfr _ fun f hf hff => ?_, fun h0 => hfr _ fun f hf hff => ?_⟩
  · have h1 := (h.link_ne_tag hf (h.free16 f hf hff) hd (Or.inl rfl)).1
    have h2 := (h.link_ne_tag hf (h.free16 f hf hff) hd (Or.inr rfl)).1
    exact ⟨fun e => h1 e.symm, fun e => h2 e.symm⟩
  · have h1 := (h.link_ne_tag hf (h.free16 f hf hff) hd (Or.inl rfl)).2 h0
    have h2 := (h.link_ne_tag hf (h.free16 f hf hff) hd (Or.inr rfl)).2 h0
    exact ⟨fun e => h1 e.symm, fun e => h2 e.symm⟩

end Seg


/-! ## Segregated variant: doubly linked list segments -/

namespace Seg

theorem DLLseg_frame {m m' : Mem} : ∀ (ns : List Nat) (prev nxt : Nat),
    (∀ x ∈ ns, load m' x = load m x ∧ load m' (x + 4) = load m (x + 4)) →
    DLLseg m prev ns nxt → DLLseg m' prev ns nxt
  | [], _, _, _, _ => trivial
  | a :: rest, prev, nxt, hfr, h => by
    obtain ⟨h1, h2, h3⟩ := h
    have ha := hfr a (by simp)
    exact ⟨by rw [ha.2]; exact h1, by rw [ha.1]; exact h2,
      DLLseg_frame rest a nxt (fun x hx => hfr x (by simp [hx])) h3⟩

theorem headD_append (xs ys : List Nat) (d : Nat) :
    (xs ++ ys).headD d = xs.headD (ys.headD d) := by
  cases xs <;> rfl

theorem DLLseg_append {m : Mem} : ∀ (xs ys : List Nat) (prev nxt : Nat),
    DLLseg m prev (xs ++ ys) nxt ↔
      DLLseg m prev xs (ys.headD nxt) ∧ DLLseg m (xs.getLastD prev) ys nxt
  | [], ys, prev, nxt => by simp [DLLseg]
  | x :: xs, ys, prev, nxt => by
    have ih := DLLseg_append (m := m) xs ys x nxt
    show (load m (x + 4) = .ok prev ∧ load m x = .ok ((xs ++ ys).headD nxt) ∧
      DLLseg m x (xs ++ ys) nxt) ↔
      (load m (x + 4) = .ok prev ∧ load m x = .ok (xs.headD (ys.headD nxt)) ∧
        DLLseg m x xs (ys.headD nxt)) ∧ DLLseg m ((x :: xs).getLastD prev) ys nxt
    rw [ih, headD_append, List.getLastD_cons]
    tauto

/-- Redirecting the predecessor word of the last node of a segment. -/
theorem DLLseg_set_nxt {m m' : Mem} (n1 : Nat) : ∀ (xs : List Nat) (prev n0 : Nat), xs.Nodup →
    (∀ x ∈ xs, load m' (x + 4) = load m (x + 4)) →
    (∀ x ∈ xs, xs.getLast? ≠ some x → load m' x = load m x) →
    (∀ z, xs.getLast? = some z → load m' z = .ok n1) →
    DLLseg m prev xs n0 → DLLseg m' prev xs n1
  | [], _, _, _, _, _, _, _ => trivial
  | x :: rest, prev, n0, hnd, h1, h2, h3, h => by
    obtain ⟨g1, g2, g3⟩ := h
    rw [List.nodup_cons] at hnd
    refine ⟨by rw [h1 x (by simp)]; exact g1, ?_, ?_⟩
    · cases rest with
      | nil => exact h3 x rfl
      | cons y r =>
        rw [h2 x (by simp)]
        · exact g2
        · rw [List.getLast?_cons_cons]
          intro e
          exact hnd.1 (List.mem_of_getLast?_eq_some e)
    · cases rest with
      | nil => trivial
      | cons y r =>
        refine DLLseg_set_nxt n1 (y :: r) x n0 hnd.2 (fun z hz => h1 z (by simp [hz]))
          (fun z hz hl => h2 z (by simp [hz]) ?_) (fun z hz => h3 z ?_) g3
        · rw [List.getLast?_cons_cons]; exact hl
        · rw [List.getLast?_cons_cons]; exact hz

/-- Redirecting the successor word of the first node of a segment. -/
theorem DLLseg_set_prev {m m' : Mem} (p1 : Nat) (ys : List Nat) (p0 nxt : Nat) (hnd : ys.Nodup)
    (h1 : ∀ y ∈ ys, load m' y = load m y)
    (h2 : ∀ y ∈ ys, ys.head? ≠ some y → load m' (y + 4) = load m (y + 4))
    (h3 : ∀ y, ys.head? = some y → load m' (y + 4) = .ok p1)
    (h : DLLseg m p0 ys nxt) : DLLseg m' p1 ys nxt := by
  cases ys with
  | nil => trivial
  | cons y r =>
    obtain ⟨g1, g2, g3⟩ := h
    rw [List.nodup_cons] at hnd
    refine ⟨h3 y rfl, by rw [h1 y (by simp)]; exact g2, DLLseg_frame r y nxt (fun z hz => ?_) g3⟩
    refine ⟨h1 z (by simp [hz]), h2 z (by simp [hz]) ?_⟩
    simp only [List.head?_cons, ne_eq, Option.some.injEq]
    rintro rfl
    exact hnd.1 hz

/-- The predecessor word of a node of a list holds the next node of the list, or `NULL` at
the end. -/
theorem DLLseg_next {m : Mem} {xs ys : List Nat} {a prev nxt : Nat}
    (h : DLLseg m prev (xs ++ a :: ys) nxt) :
    load m a = .ok (ys.headD nxt) ∧ load m (a + 4) = .ok (xs.getLastD prev) ∧
      DLLseg m prev xs a ∧ DLLseg m a ys nxt := by
  rw [DLLseg_append] at h
  obtain ⟨h1, h2, h3, h4⟩ := h
  exact ⟨h3, h2, h1, h4⟩

theorem Lists.of_frame {m m' : Mem} {hd : Nat → Nat} {B B' : List Blk} {F : Nat → List Nat}
    (h : Lists m hd B F)
    (hfr : ∀ k, k < 20 → ∀ a ∈ F k, load m' a = load m a ∧ load m' (a + 4) = load m (a + 4))
    (hn : ∀ k, k < 20 → ∀ a ∈ F k,
      ∃ b ∈ B', b.addr = a ∧ b.alloc = false ∧ bucket b.size = k) :
    Lists m' hd B' F :=
  ⟨h.heads, fun k hk => DLLseg_frame _ _ _ (hfr k hk) (h.dll k hk), h.nodup, hn⟩

/-- Two nodes of the lists are the same node or lie 16 bytes apart. -/
theorem Lists.sep {m : Mem} {hd : Nat → Nat} {h0 : Nat} {B : List Blk} {F : Nat → List Nat}
    (hL : Layout m h0 B) (h : Lists m hd B F) {j k a x : Nat} (hj : j < 20) (hk : k < 20)
    (ha : a ∈ F j) (hx : x ∈ F k) : a = x ∨ a + 16 ≤ x ∨ x + 16 ≤ a := by
  obtain ⟨b, hb, rfl, hbf, _⟩ := h.nodes j hj a ha
  obtain ⟨c, hc, rfl, hcf, _⟩ := h.nodes k hk x hx
  by_cases e : b.addr = c.addr
  · exact Or.inl e
  · exact Or.inr (hL.free_sep hb hc hbf hcf e)

/-- A node of one list is in no other list. -/
theorem Lists.bucket_eq {m : Mem} {hd : Nat → Nat} {h0 : Nat} {B : List Blk}
    {F : Nat → List Nat} (hL : Layout m h0 B) (h : Lists m hd B F) {j k a : Nat} (hj : j < 20)
    (hk : k < 20) (ha : a ∈ F j) (hx : a ∈ F k) : j = k := by
  obtain ⟨b, hb, rfl, hbf, e1⟩ := h.nodes j hj a ha
  obtain ⟨c, hc, e, hcf, e2⟩ := h.nodes k hk _ hx
  have h16 := hL.free16 c hc hcf
  have := hL.addr_inj hc hb e (by omega)
  subst this
  omega

theorem Lists.node_pos {m : Mem} {hd : Nat → Nat} {h0 : Nat} {B : List Blk}
    {F : Nat → List Nat} (hL : Layout m h0 B) (h : Lists m hd B F) {k a : Nat} (hk : k < 20)
    (ha : a ∈ F k) : 8 ≤ a ∧ a + 16 ≤ m.brk ∧ m.brk < W32 := by
  obtain ⟨b, hb, rfl, hbf, _⟩ := h.nodes k hk a ha
  have := hL.bounds hb
  have := hL.free16 b hb hbf
  omega

end Seg


/-! ## Segregated variant: `delete_node` -/

namespace Seg

theorem Blk.tag_free {b : Blk} (h : b.alloc = false) : b.tag = b.size + 0 := by
  unfold Blk.tag; rw [h]; rfl

theorem Blk.tag_alloc {b : Blk} (h : b.alloc = true) : b.tag = b.size + 1 := by
  unfold Blk.tag; rw [h]; rfl

/-- The words that `delete_node` rewrites when it unlinks the node `b.addr`, which sits
between the nodes `xs` and `ys` of its list. -/
theorem delete_node_mem {s s' : State} {h0 : Nat} {B : List Blk} {F : Nat → List Nat}
    {b : Blk} {xs ys : List Nat}
    (hL : Layout s.mem h0 B) (hF : Lists s.mem s.segregated_free_lists B F)
    (hb : b ∈ B) (hbf : b.alloc = false) (hxy : F (bucket b.size) = xs ++ b.addr :: ys)
    (hd : delete_node s b.addr = .ok s') :
    s'.mem.brk = s.mem.brk ∧ s'.mem.lo = s.mem.lo ∧ s'.mem.hi = s.mem.hi ∧
    s'.segregated_free_lists (bucket b.size) = (xs ++ ys).headD 0 ∧
    (∀ j, j ≠ bucket b.size → s'.segregated_free_lists j = s.segregated_free_lists j) ∧
    (∀ z, xs.getLast? = some z → load s'.mem z = .ok (ys.headD 0)) ∧
    (∀ y, ys.head? = some y → load s'.mem (y + 4) = .ok (xs.getLastD 0)) ∧
    (∀ q, xs.getLast? ≠ some q → (∀ y, ys.head? = some y → q ≠ y + 4) →
      load s'.mem q = load s.mem q) := by
  have hk := bucket_lt b.size
  have hdll := hF.dll _ hk
  rw [hxy] at hdll
  obtain ⟨r1, r2, -, -⟩ := DLLseg_next hdll
  have hbb := hL.bounds hb
  have h16 := hL.free16 b hb hbf
  have hhd := hL.hdr b hb
  rw [Blk.tag_free hbf] at hhd
  have hpos : ∀ a ∈ F (bucket b.size), 8 ≤ a ∧ a + 16 ≤ s.mem.brk ∧ s.mem.brk < W32 :=
    fun a ha => hF.node_pos hL hk ha
  have hsep : ∀ a ∈ F (bucket b.size), a = b.addr ∨ a + 16 ≤ b.addr ∨ b.addr + 16 ≤ a :=
    fun a ha => hF.sep hL hk hk ha (by rw [hxy]; simp)
  have hhead : s.segregated_free_lists (bucket b.size) = (xs ++ b.addr :: ys).headD 0 := by
    rw [hF.heads _ hk, hxy]
  unfold delete_node at hd
  rw [seg_HDRP_eq (by omega) (by omega), seg_GET_SIZE_tag hhd hbb.2.2.2.1 (by decide)] at hd
  unfold PRED SUCC at hd
  rw [SUCC_PTR_eq (by omega)] at hd
  simp only [bind, Except.bind, r1, r2] at hd
  rcases ys with _ | ⟨y, ys⟩
  · rcases List.eq_nil_or_concat xs with rfl | ⟨xs, z, hcc⟩
    · simp only [List.headD_nil, List.getLastD_nil, ne_eq, not_true_eq_false, ↓reduceIte,
        pure, Except.pure, Except.ok.injEq] at hd
      subst hd
      refine ⟨rfl, rfl, rfl, ?_, ?_, ?_, ?_, ?_⟩
      · simp [State.setList, bucket]
      · intro j hj
        simp [State.setList, bucket] at hj ⊢
        intro e; exact absurd e hj
      · intro z hz; simp at hz
      · intro y hy; simp at hy
      · intro q _ _; rfl
    · rw [List.concat_eq_append] at hcc
      subst hcc
      have hz := hpos z (by rw [hxy]; simp)
      have e1 : (xs ++ [z]).getLastD 0 = z := by simp
      simp only [List.headD_nil, e1, ne_eq, not_true_eq_false, ↓reduceIte] at hd
      rw [if_pos (by omega)] at hd
      unfold SET_PTR PRED_PTR at hd
      cases hst : store s.mem z 0 with
      | error e => rw [hst] at hd; simp at hd
      | ok m1 =>
        rw [hst] at hd
        simp only [pure, Except.pure, Except.ok.injEq] at hd
        subst hd
        refine ⟨store_brk hst, store_lo hst, store_hi hst, ?_, fun j _ => rfl, ?_, ?_, ?_⟩
        · show s.segregated_free_lists (bucket b.size) = _
          rw [hhead]
          cases xs <;> rfl
        · intro z' hz'
          simp only [List.getLast?_concat, Option.some.injEq] at hz'
          subst hz'
          show load m1 z = _
          rw [load_store hst, if_pos rfl]; rfl
        · intro y hy; simp at hy
        · intro q hq _
          simp only [List.getLast?_concat, ne_eq, Option.some.injEq] at hq
          show load m1 q = _
          rw [load_store hst, if_neg (fun e => hq e.symm)]
  · have hy := hpos y (by rw [hxy]; simp)
    have hys := hsep y (by rw [hxy]; simp)
    have hynb : y ≠ b.addr := by
      have := hF.nodup _ hk
      rw [hxy] at this
      have := (List.nodup_append.mp this).2.1
      rw [List.nodup_cons] at this
      intro e
      exact this.1 (by rw [← e]; simp)
    simp only [List.headD_cons] at hd
    rw [if_pos (by omega)] at hd
    rcases List.eq_nil_or_concat xs with rfl | ⟨xs, z, hcc⟩
    · simp only [List.getLastD_nil, ne_eq, not_true_eq_false, ↓reduceIte] at hd
      unfold SET_PTR at hd
      rw [SUCC_PTR_eq (by omega)] at hd
      cases hst : store s.mem (y + 4) 0 with
      | error e => rw [hst] at hd; simp at hd
      | ok m1 =>
        rw [hst] at hd
        have e2 : load m1 b.addr = .ok y := by
          rw [load_store hst, if_neg (by omega)]; exact r1
        simp only [e2, pure, Except.pure, Except.ok.injEq] at hd
        subst hd
        refine ⟨store_brk hst, store_lo hst, store_hi hst, ?_, ?_, ?_, ?_, ?_⟩
        · simp [State.setList, bucket]
        · intro j hj
          simp [State.setList, bucket] at hj ⊢
          intro e; exact absurd e hj
        · intro z hz; simp at hz
        · intro y' hy'
          simp only [List.head?_cons, Option.some.injEq] at hy'
          subst hy'
          show load m1 (y + 4) = _
          rw [load_store hst, if_pos rfl]; rfl
        · intro q _ hq
          show load m1 q = _
          rw [load_store hst, if_neg (hq y rfl)]
    · rw [List.concat_eq_append] at hcc
      subst hcc
      have hz := hpos z (by rw [hxy]; simp)
      have hzs := hsep z (by rw [hxy]; simp)
      have hzy := hF.sep hL hk hk (show z ∈ F (bucket b.size) by rw [hxy]; simp)
        (show y ∈ F (bucket b.size) by rw [hxy]; simp)
      have e1 : (xs ++ [z]).getLastD 0 = z := by simp
      simp only [e1] at hd
      rw [if_pos (by omega)] at hd
      unfold SET_PTR PRED_PTR at hd
      rw [SUCC_PTR_eq (by omega)] at hd
      cases hst : store s.mem (y + 4) z with
      | error e => rw [hst] at hd; simp at hd
      | ok m1 =>
        rw [hst] at hd
        have e2 : load m1 b.addr = .ok y := by
          rw [load_store hst, if_neg (by omega)]; exact r1
        have e3 : load m1 (b.addr + 4) = .ok z := by
          rw [load_store hst, if_neg (by omega), r2, e1]
        simp only [e2, e3] at hd
        cases hst2 : store m1 z y with
        | error e => rw [hst2] at hd; simp at hd
        | ok m2 =>
          rw [hst2] at hd
          simp only [pure, Except.pure, Except.ok.injEq] at hd
          subst hd
          have hzlt : z < W32 := by omega
          have hylt : y < W32 := by omega
          refine ⟨by rw [store_brk hst2, store_brk hst], by rw [store_lo hst2, store_lo hst],
            by rw [store_hi hst2, store_hi hst], ?_, fun j _ => rfl, ?_, ?_, ?_⟩
          · show s.segregated_free_lists (bucket b.size) = _
            rw [hhead]
            cases xs <;> rfl
          · intro z' hz'
            simp only [List.getLast?_concat, Option.some.injEq] at hz'
            subst hz'
            show load m2 z = _
            rw [load_store hst2, if_pos rfl, Nat.mod_eq_of_lt hylt]; rfl
          · intro y' hy'
            simp only [List.head?_cons, Option.some.injEq] at hy'
            subst hy'
            show load m2 (y + 4) = _
            rw [Implicit.load_store2 hst hst2, if_neg (by omega), if_pos rfl, Nat.mod_eq_of_lt hzlt, e1]
          · intro q hq1 hq2
            simp only [List.getLast?_concat, ne_eq, Option.some.injEq] at hq1
            show load m2 q = _
            rw [Implicit.load_store2 hst hst2, if_neg (fun e => hq1 e.symm), if_neg (hq2 y rfl)]

end Seg

namespace Seg

/-- What `delete_node` does on a laid-out heap with well-formed lists: the node leaves its
list, and only link words of free blocks are rewritten. -/
theorem delete_node_spec {s s' : State} {h0 : Nat} {B : List Blk} {F : Nat → List Nat}
    {b : Blk} (hL : Layout s.mem h0 B) (hF : Lists s.mem s.segregated_free_lists B F)
    (hb : b ∈ B) (hbf : b.alloc = false) (hin : b.addr ∈ F (bucket b.size))
    (hd : delete_node s b.addr = .ok s') :
    Layout s'.mem h0 B ∧
    Lists s'.mem s'.segregated_free_lists B
      (Function.update F (bucket b.size) ((F (bucket b.size)).erase b.addr)) ∧
    s'.mem.brk = s.mem.brk ∧ s'.mem.lo = s.mem.lo ∧ s'.mem.hi = s.mem.hi ∧
    (∀ q, (∀ f ∈ B, f.alloc = false → q ≠ f.addr ∧ q ≠ f.addr + 4) →
      load s'.mem q = load s.mem q) := by
  have hk := bucket_lt b.size
  obtain ⟨xs, ys, hxy⟩ := List.append_of_mem hin
  obtain ⟨hbrk, hlo, hhi, hh1, hh2, E1, E2, E3⟩ := delete_node_mem hL hF hb hbf hxy hd
  have hnd := hF.nodup _ hk
  rw [hxy] at hnd
  have hnx : b.addr ∉ xs := fun h => by
    have := (List.nodup_append.mp hnd).2.2 h (List.mem_cons_self _ _)
    exact this
  have hndxy : (xs ++ ys).Nodup :=
    hnd.sublist (List.Sublist.append_left (List.sublist_cons_self _ _) _)
  have her : (F (bucket b.size)).erase b.addr = xs ++ ys := by
    rw [hxy, List.erase_append_right _ hnx, List.erase_cons_head]
  have hxin : ∀ x ∈ xs, x ∈ F (bucket b.size) := fun x hx => by rw [hxy]; simp [hx]
  have hyin : ∀ y ∈ ys, y ∈ F (bucket b.size) := fun y hy => by rw [hxy]; simp [hy]
  have hxyne : ∀ x ∈ xs, ∀ y ∈ ys, x ≠ y := fun x hx y hy e =>
    (List.nodup_append.mp hnd).2.2 hx (by rw [e]; simp [hy])
  have hlast : ∀ z, xs.getLast? = some z → z ∈ xs := fun z hz => List.mem_of_getLast?_eq_some hz
  have hhead : ∀ y, ys.head? = some y → y ∈ ys := fun y hy => List.mem_of_mem_head? hy
  have hfr : ∀ q, (∀ f ∈ B, f.alloc = false → q ≠ f.addr ∧ q ≠ f.addr + 4) →
      load s'.mem q = load s.mem q := by
    intro q hq
    apply E3
    · intro hz
      obtain ⟨f, hf, e, hff, _⟩ := hF.nodes _ hk q (hxin q (hlast q hz))
      exact (hq f hf hff).1 e.symm
    · intro y hy e
      obtain ⟨f, hf, e', hff, _⟩ := hF.nodes _ hk y (hyin y (hhead y hy))
      exact (hq f hf hff).2 (by rw [e, e'])
  refine ⟨hL.of_links hbrk hlo hhi hfr, ⟨?_, ?_, ?_, ?_⟩, hbrk, hlo, hhi, hfr⟩
  · intro j hj
    by_cases e : j = bucket b.size
    · subst e
      rw [Function.update_same, her]; exact hh1
    · rw [Function.update_noteq e, hh2 j e]; exact hF.heads j hj
  · intro j hj
    by_cases e : j = bucket b.size
    · subst e
      rw [Function.update_same, her, DLLseg_append]
      have hdll := hF.dll _ hk
      rw [hxy] at hdll
      obtain ⟨-, -, d1, d2⟩ := DLLseg_next hdll
      have sep := fun {a x : Nat} (ha : a ∈ F (bucket b.size)) (hx : x ∈ F (bucket b.size)) =>
        hF.sep hL hk hk ha hx
      constructor
      · refine DLLseg_set_nxt _ xs 0 _ (List.nodup_append.mp hndxy).1 ?_ ?_ E1 d1
        · intro x hx
          apply E3
          · intro hz
            have := sep (hxin _ (hlast _ hz)) (hxin x hx)
            omega
          · intro y hy e
            exact hxyne x hx y (hhead y hy) (by omega)
        · intro x hx hl
          apply E3 _ hl
          intro y hy e
          have := sep (hxin x hx) (hyin y (hhead y hy))
          omega
      · refine DLLseg_set_prev _ ys _ 0 (List.nodup_append.mp hndxy).2.1 ?_ ?_ E2 d2
        · intro y hy
          apply E3
          · intro hz
            exact hxyne y (hlast y hz) y hy rfl
          · intro y' hy' e
            have := sep (hyin y hy) (hyin y' (hhead y' hy'))
            omega
        · intro y hy hne
          apply E3
          · intro hz
            have := sep (hxin _ (hlast _ hz)) (hyin y hy)
            omega
          · intro y' hy' e
            apply hne
            rw [hy']
            congr 1
            omega
    · rw [Function.update_noteq e]
      refine DLLseg_frame _ _ _ (fun x hx => ⟨?_, ?_⟩) (hF.dll j hj)
      · apply E3
        · intro hz
          exact e (hF.bucket_eq hL hj hk hx (hxin x (hlast x hz)))
        · intro y hy e'
          have := hF.sep hL hj hk hx (hyin y (hhead y hy))
          omega
      · apply E3
        · intro hz
          have := hF.sep hL hj hk hx (hxin _ (hlast _ hz))
          omega
        · intro y hy e'
          have : x = y := by omega
          subst this
          exact e (hF.bucket_eq hL hj hk hx (hyin x (hhead x hy)))
  · intro j hj
    by_cases e : j = bucket b.size
    · subst e
      rw [Function.update_same]; exact (hF.nodup _ hk).erase _
    · rw [Function.update_noteq e]; exact hF.nodup j hj
  · intro j hj a ha
    by_cases e : j = bucket b.size
    · subst e
      rw [Function.update_same] at ha
      exact hF.nodes _ hk a (List.mem_of_mem_erase ha)
    · rw [Function.update_noteq e] at ha
      exact hF.nodes j hj a ha

end Seg


/-! ## Segregated variant: `insert_node` -/

namespace Seg

/-- The ordering loop of `insert_node` stops at the head of the list when the head is at
least as large as the shifted size. -/
theorem insertWalk_head {m : Mem} {fuel size hd : Nat} {r : Nat × Nat}
    (h : insertWalk m size fuel hd 0 = .ok r)
    (hsz : hd ≠ 0 → ∃ z, GET_SIZE m (HDRP hd) = .ok z ∧ size ≤ z) : r = (hd, 0) := by
  cases fuel with
  | zero => simp [insertWalk] at h
  | succ n =>
    unfold insertWalk at h
    by_cases h0 : hd ≠ 0
    · obtain ⟨z, hz, hle⟩ := hsz h0
      rw [if_pos h0, hz] at h
      simp only [bind, Except.bind] at h
      rw [if_neg (by omega)] at h
      simpa [pure, Except.pure] using h.symm
    · rw [if_neg h0] at h
      simpa [pure, Except.pure] using h.symm

/-- What `insert_node` does on a laid-out heap with well-formed lists, for a free block that
is in no list: the block becomes the head of the list of its bucket, and only link words of
free blocks are rewritten. -/
theorem insert_node_spec {fuel : Nat} {s s' : State} {h0 : Nat} {B : List Blk}
    {F : Nat → List Nat} {b : Blk} (hL : Layout s.mem h0 B)
    (hF : Lists s.mem s.segregated_free_lists B F) (hb : b ∈ B) (hbf : b.alloc = false)
    (hnin : b.addr ∉ F (bucket b.size)) (hi : insert_node fuel s b.addr b.size = .ok s') :
    Layout s'.mem h0 B ∧
    Lists s'.mem s'.segregated_free_lists B
      (Function.update F (bucket b.size) (b.addr :: F (bucket b.size))) ∧
    s'.mem.brk = s.mem.brk ∧ s'.mem.lo = s.mem.lo ∧ s'.mem.hi = s.mem.hi ∧
    (∀ q, (∀ f ∈ B, f.alloc = false → q ≠ f.addr ∧ q ≠ f.addr + 4) →
      load s'.mem q = load s.mem q) := by
  have hk := bucket_lt b.size
  have hbb := hL.bounds hb
  have h16 := hL.free16 b hb hbf
  have hhd := hF.heads _ hk
  -- the memory effect
  have key : s'.mem.brk = s.mem.brk ∧ s'.mem.lo = s.mem.lo ∧ s'.mem.hi = s.mem.hi ∧
      s'.segregated_free_lists (bucket b.size) = b.addr ∧
      (∀ j, j ≠ bucket b.size → s'.segregated_free_lists j = s.segregated_free_lists j) ∧
      load s'.mem b.addr = .ok ((F (bucket b.size)).headD 0) ∧
      load s'.mem (b.addr + 4) = .ok 0 ∧
      (∀ y, (F (bucket b.size)).head? = some y → load s'.mem (y + 4) = .ok b.addr) ∧
      (∀ q, q ≠ b.addr → q ≠ b.addr + 4 →
        (∀ y, (F (bucket b.size)).head? = some y → q ≠ y + 4) →
        load s'.mem q = load s.mem q) := by
    unfold insert_node at hi
    simp only [bind_ok_iff] at hi
    obtain ⟨r, hw, hi⟩ := hi
    have hr : r = (s.segregated_free_lists (bucket b.size), 0) := by
      refine insertWalk_head hw fun hne => ?_
      rw [hhd] at hne ⊢
      cases hfk : F (bucket b.size) with
      | nil => rw [hfk] at hne; simp at hne
      | cons y ys =>
        obtain ⟨c, hc, e, hcf, hcb⟩ := hF.nodes _ hk y (by rw [hfk]; simp)
        have hcc := hL.bounds hc
        have hc16 := hL.free16 c hc hcf
        have hch := hL.hdr c hc
        rw [Blk.tag_free hcf] at hch
        refine ⟨c.size, ?_, bucket_rest_le (by omega) hc16 hcb⟩
        simp only [List.headD_cons]
        rw [← e, seg_HDRP_eq (by omega) (by omega)]
        exact seg_GET_SIZE_tag hch hcc.2.2.2.1 (by decide)
    subst hr
    simp only [ne_eq, not_true_eq_false, ↓reduceIte] at hi
    unfold SET_PTR PRED_PTR at hi
    have eS : SUCC_PTR b.addr = b.addr + 4 := SUCC_PTR_eq (by omega)
    rw [eS] at hi
    rw [hhd] at hi
    cases hfk : F (bucket b.size) with
    | nil =>
      rw [hfk] at hi
      simp only [List.headD_nil, not_true_eq_false, ↓reduceIte, bind_ok_iff, pure_ok_iff] at hi
      obtain ⟨m1, hs1, m2, hs2, rfl⟩ := hi
      refine ⟨by rw [← store_brk hs1, ← store_brk hs2]; rfl,
        by rw [← store_lo hs1, ← store_lo hs2]; rfl,
        by rw [← store_hi hs1, ← store_hi hs2]; rfl, ?_, ?_, ?_, ?_, ?_, ?_⟩
      · simp [State.setList, bucket]
      · intro j hj
        simp [State.setList, bucket] at hj ⊢
        intro e; exact absurd e hj
      · show load m2 b.addr = _
        rw [Implicit.load_store2 hs1 hs2, if_neg (by omega), if_pos rfl]; rfl
      · show load m2 (b.addr + 4) = _
        rw [load_store hs2, if_pos rfl]; rfl
      · intro y hy; simp at hy
      · intro q h1 h2 _
        show load m2 q = _
        rw [Implicit.load_store2 hs1 hs2, if_neg h2, if_neg h1]
    | cons y ys =>
      rw [hfk] at hi
      obtain ⟨c, hc, e, hcf, hcb⟩ := hF.nodes _ hk y (by rw [hfk]; simp)
      have hcc := hL.bounds hc
      have hc16 := hL.free16 c hc hcf
      have hyb : y ≠ b.addr := fun e' => hnin (by rw [hfk, ← e']; simp)
      have hsep := hL.free_sep hc hb hcf hbf (by rw [e]; exact hyb)
      have hy0 : ¬ y = 0 := by omega
      simp only [List.headD_cons, hy0, not_false_eq_true, ↓reduceIte] at hi
      have eS2 : SUCC_PTR y = y + 4 := SUCC_PTR_eq (by omega)
      rw [eS2] at hi
      simp only [bind_ok_iff, pure_ok_iff] at hi
      obtain ⟨m1, hs1, m2, hs2, m3, hs3, rfl⟩ := hi
      have hylt : y < W32 := by omega
      have hblt : b.addr < W32 := by omega
      refine ⟨by rw [← store_brk hs1, ← store_brk hs2, ← store_brk hs3]; rfl,
        by rw [← store_lo hs1, ← store_lo hs2, ← store_lo hs3]; rfl,
        by rw [← store_hi hs1, ← store_hi hs2, ← store_hi hs3]; rfl, ?_, ?_, ?_, ?_, ?_, ?_⟩
      · simp [State.setList, bucket]
      · intro j hj
        simp [State.setList, bucket] at hj ⊢
        intro e; exact absurd e hj
      · show load m3 b.addr = _
        rw [load_store hs3, if_neg (by omega), Implicit.load_store2 hs1 hs2, if_neg (by omega),
          if_pos rfl, Nat.mod_eq_of_lt hylt]; rfl
      · show load m3 (b.addr + 4) = _
        rw [load_store hs3, if_pos rfl]; rfl
      · intro y' hy'
        simp only [List.head?_cons, Option.some.injEq] at hy'
        subst hy'
        show load m3 (y + 4) = _
        rw [load_store hs3, if_neg (by omega), load_store hs2, if_pos rfl,
          Nat.mod_eq_of_lt hblt]
      · intro q h1 h2 h3
        show load m3 q = _
        rw [load_store hs3, if_neg h2, Implicit.load_store2 hs1 hs2, if_neg (h3 y rfl),
          if_neg h1]
  obtain ⟨hbrk, hlo, hhi, hh1, hh2, I1, I2, I3, I4⟩ := key
  have hhead : ∀ y, (F (bucket b.size)).head? = some y → y ∈ F (bucket b.size) :=
    fun y hy => List.mem_of_mem_head? hy
  have hfr : ∀ q, (∀ f ∈ B, f.alloc = false → q ≠ f.addr ∧ q ≠ f.addr + 4) →
      load s'.mem q = load s.mem q := by
    intro q hq
    apply I4 _ (hq b hb hbf).1 (hq b hb hbf).2
    intro y hy e
    obtain ⟨f, hf, e', hff, _⟩ := hF.nodes _ hk y (hhead y hy)
    exact (hq f hf hff).2 (by rw [e, e'])
  have hsepb : ∀ j, j < 20 → ∀ a ∈ F j, a ≠ b.addr → a + 16 ≤ b.addr ∨ b.addr + 16 ≤ a := by
    intro j hj a ha hne
    obtain ⟨f, hf, e, hff, _⟩ := hF.nodes j hj a ha
    rw [← e] at hne ⊢
    exact hL.free_sep hf hb hff hbf hne
  have hneb : ∀ j, j < 20 → ∀ a ∈ F j, a ≠ b.addr := by
    intro j hj a ha e
    obtain ⟨f, hf, e', hff, hfb⟩ := hF.nodes j hj a ha
    have := hL.addr_inj hb hf (by rw [e', e]) (by omega)
    subst this
    apply hnin
    rw [hfb, ← e]
    exact ha
  refine ⟨hL.of_links hbrk hlo hhi hfr, ⟨?_, ?_, ?_, ?_⟩, hbrk, hlo, hhi, hfr⟩
  · intro j hj
    by_cases e : j = bucket b.size
    · subst e
      rw [Function.update_same]; exact hh1
    · rw [Function.update_noteq e, hh2 j e]; exact hF.heads j hj
  · intro j hj
    by_cases e : j = bucket b.size
    · subst e
      rw [Function.update_same]
      refine ⟨I2, I1, ?_⟩
      refine DLLseg_set_prev _ _ 0 0 (hF.nodup _ hk) ?_ ?_ I3 (hF.dll _ hk)
      · intro y hy
        apply I4 _ (hneb _ hk y hy)
        · have := hsepb _ hk y hy (hneb _ hk y hy); omega
        · intro y' hy' e'
          have := hF.sep hL hk hk hy (hhead y' hy')
          omega
      · intro y hy hne
        apply I4
        · have := hsepb _ hk y hy (hneb _ hk y hy); omega
        · have := hneb _ hk y hy; omega
        · intro y' hy' e'
          apply hne
          rw [hy']; congr 1; omega
    · rw [Function.update_noteq e]
      refine DLLseg_frame _ _ _ (fun x hx => ⟨?_, ?_⟩) (hF.dll j hj)
      · apply I4 _ (hneb j hj x hx)
        · have := hsepb j hj x hx (hneb j hj x hx); omega
        · intro y hy e'
          have := hF.sep hL hj hk hx (hhead y hy)
          omega
      · apply I4
        · have := hsepb j hj x hx (hneb j hj x hx); omega
        · have := hneb j hj x hx; omega
        · intro y hy e'
          have : x = y := by omega
          subst this
          exact e (hF.bucket_eq hL hj hk hx (hhead x hy))
  · intro j hj
    by_cases e : j = bucket b.size
    · subst e
      rw [Function.update_same]; exact List.nodup_cons.mpr ⟨hnin, hF.nodup _ hk⟩
    · rw [Function.update_noteq e]; exact hF.nodup j hj
  · intro j hj a ha
    by_cases e : j = bucket b.size
    · subst e
      rw [Function.update_same] at ha
      rcases List.mem_cons.mp ha with rfl | ha
      · exact ⟨b, hb, rfl, hbf, rfl⟩
      · exact hF.nodes _ hk a ha
    · rw [Function.update_noteq e] at ha
      exact hF.nodes j hj a ha

end Seg


/-! ## Segregated variant: rewriting a span of blocks -/

namespace Seg

/-- Replacing a span `X` in the middle of a laid-out heap by a span `X'` over the same
bytes, when memory outside the span is unchanged. -/
theorem Layout.lay_replace {m m' : Mem} {h0 : Nat} {L X X' R : List Blk} {x y : Nat}
    (h : Layout m h0 (L ++ X ++ R)) (hLne : L ≠ []) (hRne : R ≠ [])
    (hL : Tiles h0 L x) (hR : Tiles y R m.brk)
    (hX' : Tiles x X' y) (hX'8 : ∀ b ∈ X', 8 ≤ b.size)
    (hm : m'.brk = m.brk ∧ m'.lo = m.lo ∧ m'.hi = m.hi)
    (hfr : ∀ q, (q + 8 ≤ x ∨ y ≤ q + 4) → load m' q = load m q)
    (htags : ∀ b ∈ X', load m' (b.addr - 4) = .ok b.tag ∧
      GET_SIZE m' (b.addr + b.size - 8) = .ok b.size)
    (hfree : ∀ b ∈ X', b.alloc = false → 16 ≤ b.size) :
    Layout m' h0 (L ++ X' ++ R) := by
  obtain ⟨hm1, hm2, hm3⟩ := hm
  have hL8 : ∀ b ∈ L, 8 ≤ b.size := by
    have := h.tiles
    rw [List.append_assoc, tiles_append L (X ++ R) _ _ (by simp [hRne])] at this
    exact this.choose_spec.2.2
  have hmem : ∀ b, b ∈ L ++ R → b ∈ L ++ X ++ R := by
    intro b hb
    simp only [List.mem_append] at hb ⊢
    tauto
  have h8 : 8 ≤ h0 := by have := h.h0_ge; omega
  have key : ∀ b ∈ L ++ R, (b.addr - 4 + 8 ≤ x ∨ y ≤ b.addr - 4 + 4) ∧
      (b.size ≠ 0 → (b.addr + b.size - 8 + 8 ≤ x ∨ y ≤ b.addr + b.size - 8 + 4)) := by
    intro b hb
    rcases List.mem_append.mp hb with hb | hb
    · have h1 := tiles_mem L _ _ hL b hb
      have h2 := hL8 b hb
      exact ⟨Or.inl (by omega), fun _ => Or.inl (by omega)⟩
    · have h1 := tiles_mem R _ _ hR b hb
      exact ⟨Or.inr (by omega), fun h0 => Or.inr (by omega)⟩
  refine ⟨by rw [hm3]; exact h.hi_lt, by rw [hm1, hm3]; exact h.brk_le,
    by rw [hm2]; exact h.h0_ge, ?_, ?_, ?_, ?_, ?_, ?_⟩
  · have := h.head
    cases L with
    | nil => exact absurd rfl hLne
    | cons a L => simpa using this
  · have := h.last
    rw [hm1]
    rw [List.getLast?_append_of_ne_nil _ hRne] at this ⊢
    exact this
  · rw [hm1, List.append_assoc, tiles_append L (X' ++ R) _ _ (by simp [hRne])]
    refine ⟨x, hL, ?_, hL8⟩
    rw [tiles_append X' R _ _ hRne]
    exact ⟨y, hX', hR, hX'8⟩
  · intro b hb
    simp only [List.mem_append] at hb
    rcases hb with (hb | hb) | hb
    · rw [hfr _ (key b (List.mem_append_left _ hb)).1]
      exact h.hdr b (hmem b (List.mem_append_left _ hb))
    · exact (htags b hb).1
    · rw [hfr _ (key b (List.mem_append_right _ hb)).1]
      exact h.hdr b (hmem b (List.mem_append_right _ hb))
  · intro b hb h0
    simp only [List.mem_append] at hb
    rcases hb with (hb | hb) | hb
    · rw [GET_SIZE_congr (hfr _ ((key b (List.mem_append_left _ hb)).2 h0))]
      exact h.ftr b (hmem b (List.mem_append_left _ hb)) h0
    · exact (htags b hb).2
    · rw [GET_SIZE_congr (hfr _ ((key b (List.mem_append_right _ hb)).2 h0))]
      exact h.ftr b (hmem b (List.mem_append_right _ hb)) h0
  · intro b hb hbf
    simp only [List.mem_append] at hb
    rcases hb with (hb | hb) | hb
    · exact h.free16 b (hmem b (List.mem_append_left _ hb)) hbf
    · exact hfree b hb hbf
    · exact h.free16 b (hmem b (List.mem_append_right _ hb)) hbf

/-- The lists survive the rewriting of a span that holds none of their nodes. -/
theorem Lists.lists_replace {m m' : Mem} {hd : Nat → Nat} {h0 : Nat} {L X X' R : List Blk}
    {F : Nat → List Nat} {x y : Nat}
    (h : Layout m h0 (L ++ X ++ R)) (hF : Lists m hd (L ++ X ++ R) F)
    (hL : Tiles h0 L x) (hR : Tiles y R m.brk)
    (hfr : ∀ q, (q + 8 ≤ x ∨ y ≤ q + 4) → load m' q = load m q)
    (hX : ∀ f ∈ X, f.alloc = false → f.addr ∉ F (bucket f.size)) :
    Lists m' hd (L ++ X' ++ R) F := by
  have key : ∀ k, k < 20 → ∀ a ∈ F k, ∃ b, (b ∈ L ∨ b ∈ R) ∧ b.addr = a ∧ b.alloc = false ∧
      bucket b.size = k := by
    intro k hk a ha
    obtain ⟨b, hb, e, hbf, hbk⟩ := hF.nodes k hk a ha
    simp only [List.mem_append] at hb
    rcases hb with (hb | hb) | hb
    · exact ⟨b, Or.inl hb, e, hbf, hbk⟩
    · exfalso
      apply hX b hb hbf
      rw [hbk, e]; exact ha
    · exact ⟨b, Or.inr hb, e, hbf, hbk⟩
  refine hF.of_frame (fun k hk a ha => ?_) (fun k hk a ha => ?_)
  · obtain ⟨b, hb, e, hbf, _⟩ := key k hk a ha
    rcases hb with hb | hb
    · have h1 := tiles_mem L _ _ hL b hb
      have h2 := h.free16 b (by simp [hb]) hbf
      exact ⟨hfr _ (Or.inl (by omega)), hfr _ (Or.inl (by omega))⟩
    · have h1 := tiles_mem R _ _ hR b hb
      exact ⟨hfr _ (Or.inr (by omega)), hfr _ (Or.inr (by omega))⟩
  · obtain ⟨b, hb, e, hbf, hbk⟩ := key k hk a ha
    refine ⟨b, ?_, e, hbf, hbk⟩
    simp only [List.mem_append]
    tauto

/-- Membership in the lists after a node was taken out. -/
theorem mem_update_erase {F : Nat → List Nat} {k a j x : Nat} (hnd : (F k).Nodup) :
    x ∈ Function.update F k ((F k).erase a) j ↔ x ∈ F j ∧ ¬ (j = k ∧ x = a) := by
  by_cases e : j = k
  · subst e
    rw [Function.update_same, hnd.mem_erase_iff]
    tauto
  · rw [Function.update_noteq e]
    tauto

/-- Membership in the lists after a node was put in. -/
theorem mem_update_cons {F : Nat → List Nat} {k a j x : Nat} :
    x ∈ Function.update F k (a :: F k) j ↔ x ∈ F j ∨ (j = k ∧ x = a) := by
  by_cases e : j = k
  · subst e
    rw [Function.update_same, List.mem_cons]
    tauto
  · rw [Function.update_noteq e]
    tauto

end Seg


/-! ## Segregated variant: the steps of an operation -/

namespace Seg

theorem WF.part {s : State} {h0 : Nat} {B : List Blk} {F : Nat → List Nat} (h : WF s h0 B F) :
    Part s h0 B F [] :=
  ⟨h.layout, h.lists, fun b hb hbf => Or.inr (h.complete b hb hbf), fun _ _ _ _ => by simp⟩

theorem Part.wf {s : State} {h0 : Nat} {B : List Blk} {F : Nat → List Nat}
    (h : Part s h0 B F []) : WF s h0 B F :=
  ⟨h.layout, h.lists, fun b hb hbf => by simpa using h.complete b hb hbf⟩

/-- A word outside the free blocks is no link word. -/
theorem Outside.not_link {m : Mem} {h0 : Nat} {B : List Blk} (hL : Layout m h0 B) {q : Nat}
    (hq : Outside B q) : ∀ f ∈ B, f.alloc = false → q ≠ f.addr ∧ q ≠ f.addr + 4 := by
  intro f hf hff
  have := hL.free16 f hf hff
  have := hq f hf hff
  omega

/-- The payload words of an allocated block lie outside the free blocks and below the last
word of the heap. -/
theorem Layout.payload_outside {m : Mem} {h0 : Nat} {B : List Blk} (hL : Layout m h0 B)
    {c : Blk} (hc : c ∈ B) (hca : c.alloc = true) {q : Nat} (h1 : c.addr ≤ q)
    (h2 : q + 8 ≤ c.addr + c.size) : Outside B q ∧ q + 8 ≤ m.brk := by
  have bc := hL.bounds hc
  refine ⟨fun f hf hff => ?_, by omega⟩
  rcases tiles_disjoint _ _ _ hL.tiles c hc f hf with rfl | h3 | h3
  · rw [hca] at hff; exact absurd hff (by decide)
  · omega
  · omega

/-- Taking a free block out of its list. -/
theorem Part.delete {s s' : State} {h0 : Nat} {B : List Blk} {F : Nat → List Nat}
    {D : List Nat} {b : Blk} (h : Part s h0 B F D) (hb : b ∈ B) (hbf : b.alloc = false)
    (hnD : b.addr ∉ D) (hd : delete_node s b.addr = .ok s') :
    ∃ F', Part s' h0 B F' (b.addr :: D) ∧
      s'.mem.brk = s.mem.brk ∧ s'.mem.lo = s.mem.lo ∧ s'.mem.hi = s.mem.hi ∧
      (∀ q, Outside B q → load s'.mem q = load s.mem q) := by
  have hk := bucket_lt b.size
  have hin : b.addr ∈ F (bucket b.size) := by
    rcases h.complete b hb hbf with h1 | h1
    · exact absurd h1 hnD
    · exact h1
  obtain ⟨hL', hF', hbrk, hlo, hhi, hfr⟩ := delete_node_spec h.layout h.lists hb hbf hin hd
  refine ⟨_, ⟨hL', hF', ?_, ?_⟩, hbrk, hlo, hhi, fun q hq => hfr q (hq.not_link h.layout)⟩
  · intro c hc hcf
    rcases h.complete c hc hcf with h1 | h1
    · exact Or.inl (List.mem_cons_of_mem _ h1)
    · by_cases e : c.addr = b.addr
      · exact Or.inl (by rw [e]; exact List.mem_cons_self _ _)
      · refine Or.inr ?_
        rw [mem_update_erase (h.lists.nodup _ hk)]
        exact ⟨h1, fun hh => e hh.2⟩
  · intro k hk' a ha
    rw [mem_update_erase (h.lists.nodup _ hk)] at ha
    intro hmem
    rcases List.mem_cons.mp hmem with e | e
    · subst e
      exact ha.2 ⟨h.lists.bucket_eq h.layout hk' hk ha.1 hin, rfl⟩
    · exact h.unlinked k hk' a ha.1 e

/-- Putting an unlinked free block into the list of its bucket. -/
theorem Part.insert {fuel : Nat} {s s' : State} {h0 : Nat} {B : List Blk} {F : Nat → List Nat}
    {D : List Nat} {b : Blk} (D' : List Nat) (h : Part s h0 B F D) (hb : b ∈ B)
    (hbf : b.alloc = false) (hD : b.addr ∈ D) (hD' : ∀ x, x ∈ D' ↔ x ∈ D ∧ x ≠ b.addr)
    (hi : insert_node fuel s b.addr b.size = .ok s') :
    ∃ F', Part s' h0 B F' D' ∧
      s'.mem.brk = s.mem.brk ∧ s'.mem.lo = s.mem.lo ∧ s'.mem.hi = s.mem.hi ∧
      (∀ q, Outside B q → load s'.mem q = load s.mem q) := by
  have hk := bucket_lt b.size
  have h16 := h.layout.free16 b hb hbf
  have hnin : b.addr ∉ F (bucket b.size) := fun hh => h.unlinked _ hk _ hh hD
  obtain ⟨hL', hF', hbrk, hlo, hhi, hfr⟩ := insert_node_spec h.layout h.lists hb hbf hnin hi
  refine ⟨_, ⟨hL', hF', ?_, ?_⟩, hbrk, hlo, hhi, fun q hq => hfr q (hq.not_link h.layout)⟩
  · intro c hc hcf
    by_cases e : c.addr = b.addr
    · have := h.layout.addr_inj hb hc e.symm (by omega)
      subst this
      refine Or.inr ?_
      rw [mem_update_cons]
      exact Or.inr ⟨rfl, rfl⟩
    · rcases h.complete c hc hcf with h1 | h1
      · exact Or.inl ((hD' _).mpr ⟨h1, e⟩)
      · refine Or.inr ?_
        rw [mem_update_cons]
        exact Or.inl h1
  · intro k hk' a ha
    rw [mem_update_cons] at ha
    rw [hD']
    rcases ha with h1 | h1
    · exact fun hh => h.unlinked k hk' a h1 hh.1
    · exact fun hh => hh.2 h1.2

/-- The three parts of the tiling of a layout. -/
theorem Layout.split {m : Mem} {h0 : Nat} {L X R : List Blk} (h : Layout m h0 (L ++ X ++ R))
    (hRne : R ≠ []) : ∃ x y, Tiles h0 L x ∧ Tiles x X y ∧ Tiles y R m.brk ∧
      (∀ b ∈ L, 8 ≤ b.size) ∧ (∀ b ∈ X, 8 ≤ b.size) ∧ 8 ≤ h0 ∧ h0 ≤ x ∧ x ≤ y ∧ y ≤ m.brk ∧
      m.brk < W32 := by
  have hT := h.tiles
  rw [List.append_assoc, tiles_append L (X ++ R) _ _ (by simp [hRne])] at hT
  obtain ⟨x, hTL, hT2, hL8⟩ := hT
  rw [tiles_append X R _ _ hRne] at hT2
  obtain ⟨y, hTX, hTR, hX8⟩ := hT2
  have := tiles_le _ _ _ hTL
  have := tiles_le _ _ _ hTX
  have := tiles_le _ _ _ hTR
  have := h.h0_ge
  exact ⟨x, y, hTL, hTX, hTR, hL8, hX8, by omega, by omega, by omega, by omega, h.lt_brk⟩

/-- Rewriting the tags of a span whose free blocks are all unlinked. -/
theorem Part.part_replace {s : State} {h0 : Nat} {L X X' R : List Blk} {F : Nat → List Nat}
    {D : List Nat} {m' : Mem} {x y : Nat} (D' : List Nat)
    (h : Part s h0 (L ++ X ++ R) F D) (hLne : L ≠ []) (hRne : R ≠ [])
    (hL : Tiles h0 L x) (hR : Tiles y R s.mem.brk)
    (hX' : Tiles x X' y) (hX'8 : ∀ b ∈ X', 8 ≤ b.size)
    (hm : m'.brk = s.mem.brk ∧ m'.lo = s.mem.lo ∧ m'.hi = s.mem.hi)
    (hfr : ∀ q, (q + 8 ≤ x ∨ y ≤ q + 4) → load m' q = load s.mem q)
    (htags : ∀ b ∈ X', load m' (b.addr - 4) = .ok b.tag ∧
      GET_SIZE m' (b.addr + b.size - 8) = .ok b.size)
    (hfree : ∀ b ∈ X', b.alloc = false → 16 ≤ b.size)
    (hXD : ∀ f ∈ X, f.alloc = false → f.addr ∈ D)
    (hDin : ∀ a ∈ D, x ≤ a ∧ a < y)
    (hD' : ∀ f ∈ X', f.alloc = false → f.addr ∈ D')
    (hD'in : ∀ a ∈ D', x ≤ a ∧ a < y) :
    Part { s with mem := m' } h0 (L ++ X' ++ R) F D' := by
  have hL8 : ∀ b ∈ L, 8 ≤ b.size := (h.layout.split hRne).choose_spec.choose_spec.2.2.2.1
  have hout : ∀ c, c ∈ L ∨ c ∈ R → c.alloc = false → c.addr < x ∨ y ≤ c.addr := by
    intro c hc hcf
    rcases hc with hc | hc
    · have h1 := tiles_mem L _ _ hL c hc
      have h2 := hL8 c hc
      omega
    · have h1 := tiles_mem R _ _ hR c hc
      omega
  have hXF : ∀ f ∈ X, f.alloc = false → f.addr ∉ F (bucket f.size) :=
    fun f hf hff hh => h.unlinked _ (bucket_lt _) _ hh (hXD f hf hff)
  refine ⟨h.layout.lay_replace hLne hRne hL hR hX' hX'8 hm hfr htags hfree,
    h.lists.lists_replace h.layout hL hR hfr hXF, ?_, ?_⟩
  · intro c hc hcf
    simp only [List.mem_append] at hc
    have hin : c ∈ L ∨ c ∈ R → c.addr ∈ D' ∨ c.addr ∈ F (bucket c.size) := by
      intro hc'
      have hcB : c ∈ L ++ X ++ R := by
        simp only [List.mem_append]; tauto
      rcases h.complete c hcB hcf with h1 | h1
      · have := hDin _ h1
        have := hout c hc' hcf
        omega
      · exact Or.inr h1
    rcases hc with (hc | hc) | hc
    · exact hin (Or.inl hc)
    · exact Or.inl (hD' c hc hcf)
    · exact hin (Or.inr hc)
  · intro k hk a ha hh
    obtain ⟨c, hc, e, hcf, hck⟩ := h.lists.nodes k hk a ha
    simp only [List.mem_append] at hc
    have := hD'in a hh
    rcases hc with (hc | hc) | hc
    · have := hout c (Or.inl hc) hcf
      omega
    · apply hXF c hc hcf
      rw [hck, e]; exact ha
    · have := hout c (Or.inr hc) hcf
      omega

end Seg


/-! ## Segregated variant: `coalesce` -/

theorem ok_bind {ε α β : Type} (a : α) (f : α → Except ε β) : (Except.ok a >>= f) = f a := rfl

namespace Seg

/-- The facts that a layout gives about three consecutive blocks. -/
theorem Layout.triple {m : Mem} {h0 : Nat} {L R : List Blk} {p b n : Blk}
    (h : Layout m h0 (L ++ p :: b :: n :: R)) :
    Tiles h0 L p.addr ∧ (∀ x ∈ L, 8 ≤ x.size) ∧ 8 ≤ h0 ∧ h0 ≤ p.addr ∧
      p.size % 8 = 0 ∧ 8 ≤ p.size ∧
      b.addr = p.addr + p.size ∧ b.size % 8 = 0 ∧ 8 ≤ b.size ∧
      n.addr = b.addr + b.size ∧ n.size % 8 = 0 ∧ (R ≠ [] → 8 ≤ n.size) ∧
      Tiles (n.addr + n.size) R m.brk ∧
      n.addr + n.size ≤ m.brk ∧ m.brk < W32 ∧
      load m (p.addr - 4) = .ok p.tag ∧ load m (b.addr - 4) = .ok b.tag ∧
      load m (n.addr - 4) = .ok n.tag ∧ GET_SIZE m (b.addr - 8) = .ok p.size ∧
      (p.alloc = false → L ≠ []) ∧ (n.alloc = false → R ≠ []) := by
  have hT := h.tiles
  rw [tiles_append L _ _ _ (by simp)] at hT
  obtain ⟨c0, hTL, hT2, hL8⟩ := hT
  simp only [Tiles, ne_eq, reduceCtorEq, not_false_eq_true, forall_const] at hT2
  obtain ⟨hp1, hp2, hp3, hb1, hb2, hb3, hn1, hn2, hn3, hTR⟩ := hT2
  subst hp1
  have h1 := tiles_le _ _ _ hTL
  have h2 := tiles_le _ _ _ hTR
  have h3 := h.h0_ge
  have h4 := h.lt_brk
  have hf := h.ftr p (by simp) (by omega)
  rw [show p.addr + p.size - 8 = b.addr - 8 by omega] at hf
  refine ⟨hTL, hL8, by omega, h1, hp2, hp3, hb1, hb2, hb3, by omega, hn2, hn3, ?_, ?_, h4,
    h.hdr p (by simp), h.hdr b (by simp), h.hdr n (by simp), hf, ?_, ?_⟩
  · rw [show n.addr + n.size = p.addr + p.size + b.size + n.size by omega]; exact hTR
  · omega
  · intro hpf hL
    subst hL
    have := h.head
    simp only [List.nil_append, List.head?_cons, Option.some.injEq] at this
    rw [this] at hpf
    simp at hpf
  · intro hnf hR
    subst hR
    have := h.last
    rw [show L ++ [p, b, n] = (L ++ [p, b]) ++ [n] by simp, List.getLast?_concat] at this
    simp only [Option.some.injEq] at this
    rw [this] at hnf
    simp at hnf

/-- The end of every merging case of `coalesce`: the span from `x` to `y`, whose blocks are
free and unlinked, has received the header and the footer of one free block, which is then
inserted. -/
theorem Part.merge {fuel : Nat} {s s' : State} {h0 : Nat} {L X R : List Blk}
    {F : Nat → List Nat} {D : List Nat} {m' : Mem} {x y : Nat}
    (h : Part s h0 (L ++ X ++ R) F D) (hLne : L ≠ []) (hRne : R ≠ [])
    (hL : Tiles h0 L x) (hR : Tiles y R s.mem.brk) (hxy : x + 16 ≤ y) (h8 : (y - x) % 8 = 0)
    (hXD : ∀ f ∈ X, f.alloc = false → f.addr ∈ D) (hDin : ∀ a ∈ D, x ≤ a ∧ a < y)
    (hm : m'.brk = s.mem.brk ∧ m'.lo = s.mem.lo ∧ m'.hi = s.mem.hi)
    (hfr : ∀ q, q ≠ x - 4 → q ≠ y - 8 → load m' q = load s.mem q)
    (hh : load m' (x - 4) = .ok (y - x + 0)) (hf : GET_SIZE m' (y - 8) = .ok (y - x))
    (hi : insert_node fuel { s with mem := m' } x (y - x) = .ok s') :
    ∃ F', WF s' h0 (L ++ [⟨x, y - x, false⟩] ++ R) F' ∧
      s'.mem.brk = s.mem.brk ∧ s'.mem.lo = s.mem.lo ∧ s'.mem.hi = s.mem.hi ∧
      (∀ q, Outside (L ++ R) q → (q + 8 ≤ x ∨ y ≤ q + 4) → load s'.mem q = load s.mem q) := by
  have h8' : 8 ≤ h0 := by have := h.layout.h0_ge; omega
  have hx := tiles_le _ _ _ hL
  have hP := @Part.part_replace _ _ _ _ [⟨x, y - x, false⟩] _ _ _ _ _ _ [x] h hLne hRne hL hR
    (by simp only [Tiles]; exact ⟨trivial, h8, fun _ => by omega, by omega⟩)
    (by intro b hb; simp only [List.mem_singleton] at hb; subst hb; show 8 ≤ y - x; omega)
    hm (fun q hq => hfr q (by omega) (by omega))
    (by
      intro b hb; simp only [List.mem_singleton] at hb; subst hb
      exact ⟨hh, by rw [show x + (y - x) - 8 = y - 8 by omega]; exact hf⟩)
    (by intro b hb _; simp only [List.mem_singleton] at hb; subst hb; show 16 ≤ y - x; omega)
    hXD hDin (by intro b hb _; simp only [List.mem_singleton] at hb; subst hb; simp)
    (by intro a ha; simp only [List.mem_singleton] at ha; subst ha; omega)
  obtain ⟨F', hP', hbrk, hlo, hhi, hfr'⟩ := Part.insert (b := ⟨x, y - x, false⟩) [] hP
    (by simp) rfl (by simp) (by simp) hi
  refine ⟨F', hP'.wf, by rw [hbrk]; exact hm.1, by rw [hlo]; exact hm.2.1,
    by rw [hhi]; exact hm.2.2, fun q hq1 hq2 => ?_⟩
  rw [hfr' q, hfr q (by omega) (by omega)]
  intro f hf hff
  simp only [List.mem_append, List.mem_singleton] at hf
  rcases hf with (hf | hf) | hf
  · exact hq1 f (by simp [hf]) hff
  · subst hf
    show q + 8 ≤ x ∨ x + (y - x) ≤ q + 4
    omega
  · exact hq1 f (by simp [hf]) hff

end Seg

namespace Seg

theorem Outside.mono {B B' : List Blk} {q : Nat} (h : Outside B q)
    (hs : ∀ f ∈ B', f.alloc = false → f ∈ B) : Outside B' q :=
  fun f hf hff => h f (hs f hf hff) hff

/-- Case 2 of `coalesce`: the block after `b` is free, the one before is not. -/
theorem coalesce_next {fuel : Nat} {s s' : State} {h0 : Nat} {L R : List Blk} {p b n : Blk}
    {F : Nat → List Nat} {r : Nat}
    (h : WF s h0 (L ++ p :: b :: n :: R) F) (hbf : b.alloc = false) (hnf : n.alloc = false)
    (hc : (do
      let s ← delete_node s b.addr
      let next ← NEXT_BLKP s.mem b.addr
      let s ← delete_node s next
      let next ← NEXT_BLKP s.mem b.addr
      let nsz ← GET_SIZE s.mem (HDRP next)
      let m ← PUT s.mem (HDRP b.addr) (PACK (add32 b.size nsz) 0)
      let f ← FTRP m b.addr
      let m ← PUT m f (PACK (add32 b.size nsz) 0)
      let s ← insert_node fuel { s with mem := m } b.addr (add32 b.size nsz)
      pure (s, b.addr) : Except Err (State × Nat)) = .ok (s', r)) :
    ∃ F', WF s' h0 (L ++ p :: ⟨b.addr, b.size + n.size, false⟩ :: R) F' ∧ r = b.addr ∧
      s'.mem.brk = s.mem.brk ∧ s'.mem.lo = s.mem.lo ∧ s'.mem.hi = s.mem.hi ∧
      (∀ q, Outside (L ++ p :: b :: n :: R) q → load s'.mem q = load s.mem q) := by
  simp only [bind_ok_iff, pure_ok_iff] at hc
  obtain ⟨s1, hd1, nx1, hn1, s2, hd2, nx2, hn2, nsz, hsz, m3, hp3, f, hf, m4, hp4, s5, hi5,
    hres⟩ := hc
  obtain ⟨rfl, rfl⟩ := Prod.mk.inj hres
  obtain ⟨hTL, hL8, h8, hp0, hp8, hp8', hba, hb8, hb8', hna, hn8, hn8', hTR, hle, hlt, -, -, -,
    -, -, hRne⟩ := h.layout.triple
  have hRne := hRne hnf
  have hb16 := h.layout.free16 b (by simp) hbf
  have hn16 := h.layout.free16 n (by simp) hnf
  -- first deletion
  obtain ⟨F1, P1, hb1, hl1, hh1, fr1⟩ := h.part.delete (b := b) (by simp) hbf (by simp) hd1
  have hhb1 := P1.layout.hdr b (by simp)
  rw [Blk.tag_free hbf] at hhb1
  have e1 : NEXT_BLKP s1.mem b.addr = .ok n.addr := by
    rw [hna]; exact seg_NEXT_BLKP_tag hhb1 hb8 (by decide) (by omega) (by omega)
  obtain rfl := ok_inj e1 hn1
  -- second deletion
  obtain ⟨F2, P2, hb2, hl2, hh2, fr2⟩ := P1.delete (b := n) (by simp) hnf
    (by simp; omega) hd2
  have hhb2 := P2.layout.hdr b (by simp)
  rw [Blk.tag_free hbf] at hhb2
  have hhn2 := P2.layout.hdr n (by simp)
  rw [Blk.tag_free hnf] at hhn2
  have e2 : NEXT_BLKP s2.mem b.addr = .ok n.addr := by
    rw [hna]; exact seg_NEXT_BLKP_tag hhb2 hb8 (by decide) (by omega) (by omega)
  obtain rfl := ok_inj e2 hn2
  rw [seg_HDRP_eq (by omega) (by omega)] at hsz
  obtain rfl := ok_inj (seg_GET_SIZE_tag hhn2 hn8 (by decide)) hsz
  -- the tags of the merged block
  have ey : n.addr + n.size - b.addr = b.size + n.size := by omega
  rw [add32_eq (by omega), seg_PACK_eq (by omega) (by decide), ← ey] at hp3 hp4
  rw [add32_eq (by omega), ← ey] at hi5
  rw [seg_HDRP_eq (by omega) (by omega)] at hp3
  have hst3 := PUT_tag hhb2 hb8 (by decide) hp3
  have hh3 : load m3 (b.addr - 4) = .ok (n.addr + n.size - b.addr + 0) := by
    rw [load_store hst3, if_pos rfl, Nat.mod_eq_of_lt (by omega)]
  obtain rfl := ok_inj (seg_FTRP_tag hh3 (by omega) (by decide) (by omega) (by omega)) hf
  rw [show b.addr + (n.addr + n.size - b.addr) - 8 = n.addr + n.size - 8 by omega] at hp4
  obtain ⟨hf4, hb4, hl4, hi4, fr4⟩ := PUT_size (by omega) (by decide) (by omega) hp4
  have eB : L ++ p :: b :: n :: R = (L ++ [p]) ++ [b, n] ++ R := by simp
  rw [eB] at P2
  have hTL' : Tiles h0 (L ++ [p]) b.addr := by
    rw [tiles_append L [p] _ _ (by simp)]
    exact ⟨p.addr, hTL, by simp only [Tiles]; exact ⟨trivial, hp8, fun h => absurd rfl h, by omega⟩,
      hL8⟩
  obtain ⟨F', hW, hb5, hl5, hh5, fr5⟩ := @Part.merge _ _ _ _ _ _ _ _ _ m4 _ _ P2 (by simp) hRne hTL'
    (by rw [hb2, hb1]; exact hTR) (by omega) (by omega)
    (by
      intro f hf _
      simp only [List.mem_cons, List.mem_singleton, List.not_mem_nil, or_false] at hf
      rcases hf with rfl | rfl <;> simp)
    (by
      intro a ha
      simp only [List.mem_cons, List.mem_singleton, List.not_mem_nil, or_false] at ha
      rcases ha with rfl | rfl <;> omega)
    ⟨by rw [hb4, store_brk hst3], by rw [hl4, store_lo hst3], by rw [hi4, store_hi hst3]⟩
    (by
      intro q h1 h2
      rw [fr4 q h2, load_store hst3, if_neg h1])
    (by rw [fr4 _ (by omega)]; exact hh3) hf4 hi5
  rw [ey] at hW
  refine ⟨F', by simpa using hW, rfl, by rw [hb5, hb2, hb1], by rw [hl5, hl2, hl1],
    by rw [hh5, hh2, hh1], fun q hq => ?_⟩
  have q1 := hq b (by simp) hbf
  have q2 := hq n (by simp) hnf
  rw [fr5 q (hq.mono (by intro f hf _; simp at hf ⊢; tauto)) (by omega), fr2 q hq, fr1 q hq]

end Seg


theorem bind_ok {ε α β : Type} {x : Except ε α} {f : α → Except ε β} {b : β}
    (h : (x >>= f) = .ok b) : ∃ a, x = .ok a ∧ f a = .ok b := (bind_ok_iff x f b).mp h

namespace Seg

/-- Case 3 of `coalesce`: the block before `b` is free, the one after is not. -/
theorem coalesce_prev {fuel : Nat} {s s' : State} {h0 : Nat} {L R : List Blk} {p b n : Blk}
    {F : Nat → List Nat} {r : Nat}
    (h : WF s h0 (L ++ p :: b :: n :: R) F) (hbf : b.alloc = false) (hpf : p.alloc = false)
    (hc : (do
      let s ← delete_node s b.addr
      let prev ← PREV_BLKP s.mem b.addr
      let s ← delete_node s prev
      let prev ← PREV_BLKP s.mem b.addr
      let psz ← GET_SIZE s.mem (HDRP prev)
      let f ← FTRP s.mem b.addr
      let m ← PUT s.mem f (PACK (add32 b.size psz) 0)
      let prev ← PREV_BLKP m b.addr
      let m ← PUT m (HDRP prev) (PACK (add32 b.size psz) 0)
      let ptr ← PREV_BLKP m b.addr
      let s ← insert_node fuel { s with mem := m } ptr (add32 b.size psz)
      pure (s, ptr) : Except Err (State × Nat)) = .ok (s', r)) :
    ∃ F', WF s' h0 (L ++ ⟨p.addr, p.size + b.size, false⟩ :: n :: R) F' ∧ r = p.addr ∧
      s'.mem.brk = s.mem.brk ∧ s'.mem.lo = s.mem.lo ∧ s'.mem.hi = s.mem.hi ∧
      (∀ q, Outside (L ++ p :: b :: n :: R) q → load s'.mem q = load s.mem q) := by
  obtain ⟨hTL, hL8, h8, hp0, hp8, hp8', hba, hb8, hb8', hna, hn8, hn8', hTR, hle, hlt, -, -, -,
    -, hLne, -⟩ := h.layout.triple
  have hLne := hLne hpf
  have hb16 := h.layout.free16 b (by simp) hbf
  have hp16 := h.layout.free16 p (by simp) hpf
  have epa : b.addr - p.size = p.addr := by omega
  have ey : n.addr - p.addr = p.size + b.size := by omega
  have a1 : 8 ≤ b.addr := by omega
  have a2 : p.size ≤ b.addr := by omega
  have a3 : b.addr < W32 := by omega
  have a5 : p.addr ≠ b.addr := by omega
  have a7 : b.addr + b.size < W32 := by omega
  have a8 : 4 ≤ p.addr := by omega
  have a9 : p.addr < W32 := by omega
  have a13 : b.size + p.size < W32 := by omega
  have a14 : b.size + p.size = n.addr - p.addr := by omega
  have a15 : (n.addr - p.addr) % 8 = 0 := by omega
  have a19 : b.addr + b.size - 8 = n.addr - 8 := by omega
  have a20 : n.addr - p.addr + 0 < W32 := by omega
  have a21 : b.addr - 8 ≠ n.addr - 8 := by omega
  have a22 : b.addr - 8 ≠ p.addr - 4 := by omega
  have a23 : p.addr + 16 ≤ n.addr := by omega
  have a24 : p.addr - 4 ≠ n.addr - 8 := by omega
  have a25 : ∀ a, a = p.addr ∨ a = b.addr → p.addr ≤ a ∧ a < n.addr := by
    intro a ha; omega
  have a26 : ∀ q, (q + 8 ≤ p.addr ∨ p.addr + p.size ≤ q + 4) →
      (q + 8 ≤ b.addr ∨ b.addr + b.size ≤ q + 4) → (q + 8 ≤ p.addr ∨ n.addr ≤ q + 4) := by
    intro q h1 h2; omega
  -- deletions
  obtain ⟨s1, hd1, hc⟩ := bind_ok hc
  obtain ⟨F1, P1, hb1, hl1, hh1, fr1⟩ := h.part.delete (b := b) (by simp) hbf (by simp) hd1
  obtain ⟨-, -, -, -, -, -, -, -, -, -, -, -, -, -, -, -, -, -, hfp1, -, -⟩ := P1.layout.triple
  have e1 : PREV_BLKP s1.mem b.addr = .ok p.addr := by
    rw [← epa]; exact PREV_BLKP_size hfp1 a1 a2 a3
  rw [e1, ok_bind] at hc
  obtain ⟨s2, hd2, hc⟩ := bind_ok hc
  obtain ⟨F2, P2, hb2, hl2, hh2, fr2⟩ := P1.delete (b := p) (by simp) hpf
    (by simp [a5]) hd2
  obtain ⟨-, -, -, -, -, -, -, -, -, -, -, -, -, -, -, hhp2, hhb2, -, hfp2, -, -⟩ :=
    P2.layout.triple
  rw [Blk.tag_free hbf] at hhb2
  rw [Blk.tag_free hpf] at hhp2
  have e3 : PREV_BLKP s2.mem b.addr = .ok p.addr := by
    rw [← epa]; exact PREV_BLKP_size hfp2 a1 a2 a3
  have e4 : GET_SIZE s2.mem (HDRP p.addr) = .ok p.size := by
    rw [seg_HDRP_eq a8 a9]; exact seg_GET_SIZE_tag hhp2 hp8 (by decide)
  have e5 : FTRP s2.mem b.addr = .ok (n.addr - 8) := by
    rw [← a19]; exact seg_FTRP_tag hhb2 hb8 (by decide) a1 a7
  have e7 : add32 b.size p.size = n.addr - p.addr := by
    rw [add32_eq a13]; exact a14
  simp only [e3, e4, e5, e7, ok_bind] at hc
  rw [seg_PACK_eq a15 (by decide)] at hc
  -- the tags of the merged block
  obtain ⟨m3, hp3, hc⟩ := bind_ok hc
  obtain ⟨hf3, hb3, hl3, hi3, fr3⟩ := PUT_size a15 (by decide) a20 hp3
  have hfp3 : GET_SIZE m3 (b.addr - 8) = .ok p.size := by
    rw [GET_SIZE_congr (fr3 _ a21)]; exact hfp2
  have e8 : PREV_BLKP m3 b.addr = .ok p.addr := by
    rw [← epa]; exact PREV_BLKP_size hfp3 a1 a2 a3
  rw [e8, ok_bind, seg_HDRP_eq a8 a9] at hc
  obtain ⟨m4, hp4, hc⟩ := bind_ok hc
  have hhp3 : load m3 (p.addr - 4) = .ok (p.size + 0) := by
    rw [fr3 _ a24]; exact hhp2
  have hst4 := PUT_tag hhp3 hp8 (by decide) hp4
  have hfp4 : GET_SIZE m4 (b.addr - 8) = .ok p.size := by
    rw [GET_SIZE_congr (show load m4 (b.addr - 8) = load m3 (b.addr - 8) by
      rw [load_store hst4, if_neg a22])]
    exact hfp3
  have e10 : PREV_BLKP m4 b.addr = .ok p.addr := by
    rw [← epa]; exact PREV_BLKP_size hfp4 a1 a2 a3
  rw [e10, ok_bind] at hc
  obtain ⟨s5, hi5, hc⟩ := bind_ok hc
  obtain ⟨rfl, rfl⟩ := Prod.mk.inj ((pure_ok_iff _ _).mp hc)
  have eB : L ++ p :: b :: n :: R = L ++ [p, b] ++ (n :: R) := by simp
  rw [eB] at P2
  obtain ⟨F', hW, hb5, hl5, hh5, fr5⟩ := @Part.merge _ _ _ _ _ _ _ _ _ m4 _ _ P2 hLne (by simp) hTL
    (show Tiles n.addr (n :: R) s2.mem.brk by
      rw [hb2, hb1]
      simp only [Tiles]
      exact ⟨trivial, hn8, hn8', hTR⟩) a23 a15
    (by
      intro f hf _
      simp only [List.mem_cons, List.mem_singleton, List.not_mem_nil, or_false] at hf
      rcases hf with rfl | rfl <;> simp)
    (by
      intro a ha
      simp only [List.mem_cons, List.mem_singleton, List.not_mem_nil, or_false] at ha
      exact a25 a ha)
    ⟨by rw [store_brk hst4, hb3], by rw [store_lo hst4, hl3], by rw [store_hi hst4, hi3]⟩
    (by
      intro q h1 h2
      rw [load_store hst4, if_neg h1, fr3 q h2])
    (by rw [load_store hst4, if_pos rfl, Nat.mod_eq_of_lt a20])
    (by
      rw [GET_SIZE_congr (show load m4 (n.addr - 8) = load m3 (n.addr - 8) by
        rw [load_store hst4, if_neg a24.symm])]
      exact hf3) hi5
  rw [ey] at hW
  refine ⟨F', by simpa using hW, rfl, by rw [hb5, hb2, hb1], by rw [hl5, hl2, hl1],
    by rw [hh5, hh2, hh1], fun q hq => ?_⟩
  have q3 : Outside (L ++ n :: R) q := hq.mono (by
    intro f hf _
    simp only [List.mem_append, List.mem_cons] at hf ⊢
    rcases hf with h | h | h <;> simp [h])
  rw [fr5 q q3 (a26 q (hq p (by simp) hpf) (hq b (by simp) hbf)), fr2 q hq, fr1 q hq]

/-- Case 4 of `coalesce`: the blocks before and after `b` are free. -/
theorem coalesce_both {fuel : Nat} {s s' : State} {h0 : Nat} {L R : List Blk} {p b n : Blk}
    {F : Nat → List Nat} {r : Nat}
    (h : WF s h0 (L ++ p :: b :: n :: R) F) (hbf : b.alloc = false) (hpf : p.alloc = false)
    (hnf : n.alloc = false)
    (hc : (do
      let s ← delete_node s b.addr
      let prev ← PREV_BLKP s.mem b.addr
      let s ← delete_node s prev
      let next ← NEXT_BLKP s.mem b.addr
      let s ← delete_node s next
      let prev ← PREV_BLKP s.mem b.addr
      let psz ← GET_SIZE s.mem (HDRP prev)
      let next ← NEXT_BLKP s.mem b.addr
      let nsz ← GET_SIZE s.mem (HDRP next)
      let m ← PUT s.mem (HDRP prev) (PACK (add32 b.size (add32 psz nsz)) 0)
      let next ← NEXT_BLKP m b.addr
      let f ← FTRP m next
      let m ← PUT m f (PACK (add32 b.size (add32 psz nsz)) 0)
      let ptr ← PREV_BLKP m b.addr
      let s ← insert_node fuel { s with mem := m } ptr (add32 b.size (add32 psz nsz))
      pure (s, ptr) : Except Err (State × Nat)) = .ok (s', r)) :
    ∃ F', WF s' h0 (L ++ ⟨p.addr, p.size + b.size + n.size, false⟩ :: R) F' ∧ r = p.addr ∧
      s'.mem.brk = s.mem.brk ∧ s'.mem.lo = s.mem.lo ∧ s'.mem.hi = s.mem.hi ∧
      (∀ q, Outside (L ++ p :: b :: n :: R) q → load s'.mem q = load s.mem q) := by
  obtain ⟨hTL, hL8, h8, hp0, hp8, hp8', hba, hb8, hb8', hna, hn8, hn8', hTR, hle, hlt, -, -, -,
    -, hLne, hRne⟩ := h.layout.triple
  have hLne := hLne hpf
  have hRne := hRne hnf
  have hb16 := h.layout.free16 b (by simp) hbf
  have hp16 := h.layout.free16 p (by simp) hpf
  have hn16 := h.layout.free16 n (by simp) hnf
  have epa : b.addr - p.size = p.addr := by omega
  have ey : n.addr + n.size - p.addr = p.size + b.size + n.size := by omega
  have a1 : 8 ≤ b.addr := by omega
  have a2 : p.size ≤ b.addr := by omega
  have a3 : b.addr < W32 := by omega
  have a4 : n.addr ≠ b.addr := by omega
  have a5 : p.addr ≠ b.addr := by omega
  have a27 : n.addr ≠ p.addr := by omega
  have a6 : 4 ≤ b.addr := by omega
  have a7 : b.addr + b.size < W32 := by omega
  have a8 : 4 ≤ p.addr := by omega
  have a9 : p.addr < W32 := by omega
  have a10 : 4 ≤ n.addr := by omega
  have a11 : n.addr < W32 := by omega
  have a12 : p.size + n.size < W32 := by omega
  have a13 : b.size + (p.size + n.size) < W32 := by omega
  have a14 : b.size + (p.size + n.size) = n.addr + n.size - p.addr := by omega
  have a15 : (n.addr + n.size - p.addr) % 8 = 0 := by omega
  have a16 : b.addr - 4 ≠ p.addr - 4 := by omega
  have a17 : n.addr - 4 ≠ p.addr - 4 := by omega
  have a18 : 8 ≤ n.addr := by omega
  have a19 : n.addr + n.size < W32 := by omega
  have a20 : n.addr + n.size - p.addr + 0 < W32 := by omega
  have a21 : b.addr - 8 ≠ n.addr + n.size - 8 := by omega
  have a22 : b.addr - 8 ≠ p.addr - 4 := by omega
  have a23 : p.addr + 16 ≤ n.addr + n.size := by omega
  have a24 : p.addr - 4 ≠ n.addr + n.size - 8 := by omega
  have a25 : ∀ a, a = n.addr ∨ a = p.addr ∨ a = b.addr → p.addr ≤ a ∧ a < n.addr + n.size := by
    intro a ha; omega
  have a26 : ∀ q, (q + 8 ≤ p.addr ∨ p.addr + p.size ≤ q + 4) →
      (q + 8 ≤ b.addr ∨ b.addr + b.size ≤ q + 4) → (q + 8 ≤ n.addr ∨ n.addr + n.size ≤ q + 4) →
      (q + 8 ≤ p.addr ∨ n.addr + n.size ≤ q + 4) := by
    intro q h1 h2 h3; omega
  -- deletions
  obtain ⟨s1, hd1, hc⟩ := bind_ok hc
  obtain ⟨F1, P1, hb1, hl1, hh1, fr1⟩ := h.part.delete (b := b) (by simp) hbf (by simp) hd1
  obtain ⟨-, -, -, -, -, -, -, -, -, -, -, -, -, -, -, -, -, -, hfp1, -, -⟩ := P1.layout.triple
  have e1 : PREV_BLKP s1.mem b.addr = .ok p.addr := by
    rw [← epa]; exact PREV_BLKP_size hfp1 a1 a2 a3
  rw [e1, ok_bind] at hc
  obtain ⟨s2, hd2, hc⟩ := bind_ok hc
  obtain ⟨F2, P2, hb2, hl2, hh2, fr2⟩ := P1.delete (b := p) (by simp) hpf
    (by simp [a5]) hd2
  have hhb2 := P2.layout.hdr b (by simp)
  rw [Blk.tag_free hbf] at hhb2
  have e2 : NEXT_BLKP s2.mem b.addr = .ok n.addr := by
    rw [hna]; exact seg_NEXT_BLKP_tag hhb2 hb8 (by decide) a6 a7
  rw [e2, ok_bind] at hc
  obtain ⟨s3, hd3, hc⟩ := bind_ok hc
  obtain ⟨F3, P3, hb3, hl3, hh3, fr3⟩ := P2.delete (b := n) (by simp) hnf
    (by simp [a4, a27]) hd3
  obtain ⟨-, -, -, -, -, -, -, -, -, -, -, -, -, -, -, hhp3, hhb3, hhn3, hfp3, -, -⟩ :=
    P3.layout.triple
  rw [Blk.tag_free hbf] at hhb3
  rw [Blk.tag_free hpf] at hhp3
  rw [Blk.tag_free hnf] at hhn3
  have e3 : PREV_BLKP s3.mem b.addr = .ok p.addr := by
    rw [← epa]; exact PREV_BLKP_size hfp3 a1 a2 a3
  have e4 : GET_SIZE s3.mem (HDRP p.addr) = .ok p.size := by
    rw [seg_HDRP_eq a8 a9]; exact seg_GET_SIZE_tag hhp3 hp8 (by decide)
  have e5 : NEXT_BLKP s3.mem b.addr = .ok n.addr := by
    rw [hna]; exact seg_NEXT_BLKP_tag hhb3 hb8 (by decide) a6 a7
  have e6 : GET_SIZE s3.mem (HDRP n.addr) = .ok n.size := by
    rw [seg_HDRP_eq a10 a11]; exact seg_GET_SIZE_tag hhn3 hn8 (by decide)
  have e7 : add32 b.size (add32 p.size n.size) = n.addr + n.size - p.addr := by
    rw [add32_eq (a := p.size) a12, add32_eq a13]; exact a14
  simp only [e3, e4, e5, e6, e7, ok_bind] at hc
  rw [seg_PACK_eq a15 (by decide), seg_HDRP_eq a8 a9] at hc
  -- the tags of the merged block
  obtain ⟨m4, hp4, hc⟩ := bind_ok hc
  have hst4 := PUT_tag hhp3 hp8 (by decide) hp4
  have fr4 : ∀ q, q ≠ p.addr - 4 → load m4 q = load s3.mem q := fun q hq => by
    rw [load_store hst4, if_neg hq]
  have hhb4 : load m4 (b.addr - 4) = .ok (b.size + 0) := by
    rw [fr4 _ a16]; exact hhb3
  have e8 : NEXT_BLKP m4 b.addr = .ok n.addr := by
    rw [hna]; exact seg_NEXT_BLKP_tag hhb4 hb8 (by decide) a6 a7
  have hhn4 : load m4 (n.addr - 4) = .ok (n.size + 0) := by
    rw [fr4 _ a17]; exact hhn3
  have e9 : FTRP m4 n.addr = .ok (n.addr + n.size - 8) :=
    seg_FTRP_tag hhn4 hn8 (by decide) a18 a19
  simp only [e8, e9, ok_bind] at hc
  obtain ⟨m5, hp5, hc⟩ := bind_ok hc
  obtain ⟨hf5, hb5, hl5, hi5, fr5⟩ := PUT_size a15 (by decide) a20 hp5
  have hfp5 : GET_SIZE m5 (b.addr - 8) = .ok p.size := by
    rw [GET_SIZE_congr (show load m5 (b.addr - 8) = load s3.mem (b.addr - 8) by
      rw [fr5 _ a21, fr4 _ a22])]
    exact hfp3
  have e10 : PREV_BLKP m5 b.addr = .ok p.addr := by
    rw [← epa]; exact PREV_BLKP_size hfp5 a1 a2 a3
  rw [e10, ok_bind] at hc
  obtain ⟨s6, hi6, hc⟩ := bind_ok hc
  obtain ⟨rfl, rfl⟩ := Prod.mk.inj ((pure_ok_iff _ _).mp hc)
  have eB : L ++ p :: b :: n :: R = L ++ [p, b, n] ++ R := by simp
  rw [eB] at P3
  obtain ⟨F', hW, hb6, hl6, hh6, fr6⟩ := @Part.merge _ _ _ _ _ _ _ _ _ m5 _ _ P3 hLne hRne hTL
    (by rw [hb3, hb2, hb1]; exact hTR) a23 a15
    (by
      intro f hf _
      simp only [List.mem_cons, List.mem_singleton, List.not_mem_nil, or_false] at hf
      rcases hf with rfl | rfl | rfl <;> simp)
    (by
      intro a ha
      simp only [List.mem_cons, List.mem_singleton, List.not_mem_nil, or_false] at ha
      exact a25 a ha)
    ⟨by rw [hb5, store_brk hst4], by rw [hl5, store_lo hst4], by rw [hi5, store_hi hst4]⟩
    (by
      intro q h1 h2
      rw [fr5 q h2, fr4 q h1])
    (by
      rw [fr5 _ a24, load_store hst4, if_pos rfl, Nat.mod_eq_of_lt a20])
    hf5 hi6
  rw [ey] at hW
  refine ⟨F', by simpa using hW, rfl, by rw [hb6, hb3, hb2, hb1], by rw [hl6, hl3, hl2, hl1],
    by rw [hh6, hh3, hh2, hh1], fun q hq => ?_⟩
  have q4 : Outside (L ++ R) q := hq.mono (by
    intro f hf _
    simp only [List.mem_append, List.mem_cons] at hf ⊢
    rcases hf with h | h <;> simp [h])
  rw [fr6 q q4 (a26 q (hq p (by simp) hpf) (hq b (by simp) hbf) (hq n (by simp) hnf)),
    fr3 q hq, fr2 q hq, fr1 q hq]

end Seg

namespace Seg

theorem Layout.get_size {m : Mem} {h0 : Nat} {B : List Blk} (h : Layout m h0 B) {c : Blk}
    (hc : c ∈ B) : GET_SIZE m (HDRP c.addr) = .ok c.size := by
  have hb := h.bounds hc
  rw [seg_HDRP_eq (by omega) (by omega)]
  exact seg_GET_SIZE_tag (h.hdr c hc) hb.2.2.2.1 (toNat_lt_two _)

theorem Layout.get_alloc {m : Mem} {h0 : Nat} {B : List Blk} (h : Layout m h0 B) {c : Blk}
    (hc : c ∈ B) : GET_ALLOC m (HDRP c.addr) = .ok c.alloc.toNat := by
  have hb := h.bounds hc
  rw [seg_HDRP_eq (by omega) (by omega)]
  exact seg_GET_ALLOC_tag (h.hdr c hc) hb.2.2.2.1 (toNat_lt_two _)

theorem Layout.get_tag {m : Mem} {h0 : Nat} {B : List Blk} (h : Layout m h0 B) {c : Blk}
    (hc : c ∈ B) : GET_TAG m (HDRP c.addr) = .ok 0 := by
  have hb := h.bounds hc
  rw [seg_HDRP_eq (by omega) (by omega)]
  exact GET_TAG_tag (h.hdr c hc) hb.2.2.2.1 (toNat_lt_two _)

theorem Layout.next {m : Mem} {h0 : Nat} {B : List Blk} (h : Layout m h0 B) {c : Blk}
    (hc : c ∈ B) : NEXT_BLKP m c.addr = .ok (c.addr + c.size) := by
  have hb := h.bounds hc
  exact seg_NEXT_BLKP_tag (h.hdr c hc) hb.2.2.2.1 (toNat_lt_two _) (by omega) (by omega)

theorem Layout.ftrp {m : Mem} {h0 : Nat} {B : List Blk} (h : Layout m h0 B) {c : Blk}
    (hc : c ∈ B) : FTRP m c.addr = .ok (c.addr + c.size - 8) := by
  have hb := h.bounds hc
  exact seg_FTRP_tag (h.hdr c hc) hb.2.2.2.1 (toNat_lt_two _) (by omega) (by omega)

theorem Layout.prev {m : Mem} {h0 : Nat} {L R : List Blk} {p b : Blk}
    (h : Layout m h0 (L ++ p :: b :: R)) : PREV_BLKP m b.addr = .ok p.addr := by
  have hT := h.tiles
  rw [tiles_append L _ _ _ (by simp)] at hT
  obtain ⟨c0, hTL, hT2, -⟩ := hT
  simp only [Tiles, ne_eq, reduceCtorEq, not_false_eq_true, forall_const] at hT2
  obtain ⟨hp1, hp2, hp3, hb1, -⟩ := hT2
  have hb := h.bounds (show b ∈ L ++ p :: b :: R by simp)
  have hf := h.ftr p (by simp) (by omega)
  rw [show p.addr + p.size - 8 = b.addr - 8 by omega] at hf
  rw [show p.addr = b.addr - p.size by omega]
  exact PREV_BLKP_size hf (by omega) (by omega) (by omega)

/-- What `coalesce` does on a well-formed heap, at a free block `b` with neighbours `p` and
`n`: free neighbours are merged into `b`, and the result is in the lists. -/
theorem seg_coalesce_spec {fuel : Nat} {s s' : State} {h0 : Nat} {L R : List Blk} {p b n : Blk}
    {F : Nat → List Nat} {r : Nat}
    (h : WF s h0 (L ++ p :: b :: n :: R) F) (hbf : b.alloc = false)
    (hc : coalesce fuel s b.addr = .ok (s', r)) :
    ∃ B' F', WF s' h0 B' F' ∧
      (NoAdjFree (L ++ [p]) → NoAdjFree (n :: R) → NoAdjFree B') ∧
      (∀ c, c.alloc = true → (c ∈ B' ↔ c ∈ L ++ p :: b :: n :: R)) ∧
      (∃ c ∈ B', c.addr = r ∧ c.alloc = false ∧ b.size ≤ c.size) ∧
      s'.mem.brk = s.mem.brk ∧ s'.mem.lo = s.mem.lo ∧ s'.mem.hi = s.mem.hi ∧
      (∀ q, Outside (L ++ p :: b :: n :: R) q → load s'.mem q = load s.mem q) ∧
      (∀ q, Outside (L ++ p :: b :: n :: R) q → Outside B' q) := by
  have hL := h.layout
  obtain ⟨-, -, -, -, -, -, gba, -, -, gna, -⟩ := hL.triple
  have gq : ∀ q, Outside (L ++ p :: b :: n :: R) q → Outside (L ++ R) q := fun q hq =>
    hq.mono (by
      intro f hf _
      simp only [List.mem_append, List.mem_cons] at hf ⊢
      rcases hf with h | h <;> simp [h])
  have g3 : ∀ q, (q + 8 ≤ p.addr ∨ p.addr + p.size ≤ q + 4) →
      (q + 8 ≤ b.addr ∨ b.addr + b.size ≤ q + 4) → (q + 8 ≤ n.addr ∨ n.addr + n.size ≤ q + 4) →
      (q + 8 ≤ p.addr ∨ p.addr + (p.size + b.size + n.size) ≤ q + 4) := by
    intro q h1 h2 h3; omega
  have g2 : ∀ q, (q + 8 ≤ p.addr ∨ p.addr + p.size ≤ q + 4) →
      (q + 8 ≤ b.addr ∨ b.addr + b.size ≤ q + 4) →
      (q + 8 ≤ p.addr ∨ p.addr + (p.size + b.size) ≤ q + 4) := by
    intro q h1 h2; omega
  have g1 : ∀ q, (q + 8 ≤ b.addr ∨ b.addr + b.size ≤ q + 4) →
      (q + 8 ≤ n.addr ∨ n.addr + n.size ≤ q + 4) →
      (q + 8 ≤ b.addr ∨ b.addr + (b.size + n.size) ≤ q + 4) := by
    intro q h1 h2; omega
  have e1 : PREV_BLKP s.mem b.addr = .ok p.addr := hL.prev
  have e2 : GET_ALLOC s.mem (HDRP p.addr) = .ok p.alloc.toNat := hL.get_alloc (by simp)
  have e3 : NEXT_BLKP s.mem b.addr = .ok n.addr := by
    rw [hL.triple.2.2.2.2.2.2.2.2.2.1]; exact hL.next (by simp)
  have e4 : GET_ALLOC s.mem (HDRP n.addr) = .ok n.alloc.toNat := hL.get_alloc (by simp)
  have e5 : GET_SIZE s.mem (HDRP b.addr) = .ok b.size := hL.get_size (by simp)
  have e6 : GET_TAG s.mem (HDRP p.addr) = .ok 0 := hL.get_tag (by simp)
  unfold coalesce at hc
  simp only [e1, e2, e3, e4, e5, e6, ok_bind, ne_eq, not_true_eq_false, ↓reduceIte] at hc
  rcases hpa : p.alloc with _ | _ <;> rcases hna : n.alloc with _ | _ <;>
    simp only [hpa, hna, Bool.toNat_true, Bool.toNat_false, one_ne_zero, not_true_eq_false,
      not_false_eq_true, and_self, and_true, and_false, ↓reduceIte] at hc
  · obtain ⟨F', hW, hr, hb1, hl1, hh1, fr⟩ := coalesce_both h hbf hpa hna hc
    refine ⟨_, F', hW, ?_, ?_, ?_, hb1, hl1, hh1, fr, fun q hq f hf hff => ?_⟩
    rotate_right
    · simp only [List.mem_append, List.mem_cons] at hf
      rcases hf with hf | rfl | hf
      · exact hq f (by simp [hf]) hff
      · exact g3 q (hq p (by simp) hpa) (hq b (by simp) hbf) (hq n (by simp) hna)
      · exact hq f (by simp [hf]) hff
    · intro hL2 hR2
      have h3 : NoAdjFree (⟨p.addr, p.size + b.size + n.size, false⟩ :: R) :=
        Implicit.noadj_head_congr (x := n) (by simp [hna]) hR2
      have h4 : NoAdjFree (L ++ [⟨p.addr, p.size + b.size + n.size, false⟩]) :=
        Implicit.noadj_last_congr (x := p) (by simp [hpa]) hL2
      exact Implicit.noadj_overlap h4 h3
    · intro c hca
      simp only [List.mem_append, List.mem_cons]
      constructor
      · rintro (h1 | h1 | h1)
        · exact Or.inl h1
        · rw [h1] at hca; simp at hca
        · exact Or.inr (Or.inr (Or.inr (Or.inr h1)))
      · rintro (h1 | h1 | h1 | h1 | h1)
        · exact Or.inl h1
        · rw [h1, hpa] at hca; simp at hca
        · rw [h1, hbf] at hca; simp at hca
        · rw [h1, hna] at hca; simp at hca
        · exact Or.inr (Or.inr h1)
    · exact ⟨⟨p.addr, p.size + b.size + n.size, false⟩, by simp, hr.symm, rfl,
        by show b.size ≤ p.size + b.size + n.size; omega⟩
  · obtain ⟨F', hW, hr, hb1, hl1, hh1, fr⟩ := coalesce_prev h hbf hpa hc
    refine ⟨_, F', hW, ?_, ?_, ?_, hb1, hl1, hh1, fr, fun q hq f hf hff => ?_⟩
    rotate_right
    · simp only [List.mem_append, List.mem_cons] at hf
      rcases hf with hf | rfl | rfl | hf
      · exact hq f (by simp [hf]) hff
      · exact g2 q (hq p (by simp) hpa) (hq b (by simp) hbf)
      · rw [hna] at hff; simp at hff
      · exact hq f (by simp [hf]) hff
    · intro hL2 hR2
      have h4 : NoAdjFree (L ++ [⟨p.addr, p.size + b.size, false⟩]) :=
        Implicit.noadj_last_congr (x := p) (by simp [hpa]) hL2
      exact Implicit.noadj_join h4 hR2 (Or.inr hna)
    · intro c hca
      simp only [List.mem_append, List.mem_cons]
      constructor
      · rintro (h1 | h1 | h1 | h1)
        · exact Or.inl h1
        · rw [h1] at hca; simp at hca
        · exact Or.inr (Or.inr (Or.inr (Or.inl h1)))
        · exact Or.inr (Or.inr (Or.inr (Or.inr h1)))
      · rintro (h1 | h1 | h1 | h1 | h1)
        · exact Or.inl h1
        · rw [h1, hpa] at hca; simp at hca
        · rw [h1, hbf] at hca; simp at hca
        · exact Or.inr (Or.inr (Or.inl h1))
        · exact Or.inr (Or.inr (Or.inr h1))
    · exact ⟨⟨p.addr, p.size + b.size, false⟩, by simp, hr.symm, rfl,
        by show b.size ≤ p.size + b.size; omega⟩
  · obtain ⟨F', hW, hr, hb1, hl1, hh1, fr⟩ := coalesce_next h hbf hna hc
    refine ⟨_, F', hW, ?_, ?_, ?_, hb1, hl1, hh1, fr, fun q hq f hf hff => ?_⟩
    rotate_right
    · simp only [List.mem_append, List.mem_cons] at hf
      rcases hf with hf | rfl | rfl | hf
      · exact hq f (by simp [hf]) hff
      · rw [hpa] at hff; simp at hff
      · exact g1 q (hq b (by simp) hbf) (hq n (by simp) hna)
      · exact hq f (by simp [hf]) hff
    · intro hL2 hR2
      exact Implicit.noadj_join (x := p) (y := ⟨b.addr, b.size + n.size, false⟩) hL2
        (Implicit.noadj_head_congr (x := n) (by simp [hna]) hR2) (Or.inl hpa)
    · intro c hca
      simp only [List.mem_append, List.mem_cons]
      constructor
      · rintro (h1 | h1 | h1 | h1)
        · exact Or.inl h1
        · exact Or.inr (Or.inl h1)
        · rw [h1] at hca; simp at hca
        · exact Or.inr (Or.inr (Or.inr (Or.inr h1)))
      · rintro (h1 | h1 | h1 | h1 | h1)
        · exact Or.inl h1
        · exact Or.inr (Or.inl h1)
        · rw [h1, hbf] at hca; simp at hca
        · rw [h1, hna] at hca; simp at hca
        · exact Or.inr (Or.inr (Or.inr h1))
    · exact ⟨⟨b.addr, b.size + n.size, false⟩, by simp, hr.symm, rfl,
        by show b.size ≤ b.size + n.size; omega⟩
  · simp only [pure, Except.pure, Except.ok.injEq, Prod.mk.injEq] at hc
    obtain ⟨rfl, rfl⟩ := hc
    refine ⟨_, F, h, ?_, fun c _ => Iff.rfl, ⟨b, by simp, rfl, hbf, le_refl _⟩, rfl, rfl, rfl,
      fun _ _ => rfl, fun _ hq => hq⟩
    intro hL2 hR2
    exact Implicit.noadj_join hL2
      (Implicit.noadj_join (L := []) (List.chain'_singleton _) hR2 (Or.inr hna)) (Or.inl hpa)

end Seg


/-! ## Segregated variant: `mm_free` -/

namespace Seg

theorem Layout.ratag {m : Mem} {h0 : Nat} {B : List Blk} (h : Layout m h0 B) {c : Blk}
    (hc : c ∈ B) : (∃ v, REMOVE_RATAG m (HDRP c.addr) = .ok v) ∧
      ∃ v, SET_RATAG m (HDRP c.addr) = .ok v := by
  have hb := h.bounds hc
  unfold REMOVE_RATAG SET_RATAG GET
  rw [seg_HDRP_eq (by omega) (by omega), h.hdr c hc]
  exact ⟨⟨_, rfl⟩, ⟨_, rfl⟩⟩

/-- The tilings to the left and to the right of a block with two neighbours. -/
theorem Layout.neighbours {m : Mem} {h0 : Nat} {L R : List Blk} {p b n : Blk}
    (h : Layout m h0 (L ++ p :: b :: n :: R)) :
    Tiles h0 (L ++ [p]) b.addr ∧ Tiles (b.addr + b.size) (n :: R) m.brk := by
  obtain ⟨hTL, hL8, h8, hp0, hp8, hp8', hba, hb8, hb8', hna, hn8, hn8', hTR, -⟩ := h.triple
  constructor
  · rw [tiles_append L [p] _ _ (by simp)]
    exact ⟨p.addr, hTL, by simp only [Tiles]; exact ⟨trivial, hp8, fun h => absurd rfl h, by omega⟩,
      hL8⟩
  · simp only [Tiles]
    exact ⟨hna, hn8, hn8', by rw [← hna]; exact hTR⟩

/-- The blocks around a block lie at other addresses. -/
theorem Layout.mid_ne {m : Mem} {h0 : Nat} {L R : List Blk} {p b n : Blk}
    (h : Layout m h0 (L ++ p :: b :: n :: R)) {c : Blk}
    (hc : c ∈ L ∨ c = p ∨ c = n ∨ c ∈ R) : c.addr ≠ b.addr := by
  obtain ⟨hTL, hL8, h8, hp0, hp8, hp8', hba, hb8, hb8', hna, hn8, hn8', hTR, -⟩ := h.triple
  rcases hc with hc | rfl | rfl | hc
  · have := tiles_mem _ _ _ hTL c hc
    have := hL8 c hc
    omega
  · omega
  · omega
  · have := tiles_mem _ _ _ hTR c hc
    omega

/-- What `mm_free` does on a well-formed heap, at an allocated block `b` with neighbours `p`
and `n`. -/
theorem seg_mm_free_spec {fuel : Nat} {s s' : State} {h0 : Nat} {L R : List Blk} {p b n : Blk}
    {F : Nat → List Nat}
    (h : WF s h0 (L ++ p :: b :: n :: R) F) (hba : b.alloc = true) (hb16 : 16 ≤ b.size)
    (hf : mm_free fuel s b.addr = .ok s') :
    ∃ B' F', WF s' h0 B' F' ∧
      (NoAdjFree (L ++ [p]) → NoAdjFree (n :: R) → NoAdjFree B') ∧
      (∀ c, c.alloc = true → (c ∈ B' ↔ c ∈ L ++ p :: b :: n :: R ∧ c ≠ b)) ∧
      s'.mem.brk = s.mem.brk ∧ s'.mem.lo = s.mem.lo ∧ s'.mem.hi = s.mem.hi ∧
      (∀ q, Outside (L ++ p :: ⟨b.addr, b.size, false⟩ :: n :: R) q →
        load s'.mem q = load s.mem q) ∧
      (∀ q, Outside (L ++ p :: ⟨b.addr, b.size, false⟩ :: n :: R) q → Outside B' q) := by
  have hL := h.layout
  obtain ⟨hT1, hT2⟩ := hL.neighbours
  obtain ⟨-, -, h8, hp0, -, hp8', hbp, hb8, -, hna, -, -, -, hle, hlt, -, hhb, -, -, -, -⟩ :=
    hL.triple
  rw [Blk.tag_alloc hba] at hhb
  have a1 : 4 ≤ b.addr := by omega
  have a2 : b.addr < W32 := by omega
  have a3 : 8 ≤ b.addr := by omega
  have a4 : b.addr + b.size < W32 := by omega
  have a5 : b.size + 0 < W32 := by omega
  have a6 : ∀ q, (q + 8 ≤ b.addr ∨ b.addr + b.size ≤ q + 4) → q ≠ b.addr - 4 ∧
      q ≠ b.addr + b.size - 8 := by
    intro q hq; omega
  have a7 : b.addr - 4 ≠ b.addr + b.size - 8 := by omega
  have a8 : b.addr ≤ b.addr ∧ b.addr < b.addr + b.size := by omega
  have e1 : GET_SIZE s.mem (HDRP b.addr) = .ok b.size := hL.get_size (by simp)
  have e2 : NEXT_BLKP s.mem b.addr = .ok n.addr := by rw [hna]; exact hL.next (by simp)
  obtain ⟨⟨v, e3⟩, -⟩ := hL.ratag (show n ∈ L ++ p :: b :: n :: R by simp)
  unfold mm_free at hf
  simp only [e1, e2, e3, ok_bind] at hf
  rw [seg_PACK_eq hb8 (by decide), seg_HDRP_eq a1 a2] at hf
  obtain ⟨m1, hp1, hf⟩ := bind_ok hf
  have hst1 := PUT_tag hhb hb8 (by decide) hp1
  have hh1 : load m1 (b.addr - 4) = .ok (b.size + 0) := by
    rw [load_store hst1, if_pos rfl, Nat.mod_eq_of_lt a5]
  rw [seg_FTRP_tag hh1 hb8 (by decide) a3 a4, ok_bind] at hf
  obtain ⟨m2, hp2, hf⟩ := bind_ok hf
  obtain ⟨hf2, hb2, hl2, hi2, fr2⟩ := PUT_size hb8 (by decide) a5 hp2
  obtain ⟨s3, hi3, hf⟩ := bind_ok hf
  obtain ⟨⟨s4, r⟩, hc4, hf⟩ := bind_ok hf
  simp only [pure, Except.pure, Except.ok.injEq] at hf
  subst hf
  have eB : L ++ p :: b :: n :: R = (L ++ [p]) ++ [b] ++ (n :: R) := by simp
  have P0 := h.part
  rw [eB] at P0
  have P2 := @Part.part_replace _ _ _ _ [⟨b.addr, b.size, false⟩] _ _ _ m2 _ _ [b.addr] P0 (by simp)
    (by simp) hT1 hT2
    (by simp only [Tiles]; exact ⟨trivial, hb8, fun _ => by omega, trivial⟩)
    (by intro c hc; simp only [List.mem_singleton] at hc; subst hc; show 8 ≤ b.size; omega)
    ⟨by rw [hb2, store_brk hst1], by rw [hl2, store_lo hst1], by rw [hi2, store_hi hst1]⟩
    (fun q hq => by
      rw [fr2 q (a6 q hq).2, load_store hst1, if_neg (a6 q hq).1])
    (by
      intro c hc; simp only [List.mem_singleton] at hc; subst hc
      exact ⟨by rw [fr2 _ a7]; exact hh1, hf2⟩)
    (by intro c hc _; simp only [List.mem_singleton] at hc; subst hc; exact hb16)
    (by
      intro c hc hcf; simp only [List.mem_singleton] at hc; subst hc
      rw [hba] at hcf; simp at hcf)
    (by intro a ha; simp at ha)
    (by intro c hc _; simp only [List.mem_singleton] at hc; subst hc; simp)
    (by intro a ha; simp only [List.mem_singleton] at ha; subst ha; exact a8)
  obtain ⟨F3, P3, hb3, hl3, hh3, fr3⟩ := Part.insert (b := ⟨b.addr, b.size, false⟩) [] P2
    (by simp) rfl (by simp) (by simp) hi3
  have W3 : WF s3 h0 (L ++ p :: ⟨b.addr, b.size, false⟩ :: n :: R) F3 := by
    have := P3.wf
    simpa using this
  obtain ⟨B', F', hW, hna', hal, -, hb4, hl4, hh4, fr4, ho4⟩ :=
    seg_coalesce_spec (b := ⟨b.addr, b.size, false⟩) W3 rfl hc4
  refine ⟨B', F', hW, hna', ?_, by rw [hb4, hb3]; exact (by rw [hb2, store_brk hst1]),
    by rw [hl4, hl3]; exact (by rw [hl2, store_lo hst1]),
    by rw [hh4, hh3]; exact (by rw [hi2, store_hi hst1]), fun q hq => ?_, ho4⟩
  · intro c hca
    rw [hal c hca]
    simp only [List.mem_append, List.mem_cons]
    constructor
    · rintro (h1 | h1 | h1 | h1 | h1)
      · exact ⟨Or.inl h1, fun e => hL.mid_ne (Or.inl h1) (by rw [e])⟩
      · exact ⟨Or.inr (Or.inl h1), fun e => hL.mid_ne (Or.inr (Or.inl h1)) (by rw [e])⟩
      · rw [h1] at hca; simp at hca
      · exact ⟨Or.inr (Or.inr (Or.inr (Or.inl h1))),
          fun e => hL.mid_ne (Or.inr (Or.inr (Or.inl h1))) (by rw [e])⟩
      · exact ⟨Or.inr (Or.inr (Or.inr (Or.inr h1))),
          fun e => hL.mid_ne (Or.inr (Or.inr (Or.inr h1))) (by rw [e])⟩
    · rintro ⟨h1 | h1 | h1 | h1 | h1, h2⟩
      · exact Or.inl h1
      · exact Or.inr (Or.inl h1)
      · exact absurd h1 h2
      · exact Or.inr (Or.inr (Or.inr (Or.inl h1)))
      · exact Or.inr (Or.inr (Or.inr (Or.inr h1)))
  · have q1 := hq ⟨b.addr, b.size, false⟩ (by simp) rfl
    have q2 := a6 q q1
    rw [fr4 q hq, fr3 q (hq.mono (by intro f hf _; simpa using hf)), show load
      ({ s with mem := m2 } : State).mem q = load m2 q from rfl, fr2 q q2.2, load_store hst1,
      if_neg q2.1]

end Seg


/-! ## Segregated variant: `place` -/

namespace Seg

/-- Writing the header and the footer of the block at `x` with `PUT`, over a header whose
reallocation bit is clear. -/
theorem set_tags {α : Type} {m : Mem} {x z a t0 a0 : Nat} {k : Mem → Except Err α} {res : α}
    (hh : load m (x - 4) = .ok (t0 + a0)) (ht8 : t0 % 8 = 0) (ha0 : a0 < 2)
    (hz8 : z % 8 = 0) (ha : a < 2) (hx : 8 ≤ x) (hlt : x + z < W32)
    (hrun : (do
      let m1 ← PUT m (HDRP x) (PACK z a)
      let f ← FTRP m1 x
      let m2 ← PUT m1 f (PACK z a)
      k m2) = .ok res) :
    ∃ m2, k m2 = .ok res ∧ load m2 (x - 4) = .ok (z + a) ∧
      GET_SIZE m2 (x + z - 8) = .ok z ∧
      m2.brk = m.brk ∧ m2.lo = m.lo ∧ m2.hi = m.hi ∧
      (∀ q, q ≠ x - 4 → q ≠ x + z - 8 → load m2 q = load m q) := by
  have a1 : 4 ≤ x := by omega
  have a2 : x < W32 := by omega
  have a3 : z + a < W32 := by omega
  have a4 : x - 4 ≠ x + z - 8 := by omega
  rw [seg_PACK_eq hz8 ha, seg_HDRP_eq a1 a2] at hrun
  obtain ⟨m1, hp1, hrun⟩ := bind_ok hrun
  have hst1 := PUT_tag hh ht8 ha0 hp1
  have hh1 : load m1 (x - 4) = .ok (z + a) := by
    rw [load_store hst1, if_pos rfl, Nat.mod_eq_of_lt a3]
  rw [seg_FTRP_tag hh1 hz8 ha hx hlt, ok_bind] at hrun
  obtain ⟨m2, hp2, hrun⟩ := bind_ok hrun
  obtain ⟨hf2, hb2, hl2, hi2, fr2⟩ := PUT_size hz8 ha a3 hp2
  refine ⟨m2, hrun, by rw [fr2 _ a4]; exact hh1, hf2, by rw [hb2, store_brk hst1],
    by rw [hl2, store_lo hst1], by rw [hi2, store_hi hst1], fun q h1 h2 => ?_⟩
  rw [fr2 q h2, load_store hst1, if_neg h1]

/-- Writing the header and the footer of the block that follows the block at `x` with
`PUT_NOTAG`. -/
theorem set_tags_next {α : Type} {m : Mem} {x z1 a1 z a : Nat} {k : Mem → Except Err α}
    {res : α} (hh : load m (x - 4) = .ok (z1 + a1)) (hz18 : z1 % 8 = 0) (ha1 : a1 < 2)
    (hz1 : 8 ≤ z1) (hz8 : z % 8 = 0) (ha : a < 2) (hx : 8 ≤ x) (hlt : x + z1 + z < W32)
    (hrun : (do
      let next ← NEXT_BLKP m x
      let m1 ← PUT_NOTAG m (HDRP next) (PACK z a)
      let next ← NEXT_BLKP m1 x
      let f ← FTRP m1 next
      let m2 ← PUT_NOTAG m1 f (PACK z a)
      k m2) = .ok res) :
    ∃ m2, k m2 = .ok res ∧ load m2 (x - 4) = .ok (z1 + a1) ∧
      load m2 (x + z1 - 4) = .ok (z + a) ∧ GET_SIZE m2 (x + z1 + z - 8) = .ok z ∧
      m2.brk = m.brk ∧ m2.lo = m.lo ∧ m2.hi = m.hi ∧
      (∀ q, q ≠ x + z1 - 4 → q ≠ x + z1 + z - 8 → load m2 q = load m q) := by
  have b1 : 4 ≤ x := by omega
  have b2 : x + z1 < W32 := by omega
  have b3 : z + a < W32 := by omega
  have b4 : 4 ≤ x + z1 := by omega
  have b5 : x - 4 ≠ x + z1 - 4 := by omega
  have b6 : 8 ≤ x + z1 := by omega
  have b7 : x - 4 ≠ x + z1 + z - 8 := by omega
  have b8 : x + z1 - 4 ≠ x + z1 + z - 8 := by omega
  rw [seg_NEXT_BLKP_tag hh hz18 ha1 b1 b2, ok_bind, seg_PACK_eq hz8 ha, seg_HDRP_eq b4 b2] at hrun
  unfold PUT_NOTAG at hrun
  obtain ⟨m1, hst1, hrun⟩ := bind_ok hrun
  have hh1 : load m1 (x - 4) = .ok (z1 + a1) := by
    rw [load_store hst1, if_neg b5]; exact hh
  have hn1 : load m1 (x + z1 - 4) = .ok (z + a) := by
    rw [load_store hst1, if_pos rfl, Nat.mod_eq_of_lt b3]
  rw [seg_NEXT_BLKP_tag hh1 hz18 ha1 b1 b2, ok_bind, seg_FTRP_tag hn1 hz8 ha b6 hlt, ok_bind] at hrun
  obtain ⟨m2, hst2, hrun⟩ := bind_ok hrun
  refine ⟨m2, hrun, ?_, ?_, ?_, by rw [store_brk hst2, store_brk hst1],
    by rw [store_lo hst2, store_lo hst1], by rw [store_hi hst2, store_hi hst1],
    fun q h1 h2 => ?_⟩
  · rw [load_store hst2, if_neg b7]; exact hh1
  · rw [load_store hst2, if_neg b8]; exact hn1
  · exact seg_GET_SIZE_tag (by rw [load_store hst2, if_pos rfl, Nat.mod_eq_of_lt b3]) hz8 ha
  · rw [load_store hst2, if_neg h2, load_store hst1, if_neg h1]

end Seg

namespace Seg

/-- The facts that a layout gives about one of its blocks. -/
theorem Layout.single {m : Mem} {h0 : Nat} {L R : List Blk} {b : Blk}
    (h : Layout m h0 (L ++ b :: R)) :
    Tiles h0 L b.addr ∧ (∀ x ∈ L, 8 ≤ x.size) ∧ 8 ≤ h0 ∧ h0 ≤ b.addr ∧
      b.size % 8 = 0 ∧ Tiles (b.addr + b.size) R m.brk ∧
      b.addr + b.size ≤ m.brk ∧ m.brk < W32 ∧ load m (b.addr - 4) = .ok b.tag ∧
      (b.alloc = false → L ≠ [] ∧ R ≠ []) := by
  have hT := h.tiles
  rw [tiles_append L _ _ _ (by simp)] at hT
  obtain ⟨c0, hTL, hT2, hL8⟩ := hT
  simp only [Tiles] at hT2
  obtain ⟨hp1, hp2, hp3, hTR⟩ := hT2
  have h1 := tiles_le _ _ _ hTL
  have h2 := tiles_le _ _ _ hTR
  have h3 := h.h0_ge
  have h4 := h.lt_brk
  subst hp1
  refine ⟨hTL, hL8, by omega, h1, hp2, hTR, h2, h4, h.hdr b (by simp), ?_⟩
  intro hb
  constructor
  · intro hL
    have := h.head
    rw [hL] at this
    simp only [List.nil_append, List.head?_cons, Option.some.injEq] at this
    rw [this] at hb
    simp at hb
  · intro hR
    have := h.last
    rw [hR, List.getLast?_append_of_ne_nil _ (by simp)] at this
    simp only [List.getLast?_singleton, Option.some.injEq] at this
    rw [this] at hb
    simp at hb

/-- Case 1 of `place`: the whole block is allocated. -/
theorem place_whole {s s' : State} {h0 : Nat} {L R : List Blk} {b : Blk}
    {F : Nat → List Nat} {r : Nat}
    (P : Part s h0 (L ++ b :: R) F [b.addr]) (hbf : b.alloc = false)
    (hc : (do
      let m ← PUT s.mem (HDRP b.addr) (PACK b.size 1)
      let f ← FTRP m b.addr
      let m ← PUT m f (PACK b.size 1)
      pure ({ s with mem := m }, b.addr) : Except Err (State × Nat)) = .ok (s', r)) :
    WF s' h0 (L ++ ⟨b.addr, b.size, true⟩ :: R) F ∧ r = b.addr ∧
      s'.mem.brk = s.mem.brk ∧ s'.mem.lo = s.mem.lo ∧ s'.mem.hi = s.mem.hi ∧
      (∀ q, (q + 8 ≤ b.addr ∨ b.addr + b.size ≤ q + 4) → load s'.mem q = load s.mem q) := by
  obtain ⟨hTL, hL8, h8, hb0, hb8, hTR, hle, hlt, hhb, hne⟩ := P.layout.single
  obtain ⟨hLne, hRne⟩ := hne hbf
  have hb16 := P.layout.free16 b (by simp) hbf
  rw [Blk.tag_free hbf] at hhb
  have a1 : 8 ≤ b.addr := by omega
  have a2 : b.addr + b.size < W32 := by omega
  have a3 : ∀ q, (q + 8 ≤ b.addr ∨ b.addr + b.size ≤ q + 4) → q ≠ b.addr - 4 ∧
      q ≠ b.addr + b.size - 8 := by
    intro q hq; omega
  have a4 : 8 ≤ b.size := by omega
  have a5 : b.addr ≤ b.addr ∧ b.addr < b.addr + b.size := by omega
  obtain ⟨m2, hk, hh2, hf2, hb2, hl2, hi2, fr2⟩ :=
    set_tags hhb hb8 (by decide) hb8 (by decide) a1 a2 hc
  obtain ⟨rfl, rfl⟩ := Prod.mk.inj ((pure_ok_iff _ _).mp hk)
  have eB : L ++ b :: R = L ++ [b] ++ R := by simp
  rw [eB] at P
  have P2 := @Part.part_replace _ _ _ _ [⟨b.addr, b.size, true⟩] _ _ _ m2 _ _ [] P hLne hRne hTL hTR
    (by simp only [Tiles]; exact ⟨trivial, hb8, fun _ => a4, trivial⟩)
    (by intro c hc; simp only [List.mem_singleton] at hc; subst hc; exact a4)
    ⟨hb2, hl2, hi2⟩ (fun q hq => fr2 q (a3 q hq).1 (a3 q hq).2)
    (by
      intro c hc; simp only [List.mem_singleton] at hc; subst hc
      exact ⟨hh2, hf2⟩)
    (by intro c hc hcf; simp only [List.mem_singleton] at hc; subst hc; simp at hcf)
    (by intro c hc _; simp only [List.mem_singleton] at hc; subst hc; simp)
    (by intro a ha; simp only [List.mem_singleton] at ha; subst ha; exact a5)
    (by intro c hc hcf; simp only [List.mem_singleton] at hc; subst hc; simp at hcf)
    (by intro a ha; simp at ha)
  refine ⟨by simpa using P2.wf, rfl, hb2, hl2, hi2, fun q hq => fr2 q (a3 q hq).1 (a3 q hq).2⟩

/-- Case 2 of `place`: the block is split and its tail is allocated. -/
theorem place_tail {fuel : Nat} {s s' : State} {h0 : Nat} {L R : List Blk} {b : Blk}
    {F : Nat → List Nat} {asize r : Nat}
    (P : Part s h0 (L ++ b :: R) F [b.addr]) (hbf : b.alloc = false) (ha8 : asize % 8 = 0)
    (ha16 : 16 ≤ asize) (hrem : asize + 16 < b.size)
    (hc : (do
      let m ← PUT s.mem (HDRP b.addr) (PACK (b.size - asize) 0)
      let f ← FTRP m b.addr
      let m ← PUT m f (PACK (b.size - asize) 0)
      let next ← NEXT_BLKP m b.addr
      let m ← PUT_NOTAG m (HDRP next) (PACK asize 1)
      let next ← NEXT_BLKP m b.addr
      let f ← FTRP m next
      let m ← PUT_NOTAG m f (PACK asize 1)
      let s ← insert_node fuel { s with mem := m } b.addr (b.size - asize)
      let next ← NEXT_BLKP s.mem b.addr
      pure (s, next) : Except Err (State × Nat)) = .ok (s', r)) :
    ∃ F', WF s' h0 (L ++ ⟨b.addr, b.size - asize, false⟩ ::
        ⟨b.addr + (b.size - asize), asize, true⟩ :: R) F' ∧
      r = b.addr + (b.size - asize) ∧
      s'.mem.brk = s.mem.brk ∧ s'.mem.lo = s.mem.lo ∧ s'.mem.hi = s.mem.hi ∧
      (∀ q, Outside (L ++ R) q → (q + 8 ≤ b.addr ∨ b.addr + b.size ≤ q + 4) →
        load s'.mem q = load s.mem q) := by
  obtain ⟨hTL, hL8, h8, hb0, hb8, hTR, hle, hlt, hhb, hne⟩ := P.layout.single
  obtain ⟨hLne, hRne⟩ := hne hbf
  rw [Blk.tag_free hbf] at hhb
  have a1 : 8 ≤ b.addr := by omega
  have a2 : b.addr + (b.size - asize) < W32 := by omega
  have a3 : ∀ q, (q + 8 ≤ b.addr ∨ b.addr + b.size ≤ q + 4) → q ≠ b.addr - 4 ∧
      q ≠ b.addr + (b.size - asize) - 8 ∧ q ≠ b.addr + (b.size - asize) - 4 ∧
      q ≠ b.addr + (b.size - asize) + asize - 8 := by
    intro q hq; omega
  have a4 : (b.size - asize) % 8 = 0 := by omega
  have a5 : 8 ≤ b.size - asize := by omega
  have a6 : b.addr + (b.size - asize) + asize < W32 := by omega
  have a7 : b.addr - 4 ≠ b.addr + (b.size - asize) - 4 ∧
      b.addr - 4 ≠ b.addr + (b.size - asize) + asize - 8 ∧
      b.addr + (b.size - asize) - 8 ≠ b.addr + (b.size - asize) - 4 ∧
      b.addr + (b.size - asize) - 8 ≠ b.addr + (b.size - asize) + asize - 8 := by omega
  have a8 : b.addr + (b.size - asize) + asize = b.addr + b.size := by omega
  have a9 : ∀ a, a = b.addr → b.addr ≤ a ∧ a < b.addr + b.size := by
    intro a ha; omega
  have a10 : 16 ≤ b.size - asize := by omega
  have a11 : 8 ≤ asize := by omega
  have a12 : ∀ q, (q + 8 ≤ b.addr ∨ b.addr + b.size ≤ q + 4) →
      (q + 8 ≤ b.addr ∨ b.addr + (b.size - asize) ≤ q + 4) := by
    intro q hq; omega
  obtain ⟨m2, hk, hh2, hf2, hb2, hl2, hi2, fr2⟩ :=
    set_tags hhb hb8 (by decide) a4 (by decide) a1 a2 hc
  obtain ⟨m4, hk, hh4, hn4, hf4, hb4, hl4, hi4, fr4⟩ :=
    set_tags_next hh2 a4 (by decide) a5 ha8 (by decide) a1 a6 hk
  obtain ⟨s5, hi5, hk⟩ := bind_ok hk
  have eB : L ++ b :: R = L ++ [b] ++ R := by simp
  rw [eB] at P
  have P4 := @Part.part_replace _ _ _ _ [⟨b.addr, b.size - asize, false⟩,
      ⟨b.addr + (b.size - asize), asize, true⟩] _ _ _ m4 _ _ [b.addr] P hLne hRne hTL hTR
    (by
      simp only [Tiles]
      exact ⟨trivial, a4, fun _ => a5, trivial, ha8, fun _ => a11, a8⟩)
    (by
      intro c hc
      simp only [List.mem_cons, List.mem_singleton, List.not_mem_nil, or_false] at hc
      rcases hc with rfl | rfl
      · exact a5
      · exact a11)
    ⟨by rw [hb4, hb2], by rw [hl4, hl2], by rw [hi4, hi2]⟩
    (fun q hq => by
      obtain ⟨q1, q2, q3, q4⟩ := a3 q hq
      rw [fr4 q q3 q4, fr2 q q1 q2])
    (by
      intro c hc
      simp only [List.mem_cons, List.mem_singleton, List.not_mem_nil, or_false] at hc
      rcases hc with rfl | rfl
      · refine ⟨hh4, ?_⟩
        show GET_SIZE m4 (b.addr + (b.size - asize) - 8) = _
        rw [GET_SIZE_congr (fr4 _ a7.2.2.1 a7.2.2.2)]; exact hf2
      · exact ⟨hn4, hf4⟩)
    (by
      intro c hc hcf
      simp only [List.mem_cons, List.mem_singleton, List.not_mem_nil, or_false] at hc
      rcases hc with rfl | rfl
      · exact a10
      · simp at hcf)
    (by intro c hc _; simp only [List.mem_singleton] at hc; subst hc; simp)
    (by intro a ha; simp only [List.mem_singleton] at ha; exact a9 a ha)
    (by
      intro c hc hcf
      simp only [List.mem_cons, List.mem_singleton, List.not_mem_nil, or_false] at hc
      rcases hc with rfl | rfl
      · simp
      · simp at hcf)
    (by intro a ha; simp only [List.mem_singleton] at ha; exact a9 a ha)
  obtain ⟨F5, P5, hb5, hl5, hh5, fr5⟩ := Part.insert
    (b := ⟨b.addr, b.size - asize, false⟩) [] P4 (by simp) rfl (by simp) (by simp) hi5
  have e5 : NEXT_BLKP s5.mem b.addr = .ok (b.addr + (b.size - asize)) :=
    P5.layout.next (c := ⟨b.addr, b.size - asize, false⟩) (by simp)
  rw [e5, ok_bind] at hk
  obtain ⟨rfl, rfl⟩ := Prod.mk.inj ((pure_ok_iff _ _).mp hk)
  refine ⟨F5, by simpa using P5.wf, rfl, by rw [hb5]; exact (by rw [hb4, hb2]),
    by rw [hl5]; exact (by rw [hl4, hl2]), by rw [hh5]; exact (by rw [hi4, hi2]),
    fun q hq1 hq2 => ?_⟩
  obtain ⟨q1, q2, q3, q4⟩ := a3 q hq2
  rw [fr5 q, show load ({ s with mem := m4 } : State).mem q = load m4 q from rfl,
    fr4 q q3 q4, fr2 q q1 q2]
  intro f hf hff
  simp only [List.mem_append, List.mem_cons, List.mem_singleton, List.not_mem_nil,
    or_false] at hf
  rcases hf with (hf | rfl | rfl) | hf
  · exact hq1 f (by simp [hf]) hff
  · exact a12 q hq2
  · simp at hff
  · exact hq1 f (by simp [hf]) hff

/-- Case 3 of `place`: the block is split and its head is allocated. -/
theorem place_head {fuel : Nat} {s s' : State} {h0 : Nat} {L R : List Blk} {b : Blk}
    {F : Nat → List Nat} {asize r : Nat}
    (P : Part s h0 (L ++ b :: R) F [b.addr]) (hbf : b.alloc = false) (ha8 : asize % 8 = 0)
    (ha16 : 16 ≤ asize) (hrem : asize + 16 < b.size)
    (hc : (do
      let m ← PUT s.mem (HDRP b.addr) (PACK asize 1)
      let f ← FTRP m b.addr
      let m ← PUT m f (PACK asize 1)
      let next ← NEXT_BLKP m b.addr
      let m ← PUT_NOTAG m (HDRP next) (PACK (b.size - asize) 0)
      let next ← NEXT_BLKP m b.addr
      let f ← FTRP m next
      let m ← PUT_NOTAG m f (PACK (b.size - asize) 0)
      let next ← NEXT_BLKP m b.addr
      let s ← insert_node fuel { s with mem := m } next (b.size - asize)
      pure (s, b.addr) : Except Err (State × Nat)) = .ok (s', r)) :
    ∃ F', WF s' h0 (L ++ ⟨b.addr, asize, true⟩ ::
        ⟨b.addr + asize, b.size - asize, false⟩ :: R) F' ∧
      r = b.addr ∧
      s'.mem.brk = s.mem.brk ∧ s'.mem.lo = s.mem.lo ∧ s'.mem.hi = s.mem.hi ∧
      (∀ q, Outside (L ++ R) q → (q + 8 ≤ b.addr ∨ b.addr + b.size ≤ q + 4) →
        load s'.mem q = load s.mem q) := by
  obtain ⟨hTL, hL8, h8, hb0, hb8, hTR, hle, hlt, hhb, hne⟩ := P.layout.single
  obtain ⟨hLne, hRne⟩ := hne hbf
  rw [Blk.tag_free hbf] at hhb
  have a1 : 8 ≤ b.addr := by omega
  have a2 : b.addr + asize < W32 := by omega
  have a3 : ∀ q, (q + 8 ≤ b.addr ∨ b.addr + b.size ≤ q + 4) → q ≠ b.addr - 4 ∧
      q ≠ b.addr + asize - 8 ∧ q ≠ b.addr + asize - 4 ∧
      q ≠ b.addr + asize + (b.size - asize) - 8 := by
    intro q hq; omega
  have a4 : (b.size - asize) % 8 = 0 := by omega
  have a5 : 8 ≤ b.size - asize := by omega
  have a6 : b.addr + asize + (b.size - asize) < W32 := by omega
  have a7 : b.addr + asize - 8 ≠ b.addr + asize - 4 ∧
      b.addr + asize - 8 ≠ b.addr + asize + (b.size - asize) - 8 := by omega
  have a8 : b.addr + asize + (b.size - asize) = b.addr + b.size := by omega
  have a9 : ∀ a, a = b.addr → b.addr ≤ a ∧ a < b.addr + b.size := by
    intro a ha; omega
  have a9' : ∀ a, a = b.addr + asize → b.addr ≤ a ∧ a < b.addr + b.size := by
    intro a ha; omega
  have a10 : 16 ≤ b.size - asize := by omega
  have a11 : 8 ≤ asize := by omega
  have a12 : ∀ q, (q + 8 ≤ b.addr ∨ b.addr + b.size ≤ q + 4) →
      (q + 8 ≤ b.addr + asize ∨ b.addr + asize + (b.size - asize) ≤ q + 4) := by
    intro q hq; omega
  have a13 : 4 ≤ b.addr := by omega
  obtain ⟨m2, hk, hh2, hf2, hb2, hl2, hi2, fr2⟩ :=
    set_tags hhb hb8 (by decide) ha8 (by decide) a1 a2 hc
  obtain ⟨m4, hk, hh4, hn4, hf4, hb4, hl4, hi4, fr4⟩ :=
    set_tags_next hh2 ha8 (by decide) a11 a4 (by decide) a1 a6 hk
  rw [seg_NEXT_BLKP_tag hh4 ha8 (by decide) a13 a2, ok_bind] at hk
  obtain ⟨s5, hi5, hk⟩ := bind_ok hk
  obtain ⟨rfl, rfl⟩ := Prod.mk.inj ((pure_ok_iff _ _).mp hk)
  have eB : L ++ b :: R = L ++ [b] ++ R := by simp
  rw [eB] at P
  have P4 := @Part.part_replace _ _ _ _ [⟨b.addr, asize, true⟩,
      ⟨b.addr + asize, b.size - asize, false⟩] _ _ _ m4 _ _ [b.addr + asize] P hLne hRne
    hTL hTR
    (by
      simp only [Tiles]
      exact ⟨trivial, ha8, fun _ => a11, trivial, a4, fun _ => a5, a8⟩)
    (by
      intro c hc
      simp only [List.mem_cons, List.mem_singleton, List.not_mem_nil, or_false] at hc
      rcases hc with rfl | rfl
      · exact a11
      · exact a5)
    ⟨by rw [hb4, hb2], by rw [hl4, hl2], by rw [hi4, hi2]⟩
    (fun q hq => by
      obtain ⟨q1, q2, q3, q4⟩ := a3 q hq
      rw [fr4 q q3 q4, fr2 q q1 q2])
    (by
      intro c hc
      simp only [List.mem_cons, List.mem_singleton, List.not_mem_nil, or_false] at hc
      rcases hc with rfl | rfl
      · refine ⟨hh4, ?_⟩
        show GET_SIZE m4 (b.addr + asize - 8) = _
        rw [GET_SIZE_congr (fr4 _ a7.1 a7.2)]; exact hf2
      · exact ⟨hn4, hf4⟩)
    (by
      intro c hc hcf
      simp only [List.mem_cons, List.mem_singleton, List.not_mem_nil, or_false] at hc
      rcases hc with rfl | rfl
      · simp at hcf
      · exact a10)
    (by intro c hc _; simp only [List.mem_singleton] at hc; subst hc; simp)
    (by intro a ha; simp only [List.mem_singleton] at ha; exact a9 a ha)
    (by
      intro c hc hcf
      simp only [List.mem_cons, List.mem_singleton, List.not_mem_nil, or_false] at hc
      rcases hc with rfl | rfl
      · simp at hcf
      · simp)
    (by intro a ha; simp only [List.mem_singleton] at ha; exact a9' a ha)
  obtain ⟨F5, P5, hb5, hl5, hh5, fr5⟩ := Part.insert
    (b := ⟨b.addr + asize, b.size - asize, false⟩) [] P4 (by simp) rfl (by simp) (by simp) hi5
  refine ⟨F5, by simpa using P5.wf, rfl, by rw [hb5]; exact (by rw [hb4, hb2]),
    by rw [hl5]; exact (by rw [hl4, hl2]), by rw [hh5]; exact (by rw [hi4, hi2]),
    fun q hq1 hq2 => ?_⟩
  obtain ⟨q1, q2, q3, q4⟩ := a3 q hq2
  rw [fr5 q, show load ({ s with mem := m4 } : State).mem q = load m4 q from rfl,
    fr4 q q3 q4, fr2 q q1 q2]
  intro f hf hff
  simp only [List.mem_append, List.mem_cons, List.mem_singleton, List.not_mem_nil,
    or_false] at hf
  rcases hf with (hf | rfl | rfl) | hf
  · exact hq1 f (by simp [hf]) hff
  · simp at hff
  · exact a12 q hq2
  · exact hq1 f (by simp [hf]) hff

/-- What `place` does on a well-formed heap, at a free block `b` large enough for `asize`:
an allocated block `c` of at least `asize` bytes is carved out of `b`. -/
theorem seg_place_spec {fuel : Nat} {s s' : State} {h0 : Nat} {L R : List Blk} {b : Blk}
    {F : Nat → List Nat} {asize r : Nat}
    (h : WF s h0 (L ++ b :: R) F) (hbf : b.alloc = false) (ha8 : asize % 8 = 0)
    (ha16 : 16 ≤ asize) (hle : asize ≤ b.size)
    (hp : place fuel s b.addr asize = .ok (s', r)) :
    ∃ B' F' c, WF s' h0 B' F' ∧ c ∈ B' ∧ c.addr = r ∧ c.alloc = true ∧ asize ≤ c.size ∧
      b.addr ≤ r ∧ r + c.size ≤ b.addr + b.size ∧
      (NoAdjFree (L ++ b :: R) → NoAdjFree B') ∧
      (∀ x, x.alloc = true → (x ∈ B' ↔ x ∈ L ++ b :: R ∨ x = c)) ∧
      s'.mem.brk = s.mem.brk ∧ s'.mem.lo = s.mem.lo ∧ s'.mem.hi = s.mem.hi ∧
      (∀ q, Outside (L ++ b :: R) q → load s'.mem q = load s.mem q) ∧
      (∀ q, Outside (L ++ b :: R) q → Outside B' q) := by
  have hL := h.layout
  have g1 : ∀ q, (q + 8 ≤ b.addr ∨ b.addr + b.size ≤ q + 4) →
      (q + 8 ≤ b.addr ∨ b.addr + (b.size - asize) ≤ q + 4) := by
    intro q hq; omega
  have g2 : ∀ q, (q + 8 ≤ b.addr ∨ b.addr + b.size ≤ q + 4) →
      (q + 8 ≤ b.addr + asize ∨ b.addr + asize + (b.size - asize) ≤ q + 4) := by
    intro q hq; omega
  obtain ⟨-, -, h8, hb0, hb8, -, hle', hlt, -, -⟩ := hL.single
  have a1 : b.size < W32 := by omega
  have a2 : asize + 16 < b.size ∨ b.size - asize ≤ 16 := by omega
  have a4 : b.addr + (b.size - asize) + asize ≤ b.addr + b.size ∧
      b.addr ≤ b.addr + (b.size - asize) := by omega
  have e1 : GET_SIZE s.mem (HDRP b.addr) = .ok b.size := hL.get_size (by simp)
  unfold place at hp
  rw [e1, ok_bind, sub32_eq hle a1] at hp
  obtain ⟨s1, hd, hp⟩ := bind_ok hp
  obtain ⟨F1, P1, hb1, hl1, hh1, fr1⟩ := h.part.delete (b := b) (by simp) hbf (by simp) hd
  have hq : ∀ q, Outside (L ++ b :: R) q →
      Outside (L ++ R) q ∧ (q + 8 ≤ b.addr ∨ b.addr + b.size ≤ q + 4) := by
    intro q hq
    refine ⟨hq.mono (by
      intro f hf _
      simp only [List.mem_append, List.mem_cons] at hf ⊢
      rcases hf with h | h <;> simp [h]), hq b (by simp) hbf⟩
  by_cases c1 : b.size - asize ≤ DSIZE * 2
  · rw [if_pos c1] at hp
    obtain ⟨hW, rfl, hb2, hl2, hh2, fr2⟩ := place_whole P1 hbf hp
    refine ⟨_, F1, ⟨b.addr, b.size, true⟩, hW, by simp, rfl, rfl, hle, le_refl _, le_refl _,
      ?_, ?_, by rw [hb2, hb1], by rw [hl2, hl1], by rw [hh2, hh1], fun q hq' => ?_,
      fun q hq' f hf hff => ?_⟩
    rotate_right
    · simp only [List.mem_append, List.mem_cons] at hf
      rcases hf with hf | rfl | hf
      · exact hq' f (by simp [hf]) hff
      · simp at hff
      · exact hq' f (by simp [hf]) hff
    · intro hna
      obtain ⟨n1, n2⟩ := noadj_split hna
      exact Implicit.noadj_overlap (z := ⟨b.addr, b.size, true⟩)
        (noadj_last_alloc (by simp) n1) (noadj_head_alloc (by simp) n2)
    · intro x hx
      simp only [List.mem_append, List.mem_cons]
      constructor
      · rintro (h1 | h1 | h1)
        · exact Or.inl (Or.inl h1)
        · exact Or.inr h1
        · exact Or.inl (Or.inr (Or.inr h1))
      · rintro ((h1 | h1 | h1) | h1)
        · exact Or.inl h1
        · rw [h1, hbf] at hx; simp at hx
        · exact Or.inr (Or.inr h1)
        · exact Or.inr (Or.inl h1)
    · rw [fr2 q (hq q hq').2, fr1 q hq']
  · rw [if_neg c1] at hp
    have hrem : asize + 16 < b.size := by
      rcases a2 with h | h
      · exact h
      · exact absurd h c1
    by_cases c2 : asize ≥ 100
    · rw [if_pos c2] at hp
      obtain ⟨F', hW, rfl, hb2, hl2, hh2, fr2⟩ := place_tail P1 hbf ha8 ha16 hrem hp
      refine ⟨_, F', ⟨b.addr + (b.size - asize), asize, true⟩, hW, by simp, rfl, rfl,
        le_refl _, a4.2, a4.1, ?_, ?_, by rw [hb2, hb1], by rw [hl2, hl1], by rw [hh2, hh1],
        fun q hq' => ?_, fun q hq' f hf hff => ?_⟩
      rotate_right
      · simp only [List.mem_append, List.mem_cons] at hf
        rcases hf with hf | rfl | rfl | hf
        · exact hq' f (by simp [hf]) hff
        · exact g1 q (hq' b (by simp) hbf)
        · simp at hff
        · exact hq' f (by simp [hf]) hff
      · intro hna
        obtain ⟨n1, n2⟩ := noadj_split hna
        exact Implicit.noadj_join (x := ⟨b.addr, b.size - asize, false⟩)
          (y := ⟨b.addr + (b.size - asize), asize, true⟩)
          (Implicit.noadj_last_congr (x := b) (by simp [hbf]) n1)
          (noadj_head_alloc (by simp) n2) (Or.inr (by simp))
      · intro x hx
        simp only [List.mem_append, List.mem_cons]
        constructor
        · rintro (h1 | h1 | h1 | h1)
          · exact Or.inl (Or.inl h1)
          · rw [h1] at hx; simp at hx
          · exact Or.inr h1
          · exact Or.inl (Or.inr (Or.inr h1))
        · rintro ((h1 | h1 | h1) | h1)
          · exact Or.inl h1
          · rw [h1, hbf] at hx; simp at hx
          · exact Or.inr (Or.inr (Or.inr h1))
          · exact Or.inr (Or.inr (Or.inl h1))
      · rw [fr2 q (hq q hq').1 (hq q hq').2, fr1 q hq']
    · rw [if_neg c2] at hp
      obtain ⟨F', hW, rfl, hb2, hl2, hh2, fr2⟩ := place_head P1 hbf ha8 ha16 hrem hp
      refine ⟨_, F', ⟨b.addr, asize, true⟩, hW, by simp, rfl, rfl,
        le_refl _, le_refl _, by show b.addr + asize ≤ b.addr + b.size; omega, ?_, ?_,
        by rw [hb2, hb1], by rw [hl2, hl1], by rw [hh2, hh1], fun q hq' => ?_,
        fun q hq' f hf hff => ?_⟩
      rotate_right
      · simp only [List.mem_append, List.mem_cons] at hf
        rcases hf with hf | rfl | rfl | hf
        · exact hq' f (by simp [hf]) hff
        · simp at hff
        · exact g2 q (hq' b (by simp) hbf)
        · exact hq' f (by simp [hf]) hff
      · intro hna
        obtain ⟨n1, n2⟩ := noadj_split hna
        exact Implicit.noadj_join (x := ⟨b.addr, asize, true⟩)
          (y := ⟨b.addr + asize, b.size - asize, false⟩)
          (noadj_last_alloc (by simp) n1)
          (Implicit.noadj_head_congr (x := b) (by simp [hbf]) n2) (Or.inl (by simp))
      · intro x hx
        simp only [List.mem_append, List.mem_cons]
        constructor
        · rintro (h1 | h1 | h1 | h1)
          · exact Or.inl (Or.inl h1)
          · exact Or.inr h1
          · rw [h1] at hx; simp at hx
          · exact Or.inl (Or.inr (Or.inr h1))
        · rintro ((h1 | h1 | h1) | h1)
          · exact Or.inl h1
          · rw [h1, hbf] at hx; simp at hx
          · exact Or.inr (Or.inr (Or.inr h1))
          · exact Or.inr (Or.inl h1)
      · rw [fr2 q (hq q hq').1 (hq q hq').2, fr1 q hq']

end Seg


/-! ## Segregated variant: `extend_heap` -/

namespace Seg

theorem ALIGN_facts {size : Nat} (h : size + 7 < W32) :
    ALIGN size % 8 = 0 ∧ size ≤ ALIGN size ∧ ALIGN size < size + 8 := by
  unfold ALIGN
  rw [add32_eq h, land_mask8 _ h]
  omega

/-- A laid-out heap ends with a block `p` followed by the epilogue. -/
theorem Layout.last_blk {m : Mem} {h0 : Nat} {B : List Blk} (h : Layout m h0 B) :
    ∃ L p, B = L ++ [p, ⟨m.brk, 0, true⟩] := by
  obtain ⟨L0, hL0⟩ := List.getLast?_eq_some_iff.mp h.last
  rcases List.eq_nil_or_concat L0 with hn | ⟨L, p, hLp⟩
  · have := h.head
    rw [hL0, hn] at this
    simp at this
  · exact ⟨L, p, by rw [hL0, hLp]; simp⟩

/-- The heap built by `extend_heap` before it inserts the new block: the old epilogue has
become the header of a new free block of `sz` bytes, followed by a new epilogue. -/
theorem Part.extend {s : State} {h0 : Nat} {L : List Blk} {p : Blk} {F : Nat → List Nat}
    {sz : Nat} {m3 : Mem}
    (h : WF s h0 (L ++ [p, ⟨s.mem.brk, 0, true⟩]) F) (hsz8 : sz % 8 = 0) (hsz : 16 ≤ sz)
    (hhi : s.mem.brk + sz ≤ s.mem.hi)
    (hm : m3.brk = s.mem.brk + sz ∧ m3.lo = s.mem.lo ∧ m3.hi = s.mem.hi)
    (hfr : ∀ q, q + 8 ≤ s.mem.brk → load m3 q = load s.mem q)
    (hh : load m3 (s.mem.brk - 4) = .ok (sz + 0))
    (hf : GET_SIZE m3 (s.mem.brk + sz - 8) = .ok sz)
    (he : load m3 (s.mem.brk + sz - 4) = .ok (0 + 1)) :
    Part { s with mem := m3 } h0
      (L ++ [p, ⟨s.mem.brk, sz, false⟩, ⟨s.mem.brk + sz, 0, true⟩]) F [s.mem.brk] := by
  have hL := h.layout
  have hB : L ++ [p, ⟨s.mem.brk, 0, true⟩] = (L ++ [p]) ++ [⟨s.mem.brk, 0, true⟩] := by simp
  have hT := hL.tiles
  rw [hB, tiles_append _ _ _ _ (by simp)] at hT
  obtain ⟨c, hTL, hTe, hL8⟩ := hT
  simp only [Tiles, Nat.add_zero] at hTe
  obtain ⟨_, _, _, rfl⟩ := hTe
  have hl := hL.h0_ge
  have hlt := hL.hi_lt
  have hge := tiles_le _ _ _ hTL
  have key : ∀ b ∈ L ++ [p], b.addr - 4 + 8 ≤ s.mem.brk ∧ b.addr + b.size - 8 + 8 ≤ s.mem.brk ∧
      b.size ≠ 0 := by
    intro b hb
    have h1 := tiles_mem _ _ _ hTL b hb
    have h2 := hL8 b hb
    omega
  have hin : ∀ b ∈ L ++ [p], b ∈ L ++ [p, ⟨s.mem.brk, 0, true⟩] := by
    intro b hb
    simp only [List.mem_append, List.mem_cons, List.mem_singleton, List.not_mem_nil,
      or_false] at hb ⊢
    tauto
  have hnode : ∀ k, k < 20 → ∀ a ∈ F k, ∃ b ∈ L ++ [p], b.addr = a ∧ b.alloc = false ∧
      bucket b.size = k := by
    intro k hk a ha
    obtain ⟨b, hb, e, hbf, hbk⟩ := h.lists.nodes k hk a ha
    simp only [List.mem_append, List.mem_cons, List.mem_singleton, List.not_mem_nil,
      or_false] at hb
    rcases hb with hb | hb | hb
    · exact ⟨b, by simp [hb], e, hbf, hbk⟩
    · exact ⟨b, by simp [hb], e, hbf, hbk⟩
    · rw [hb] at hbf; simp at hbf
  refine ⟨⟨by rw [hm.2.2]; exact hlt, by rw [hm.1, hm.2.2]; exact hhi,
    by rw [hm.2.1]; exact hl, ?_, ?_, ?_, ?_, ?_, ?_⟩, ?_, ?_, ?_⟩
  · have := hL.head
    cases L with
    | nil => simpa using this
    | cons a L => simpa using this
  · show List.getLast? _ = some ⟨m3.brk, 0, true⟩
    rw [hm.1]
    have e : L ++ [p, ⟨s.mem.brk, sz, false⟩, ⟨s.mem.brk + sz, 0, true⟩]
        = (L ++ [p, ⟨s.mem.brk, sz, false⟩]) ++ [⟨s.mem.brk + sz, 0, true⟩] := by simp
    rw [e, List.getLast?_concat]
  · show Tiles h0 _ m3.brk
    rw [hm.1]
    have e : L ++ [p, ⟨s.mem.brk, sz, false⟩, ⟨s.mem.brk + sz, 0, true⟩]
        = (L ++ [p]) ++ [⟨s.mem.brk, sz, false⟩, ⟨s.mem.brk + sz, 0, true⟩] := by simp
    rw [e, tiles_append _ _ _ _ (by simp)]
    exact ⟨_, hTL, by simp [Tiles]; omega, hL8⟩
  · intro b hb
    show load m3 _ = _
    have e : L ++ [p, ⟨s.mem.brk, sz, false⟩, ⟨s.mem.brk + sz, 0, true⟩]
        = (L ++ [p]) ++ [⟨s.mem.brk, sz, false⟩, ⟨s.mem.brk + sz, 0, true⟩] := by simp
    rw [e] at hb
    rcases List.mem_append.mp hb with hb | hb'
    on_goal 2 => simp only [List.mem_cons, List.mem_singleton, List.not_mem_nil,
      or_false] at hb'
    on_goal 2 => rcases hb' with rfl | rfl
    · rw [hfr _ (key b hb).1]; exact hL.hdr b (hin b hb)
    · exact hh
    · exact he
  · intro b hb h0
    show GET_SIZE m3 _ = _
    have e : L ++ [p, ⟨s.mem.brk, sz, false⟩, ⟨s.mem.brk + sz, 0, true⟩]
        = (L ++ [p]) ++ [⟨s.mem.brk, sz, false⟩, ⟨s.mem.brk + sz, 0, true⟩] := by simp
    rw [e] at hb
    rcases List.mem_append.mp hb with hb | hb'
    on_goal 2 => simp only [List.mem_cons, List.mem_singleton, List.not_mem_nil,
      or_false] at hb'
    on_goal 2 => rcases hb' with rfl | rfl
    · rw [GET_SIZE_congr (hfr _ (key b hb).2.1)]; exact hL.ftr b (hin b hb) h0
    · exact hf
    · simp at h0
  · intro b hb hbf
    have e : L ++ [p, ⟨s.mem.brk, sz, false⟩, ⟨s.mem.brk + sz, 0, true⟩]
        = (L ++ [p]) ++ [⟨s.mem.brk, sz, false⟩, ⟨s.mem.brk + sz, 0, true⟩] := by simp
    rw [e] at hb
    rcases List.mem_append.mp hb with hb | hb'
    on_goal 2 => simp only [List.mem_cons, List.mem_singleton, List.not_mem_nil,
      or_false] at hb'
    on_goal 2 => rcases hb' with rfl | rfl
    · exact hL.free16 b (hin b hb) hbf
    · exact hsz
    · simp at hbf
  · refine h.lists.of_frame (fun k hk a ha => ?_) (fun k hk a ha => ?_)
    · obtain ⟨b, hb, e, hbf, _⟩ := hnode k hk a ha
      have h1 := tiles_mem _ _ _ hTL b hb
      have h2 := hL.free16 b (hin b hb) hbf
      exact ⟨hfr _ (by omega), hfr _ (by omega)⟩
    · obtain ⟨b, hb, e, hbf, hbk⟩ := hnode k hk a ha
      refine ⟨b, ?_, e, hbf, hbk⟩
      simp only [List.mem_append, List.mem_cons, List.mem_singleton, List.not_mem_nil,
        or_false] at hb ⊢
      tauto
  · intro b hb hbf
    have e : L ++ [p, ⟨s.mem.brk, sz, false⟩, ⟨s.mem.brk + sz, 0, true⟩]
        = (L ++ [p]) ++ [⟨s.mem.brk, sz, false⟩, ⟨s.mem.brk + sz, 0, true⟩] := by simp
    rw [e] at hb
    rcases List.mem_append.mp hb with hb | hb'
    on_goal 2 => simp only [List.mem_cons, List.mem_singleton, List.not_mem_nil,
      or_false] at hb'
    on_goal 2 => rcases hb' with rfl | rfl
    · exact Or.inr (h.complete b (hin b hb) hbf)
    · exact Or.inl (by simp)
    · simp at hbf
  · intro k hk a ha hmem
    simp only [List.mem_singleton] at hmem
    obtain ⟨b, hb, e, hbf, _⟩ := hnode k hk a ha
    have h1 := tiles_mem _ _ _ hTL b hb
    have h2 := hL.free16 b (hin b hb) hbf
    omega

end Seg

namespace Seg

/-- The three tag writes of `extend_heap` after a successful `mem_sbrk`. -/
theorem extend_tags {α : Type} {m0 : Mem} {sz : Nat} {k : Mem → Except Err α} {res : α}
    (hsz8 : sz % 8 = 0) (hsz : 16 ≤ sz) (h8 : 8 ≤ m0.brk) (hlt : m0.brk + sz < W32)
    (hrun : (do
      let m ← PUT_NOTAG { m0 with brk := m0.brk + sz } (HDRP m0.brk) (PACK sz 0)
      let f ← FTRP m m0.brk
      let m ← PUT_NOTAG m f (PACK sz 0)
      let next ← NEXT_BLKP m m0.brk
      let m ← PUT_NOTAG m (HDRP next) (PACK 0 1)
      k m) = .ok res) :
    ∃ m3, k m3 = .ok res ∧
      m3.brk = m0.brk + sz ∧ m3.lo = m0.lo ∧ m3.hi = m0.hi ∧
      (∀ q, q + 8 ≤ m0.brk → load m3 q = load m0 q) ∧
      load m3 (m0.brk - 4) = .ok (sz + 0) ∧ GET_SIZE m3 (m0.brk + sz - 8) = .ok sz ∧
      load m3 (m0.brk + sz - 4) = .ok (0 + 1) := by
  have a1 : 4 ≤ m0.brk := by omega
  have a2 : m0.brk < W32 := by omega
  have a3 : sz + 0 < W32 := by omega
  have a4 : 4 ≤ m0.brk + sz := by omega
  have a5 : m0.brk - 4 ≠ m0.brk + sz - 8 ∧ m0.brk - 4 ≠ m0.brk + sz - 4 ∧
      m0.brk + sz - 8 ≠ m0.brk + sz - 4 := by omega
  have a6 : ∀ q, q + 8 ≤ m0.brk → q ≠ m0.brk - 4 ∧ q ≠ m0.brk + sz - 8 ∧
      q ≠ m0.brk + sz - 4 ∧ q + 4 ≤ m0.brk := by
    intro q hq; omega
  have a7 : (0 + 1) % W32 = 0 + 1 := by decide
  rw [seg_PACK_eq hsz8 (by decide), seg_HDRP_eq a1 a2] at hrun
  unfold PUT_NOTAG at hrun
  obtain ⟨m1, hst1, hrun⟩ := bind_ok hrun
  have hh1 : load m1 (m0.brk - 4) = .ok (sz + 0) := by
    rw [load_store hst1, if_pos rfl, Nat.mod_eq_of_lt a3]
  rw [seg_FTRP_tag hh1 hsz8 (by decide) h8 hlt, ok_bind] at hrun
  obtain ⟨m2, hst2, hrun⟩ := bind_ok hrun
  have hh2 : load m2 (m0.brk - 4) = .ok (sz + 0) := by
    rw [load_store hst2, if_neg a5.1]; exact hh1
  rw [seg_NEXT_BLKP_tag hh2 hsz8 (by decide) a1 hlt, ok_bind, seg_HDRP_eq a4 hlt,
    seg_PACK_eq (by decide) (by decide)] at hrun
  obtain ⟨m3, hst3, hrun⟩ := bind_ok hrun
  refine ⟨m3, hrun, by rw [store_brk hst3, store_brk hst2, store_brk hst1],
    by rw [store_lo hst3, store_lo hst2, store_lo hst1],
    by rw [store_hi hst3, store_hi hst2, store_hi hst1], fun q hq => ?_, ?_, ?_, ?_⟩
  · obtain ⟨q1, q2, q3, q4⟩ := a6 q hq
    rw [load_store hst3, if_neg q3, load_store hst2, if_neg q2, load_store hst1, if_neg q1]
    exact load_grow (Nat.le_add_right _ _) q4
  · rw [load_store hst3, if_neg a5.2.1]; exact hh2
  · refine seg_GET_SIZE_tag (a := 0) ?_ hsz8 (by decide)
    rw [load_store hst3, if_neg a5.2.2, load_store hst2, if_pos rfl, Nat.mod_eq_of_lt a3]
  · rw [load_store hst3, if_pos rfl, a7]

/-- What `extend_heap` does on a well-formed heap: either the facade refuses and nothing
changes, or the heap grows by a free block, merged with a free last block, which is in the
lists. -/
theorem seg_extend_heap_spec {fuel : Nat} {s s' : State} {h0 : Nat} {B : List Blk}
    {F : Nat → List Nat} {size r : Nat} (h : WF s h0 B F) (hs16 : 16 ≤ size)
    (hslt : size + 7 < W32) (he : extend_heap fuel s size = .ok (s', r)) :
    (r = 0 ∧ s' = s) ∨
    (∃ B' F' c, WF s' h0 B' F' ∧ c ∈ B' ∧ c.addr = r ∧ c.alloc = false ∧ size ≤ c.size ∧
      (NoAdjFree B → NoAdjFree B') ∧
      (∀ x, x.alloc = true → x.size ≠ 0 → (x ∈ B' ↔ x ∈ B)) ∧
      s'.mem.brk = s.mem.brk + ALIGN size ∧ s'.mem.lo = s.mem.lo ∧ s'.mem.hi = s.mem.hi ∧
      (∀ q, Outside B q → q + 8 ≤ s.mem.brk → load s'.mem q = load s.mem q) ∧
      (∀ q, Outside B q → q + 8 ≤ s.mem.brk → Outside B' q)) := by
  obtain ⟨hz8, hz1, hz2⟩ := ALIGN_facts hslt
  have hL := h.layout
  have hlt := hL.lt_brk
  have hhlt := hL.hi_lt
  have h0ge := hL.h0_ge
  obtain ⟨L, p, rfl⟩ := hL.last_blk
  have hbrk := (hL.bounds (show (⟨s.mem.brk, 0, true⟩ : Blk) ∈ _ by simp)).2.1
  have a1 : ALIGN size % W32 = ALIGN size := Nat.mod_eq_of_lt (by omega)
  have a2 : 16 ≤ ALIGN size := by omega
  have a3 : 8 ≤ s.mem.brk := by
    have : h0 ≤ s.mem.brk := hbrk
    omega
  unfold extend_heap at he
  simp only at he
  cases hsb : mem_sbrk s.mem (ALIGN size) with
  | none =>
    rw [hsb] at he
    simp only [pure, Except.pure, Except.ok.injEq, Prod.mk.injEq] at he
    exact Or.inl ⟨he.2.symm, he.1.symm⟩
  | some pm =>
    obtain ⟨ptr, m⟩ := pm
    rw [hsb] at he
    obtain ⟨rfl, rfl, hhi⟩ := mem_sbrk_ok hsb
    rw [a1] at hhi he
    have a4 : s.mem.brk + ALIGN size < W32 := by omega
    simp only at he
    obtain ⟨m3, hk, hb3, hl3, hh3, fr3, t1, t2, t3⟩ := extend_tags hz8 a2 a3 a4 he
    obtain ⟨s4, hi4, hk⟩ := bind_ok hk
    have P3 := Part.extend h hz8 a2 hhi ⟨hb3, hl3, hh3⟩ fr3 t1 t2 t3
    obtain ⟨F4, P4, hb4, hl4, hh4, fr4⟩ := Part.insert
      (b := ⟨s.mem.brk, ALIGN size, false⟩) [] P3 (by simp) rfl (by simp) (by simp) hi4
    have W4 : WF s4 h0 (L ++ p :: ⟨s.mem.brk, ALIGN size, false⟩ ::
        ⟨s.mem.brk + ALIGN size, 0, true⟩ :: []) F4 := P4.wf
    obtain ⟨B', F', hW, hna, hal, ⟨c, hc, hcr, hcf, hcs⟩, hb5, hl5, hh5, fr5, ho5⟩ :=
      seg_coalesce_spec (b := ⟨s.mem.brk, ALIGN size, false⟩) W4 rfl hk
    have hq3 : ∀ q, Outside (L ++ [p, ⟨s.mem.brk, 0, true⟩]) q → q + 8 ≤ s.mem.brk →
        Outside (L ++ [p, ⟨s.mem.brk, ALIGN size, false⟩,
          ⟨s.mem.brk + ALIGN size, 0, true⟩]) q := by
      intro q hq1 hq2 f hf hff
      simp only [List.mem_append, List.mem_cons, List.mem_singleton, List.not_mem_nil,
        or_false] at hf
      rcases hf with hf | hf | rfl | rfl
      · exact hq1 f (by simp [hf]) hff
      · exact hq1 f (by simp [hf]) hff
      · exact Or.inl hq2
      · simp at hff
    refine Or.inr ⟨B', F', c, hW, hc, hcr, hcf, le_trans hz1 hcs, ?_, ?_,
      by rw [hb5, hb4]; exact hb3, by rw [hl5, hl4]; exact hl3, by rw [hh5, hh4]; exact hh3,
      fun q hq1 hq2 => ?_, fun q hq1 hq2 => ho5 q (hq3 q hq1 hq2)⟩
    · intro hn
      refine hna ?_ (List.chain'_singleton _)
      have e : L ++ [p, ⟨s.mem.brk, 0, true⟩] = (L ++ [p]) ++ [⟨s.mem.brk, 0, true⟩] := by simp
      rw [e] at hn
      exact List.Chain'.left_of_append hn
    · intro x hx hx0
      rw [hal x hx]
      simp only [List.mem_append, List.mem_cons, List.mem_singleton, List.not_mem_nil,
        or_false]
      constructor
      · rintro (h1 | h1 | h1 | h1)
        · exact Or.inl h1
        · exact Or.inr (Or.inl h1)
        · rw [h1] at hx; simp at hx
        · rw [h1] at hx0; simp at hx0
      · rintro (h1 | h1 | h1)
        · exact Or.inl h1
        · exact Or.inr (Or.inl h1)
        · rw [h1] at hx0; simp at hx0
    · rw [fr5 q (hq3 q hq1 hq2), fr4 q (hq3 q hq1 hq2)]
      exact fr3 q hq2

end Seg


/-! ## Segregated variant: `mm_malloc` -/

namespace Seg

theorem seg_adjust_facts {n : Nat} (hn : n + 15 < 2147483648) :
    adjust n % 8 = 0 ∧ 16 ≤ adjust n ∧ n + 8 ≤ adjust n ∧ adjust n < 2147483648 := by
  unfold adjust DSIZE
  by_cases h : n ≤ 8
  · rw [if_pos h]; omega
  · rw [if_neg h, add32_eq (by unfold W32; omega)]
    have := @ALIGN_facts (n + 8) (by unfold W32; omega)
    omega

/-- The amount by which `mm_malloc` extends the heap. -/
theorem extendsize_eq {a : Nat} (h : a < 2147483648) :
    ofInt32 (MAX (toInt32 a) (toInt32 CHUNKSIZE)) = max a 4096 := by
  have e1 : toInt32 a = (a : Int) := by
    unfold toInt32 W32
    rw [Nat.mod_eq_of_lt (by omega), if_pos h]
  have e2 : toInt32 CHUNKSIZE = 4096 := by decide
  rw [e1, e2]
  unfold MAX ofInt32
  split_ifs with hc
  · rw [max_eq_left (by omega)]
    omega
  · rw [max_eq_right (by omega)]
    rfl

/-- The inner traversal of the fit search ends at `NULL` or at a free block that is large
enough. -/
theorem fitWalk_spec {m : Mem} {hd : Nat → Nat} {h0 : Nat} {B : List Blk} {F : Nat → List Nat}
    (hL : Layout m h0 B) (hF : Lists m hd B F) {asize k : Nat} (hk : k < 20) :
    ∀ (fuel ptr r : Nat), (ptr = 0 ∨ ptr ∈ F k) → fitWalk m asize fuel ptr = .ok r →
      r = 0 ∨ ∃ b ∈ B, b.addr = r ∧ b.alloc = false ∧ asize ≤ b.size
  | 0, _, _, _, h => by simp [fitWalk] at h
  | n + 1, ptr, r, hp, h => by
    unfold fitWalk at h
    by_cases h0' : ptr ≠ 0
    · rw [if_pos h0'] at h
      have hin : ptr ∈ F k := by
        rcases hp with hp | hp
        · exact absurd hp h0'
        · exact hp
      obtain ⟨b, hb, rfl, hbf, hbk⟩ := hF.nodes k hk ptr hin
      rw [hL.get_size hb, hL.get_tag hb] at h
      simp only [ok_bind, ne_eq, not_true_eq_false, or_false] at h
      by_cases hc : asize > b.size
      · rw [if_pos hc] at h
        obtain ⟨p, hpr, h⟩ := bind_ok h
        obtain ⟨xs, ys, hxy⟩ := List.append_of_mem hin
        have hd := hF.dll k hk
        rw [hxy] at hd
        have := (DLLseg_next hd).1
        unfold PRED at hpr
        obtain rfl := ok_inj this hpr
        refine fitWalk_spec hL hF hk n _ r ?_ h
        cases ys with
        | nil => exact Or.inl rfl
        | cons y ys => exact Or.inr (by rw [hxy]; simp)
      · rw [if_neg hc] at h
        obtain rfl := (pure_ok_iff _ _).mp h
        exact Or.inr ⟨b, hb, rfl, hbf, by omega⟩
    · rw [if_neg h0'] at h
      obtain rfl := (pure_ok_iff _ _).mp h
      exact Or.inl (by simpa using h0')

/-- The fit search of `mm_malloc` ends at `NULL` or at a free block that is large enough. -/
theorem fitLists_spec {fuel : Nat} {s : State} {h0 : Nat} {B : List Blk} {F : Nat → List Nat}
    (h : WF s h0 B F) {asize : Nat} :
    ∀ (n list ss r : Nat), list + n ≤ 20 → fitLists fuel s asize n list ss = .ok r →
      r = 0 ∨ ∃ b ∈ B, b.addr = r ∧ b.alloc = false ∧ asize ≤ b.size
  | 0, _, _, _, _, hr => by
    simp only [fitLists] at hr
    exact Or.inl ((pure_ok_iff _ _).mp hr).symm
  | n + 1, list, ss, r, hn, hr => by
    unfold fitLists at hr
    have hk : list < 20 := by omega
    split_ifs at hr with hc
    · obtain ⟨p, hw, hr⟩ := bind_ok hr
      have hp := fitWalk_spec h.layout h.lists hk fuel _ p (by
        rw [h.lists.heads list hk]
        cases F list with
        | nil => exact Or.inl rfl
        | cons y ys => exact Or.inr (by simp)) hw
      split_ifs at hr with hp0
      · obtain rfl := (pure_ok_iff _ _).mp hr
        exact hp
      · exact fitLists_spec h n _ _ r (by omega) hr
    · exact fitLists_spec h n _ _ r (by omega) hr

/-- What `mm_malloc` does on a well-formed heap for a request whose adjusted size does not
wrap around: it returns `NULL` and changes nothing, or it returns an allocated block `c` of
at least the adjusted size, carved out of free space. -/
theorem seg_mm_malloc_spec {fuel : Nat} {s s' : State} {h0 : Nat} {B : List Blk}
    {F : Nat → List Nat} {n r : Nat} (h : WF s h0 B F) (hn : n + 15 < 2147483648)
    (hm : mm_malloc fuel s n = .ok (s', r)) :
    (r = 0 ∧ s' = s) ∨
    (∃ B' F' c, WF s' h0 B' F' ∧ c ∈ B' ∧ c.addr = r ∧ c.alloc = true ∧ adjust n ≤ c.size ∧
      (NoAdjFree B → NoAdjFree B') ∧
      (∀ x, x.alloc = true → x.size ≠ 0 → (x ∈ B' ↔ x ∈ B ∨ x = c)) ∧
      (∀ x ∈ B, x.alloc = true → x.size ≠ 0 → x.addr ≠ r) ∧
      s.mem.brk ≤ s'.mem.brk ∧ s'.mem.lo = s.mem.lo ∧ s'.mem.hi = s.mem.hi ∧
      (∀ q, Outside B q → q + 8 ≤ s.mem.brk → load s'.mem q = load s.mem q) ∧
      (∀ q, Outside B q → q + 8 ≤ s.mem.brk → Outside B' q)) := by
  obtain ⟨a8, a16, an, alt⟩ := seg_adjust_facts hn
  have a1 : 16 ≤ max (adjust n) 4096 := by omega
  have a2 : max (adjust n) 4096 + 7 < W32 := by unfold W32; omega
  have a3 : adjust n ≤ max (adjust n) 4096 := by omega
  -- placing into a free block of a well-formed heap
  have hplace : ∀ (s1 : State) (B1 : List Blk) (F1 : Nat → List Nat) (b : Blk),
      WF s1 h0 B1 F1 → b ∈ B1 → b.alloc = false → adjust n ≤ b.size →
      place fuel s1 b.addr (adjust n) = .ok (s', r) →
      ∃ B' F' c, WF s' h0 B' F' ∧ c ∈ B' ∧ c.addr = r ∧ c.alloc = true ∧ adjust n ≤ c.size ∧
        (NoAdjFree B1 → NoAdjFree B') ∧
        (∀ x, x.alloc = true → (x ∈ B' ↔ x ∈ B1 ∨ x = c)) ∧
        (∀ x ∈ B1, x.alloc = true → x.size ≠ 0 → x.addr ≠ r) ∧
        s'.mem.brk = s1.mem.brk ∧ s'.mem.lo = s1.mem.lo ∧ s'.mem.hi = s1.mem.hi ∧
        (∀ q, Outside B1 q → load s'.mem q = load s1.mem q) ∧
        (∀ q, Outside B1 q → Outside B' q) := by
    intro s1 B1 F1 b hW hb hbf hle hp
    obtain ⟨L, R, rfl⟩ := List.append_of_mem hb
    obtain ⟨B', F', c, hW', hc, hcr, hca, hcs, hr1, hr2, hna, hal, hb', hl', hh', fr, ho⟩ :=
      seg_place_spec hW hbf a8 a16 hle hp
    refine ⟨B', F', c, hW', hc, hcr, hca, hcs, hna, hal, ?_, hb', hl', hh', fr, ho⟩
    intro x hx hxa hx0 e
    have hxb := hW.layout.bounds hx
    rcases tiles_disjoint _ _ _ hW.layout.tiles x hx b hb with rfl | h1 | h1
    · rw [hbf] at hxa; simp at hxa
    · omega
    · omega
  unfold mm_malloc at hm
  by_cases hn0 : n = 0
  · rw [if_pos hn0] at hm
    obtain ⟨rfl, rfl⟩ := Prod.mk.inj ((pure_ok_iff _ _).mp hm)
    exact Or.inl ⟨rfl, rfl⟩
  · rw [if_neg hn0] at hm
    simp only at hm
    obtain ⟨ptr, hfit, hm1⟩ := bind_ok hm
    clear hm
    have hf := fitLists_spec h LISTLIMIT 0 (adjust n) ptr (by decide) hfit
    by_cases hp0 : ptr = 0
    · rw [if_pos hp0, extendsize_eq alt] at hm1
      obtain ⟨⟨s1, p1⟩, he, hm2⟩ := bind_ok hm1
      clear hm1
      simp only at hm2
      rcases seg_extend_heap_spec h a1 a2 he with ⟨rfl, rfl⟩ | ⟨B1, F1, c1, hW1, hc1, hcr1, hcf1,
        hcs1, hna1, hal1, hb1, hl1, hh1, fr1, ho1⟩
      · rw [if_pos rfl] at hm2
        obtain ⟨rfl, rfl⟩ := Prod.mk.inj ((pure_ok_iff _ _).mp hm2)
        exact Or.inl ⟨rfl, rfl⟩
      · have hp1 : p1 ≠ 0 := by
          have := hW1.layout.bounds hc1
          omega
        rw [if_neg hp1, ← hcr1] at hm2
        obtain ⟨B', F', c, hW', hc, hcr, hca, hcs, hna, hal, hne, hb', hl', hh', fr, ho⟩ :=
          hplace s1 B1 F1 c1 hW1 hc1 hcf1 (le_trans a3 hcs1) hm2
        refine Or.inr ⟨B', F', c, hW', hc, hcr, hca, hcs, fun h => hna (hna1 h), ?_, ?_,
          by rw [hb', hb1]; exact Nat.le_add_right _ _, by rw [hl', hl1], by rw [hh', hh1],
          fun q h1 h2 => by rw [fr q (ho1 q h1 h2), fr1 q h1 h2],
          fun q h1 h2 => ho q (ho1 q h1 h2)⟩
        · intro x hx hx0
          rw [hal x hx, hal1 x hx hx0]
        · intro x hx hxa hx0
          exact hne x ((hal1 x hxa hx0).mpr hx) hxa hx0
    · rw [if_neg hp0] at hm1
      rcases hf with hf | ⟨b, hb, rfl, hbf, hle⟩
      · exact absurd hf hp0
      · obtain ⟨B', F', c, hW', hc, hcr, hca, hcs, hna, hal, hne, hb', hl', hh', fr, ho⟩ :=
          hplace s B F b h hb hbf hle hm1
        exact Or.inr ⟨B', F', c, hW', hc, hcr, hca, hcs, hna, fun x hx _ => hal x hx, hne,
          by rw [hb'], hl', hh', fun q h1 _ => fr q h1, fun q h1 _ => ho q h1⟩

end Seg


/-! ## Segregated variant: the invariant of the runs -/

namespace Seg

/-- The heap that `mm_init` lays out before it extends it: prologue and epilogue, and empty
lists. -/
theorem init_wf {m0 m4 : Mem} (h3 : m0.hi < W32) (hhi : m0.brk + 16 ≤ m0.hi)
    (hlo : m0.lo ≤ m0.brk)
    (hb : m4.brk = m0.brk + 16) (hl : m4.lo = m0.lo) (hh : m4.hi = m0.hi)
    (t1 : load m4 (m0.brk + 4) = .ok 9) (t2 : load m4 (m0.brk + 8) = .ok 9)
    (t3 : load m4 (m0.brk + 12) = .ok 1) :
    WF { mem := m4, segregated_free_lists := fun _ => 0 } (m0.brk + 8)
      [⟨m0.brk + 8, 8, true⟩, ⟨m4.brk, 0, true⟩] (fun _ => []) := by
  refine ⟨⟨by rw [hh]; exact h3, by rw [hb, hh]; exact hhi, by rw [hl]; omega, rfl, rfl,
    by simp [Tiles, hb], ?_, ?_, ?_⟩, ⟨fun _ _ => rfl, fun _ _ => trivial,
    fun _ _ => List.nodup_nil, fun _ _ a ha => by simp at ha⟩, ?_⟩
  · intro b hb'
    simp only [List.mem_cons, List.mem_singleton, List.not_mem_nil, or_false] at hb'
    rcases hb' with rfl | rfl
    · exact t1
    · show load m4 (m4.brk - 4) = _
      rw [hb]; exact t3
  · intro b hb' h0
    simp only [List.mem_cons, List.mem_singleton, List.not_mem_nil, or_false] at hb'
    rcases hb' with rfl | rfl
    · exact seg_GET_SIZE_tag (z := 8) (a := 1) t2 (by decide) (by decide)
    · simp at h0
  · intro b hb' hbf
    simp only [List.mem_cons, List.mem_singleton, List.not_mem_nil, or_false] at hb'
    rcases hb' with rfl | rfl <;> simp at hbf
  · intro b hb' hbf
    simp only [List.mem_cons, List.mem_singleton, List.not_mem_nil, or_false] at hb'
    rcases hb' with rfl | rfl <;> simp at hbf

theorem seg_mm_init_spec {fuel : Nat} {m0 : Mem} {s : State} (h3 : m0.hi < W32)
    (hi : mm_init fuel m0 = .ok (s, 0)) : Inv (m0.brk + 8) s [] := by
  unfold mm_init at hi
  simp only at hi
  cases hsb : mem_sbrk m0 (4 * WSIZE) with
  | none =>
    rw [hsb] at hi
    simp [pure, Except.pure] at hi
  | some pm =>
    obtain ⟨hs, m⟩ := pm
    rw [hsb] at hi
    obtain ⟨rfl, rfl, hhi⟩ := mem_sbrk_ok hsb
    have e16 : (4 * WSIZE) % W32 = 16 := by decide
    rw [e16] at hhi hi
    simp only at hi
    unfold PUT_NOTAG at hi
    obtain ⟨m1, p1, hi⟩ := bind_ok hi
    obtain ⟨m2, p2, hi⟩ := bind_ok hi
    obtain ⟨m3, p3, hi⟩ := bind_ok hi
    obtain ⟨m4, p4, hi⟩ := bind_ok hi
    obtain ⟨⟨s1, p⟩, he, hi⟩ := bind_ok hi
    have hlo : m0.lo ≤ m0.brk := (store_ok p1).1.1
    have ea : add32 m0.brk (1 * WSIZE) = m0.brk + 4 := add32_eq (by unfold WSIZE; omega)
    have eb : add32 m0.brk (2 * WSIZE) = m0.brk + 8 := add32_eq (by unfold WSIZE; omega)
    have ec : add32 m0.brk (3 * WSIZE) = m0.brk + 12 := add32_eq (by unfold WSIZE; omega)
    have eP : PACK DSIZE 1 = 9 := by decide
    have eQ : PACK 0 1 = 1 := by decide
    rw [ea, eP] at p2
    rw [eb, eP] at p3
    rw [ec, eQ] at p4
    have hld : ∀ q, load m4 q = if q = m0.brk + 12 then .ok (1 % W32)
        else if q = m0.brk + 8 then .ok (9 % W32)
        else if q = m0.brk + 4 then .ok (9 % W32)
        else if q = m0.brk then .ok (0 % W32)
        else load { m0 with brk := m0.brk + 16 } q := by
      intro q
      rw [load_store p4, load_store p3, load_store p2, load_store p1]
    have hbrk : m4.brk = m0.brk + 16 := by
      rw [store_brk p4, store_brk p3, store_brk p2, store_brk p1]
    have hlo4 : m4.lo = m0.lo := by
      rw [store_lo p4, store_lo p3, store_lo p2, store_lo p1]
    have hhi4 : m4.hi = m0.hi := by
      rw [store_hi p4, store_hi p3, store_hi p2, store_hi p1]
    have hW := init_wf h3 hhi hlo hbrk hlo4 hhi4
      (by rw [hld, if_neg (by omega), if_neg (by omega), if_pos rfl]; rfl)
      (by rw [hld, if_neg (by omega), if_pos rfl]; rfl)
      (by rw [hld, if_pos rfl]; rfl)
    have hs1 : s1 = s ∧ p ≠ 0 := by
      simp only at hi
      split_ifs at hi with hp
      · simp [pure, Except.pure] at hi
      · simp [pure, Except.pure] at hi
        exact ⟨hi, hp⟩
    obtain ⟨rfl, hp⟩ := hs1
    rcases seg_extend_heap_spec hW (by decide) (by decide) he with
      ⟨rfl, _⟩ | ⟨B', F', c, hW', hc, hcr, hcf, hcs, hna, hal, hb', hl', hh', -, -⟩
    · exact absurd rfl hp
    · refine ⟨B', F', hW', hna ?_, List.nodup_nil, fun p hp => by simp at hp, ?_, ?_⟩
      · unfold NoAdjFree
        simp
      · intro b hb hba hb0
        have := (hal b hba hb0).mp hb
        simp only [List.mem_cons, List.mem_singleton, List.not_mem_nil, or_false] at this
        rcases this with rfl | rfl
        · exact Or.inl rfl
        · simp at hb0
      · have : ALIGN INITCHUNKSIZE = 64 := by decide
        rw [hb', this]
        show m0.brk + 8 + 8 < m4.brk + 64
        omega

end Seg

namespace Seg

/-- A block of at least 16 bytes has a block before it and a block after it. -/
theorem Layout.mid {m : Mem} {h0 : Nat} {B : List Blk} (h : Layout m h0 B) {b : Blk}
    (hb : b ∈ B) (h16 : 16 ≤ b.size) : ∃ L p n R, B = L ++ p :: b :: n :: R := by
  obtain ⟨X, Y, rfl⟩ := List.append_of_mem hb
  rcases List.eq_nil_or_concat X with hn | ⟨L, p, hLp⟩
  · have := h.head
    rw [hn] at this
    simp only [List.nil_append, List.head?_cons, Option.some.injEq] at this
    rw [this] at h16
    simp at h16
  · cases Y with
    | nil =>
      have := h.last
      rw [List.getLast?_append_of_ne_nil _ (by simp)] at this
      simp only [List.getLast?_singleton, Option.some.injEq] at this
      rw [this] at h16
      simp at h16
    | cons n R => exact ⟨L, p, n, R, by rw [hLp]; simp⟩

theorem seg_inv_malloc {fuel : Nat} {h0 : Nat} {s s' : State} {L : List Nat} {n p : Nat}
    (h : Inv h0 s L) (hn : n + 15 < 2147483648) (hm : mm_malloc fuel s n = .ok (s', p)) :
    Inv h0 s' (if p = 0 then L else p :: L) := by
  obtain ⟨B, F, hW, hna, hnd, hlive, hall, hbrk⟩ := h
  rcases seg_mm_malloc_spec hW hn hm with ⟨rfl, rfl⟩ | ⟨B', F', c, hW', hc, hcr, hca, hcs, hna',
    hal, hne, hb', -, -, -, -⟩
  · rw [if_pos rfl]
    exact ⟨B, F, hW, hna, hnd, hlive, hall, hbrk⟩
  · have hcb := hW'.layout.bounds hc
    have a16 := (seg_adjust_facts hn).2.1
    have hp0 : p ≠ 0 := by omega
    rw [if_neg hp0]
    refine ⟨B', F', hW', hna' hna, ?_, ?_, ?_, by omega⟩
    · rw [List.nodup_cons]
      refine ⟨fun hp => ?_, hnd⟩
      obtain ⟨b, hb, e, hba, hb16⟩ := hlive p hp
      exact hne b hb hba (by omega) e
    · intro q hq
      rcases List.mem_cons.mp hq with rfl | hq
      · exact ⟨c, hc, hcr, hca, by omega⟩
      · obtain ⟨b, hb, e, hba, hb16⟩ := hlive q hq
        exact ⟨b, (hal b hba (by omega)).mpr (Or.inl hb), e, hba, hb16⟩
    · intro b hb hba hb0
      rcases (hal b hba hb0).mp hb with h1 | rfl
      · rcases hall b h1 hba hb0 with h2 | h2
        · exact Or.inl h2
        · exact Or.inr (List.mem_cons_of_mem _ h2)
      · exact Or.inr (by rw [hcr]; exact List.mem_cons_self _ _)

theorem seg_inv_free {fuel : Nat} {h0 : Nat} {s s' : State} {L : List Nat} {p : Nat}
    (h : Inv h0 s L) (hp : p ∈ L) (hf : mm_free fuel s p = .ok s') :
    Inv h0 s' (L.erase p) := by
  obtain ⟨B, F, hW, hna, hnd, hlive, hall, hbrk⟩ := h
  obtain ⟨b, hb, rfl, hba, hb16⟩ := hlive _ hp
  obtain ⟨X, pv, nx, Y, rfl⟩ := hW.layout.mid hb hb16
  obtain ⟨B', F', hW', hna', hal, hb', -, -, -, -⟩ := seg_mm_free_spec hW hba hb16 hf
  obtain ⟨n1, n2⟩ := Implicit.noadj_around hna
  refine ⟨B', F', hW', hna' n1 n2, hnd.erase _, ?_, ?_, by omega⟩
  · intro q hq
    rw [hnd.mem_erase_iff] at hq
    obtain ⟨c, hc, h1, h2, h3⟩ := hlive q hq.2
    refine ⟨c, (hal c h2).mpr ⟨hc, ?_⟩, h1, h2, h3⟩
    intro hcb
    rw [hcb] at h1
    exact hq.1 h1.symm
  · intro c hc hca hc0
    obtain ⟨h1, h2⟩ := (hal c hca).mp hc
    rcases hall c h1 hca hc0 with h3 | h3
    · exact Or.inl h3
    · refine Or.inr ?_
      rw [hnd.mem_erase_iff]
      refine ⟨fun e => h2 ?_, h3⟩
      exact hW.layout.addr_inj h1 hb e hc0

/-- The invariant holds in every state reached by requests whose adjusted size does not
wrap around. -/
theorem seg_reach_inv {m0 : Mem} (h3 : m0.hi < W32) {s : State} {L : List Nat}
    (hr : Reach (fun n => n + 15 < 2147483648) m0 s L) : Inv (m0.brk + 8) s L := by
  induction hr with
  | init hi => exact seg_mm_init_spec h3 hi
  | malloc _ hn hm ih => exact seg_inv_malloc ih hn hm
  | free _ hp hf ih => exact seg_inv_free ih hp hf

end Seg


/-! ## Segregated variant: the heap when nothing is live -/

namespace Seg

theorem seg_scan_tiles (m : Mem) (e : Nat) (he : e < W32) : ∀ (B : List Blk) (a : Nat),
    Tiles a B e → (∀ b ∈ B, load m (b.addr - 4) = .ok b.tag) →
    B.getLast? = some ⟨e, 0, true⟩ → 4 ≤ a →
    scan m B.length a = .ok (B.map fun b => (b.size, b.alloc.toNat))
  | [], _, _, _, hl, _ => by simp at hl
  | b :: rest, a, hT, hh, hl, ha => by
    obtain ⟨rfl, h8, hne, hT'⟩ := hT
    have hle := tiles_le _ _ _ hT'
    have hhb := hh b (by simp)
    unfold Blk.tag at hhb
    have tb := toNat_lt_two b.alloc
    simp only [List.length_cons, List.map_cons]
    unfold scan
    rw [seg_HDRP_eq ha (by omega), seg_GET_SIZE_tag hhb h8 tb, seg_GET_ALLOC_tag hhb h8 tb]
    simp only [ok_bind]
    by_cases h0 : b.size = 0
    · have hr : rest = [] := by
        by_contra hr
        have := hne hr
        omega
      subst hr
      rw [if_pos h0]
      simp [pure, Except.pure]
    · have hr : rest ≠ [] := by
        intro hr
        subst hr
        simp only [List.getLast?_singleton, Option.some.injEq] at hl
        rw [hl] at h0
        exact h0 rfl
      rw [if_neg h0, add32_eq (by omega)]
      rw [seg_scan_tiles m e he rest _ hT' (fun x hx => hh x (List.mem_cons_of_mem _ hx))
        (by
          rw [← hl]
          cases rest with
          | nil => exact absurd rfl hr
          | cons y ys => simp [List.getLast?_cons_cons]) (by omega)]
      rfl

/-- The shape of a well-formed heap without live blocks: prologue, one free block,
epilogue. -/
theorem inv_empty_shape {h0 : Nat} {s : State} (h : Inv h0 s []) :
    ∃ sz F, WF s h0 [⟨h0, 8, true⟩, ⟨h0 + 8, sz, false⟩, ⟨s.mem.brk, 0, true⟩] F ∧
      h0 + 8 + sz = s.mem.brk := by
  obtain ⟨B, F, hW, hna, -, -, hall, hbrk⟩ := h
  have hL := hW.layout
  have hnl : ∀ b ∈ B, b.alloc = true → b.size ≠ 0 → b.addr = h0 := by
    intro b hb hba hb0
    rcases hall b hb hba hb0 with h1 | h1
    · exact h1
    · simp at h1
  have hT := hL.tiles
  have hhead := hL.head
  have hlast := hL.last
  rcases B with _ | ⟨pro, rest⟩
  · simp at hhead
  simp only [List.head?_cons, Option.some.injEq] at hhead
  subst hhead
  obtain ⟨-, -, -, hT1⟩ := hT
  rcases rest with _ | ⟨x, rest⟩
  · simp only [Tiles] at hT1
    omega
  obtain ⟨hx1, hx8, hxne, hT2⟩ := hT1
  simp only at hx1 hT2
  have hx0 : x.size ≠ 0 := by
    intro h0'
    have := tiles_zero _ _ _ hL.tiles x (by simp) h0'
    omega
  have hxf : x.alloc = false := by
    by_contra hxa
    have := hnl x (by simp) (by simpa using hxa) hx0
    omega
  rcases rest with _ | ⟨y, rest⟩
  · simp only [List.getLast?_cons_cons, List.getLast?_singleton, Option.some.injEq] at hlast
    rw [hlast] at hxf
    simp at hxf
  obtain ⟨hy1, hy8, hyne, hT3⟩ := hT2
  have hya : y.alloc = true := by
    unfold NoAdjFree at hna
    have := (List.chain'_cons.mp (List.chain'_cons.mp hna).2).1
    rcases this with h1 | h1
    · rw [hxf] at h1; simp at h1
    · exact h1
  have hy0 : y.size = 0 := by
    by_contra hy0
    have := hnl y (by simp) hya hy0
    omega
  have hr : rest = [] := by
    by_contra hr
    have := hyne hr
    omega
  subst hr
  simp only [List.getLast?_cons_cons, List.getLast?_singleton, Option.some.injEq] at hlast
  subst hlast
  refine ⟨x.size, F, ?_, ?_⟩
  · have ex : x = ⟨h0 + 8, x.size, false⟩ := by
      cases x
      simp only at hx1 hxf
      simp [hx1, hxf]
    rw [← ex]
    exact hW
  · simp only at hy1
    omega

theorem nodup_all_eq {l : List Nat} {a : Nat} (hnd : l.Nodup) (ha : a ∈ l)
    (hall : ∀ x ∈ l, x = a) : l = [a] := by
  rcases l with _ | ⟨x, l⟩
  · simp at ha
  have hx := hall x (by simp)
  subst hx
  rcases l with _ | ⟨y, l⟩
  · rfl
  · have hy := hall y (by simp)
    subst hy
    simp at hnd

/-- When nothing is live, the scan of the heap meets the prologue, one free block and the
epilogue, and the free block is the only entry of the segregated lists. -/
theorem inv_empty {h0 : Nat} {s : State} (h : Inv h0 s []) :
    ∃ sz, scan s.mem 3 h0 = .ok [(8, 1), (sz, 0), (0, 1)] ∧ 16 ≤ sz ∧
      h0 + 8 + sz = s.mem.brk ∧
      ∀ k, k < 20 → listWalk s.mem 2 (s.segregated_free_lists k) =
        .ok (if k = bucket sz then [h0 + 8] else []) := by
  obtain ⟨sz, F, hW, hsz⟩ := inv_empty_shape h
  have hL := hW.layout
  have h16 := hL.free16 ⟨h0 + 8, sz, false⟩ (by simp) rfl
  have h8 : 8 ≤ h0 := by have := hL.h0_ge; omega
  refine ⟨sz, ?_, h16, hsz, ?_⟩
  · have := seg_scan_tiles s.mem s.mem.brk hL.lt_brk _ h0 hL.tiles hL.hdr hL.last (by omega)
    simpa using this
  · have hin := hW.complete ⟨h0 + 8, sz, false⟩ (by simp) rfl
    have hall : ∀ k, k < 20 → ∀ a ∈ F k, a = h0 + 8 ∧ k = bucket sz := by
      intro k hk a ha
      obtain ⟨b, hb, e, hbf, hbk⟩ := hW.lists.nodes k hk a ha
      simp only [List.mem_cons, List.mem_singleton, List.not_mem_nil, or_false] at hb
      rcases hb with rfl | rfl | rfl
      · simp at hbf
      · exact ⟨e.symm, hbk.symm⟩
      · simp at hbf
    have hFb : F (bucket sz) = [h0 + 8] :=
      nodup_all_eq (hW.lists.nodup _ (bucket_lt _)) hin
        (fun x hx => (hall _ (bucket_lt _) x hx).1)
    intro k hk
    rw [hW.lists.heads k hk]
    by_cases e : k = bucket sz
    · subst e
      rw [if_pos rfl, hFb]
      have hd := hW.lists.dll _ (bucket_lt sz)
      rw [hFb] at hd
      obtain ⟨-, hd2, -⟩ := hd
      simp only [List.headD_cons]
      unfold listWalk PRED
      rw [if_neg (by omega), hd2]
      simp only [List.headD_nil, ok_bind]
      unfold listWalk
      rfl
    · rw [if_neg e]
      have : F k = [] := by
        rcases hfk : F k with _ | ⟨a, l⟩
        · rfl
        · exact absurd (hall k hk a (by rw [hfk]; simp)).2 e
      rw [this]
      rfl

end Seg


/-! ## Implicit variant: `mm_init` run forward -/

theorem store_eq {m : Mem} {p : Nat} (v : Nat) (h : m.ok p) :
    store m p v = .ok { m with w := fun a => if a = p then v % W32 else m.w a } := by
  unfold store
  rw [if_pos h]

theorem store_next {m m' : Mem} {p v q : Nat} (h : store m p v = .ok m')
    (hq : m.lo ≤ q ∧ q + 4 ≤ m.brk ∧ q % 4 = 0) (w : Nat) : ∃ m'', store m' q w = .ok m'' := by
  refine ⟨_, store_eq w ?_⟩
  show m'.lo ≤ q ∧ q + 4 ≤ m'.brk ∧ q % 4 = 0
  rw [store_lo h, store_brk h]
  exact hq

theorem toInt32_small {n : Nat} (hn : n < 2147483648) : toInt32 n = (n : Int) := by
  have e : n % W32 = n := Nat.mod_eq_of_lt (by unfold W32; omega)
  unfold toInt32
  rw [e, if_pos hn]

theorem mem_sbrk_eq {m : Mem} {n : Nat} (hn : n < 2147483648) (h : m.brk + n ≤ m.hi) :
    mem_sbrk m n = some (m.brk, { m with brk := m.brk + n }) := by
  have e : n % W32 = n := Nat.mod_eq_of_lt (by unfold W32; omega)
  unfold mem_sbrk
  rw [toInt32_small hn, e, if_neg (by omega)]

theorem mem_sbrk_none {m : Mem} {n : Nat} (hn : n < 2147483648) :
    mem_sbrk m n = none ↔ m.hi < m.brk + n := by
  have e : n % W32 = n := Nat.mod_eq_of_lt (by unfold W32; omega)
  unfold mem_sbrk
  rw [toInt32_small hn, e]
  constructor
  · intro h
    by_contra hc
    rw [if_neg (by omega)] at h
    exact absurd h (by simp)
  · intro h
    rw [if_pos (by omega)]

namespace Implicit

/-- The first half of `mm_init`, run forward: when the facade grants the 16 bytes of the
sentinels, the four words are stored and `extend_heap` is called. -/
theorem mm_init_prefix {m0 : Mem} (h1 : m0.lo ≤ m0.brk) (h2 : m0.brk % 8 = 0)
    (h3 : m0.hi < W32) (h4 : m0.brk + 16 ≤ m0.hi) :
    ∃ m4, m4.brk = m0.brk + 16 ∧ m4.lo = m0.lo ∧ m4.hi = m0.hi ∧
      (∀ q, load m4 q = if q = m0.brk + 12 then .ok 1 else if q = m0.brk + 8 then .ok 9
        else if q = m0.brk + 4 then .ok 9 else if q = m0.brk then .ok 0
        else load { m0 with brk := m0.brk + 16 } q) ∧
      mm_init m0 = (do
        let (s, p) ← extend_heap ⟨m4, m0.brk + 8, m0.brk + 8⟩ (CHUNKSIZE / WSIZE)
        if p = 0 then pure (s, -1) else pure (s, 0)) := by
  have hs : mem_sbrk m0 (4 * WSIZE) = some (m0.brk, { m0 with brk := m0.brk + 16 }) :=
    mem_sbrk_eq (by decide) h4
  have ea : add32 m0.brk (1 * WSIZE) = m0.brk + 4 := add32_eq (by unfold WSIZE; omega)
  have eb : add32 m0.brk (2 * WSIZE) = m0.brk + 8 := add32_eq (by unfold WSIZE; omega)
  have ec : add32 m0.brk (3 * WSIZE) = m0.brk + 12 := add32_eq (by unfold WSIZE; omega)
  have eP : PACK DSIZE 1 = 9 := by decide
  have eQ : PACK 0 1 = 1 := by decide
  obtain ⟨m1, p1⟩ : ∃ m1, store { m0 with brk := m0.brk + 16 } m0.brk 0 = .ok m1 :=
    ⟨_, store_eq 0 ⟨h1, by show m0.brk + 4 ≤ m0.brk + 16; omega, by omega⟩⟩
  have b1 := store_brk p1
  have l1 := store_lo p1
  have o2 : ({ m0 with brk := m0.brk + 16 } : Mem).lo ≤ m0.brk + 4 ∧
      m0.brk + 4 + 4 ≤ ({ m0 with brk := m0.brk + 16 } : Mem).brk ∧ (m0.brk + 4) % 4 = 0 :=
    ⟨Nat.le_trans h1 (by omega), by show m0.brk + 4 + 4 ≤ m0.brk + 16; omega, by omega⟩
  obtain ⟨m2, p2⟩ := store_next p1 o2 9
  have o3 : m1.lo ≤ m0.brk + 8 ∧ m0.brk + 8 + 4 ≤ m1.brk ∧ (m0.brk + 8) % 4 = 0 := by
    rw [l1, b1]
    exact ⟨Nat.le_trans h1 (by omega), by show m0.brk + 8 + 4 ≤ m0.brk + 16; omega, by omega⟩
  obtain ⟨m3, p3⟩ := store_next p2 o3 9
  have o4 : m2.lo ≤ m0.brk + 12 ∧ m0.brk + 12 + 4 ≤ m2.brk ∧ (m0.brk + 12) % 4 = 0 := by
    rw [store_lo p2, store_brk p2, l1, b1]
    exact ⟨Nat.le_trans h1 (by omega), by show m0.brk + 12 + 4 ≤ m0.brk + 16; omega, by omega⟩
  obtain ⟨m4, p4⟩ := store_next p3 o4 1
  refine ⟨m4, by rw [store_brk p4, store_brk p3, store_brk p2, b1],
    by rw [store_lo p4, store_lo p3, store_lo p2, l1],
    by rw [store_hi p4, store_hi p3, store_hi p2, store_hi p1], ?_, ?_⟩
  · intro q
    rw [load_store p4, load_store p3, load_store p2, load_store p1]
    rfl
  · unfold mm_init
    simp only [hs, PUT, ea, eb, ec, eP, eQ, p1, p2, p3, p4, ok_bind]

/-- The call `extend_heap(CHUNKSIZE / WSIZE)` of `mm_init`, run forward on the four sentinel
words: it returns the new free block of 4096 bytes, which is also the rover. -/
theorem extend_first {m4 : Mem} {a : Nat} (hlo : m4.lo ≤ a) (ha : a % 8 = 0)
    (hbrk : m4.brk = a + 16) (hhi : a + 4112 ≤ m4.hi) (h3 : m4.hi < W32)
    (l1 : load m4 (a + 4) = .ok 9) (l2 : load m4 (a + 8) = .ok 9) :
    ∃ m, extend_heap ⟨m4, a + 8, a + 8⟩ (CHUNKSIZE / WSIZE) = .ok (⟨m, a + 8, a + 16⟩, a + 16) ∧
      m.brk = a + 4112 ∧ m.lo = m4.lo ∧ m.hi = m4.hi ∧
      (∀ q, load m q = if q = a + 4108 then .ok 1 else if q = a + 4104 then .ok 4096
        else if q = a + 12 then .ok 4096 else load { m4 with brk := a + 4112 } q) := by
  have hs : mem_sbrk m4 4096 = some (a + 16, { m4 with brk := a + 4112 }) := by
    rw [mem_sbrk_eq (by decide) (by omega), hbrk]
  have eH : HDRP (a + 16) = a + 12 := HDRP_eq (by omega) (by omega)
  have eH2 : HDRP (a + 4112) = a + 4108 := HDRP_eq (by omega) (by omega)
  have eH3 : HDRP (a + 8) = a + 4 := HDRP_eq (by omega) (by omega)
  have eP : PACK 4096 0 = 4096 := by decide
  have eQ : PACK 0 1 = 1 := by decide
  obtain ⟨m5, p5⟩ : ∃ m5, store { m4 with brk := a + 4112 } (a + 12) 4096 = .ok m5 :=
    ⟨_, store_eq 4096 ⟨Nat.le_trans hlo (by omega), by show a + 12 + 4 ≤ a + 4112; omega,
      by omega⟩⟩
  have b5 := store_brk p5
  have o5 := store_lo p5
  have c5 : m5.brk = a + 4112 := b5
  have d5 : m5.lo = m4.lo := o5
  obtain ⟨m6, p6⟩ := store_next p5 (q := a + 4104)
    ⟨Nat.le_trans hlo (by omega), by show a + 4104 + 4 ≤ a + 4112; omega, by omega⟩ 4096
  have o7 : m5.lo ≤ a + 4108 ∧ a + 4108 + 4 ≤ m5.brk ∧ (a + 4108) % 4 = 0 := by
    rw [c5, d5]
    exact ⟨Nat.le_trans hlo (by omega), by omega, by omega⟩
  obtain ⟨m7, p7⟩ := store_next p6 o7 1
  have ld7 : ∀ q, load m7 q = if q = a + 4108 then .ok 1 else if q = a + 4104 then .ok 4096
      else if q = a + 12 then .ok 4096 else load { m4 with brk := a + 4112 } q := by
    intro q
    rw [load_store p7, load_store p6, load_store p5]
    rfl
  have ld5 : load m5 (a + 12) = .ok (4096 + 0) := by
    rw [load_store p5, if_pos rfl]; rfl
  have ld6 : load m6 (a + 12) = .ok (4096 + 0) := by
    rw [load_store p6, if_neg (by omega), ld5]
  have g4 : ∀ q, q + 4 ≤ a + 16 → load { m4 with brk := a + 4112 } q = load m4 q := by
    intro q hq
    exact load_grow (by omega) (by omega)
  have e8 : load m7 (a + 8) = .ok (8 + 1) := by
    rw [ld7, if_neg (by omega), if_neg (by omega), if_neg (by omega), g4 _ (by omega), l2]
  have e4 : load m7 (a + 4) = .ok (8 + 1) := by
    rw [ld7, if_neg (by omega), if_neg (by omega), if_neg (by omega), g4 _ (by omega), l1]
  have e12 : load m7 (a + 12) = .ok (4096 + 0) := by
    rw [ld7, if_neg (by omega), if_neg (by omega), if_pos rfl]
  have e08 : load m7 (a + 4108) = .ok (0 + 1) := by
    rw [ld7, if_pos rfl]
  have f1 : FTRP m5 (a + 16) = .ok (a + 4104) := by
    rw [FTRP_tag (b := a + 16) ld5 (by decide) (by decide) (by omega) (by omega)]
    exact congrArg _ (by omega)
  have f2 : NEXT_BLKP m6 (a + 16) = .ok (a + 4112) := by
    rw [NEXT_BLKP_tag (b := a + 16) ld6 (by decide) (by decide) (by omega) (by omega)]
  have c1 : PREV_BLKP m7 (a + 16) = .ok (a + 8) := by
    rw [PREV_BLKP_tag (b := a + 16) e8 (by decide) (by decide) (by omega) (by omega) (by omega)]
    exact congrArg _ (by omega)
  have c2 : FTRP m7 (a + 8) = .ok (a + 8) := by
    rw [FTRP_tag (b := a + 8) e4 (by decide) (by decide) (by omega) (by omega)]
    exact congrArg _ (by omega)
  have c3 : GET_ALLOC m7 (a + 8) = .ok 1 := GET_ALLOC_tag e8 (by decide) (by decide)
  have c4 : NEXT_BLKP m7 (a + 16) = .ok (a + 4112) := by
    rw [NEXT_BLKP_tag (b := a + 16) e12 (by decide) (by decide) (by omega) (by omega)]
  have c5 : GET_ALLOC m7 (a + 4108) = .ok 1 := GET_ALLOC_tag e08 (by decide) (by decide)
  have c6 : GET_SIZE m7 (a + 12) = .ok 4096 := GET_SIZE_tag e12 (by decide) (by decide)
  refine ⟨m7, ?_, by rw [store_brk p7, store_brk p6, b5],
    by rw [store_lo p7, store_lo p6, o5], by rw [store_hi p7, store_hi p6, store_hi p5], ld7⟩
  have ew : CHUNKSIZE / WSIZE = 1024 := by decide
  have es : (if 1024 % 2 ≠ 0 then mul32 (add32 1024 1) WSIZE else mul32 1024 WSIZE) = 4096 := by
    decide
  unfold extend_heap
  simp only [ew, es, hs, PUT, eH, eP, p5, ok_bind, f1, p6, f2, eH2, eQ, p7]
  unfold coalesce
  simp only [c1, ok_bind, c2, c3, c4, eH2, c5, eH, c6]
  rfl

/-- Total description of `mm_init`: it fails exactly when the arena cannot take the 16 bytes
of the sentinels followed by 4096 bytes; otherwise it builds the four sentinel words around
one free block of 4096 bytes and leaves the rover on that block. -/
theorem mm_init_total {m0 : Mem} (h1 : m0.lo ≤ m0.brk) (h2 : m0.brk % 8 = 0)
    (h3 : m0.hi < W32) :
    (m0.hi < m0.brk + 4112 → ∃ s, mm_init m0 = .ok (s, -1)) ∧
    (m0.brk + 4112 ≤ m0.hi → ∃ m, mm_init m0 = .ok (⟨m, m0.brk + 8, m0.brk + 16⟩, 0) ∧
      m.brk = m0.brk + 4112 ∧ m.lo = m0.lo ∧ m.hi = m0.hi ∧
      load m m0.brk = .ok 0 ∧ load m (m0.brk + 4) = .ok 9 ∧ load m (m0.brk + 8) = .ok 9 ∧
      load m (m0.brk + 12) = .ok 4096 ∧ load m (m0.brk + 4104) = .ok 4096 ∧
      load m (m0.brk + 4108) = .ok 1) := by
  constructor
  · intro hlt
    by_cases h16 : m0.brk + 16 ≤ m0.hi
    · obtain ⟨m4, b4, l4, hi4, ld4, e⟩ := mm_init_prefix h1 h2 h3 h16
      have hn : mem_sbrk m4 4096 = none := (mem_sbrk_none (by decide)).mpr (by omega)
      have ew : CHUNKSIZE / WSIZE = 1024 := by decide
      have es : (if 1024 % 2 ≠ 0 then mul32 (add32 1024 1) WSIZE else mul32 1024 WSIZE)
          = 4096 := by decide
      refine ⟨⟨m4, m0.brk + 8, m0.brk + 8⟩, ?_⟩
      rw [e]
      unfold extend_heap
      simp only [ew, es, hn]
      rfl
    · have hn : mem_sbrk m0 (4 * WSIZE) = none := (mem_sbrk_none (by decide)).mpr (by
        have e : 4 * WSIZE = 16 := by decide
        rw [e]; omega)
      refine ⟨{ mem := m0, heap_listp := W32 - 1, next_fit_position := 0 }, ?_⟩
      unfold mm_init
      simp only [hn]
      rfl
  · intro hle
    obtain ⟨m4, b4, l4, hi4, ld4, e⟩ := mm_init_prefix h1 h2 h3 (by omega)
    have g4 : ∀ q, q + 4 ≤ m0.brk + 16 → m0.lo ≤ q → q % 4 = 0 →
        load ({ m4 with brk := m0.brk + 4112 } : Mem) q = load m4 q := by
      intro q hq _ _
      exact load_grow (by omega) (by omega)
    have k1 : load m4 (m0.brk + 4) = .ok 9 := by
      rw [ld4, if_neg (by omega), if_neg (by omega), if_pos rfl]
    have k2 : load m4 (m0.brk + 8) = .ok 9 := by
      rw [ld4, if_neg (by omega), if_pos rfl]
    have k0 : load m4 m0.brk = .ok 0 := by
      rw [ld4, if_neg (by omega), if_neg (by omega), if_neg (by omega), if_pos rfl]
    obtain ⟨m, he, bm, lm, hm, ldm⟩ := extend_first (a := m0.brk) (by rw [l4]; exact h1) h2 b4
      (by rw [hi4]; exact hle) (by rw [hi4]; exact h3) k1 k2
    refine ⟨m, ?_, bm, by rw [lm, l4], by rw [hm, hi4], ?_, ?_, ?_, ?_, ?_, ?_⟩
    · rw [e, he]
      rfl
    · rw [ldm, if_neg (by omega), if_neg (by omega), if_neg (by omega),
        g4 _ (by omega) h1 (by omega), k0]
    · rw [ldm, if_neg (by omega), if_neg (by omega), if_neg (by omega),
        g4 _ (by omega) (by omega) (by omega), k1]
    · rw [ldm, if_neg (by omega), if_neg (by omega), if_neg (by omega),
        g4 _ (by omega) (by omega) (by omega), k2]
    · rw [ldm, if_neg (by omega), if_neg (by omega), if_pos rfl]
    · rw [ldm, if_neg (by omega), if_pos rfl]
    · rw [ldm, if_pos rfl]

end Implicit


/-! ## Implicit variant: when `mm_malloc` returns `NULL` -/

namespace Implicit

end Implicit


/-! ## Implicit variant: what `mm_malloc` and `mm_free` leave untouched -/

theorem tiles_addr_mod8 : ∀ (B : List Blk) (a e : Nat), Tiles a B e → a % 8 = 0 →
    ∀ b ∈ B, b.addr % 8 = 0
  | [], _, _, _, _, b, hb => by simp at hb
  | x :: xs, a, e, h, ha, b, hb => by
    obtain ⟨h1, h2, _, h4⟩ := h
    rcases List.mem_cons.mp hb with rfl | hb1
    · omega
    · exact tiles_addr_mod8 xs _ _ h4 (by omega) b hb1

/-- Two memories that hold the same word at the word of byte `a` hold the same byte at `a`. -/
theorem byteAt_of_load {m m' : Mem} {a : Nat} (h : load m' (a - a % 4) = load m (a - a % 4))
    (hok : m.ok (a - a % 4)) : byteAt m' a = byteAt m a := by
  have h1 : load m (a - a % 4) = .ok (m.w (a - a % 4) % W32) := by
    unfold load
    rw [if_pos hok]
  rw [h1] at h
  have h2 := (load_ok_iff.mp h).2
  unfold byteAt
  rw [h2]

namespace Implicit

/-- The words of an allocated block, header and footer included, lie outside every free
block. -/
theorem block_outside {s : State} {B : List Blk} (h : Rep s B) {c : Blk} (hc : c ∈ B)
    (hca : c.alloc = true) {q : Nat} (h1 : c.addr ≤ q + 4) (h2 : q + 8 ≤ c.addr + c.size) :
    ∀ f ∈ B, f.alloc = false → q + 8 ≤ f.addr ∨ f.addr + f.size ≤ q + 4 := by
  intro f hf hfa
  rcases tiles_disjoint B _ _ h.tiles c hc f hf with e | e | e
  · rw [e, hfa] at hca
    exact absurd hca (by simp)
  · exact Or.inl (by omega)
  · exact Or.inr (by omega)

/-- The blocks of a represented heap are stored at word-aligned addresses inside the heap. -/
theorem block_ok {s : State} {B : List Blk} (h : Rep s B) {c : Blk} (hc : c ∈ B) {a : Nat}
    (h1 : c.addr ≤ a + 4) (h2 : a + 4 < c.addr + c.size) :
    s.mem.ok (a - a % 4) ∧ c.addr ≤ a - a % 4 + 4 ∧ a - a % 4 + 8 ≤ c.addr + c.size := by
  have hm := tiles_mem _ _ _ h.tiles c hc
  have h8 := tiles_addr_mod8 _ _ _ h.tiles h.hl8 c hc
  have hl := h.hl_ge
  refine ⟨⟨by omega, by omega, by omega⟩, by omega, by omega⟩

/-- `mm_malloc` writes no word of an allocated block of the heap it is called on. -/
theorem mm_malloc_frame {fuel : Nat} {s s' : State} {B : List Blk} {n p : Nat} (h : Rep s B)
    (hn : n + 15 < W32) (hm : mm_malloc fuel s n = .ok (s', p)) {c : Blk} (hc : c ∈ B)
    (hca : c.alloc = true) {a : Nat} (h1 : c.addr ≤ a + 4) (h2 : a + 4 < c.addr + c.size) :
    byteAt s'.mem a = byteAt s.mem a := by
  obtain ⟨B', -, -, -, -, -, -, -, hfr⟩ := mm_malloc_spec h hn hm
  obtain ⟨hok, k1, k2⟩ := block_ok h hc h1 h2
  have hm := tiles_mem _ _ _ h.tiles c hc
  exact byteAt_of_load (hfr _ (by omega) (block_outside h hc hca k1 k2)) hok

/-- `mm_free` writes no word of an allocated block other than the one it releases. -/
theorem mm_free_frame {s s' : State} {B : List Blk} {b : Blk} (h : Rep s B) (hb : b ∈ B)
    (hb16 : 16 ≤ b.size) (hf : mm_free s b.addr = .ok s') {c : Blk} (hc : c ∈ B)
    (hca : c.alloc = true) (hcb : c ≠ b) {a : Nat} (h1 : c.addr ≤ a + 4)
    (h2 : a + 4 < c.addr + c.size) : byteAt s'.mem a = byteAt s.mem a := by
  obtain ⟨hok, k1, k2⟩ := block_ok h hc h1 h2
  obtain ⟨L, p, n, R, rfl⟩ := h.around hb hb16
  obtain ⟨c0, hTL, hL8, hc8, hp1, hp2, hp3, hb1, hb2, hb3, hn1, hn2, hn3, hTR, hend, hlt⟩ :=
    h.three
  obtain ⟨B', -, -, -, -, -, -, -, hfr⟩ := mm_free_spec h hf
  refine byteAt_of_load (hfr _ ?_) hok
  simp only [List.mem_append, List.mem_cons] at hc
  rcases hc with hc | rfl | rfl | rfl | hc
  · have := tiles_mem _ _ _ hTL c hc
    exact Or.inl (by omega)
  · exact Or.inr (Or.inr (Or.inl ⟨hca, by omega⟩))
  · exact absurd rfl hcb
  · exact Or.inr (Or.inr (Or.inr ⟨hca, by omega⟩))
  · have := tiles_mem _ _ _ hTR c hc
    exact Or.inr (Or.inl (by omega))

end Implicit


namespace Implicit

/-- A store to an in-range aligned address returns. -/
theorem store_defined {m : Mem} {p : Nat} (v : Nat) (h : m.ok p) :
    ∃ m', store m p v = .ok m' :=
  ⟨_, store_eq v h⟩

/-- On a represented heap, `place` returns for every free block and every adjusted size
that fits it. -/
theorem place_total {s : State} {L R : List Blk} {b : Blk} {asize : Nat}
    (h : Rep s (L ++ b :: R)) (hfree : b.alloc = false) (ha8 : asize % 8 = 0)
    (ha16 : 16 ≤ asize) (hle : asize ≤ b.size) : ∃ s', place s b.addr asize = .ok s' := by
  obtain ⟨hTL, hL8, hb8, hb2, hb3, hTR, hend, hlt, hne⟩ := h.one
  obtain ⟨hL, hR⟩ := hne hfree
  have hbs := hb3 hR
  have hhb := h.hdr b (by simp)
  rw [Blk.tag_eq] at hhb
  have tb := toNat_lt_two b.alloc
  obtain ⟨k1, k2, k3⟩ := (load_ok_iff.mp hhb).1
  have hW : W32 = 4294967296 := rfl
  have g1 : GET_SIZE s.mem (HDRP b.addr) = .ok b.size := by
    rw [HDRP_eq (by omega) (by omega)]
    exact GET_SIZE_tag hhb hb2 tb
  have hsub : sub32 b.size asize = b.size - asize := sub32_eq hle (by omega)
  have eH : HDRP b.addr = b.addr - 4 := HDRP_eq (by omega) (by omega)
  unfold place
  simp only [g1, ok_bind, hsub]
  unfold DSIZE PUT
  rw [eH]
  by_cases hsplit : b.size - asize ≥ 2 * 8
  · rw [if_pos hsplit, PACK_eq ha8 (by omega), PACK_eq (show (b.size - asize) % 8 = 0 by omega)
      (by omega)]
    have hv1 : (asize + 1) % W32 = asize + 1 := Nat.mod_eq_of_lt (by omega)
    have hv2 : (b.size - asize) % W32 = b.size - asize := Nat.mod_eq_of_lt (by omega)
    obtain ⟨m1, w1⟩ := store_defined (asize + 1) (show s.mem.ok (b.addr - 4) from ⟨k1, k2, k3⟩)
    have l1 : load m1 (b.addr - 4) = .ok (asize + 1) := by
      rw [load_store w1, if_pos rfl, hv1]
    have f1 : FTRP m1 b.addr = .ok (b.addr + asize - 8) :=
      FTRP_tag l1 ha8 (by omega) (by omega) (by omega)
    obtain ⟨m2, w2⟩ := store_next w1 (show s.mem.lo ≤ b.addr + asize - 8 ∧
      b.addr + asize - 8 + 4 ≤ s.mem.brk ∧ (b.addr + asize - 8) % 4 = 0 from
      ⟨by omega, by omega, by omega⟩) (asize + 1)
    have l2 : load m2 (b.addr - 4) = .ok (asize + 1) := by
      rw [load_store w2, if_neg (by omega), l1]
    have n2 : NEXT_BLKP m2 b.addr = .ok (b.addr + asize) :=
      NEXT_BLKP_tag l2 ha8 (by omega) (by omega) (by omega)
    have eH2 : HDRP (b.addr + asize) = b.addr + asize - 4 := HDRP_eq (by omega) (by omega)
    have o3 : m2.ok (b.addr + asize - 4) := by
      show m2.lo ≤ _ ∧ _ ≤ m2.brk ∧ _
      rw [store_lo w2, store_brk w2, store_lo w1, store_brk w1]
      exact ⟨by omega, by omega, by omega⟩
    obtain ⟨m3, w3⟩ := store_defined (b.size - asize + 0) o3
    have l3 : load m3 (b.addr + asize - 4) = .ok (b.size - asize + 0) := by
      rw [load_store w3, if_pos rfl, Nat.add_zero, hv2]
    have f3 : FTRP m3 (b.addr + asize) = .ok (b.addr + asize + (b.size - asize) - 8) :=
      FTRP_tag l3 (by omega) (by omega) (by omega) (by omega)
    have o4 : m3.ok (b.addr + asize + (b.size - asize) - 8) := by
      show m3.lo ≤ _ ∧ _ ≤ m3.brk ∧ _
      rw [store_lo w3, store_brk w3, store_lo w2, store_brk w2, store_lo w1, store_brk w1]
      exact ⟨by omega, by omega, by omega⟩
    obtain ⟨m4, w4⟩ := store_defined (b.size - asize + 0) o4
    simp only [w1, ok_bind, f1, w2, n2, eH2, w3, f3, w4]
    exact ⟨_, rfl⟩
  · rw [if_neg hsplit, PACK_eq hb2 (by omega)]
    have hv1 : (b.size + 1) % W32 = b.size + 1 := Nat.mod_eq_of_lt (by omega)
    obtain ⟨m1, w1⟩ := store_defined (b.size + 1) (show s.mem.ok (b.addr - 4) from ⟨k1, k2, k3⟩)
    have l1 : load m1 (b.addr - 4) = .ok (b.size + 1) := by
      rw [load_store w1, if_pos rfl, hv1]
    have f1 : FTRP m1 b.addr = .ok (b.addr + b.size - 8) :=
      FTRP_tag l1 hb2 (by omega) (by omega) (by omega)
    obtain ⟨m2, w2⟩ := store_next w1 (show s.mem.lo ≤ b.addr + b.size - 8 ∧
      b.addr + b.size - 8 + 4 ≤ s.mem.brk ∧ (b.addr + b.size - 8) % 4 = 0 from
      ⟨by omega, by omega, by omega⟩) (b.size + 1)
    simp only [w1, ok_bind, f1, w2]
    exact ⟨_, rfl⟩

end Implicit


/-! ## Segregated variant: `mm_realloc` -/

namespace Seg

/-- The size that `mm_realloc` aims at, when adding the buffer does not wrap. -/
theorem realloc_new_size {n : Nat} (hn : max (ALIGN (add32 n 8)) 16 + 128 < W32) :
    add32 (adjust n) REALLOC_BUFFER = adjust n + 128 ∧
    adjust n + 128 ≤ max (ALIGN (add32 n 8)) 16 + 128 ∧ adjust n % 8 = 0 := by
  have hle : adjust n ≤ max (ALIGN (add32 n 8)) 16 := by
    unfold adjust DSIZE
    by_cases h : n ≤ 8
    · rw [if_pos h]; exact le_max_right _ _
    · rw [if_neg h]; exact le_max_left _ _
  have h8 : adjust n % 8 = 0 := by
    unfold adjust DSIZE ALIGN
    by_cases h : n ≤ 8
    · rw [if_pos h]
    · rw [if_neg h]
      exact land_mask_mod8 _
  refine ⟨?_, by omega, h8⟩
  unfold REALLOC_BUFFER
  exact add32_eq (by omega)

/-- The block after a block of non-zero size. -/
theorem Layout.succ {m : Mem} {h0 : Nat} {B : List Blk} (h : Layout m h0 B) {b : Blk}
    (hb : b ∈ B) (hb0 : b.size ≠ 0) : ∃ L c R, B = L ++ b :: c :: R ∧ c.addr = b.addr + b.size := by
  obtain ⟨L, c, R, rfl⟩ := mem_split_next hb h.last (by
    intro e
    rw [e] at hb0
    exact hb0 rfl)
  obtain ⟨-, -, -, -, -, hT, -⟩ := h.single
  exact ⟨L, c, R, rfl, hT.1⟩

/-- Case 1 of `mm_realloc`: a block that is large enough is returned as it is, and nothing
is written. -/
theorem realloc_keep {fuel : Nat} {s : State} {h0 : Nat} {B : List Blk} {F : Nat → List Nat}
    {b : Blk} {n : Nat} (h : WF s h0 B F) (hb : b ∈ B) (hn : 0 < n)
    (hsz : max (ALIGN (add32 n 8)) 16 + 128 ≤ b.size) (hlt : b.size < 2147483648) :
    mm_realloc fuel s b.addr n = .ok (s, b.addr) := by
  obtain ⟨e1, e2, -⟩ := realloc_new_size (n := n) (by unfold W32; omega)
  have g1 := h.layout.get_size hb
  have g2 := h.layout.next hb
  obtain ⟨L, c, R, rfl, hc⟩ := h.layout.succ hb (by omega)
  obtain ⟨-, v, hv⟩ := h.layout.ratag (c := c) (by simp)
  rw [hc] at hv
  have e3 : sub32 b.size (adjust n + 128) = b.size - (adjust n + 128) :=
    sub32_eq (by omega) (by unfold W32; omega)
  have e4 : toInt32 (b.size - (adjust n + 128)) = ((b.size - (adjust n + 128) : Nat) : Int) :=
    toInt32_small (by omega)
  unfold mm_realloc
  rw [if_neg (by omega)]
  simp only [g1, ok_bind, e1, e3, e4]
  rw [if_neg (by omega)]
  by_cases hlt2 : ((b.size - (adjust n + 128) : Nat) : Int) < 2 * (REALLOC_BUFFER : Nat)
  · rw [if_pos hlt2]
    simp only [g2, ok_bind, hv]
    rfl
  · rw [if_neg hlt2]
    rfl

end Seg


namespace Seg

/-- The link words of a list node lie inside the heap. -/
theorem Lists.node_ok {m : Mem} {hd : Nat → Nat} {h0 : Nat} {B : List Blk}
    {F : Nat → List Nat} (hL : Layout m h0 B) (h : Lists m hd B F) {k a : Nat} (hk : k < 20)
    (ha : a ∈ F k) : m.ok a ∧ m.ok (a + 4) := by
  obtain ⟨b, hb, rfl, hbf, _⟩ := h.nodes k hk a ha
  have h1 := hL.bounds hb
  have h2 := hL.free16 b hb hbf
  have h3 := hL.h0_ge
  have h4 := (load_ok_iff.mp (hL.hdr b hb)).1
  obtain ⟨_, _, h5⟩ := h4
  exact ⟨⟨by omega, by omega, by omega⟩, ⟨by omega, by omega, by omega⟩⟩

theorem store_total {m : Mem} {p : Nat} (v : Nat) (h : m.ok p) : ∃ m', store m p v = .ok m' :=
  ⟨_, store_eq v h⟩

/-- On a laid-out heap with well-formed lists, `delete_node` on a listed free block
returns. -/
theorem delete_node_total {s : State} {h0 : Nat} {B : List Blk} {F : Nat → List Nat}
    {b : Blk} (hL : Layout s.mem h0 B) (hF : Lists s.mem s.segregated_free_lists B F)
    (hb : b ∈ B) (hbf : b.alloc = false) (hin : b.addr ∈ F (bucket b.size)) :
    ∃ s', delete_node s b.addr = .ok s' := by
  obtain ⟨xs, ys, hxy⟩ := List.append_of_mem hin
  have hk := bucket_lt b.size
  have hdll := hF.dll _ hk
  rw [hxy] at hdll
  obtain ⟨r1, r2, -, -⟩ := DLLseg_next hdll
  have hbb := hL.bounds hb
  have h16 := hL.free16 b hb hbf
  have hhd := hL.hdr b hb
  rw [Blk.tag_free hbf] at hhd
  have hpos : ∀ a ∈ F (bucket b.size), 8 ≤ a ∧ a + 16 ≤ s.mem.brk ∧ s.mem.brk < W32 :=
    fun a ha => hF.node_pos hL hk ha
  have hok : ∀ a ∈ F (bucket b.size), s.mem.ok a ∧ s.mem.ok (a + 4) :=
    fun a ha => hF.node_ok hL hk ha
  have hsep : ∀ a ∈ F (bucket b.size), a = b.addr ∨ a + 16 ≤ b.addr ∨ b.addr + 16 ≤ a :=
    fun a ha => hF.sep hL hk hk ha (by rw [hxy]; simp)
  unfold delete_node
  rw [seg_HDRP_eq (by omega) (by omega), seg_GET_SIZE_tag hhd hbb.2.2.2.1 (by decide)]
  unfold PRED SUCC
  rw [SUCC_PTR_eq (by omega)]
  simp only [bind, Except.bind, r1, r2]
  rcases ys with _ | ⟨y, ys⟩
  · rcases List.eq_nil_or_concat xs with rfl | ⟨xs, z, hcc⟩
    · exact ⟨_, rfl⟩
    · rw [List.concat_eq_append] at hcc
      subst hcc
      have hz := hpos z (by rw [hxy]; simp)
      have e1 : (xs ++ [z]).getLastD 0 = z := by simp
      simp only [List.headD_nil, e1, ne_eq, not_true_eq_false, ↓reduceIte]
      rw [if_pos (by omega)]
      unfold SET_PTR PRED_PTR
      obtain ⟨m1, hst⟩ := store_total 0 (hok z (by rw [hxy]; simp)).1
      rw [hst]
      exact ⟨_, rfl⟩
  · have hy := hpos y (by rw [hxy]; simp)
    have hys := hsep y (by rw [hxy]; simp)
    have hynb : y ≠ b.addr := by
      have := hF.nodup _ hk
      rw [hxy] at this
      have := (List.nodup_append.mp this).2.1
      rw [List.nodup_cons] at this
      intro e
      exact this.1 (by rw [← e]; simp)
    simp only [List.headD_cons]
    rw [if_pos (by omega)]
    rcases List.eq_nil_or_concat xs with rfl | ⟨xs, z, hcc⟩
    · simp only [List.getLastD_nil, ne_eq, not_true_eq_false, ↓reduceIte]
      unfold SET_PTR
      rw [SUCC_PTR_eq (by omega)]
      obtain ⟨m1, hst⟩ := store_total 0 (hok y (by rw [hxy]; simp)).2
      rw [hst]
      have e2 : load m1 b.addr = .ok y := by
        rw [load_store hst, if_neg (by omega)]; exact r1
      simp only [e2]
      exact ⟨_, rfl⟩
    · rw [List.concat_eq_append] at hcc
      subst hcc
      have hz := hpos z (by rw [hxy]; simp)
      have hzs := hsep z (by rw [hxy]; simp)
      have e1 : (xs ++ [z]).getLastD 0 = z := by simp
      simp only [e1]
      rw [if_pos (by omega)]
      unfold SET_PTR PRED_PTR
      rw [SUCC_PTR_eq (by omega)]
      obtain ⟨m1, hst⟩ := store_total z (hok y (by rw [hxy]; simp)).2
      rw [hst]
      have e2 : load m1 b.addr = .ok y := by
        rw [load_store hst, if_neg (by omega)]; exact r1
      have e3 : load m1 (b.addr + 4) = .ok z := by
        rw [load_store hst, if_neg (by omega), r2, e1]
      simp only [e2, e3]
      have hzok : m1.ok z := by
        have := (hok z (by rw [hxy]; simp)).1
        exact ⟨by rw [store_lo hst]; exact this.1, by rw [store_brk hst]; exact this.2.1, this.2.2⟩
      obtain ⟨m2, hst2⟩ := store_total y hzok
      rw [hst2]
      exact ⟨_, rfl⟩

end Seg


/-! ## Arithmetic of `int` conversions -/

theorem toInt32_neg_iff (x : Nat) : toInt32 x < 0 ↔ 2147483648 ≤ x % W32 := by
  unfold toInt32 W32
  split_ifs <;> omega

theorem ofInt32_toInt32 (x : Nat) : ofInt32 (toInt32 x) = x % W32 := by
  unfold ofInt32 toInt32 W32
  split_ifs <;> omega

/-- Adding back what was subtracted: `new_size + (c - new_size)` on 32-bit words. -/
theorem add32_sub32_cancel {a c : Nat} (ha : a < W32) (hc : c < W32) :
    add32 a (ofInt32 (toInt32 (sub32 c a))) = c := by
  rw [ofInt32_toInt32]
  unfold add32 sub32 W32 at *
  omega

namespace Seg

/-- The body of `mm_realloc` for a non-zero size, with its two steps named. -/
theorem mm_realloc_eq (fuel : Nat) (s : State) (ptr size : Nat) (hs : size ≠ 0) :
    mm_realloc fuel s ptr size = (do
      let cur ← GET_SIZE s.mem (HDRP ptr)
      if toInt32 (sub32 cur (add32 (adjust size) REALLOC_BUFFER)) < 0 then do
        let next ← NEXT_BLKP s.mem ptr
        let next_alloc ← GET_ALLOC s.mem (HDRP next)
        let next_size ← GET_SIZE s.mem (HDRP next)
        if next_alloc = 0 ∨ next_size = 0 then
          if toInt32 (sub32 (add32 cur next_size) (add32 (adjust size) REALLOC_BUFFER)) < 0 then do
            let (s, p) ← extend_heap fuel s (ofInt32 (MAX (wrapInt (-toInt32 (sub32
              (add32 cur next_size) (add32 (adjust size) REALLOC_BUFFER)))) (toInt32 CHUNKSIZE)))
            if p = 0 then pure (s, 0)
            else absorbNext s ptr (add32 (adjust size) REALLOC_BUFFER) (wrapInt (toInt32 (sub32
              (add32 cur next_size) (add32 (adjust size) REALLOC_BUFFER)) + MAX (wrapInt (-toInt32
              (sub32 (add32 cur next_size) (add32 (adjust size) REALLOC_BUFFER))))
              (toInt32 CHUNKSIZE)))
          else absorbNext s ptr (add32 (adjust size) REALLOC_BUFFER) (toInt32 (sub32
            (add32 cur next_size) (add32 (adjust size) REALLOC_BUFFER)))
        else copyOver fuel s ptr size (add32 (adjust size) REALLOC_BUFFER)
      else
        if toInt32 (sub32 cur (add32 (adjust size) REALLOC_BUFFER)) < 2 * REALLOC_BUFFER then do
          let next ← NEXT_BLKP s.mem ptr
          let _ ← SET_RATAG s.mem (HDRP next)
          pure (s, ptr)
        else pure (s, ptr)) := by
  unfold mm_realloc
  rw [if_neg hs]
  rfl

end Seg


theorem load_eq {m : Mem} {p : Nat} (h : m.ok p) : load m p = .ok (m.w p % W32) := by
  unfold load
  rw [if_pos h]

namespace Seg

/-- The absorption step on a well-formed heap in which the block `b` is followed by the free
block `c`: it returns, and its result is the heap after unlinking `c` with the word
`v | 1` written to the header of `b` and to the word at `b + v - 8`. -/
theorem absorb_run {s : State} {h0 : Nat} {B : List Blk} {F : Nat → List Nat} {b c : Blk}
    {new_size : Nat} {remainder : Int} {v : Nat}
    (h : WF s h0 B F) (hb : b ∈ B) (hc : c ∈ B) (hcf : c.alloc = false)
    (hcb : c.addr = b.addr + b.size)
    (hv : add32 new_size (ofInt32 remainder) = v) (hv8 : v % 8 = 0) (hvb : 8 ≤ v)
    (hvle : b.addr + v ≤ s.mem.brk) :
    ∃ s1 F1 m2 m3, delete_node s c.addr = .ok s1 ∧ Part s1 h0 B F1 [c.addr] ∧
      s1.mem.brk = s.mem.brk ∧ s1.mem.lo = s.mem.lo ∧ s1.mem.hi = s.mem.hi ∧
      (∀ q, Outside B q → load s1.mem q = load s.mem q) ∧
      store s1.mem (b.addr - 4) (v + 1) = .ok m2 ∧
      store m2 (b.addr + v - 8) (v + 1) = .ok m3 ∧
      absorbNext s b.addr new_size remainder = .ok ({ s1 with mem := m3 }, b.addr) := by
  have hL := h.layout
  obtain ⟨b1, b2, b3, b4, b5⟩ := hL.bounds hb
  have hlo := hL.h0_ge
  have g2 : NEXT_BLKP s.mem b.addr = .ok c.addr := by rw [hcb]; exact hL.next hb
  obtain ⟨s1, hd⟩ := delete_node_total hL h.lists hc hcf (h.complete c hc hcf)
  obtain ⟨F1, hP, e1, e2, e3, hfr⟩ := Part.delete h.part hc hcf (by simp) hd
  have k0 := (load_ok_iff.mp (hL.hdr b hb)).1
  obtain ⟨k1, k2, k3⟩ := k0
  have o1 : s1.mem.ok (b.addr - 4) := by
    show s1.mem.lo ≤ _ ∧ _ ≤ s1.mem.brk ∧ _
    rw [e1, e2]
    exact ⟨k1, k2, k3⟩
  obtain ⟨m2, w1⟩ := store_total (v + 1) o1
  have o2 : m2.ok (b.addr + v - 8) := by
    show m2.lo ≤ _ ∧ _ ≤ m2.brk ∧ _
    rw [store_lo w1, store_brk w1, e1, e2]
    exact ⟨by omega, by omega, by omega⟩
  obtain ⟨m3, w2⟩ := store_total (v + 1) o2
  have o3 : m3.ok (b.addr + v - 4) := by
    show m3.lo ≤ _ ∧ _ ≤ m3.brk ∧ _
    rw [store_lo w2, store_brk w2, store_lo w1, store_brk w1, e1, e2]
    exact ⟨by omega, by omega, by omega⟩
  have ev : (v + 1) % W32 = v + 1 := Nat.mod_eq_of_lt (by omega)
  have l2 : load m2 (b.addr - 4) = .ok (v + 1) := by
    rw [load_store w1, if_pos rfl, ev]
  have l3 : load m3 (b.addr - 4) = .ok (v + 1) := by
    rw [load_store w2, if_neg (by omega), l2]
  have f2 : FTRP m2 b.addr = .ok (b.addr + v - 8) :=
    seg_FTRP_tag l2 hv8 (by omega) (by omega) (by omega)
  have g3 : GET_SIZE m3 (HDRP b.addr) = .ok v := by
    rw [seg_HDRP_eq (by omega) (by omega)]
    exact seg_GET_SIZE_tag l3 hv8 (by omega)
  have n3 : NEXT_BLKP m3 b.addr = .ok (b.addr + v) :=
    seg_NEXT_BLKP_tag l3 hv8 (by omega) (by omega) (by omega)
  have r3 : SET_RATAG m3 (HDRP (b.addr + v)) = .ok ((m3.w (b.addr + v - 4) % W32) ||| 2) := by
    unfold SET_RATAG GET
    rw [seg_HDRP_eq (by omega) (by omega), load_eq o3]
    rfl
  refine ⟨s1, F1, m2, m3, hd, hP, e1, e2, e3, hfr, w1, w2, ?_⟩
  unfold absorbNext
  simp only [g2, ok_bind, hd, PUT_NOTAG, seg_HDRP_eq (show 4 ≤ b.addr by omega)
    (show b.addr < W32 by omega), hv, seg_PACK_eq hv8 (show 1 < 2 by omega), w1, f2, w2]
  rw [← seg_HDRP_eq (show 4 ≤ b.addr by omega) (show b.addr < W32 by omega)]
  simp only [g3, ok_bind, n3, r3]
  split <;> rfl

end Seg


namespace Seg

/-- Following the predecessor links from the head of a list segment that ends at `NULL`
visits exactly its nodes. -/
theorem listWalk_dll {m : Mem} : ∀ (ns : List Nat) (prev : Nat), DLLseg m prev ns 0 →
    (∀ a ∈ ns, a ≠ 0) → listWalk m (ns.length + 1) (ns.headD 0) = .ok ns
  | [], _, _, _ => by
    unfold listWalk
    rfl
  | a :: rest, prev, h, hne => by
    obtain ⟨-, h2, h3⟩ := h
    have ih := listWalk_dll rest a h3 (fun x hx => hne x (List.mem_cons_of_mem _ hx))
    have ha := hne a (List.mem_cons_self _ _)
    unfold listWalk
    simp only [List.headD_cons, List.length_cons]
    rw [if_neg ha]
    unfold PRED
    rw [h2]
    simp only [ok_bind, ih]
    rfl

/-- On a well-formed heap, the walk of segregated list `k` yields the nodes `F k`. -/
theorem WF.walk {s : State} {h0 : Nat} {B : List Blk} {F : Nat → List Nat} (h : WF s h0 B F)
    {k : Nat} (hk : k < 20) :
    listWalk s.mem ((F k).length + 1) (s.segregated_free_lists k) = .ok (F k) := by
  rw [h.lists.heads k hk]
  refine listWalk_dll _ 0 (h.lists.dll k hk) fun a ha e => ?_
  have := h.lists.node_pos h.layout hk ha
  omega

/-- The size that `mm_realloc` aims at, for a request that does not wrap. -/
theorem realloc_target {n : Nat} (hn : n + 15 < W32)
    (ha : max (ALIGN (n + 8)) 16 + 128 < W32) :
    add32 (adjust n) REALLOC_BUFFER = max (ALIGN (n + 8)) 16 + 128 ∧
    max (ALIGN (n + 8)) 16 % 8 = 0 ∧ n + 8 ≤ max (ALIGN (n + 8)) 16 ∧
    max (ALIGN (n + 8)) 16 < n + 16 + 8 := by
  have hA := @ALIGN_facts (n + 8) (by omega)
  have e : adjust n = max (ALIGN (n + 8)) 16 := by
    unfold adjust DSIZE
    by_cases h : n ≤ 8
    · rw [if_pos h, max_eq_right (by omega)]
    · rw [if_neg h, add32_eq (by omega), max_eq_left (by omega)]
  rw [e]
  unfold REALLOC_BUFFER
  have hW : W32 = 4294967296 := rfl
  refine ⟨add32_eq (by omega), by omega, by omega, by omega⟩

end Seg


namespace Seg

/-- Case 2 of `mm_realloc` without extension: a block that is too small and whose free
successor makes up for the difference absorbs that successor whole. The call returns the
same pointer; the heap is well formed again with the two blocks replaced by one allocated
block, the successor is in no list, and the payload words are unchanged. -/
theorem realloc_absorb {fuel : Nat} {s : State} {h0 : Nat} {L R : List Blk} {p b x : Blk}
    {F : Nat → List Nat} {n : Nat}
    (h : WF s h0 (L ++ p :: b :: x :: R) F) (hba : b.alloc = true) (hxf : x.alloc = false)
    (hn : 0 < n) (hnw : n + 15 < W32)
    (hlt : b.size < max (ALIGN (n + 8)) 16 + 128)
    (hge : max (ALIGN (n + 8)) 16 + 128 ≤ b.size + x.size)
    (hsum : b.size + x.size < 2147483648) :
    ∃ s' F', mm_realloc fuel s b.addr n = .ok (s', b.addr) ∧
      WF s' h0 (L ++ p :: ⟨b.addr, b.size + x.size, true⟩ :: R) F' ∧
      (∀ k, k < 20 → x.addr ∉ F' k) ∧
      load s'.mem (b.addr - 4) = .ok (b.size + x.size + 1) ∧
      load s'.mem (b.addr + (b.size + x.size) - 8) = .ok (b.size + x.size + 1) ∧
      s'.mem.brk = s.mem.brk ∧
      (∀ q, b.addr ≤ q → q + 8 ≤ b.addr + b.size → load s'.mem q = load s.mem q) := by
  have hL := h.layout
  have hW : W32 = 4294967296 := rfl
  have hb : b ∈ L ++ p :: b :: x :: R := by simp
  have hx : x ∈ L ++ p :: b :: x :: R := by simp
  obtain ⟨hT1, hT2⟩ := hL.neighbours
  obtain ⟨-, -, h8, hp0, -, hp8, hbp, hb8, hb8', hxa, hx8, -, hTR, hle, hbrk, -, hhb, -, -, -,
    hRne⟩ := hL.triple
  have x16 := hL.free16 x hx hxf
  obtain ⟨e1, a8, -, -⟩ := @realloc_target n hnw (by omega)
  generalize max (ALIGN (n + 8)) 16 + 128 = T at e1 hlt hge
  generalize hv : b.size + x.size = v at *
  have g1 := hL.get_size hb
  have g2 : NEXT_BLKP s.mem b.addr = .ok x.addr := by rw [hxa]; exact hL.next hb
  have g3 := hL.get_alloc hx
  rw [hxf] at g3
  have g4 := hL.get_size hx
  have eadd : add32 b.size x.size = v := by rw [add32_eq (by omega), hv]
  have c1 : toInt32 (sub32 b.size T) < 0 := by
    rw [toInt32_neg_iff]
    unfold sub32
    rw [hW]
    omega
  have c2 : ¬ toInt32 (sub32 (add32 b.size x.size) T) < 0 := by
    rw [toInt32_neg_iff, eadd, sub32_eq (by omega) (by omega), hW]
    omega
  have hvv : add32 T (ofInt32 (toInt32 (sub32 (add32 b.size x.size) T))) = v := by
    rw [eadd]
    exact add32_sub32_cancel (by omega) (by omega)
  obtain ⟨s1, F1, m2, m3, hd, hP, b1, b2, b3, hfr, w1, w2, hrun⟩ :=
    absorb_run h hb hx hxf hxa hvv (by omega) (by omega) (by omega)
  have ev : (v + 1) % W32 = v + 1 := Nat.mod_eq_of_lt (by omega)
  have l3 : load m3 (b.addr - 4) = .ok (v + 1) := by
    rw [load_store w2, if_neg (by omega), load_store w1, if_pos rfl, ev]
  have l4 : load m3 (b.addr + v - 8) = .ok (v + 1) := by
    rw [load_store w2, if_pos rfl, ev]
  have lfr : ∀ q, q ≠ b.addr - 4 → q ≠ b.addr + v - 8 → load m3 q = load s1.mem q := by
    intro q q1 q2
    rw [load_store w2, if_neg q2, load_store w1, if_neg q1]
  have hne : ∀ q, (q + 8 ≤ b.addr ∨ b.addr + v ≤ q + 4) → q ≠ b.addr - 4 ∧ q ≠ b.addr + v - 8 := by
    intro q hq
    omega
  have hB : L ++ p :: b :: x :: R = (L ++ [p]) ++ [b, x] ++ R := by simp
  have hB' : L ++ p :: ⟨b.addr, v, true⟩ :: R = (L ++ [p]) ++ [⟨b.addr, v, true⟩] ++ R := by
    simp
  have hP2 : Part s1 h0 ((L ++ [p]) ++ [b, x] ++ R) F1 [x.addr] := by rw [← hB]; exact hP
  have hTR' : Tiles (b.addr + v) R s1.mem.brk := by
    rw [b1, ← hv, ← Nat.add_assoc, ← hxa]
    exact hTR
  have hT1' : Tiles h0 (L ++ [p]) b.addr := hT1
  have hP3 := @Part.part_replace s1 h0 (L ++ [p]) [b, x] [⟨b.addr, v, true⟩] R F1 [x.addr] m3
    b.addr (b.addr + v) [] hP2 (by simp) (hRne hxf) hT1' hTR'
    (by
      simp only [Tiles]
      exact ⟨trivial, by omega, fun h => absurd rfl h, trivial⟩)
    (by
      intro c hc
      rw [List.mem_singleton] at hc
      subst hc
      show 8 ≤ v
      omega)
    ⟨by rw [store_brk w2, store_brk w1], by rw [store_lo w2, store_lo w1],
      by rw [store_hi w2, store_hi w1]⟩
    (fun q hq => lfr q (hne q hq).1 (hne q hq).2)
    (by
      intro c hc
      rw [List.mem_singleton] at hc
      subst hc
      show load m3 (b.addr - 4) = .ok (v + 1) ∧ GET_SIZE m3 (b.addr + v - 8) = .ok v
      exact ⟨l3, seg_GET_SIZE_tag l4 (by omega) (by omega)⟩)
    (by
      intro c hc hcf
      rw [List.mem_singleton] at hc
      subst hc
      cases hcf)
    (by
      intro f hf hff
      simp only [List.mem_cons, List.mem_singleton, List.not_mem_nil, or_false] at hf
      rcases hf with rfl | rfl
      · rw [hba] at hff; exact absurd hff (by decide)
      · exact List.mem_singleton.mpr rfl)
    (by
      intro a ha
      rw [List.mem_singleton] at ha
      subst ha
      omega)
    (by
      intro c hc hcf
      rw [List.mem_singleton] at hc
      subst hc
      cases hcf)
    (by intro a ha; simp at ha)
  rw [← hB'] at hP3
  refine ⟨{ s1 with mem := m3 }, F1, ?_, hP3.wf, ?_, l3, l4, ?_, ?_⟩
  · rw [mm_realloc_eq _ _ _ _ (by omega)]
    simp only [g1, ok_bind, e1]
    rw [if_pos c1]
    simp only [g2, ok_bind, g3, g4]
    rw [if_pos (show false.toNat = 0 ∨ x.size = 0 from Or.inl rfl), if_neg c2]
    exact hrun
  · intro k hk hin
    exact hP.unlinked k hk _ hin (List.mem_singleton.mpr rfl)
  · show m3.brk = _
    rw [store_brk w2, store_brk w1, b1]
  · intro q q1 q2
    show load m3 q = _
    rw [lfr q (by omega) (by omega)]
    exact hfr q (hL.payload_outside hb hba q1 q2).1

end Seg


namespace Seg

/-- Bytes of the payload of a block are unchanged when its payload words are. -/
theorem payload_bytes {m m' : Mem} {h0 : Nat} {B : List Blk} (hL : Layout m h0 B) {b : Blk}
    (hb : b ∈ B) {k : Nat} (hk : k + 8 ≤ b.size)
    (hfr : ∀ q, b.addr ≤ q → q < b.addr + k → q % 4 = 0 → load m' q = load m q) :
    ∀ i, i < k → byteAt m' (b.addr + i) = byteAt m (b.addr + i) := by
  intro i hi
  obtain ⟨b1, b2, b3, b4, b5⟩ := hL.bounds hb
  have hlo := hL.h0_ge
  obtain ⟨-, -, k3⟩ := (load_ok_iff.mp (hL.hdr b hb)).1
  have hq : (b.addr + i) - (b.addr + i) % 4 = b.addr + (i - i % 4) := by omega
  refine byteAt_of_load ?_ ⟨?_, ?_, ?_⟩
  · rw [hq]
    exact hfr _ (by omega) (by omega) (by omega)
  · rw [hq]; omega
  · rw [hq]; omega
  · rw [hq]; omega

end Seg


/-! ## Bytes copied by `memcpy` -/

namespace Seg

end Seg



namespace Seg

end Seg


/-! ## Heap bounds are kept by every operation -/

namespace Seg

end Seg


namespace Seg

end Seg


namespace Seg

end Seg


namespace Seg

/-- A boundary word `size | alloc | tag` as a sum. -/
theorem pack_or_tag {z a t : Nat} (h8 : z % 8 = 0) (ha : a < 2) (ht : t = 0 ∨ t = 2) :
    PACK z a ||| t = z + (a + t) := by
  rw [seg_PACK_eq h8 ha, ← lor_lt8 z a h8 (by omega), Nat.lor_assoc]
  have e : a ||| t = a + t := by
    have ha' : a = 0 ∨ a = 1 := by omega
    rcases ha' with rfl | rfl <;> rcases ht with rfl | rfl <;> rfl
  rw [e]
  exact lor_lt8 z (a + t) h8 (by omega)

/-- The three fields of a boundary word `size + (alloc + tag)`. -/
theorem fields_of_word {m : Mem} {p z a t : Nat} (h : load m p = .ok (z + (a + t)))
    (h8 : z % 8 = 0) (ha : a < 2) (ht : t = 0 ∨ t = 2) :
    GET_SIZE m p = .ok z ∧ GET_ALLOC m p = .ok a ∧ GET_TAG m p = .ok t := by
  have hlt := load_lt h
  unfold GET_SIZE GET_ALLOC GET_TAG GET
  rw [h]
  refine ⟨?_, ?_, ?_⟩
  · show Except.ok ((z + (a + t)) &&& 4294967288) = _
    rw [tag_land_mask h8 (by omega) hlt]
  · show Except.ok ((z + (a + t)) &&& 1) = _
    rw [land_one]
    congr 1
    omega
  · show Except.ok ((z + (a + t)) &&& 2) = _
    rw [land_two]
    congr 1
    omega

end Seg


namespace Seg

/-- The bucket of a size: the position of its leading bit, capped at 19. -/
theorem bucket_log2 {size : Nat} (hs : 1 ≤ size) :
    bucket size = min (Nat.log2 size) 19 ∧
    (bucket size < 19 → 2 ^ bucket size ≤ size ∧ size < 2 ^ (bucket size + 1)) ∧
    (bucket size = 19 ↔ 2 ^ 19 ≤ size) := by
  obtain ⟨-, h2, h3, h4, h5⟩ := bucketLoop_facts 19 0 size rfl
  rw [h3] at h4
  have hk : bucket size = (bucketLoop 19 0 size).1 := rfl
  rw [← hk] at h2 h4 h5
  simp only [Nat.sub_zero, Nat.shiftRight_eq_div_pow] at h4 h5
  generalize bucket size = k at *
  have hlo : 2 ^ k ≤ size := by
    by_cases h0 : k = 0
    · subst h0; simpa using hs
    · have h := h5 (by omega)
      have h' : 2 ≤ size / 2 ^ (k - 1) := h
      have := (Nat.le_div_iff_mul_le (by positivity)).mp h'
      have e : 2 ^ k = 2 * 2 ^ (k - 1) := by
        rw [← pow_succ']
        congr 1
        omega
      omega
  have hhi : k < 19 → size < 2 ^ (k + 1) := by
    intro hk19
    have h := h4 hk19
    have : size / 2 ^ k < 2 := Nat.lt_succ_of_le h
    have := (Nat.div_lt_iff_lt_mul (by positivity)).mp this
    rw [pow_succ]
    omega
  have hlog : k < 19 → Nat.log2 size = k := by
    intro hk19
    rw [Nat.log2_eq_log_two]
    exact (Nat.log_eq_iff (Or.inr ⟨by norm_num, by omega⟩)).mpr ⟨hlo, hhi hk19⟩
  refine ⟨?_, fun h => ⟨hlo, hhi h⟩, ?_⟩
  · by_cases hk19 : k < 19
    · rw [hlog hk19]
      omega
    · have e : k = 19 := by omega
      subst e
      have : 19 ≤ Nat.log2 size := by
        rw [Nat.log2_eq_log_two]
        exact Nat.le_log_of_pow_le (by norm_num) hlo
      omega
  · constructor
    · intro e
      subst e
      exact hlo
    · intro h
      by_contra hne
      have := hhi (by omega)
      have : 2 ^ (k + 1) ≤ 2 ^ 19 := Nat.pow_le_pow_right (by norm_num) (by omega)
      omega

end Seg


namespace Seg

/-- The ordering loop of `insert_node` stops at once when the head of the list is at least
as large as the value it compares with. -/
theorem insertWalk_stop {m : Mem} {size hd : Nat} (n : Nat)
    (h : hd ≠ 0 → ∃ z, GET_SIZE m (HDRP hd) = .ok z ∧ size ≤ z) :
    insertWalk m size (n + 1) hd 0 = .ok (hd, 0) := by
  unfold insertWalk
  by_cases h0 : hd ≠ 0
  · obtain ⟨z, hz, hle⟩ := h h0
    rw [if_pos h0, hz]
    simp only [ok_bind]
    rw [if_neg (by omega)]
    rfl
  · rw [if_neg h0]
    rfl

/-- On a laid-out heap with well-formed lists, the walk of list `k` yields `F k`. -/
theorem Lists.walk_eq {m : Mem} {hd : Nat → Nat} {h0 : Nat} {B : List Blk}
    {F : Nat → List Nat} (hL : Layout m h0 B) (hF : Lists m hd B F) {k : Nat} (hk : k < 20) :
    listWalk m ((F k).length + 1) (hd k) = .ok (F k) := by
  rw [hF.heads k hk]
  refine listWalk_dll _ 0 (hF.dll k hk) fun a ha e => ?_
  have := hF.node_pos hL hk ha
  omega

/-- With one unit of fuel, `insert_node` returns on a laid-out heap with well-formed lists,
for a free block that is in no list. -/
theorem insert_node_total {s : State} {h0 : Nat} {B : List Blk} {F : Nat → List Nat} {b : Blk}
    (n : Nat) (hL : Layout s.mem h0 B) (hF : Lists s.mem s.segregated_free_lists B F)
    (hb : b ∈ B) (hbf : b.alloc = false) (hnin : b.addr ∉ F (bucket b.size)) :
    ∃ s', insert_node (n + 1) s b.addr b.size = .ok s' := by
  have hk := bucket_lt b.size
  have hbb := hL.bounds hb
  have h16 := hL.free16 b hb hbf
  have hhd := hF.heads _ hk
  have hlo := hL.h0_ge
  obtain ⟨k1, k2, k3⟩ := (load_ok_iff.mp (hL.hdr b hb)).1
  have hw : insertWalk s.mem (bucketLoop (LISTLIMIT - 1) 0 b.size).2 (n + 1)
      (s.segregated_free_lists (bucketLoop (LISTLIMIT - 1) 0 b.size).1) 0 =
      .ok (s.segregated_free_lists (bucket b.size), 0) := by
    refine insertWalk_stop n fun hne => ?_
    have hne' : s.segregated_free_lists (bucket b.size) ≠ 0 := hne
    rw [hhd] at hne'
    cases hfk : F (bucket b.size) with
    | nil => rw [hfk] at hne'; simp at hne'
    | cons y ys =>
      obtain ⟨c, hc, e, hcf, hcb⟩ := hF.nodes _ hk y (by rw [hfk]; simp)
      have hc16 := hL.free16 c hc hcf
      refine ⟨c.size, ?_, bucket_rest_le (by omega) hc16 hcb⟩
      show GET_SIZE s.mem (HDRP (s.segregated_free_lists (bucket b.size))) = _
      rw [hhd, hfk, List.headD_cons, ← e]
      exact hL.get_size hc
  have o1 : s.mem.ok b.addr := ⟨by omega, by omega, by omega⟩
  have o2 : s.mem.ok (b.addr + 4) := ⟨by omega, by omega, by omega⟩
  have eS : SUCC_PTR b.addr = b.addr + 4 := SUCC_PTR_eq (by omega)
  unfold insert_node
  simp only [hw, ok_bind]
  rw [hhd]
  cases hfk : F (bucket b.size) with
  | nil =>
    simp only [List.headD_nil, ne_eq, not_true_eq_false, if_false]
    unfold SET_PTR PRED_PTR
    rw [eS]
    obtain ⟨m1, w1⟩ := store_total 0 o1
    obtain ⟨m2, w2⟩ := store_next w1 o2 0
    simp only [w1, ok_bind, w2]
    exact ⟨_, rfl⟩
  | cons y ys =>
    obtain ⟨c, hc, e, hcf, hcb⟩ := hF.nodes _ hk y (by rw [hfk]; simp)
    obtain ⟨y1, y2⟩ := hF.node_ok hL hk (show y ∈ F (bucket b.size) by rw [hfk]; simp)
    have hcc := hL.bounds hc
    have y3 : y + 4 + 4 ≤ s.mem.brk := y2.2.1
    have hy0 : y ≠ 0 := by omega
    have eS2 : SUCC_PTR y = y + 4 := SUCC_PTR_eq (by omega)
    simp only [List.headD_cons, ne_eq, hy0, not_false_eq_true, if_true, not_true_eq_false,
      if_false]
    unfold SET_PTR PRED_PTR
    rw [eS, eS2]
    obtain ⟨m1, w1⟩ := store_total y o1
    obtain ⟨m2, w2⟩ := store_next w1 y2 b.addr
    have o2' : m1.ok (b.addr + 4) := by
      show m1.lo ≤ _ ∧ _ ≤ m1.brk ∧ _
      rw [store_lo w1, store_brk w1]
      exact o2
    obtain ⟨m3, w3⟩ := store_next w2 o2' 0
    simp only [w1, ok_bind, w2, w3]
    exact ⟨_, rfl⟩

end Seg


namespace Seg

/-- The nodes met by `listWalk` are not `NULL`. -/
theorem listWalk_ne_zero {m : Mem} : ∀ (fuel ptr : Nat) (ns : List Nat),
    listWalk m fuel ptr = .ok ns → ∀ a ∈ ns, a ≠ 0
  | 0, _, _, h => by simp [listWalk] at h
  | n + 1, ptr, ns, h => by
    unfold listWalk at h
    by_cases h0 : ptr = 0
    · rw [if_pos h0] at h
      obtain rfl := (pure_ok_iff _ _).mp h
      intro a ha
      simp at ha
    · rw [if_neg h0] at h
      obtain ⟨p, hp, h⟩ := bind_ok h
      obtain ⟨rest, hr, h⟩ := bind_ok h
      obtain rfl := (pure_ok_iff _ _).mp h
      intro a ha
      rcases List.mem_cons.mp ha with rfl | ha
      · exact h0
      · exact listWalk_ne_zero n p rest hr a ha

/-- The inner traversal of the fit search returns the first node of the walk that is large
enough and untagged, or `NULL` when there is none. -/
theorem fitWalk_find {m : Mem} {asize : Nat} {sizeOf tagOf : Nat → Nat} :
    ∀ (fuel ptr : Nat) (ns : List Nat), listWalk m fuel ptr = .ok ns →
      (∀ a ∈ ns, GET_SIZE m (HDRP a) = .ok (sizeOf a) ∧ GET_TAG m (HDRP a) = .ok (tagOf a)) →
      fitWalk m asize fuel ptr =
        .ok ((ns.find? fun a => decide (asize ≤ sizeOf a ∧ tagOf a = 0)).getD 0)
  | 0, _, _, h, _ => by simp [listWalk] at h
  | n + 1, ptr, ns, h, hr => by
    unfold listWalk at h
    unfold fitWalk
    by_cases h0 : ptr = 0
    · rw [if_pos h0] at h
      obtain rfl := (pure_ok_iff _ _).mp h
      rw [if_neg (by simpa using h0), h0]
      rfl
    · rw [if_neg h0] at h
      obtain ⟨p, hp, h⟩ := bind_ok h
      obtain ⟨rest, hrest, h⟩ := bind_ok h
      obtain rfl := (pure_ok_iff _ _).mp h
      obtain ⟨g1, g2⟩ := hr ptr (List.mem_cons_self _ _)
      rw [if_pos h0, g1, g2]
      simp only [ok_bind]
      by_cases hc : asize > sizeOf ptr ∨ tagOf ptr ≠ 0
      · rw [if_pos hc, hp]
        simp only [ok_bind]
        rw [fitWalk_find n p rest hrest fun a ha => hr a (List.mem_cons_of_mem _ ha)]
        have : ¬ (asize ≤ sizeOf ptr ∧ tagOf ptr = 0) := by
          rintro ⟨c1, c2⟩
          rcases hc with hc | hc
          · omega
          · exact hc c2
        rw [List.find?_cons_of_neg _ (by simpa using this)]
      · rw [if_neg hc]
        have : asize ≤ sizeOf ptr ∧ tagOf ptr = 0 := by
          constructor
          · by_contra hh; exact hc (Or.inl (by omega))
          · by_contra hh; exact hc (Or.inr hh)
        rw [List.find?_cons_of_pos _ (by simpa using this)]
        rfl

/-- The search size at list `l` is at most 1 exactly from the bucket of `asize` on. -/
theorem searchsize_le_one {asize : Nat} (ha : 1 ≤ asize) (l : Nat) :
    asize >>> l ≤ 1 ↔ Nat.log2 asize ≤ l := by
  rw [Nat.shiftRight_eq_div_pow, Nat.log2_eq_log_two]
  have h1 : asize / 2 ^ l ≤ 1 ↔ asize < 2 ^ (l + 1) := by
    rw [← Nat.lt_succ_iff, Nat.div_lt_iff_lt_mul (by positivity), pow_succ, Nat.mul_comm]
  rw [h1, ← Nat.lt_succ_iff, Nat.lt_pow_iff_log_lt (by norm_num) (by omega)]

/-- The loop over the lists in the fit search of `mm_malloc`, from list `list` on. -/
theorem fitLists_first {fuel : Nat} {s : State} {asize : Nat} {sizeOf tagOf : Nat → Nat}
    {walk : Nat → List Nat} (ha : 1 ≤ asize)
    (hw : ∀ k, k < 20 → listWalk s.mem fuel (s.segregated_free_lists k) = .ok (walk k))
    (hr : ∀ k, k < 20 → ∀ a ∈ walk k,
      GET_SIZE s.mem (HDRP a) = .ok (sizeOf a) ∧ GET_TAG s.mem (HDRP a) = .ok (tagOf a)) :
    ∀ (n list : Nat), list + n = 20 →
      ∃ r, fitLists fuel s asize n list (asize >>> list) = .ok r ∧
        ((r = 0 ∧ ∀ k, min (Nat.log2 asize) 19 ≤ k → list ≤ k → k < 20 →
            ∀ a ∈ walk k, ¬ (asize ≤ sizeOf a ∧ tagOf a = 0)) ∨
          ∃ k, min (Nat.log2 asize) 19 ≤ k ∧ list ≤ k ∧ k < 20 ∧
            (walk k).find? (fun a => decide (asize ≤ sizeOf a ∧ tagOf a = 0)) = some r ∧
            ∀ j, min (Nat.log2 asize) 19 ≤ j → list ≤ j → j < k →
              ∀ a ∈ walk j, ¬ (asize ≤ sizeOf a ∧ tagOf a = 0))
  | 0, list, h => by
    refine ⟨0, by unfold fitLists; rfl, Or.inl ⟨rfl, fun k _ h1 h2 => ?_⟩⟩
    omega
  | n + 1, list, h => by
    have hk : list < 20 := by omega
    obtain ⟨r, hrec, hres⟩ := fitLists_first ha hw hr n (list + 1) (by omega)
    have eshift : (asize >>> list) >>> 1 = asize >>> (list + 1) := by
      rw [← Nat.shiftRight_add]
    have hss := searchsize_le_one ha list
    -- the lists from `list + 1` on, extended by a list that offers nothing
    have skip : (∀ a ∈ walk list, min (Nat.log2 asize) 19 ≤ list →
        ¬ (asize ≤ sizeOf a ∧ tagOf a = 0)) →
        ((r = 0 ∧ ∀ k, min (Nat.log2 asize) 19 ≤ k → list ≤ k → k < 20 →
            ∀ a ∈ walk k, ¬ (asize ≤ sizeOf a ∧ tagOf a = 0)) ∨
          ∃ k, min (Nat.log2 asize) 19 ≤ k ∧ list ≤ k ∧ k < 20 ∧
            (walk k).find? (fun a => decide (asize ≤ sizeOf a ∧ tagOf a = 0)) = some r ∧
            ∀ j, min (Nat.log2 asize) 19 ≤ j → list ≤ j → j < k →
              ∀ a ∈ walk j, ¬ (asize ≤ sizeOf a ∧ tagOf a = 0)) := by
      intro hno
      rcases hres with ⟨r0, hall⟩ | ⟨k, k1, k2, k3, k4, k5⟩
      · refine Or.inl ⟨r0, fun k c1 c2 c3 a ha' => ?_⟩
        by_cases e : k = list
        · subst e; exact hno a ha' c1
        · exact hall k c1 (by omega) c3 a ha'
      · refine Or.inr ⟨k, k1, by omega, k3, k4, fun j c1 c2 c3 a ha' => ?_⟩
        by_cases e : j = list
        · subst e; exact hno a ha' c1
        · exact k5 j c1 (by omega) c3 a ha'
    unfold fitLists
    by_cases hc : list = LISTLIMIT - 1 ∨
        (asize >>> list ≤ 1 ∧ s.segregated_free_lists list ≠ 0)
    · rw [if_pos hc]
      have hk0 : min (Nat.log2 asize) 19 ≤ list := by
        rcases hc with hc | hc
        · have : list = 19 := hc
          omega
        · have := hss.mp hc.1
          omega
      rw [fitWalk_find fuel _ _ (hw list hk) (hr list hk)]
      simp only [ok_bind]
      cases hf : (walk list).find? (fun a => decide (asize ≤ sizeOf a ∧ tagOf a = 0)) with
      | none =>
        simp only [Option.getD_none, ne_eq, not_true_eq_false, if_false]
        rw [eshift]
        refine ⟨r, hrec, skip fun a ha' _ => ?_⟩
        have := List.find?_eq_none.mp hf a ha'
        simpa using this
      | some x =>
        have hx0 : x ≠ 0 :=
          listWalk_ne_zero fuel _ _ (hw list hk) x (List.mem_of_find?_eq_some hf)
        simp only [Option.getD_some, ne_eq, hx0, not_false_eq_true, if_true]
        refine ⟨x, rfl, Or.inr ⟨list, hk0, le_refl _, hk, hf, fun j _ c2 c3 => ?_⟩⟩
        omega
    · rw [if_neg hc, eshift]
      refine ⟨r, hrec, skip fun a ha' hk0 => ?_⟩
      -- the list is empty
      have hl19 : list ≠ 19 := fun e => hc (Or.inl e)
      have hle : asize >>> list ≤ 1 := hss.mpr (by omega)
      have hhd : s.segregated_free_lists list = 0 := by
        by_contra hne
        exact hc (Or.inr ⟨hle, hne⟩)
      have hwl := hw list hk
      rw [hhd] at hwl
      have : walk list = [] := by
        cases fuel with
        | zero => simp [listWalk] at hwl
        | succ f =>
          unfold listWalk at hwl
          rw [if_pos rfl] at hwl
          exact ((pure_ok_iff _ _).mp hwl).symm
      rw [this] at ha'
      simp at ha'

end Seg


theorem log2_208 : Nat.log2 208 = 7 := by
  rw [Nat.log2_eq_log_two]
  exact (Nat.log_eq_iff (Or.inr ⟨by norm_num, by norm_num⟩)).mpr ⟨by norm_num, by norm_num⟩
/-! ## Explicit variant: freeing and reusing one block -/


namespace Explicit

/-- The insertion at the front of the free list returns, and the memory it leaves differs
from the old one in the three words it writes. -/
theorem pushFront_run {m : Mem} {fl bp : Nat} (hl : Nat) (o1 : m.ok bp) (o2 : m.ok (fl + 4))
    (o3 : m.ok (bp + 4)) (hlt : m.brk < W32) :
    ∃ m', pushFront ⟨m, hl, fl⟩ bp = .ok (⟨m', hl, bp⟩, bp) ∧ m'.lo = m.lo ∧
      m'.brk = m.brk ∧ m'.hi = m.hi ∧
      ∀ q, load m' q = if q = bp + 4 then .ok 0 else if q = fl + 4 then .ok bp
        else if q = bp then .ok fl else load m q := by
  obtain ⟨a1, a2, a3⟩ := o1
  obtain ⟨b1, b2, b3⟩ := o2
  obtain ⟨c1, c2, c3⟩ := o3
  have e1 : add32 fl 4 = fl + 4 := add32_eq (by omega)
  have e2 : add32 bp 4 = bp + 4 := add32_eq (by omega)
  obtain ⟨m1, w1⟩ := Seg.store_total fl (show m.ok bp from ⟨a1, a2, a3⟩)
  obtain ⟨m2, w2⟩ := store_next w1 (show m.lo ≤ fl + 4 ∧ fl + 4 + 4 ≤ m.brk ∧
    (fl + 4) % 4 = 0 from ⟨b1, b2, b3⟩) bp
  have k2 : m2.lo = m.lo ∧ m2.brk = m.brk := by
    rw [store_lo w2, store_brk w2, store_lo w1, store_brk w1]; exact ⟨rfl, rfl⟩
  obtain ⟨m3, w3⟩ := store_next w2 (show m1.lo ≤ bp + 4 ∧ bp + 4 + 4 ≤ m1.brk ∧
    (bp + 4) % 4 = 0 by rw [store_lo w1, store_brk w1]; exact ⟨c1, c2, c3⟩) 0
  refine ⟨m3, ?_, ?_, ?_, ?_, ?_⟩
  · unfold pushFront setNEXT_FREE setPREV_FREE WSIZE
    simp only [e1, e2, w1, w2, w3, ok_bind]
    rfl
  · rw [store_lo w3, k2.1]
  · rw [store_brk w3, k2.2]
  · rw [store_hi w3, store_hi w2, store_hi w1]
  · intro q
    rw [load_store w3, load_store w2, load_store w1, Nat.zero_mod,
      Nat.mod_eq_of_lt (show bp < W32 by omega), Nat.mod_eq_of_lt (show fl < W32 by omega)]

/-- When the neighbours of the block at `bp` both count as allocated (the footer before it
has its allocation bit set or holds size 0, and the header after it has its allocation bit
set), `coalesce` only inserts the block at the front of the free list. -/
theorem coalesce_alloc {m : Mem} {hl fl bp pv psz hv hsz fv cv csz nv : Nat}
    (hbp : bp < W32)
    (h1 : load m (bp - 8) = .ok pv) (e1 : pv &&& 4294967288 = psz) (hp : psz + 8 ≤ bp)
    (h2 : load m (bp - psz - 4) = .ok hv) (e2 : hv &&& 4294967288 = hsz) (hh : 8 ≤ hsz)
    (hlt2 : bp - psz + hsz < W32)
    (h3 : load m (bp - psz + hsz - 8) = .ok fv) (hpa : fv &&& 1 ≠ 0 ∨ psz = 0)
    (h4 : load m (bp - 4) = .ok cv) (e4 : cv &&& 4294967288 = csz) (hlt4 : bp + csz < W32)
    (h5 : load m (bp + csz - 4) = .ok nv) (hna : nv &&& 1 ≠ 0) :
    coalesce ⟨m, hl, fl⟩ bp = pushFront ⟨m, hl, fl⟩ bp := by
  have a1 : sub32 bp 4 = bp - 4 := sub32_eq (by omega) hbp
  have a2 : sub32 (bp - 4) 4 = bp - 8 := by rw [sub32_eq (by omega) (by omega)]; omega
  have a3 : sub32 bp psz = bp - psz := sub32_eq (by omega) hbp
  have a4 : sub32 (bp - psz) 4 = bp - psz - 4 := sub32_eq (by omega) (by omega)
  have a5 : sub32 (add32 (bp - psz) hsz) 8 = bp - psz + hsz - 8 := by
    rw [add32_eq hlt2, sub32_eq (by omega) hlt2]
  have a6 : add32 bp csz = bp + csz := add32_eq hlt4
  have a7 : sub32 (bp + csz) 4 = bp + csz - 4 := sub32_eq (by omega) hlt4
  have hc : (if fv &&& 1 ≠ 0 ∨ bp - psz = bp then 1 else 0) = 1 := by
    rw [if_pos]
    rcases hpa with h | h
    · exact Or.inl h
    · exact Or.inr (by omega)
  unfold coalesce PREV_BLKP FTRP NEXT_BLKP GET_ALLOC GET_SIZE GET HDRP WSIZE DSIZE
  simp only [a1, a2, h1, ok_bind, pure_bind, bind_assoc, e1, a3, a4, h2, e2, a5, h3, h4, e4, a6, a7, h5, hc]
  rw [if_neg (fun h => h.2 hna), if_neg (fun h => h.1 (by decide)),
    if_neg (fun h => h.1 (by decide))]

/-- Freeing an allocated block whose neighbours both count as allocated returns, makes the
block the head of the free list, and changes only the tags of the block and the three link
words. -/
theorem free_run {m : Mem} {hl fl p sz pv psz nv : Nat} (hlt : m.brk < W32)
    (hlo : m.lo + 32 ≤ p) (hp8 : p % 8 = 0) (hsz : 16 ≤ sz) (hsz8 : sz % 8 = 0)
    (hend : p + sz ≤ m.brk) (hh : load m (p - 4) = .ok (sz + 1))
    (h1 : load m (p - 8) = .ok pv)
    (hprev : (pv = 0 ∧ psz = 0) ∨ (pv = psz + 1 ∧ psz % 8 = 0 ∧ 16 ≤ psz ∧
      m.lo + 4 + psz ≤ p ∧ load m (p - psz - 4) = .ok (psz + 1)))
    (h5 : load m (p + sz - 4) = .ok (nv + 1)) (hnv : nv % 8 = 0)
    (hfl : m.lo ≤ fl) (hfl4 : fl % 4 = 0)
    (hfd : fl + 16 ≤ p - psz ∨ (p + sz ≤ fl ∧ fl + 8 ≤ m.brk)) :
    ∃ m1, mm_free ⟨m, hl, fl⟩ p = .ok ⟨m1, hl, p⟩ ∧ m1.lo = m.lo ∧ m1.brk = m.brk ∧
      m1.hi = m.hi ∧
      ∀ q, load m1 q = if q = p + 4 then .ok 0 else if q = fl + 4 then .ok p
        else if q = p then .ok fl else if q = p + sz - 8 then .ok sz
        else if q = p - 4 then .ok sz else load m q := by
  have a1 : sub32 p 4 = p - 4 := sub32_eq (by omega) (by omega)
  have a2 : (sz + 1) &&& 4294967288 = sz := tag_land_mask hsz8 (by omega) (by omega)
  have a3 : sz &&& 4294967288 = sz := by rw [land_mask8 _ (by unfold W32 at hlt; omega)]; omega
  have a4 : sub32 (add32 p sz) 8 = p + sz - 8 := by
    rw [add32_eq (by omega), sub32_eq (by omega) (by omega)]
  have a5 : PACK sz 0 = sz := Nat.or_zero sz
  have hszW : sz % W32 = sz := Nat.mod_eq_of_lt (by omega)
  obtain ⟨m1, w1⟩ := Seg.store_total sz (show m.ok (p - 4) from ⟨by omega, by omega, by omega⟩)
  obtain ⟨m2, w2⟩ := store_next w1 (show m.lo ≤ p + sz - 8 ∧ p + sz - 8 + 4 ≤ m.brk ∧
    (p + sz - 8) % 4 = 0 from ⟨by omega, by omega, by omega⟩) sz
  have k2 : m2.lo = m.lo ∧ m2.brk = m.brk ∧ m2.hi = m.hi := by
    rw [store_lo w2, store_brk w2, store_hi w2, store_lo w1, store_brk w1, store_hi w1]
    exact ⟨rfl, rfl, rfl⟩
  have L2 : ∀ q, load m2 q = if q = p + sz - 8 then .ok sz else if q = p - 4 then .ok sz
      else load m q := by
    intro q
    rw [load_store w2, load_store w1, hszW]
  have l1 : load m1 (p - 4) = .ok sz := by rw [load_store w1, if_pos rfl, hszW]
  have g1 : load m2 (p - 8) = .ok pv := by
    rw [L2, if_neg (by omega), if_neg (by omega)]; exact h1
  have g4 : load m2 (p - 4) = .ok sz := by rw [L2, if_neg (by omega), if_pos rfl]
  have g5 : load m2 (p + sz - 4) = .ok (nv + 1) := by
    rw [L2, if_neg (by omega), if_neg (by omega)]; exact h5
  have hna : (nv + 1) &&& 1 ≠ 0 := by rw [tag_land_one hnv (by omega)]; omega
  have hco : coalesce ⟨m2, hl, fl⟩ p = pushFront ⟨m2, hl, fl⟩ p := by
    rcases hprev with ⟨rfl, rfl⟩ | ⟨rfl, q1, q2, q3, q4⟩
    · exact coalesce_alloc (by omega) g1 (show 0 &&& 4294967288 = 0 from rfl) (by omega)
        (show load m2 (p - 0 - 4) = .ok sz from g4) a3 (by omega) (by omega)
        (show load m2 (p - 0 + sz - 8) = .ok sz by rw [Nat.sub_zero, L2, if_pos rfl])
        (Or.inr rfl) g4 a3 (by omega) g5 hna
    · have b1 : (psz + 1) &&& 4294967288 = psz := tag_land_mask q1 (by omega) (by omega)
      have b2 : load m2 (p - psz - 4) = .ok (psz + 1) := by
        rw [L2, if_neg (by omega), if_neg (by omega)]; exact q4
      have b3 : load m2 (p - psz + psz - 8) = .ok (psz + 1) := by
        rw [show p - psz + psz - 8 = p - 8 by omega]; exact g1
      exact coalesce_alloc (by omega) g1 b1 (by omega) b2 b1 (by omega) (by omega) b3
        (Or.inl (by rw [tag_land_one q1 (by omega)]; omega)) g4 a3 (by omega) g5 hna
  obtain ⟨m3, r1, r2, r3, r4, r5⟩ := pushFront_run hl
    (show m2.ok p by unfold Mem.ok; rw [k2.1, k2.2.1]; omega)
    (show m2.ok (fl + 4) by unfold Mem.ok; rw [k2.1, k2.2.1]; omega)
    (show m2.ok (p + 4) by unfold Mem.ok; rw [k2.1, k2.2.1]; omega)
    (by rw [k2.2.1]; exact hlt)
  refine ⟨m3, ?_, by rw [r2, k2.1], by rw [r3, k2.2.1], by rw [r4, k2.2.2], ?_⟩
  · unfold mm_free FTRP GET_SIZE GET HDRP PUT WSIZE DSIZE
    rw [if_neg (by omega)]
    simp only [a1, hh, ok_bind, pure_bind, bind_assoc, a2, a5, w1, l1, a3, a4, w2, hco, r1]
    rfl
  · intro q
    rw [r5, L2]

/-- Unlinking the head of the free list: its predecessor word holds 0, so the head moves
to its successor, whose predecessor word is cleared. -/
theorem remove_head {m : Mem} {p fl : Nat} (hl fl0 : Nat) (hp : p ≠ 0) (hlt : m.brk < W32)
    (hpf : load m (p + 4) = .ok 0) (hn : load m p = .ok fl) (hfl0 : fl ≠ 0)
    (o : m.ok (fl + 4)) :
    ∃ m', remove_freeblock ⟨m, hl, fl0⟩ p = .ok ⟨m', hl, fl⟩ ∧ store m (fl + 4) 0 = .ok m' := by
  obtain ⟨o1, o2, o3⟩ := o
  have b := (load_ok_iff.mp hpf).1.2.1
  have a1 : add32 p 4 = p + 4 := add32_eq (by omega)
  have a2 : add32 fl 4 = fl + 4 := add32_eq (by omega)
  obtain ⟨m1, w1⟩ := Seg.store_total 0 (show m.ok (fl + 4) from ⟨o1, o2, o3⟩)
  refine ⟨m1, ?_, w1⟩
  unfold remove_freeblock PREV_FREE NEXT_FREE setPREV_FREE setNEXT_FREE WSIZE
  rw [if_pos hp]
  simp only [a1, hpf, ok_bind, pure_bind, bind_assoc, hn, ne_eq, not_true_eq_false,
    if_false, hfl0, not_false_eq_true, if_true, a2, w1]
  rfl

theorem explicit_adjust_facts (n : Nat) : 16 ≤ adjust n ∧ adjust n % 8 = 0 := by
  have h1 : ALIGN n % 8 = 0 := land_mask_mod8 _
  have h2 : add32 (ALIGN n) DSIZE % 8 = 0 := add32_mod8 h1 (by decide)
  unfold adjust MAX MINBLOCKSIZE
  split_ifs with h
  · exact ⟨by omega, h2⟩
  · exact ⟨by omega, by decide⟩

/-- Placing a request in the free block at the head of the free list, whose successor in
the heap is allocated, returns (with and without a split). -/
theorem explicit_place_head {m : Mem} {hl fl p sz nv asize : Nat} (hlt : m.brk < W32)
    (hlo : m.lo + 32 ≤ p) (hp8 : p % 8 = 0) (hsz8 : sz % 8 = 0) (hend : p + sz ≤ m.brk)
    (ha16 : 16 ≤ asize) (ha8 : asize % 8 = 0) (hle : asize ≤ sz)
    (hh : load m (p - 4) = .ok sz) (hn : load m p = .ok fl) (hpf : load m (p + 4) = .ok 0)
    (h5 : load m (p + sz - 4) = .ok (nv + 1)) (hnv : nv % 8 = 0)
    (hfl : m.lo ≤ fl) (hfl0 : fl ≠ 0) (hfl4 : fl % 4 = 0)
    (hfd : fl + 16 ≤ p ∨ (p + sz ≤ fl ∧ fl + 8 ≤ m.brk)) :
    ∃ s2, place ⟨m, hl, p⟩ p asize = .ok s2 := by
  have a1 : sub32 p 4 = p - 4 := sub32_eq (by omega) (by omega)
  have a3 : sz &&& 4294967288 = sz := by rw [land_mask8 _ (by unfold W32 at hlt; omega)]; omega
  have a6 : sub32 sz asize = sz - asize := sub32_eq hle (by omega)
  have hfo : m.lo ≤ fl + 4 ∧ fl + 4 + 4 ≤ m.brk ∧ (fl + 4) % 4 = 0 :=
    ⟨by omega, by omega, by omega⟩
  unfold place FTRP NEXT_BLKP GET_SIZE GET HDRP PUT WSIZE DSIZE MINBLOCKSIZE
  simp only [a1, hh, ok_bind, pure_bind, bind_assoc, a3, a6]
  by_cases hsplit : sz - asize ≥ 16
  · rw [if_pos hsplit]
    have c1 : PACK asize 1 = asize + 1 := lor_lt8 asize 1 ha8 (by omega)
    have c2 : (asize + 1) &&& 4294967288 = asize := tag_land_mask ha8 (by omega) (by omega)
    have c3 : sub32 (p + asize) 8 = p + asize - 8 := sub32_eq (by omega) (by omega)
    have c4 : add32 p asize = p + asize := add32_eq (by omega)
    have c5 : sub32 (p + asize) 4 = p + asize - 4 := sub32_eq (by omega) (by omega)
    have c6 : PACK (sz - asize) 0 = sz - asize := Nat.or_zero _
    have c7 : (sz - asize) &&& 4294967288 = sz - asize := by
      rw [land_mask8 _ (by unfold W32 at hlt; omega)]; omega
    have c8 : sub32 (add32 (p + asize) (sz - asize)) 8 = p + sz - 8 := by
      rw [add32_eq (by omega), sub32_eq (by omega) (by omega)]; omega
    have hv1 : (asize + 1) % W32 = asize + 1 := Nat.mod_eq_of_lt (by omega)
    have hv2 : (sz - asize) % W32 = sz - asize := Nat.mod_eq_of_lt (by omega)
    obtain ⟨m1, w1⟩ := Seg.store_total (asize + 1)
      (show m.ok (p - 4) from ⟨by omega, by omega, by omega⟩)
    obtain ⟨m2, w2⟩ := store_next w1 (show m.lo ≤ p + asize - 8 ∧
      p + asize - 8 + 4 ≤ m.brk ∧ (p + asize - 8) % 4 = 0 from
      ⟨by omega, by omega, by omega⟩) (asize + 1)
    have k2 : m2.lo = m.lo ∧ m2.brk = m.brk := by
      rw [store_lo w2, store_brk w2, store_lo w1, store_brk w1]; exact ⟨rfl, rfl⟩
    have L2 : ∀ q, load m2 q = if q = p + asize - 8 then .ok (asize + 1)
        else if q = p - 4 then .ok (asize + 1) else load m q := by
      intro q
      rw [load_store w2, load_store w1, hv1]
    have l1 : load m1 (p - 4) = .ok (asize + 1) := by rw [load_store w1, if_pos rfl, hv1]
    obtain ⟨m3, r3, w3⟩ := remove_head hl p (show p ≠ 0 by omega)
      (show m2.brk < W32 by rw [k2.2]; exact hlt)
      (show load m2 (p + 4) = .ok 0 by
        rw [L2, if_neg (by omega), if_neg (by omega)]; exact hpf)
      (show load m2 p = .ok fl by
        rw [L2, if_neg (by omega), if_neg (by omega)]; exact hn) hfl0
      (show m2.ok (fl + 4) by unfold Mem.ok; rw [k2.1, k2.2]; exact hfo)
    have k3 : m3.lo = m.lo ∧ m3.brk = m.brk := by
      rw [store_lo w3, store_brk w3]; exact k2
    have l3 : load m3 (p - 4) = .ok (asize + 1) := by
      rw [load_store w3, if_neg (by omega), L2, if_neg (by omega), if_pos rfl]
    obtain ⟨m4, w4⟩ := Seg.store_total (sz - asize) (show m3.ok (p + asize - 4) from
      ⟨by rw [k3.1]; omega, by rw [k3.2]; omega, by omega⟩)
    have l4 : load m4 (p + asize - 4) = .ok (sz - asize) := by
      rw [load_store w4, if_pos rfl, hv2]
    obtain ⟨m5, w5⟩ := store_next w4 (show m3.lo ≤ p + sz - 8 ∧
      p + sz - 8 + 4 ≤ m3.brk ∧ (p + sz - 8) % 4 = 0 by
      rw [k3.1, k3.2]; exact ⟨by omega, by omega, by omega⟩) (sz - asize)
    have k5 : m5.lo = m.lo ∧ m5.brk = m.brk := by
      rw [store_lo w5, store_brk w5, store_lo w4, store_brk w4]; exact k3
    have L5 : ∀ q, load m5 q = if q = p + sz - 8 then .ok (sz - asize)
        else if q = p + asize - 4 then .ok (sz - asize)
        else if q = fl + 4 then .ok 0
        else if q = p + asize - 8 then .ok (asize + 1)
        else if q = p - 4 then .ok (asize + 1) else load m q := by
      intro q
      rw [load_store w5, load_store w4, load_store w3, L2, hv2, Nat.zero_mod]
    have g1 : load m5 (p + asize - 8) = .ok (asize + 1) := by
      rw [L5, if_neg (by omega), if_neg (by omega), if_neg (by omega), if_pos rfl]
    have hco : coalesce ⟨m5, hl, fl⟩ (p + asize) = pushFront ⟨m5, hl, fl⟩ (p + asize) :=
      coalesce_alloc (by omega) g1 c2 (by omega)
        (show load m5 (p + asize - asize - 4) = .ok (asize + 1) by
          rw [show p + asize - asize - 4 = p - 4 by omega, L5, if_neg (by omega),
            if_neg (by omega), if_neg (by omega), if_neg (by omega), if_pos rfl])
        c2 (by omega) (by omega)
        (show load m5 (p + asize - asize + asize - 8) = .ok (asize + 1) by
          rw [show p + asize - asize + asize - 8 = p + asize - 8 by omega]; exact g1)
        (Or.inl (by rw [tag_land_one ha8 (by omega)]; omega))
        (show load m5 (p + asize - 4) = .ok (sz - asize) by
          rw [L5, if_neg (by omega), if_pos rfl]) c7 (by omega)
        (show load m5 (p + asize + (sz - asize) - 4) = .ok (nv + 1) by
          rw [show p + asize + (sz - asize) - 4 = p + sz - 4 by omega, L5,
            if_neg (by omega), if_neg (by omega), if_neg (by omega), if_neg (by omega),
            if_neg (by omega)]; exact h5)
        (by rw [tag_land_one hnv (by omega)]; omega)
    obtain ⟨m6, r6, -⟩ := pushFront_run hl
      (show m5.ok (p + asize) by unfold Mem.ok; rw [k5.1, k5.2]; omega)
      (show m5.ok (fl + 4) by unfold Mem.ok; rw [k5.1, k5.2]; exact hfo)
      (show m5.ok (p + asize + 4) by unfold Mem.ok; rw [k5.1, k5.2]; omega)
      (by rw [k5.2]; exact hlt)
    simp only [c1, w1, ok_bind, pure_bind, bind_assoc, l1, c2, c3, w2, r3, l3, c4, c5, c6, w4,
      l4, c7, c8, w5, hco, r6]
    exact ⟨_, rfl⟩
  · rw [if_neg hsplit]
    have c1 : PACK sz 1 = sz + 1 := lor_lt8 sz 1 hsz8 (by omega)
    have c2 : (sz + 1) &&& 4294967288 = sz := tag_land_mask hsz8 (by omega) (by omega)
    have c3 : sub32 (add32 p sz) 8 = p + sz - 8 := by
      rw [add32_eq (by omega), sub32_eq (by omega) (by omega)]
    have hv1 : (sz + 1) % W32 = sz + 1 := Nat.mod_eq_of_lt (by omega)
    obtain ⟨m1, w1⟩ := Seg.store_total (sz + 1)
      (show m.ok (p - 4) from ⟨by omega, by omega, by omega⟩)
    obtain ⟨m2, w2⟩ := store_next w1 (show m.lo ≤ p + sz - 8 ∧
      p + sz - 8 + 4 ≤ m.brk ∧ (p + sz - 8) % 4 = 0 from
      ⟨by omega, by omega, by omega⟩) (sz + 1)
    have k2 : m2.lo = m.lo ∧ m2.brk = m.brk := by
      rw [store_lo w2, store_brk w2, store_lo w1, store_brk w1]; exact ⟨rfl, rfl⟩
    have L2 : ∀ q, load m2 q = if q = p + sz - 8 then .ok (sz + 1)
        else if q = p - 4 then .ok (sz + 1) else load m q := by
      intro q
      rw [load_store w2, load_store w1, hv1]
    have l1 : load m1 (p - 4) = .ok (sz + 1) := by rw [load_store w1, if_pos rfl, hv1]
    obtain ⟨m3, r3, w3⟩ := remove_head hl p (show p ≠ 0 by omega)
      (show m2.brk < W32 by rw [k2.2]; exact hlt)
      (show load m2 (p + 4) = .ok 0 by
        rw [L2, if_neg (by omega), if_neg (by omega)]; exact hpf)
      (show load m2 p = .ok fl by
        rw [L2, if_neg (by omega), if_neg (by omega)]; exact hn) hfl0
      (show m2.ok (fl + 4) by unfold Mem.ok; rw [k2.1, k2.2]; exact hfo)
    simp only [c1, w1, ok_bind, pure_bind, bind_assoc, l1, c2, c3, w2, r3]
    exact ⟨_, rfl⟩

/-- A request that fits the free block at the head of the free list, whose successor in
the heap is allocated, is served from that block. -/
theorem malloc_head {m : Mem} {hl fl p sz nv : Nat} (fuel n : Nat) (hlt : m.brk < W32)
    (hlo : m.lo + 32 ≤ p) (hp8 : p % 8 = 0) (hsz8 : sz % 8 = 0) (hend : p + sz ≤ m.brk)
    (hn0 : n ≠ 0) (hle : adjust n ≤ sz)
    (hh : load m (p - 4) = .ok sz) (hn : load m p = .ok fl) (hpf : load m (p + 4) = .ok 0)
    (h5 : load m (p + sz - 4) = .ok (nv + 1)) (hnv : nv % 8 = 0)
    (hfl : m.lo ≤ fl) (hfl0 : fl ≠ 0) (hfl4 : fl % 4 = 0)
    (hfd : fl + 16 ≤ p ∨ (p + sz ≤ fl ∧ fl + 8 ≤ m.brk)) :
    ∃ s2, mm_malloc (fuel + 1) ⟨m, hl, p⟩ n = .ok (s2, p) := by
  obtain ⟨ha16, ha8⟩ := explicit_adjust_facts n
  obtain ⟨s2, hs2⟩ : ∃ s2, place ⟨m, hl, p⟩ p (adjust n) = .ok s2 :=
    explicit_place_head hlt hlo hp8 hsz8 hend ha16 ha8 hle hh hn hpf h5 hnv hfl hfl0 hfl4 hfd
  have a1 : sub32 p 4 = p - 4 := sub32_eq (by omega) (by omega)
  have a2 : sz &&& 1 = 0 := by rw [land_one]; omega
  have a3 : sz &&& 4294967288 = sz := by rw [land_mask8 _ (by unfold W32 at hlt; omega)]; omega
  have hf : find_fit (fuel + 1) ⟨m, hl, p⟩ (adjust n) = .ok p := by
    unfold find_fit findLoop GET_ALLOC GET_SIZE GET HDRP WSIZE
    simp only [a1, hh, ok_bind, pure_bind, bind_assoc, a2, if_true, a3, hle]
    rfl
  refine ⟨s2, ?_⟩
  unfold mm_malloc
  rw [if_neg hn0]
  simp only [hf, ok_bind, pure_bind, bind_assoc]
  rw [if_pos (by omega)]
  simp only [hs2, ok_bind, pure_bind, bind_assoc]
  rfl

/-- The facts that a well-formed heap gives about an allocated block `b` whose neighbours
are allocated: the tags around it (`pv` is the word before its header, `psz` the size of
the block before it or 0 for the first block, `nv + 1` the header after it) and the
position of the free-list head relative to it. -/
theorem WF.facts {s : State} {L R : List Blk} {b : Blk} (h : WF s (L ++ b :: R))
    (hb : b.alloc = true) (hprev : ∀ x, L.getLast? = some x → x.alloc = true)
    (hnext : ∀ y, R.head? = some y → y.alloc = true) :
    ∃ pv psz nv, s.mem.brk < W32 ∧ s.mem.lo + 32 ≤ b.addr ∧ b.addr % 8 = 0 ∧ 16 ≤ b.size ∧
      b.size % 8 = 0 ∧ b.addr + b.size ≤ s.mem.brk ∧
      load s.mem (b.addr - 4) = .ok (b.size + 1) ∧ load s.mem (b.addr - 8) = .ok pv ∧
      ((pv = 0 ∧ psz = 0) ∨ (pv = psz + 1 ∧ psz % 8 = 0 ∧ 16 ≤ psz ∧
        s.mem.lo + 4 + psz ≤ b.addr ∧ load s.mem (b.addr - psz - 4) = .ok (psz + 1))) ∧
      load s.mem (b.addr + b.size - 4) = .ok (nv + 1) ∧ nv % 8 = 0 ∧
      s.mem.lo ≤ s.free_listp ∧ s.free_listp % 4 = 0 ∧ s.free_listp ≠ 0 ∧
      (s.free_listp + 16 ≤ b.addr - psz ∨
        (b.addr + b.size ≤ s.free_listp ∧ s.free_listp + 8 ≤ s.mem.brk)) := by
  have hL := h.layout
  have hbm : b ∈ L ++ b :: R := by simp
  have hT := hL.tiles
  have hd := tiles_disjoint _ _ _ hT
  have hm := tiles_mem _ _ _ hT
  have h8 := tiles_addr_mod8 _ _ _ hT (by have := hL.hl8; omega)
  rw [tiles_append L _ _ _ (by simp)] at hT
  obtain ⟨c0, hTL, hT2, -⟩ := hT
  simp only [Tiles] at hT2
  obtain ⟨hp1, hp2, -, hTR⟩ := hT2
  subst hp1
  have e1 := hL.hi_lt
  have e2 := hL.brk_le
  have e3 := hL.lo_le
  have e4 := hL.hl8
  have e5 := hL.size16 b hbm
  have e6 := hm b hbm
  have e7 := h8 b hbm
  have tagT : ∀ x : Blk, x.alloc = true → x.tag = x.size + 1 := by
    intro x hx; unfold Blk.tag; rw [hx]; rfl
  have e8 := hL.hdr b hbm
  rw [tagT b hb] at e8
  -- the block before
  have hP : ∃ pv psz, load s.mem (b.addr - 8) = .ok pv ∧
      ((pv = 0 ∧ psz = 0) ∨ (pv = psz + 1 ∧ psz % 8 = 0 ∧ 16 ≤ psz ∧
        s.mem.lo + 4 + psz ≤ b.addr ∧ load s.mem (b.addr - psz - 4) = .ok (psz + 1))) ∧
      s.heap_listp + 32 + psz ≤ b.addr ∧
      ∀ f ∈ L ++ b :: R, f.alloc = false → f.addr + f.size ≤ b.addr →
        f.addr + f.size ≤ b.addr - psz := by
    rcases List.eq_nil_or_concat L with hnil | ⟨L1, x, hx⟩
    · subst hnil
      simp only [Tiles] at hTL
      refine ⟨0, 0, ?_, Or.inl ⟨rfl, rfl⟩, by omega, fun f _ _ hf => hf⟩
      rw [show b.addr - 8 = s.heap_listp + 24 by omega]
      exact hL.pad
    · rw [List.concat_eq_append] at hx
      subst hx
      have hxa := hprev x (by simp)
      have hxm : x ∈ L1 ++ [x] ++ b :: R := by simp
      rw [tiles_append L1 _ _ _ (by simp)] at hTL
      obtain ⟨c1, hT1, hTx, -⟩ := hTL
      simp only [Tiles] at hTx
      obtain ⟨x1, x2, -, x3⟩ := hTx
      have x4 := tiles_le _ _ _ hT1
      have x5 := hL.size16 x hxm
      have x6 := hL.hdr x hxm
      have x7 := hL.ftr x hxm
      rw [tagT x hxa] at x6 x7
      refine ⟨x.size + 1, x.size, ?_, Or.inr ⟨rfl, x2, x5, by omega, ?_⟩, by omega, ?_⟩
      · rw [show b.addr - 8 = x.addr + x.size - 8 by omega]; exact x7
      · rw [show b.addr - x.size - 4 = x.addr - 4 by omega]; exact x6
      · intro f hf hfa hfl
        rcases hd f hf x hxm with hfx | hfx | hfx
        · rw [hfx, hxa] at hfa; cases hfa
        · omega
        · have := hL.size16 f hf
          omega
  obtain ⟨pv, psz, p1, p2, p4, p3⟩ := hP
  -- the block after
  have hN : ∃ nv, load s.mem (b.addr + b.size - 4) = .ok (nv + 1) ∧ nv % 8 = 0 := by
    cases R with
    | nil =>
      simp only [Tiles] at hTR
      refine ⟨0, ?_, rfl⟩
      rw [hTR]
      exact hL.epi (by simp)
    | cons y R1 =>
      have hya := hnext y rfl
      have hym : y ∈ L ++ b :: y :: R1 := by simp
      simp only [Tiles] at hTR
      obtain ⟨y1, y2, -⟩ := hTR
      have y3 := hL.hdr y hym
      rw [tagT y hya, y1] at y3
      exact ⟨y.size, y3, y2⟩
  obtain ⟨nv, n1, n2⟩ := hN
  refine ⟨pv, psz, nv, by omega, by omega, e7, e5, e6.2.2, e6.2.1, e8, p1, p2, n1, n2, ?_⟩
  rcases h.head with hs | ⟨f, hf, hfa, hfe⟩
  · rw [hs]
    exact ⟨by omega, by omega, by omega, Or.inl (by omega)⟩
  · rw [← hfe]
    have f1 := hm f hf
    have f2 := h8 f hf
    have f3 := hL.size16 f hf
    refine ⟨by omega, by omega, by omega, ?_⟩
    rcases hd f hf b hbm with hfb | hfb | hfb
    · rw [hfb, hb] at hfa; cases hfa
    · have := p3 f hf hfa hfb
      exact Or.inl (by omega)
    · exact Or.inr ⟨by omega, by omega⟩

end Explicit
/-! ## `mm.c`: the ring of free blocks through the prologue -/


namespace Mm

theorem RSeg.agree {m m' : Mem} : ∀ (xs : List Nat) (p n : Nat),
    (∀ a ∈ p :: xs, load m' (a + 4) = load m (a + 4)) →
    (∀ a ∈ xs ++ [n], load m' a = load m a) → RSeg m p xs n → RSeg m' p xs n
  | [], p, n, h1, h2, h =>
    ⟨by rw [h1 p (by simp)]; exact h.1, by rw [h2 n (by simp)]; exact h.2⟩
  | a :: rest, p, n, h1, h2, h =>
    ⟨⟨by rw [h1 p (by simp)]; exact h.1.1, by rw [h2 a (by simp)]; exact h.1.2⟩,
      RSeg.agree rest a n (fun x hx => h1 x (List.mem_cons_of_mem _ hx))
        (fun x hx => h2 x (by simp only [List.cons_append, List.mem_cons]; exact Or.inr hx))
        h.2⟩

theorem RSeg_append {m : Mem} {a n : Nat} {ys : List Nat} : ∀ (xs : List Nat) (p : Nat),
    RSeg m p (xs ++ a :: ys) n ↔ RSeg m p xs a ∧ RSeg m a ys n
  | [], p => Iff.rfl
  | x :: xs, p => by
    have ih := @RSeg_append m a n ys xs x
    show (Links m p x ∧ RSeg m x (xs ++ a :: ys) n) ↔
      (Links m p x ∧ RSeg m x xs a) ∧ RSeg m a ys n
    rw [ih]
    tauto

/-- Redirecting the link that leaves the last node of a segment. -/
theorem RSeg.set_end {m m' : Mem} (n1 : Nat) : ∀ (xs : List Nat) (p n0 : Nat),
    (p :: xs).Nodup →
    (∀ a ∈ p :: xs, a ≠ xs.getLastD p → load m' (a + 4) = load m (a + 4)) →
    (∀ a ∈ xs, load m' a = load m a) → Links m' (xs.getLastD p) n1 →
    RSeg m p xs n0 → RSeg m' p xs n1
  | [], p, n0, _, _, _, h3, _ => h3
  | a :: rest, p, n0, hnd, h1, h2, h3, h => by
    rw [List.nodup_cons] at hnd
    have hz : rest.getLastD a ∈ a :: rest := by
      cases rest with
      | nil => simp
      | cons y r => simp [List.getLastD_cons, List.getLast?_eq_getLast, List.getLast_mem]
    refine ⟨⟨?_, ?_⟩, RSeg.set_end n1 rest a n0 hnd.2 ?_ ?_ ?_ h.2⟩
    · rw [h1 p (by simp) ?_]
      · exact h.1.1
      · rw [List.getLastD_cons]
        intro e
        exact hnd.1 (e ▸ hz)
    · rw [h2 a (by simp)]; exact h.1.2
    · intro x hx hne
      exact h1 x (List.mem_cons_of_mem _ hx) (by rw [List.getLastD_cons]; exact hne)
    · intro x hx
      exact h2 x (List.mem_cons_of_mem _ hx)
    · rw [List.getLastD_cons] at h3; exact h3

/-- Redirecting the link that enters the first node of a segment. -/
theorem RSeg.set_start {m m' : Mem} (p1 : Nat) {ys : List Nat} {p0 n : Nat}
    (hnd : (ys ++ [n]).Nodup)
    (h1 : ∀ a ∈ ys, load m' (a + 4) = load m (a + 4))
    (h2 : ∀ a ∈ ys ++ [n], a ≠ ys.headD n → load m' a = load m a)
    (h3 : Links m' p1 (ys.headD n)) (h : RSeg m p0 ys n) : RSeg m' p1 ys n := by
  cases ys with
  | nil => exact h3
  | cons y rest =>
    simp only [List.cons_append, List.nodup_cons] at hnd
    refine ⟨h3, RSeg.agree rest y n h1 (fun a ha => h2 a ?_ ?_) h.2⟩
    · simp only [List.cons_append, List.mem_cons]; exact Or.inr ha
    · simp only [List.headD_cons]
      rintro rfl
      exact hnd.1 ha

theorem RSeg.last_link {m : Mem} {n : Nat} : ∀ (xs : List Nat) (p : Nat),
    RSeg m p xs n → Links m (xs.getLastD p) n
  | [], _, h => h
  | a :: rest, _, h => by
    rw [List.getLastD_cons]
    exact RSeg.last_link rest a h.2

theorem RSeg.first_link {m : Mem} {n p : Nat} {ys : List Nat} (h : RSeg m p ys n) :
    Links m p (ys.headD n) := by
  cases ys with
  | nil => exact h
  | cons y rest => exact h.1

theorem getLastD_mem_cons : ∀ (xs : List Nat) (p : Nat), xs.getLastD p ∈ p :: xs
  | [], _ => by simp
  | y :: r, _ => by
    rw [List.getLastD_cons]
    exact List.mem_cons_of_mem _ (getLastD_mem_cons r y)

theorem headD_mem_append (ys : List Nat) (n : Nat) : ys.headD n ∈ ys ++ [n] := by
  cases ys <;> simp

/-- Unlinking a node `p` of the ring: the successor word of its predecessor and the
predecessor word of its successor are redirected. -/
theorem ring_remove {m m' : Mem} {hl p : Nat} {F1 F2 : List Nat}
    (h : RSeg m hl (F1 ++ p :: F2) hl) (hnd : (hl :: (F1 ++ p :: F2)).Nodup)
    (hsep : ∀ a ∈ hl :: (F1 ++ p :: F2), ∀ c ∈ hl :: (F1 ++ p :: F2), a + 4 ≠ c)
    (g1 : load m' (F1.getLastD hl + 4) = .ok (F2.headD hl))
    (g2 : load m' (F2.headD hl) = .ok (F1.getLastD hl))
    (hfr : ∀ q, q ≠ F1.getLastD hl + 4 → q ≠ F2.headD hl → load m' q = load m q) :
    RSeg m' hl (F1 ++ F2) hl := by
  rw [RSeg_append] at h
  obtain ⟨h1, h2⟩ := h
  have hnd' := hnd
  rw [List.nodup_cons] at hnd
  obtain ⟨hhl, hF⟩ := hnd
  rw [List.nodup_append] at hF
  obtain ⟨hF1, hF2, hdisj⟩ := hF
  rw [List.nodup_cons] at hF2
  have hpp : F1.getLastD hl ∈ hl :: F1 := getLastD_mem_cons F1 hl
  have mem1 : ∀ a ∈ hl :: F1, a ∈ hl :: (F1 ++ p :: F2) := by
    intro a ha
    simp only [List.mem_cons, List.mem_append] at ha ⊢
    tauto
  have mem2 : ∀ a ∈ F2 ++ [hl], a ∈ hl :: (F1 ++ p :: F2) := by
    intro a ha
    simp only [List.mem_cons, List.mem_append, List.mem_singleton] at ha ⊢
    tauto
  have hsp : F2.headD hl ∈ F2 ++ [hl] := headD_mem_append F2 hl
  have ne12 : ∀ a ∈ hl :: F1, ∀ c ∈ F2, a ≠ c := by
    intro a ha c hc e
    subst e
    rcases List.mem_cons.mp ha with rfl | ha
    · exact hhl (by simp [hc])
    · exact hdisj ha (List.mem_cons_of_mem _ hc)
  have nd1 : (hl :: F1).Nodup := by
    rw [List.nodup_cons]
    exact ⟨fun hc => hhl (by simp [hc]), hF1⟩
  -- the first half, redirected to the successor of `p`
  have e1 : RSeg m' hl F1 (F2.headD hl) := by
    refine RSeg.set_end _ F1 hl p nd1 ?_ ?_ ⟨g1, g2⟩ h1
    · intro a ha hne
      refine hfr _ (by omega) (hsep a (mem1 a ha) _ (mem2 _ hsp))
    · intro a ha
      refine hfr _ ?_ ?_
      · exact fun e => hsep _ (mem1 _ hpp) a (mem1 a (List.mem_cons_of_mem _ ha)) e.symm
      · intro e
        rcases List.mem_append.mp hsp with hc | hc
        · exact ne12 a (List.mem_cons_of_mem _ ha) _ hc e
        · rw [List.mem_singleton] at hc
          rw [hc] at e
          subst e
          exact hhl (by simp [ha])
  cases F2 with
  | nil => simpa using e1
  | cons y G =>
    rw [RSeg_append]
    refine ⟨e1, RSeg.agree G y hl ?_ ?_ h2.2⟩
    · intro a ha
      refine hfr _ ?_ (hsep a (mem2 a (by simp at ha ⊢; tauto)) _ (mem2 _ hsp))
      intro e
      exact ne12 _ hpp a ha (by omega)
    · intro a ha
      refine hfr _ ?_ ?_
      · exact fun e => hsep _ (mem1 _ hpp) a (mem2 a (by simp at ha ⊢; tauto)) e.symm
      · simp only [List.headD_cons]
        rintro rfl
        rcases List.mem_append.mp ha with hc | hc
        · exact (List.nodup_cons.mp hF2.2).1 hc
        · rw [List.mem_singleton] at hc
          exact hhl (by simp [hc.symm])

/-- Linking a new node `p` right after the prologue. -/
theorem ring_add {m m' : Mem} {hl p : Nat} {F : List Nat} (h : RSeg m hl F hl)
    (hnd : (hl :: F).Nodup) (hp : p ∉ hl :: F)
    (hsep : ∀ a ∈ p :: hl :: F, ∀ c ∈ p :: hl :: F, a + 4 ≠ c)
    (g1 : load m' (hl + 4) = .ok p) (g2 : load m' (F.headD hl) = .ok p)
    (g3 : load m' p = .ok hl) (g4 : load m' (p + 4) = .ok (F.headD hl))
    (hfr : ∀ q, q ≠ hl + 4 → q ≠ F.headD hl → q ≠ p → q ≠ p + 4 → load m' q = load m q) :
    RSeg m' hl (p :: F) hl := by
  rw [List.nodup_cons] at hnd
  have hh : F.headD hl ∈ F ++ [hl] := headD_mem_append F hl
  have mem : ∀ a ∈ F ++ [hl], a ∈ p :: hl :: F := by
    intro a ha
    simp only [List.mem_cons, List.mem_append, List.mem_singleton] at ha ⊢
    tauto
  have hne : ∀ a ∈ F ++ [hl], a ≠ p := by
    rintro a ha rfl
    exact hp (by simp only [List.mem_cons, List.mem_append, List.mem_singleton] at ha ⊢; tauto)
  refine ⟨⟨g1, g3⟩, RSeg.set_start p ?_ ?_ ?_ ⟨g4, g2⟩ h⟩
  · rw [List.nodup_append_comm]
    exact List.nodup_cons.mpr hnd
  · intro a ha
    have ham : a ∈ F ++ [hl] := List.mem_append_left _ ha
    refine hfr _ ?_ (hsep a (mem a ham) _ (mem _ hh)) (hsep a (mem a ham) p (by simp)) ?_
    · intro e
      have : a = hl := by omega
      exact hnd.1 (this ▸ ha)
    · intro e
      exact hne a ham (by omega)
  · intro a ha hna
    refine hfr _ ?_ hna (hne a ha) ?_
    · exact fun e => hsep hl (by simp) a (mem a ha) e.symm
    · exact fun e => hsep p (by simp) a (mem a ha) e.symm

end Mm
/-! ## `mm.c`: geometry of the layout, `list_add` and `list_remove` -/


theorem tiles_addr_mod4 : ∀ (B : List Blk) (a e : Nat), Tiles a B e → a % 4 = 0 →
    ∀ b ∈ B, b.addr % 4 = 0
  | [], _, _, _, _, b, hb => by simp at hb
  | x :: xs, a, e, h, ha, b, hb => by
    obtain ⟨h1, h2, _, h4⟩ := h
    rcases List.mem_cons.mp hb with rfl | hb1
    · omega
    · exact tiles_addr_mod4 xs _ _ h4 (by omega) b hb1

/-- A block of size 0 is the last block of a tiling. -/
theorem tiles_zero_last : ∀ (B : List Blk) (a e : Nat), Tiles a B e → ∀ c ∈ B, c.size = 0 →
    B.getLast? = some c
  | [], _, _, _, c, hc, _ => by simp at hc
  | x :: xs, a, e, h, c, hc, h0 => by
    obtain ⟨h1, h2, h3, h4⟩ := h
    rcases List.mem_cons.mp hc with hc1 | hc1
    · subst hc1
      have : xs = [] := by
        by_contra hne
        have := h3 hne
        omega
      subst this
      rfl
    · have ih := tiles_zero_last xs _ _ h4 c hc1 h0
      cases xs with
      | nil => simp at hc1
      | cons y ys => rw [List.getLast?_cons_cons]; exact ih

namespace Mm

theorem Layout.mm_lt_brk {m : Mem} {hl : Nat} {B : List Blk} (h : Layout m hl B) :
    m.brk < W32 :=
  lt_of_le_of_lt h.brk_le h.hi_lt

theorem Layout.mm_bounds {m : Mem} {hl : Nat} {B : List Blk} (h : Layout m hl B) {b : Blk}
    (hb : b ∈ B) : m.lo + 8 ≤ hl ∧ hl ≤ b.addr ∧ b.addr + b.size ≤ m.brk ∧ b.size % 8 = 0 ∧
      b.addr % 4 = 0 ∧ m.brk < W32 := by
  have h1 := tiles_mem _ _ _ h.tiles b hb
  have h2 := h.hl_ge
  have h3 := h.mm_lt_brk
  have h4 := tiles_addr_mod4 _ _ _ h.tiles h.hl4 b hb
  exact ⟨h2, h1.1, h1.2.1, h1.2.2, h4, h3⟩

/-- The prologue is a block of the layout. -/
theorem Layout.prologue {m : Mem} {hl : Nat} {B : List Blk} (h : Layout m hl B) :
    (⟨hl, 16, true⟩ : Blk) ∈ B :=
  List.mem_of_mem_head? h.head

/-- Two blocks of at least 16 bytes are the same block or lie 16 bytes apart. -/
theorem Layout.mm_sep {m : Mem} {hl : Nat} {B : List Blk} (h : Layout m hl B) {f g : Blk}
    (hf : f ∈ B) (hg : g ∈ B) (hf16 : 16 ≤ f.size) (hg16 : 16 ≤ g.size) :
    f = g ∨ f.addr + 16 ≤ g.addr ∨ g.addr + 16 ≤ f.addr := by
  rcases tiles_disjoint _ _ _ h.tiles f hf g hg with h1 | h1 | h1
  · exact Or.inl h1
  · exact Or.inr (Or.inl (by omega))
  · exact Or.inr (Or.inr (by omega))

/-- A block is determined by its address, unless it is the epilogue. -/
theorem Layout.mm_addr_inj {m : Mem} {hl : Nat} {B : List Blk} (h : Layout m hl B) {b c : Blk}
    (hb : b ∈ B) (hc : c ∈ B) (hbc : b.addr = c.addr) (hb0 : b.size ≠ 0) : b = c := by
  have b1 := h.mm_bounds hb
  rcases tiles_disjoint _ _ _ h.tiles b hb c hc with h1 | h1 | h1
  · exact h1
  · omega
  · have b2 := h.mm_bounds hc
    have h0 : c.size = 0 := by omega
    have := tiles_zero _ _ _ h.tiles c hc h0
    omega

/-- The link words of a block of at least 16 bytes are no tag words of any block. -/
theorem Layout.link_tag {m : Mem} {hl : Nat} {B : List Blk} (h : Layout m hl B) {f d : Blk}
    (hf : f ∈ B) (hf16 : 16 ≤ f.size) (hd : d ∈ B) {q : Nat}
    (hq : q = f.addr ∨ q = f.addr + 4) :
    q ≠ d.addr - 4 ∧ (d.size ≠ 0 → q ≠ d.addr + d.size - 8) := by
  have b1 := h.mm_bounds hf
  have b2 := h.mm_bounds hd
  rcases tiles_disjoint _ _ _ h.tiles f hf d hd with rfl | h1 | h1
  · omega
  · omega
  · omega

/-- Memory that agrees with a laid-out memory on all tag words is laid out in the same way. -/
theorem Layout.mm_of_tags {m m' : Mem} {hl : Nat} {B : List Blk} (h : Layout m hl B)
    (hb : m'.brk = m.brk) (hlo : m'.lo = m.lo) (hh : m'.hi = m.hi)
    (hfr : ∀ d ∈ B, load m' (d.addr - 4) = load m (d.addr - 4) ∧
      (d.size ≠ 0 → load m' (d.addr + d.size - 8) = load m (d.addr + d.size - 8))) :
    Layout m' hl B := by
  refine ⟨by rw [hh]; exact h.hi_lt, by rw [hb, hh]; exact h.brk_le, by rw [hlo]; exact h.hl_ge,
    h.hl4, h.head, by rw [hb]; exact h.last, by rw [hb]; exact h.tiles, ?_, ?_, h.min16⟩
  · intro d hd
    rw [(hfr d hd).1]; exact h.hdr d hd
  · intro d hd h0
    rw [(hfr d hd).2 h0]; exact h.ftr d hd h0

/-- Writes to link words of blocks of at least 16 bytes keep the layout. -/
theorem Layout.mm_poke {m m' : Mem} {hl : Nat} {B : List Blk} (h : Layout m hl B)
    (hb : m'.brk = m.brk) (hlo : m'.lo = m.lo) (hh : m'.hi = m.hi)
    (hfr : ∀ q, (∀ f ∈ B, 16 ≤ f.size → q ≠ f.addr ∧ q ≠ f.addr + 4) →
      load m' q = load m q) : Layout m' hl B := by
  refine h.mm_of_tags hb hlo hh fun d hd =>
    ⟨hfr _ fun f hf hff => ?_, fun h0 => hfr _ fun f hf hff => ?_⟩
  · have h1 := (h.link_tag hf hff hd (Or.inl rfl)).1
    have h2 := (h.link_tag hf hff hd (Or.inr rfl)).1
    exact ⟨fun e => h1 e.symm, fun e => h2 e.symm⟩
  · have h1 := (h.link_tag hf hff hd (Or.inl rfl)).2 h0
    have h2 := (h.link_tag hf hff hd (Or.inr rfl)).2 h0
    exact ⟨fun e => h1 e.symm, fun e => h2 e.symm⟩

/-- A free block has at least 16 bytes. -/
theorem Layout.free16 {m : Mem} {hl : Nat} {B : List Blk} (h : Layout m hl B) {b : Blk}
    (hb : b ∈ B) (hf : b.alloc = false) : 16 ≤ b.size := by
  apply h.min16 b hb
  intro h0
  have h1 := tiles_zero_last _ _ _ h.tiles b hb h0
  rw [h.last] at h1
  simp only [Option.some.injEq] at h1
  rw [← h1] at hf
  cases hf

/-- `list_add` returns, and the memory it leaves differs from the old one in the four link
words it writes. -/
theorem list_add_run {m : Mem} {p hs : Nat} (hl : Nat) (hlt : m.brk < W32)
    (h0 : load m (hl + 4) = .ok hs) (o1 : m.ok p) (o2 : m.ok (p + 4)) (o3 : m.ok hs)
    (n1 : hl + 4 ≠ p) (n2 : hl ≠ p) :
    ∃ m', list_add ⟨m, hl⟩ p = .ok ⟨m', hl⟩ ∧ m'.lo = m.lo ∧ m'.brk = m.brk ∧
      m'.hi = m.hi ∧
      ∀ q, load m' q = if q = hl + 4 then .ok p else if q = hs then .ok p
        else if q = p then .ok hl else if q = p + 4 then .ok hs else load m q := by
  obtain ⟨a1, a2, a3⟩ := o1
  obtain ⟨b1, b2, b3⟩ := o2
  obtain ⟨c1, c2, c3⟩ := o3
  obtain ⟨d1, d2, d3⟩ := (load_ok_iff.mp h0).1
  have e1 : add32 hl 4 = hl + 4 := add32_eq (by omega)
  have e2 : add32 p 4 = p + 4 := add32_eq (by omega)
  obtain ⟨m1, w1⟩ := Seg.store_total hs (show m.ok (p + 4) from ⟨b1, b2, b3⟩)
  obtain ⟨m2, w2⟩ := store_next w1 (show m.lo ≤ p ∧ p + 4 ≤ m.brk ∧ p % 4 = 0 from
    ⟨a1, a2, a3⟩) hl
  have k2 : m2.lo = m.lo ∧ m2.brk = m.brk := by
    rw [store_lo w2, store_brk w2, store_lo w1, store_brk w1]; exact ⟨rfl, rfl⟩
  have l2 : load m2 (hl + 4) = .ok hs := by
    rw [load_store w2, if_neg n1, load_store w1, if_neg (by omega)]; exact h0
  obtain ⟨m3, w3⟩ := Seg.store_total p (show m2.ok hs by
    unfold Mem.ok; rw [k2.1, k2.2]; exact ⟨c1, c2, c3⟩)
  obtain ⟨m4, w4⟩ := store_next w3 (show m2.lo ≤ hl + 4 ∧ hl + 4 + 4 ≤ m2.brk ∧
    (hl + 4) % 4 = 0 by rw [k2.1, k2.2]; exact ⟨d1, d2, d3⟩) p
  refine ⟨m4, ?_, ?_, ?_, ?_, ?_⟩
  · unfold list_add SUCC_P setSUCC_P setPRED_P WSIZE
    simp only [e1, e2, h0, ok_bind, pure_bind, bind_assoc, w1, w2, l2, w3, w4]
    rfl
  · rw [store_lo w4, store_lo w3, k2.1]
  · rw [store_brk w4, store_brk w3, k2.2]
  · rw [store_hi w4, store_hi w3, store_hi w2, store_hi w1]
  · intro q
    rw [load_store w4, load_store w3, load_store w2, load_store w1,
      Nat.mod_eq_of_lt (show p < W32 by omega), Nat.mod_eq_of_lt (show hl < W32 by omega),
      Nat.mod_eq_of_lt (show hs < W32 by omega)]

/-- `list_remove` returns, and the memory it leaves differs from the old one in the two
link words it writes. -/
theorem list_remove_run {m : Mem} {p pp sp : Nat} (hl : Nat) (hlt : m.brk < W32)
    (h1 : load m p = .ok pp) (h2 : load m (p + 4) = .ok sp) (o1 : m.ok (pp + 4))
    (o2 : m.ok sp) (n1 : p ≠ pp) (n2 : p ≠ pp + 4) :
    ∃ m', list_remove ⟨m, hl⟩ p = .ok ⟨m', hl⟩ ∧ m'.lo = m.lo ∧ m'.brk = m.brk ∧
      m'.hi = m.hi ∧
      ∀ q, load m' q = if q = sp then .ok pp else if q = pp + 4 then .ok sp
        else load m q := by
  obtain ⟨a1, a2, a3⟩ := o1
  obtain ⟨b1, b2, b3⟩ := o2
  obtain ⟨d1, d2, d3⟩ := (load_ok_iff.mp h2).1
  have e1 : add32 pp 4 = pp + 4 := add32_eq (by omega)
  have e2 : add32 p 4 = p + 4 := add32_eq (by omega)
  obtain ⟨m1, w1⟩ := Seg.store_total sp (show m.ok (pp + 4) from ⟨a1, a2, a3⟩)
  have l1 : load m1 (p + 4) = .ok sp := by
    rw [load_store w1, if_neg (by omega)]; exact h2
  have l2 : load m1 p = .ok pp := by
    rw [load_store w1, if_neg n2]; exact h1
  obtain ⟨m2, w2⟩ := store_next w1 (show m.lo ≤ sp ∧ sp + 4 ≤ m.brk ∧ sp % 4 = 0 from
    ⟨b1, b2, b3⟩) pp
  refine ⟨m2, ?_, ?_, ?_, ?_, ?_⟩
  · unfold list_remove SUCC_P PRED_P setSUCC_P setPRED_P WSIZE
    simp only [e1, e2, h1, h2, ok_bind, pure_bind, bind_assoc, w1, l1, l2, w2]
    rfl
  · rw [store_lo w2, store_lo w1]
  · rw [store_brk w2, store_brk w1]
  · rw [store_hi w2, store_hi w1]
  · intro q
    rw [load_store w2, load_store w1, Nat.mod_eq_of_lt (show pp < W32 by omega),
      Nat.mod_eq_of_lt (show sp < W32 by omega)]

/-- Each node of the ring, the prologue included, is a block of at least 16 bytes. -/
theorem Part.node {m : Mem} {hl : Nat} {B : List Blk} {F D : List Nat}
    (h : Part m hl B F D) {a : Nat} (ha : a ∈ hl :: F) :
    ∃ b ∈ B, b.addr = a ∧ 16 ≤ b.size := by
  rcases List.mem_cons.mp ha with rfl | ha
  · exact ⟨_, h.layout.prologue, rfl, le_refl _⟩
  · obtain ⟨b, hb, e, hf⟩ := h.nodes a ha
    exact ⟨b, hb, e, h.layout.free16 hb hf⟩

/-- The prologue is not on the list of free nodes. -/
theorem Part.hl_not_mem {m : Mem} {hl : Nat} {B : List Blk} {F D : List Nat}
    (h : Part m hl B F D) : hl ∉ F := by
  intro hc
  obtain ⟨b, hb, e, hf⟩ := h.nodes hl hc
  have := h.layout.mm_addr_inj h.layout.prologue hb e.symm (by simp)
  rw [← this] at hf
  cases hf

/-- Two nodes of the ring are equal or 16 bytes apart; both link words of a node are
readable. -/
theorem Part.node_facts {m : Mem} {hl : Nat} {B : List Blk} {F D : List Nat}
    (h : Part m hl B F D) {a : Nat} (ha : a ∈ hl :: F) :
    m.ok a ∧ m.ok (a + 4) ∧ ∀ c ∈ hl :: F, a = c ∨ a + 16 ≤ c ∨ c + 16 ≤ a := by
  obtain ⟨b, hb, rfl, h16⟩ := h.node ha
  have b1 := h.layout.mm_bounds hb
  refine ⟨⟨by omega, by omega, by omega⟩, ⟨by omega, by omega, by omega⟩, ?_⟩
  intro c hc
  obtain ⟨d, hd, rfl, hd16⟩ := h.node hc
  rcases h.layout.mm_sep hb hd h16 hd16 with e | e | e
  · exact Or.inl (by rw [e])
  · exact Or.inr (Or.inl e)
  · exact Or.inr (Or.inr e)

/-- Unlinking a node of the ring keeps the heap well formed up to that node, which joins
the unlinked free blocks. -/
theorem Part.remove {m : Mem} {hl : Nat} {B : List Blk} {F D : List Nat} {a : Nat}
    (h : Part m hl B F D) (ha : a ∈ F) :
    ∃ m', list_remove ⟨m, hl⟩ a = .ok ⟨m', hl⟩ ∧ Part m' hl B (F.erase a) (a :: D) ∧
      m'.lo = m.lo ∧ m'.brk = m.brk ∧ m'.hi = m.hi := by
  have hL := h.layout
  have hnf := fun {x : Nat} (hx : x ∈ hl :: F) => h.node_facts hx
  have hhl := h.hl_not_mem
  have hnd := h.nodup
  have hring := h.ring
  obtain ⟨F1, F2, hF⟩ := List.append_of_mem ha
  rw [hF] at hring hnd
  have haF1 : a ∉ F1 := by
    intro hc
    have := List.nodup_append.mp hnd
    exact this.2.2 hc (List.mem_cons_self _ _) 
  have her : F.erase a = F1 ++ F2 := by
    rw [hF, List.erase_append_right _ haF1, List.erase_cons_head]
  obtain ⟨r1, r2⟩ := (RSeg_append F1 hl).mp hring
  obtain ⟨l1, l2⟩ := RSeg.last_link F1 hl r1
  obtain ⟨l3, l4⟩ := r2.first_link
  have hppm : F1.getLastD hl ∈ hl :: F := by
    have := getLastD_mem_cons F1 hl
    rw [hF]
    simp only [List.mem_cons, List.mem_append] at this ⊢
    tauto
  have hspm : F2.headD hl ∈ hl :: F := by
    have := headD_mem_append F2 hl
    rw [hF]
    simp only [List.mem_cons, List.mem_append, List.mem_singleton] at this ⊢
    tauto
  have ham : a ∈ hl :: F := List.mem_cons_of_mem _ ha
  have hane : a ≠ F1.getLastD hl := by
    intro e
    rcases List.mem_cons.mp (getLastD_mem_cons F1 hl) with e1 | e1
    · exact hhl (by rw [← e1, ← e]; exact ha)
    · exact haF1 (by rw [e]; exact e1)
  obtain ⟨pa1, pa2, pa3⟩ := hnf ham
  obtain ⟨pp1, pp2, pp3⟩ := hnf hppm
  obtain ⟨sp1, sp2, sp3⟩ := hnf hspm
  obtain ⟨m', x1, x2, x3, x4, x5⟩ := list_remove_run hl hL.mm_lt_brk l2 l3 pp2 sp1 hane
    (by have := pa3 _ hppm; omega)
  have hsep : ∀ x ∈ hl :: F, ∀ c ∈ hl :: F, x + 4 ≠ c := by
    intro x hx c hc
    have := (hnf hx).2.2 c hc
    omega
  refine ⟨m', x1, ⟨?_, ?_, h.nodup.erase a, ?_, ?_, ?_⟩, x2, x3, x4⟩
  · refine hL.mm_poke x3 x2 x4 fun q hq => ?_
    obtain ⟨b1, hb1, e1, s1⟩ := h.node hppm
    obtain ⟨b2, hb2, e2, s2⟩ := h.node hspm
    rw [x5, if_neg (by rw [← e2]; exact (hq b2 hb2 s2).1),
      if_neg (by rw [← e1]; exact (hq b1 hb1 s1).2)]
  · rw [her]
    refine ring_remove hring ?_ ?_ ?_ ?_ ?_
    · rw [← hF]; exact List.nodup_cons.mpr ⟨hhl, h.nodup⟩
    · rw [← hF]; exact hsep
    · rw [x5, if_neg (hsep _ hppm _ hspm), if_pos rfl]
    · rw [x5, if_pos rfl]
    · intro q q1 q2
      rw [x5, if_neg q2, if_neg q1]
  · intro x hx
    exact h.nodes x (List.mem_of_mem_erase hx)
  · intro b hb hf
    by_cases e : b.addr = a
    · exact Or.inr (by rw [e]; exact List.mem_cons_self _ _)
    · rcases h.complete b hb hf with c | c
      · exact Or.inl ((List.mem_erase_of_ne e).mpr c)
      · exact Or.inr (List.mem_cons_of_mem _ c)
  · intro x hx
    have hx' := (h.nodup.mem_erase_iff).mp hx
    intro hc
    rcases List.mem_cons.mp hc with c | c
    · exact hx'.1 c
    · exact h.unlinked x hx'.2 c

/-- Linking the one unlinked free block makes the heap well formed. -/
theorem Part.add {m : Mem} {hl : Nat} {B : List Blk} {F : List Nat} {b : Blk}
    (h : Part m hl B F [b.addr]) (hb : b ∈ B) (hbf : b.alloc = false) :
    ∃ m', list_add ⟨m, hl⟩ b.addr = .ok ⟨m', hl⟩ ∧ Part m' hl B (b.addr :: F) [] ∧
      m'.lo = m.lo ∧ m'.brk = m.brk ∧ m'.hi = m.hi := by
  have hL := h.layout
  have hhl := h.hl_not_mem
  have hb16 := hL.free16 hb hbf
  have bb := hL.mm_bounds hb
  have haF : b.addr ∉ F := fun hc => h.unlinked _ hc (List.mem_singleton_self _)
  have hne : b ≠ ⟨hl, 16, true⟩ := by
    intro e
    rw [e] at hbf
    cases hbf
  have hsp : b.addr + 16 ≤ hl ∨ hl + 16 ≤ b.addr := by
    rcases hL.mm_sep hb hL.prologue hb16 (le_refl _) with e | e | e
    · exact absurd e hne
    · exact Or.inl e
    · exact Or.inr e
  obtain ⟨l1, -⟩ := h.ring.first_link
  have hsm : F.headD hl ∈ hl :: F := by
    have := headD_mem_append F hl
    simp only [List.mem_cons, List.mem_append, List.mem_singleton] at this ⊢
    tauto
  obtain ⟨s1, -, -⟩ := h.node_facts hsm
  obtain ⟨m', x1, x2, x3, x4, x5⟩ := list_add_run hl hL.mm_lt_brk l1
    (show m.ok b.addr from ⟨by omega, by omega, by omega⟩)
    (show m.ok (b.addr + 4) from ⟨by omega, by omega, by omega⟩) s1 (by omega) (by omega)
  have hnode : ∀ x ∈ b.addr :: hl :: F, ∃ d ∈ B, d.addr = x ∧ 16 ≤ d.size := by
    intro x hx
    rcases List.mem_cons.mp hx with rfl | hx
    · exact ⟨b, hb, rfl, hb16⟩
    · exact h.node hx
  have hsep : ∀ x ∈ b.addr :: hl :: F, ∀ c ∈ b.addr :: hl :: F, x + 4 ≠ c := by
    intro x hx c hc
    obtain ⟨d, hd, rfl, hd16⟩ := hnode x hx
    obtain ⟨e, he, rfl, he16⟩ := hnode c hc
    rcases hL.mm_sep hd he hd16 he16 with q | q | q
    · rw [q]; omega
    · omega
    · omega
  refine ⟨m', x1, ⟨?_, ?_, List.nodup_cons.mpr ⟨haF, h.nodup⟩, ?_, ?_, ?_⟩, x2, x3, x4⟩
  · refine hL.mm_poke x3 x2 x4 fun q hq => ?_
    obtain ⟨d, hd, e2, s2⟩ := h.node hsm
    rw [x5, if_neg (hq _ hL.prologue (le_refl _)).2,
      if_neg (by rw [← e2]; exact (hq d hd s2).1), if_neg (hq b hb hb16).1,
      if_neg (hq b hb hb16).2]
  · refine ring_add h.ring (List.nodup_cons.mpr ⟨hhl, h.nodup⟩) ?_ hsep ?_ ?_ ?_ ?_ ?_
    · intro hc
      rcases List.mem_cons.mp hc with c | c
      · omega
      · exact haF c
    · rw [x5, if_pos rfl]
    · rw [x5, if_neg (fun e => hsep hl (by simp) _ (List.mem_cons_of_mem _ hsm) e.symm), if_pos rfl]
    · rw [x5, if_neg (fun e => hsep hl (by simp) _ (by simp) e.symm),
        if_neg ?_, if_pos rfl]
      intro e
      rcases List.mem_cons.mp hsm with c | c
      · omega
      · exact haF (e ▸ c)
    · rw [x5, if_neg (by omega), if_neg (hsep _ (by simp) _ (List.mem_cons_of_mem _ hsm)),
        if_neg (by omega), if_pos rfl]
    · intro q q1 q2 q3 q4
      rw [x5, if_neg q1, if_neg q2, if_neg q3, if_neg q4]
  · intro x hx
    rcases List.mem_cons.mp hx with rfl | hx
    · exact ⟨b, hb, rfl, hbf⟩
    · exact h.nodes x hx
  · intro d hd hf
    rcases h.complete d hd hf with c | c
    · exact Or.inl (List.mem_cons_of_mem _ c)
    · exact Or.inl (by rw [List.mem_singleton.mp c]; exact List.mem_cons_self _ _)
  · intro x _ hc
    simp at hc

end Mm
/-! ## `mm.c`: rewriting a span of blocks, reading boundary tags -/


namespace Mm

/-- Rewriting the tags of a span `X` of blocks that holds no node of the ring into a span
`X'` over the same bytes, when memory outside the span is unchanged. -/
theorem Part.retag {m m' : Mem} {hl : Nat} {L X X' R : List Blk} {F D D' : List Nat}
    {x y : Nat} (h : Part m hl (L ++ X ++ R) F D) (hLne : L ≠ []) (hRne : R ≠ [])
    (hL : Tiles hl L x) (hR : Tiles y R m.brk) (hX : Tiles x X y) (hX8 : ∀ b ∈ X, 8 ≤ b.size)
    (hX' : Tiles x X' y) (hX'16 : ∀ b ∈ X', 16 ≤ b.size)
    (hm : m'.brk = m.brk ∧ m'.lo = m.lo ∧ m'.hi = m.hi)
    (hfr : ∀ q, (q + 8 ≤ x ∨ y ≤ q + 4) → load m' q = load m q)
    (htags : ∀ b ∈ X', load m' (b.addr - 4) = .ok b.tag ∧
      load m' (b.addr + b.size - 8) = .ok b.tag)
    (hXD : ∀ b ∈ X, b.alloc = false → b.addr ∈ D)
    (hD : ∀ a ∈ D, ∃ b ∈ X, b.addr = a)
    (hD' : ∀ b ∈ X', b.alloc = false → b.addr ∈ D')
    (hD'X : ∀ a ∈ D', ∃ b ∈ X', b.addr = a) :
    Part m' hl (L ++ X' ++ R) F D' := by
  obtain ⟨hm1, hm2, hm3⟩ := hm
  have hLay := h.layout
  have hL8 : ∀ b ∈ L, 8 ≤ b.size := by
    have := hLay.tiles
    rw [List.append_assoc, tiles_append L (X ++ R) _ _ (by simp [hRne])] at this
    exact this.choose_spec.2.2
  have hmem : ∀ b, b ∈ L ++ R → b ∈ L ++ X ++ R := by
    intro b hb
    simp only [List.mem_append] at hb ⊢
    tauto
  have hmem' : ∀ b, b ∈ L ++ R → b ∈ L ++ X' ++ R := by
    intro b hb
    simp only [List.mem_append] at hb ⊢
    tauto
  have h8 : 8 ≤ hl := by have := hLay.hl_ge; omega
  -- where the blocks outside the span lie
  have pos : ∀ b ∈ L ++ R, b.addr + b.size ≤ x ∧ 8 ≤ b.size ∨ y ≤ b.addr := by
    intro b hb
    rcases List.mem_append.mp hb with hb | hb
    · have h1 := tiles_mem L _ _ hL b hb
      exact Or.inl ⟨h1.2.1, hL8 b hb⟩
    · have h1 := tiles_mem R _ _ hR b hb
      exact Or.inr h1.1
  have posX : ∀ b ∈ X, x ≤ b.addr ∧ b.addr + b.size ≤ y ∧ 8 ≤ b.size := by
    intro b hb
    have h1 := tiles_mem X _ _ hX b hb
    exact ⟨h1.1, h1.2.1, hX8 b hb⟩
  have posX' : ∀ b ∈ X', x ≤ b.addr ∧ b.addr + b.size ≤ y ∧ 16 ≤ b.size := by
    intro b hb
    have h1 := tiles_mem X' _ _ hX' b hb
    exact ⟨h1.1, h1.2.1, hX'16 b hb⟩
  have key : ∀ b ∈ L ++ R, (b.addr - 4 + 8 ≤ x ∨ y ≤ b.addr - 4 + 4) ∧
      (b.size ≠ 0 → (b.addr + b.size - 8 + 8 ≤ x ∨ y ≤ b.addr + b.size - 8 + 4)) := by
    intro b hb
    have b1 := hLay.mm_bounds (hmem b hb)
    rcases pos b hb with h1 | h1
    · exact ⟨Or.inl (by omega), fun _ => Or.inl (by omega)⟩
    · exact ⟨Or.inr (by omega), fun h0 => Or.inr (by omega)⟩
  -- the nodes of the ring are blocks outside the span
  have out : ∀ a ∈ hl :: F, ∃ b ∈ L ++ R, b.addr = a ∧ 16 ≤ b.size ∧
      (a ∈ F → b.alloc = false) := by
    intro a ha
    rcases List.mem_cons.mp ha with rfl | ha
    · refine ⟨⟨a, 16, true⟩, ?_, rfl, le_refl _, fun hc => absurd hc h.hl_not_mem⟩
      have := hLay.head
      cases L with
      | nil => exact absurd rfl hLne
      | cons c L =>
        simp only [List.cons_append, List.head?_cons, Option.some.injEq] at this
        rw [this]
        simp
    · obtain ⟨b, hb, e, hf⟩ := h.nodes a ha
      refine ⟨b, ?_, e, hLay.free16 hb hf, fun _ => hf⟩
      simp only [List.mem_append] at hb ⊢
      rcases hb with (hb | hb) | hb
      · exact Or.inl hb
      · exact absurd (hXD b hb hf) (by rw [e]; exact h.unlinked a ha)
      · exact Or.inr hb
  have layout' : Layout m' hl (L ++ X' ++ R) := by
    refine ⟨by rw [hm3]; exact hLay.hi_lt, by rw [hm1, hm3]; exact hLay.brk_le,
      by rw [hm2]; exact hLay.hl_ge, hLay.hl4, ?_, ?_, ?_, ?_, ?_, ?_⟩
    · have := hLay.head
      cases L with
      | nil => exact absurd rfl hLne
      | cons a L => simpa using this
    · have := hLay.last
      rw [hm1]
      rw [List.getLast?_append_of_ne_nil _ hRne] at this ⊢
      exact this
    · rw [hm1, List.append_assoc, tiles_append L (X' ++ R) _ _ (by simp [hRne])]
      refine ⟨x, hL, ?_, hL8⟩
      rw [tiles_append X' R _ _ hRne]
      exact ⟨y, hX', hR, fun b hb => by have := hX'16 b hb; omega⟩
    · intro b hb
      simp only [List.mem_append] at hb
      rcases hb with (hb | hb) | hb
      · rw [hfr _ (key b (List.mem_append_left _ hb)).1]
        exact hLay.hdr b (hmem b (List.mem_append_left _ hb))
      · exact (htags b hb).1
      · rw [hfr _ (key b (List.mem_append_right _ hb)).1]
        exact hLay.hdr b (hmem b (List.mem_append_right _ hb))
    · intro b hb h0
      simp only [List.mem_append] at hb
      rcases hb with (hb | hb) | hb
      · rw [hfr _ ((key b (List.mem_append_left _ hb)).2 h0)]
        exact hLay.ftr b (hmem b (List.mem_append_left _ hb)) h0
      · exact (htags b hb).2
      · rw [hfr _ ((key b (List.mem_append_right _ hb)).2 h0)]
        exact hLay.ftr b (hmem b (List.mem_append_right _ hb)) h0
    · intro b hb hb0
      simp only [List.mem_append] at hb
      rcases hb with (hb | hb) | hb
      · exact hLay.min16 b (hmem b (List.mem_append_left _ hb)) hb0
      · exact hX'16 b hb
      · exact hLay.min16 b (hmem b (List.mem_append_right _ hb)) hb0
  refine ⟨layout', ?_, h.nodup, ?_, ?_, ?_⟩
  · refine RSeg.agree F hl hl ?_ ?_ h.ring
    · intro a ha
      obtain ⟨b, hb, rfl, h16, -⟩ := out a ha
      apply hfr
      rcases pos b hb with h1 | h1
      · exact Or.inl (by omega)
      · exact Or.inr (by omega)
    · intro a ha
      obtain ⟨b, hb, rfl, h16, -⟩ := out a (by
        simp only [List.mem_append, List.mem_singleton, List.mem_cons] at ha ⊢; tauto)
      apply hfr
      rcases pos b hb with h1 | h1
      · exact Or.inl (by omega)
      · exact Or.inr (by omega)
  · intro a ha
    obtain ⟨b, hb, e, -, hf⟩ := out a (List.mem_cons_of_mem _ ha)
    exact ⟨b, hmem' b hb, e, hf ha⟩
  · intro b hb hf
    simp only [List.mem_append] at hb
    have old : b ∈ L ++ R → b.addr ∈ F := by
      intro hb'
      rcases h.complete b (hmem b hb') hf with c | c
      · exact c
      · obtain ⟨d, hd, e⟩ := hD _ c
        have p1 := posX d hd
        rcases pos b hb' with q | q <;> omega
    rcases hb with (hb | hb) | hb
    · exact Or.inl (old (List.mem_append_left _ hb))
    · exact Or.inr (hD' b hb hf)
    · exact Or.inl (old (List.mem_append_right _ hb))
  · intro a ha hc
    obtain ⟨b, hb, e, -, -⟩ := out a (List.mem_cons_of_mem _ ha)
    obtain ⟨d, hd, e'⟩ := hD'X a hc
    have p1 := posX' d hd
    rcases pos b hb with q | q <;> omega

/-! ### Reading boundary tags -/

theorem mm_tag_lt {b : Blk} : b.alloc.toNat < 2 := by
  cases b.alloc <;> decide

theorem mm_HDRP_eq {b : Nat} (h4 : 4 ≤ b) (hlt : b < W32) : HDRP b = b - 4 :=
  sub32_eq h4 hlt

theorem mm_PACK_eq {z a : Nat} (h8 : z % 8 = 0) (ha : a < 2) : PACK z a = z + a :=
  lor_lt8 z a h8 (by omega)

theorem GET_SIZE_of {m : Mem} {p z a : Nat} (h : load m p = .ok (z + a)) (h8 : z % 8 = 0)
    (ha : a < 2) : GET_SIZE m p = .ok z := by
  have hlt := load_lt h
  unfold GET_SIZE GET
  rw [h]
  show Except.ok ((z + a) &&& 4294967288) = _
  rw [tag_land_mask h8 (by omega) hlt]

theorem GET_ALLOC_of {m : Mem} {p z a : Nat} (h : load m p = .ok (z + a)) (h8 : z % 8 = 0)
    (ha : a < 2) : GET_ALLOC m p = .ok a := by
  unfold GET_ALLOC GET
  rw [h]
  show Except.ok ((z + a) &&& 1) = _
  rw [tag_land_one h8 ha]

theorem NEXT_BLKP_of {m : Mem} {b z a : Nat} (h : load m (b - 4) = .ok (z + a))
    (h8 : z % 8 = 0) (ha : a < 2) (h4 : 4 ≤ b) (hlt : b + z < W32) :
    NEXT_BLKP m b = .ok (b + z) := by
  unfold NEXT_BLKP WSIZE
  rw [sub32_eq h4 (by omega), GET_SIZE_of h h8 ha]
  show Except.ok (add32 b z) = _
  rw [add32_eq hlt]

theorem FTRP_of {m : Mem} {b z a : Nat} (h : load m (b - 4) = .ok (z + a))
    (h8 : z % 8 = 0) (ha : a < 2) (h4 : 4 ≤ b) (hlt : b + z < W32) (h8' : 8 ≤ b + z) :
    FTRP m b = .ok (b + z - 8) := by
  unfold FTRP DSIZE
  rw [mm_HDRP_eq h4 (by omega), GET_SIZE_of h h8 ha]
  show Except.ok (sub32 (add32 b z) 8) = _
  rw [add32_eq hlt, sub32_eq h8' hlt]

theorem PREV_BLKP_of {m : Mem} {b z a : Nat} (h : load m (b - 8) = .ok (z + a))
    (h8 : z % 8 = 0) (ha : a < 2) (hb8 : 8 ≤ b) (hle : z ≤ b) (hlt : b < W32) :
    PREV_BLKP m b = .ok (b - z) := by
  unfold PREV_BLKP DSIZE
  rw [sub32_eq hb8 hlt, GET_SIZE_of h h8 ha]
  show Except.ok (sub32 b z) = _
  rw [sub32_eq hle hlt]

/-- The facts that a layout gives about three consecutive blocks. -/
theorem Layout.trio {m : Mem} {hl : Nat} {L R : List Blk} {p b n : Blk}
    (h : Layout m hl (L ++ p :: b :: n :: R)) :
    Tiles hl L p.addr ∧ Tiles (n.addr + n.size) R m.brk ∧
      p.addr + p.size = b.addr ∧ b.addr + b.size = n.addr ∧
      16 ≤ p.size ∧ 16 ≤ b.size ∧ p.size % 8 = 0 ∧ b.size % 8 = 0 ∧ n.size % 8 = 0 ∧
      (R ≠ [] → 16 ≤ n.size) ∧
      m.lo + 8 ≤ hl ∧ hl ≤ p.addr ∧ n.addr + n.size ≤ m.brk ∧ m.brk < W32 ∧
      p.addr % 4 = 0 ∧
      load m (p.addr - 4) = .ok (p.size + p.alloc.toNat) ∧
      load m (b.addr - 8) = .ok (p.size + p.alloc.toNat) ∧
      load m (b.addr - 4) = .ok (b.size + b.alloc.toNat) ∧
      load m (n.addr - 8) = .ok (b.size + b.alloc.toNat) ∧
      load m (n.addr - 4) = .ok (n.size + n.alloc.toNat) ∧
      (n.size ≠ 0 → load m (n.addr + n.size - 8) = .ok (n.size + n.alloc.toNat)) := by
  have hp : p ∈ L ++ p :: b :: n :: R := by simp
  have hb : b ∈ L ++ p :: b :: n :: R := by simp
  have hn : n ∈ L ++ p :: b :: n :: R := by simp
  have hT := h.tiles
  rw [tiles_append L _ _ _ (by simp)] at hT
  obtain ⟨c0, hTL, hT2, -⟩ := hT
  simp only [Tiles] at hT2
  obtain ⟨p1, p2, p3, b1, b2, b3, n1, n2, n3, hTR⟩ := hT2
  have bp := h.mm_bounds hp
  have bn := h.mm_bounds hn
  have p16 := h.min16 p hp (by have := p3 (by simp); omega)
  have b16 := h.min16 b hb (by have := b3 (by simp); omega)
  have e1 := h.hdr p hp
  have e2 := h.ftr p hp (by omega)
  have e3 := h.hdr b hb
  have e4 := h.ftr b hb (by omega)
  have e5 := h.hdr n hn
  have e6 := h.ftr n hn
  unfold Blk.tag at e1 e2 e3 e4 e5 e6
  subst p1
  refine ⟨hTL, by rw [n1]; exact hTR, by omega, by omega, p16, b16, p2, b2, n2, ?_, bp.1, bp.2.1,
    bn.2.2.1, bp.2.2.2.2.2, bp.2.2.2.2.1, e1, ?_, e3, ?_, e5, e6⟩
  · intro hR
    exact h.min16 n hn (by have := n3 hR; omega)
  · rw [show b.addr - 8 = p.addr + p.size - 8 by omega]; exact e2
  · rw [show n.addr - 8 = b.addr + b.size - 8 by omega]; exact e4

/-- A block of at least 16 bytes other than the prologue has a block before it and a block
after it. -/
theorem Layout.mm_mid {m : Mem} {hl : Nat} {B : List Blk} (h : Layout m hl B) {b : Blk}
    (hb : b ∈ B) (h16 : 16 ≤ b.size) (hne : b.addr ≠ hl) :
    ∃ L p n R, B = L ++ p :: b :: n :: R := by
  obtain ⟨X, Y, rfl⟩ := List.append_of_mem hb
  rcases List.eq_nil_or_concat X with hn | ⟨L, p, hLp⟩
  · have := h.head
    rw [hn] at this
    simp only [List.nil_append, List.head?_cons, Option.some.injEq] at this
    rw [this] at hne
    exact absurd rfl hne
  · cases Y with
    | nil =>
      have := h.last
      rw [List.getLast?_append_of_ne_nil _ (by simp)] at this
      simp only [List.getLast?_singleton, Option.some.injEq] at this
      rw [this] at h16
      simp at h16
    | cons n R => exact ⟨L, p, n, R, by rw [hLp]; simp⟩

end Mm
/-! ## `mm.c`: `coalesce` -/


namespace Mm

/-- The reads that open `coalesce`, on a layout around the block `b`. -/
theorem Layout.coalesce_reads {m : Mem} {hl : Nat} {L R : List Blk} {p b n : Blk}
    (h : Layout m hl (L ++ p :: b :: n :: R)) :
    PREV_BLKP m b.addr = .ok p.addr ∧ FTRP m p.addr = .ok (b.addr - 8) ∧
      GET_ALLOC m (b.addr - 8) = .ok p.alloc.toNat ∧ NEXT_BLKP m b.addr = .ok n.addr ∧
      GET_ALLOC m (HDRP n.addr) = .ok n.alloc.toNat ∧
      GET_SIZE m (HDRP b.addr) = .ok b.size ∧ GET_SIZE m (HDRP n.addr) = .ok n.size ∧
      GET_SIZE m (HDRP p.addr) = .ok p.size ∧ FTRP m b.addr = .ok (n.addr - 8) := by
  obtain ⟨-, -, t1, t2, t3, t4, t5, t6, t7, -, t8, t9, t10, t11, t12, l1, l2, l3, l4, l5, -⟩ :=
    h.trio
  have hn4 : HDRP n.addr = n.addr - 4 := mm_HDRP_eq (by omega) (by omega)
  have hb4 : HDRP b.addr = b.addr - 4 := mm_HDRP_eq (by omega) (by omega)
  have hp4 : HDRP p.addr = p.addr - 4 := mm_HDRP_eq (by omega) (by omega)
  rw [hn4, hb4, hp4]
  refine ⟨?_, ?_, GET_ALLOC_of l2 t5 mm_tag_lt, ?_, GET_ALLOC_of l5 t7 mm_tag_lt,
    GET_SIZE_of l3 t6 mm_tag_lt, GET_SIZE_of l5 t7 mm_tag_lt, GET_SIZE_of l1 t5 mm_tag_lt, ?_⟩
  · rw [show p.addr = b.addr - p.size by omega]
    exact PREV_BLKP_of l2 t5 mm_tag_lt (by omega) (by omega) (by omega)
  · rw [show b.addr - 8 = p.addr + p.size - 8 by omega]
    exact FTRP_of l1 t5 mm_tag_lt (by omega) (by omega) (by omega)
  · rw [show n.addr = b.addr + b.size by omega]
    exact NEXT_BLKP_of l3 t6 mm_tag_lt (by omega) (by omega)
  · rw [show n.addr - 8 = b.addr + b.size - 8 by omega]
    exact FTRP_of l3 t6 mm_tag_lt (by omega) (by omega) (by omega)

/-- `coalesce` when both neighbours are allocated: the block is linked as it is. -/
theorem coalesce_tt {m : Mem} {hl : Nat} {L R : List Blk} {p b n : Blk} {F : List Nat}
    (h : Part m hl (L ++ p :: b :: n :: R) F [b.addr]) (hbf : b.alloc = false)
    (hpa : p.alloc = true) (hna : n.alloc = true) :
    ∃ m', coalesce ⟨m, hl⟩ b.addr = .ok (⟨m', hl⟩, b.addr) ∧
      Part m' hl (L ++ p :: b :: n :: R) (b.addr :: F) [] ∧
      m'.lo = m.lo ∧ m'.brk = m.brk ∧ m'.hi = m.hi := by
  obtain ⟨r1, r2, r3, r4, r5, r6, -⟩ := h.layout.coalesce_reads
  obtain ⟨m', x1, x2, x3⟩ := h.add (by simp) hbf
  refine ⟨m', ?_, x2, x3⟩
  unfold coalesce
  simp only [r1, r2, r3, r4, r5, r6, ok_bind, pure_bind, bind_assoc, hpa, hna, Bool.toNat_true]
  rw [if_neg (by decide), if_neg (by decide), if_neg (by decide)]
  simp only [x1, ok_bind, pure_bind, bind_assoc]
  rfl

theorem tiles_snoc_end {xs : List Blk} {p : Blk} {a c : Nat} (h : Tiles a (xs ++ [p]) c) :
    c = p.addr + p.size := by
  rw [tiles_append xs [p] _ _ (by simp)] at h
  obtain ⟨c0, -, h2, -⟩ := h
  simp only [Tiles] at h2
  omega

/-- The tiling of the blocks up to and including `p`. -/
theorem Layout.upto {m : Mem} {hl : Nat} {L R : List Blk} {p : Blk}
    (h : Layout m hl (L ++ p :: R)) (hR : R ≠ []) :
    Tiles hl (L ++ [p]) (p.addr + p.size) ∧ Tiles (p.addr + p.size) R m.brk := by
  have hT := h.tiles
  rw [show L ++ p :: R = (L ++ [p]) ++ R by simp, tiles_append (L ++ [p]) R _ _ hR] at hT
  obtain ⟨c, h1, h2, -⟩ := hT
  have := tiles_snoc_end h1
  subst this
  exact ⟨h1, h2⟩

/-- A free block is followed by another block. -/
theorem Layout.free_not_last {m : Mem} {hl : Nat} {L : List Blk} {n : Blk} {R : List Blk}
    (h : Layout m hl (L ++ n :: R)) (hf : n.alloc = false) : R ≠ [] := by
  rintro rfl
  have := h.last
  rw [List.getLast?_append_of_ne_nil _ (by simp)] at this
  simp only [List.getLast?_singleton, Option.some.injEq] at this
  rw [this] at hf
  cases hf

/-- A free block is preceded by another block. -/
theorem Layout.free_not_first {m : Mem} {hl : Nat} {L : List Blk} {p : Blk} {R : List Blk}
    (h : Layout m hl (L ++ p :: R)) (hf : p.alloc = false) : L ≠ [] := by
  rintro rfl
  have := h.head
  simp only [List.nil_append, List.head?_cons, Option.some.injEq] at this
  rw [this] at hf
  cases hf

/-- `coalesce` when only the next block is free: the two blocks are merged. -/
theorem coalesce_tf {m : Mem} {hl : Nat} {L R : List Blk} {p b n : Blk} {F : List Nat}
    (h : Part m hl (L ++ p :: b :: n :: R) F [b.addr]) (hbf : b.alloc = false)
    (hpa : p.alloc = true) (hna : n.alloc = false) :
    ∃ m', coalesce ⟨m, hl⟩ b.addr = .ok (⟨m', hl⟩, b.addr) ∧
      Part m' hl (L ++ p :: ⟨b.addr, b.size + n.size, false⟩ :: R)
        (b.addr :: F.erase n.addr) [] ∧
      m'.lo = m.lo ∧ m'.brk = m.brk ∧ m'.hi = m.hi := by
  have hL0 := h.layout
  obtain ⟨r1, r2, r3, r4, r5, r6, -⟩ := hL0.coalesce_reads
  have hRne : R ≠ [] :=
    Layout.free_not_last (L := L ++ [p, b]) (by simpa using hL0) hna
  obtain ⟨-, -, t1, t2, t3, t4, t5, t6, t7, t7', t8, t9, t10, t11, t12, -⟩ := hL0.trio
  have n16 := t7' hRne
  -- unlink the next block
  have hnF : n.addr ∈ F := by
    rcases h.complete n (by simp) hna with c | c
    · exact c
    · rw [List.mem_singleton] at c; omega
  obtain ⟨m1, x1, hP1, y1, y2, y3⟩ := h.remove hnF
  have hL1 := hP1.layout
  obtain ⟨-, -, -, q4, -, -, q7, -⟩ := hL1.coalesce_reads
  obtain ⟨-, hTR, -, -, -, -, -, -, -, -, -, -, -, u11, -, -, -, -, -, -, -⟩ := hL1.trio
  have hTL : Tiles hl (L ++ [p]) b.addr := by
    have := (Layout.upto (L := L) (p := p) (R := b :: n :: R) hL1 (by simp)).1
    rw [t1] at this
    exact this
  -- the two tag writes
  have hb4 : HDRP b.addr = b.addr - 4 := mm_HDRP_eq (by omega) (by omega)
  have hsz : add32 b.size n.size = b.size + n.size := add32_eq (by omega)
  have hpk : PACK (b.size + n.size) 0 = b.size + n.size := Nat.or_zero _
  have hmod : (b.size + n.size) % W32 = b.size + n.size := Nat.mod_eq_of_lt (by omega)
  obtain ⟨m2, w2⟩ := Seg.store_total (b.size + n.size)
    (show m1.ok (b.addr - 4) from ⟨by omega, by omega, by omega⟩)
  have l2 : load m2 (b.addr - 4) = .ok (b.size + n.size + 0) := by
    rw [load_store w2, if_pos rfl, hmod]; rfl
  have f2 : FTRP m2 b.addr = .ok (b.addr + (b.size + n.size) - 8) :=
    FTRP_of l2 (by omega) (by omega) (by omega) (by omega) (by omega)
  obtain ⟨m3, w3⟩ := store_next w2 (show m1.lo ≤ b.addr + (b.size + n.size) - 8 ∧
    b.addr + (b.size + n.size) - 8 + 4 ≤ m1.brk ∧ (b.addr + (b.size + n.size) - 8) % 4 = 0
    from ⟨by omega, by omega, by omega⟩) (b.size + n.size)
  have k3 : m3.brk = m1.brk ∧ m3.lo = m1.lo ∧ m3.hi = m1.hi := by
    rw [store_brk w3, store_lo w3, store_hi w3, store_brk w2, store_lo w2, store_hi w2]
    exact ⟨rfl, rfl, rfl⟩
  have L3 : ∀ q, load m3 q = if q = b.addr + (b.size + n.size) - 8 then
      .ok (b.size + n.size) else if q = b.addr - 4 then .ok (b.size + n.size)
      else load m1 q := by
    intro q
    rw [load_store w3, load_store w2, hmod]
  have hP3 : Part m3 hl ((L ++ [p]) ++ [⟨b.addr, b.size + n.size, false⟩] ++ R)
      (F.erase n.addr) [b.addr] := by
    refine Part.retag (X := [b, n]) (x := b.addr) (y := n.addr + n.size)
      (by simpa using hP1) (by simp) hRne hTL hTR ?_ ?_ ?_ ?_ k3 ?_ ?_ ?_ ?_ ?_ ?_
    · simp only [Tiles]
      exact ⟨trivial, t6, fun _ => by omega, by omega, t7, fun h => absurd rfl h, by omega⟩
    · intro x hx
      simp only [List.mem_cons, List.mem_singleton, List.not_mem_nil, or_false] at hx
      rcases hx with rfl | rfl <;> omega
    · simp only [Tiles]
      exact ⟨trivial, by omega, fun h => absurd rfl h, by omega⟩
    · intro x hx
      rw [List.mem_singleton] at hx
      subst hx
      show 16 ≤ b.size + n.size
      omega
    · intro q hq
      rw [L3, if_neg (by omega), if_neg (by omega)]
    · intro x hx
      rw [List.mem_singleton] at hx
      subst hx
      show load m3 (b.addr - 4) = .ok (b.size + n.size + 0) ∧
        load m3 (b.addr + (b.size + n.size) - 8) = .ok (b.size + n.size + 0)
      rw [L3, L3, if_neg (by omega), if_pos rfl, if_pos rfl]
      exact ⟨rfl, rfl⟩
    · intro x hx _
      simp only [List.mem_cons, List.mem_singleton, List.not_mem_nil, or_false] at hx
      rcases hx with rfl | rfl <;> simp
    · intro a ha
      simp only [List.mem_cons, List.mem_singleton, List.not_mem_nil, or_false] at ha
      rcases ha with rfl | rfl
      · exact ⟨n, by simp, rfl⟩
      · exact ⟨b, by simp, rfl⟩
    · intro x hx _
      rw [List.mem_singleton] at hx
      subst hx
      simp
    · intro a ha
      rw [List.mem_singleton] at ha
      exact ⟨_, List.mem_singleton_self _, ha.symm⟩
  -- link the merged block
  obtain ⟨m4, x4, hP4, z1, z2, z3⟩ := Part.add (b := ⟨b.addr, b.size + n.size, false⟩) hP3
    (by simp) rfl
  refine ⟨m4, ?_, by simpa using hP4, by rw [z1, k3.2.1, y1], by rw [z2, k3.1, y2],
    by rw [z3, k3.2.2, y3]⟩
  unfold coalesce
  simp only [r1, r2, r3, r4, r5, r6, ok_bind, pure_bind, bind_assoc, hpa, hna, Bool.toNat_true,
    Bool.toNat_false]
  rw [if_pos (by decide)]
  simp only [x1, q4, q7, hb4, hsz, hpk, PUT, w2, f2, w3, ok_bind, pure_bind, bind_assoc]
  have x4' : list_add ⟨m3, hl⟩ b.addr = .ok ⟨m4, hl⟩ := x4
  simp only [x4', ok_bind, pure_bind, bind_assoc]
  rfl

end Mm


namespace Mm

/-- `coalesce` when only the previous block is free: the two blocks are merged. -/
theorem coalesce_ft {m : Mem} {hl : Nat} {L R : List Blk} {p b n : Blk} {F : List Nat}
    (h : Part m hl (L ++ p :: b :: n :: R) F [b.addr]) (hbf : b.alloc = false)
    (hpa : p.alloc = false) (hna : n.alloc = true) :
    ∃ m', coalesce ⟨m, hl⟩ b.addr = .ok (⟨m', hl⟩, p.addr) ∧
      Part m' hl (L ++ ⟨p.addr, b.size + p.size, false⟩ :: n :: R)
        (p.addr :: F.erase p.addr) [] ∧
      m'.lo = m.lo ∧ m'.brk = m.brk ∧ m'.hi = m.hi := by
  have hL0 := h.layout
  obtain ⟨r1, r2, r3, r4, r5, r6, -⟩ := hL0.coalesce_reads
  have hLne : L ≠ [] := Layout.free_not_first hL0 hpa
  obtain ⟨-, -, t1, t2, t3, t4, t5, t6, t7, -, t8, t9, t10, t11, t12, -⟩ := hL0.trio
  -- unlink the previous block
  have hpF : p.addr ∈ F := by
    rcases h.complete p (by simp) hpa with c | c
    · exact c
    · rw [List.mem_singleton] at c; omega
  obtain ⟨m1, x1, hP1, y1, y2, y3⟩ := h.remove hpF
  have hL1 := hP1.layout
  obtain ⟨q1, -, -, -, -, -, -, q8, q9⟩ := hL1.coalesce_reads
  obtain ⟨hTL, -, -, -, -, -, -, -, -, -, -, -, -, u11, -, -, v2, -, -, -, -⟩ := hL1.trio
  have hTR : Tiles n.addr (n :: R) m1.brk := by
    have := (Layout.upto (L := L ++ [p]) (p := b) (R := n :: R) (by simpa using hL1)
      (by simp)).2
    rw [t2] at this
    exact this
  -- the two tag writes
  have hp4 : HDRP p.addr = p.addr - 4 := mm_HDRP_eq (by omega) (by omega)
  rw [hp4] at q8
  have hsz : add32 b.size p.size = b.size + p.size := add32_eq (by omega)
  have hpk : PACK (b.size + p.size) 0 = b.size + p.size := Nat.or_zero _
  have hmod : (b.size + p.size) % W32 = b.size + p.size := Nat.mod_eq_of_lt (by omega)
  rw [hpa] at v2
  obtain ⟨m2, w2⟩ := Seg.store_total (b.size + p.size)
    (show m1.ok (n.addr - 8) from ⟨by omega, by omega, by omega⟩)
  have l2 : load m2 (b.addr - 8) = .ok (p.size + 0) := by
    rw [load_store w2, if_neg (by omega)]; exact v2
  have f2 : PREV_BLKP m2 b.addr = .ok p.addr := by
    rw [show p.addr = b.addr - p.size by omega]
    exact PREV_BLKP_of l2 t5 (by omega) (by omega) (by omega) (by omega)
  obtain ⟨m3, w3⟩ := store_next w2 (show m1.lo ≤ p.addr - 4 ∧
    p.addr - 4 + 4 ≤ m1.brk ∧ (p.addr - 4) % 4 = 0
    from ⟨by omega, by omega, by omega⟩) (b.size + p.size)
  have l3 : load m3 (b.addr - 8) = .ok (p.size + 0) := by
    rw [load_store w3, if_neg (by omega)]; exact l2
  have f3 : PREV_BLKP m3 b.addr = .ok p.addr := by
    rw [show p.addr = b.addr - p.size by omega]
    exact PREV_BLKP_of l3 t5 (by omega) (by omega) (by omega) (by omega)
  have k3 : m3.brk = m1.brk ∧ m3.lo = m1.lo ∧ m3.hi = m1.hi := by
    rw [store_brk w3, store_lo w3, store_hi w3, store_brk w2, store_lo w2, store_hi w2]
    exact ⟨rfl, rfl, rfl⟩
  have L3 : ∀ q, load m3 q = if q = p.addr - 4 then
      .ok (b.size + p.size) else if q = n.addr - 8 then .ok (b.size + p.size)
      else load m1 q := by
    intro q
    rw [load_store w3, load_store w2, hmod]
  have hP3 : Part m3 hl (L ++ [⟨p.addr, b.size + p.size, false⟩] ++ (n :: R))
      (F.erase p.addr) [p.addr] := by
    refine Part.retag (X := [p, b]) (x := p.addr) (y := n.addr)
      (by simpa using hP1) hLne (by simp) hTL hTR ?_ ?_ ?_ ?_ k3 ?_ ?_ ?_ ?_ ?_ ?_
    · simp only [Tiles]
      exact ⟨trivial, t5, fun _ => by omega, by omega, t6, fun h => absurd rfl h, by omega⟩
    · intro x hx
      simp only [List.mem_cons, List.mem_singleton, List.not_mem_nil, or_false] at hx
      rcases hx with rfl | rfl <;> omega
    · simp only [Tiles]
      exact ⟨trivial, by omega, fun h => absurd rfl h, by omega⟩
    · intro x hx
      rw [List.mem_singleton] at hx
      subst hx
      show 16 ≤ b.size + p.size
      omega
    · intro q hq
      rw [L3, if_neg (by omega), if_neg (by omega)]
    · intro x hx
      rw [List.mem_singleton] at hx
      subst hx
      show load m3 (p.addr - 4) = .ok (b.size + p.size + 0) ∧
        load m3 (p.addr + (b.size + p.size) - 8) = .ok (b.size + p.size + 0)
      rw [L3, L3, if_pos rfl, if_neg (by omega),
        if_pos (show p.addr + (b.size + p.size) - 8 = n.addr - 8 by omega)]
      exact ⟨rfl, rfl⟩
    · intro x hx _
      simp only [List.mem_cons, List.mem_singleton, List.not_mem_nil, or_false] at hx
      rcases hx with rfl | rfl <;> simp
    · intro a ha
      simp only [List.mem_cons, List.mem_singleton, List.not_mem_nil, or_false] at ha
      rcases ha with rfl | rfl
      · exact ⟨p, by simp, rfl⟩
      · exact ⟨b, by simp, rfl⟩
    · intro x hx _
      rw [List.mem_singleton] at hx
      subst hx
      simp
    · intro a ha
      rw [List.mem_singleton] at ha
      exact ⟨_, List.mem_singleton_self _, ha.symm⟩
  -- link the merged block
  obtain ⟨m4, x4, hP4, z1, z2, z3⟩ := Part.add (b := ⟨p.addr, b.size + p.size, false⟩) hP3
    (by simp) rfl
  refine ⟨m4, ?_, by simpa using hP4, by rw [z1, k3.2.1, y1], by rw [z2, k3.1, y2],
    by rw [z3, k3.2.2, y3]⟩
  unfold coalesce
  simp only [r1, r2, r3, r4, r5, r6, ok_bind, pure_bind, bind_assoc, hpa, hna, Bool.toNat_true,
    Bool.toNat_false]
  rw [if_neg (by decide), if_pos (by decide)]
  simp only [x1, q1, q8, q9, hp4, hsz, hpk, PUT, w2, f2, w3, f3, ok_bind, pure_bind, bind_assoc]
  have x4' : list_add ⟨m3, hl⟩ p.addr = .ok ⟨m4, hl⟩ := x4
  simp only [x4', ok_bind, pure_bind, bind_assoc]
  rfl

end Mm


namespace Mm

/-- `coalesce` when both neighbours are free: the three blocks are merged. -/
theorem coalesce_ff {m : Mem} {hl : Nat} {L R : List Blk} {p b n : Blk} {F : List Nat}
    (h : Part m hl (L ++ p :: b :: n :: R) F [b.addr]) (hbf : b.alloc = false)
    (hpa : p.alloc = false) (hna : n.alloc = false) :
    ∃ m', coalesce ⟨m, hl⟩ b.addr = .ok (⟨m', hl⟩, p.addr) ∧
      Part m' hl (L ++ ⟨p.addr, b.size + (p.size + n.size), false⟩ :: R)
        (p.addr :: (F.erase p.addr).erase n.addr) [] ∧
      m'.lo = m.lo ∧ m'.brk = m.brk ∧ m'.hi = m.hi := by
  have hL0 := h.layout
  obtain ⟨r1, r2, r3, r4, r5, r6, -⟩ := hL0.coalesce_reads
  have hLne : L ≠ [] := Layout.free_not_first hL0 hpa
  have hRne : R ≠ [] :=
    Layout.free_not_last (L := L ++ [p, b]) (by simpa using hL0) hna
  obtain ⟨-, -, t1, t2, t3, t4, t5, t6, t7, t7', t8, t9, t10, t11, t12, -⟩ := hL0.trio
  have n16 := t7' hRne
  -- unlink the previous block, then the next block
  have hpF : p.addr ∈ F := by
    rcases h.complete p (by simp) hpa with c | c
    · exact c
    · rw [List.mem_singleton] at c; omega
  obtain ⟨m1, x1, hP1, y1, y2, y3⟩ := h.remove hpF
  obtain ⟨-, -, -, a4, -⟩ := hP1.layout.coalesce_reads
  have hnF : n.addr ∈ F.erase p.addr := by
    rcases hP1.complete n (by simp) hna with c | c
    · exact c
    · simp only [List.mem_cons, List.mem_singleton, List.not_mem_nil, or_false] at c
      omega
  obtain ⟨m2, x2, hP2, y4, y5, y6⟩ := hP1.remove hnF
  have hL2 := hP2.layout
  obtain ⟨q1, -, -, q4, -, -, -, q8, -⟩ := hL2.coalesce_reads
  obtain ⟨hTL, hTR, -, -, -, -, -, -, -, -, -, -, -, u11, -, -, v2, v3, -, v5, v6⟩ := hL2.trio
  have v6' := v6 (by omega)
  rw [hna] at v5 v6'
  rw [hpa] at v2
  rw [hbf] at v3
  have hp4 : HDRP p.addr = p.addr - 4 := mm_HDRP_eq (by omega) (by omega)
  rw [hp4] at q8
  have q10 : FTRP m2 n.addr = .ok (n.addr + n.size - 8) :=
    FTRP_of v5 t7 (by decide) (by omega) (by omega) (by omega)
  have q11 : GET_SIZE m2 (n.addr + n.size - 8) = .ok n.size :=
    GET_SIZE_of v6' t7 (by decide)
  -- the two tag writes
  have hsz : add32 b.size (add32 p.size n.size) = b.size + (p.size + n.size) := by
    rw [add32_eq (show p.size + n.size < W32 by omega), add32_eq (by omega)]
  have hpk : PACK (b.size + (p.size + n.size)) 0 = b.size + (p.size + n.size) :=
    Nat.or_zero _
  have hmod : (b.size + (p.size + n.size)) % W32 = b.size + (p.size + n.size) :=
    Nat.mod_eq_of_lt (by omega)
  obtain ⟨m3, w3⟩ := Seg.store_total (b.size + (p.size + n.size))
    (show m2.ok (p.addr - 4) from ⟨by omega, by omega, by omega⟩)
  have l3 : load m3 (b.addr - 4) = .ok (b.size + 0) := by
    rw [load_store w3, if_neg (by omega)]; exact v3
  have f3 : NEXT_BLKP m3 b.addr = .ok n.addr := by
    rw [show n.addr = b.addr + b.size by omega]
    exact NEXT_BLKP_of l3 t6 (by omega) (by omega) (by omega)
  have l3' : load m3 (n.addr - 4) = .ok (n.size + 0) := by
    rw [load_store w3, if_neg (by omega)]; exact v5
  have g3 : FTRP m3 n.addr = .ok (n.addr + n.size - 8) :=
    FTRP_of l3' t7 (by omega) (by omega) (by omega) (by omega)
  obtain ⟨m4, w4⟩ := store_next w3 (show m2.lo ≤ n.addr + n.size - 8 ∧
    n.addr + n.size - 8 + 4 ≤ m2.brk ∧ (n.addr + n.size - 8) % 4 = 0
    from ⟨by omega, by omega, by omega⟩) (b.size + (p.size + n.size))
  have l4 : load m4 (b.addr - 8) = .ok (p.size + 0) := by
    rw [load_store w4, if_neg (by omega), load_store w3, if_neg (by omega)]; exact v2
  have f4 : PREV_BLKP m4 b.addr = .ok p.addr := by
    rw [show p.addr = b.addr - p.size by omega]
    exact PREV_BLKP_of l4 t5 (by omega) (by omega) (by omega) (by omega)
  have k4 : m4.brk = m2.brk ∧ m4.lo = m2.lo ∧ m4.hi = m2.hi := by
    rw [store_brk w4, store_lo w4, store_hi w4, store_brk w3, store_lo w3, store_hi w3]
    exact ⟨rfl, rfl, rfl⟩
  have L4 : ∀ q, load m4 q = if q = n.addr + n.size - 8 then
      .ok (b.size + (p.size + n.size)) else if q = p.addr - 4 then
      .ok (b.size + (p.size + n.size)) else load m2 q := by
    intro q
    rw [load_store w4, load_store w3, hmod]
  have hP4 : Part m4 hl (L ++ [⟨p.addr, b.size + (p.size + n.size), false⟩] ++ R)
      ((F.erase p.addr).erase n.addr) [p.addr] := by
    refine Part.retag (X := [p, b, n]) (x := p.addr) (y := n.addr + n.size)
      (by simpa using hP2) hLne hRne hTL hTR ?_ ?_ ?_ ?_ k4 ?_ ?_ ?_ ?_ ?_ ?_
    · simp only [Tiles]
      exact ⟨trivial, t5, fun _ => by omega, by omega, t6, fun _ => by omega, by omega, t7,
        fun h => absurd rfl h, by omega⟩
    · intro x hx
      simp only [List.mem_cons, List.mem_singleton, List.not_mem_nil, or_false] at hx
      rcases hx with rfl | rfl | rfl <;> omega
    · simp only [Tiles]
      exact ⟨trivial, by omega, fun h => absurd rfl h, by omega⟩
    · intro x hx
      rw [List.mem_singleton] at hx
      subst hx
      show 16 ≤ b.size + (p.size + n.size)
      omega
    · intro q hq
      rw [L4, if_neg (by omega), if_neg (by omega)]
    · intro x hx
      rw [List.mem_singleton] at hx
      subst hx
      show load m4 (p.addr - 4) = .ok (b.size + (p.size + n.size) + 0) ∧
        load m4 (p.addr + (b.size + (p.size + n.size)) - 8) =
          .ok (b.size + (p.size + n.size) + 0)
      rw [L4, L4, if_neg (by omega), if_pos rfl,
        if_pos (show p.addr + (b.size + (p.size + n.size)) - 8 = n.addr + n.size - 8 by
          omega)]
      exact ⟨rfl, rfl⟩
    · intro x hx _
      simp only [List.mem_cons, List.mem_singleton, List.not_mem_nil, or_false] at hx
      rcases hx with rfl | rfl | rfl <;> simp
    · intro a ha
      simp only [List.mem_cons, List.mem_singleton, List.not_mem_nil, or_false] at ha
      rcases ha with rfl | rfl | rfl
      · exact ⟨n, by simp, rfl⟩
      · exact ⟨p, by simp, rfl⟩
      · exact ⟨b, by simp, rfl⟩
    · intro x hx _
      rw [List.mem_singleton] at hx
      subst hx
      simp
    · intro a ha
      rw [List.mem_singleton] at ha
      exact ⟨_, List.mem_singleton_self _, ha.symm⟩
  -- link the merged block
  obtain ⟨m5, x5, hP5, z1, z2, z3⟩ :=
    Part.add (b := ⟨p.addr, b.size + (p.size + n.size), false⟩) hP4 (by simp) rfl
  refine ⟨m5, ?_, by simpa using hP5, by rw [z1, k4.2.1, y4, y1], by rw [z2, k4.1, y5, y2],
    by rw [z3, k4.2.2, y6, y3]⟩
  unfold coalesce
  simp only [r1, r2, r3, r4, r5, r6, ok_bind, pure_bind, bind_assoc, hpa, hna,
    Bool.toNat_false]
  rw [if_neg (by decide), if_neg (by decide), if_pos (by decide)]
  simp only [x1, a4, x2, q1, q4, q8, q10, q11, hp4, hsz, hpk, PUT, w3, f3, g3, w4, f4, ok_bind,
    pure_bind, bind_assoc]
  have x5' : list_add ⟨m4, hl⟩ p.addr = .ok ⟨m5, hl⟩ := x5
  simp only [x5', ok_bind, pure_bind, bind_assoc]
  rfl

end Mm


namespace Mm

/-- What `coalesce` does on a heap that is well formed up to the free block `b`, which is
not yet linked: it returns, the heap is well formed, the allocated blocks are the same, and
the returned pointer is a free block that covers `b`. -/
theorem mm_coalesce_spec {m : Mem} {hl : Nat} {L R : List Blk} {p b n : Blk} {F : List Nat}
    (h : Part m hl (L ++ p :: b :: n :: R) F [b.addr]) (hbf : b.alloc = false) :
    ∃ m' B' F' r, coalesce ⟨m, hl⟩ b.addr = .ok (⟨m', hl⟩, r) ∧ Part m' hl B' F' [] ∧
      m'.lo = m.lo ∧ m'.brk = m.brk ∧ m'.hi = m.hi ∧
      (∀ c : Blk, c.alloc = true → (c ∈ B' ↔ c ∈ L ++ p :: b :: n :: R)) ∧
      ∃ d ∈ B', d.addr = r ∧ d.alloc = false ∧ b.size ≤ d.size := by
  have key : ∀ {c x : Blk}, c.alloc = true → x.alloc = false → c ≠ x := by
    intro c x hc hx e
    rw [e, hx] at hc
    cases hc
  cases hpa : p.alloc <;> cases hna : n.alloc
  · obtain ⟨m', x1, x2, x3⟩ := coalesce_ff h hbf hpa hna
    refine ⟨m', _, _, _, x1, x2, x3.1, x3.2.1, x3.2.2, ?_,
      ⟨⟨p.addr, b.size + (p.size + n.size), false⟩, by simp, rfl, rfl, ?_⟩⟩
    · intro c hc
      have e1 := key hc hbf
      have e2 := key hc hpa
      have e3 := key hc hna
      have e4 := key (x := ⟨p.addr, b.size + (p.size + n.size), false⟩) hc rfl
      simp only [List.mem_append, List.mem_cons]
      tauto
    · show b.size ≤ b.size + (p.size + n.size)
      omega
  · obtain ⟨m', x1, x2, x3⟩ := coalesce_ft h hbf hpa hna
    refine ⟨m', _, _, _, x1, x2, x3.1, x3.2.1, x3.2.2, ?_,
      ⟨⟨p.addr, b.size + p.size, false⟩, by simp, rfl, rfl, ?_⟩⟩
    · intro c hc
      have e1 := key hc hbf
      have e2 := key hc hpa
      have e4 := key (x := ⟨p.addr, b.size + p.size, false⟩) hc rfl
      simp only [List.mem_append, List.mem_cons]
      tauto
    · show b.size ≤ b.size + p.size
      omega
  · obtain ⟨m', x1, x2, x3⟩ := coalesce_tf h hbf hpa hna
    refine ⟨m', _, _, _, x1, x2, x3.1, x3.2.1, x3.2.2, ?_,
      ⟨⟨b.addr, b.size + n.size, false⟩, by simp, rfl, rfl, ?_⟩⟩
    · intro c hc
      have e1 := key hc hbf
      have e3 := key hc hna
      have e4 := key (x := ⟨b.addr, b.size + n.size, false⟩) hc rfl
      simp only [List.mem_append, List.mem_cons]
      tauto
    · show b.size ≤ b.size + n.size
      omega
  · obtain ⟨m', x1, x2, x3⟩ := coalesce_tt h hbf hpa hna
    exact ⟨m', _, _, _, x1, x2, x3.1, x3.2.1, x3.2.2, fun _ _ => Iff.rfl,
      ⟨b, by simp, rfl, hbf, le_refl _⟩⟩

end Mm
/-! ## `mm.c`: `place` and `find_fit` -/


namespace Mm

/-- The facts that a layout gives about one of its blocks that is not the last one. -/
theorem Layout.solo {m : Mem} {hl : Nat} {L R : List Blk} {f : Blk}
    (h : Layout m hl (L ++ f :: R)) (hR : R ≠ []) :
    Tiles hl L f.addr ∧ Tiles (f.addr + f.size) R m.brk ∧ 16 ≤ f.size ∧ f.size % 8 = 0 ∧
      m.lo + 8 ≤ hl ∧ hl ≤ f.addr ∧ f.addr + f.size ≤ m.brk ∧ m.brk < W32 ∧
      f.addr % 4 = 0 ∧ load m (f.addr - 4) = .ok (f.size + f.alloc.toNat) ∧
      load m (f.addr + f.size - 8) = .ok (f.size + f.alloc.toNat) := by
  have hf : f ∈ L ++ f :: R := by simp
  have hT := h.tiles
  rw [tiles_append L _ _ _ (by simp)] at hT
  obtain ⟨c0, hTL, hT2, -⟩ := hT
  simp only [Tiles] at hT2
  obtain ⟨p1, p2, p3, hTR⟩ := hT2
  have bf := h.mm_bounds hf
  have f16 := h.min16 f hf (by have := p3 hR; omega)
  have e1 := h.hdr f hf
  have e2 := h.ftr f hf (by omega)
  unfold Blk.tag at e1 e2
  subst p1
  exact ⟨hTL, hTR, f16, p2, bf.1, bf.2.1, bf.2.2.1, bf.2.2.2.2.2, bf.2.2.2.2.1, e1, e2⟩

/-- What `place` does on a well-formed heap, at a free block `f` large enough for `asize`:
it returns, the heap is well formed, and the allocated blocks are the old ones and one new
block at the address of `f`. -/
theorem mm_place_spec {m : Mem} {hl : Nat} {L R : List Blk} {f : Blk} {F : List Nat}
    {asize : Nat} (h : Part m hl (L ++ f :: R) F []) (hf : f.alloc = false)
    (ha16 : 16 ≤ asize) (ha8 : asize % 8 = 0) (hle : asize ≤ f.size) :
    ∃ m' B' F' z, place ⟨m, hl⟩ f.addr asize = .ok ⟨m', hl⟩ ∧ Part m' hl B' F' [] ∧
      m'.lo = m.lo ∧ m'.brk = m.brk ∧ m'.hi = m.hi ∧ 16 ≤ z ∧
      ∀ c : Blk, c.alloc = true → (c ∈ B' ↔ c ∈ L ++ f :: R ∨ c = ⟨f.addr, z, true⟩) := by
  have key : ∀ {c x : Blk}, c.alloc = true → x.alloc = false → c ≠ x := by
    intro c x hc hx e
    rw [e, hx] at hc
    cases hc
  have hL0 := h.layout
  have hLne : L ≠ [] := Layout.free_not_first hL0 hf
  have hRne : R ≠ [] := Layout.free_not_last hL0 hf
  obtain ⟨-, -, t3, t4, t5, t6, t7, t8, t9, t10, -⟩ := hL0.solo hRne
  rw [hf] at t10
  have hf4 : HDRP f.addr = f.addr - 4 := mm_HDRP_eq (by omega) (by omega)
  have r0 : GET_SIZE m (f.addr - 4) = .ok f.size := GET_SIZE_of t10 t4 (by decide)
  have hfF : f.addr ∈ F := by
    rcases h.complete f (by simp) hf with c | c
    · exact c
    · simp at c
  obtain ⟨m1, x1, hP1, y1, y2, y3⟩ := h.remove hfF
  have hL1 := hP1.layout
  obtain ⟨hTL, hTR, -, -, -, -, -, u8, -, -, -⟩ := hL1.solo hRne
  have hsub : sub32 f.size asize = f.size - asize := sub32_eq hle (by omega)
  unfold place
  simp only [hf4, r0, ok_bind, pure_bind, bind_assoc, x1, hsub, PUT, DSIZE]
  by_cases hsplit : f.size - asize ≥ 2 * 8
  · rw [if_pos hsplit]
    have c1 : PACK asize 1 = asize + 1 := mm_PACK_eq ha8 (by decide)
    have c2 : PACK (f.size - asize) 0 = f.size - asize := Nat.or_zero _
    have hv1 : (asize + 1) % W32 = asize + 1 := Nat.mod_eq_of_lt (by omega)
    have hv2 : (f.size - asize) % W32 = f.size - asize := Nat.mod_eq_of_lt (by omega)
    have hq4 : HDRP (f.addr + asize) = f.addr + asize - 4 :=
      mm_HDRP_eq (by omega) (by omega)
    obtain ⟨m2, w2⟩ := Seg.store_total (asize + 1)
      (show m1.ok (f.addr - 4) from ⟨by omega, by omega, by omega⟩)
    have l2 : load m2 (f.addr - 4) = .ok (asize + 1) := by
      rw [load_store w2, if_pos rfl, hv1]
    have f2 : FTRP m2 f.addr = .ok (f.addr + asize - 8) :=
      FTRP_of l2 ha8 (by decide) (by omega) (by omega) (by omega)
    obtain ⟨m3, w3⟩ := store_next w2 (show m1.lo ≤ f.addr + asize - 8 ∧
      f.addr + asize - 8 + 4 ≤ m1.brk ∧ (f.addr + asize - 8) % 4 = 0
      from ⟨by omega, by omega, by omega⟩) (asize + 1)
    have l3 : load m3 (f.addr - 4) = .ok (asize + 1) := by
      rw [load_store w3, if_neg (by omega)]; exact l2
    have f3 : NEXT_BLKP m3 f.addr = .ok (f.addr + asize) :=
      NEXT_BLKP_of l3 ha8 (by decide) (by omega) (by omega)
    have k3 : m3.lo = m1.lo ∧ m3.brk = m1.brk := by
      rw [store_lo w3, store_brk w3, store_lo w2, store_brk w2]; exact ⟨rfl, rfl⟩
    obtain ⟨m4, w4⟩ := Seg.store_total (f.size - asize)
      (show m3.ok (f.addr + asize - 4) from
        ⟨by rw [k3.1]; omega, by rw [k3.2]; omega, by omega⟩)
    have l4 : load m4 (f.addr + asize - 4) = .ok (f.size - asize + 0) := by
      rw [load_store w4, if_pos rfl, hv2]; rfl
    have f4 : FTRP m4 (f.addr + asize) = .ok (f.addr + asize + (f.size - asize) - 8) :=
      FTRP_of l4 (by omega) (by decide) (by omega) (by omega) (by omega)
    obtain ⟨m5, w5⟩ := store_next w4 (show m3.lo ≤ f.addr + asize + (f.size - asize) - 8 ∧
      f.addr + asize + (f.size - asize) - 8 + 4 ≤ m3.brk ∧
      (f.addr + asize + (f.size - asize) - 8) % 4 = 0
      from ⟨by rw [k3.1]; omega, by rw [k3.2]; omega, by omega⟩) (f.size - asize)
    have k5 : m5.brk = m1.brk ∧ m5.lo = m1.lo ∧ m5.hi = m1.hi := by
      rw [store_brk w5, store_lo w5, store_hi w5, store_brk w4, store_lo w4, store_hi w4,
        store_brk w3, store_lo w3, store_hi w3, store_brk w2, store_lo w2, store_hi w2]
      exact ⟨rfl, rfl, rfl⟩
    have L5 : ∀ q, load m5 q = if q = f.addr + asize + (f.size - asize) - 8 then
        .ok (f.size - asize) else if q = f.addr + asize - 4 then .ok (f.size - asize)
        else if q = f.addr + asize - 8 then .ok (asize + 1)
        else if q = f.addr - 4 then .ok (asize + 1) else load m1 q := by
      intro q
      rw [load_store w5, load_store w4, load_store w3, load_store w2, hv1, hv2]
    have hP5 : Part m5 hl (L ++ [⟨f.addr, asize, true⟩,
        ⟨f.addr + asize, f.size - asize, false⟩] ++ R) (F.erase f.addr) [f.addr + asize] := by
      refine Part.retag (X := [f]) (x := f.addr) (y := f.addr + f.size)
        (by simpa using hP1) hLne hRne hTL hTR ?_ ?_ ?_ ?_ k5 ?_ ?_ ?_ ?_ ?_ ?_
      · simp only [Tiles]
        exact ⟨trivial, t4, fun h => absurd rfl h, trivial⟩
      · intro x hx
        rw [List.mem_singleton] at hx
        subst hx
        omega
      · simp only [Tiles]
        exact ⟨trivial, ha8, fun _ => by omega, trivial, by omega, fun h => absurd rfl h,
          by omega⟩
      · intro x hx
        simp only [List.mem_cons, List.mem_singleton, List.not_mem_nil, or_false] at hx
        rcases hx with rfl | rfl
        · exact ha16
        · exact hsplit
      · intro q hq
        rw [L5, if_neg (by omega), if_neg (by omega), if_neg (by omega), if_neg (by omega)]
      · intro x hx
        simp only [List.mem_cons, List.mem_singleton, List.not_mem_nil, or_false] at hx
        rcases hx with rfl | rfl
        · show load m5 (f.addr - 4) = .ok (asize + 1) ∧
            load m5 (f.addr + asize - 8) = .ok (asize + 1)
          rw [L5, L5, if_neg (by omega), if_neg (by omega), if_neg (by omega), if_pos rfl,
            if_neg (by omega), if_neg (by omega), if_pos rfl]
          exact ⟨rfl, rfl⟩
        · show load m5 (f.addr + asize - 4) = .ok (f.size - asize + 0) ∧
            load m5 (f.addr + asize + (f.size - asize) - 8) = .ok (f.size - asize + 0)
          rw [L5, L5, if_neg (by omega), if_pos rfl, if_pos rfl]
          exact ⟨rfl, rfl⟩
      · intro x hx _
        rw [List.mem_singleton] at hx
        subst hx
        simp
      · intro a ha
        rw [List.mem_singleton] at ha
        exact ⟨f, by simp, ha.symm⟩
      · intro x hx hxf
        simp only [List.mem_cons, List.mem_singleton, List.not_mem_nil, or_false] at hx
        rcases hx with rfl | rfl
        · cases hxf
        · simp
      · intro a ha
        rw [List.mem_singleton] at ha
        exact ⟨⟨f.addr + asize, f.size - asize, false⟩, by simp, ha.symm⟩
    obtain ⟨m6, x6, hP6, z1, z2, z3⟩ :=
      Part.add (b := ⟨f.addr + asize, f.size - asize, false⟩) hP5 (by simp) rfl
    have x6' : list_add ⟨m5, hl⟩ (f.addr + asize) = .ok ⟨m6, hl⟩ := x6
    refine ⟨m6, _, _, asize, ?_, hP6, by rw [z1, k5.2.1, y1], by rw [z2, k5.1, y2],
      by rw [z3, k5.2.2, y3], ha16, ?_⟩
    · simp only [c1, c2, w2, f2, w3, f3, hq4, w4, f4, w5, x6', ok_bind, pure_bind, bind_assoc]
    · intro c hc
      have e1 := key hc hf
      have e2 := key (x := ⟨f.addr + asize, f.size - asize, false⟩) hc rfl
      simp only [List.mem_append, List.mem_cons, List.mem_singleton, List.not_mem_nil,
        or_false]
      constructor
      · rintro ((h | h | h) | h)
        exacts [Or.inl (Or.inl h), Or.inr h, absurd h e2, Or.inl (Or.inr (Or.inr h))]
      · rintro ((h | h | h) | h)
        exacts [Or.inl (Or.inl h), absurd h e1, Or.inr h, Or.inl (Or.inr (Or.inl h))]
  · rw [if_neg hsplit]
    have c1 : PACK f.size 1 = f.size + 1 := mm_PACK_eq t4 (by decide)
    have hv1 : (f.size + 1) % W32 = f.size + 1 := Nat.mod_eq_of_lt (by omega)
    obtain ⟨m2, w2⟩ := Seg.store_total (f.size + 1)
      (show m1.ok (f.addr - 4) from ⟨by omega, by omega, by omega⟩)
    have l2 : load m2 (f.addr - 4) = .ok (f.size + 1) := by
      rw [load_store w2, if_pos rfl, hv1]
    have f2 : FTRP m2 f.addr = .ok (f.addr + f.size - 8) :=
      FTRP_of l2 t4 (by decide) (by omega) (by omega) (by omega)
    obtain ⟨m3, w3⟩ := store_next w2 (show m1.lo ≤ f.addr + f.size - 8 ∧
      f.addr + f.size - 8 + 4 ≤ m1.brk ∧ (f.addr + f.size - 8) % 4 = 0
      from ⟨by omega, by omega, by omega⟩) (f.size + 1)
    have k3 : m3.brk = m1.brk ∧ m3.lo = m1.lo ∧ m3.hi = m1.hi := by
      rw [store_brk w3, store_lo w3, store_hi w3, store_brk w2, store_lo w2, store_hi w2]
      exact ⟨rfl, rfl, rfl⟩
    have L3 : ∀ q, load m3 q = if q = f.addr + f.size - 8 then .ok (f.size + 1)
        else if q = f.addr - 4 then .ok (f.size + 1) else load m1 q := by
      intro q
      rw [load_store w3, load_store w2, hv1]
    have hP3 : Part m3 hl (L ++ [⟨f.addr, f.size, true⟩] ++ R) (F.erase f.addr) [] := by
      refine Part.retag (X := [f]) (x := f.addr) (y := f.addr + f.size)
        (by simpa using hP1) hLne hRne hTL hTR ?_ ?_ ?_ ?_ k3 ?_ ?_ ?_ ?_ ?_ ?_
      · simp only [Tiles]
        exact ⟨trivial, t4, fun h => absurd rfl h, trivial⟩
      · intro x hx
        rw [List.mem_singleton] at hx
        subst hx
        omega
      · simp only [Tiles]
        exact ⟨trivial, t4, fun h => absurd rfl h, trivial⟩
      · intro x hx
        rw [List.mem_singleton] at hx
        subst hx
        exact t3
      · intro q hq
        rw [L3, if_neg (by omega), if_neg (by omega)]
      · intro x hx
        rw [List.mem_singleton] at hx
        subst hx
        show load m3 (f.addr - 4) = .ok (f.size + 1) ∧
          load m3 (f.addr + f.size - 8) = .ok (f.size + 1)
        rw [L3, L3, if_neg (by omega), if_pos rfl, if_pos rfl]
        exact ⟨rfl, rfl⟩
      · intro x hx _
        rw [List.mem_singleton] at hx
        subst hx
        simp
      · intro a ha
        rw [List.mem_singleton] at ha
        exact ⟨f, by simp, ha.symm⟩
      · intro x hx hxf
        rw [List.mem_singleton] at hx
        subst hx
        cases hxf
      · intro a ha
        simp at ha
    refine ⟨m3, _, _, f.size, ?_, hP3, by rw [k3.2.1, y1], by rw [k3.1, y2],
      by rw [k3.2.2, y3], t3, ?_⟩
    · simp only [c1, w2, f2, w3, ok_bind, pure_bind, bind_assoc]
      rfl
    · intro c hc
      have e1 := key hc hf
      simp only [List.mem_append, List.mem_cons, List.mem_singleton, List.not_mem_nil,
        or_false]
      constructor
      · rintro ((h | h) | h)
        exacts [Or.inl (Or.inl h), Or.inr h, Or.inl (Or.inr (Or.inr h))]
      · rintro ((h | h | h) | h)
        exacts [Or.inl (Or.inl h), absurd h e1, Or.inr h, Or.inl (Or.inr h)]

end Mm


namespace Mm

/-- The loop of `find_fit` along the ring: with more fuel than nodes it returns, and what
it returns is `NULL` or a free block of at least `asize` bytes. -/
theorem findLoop_walk {m : Mem} {hl : Nat} {B : List Blk} {F D : List Nat} (asize : Nat)
    (h : Part m hl B F D) : ∀ (G : List Nat) (p : Nat), (∀ a ∈ G, a ∈ F) → RSeg m p G hl →
    ∀ fuel, (G.length < fuel → ∃ r, findLoop m asize fuel (G.headD hl) = .ok r) ∧
      (∀ r, findLoop m asize fuel (G.headD hl) = .ok r →
        r = 0 ∨ ∃ b ∈ B, b.addr = r ∧ b.alloc = false ∧ asize ≤ b.size)
  | [], p, _, _, fuel => by
    have hL := h.layout
    have hp := hL.prologue
    have b1 := hL.mm_bounds hp
    have e1 := hL.hdr _ hp
    have e2 : HDRP hl = hl - 4 := mm_HDRP_eq (by simp only at b1; omega)
      (by simp only at b1; omega)
    have e3 : GET_ALLOC m (hl - 4) = .ok 1 :=
      GET_ALLOC_of (z := 16) (a := 1) e1 (by decide) (by decide)
    cases fuel with
    | zero => exact ⟨fun hc => absurd hc (by simp), fun r hr => by cases hr⟩
    | succ k =>
      have : findLoop m asize (k + 1) hl = .ok 0 := by
        unfold findLoop
        simp only [e2, e3, ok_bind, pure_bind, bind_assoc]
        rfl
      simp only [List.headD_nil, this]
      exact ⟨fun _ => ⟨0, rfl⟩, fun r hr => Or.inl (by cases hr; rfl)⟩
  | a :: G, p, hG, hr, fuel => by
    have hL := h.layout
    obtain ⟨b, hb, hba, hbf⟩ := h.nodes a (hG a (by simp))
    have b1 := hL.mm_bounds hb
    have b16 := hL.free16 hb hbf
    have e1 := hL.hdr _ hb
    unfold Blk.tag at e1
    rw [hbf, hba] at e1
    have e2 : HDRP a = a - 4 := mm_HDRP_eq (by omega) (by omega)
    have e3 : GET_ALLOC m (a - 4) = .ok 0 := GET_ALLOC_of e1 b1.2.2.2.1 (by decide)
    have e4 : GET_SIZE m (a - 4) = .ok b.size := GET_SIZE_of e1 b1.2.2.2.1 (by decide)
    have e5 : SUCC_P m a = .ok (G.headD hl) := by
      unfold SUCC_P WSIZE
      rw [add32_eq (by omega)]
      exact hr.2.first_link.1
    have ih := findLoop_walk asize h G a (fun x hx => hG x (List.mem_cons_of_mem _ hx)) hr.2
    cases fuel with
    | zero => exact ⟨fun hc => absurd hc (by simp), fun r hr => by cases hr⟩
    | succ k =>
      simp only [List.headD_cons]
      unfold findLoop
      simp only [e2, e3, e4, e5, ok_bind, pure_bind, bind_assoc, if_true]
      by_cases hfit : asize ≤ b.size
      · rw [if_pos hfit]
        refine ⟨fun _ => ⟨a, rfl⟩, fun r hr => Or.inr ⟨b, hb, ?_, hbf, hfit⟩⟩
        cases hr
        exact hba
      · rw [if_neg hfit]
        refine ⟨fun hlen => (ih k).1 ?_, (ih k).2⟩
        simp only [List.length_cons] at hlen
        omega

/-- On a well-formed heap `find_fit` returns as soon as it has more fuel than the list has
nodes, and what it returns is `NULL` or a free block of at least `asize` bytes. -/
theorem mm_find_fit_spec {m : Mem} {hl : Nat} {B : List Blk} {F D : List Nat}
    (h : Part m hl B F D) (asize fuel : Nat) :
    (F.length < fuel → ∃ r, find_fit fuel ⟨m, hl⟩ asize = .ok r) ∧
      (∀ r, find_fit fuel ⟨m, hl⟩ asize = .ok r →
        r = 0 ∨ ∃ b ∈ B, b.addr = r ∧ b.alloc = false ∧ asize ≤ b.size) := by
  have hL := h.layout
  have b1 := hL.mm_bounds hL.prologue
  have e5 : SUCC_P m hl = .ok (F.headD hl) := by
    unfold SUCC_P WSIZE
    rw [add32_eq (by simp only at b1; omega)]
    exact h.ring.first_link.1
  have := findLoop_walk asize h F hl (fun a ha => ha) h.ring fuel
  unfold find_fit
  simp only [e5, ok_bind]
  exact this

end Mm
/-! ## `mm.c`: `extend_heap`, `mm_free`, `mm_malloc` -/


namespace Mm

/-- Growing the heap by a free block of `size` bytes written over the old epilogue, with
a new epilogue after it. -/
theorem Part.grow {m m' : Mem} {hl : Nat} {L0 : List Blk} {F : List Nat} {size : Nat}
    (h : Part m hl (L0 ++ [⟨m.brk, 0, true⟩]) F []) (hLne : L0 ≠ []) (h16 : 16 ≤ size)
    (h8 : size % 8 = 0) (hlo : m'.lo = m.lo) (hhi : m'.hi = m.hi)
    (hbrk : m'.brk = m.brk + size) (hle : m.brk + size ≤ m.hi)
    (hfr : ∀ q, q + 8 ≤ m.brk → load m' q = load m q)
    (t1 : load m' (m.brk - 4) = .ok size) (t2 : load m' (m.brk + size - 8) = .ok size)
    (t3 : load m' (m.brk + size - 4) = .ok 1) :
    Part m' hl (L0 ++ [⟨m.brk, size, false⟩, ⟨m.brk + size, 0, true⟩]) F [m.brk] := by
  have hLay := h.layout
  have hT := hLay.tiles
  rw [tiles_append L0 _ _ _ (by simp)] at hT
  obtain ⟨c, hTL, hTe, hL8⟩ := hT
  simp only [Tiles] at hTe
  have hc : c = m.brk := by omega
  subst hc
  have hmem : ∀ b, b ∈ L0 → b ∈ L0 ++ [(⟨m.brk, 0, true⟩ : Blk)] :=
    fun b hb => List.mem_append_left _ hb
  have pos : ∀ b ∈ L0, b.addr + b.size ≤ m.brk ∧ 8 ≤ b.size := by
    intro b hb
    exact ⟨(tiles_mem L0 _ _ hTL b hb).2.1, hL8 b hb⟩
  have out : ∀ a ∈ hl :: F, ∃ b ∈ L0, b.addr = a ∧ 16 ≤ b.size ∧ (a ∈ F → b.alloc = false) := by
    intro a ha
    rcases List.mem_cons.mp ha with rfl | ha
    · refine ⟨⟨a, 16, true⟩, ?_, rfl, le_refl _, fun hc => absurd hc h.hl_not_mem⟩
      have := hLay.head
      cases L0 with
      | nil => exact absurd rfl hLne
      | cons c L =>
        simp only [List.cons_append, List.head?_cons, Option.some.injEq] at this
        rw [this]
        simp
    · obtain ⟨b, hb, e, hf⟩ := h.nodes a ha
      refine ⟨b, ?_, e, hLay.free16 hb hf, fun _ => hf⟩
      rcases List.mem_append.mp hb with hb | hb
      · exact hb
      · rw [List.mem_singleton] at hb
        rw [hb] at hf
        cases hf
  have layout' : Layout m' hl (L0 ++ [⟨m.brk, size, false⟩, ⟨m.brk + size, 0, true⟩]) := by
    refine ⟨by rw [hhi]; exact hLay.hi_lt, by rw [hbrk, hhi]; exact hle,
      by rw [hlo]; exact hLay.hl_ge, hLay.hl4, ?_, ?_, ?_, ?_, ?_, ?_⟩
    · have := hLay.head
      cases L0 with
      | nil => exact absurd rfl hLne
      | cons a L => simpa using this
    · rw [hbrk, List.getLast?_append_of_ne_nil _ (by simp)]
      rfl
    · rw [hbrk, tiles_append L0 _ _ _ (by simp)]
      refine ⟨m.brk, hTL, ?_, hL8⟩
      simp only [Tiles]
      exact ⟨trivial, h8, fun _ => by omega, trivial, by decide, fun h => absurd rfl h, by omega⟩
    · intro b hb
      simp only [List.mem_append, List.mem_cons, List.mem_singleton, List.not_mem_nil,
        or_false] at hb
      rcases hb with hb | rfl | rfl
      · have := pos b hb
        rw [hfr _ (by omega)]
        exact hLay.hdr b (hmem b hb)
      · exact t1
      · exact t3
    · intro b hb h0
      simp only [List.mem_append, List.mem_cons, List.mem_singleton, List.not_mem_nil,
        or_false] at hb
      rcases hb with hb | rfl | rfl
      · have := pos b hb
        rw [hfr _ (by omega)]
        exact hLay.ftr b (hmem b hb) h0
      · exact t2
      · exact absurd rfl h0
    · intro b hb h0
      simp only [List.mem_append, List.mem_cons, List.mem_singleton, List.not_mem_nil,
        or_false] at hb
      rcases hb with hb | rfl | rfl
      · exact hLay.min16 b (hmem b hb) h0
      · exact h16
      · exact absurd rfl h0
  refine ⟨layout', ?_, h.nodup, ?_, ?_, ?_⟩
  · refine RSeg.agree F hl hl ?_ ?_ h.ring
    · intro a ha
      obtain ⟨b, hb, rfl, hb16, -⟩ := out a ha
      have := pos b hb
      exact hfr _ (by omega)
    · intro a ha
      obtain ⟨b, hb, rfl, hb16, -⟩ := out a (by
        simp only [List.mem_append, List.mem_singleton, List.mem_cons] at ha ⊢; tauto)
      have := pos b hb
      exact hfr _ (by omega)
  · intro a ha
    obtain ⟨b, hb, e, -, hf⟩ := out a (List.mem_cons_of_mem _ ha)
    exact ⟨b, List.mem_append_left _ hb, e, hf ha⟩
  · intro b hb hf
    simp only [List.mem_append, List.mem_cons, List.mem_singleton, List.not_mem_nil,
      or_false] at hb
    rcases hb with hb | rfl | rfl
    · rcases h.complete b (hmem b hb) hf with c | c
      · exact Or.inl c
      · simp at c
    · exact Or.inr (List.mem_singleton_self _)
    · cases hf
  · intro a ha hc
    rw [List.mem_singleton] at hc
    obtain ⟨b, hb, e, hb16, -⟩ := out a (List.mem_cons_of_mem _ ha)
    have := pos b hb
    omega

theorem mm_load_grow {m : Mem} {k q : Nat} (hq : q + 4 ≤ m.brk) :
    load { m with brk := m.brk + k } q = load m q := by
  unfold load Mem.ok
  by_cases h : m.lo ≤ q ∧ q % 4 = 0
  · rw [if_pos ⟨h.1, by show q + 4 ≤ m.brk + k; omega, h.2⟩, if_pos ⟨h.1, hq, h.2⟩]
  · rw [if_neg (fun hc => h ⟨hc.1, hc.2.2⟩), if_neg (fun hc => h ⟨hc.1, hc.2.2⟩)]

/-- The last block of a layout is the epilogue, and a block comes before it. -/
theorem Layout.split_last {m : Mem} {hl : Nat} {B : List Blk} (h : Layout m hl B) :
    ∃ L p, B = L ++ [p, ⟨m.brk, 0, true⟩] := by
  obtain ⟨ys, hys⟩ := List.getLast?_eq_some_iff.mp h.last
  rcases List.eq_nil_or_concat ys with hn | ⟨L, p, hLp⟩
  · have := h.head
    rw [hys, hn] at this
    simp at this
  · refine ⟨L, p, ?_⟩
    rw [hys, hLp]
    simp

/-- What `extend_heap` does on a well-formed heap for a request of `size` bytes: when the
facade refuses it returns `NULL` and leaves the state as it is; otherwise it returns a free
block of at least `size` bytes of a well-formed heap with the same allocated blocks. -/
theorem mm_extend_spec {m : Mem} {hl : Nat} {B : List Blk} {F : List Nat} {size : Nat}
    (h : Part m hl B F []) (h16 : 16 ≤ size) (h8 : size % 8 = 0) (hlt : size < W32) :
    (mem_sbrk m size = none → extend_heap ⟨m, hl⟩ (size / 4) = .ok (⟨m, hl⟩, 0)) ∧
    (mem_sbrk m size ≠ none → ∃ m' B' F' r,
      extend_heap ⟨m, hl⟩ (size / 4) = .ok (⟨m', hl⟩, r) ∧ Part m' hl B' F' [] ∧
      m'.lo = m.lo ∧ m'.hi = m.hi ∧
      (∀ c : Blk, c.alloc = true → 16 ≤ c.size → (c ∈ B' ↔ c ∈ B)) ∧
      ∃ d ∈ B', d.addr = r ∧ d.alloc = false ∧ size ≤ d.size) := by
  have hw : (if size / 4 % 2 ≠ 0 then mul32 (add32 (size / 4) 1) WSIZE
      else mul32 (size / 4) WSIZE) = size := by
    rw [if_neg (by omega)]
    unfold mul32 WSIZE
    rw [Nat.mod_eq_of_lt (by omega)]
    omega
  constructor
  · intro hs
    unfold extend_heap
    simp only [hw, hs]
    rfl
  · intro hs
    have hLay := h.layout
    obtain ⟨L, p, hB⟩ := hLay.split_last
    subst hB
    have be := hLay.mm_bounds (b := ⟨m.brk, 0, true⟩) (by simp)
    simp only at be
    have hmod : size % W32 = size := Nat.mod_eq_of_lt hlt
    have hcond : ¬ (toInt32 size < 0 ∨ m.brk + size % W32 > m.hi) := by
      intro hc
      apply hs
      unfold mem_sbrk
      rw [if_pos hc]
    have hs' : mem_sbrk m size = some (m.brk, { m with brk := m.brk + size }) := by
      unfold mem_sbrk
      rw [if_neg hcond, hmod]
    have hle : m.brk + size ≤ m.hi := by
      rw [hmod] at hcond
      have := fun hc => hcond (Or.inr hc)
      omega
    have hhi := hLay.hi_lt
    -- the three tag writes
    have e1 : HDRP m.brk = m.brk - 4 := mm_HDRP_eq (by omega) (by omega)
    have e2 : PACK size 0 = size := Nat.or_zero _
    have e3 : HDRP (m.brk + size) = m.brk + size - 4 := mm_HDRP_eq (by omega) (by omega)
    have e4 : PACK 0 1 = 1 := rfl
    obtain ⟨m1, w1⟩ := Seg.store_total size
      (show ({ m with brk := m.brk + size } : Mem).ok (m.brk - 4) from
        ⟨by show m.lo ≤ m.brk - 4; omega, by show m.brk - 4 + 4 ≤ m.brk + size; omega,
          by omega⟩)
    have k1 : m1.lo = m.lo ∧ m1.brk = m.brk + size ∧ m1.hi = m.hi := by
      rw [store_lo w1, store_brk w1, store_hi w1]; exact ⟨rfl, rfl, rfl⟩
    have l1 : load m1 (m.brk - 4) = .ok (size + 0) := by
      rw [load_store w1, if_pos rfl, hmod]; rfl
    have f1 : FTRP m1 m.brk = .ok (m.brk + size - 8) :=
      FTRP_of l1 h8 (by decide) (by omega) (by omega) (by omega)
    obtain ⟨m2, w2⟩ := Seg.store_total size (show m1.ok (m.brk + size - 8) from
      ⟨by rw [k1.1]; omega, by rw [k1.2.1]; omega, by omega⟩)
    have l2 : load m2 (m.brk - 4) = .ok (size + 0) := by
      rw [load_store w2, if_neg (by omega)]; exact l1
    have f2 : NEXT_BLKP m2 m.brk = .ok (m.brk + size) :=
      NEXT_BLKP_of l2 h8 (by decide) (by omega) (by omega)
    obtain ⟨m3, w3⟩ := store_next w2 (show m1.lo ≤ m.brk + size - 4 ∧
      m.brk + size - 4 + 4 ≤ m1.brk ∧ (m.brk + size - 4) % 4 = 0 from
      ⟨by rw [k1.1]; omega, by rw [k1.2.1]; omega, by omega⟩) 1
    have k3 : m3.lo = m.lo ∧ m3.brk = m.brk + size ∧ m3.hi = m.hi := by
      rw [store_lo w3, store_brk w3, store_hi w3, store_lo w2, store_brk w2, store_hi w2]
      exact k1
    have L3 : ∀ q, load m3 q = if q = m.brk + size - 4 then .ok 1
        else if q = m.brk + size - 8 then .ok size else if q = m.brk - 4 then .ok size
        else load { m with brk := m.brk + size } q := by
      intro q
      rw [load_store w3, load_store w2, load_store w1, hmod]
      rfl
    have hP3 : Part m3 hl ((L ++ [p]) ++ [⟨m.brk, size, false⟩, ⟨m.brk + size, 0, true⟩]) F
        [m.brk] := by
      refine Part.grow (by simpa using h) (by simp) h16 h8 k3.1 k3.2.2 k3.2.1 hle ?_ ?_ ?_ ?_
      · intro q hq
        rw [L3, if_neg (by omega), if_neg (by omega), if_neg (by omega)]
        exact mm_load_grow (by omega)
      · rw [L3, if_neg (by omega), if_neg (by omega), if_pos rfl]
      · rw [L3, if_neg (by omega), if_pos rfl]
      · rw [L3, if_pos rfl]
    obtain ⟨m', B', F', r, x1, x2, x3, x4, x5, x6, x7⟩ :=
      mm_coalesce_spec (L := L) (p := p) (b := ⟨m.brk, size, false⟩)
        (n := ⟨m.brk + size, 0, true⟩) (R := []) (by simpa using hP3) rfl
    refine ⟨m', B', F', r, ?_, x2, by rw [x3, k3.1], by rw [x5, k3.2.2], ?_, ?_⟩
    · unfold extend_heap
      simp only [hw, hs', e1, e2, PUT, w1, f1, w2, f2, e3, e4, w3, ok_bind, pure_bind,
        bind_assoc]
      exact x1
    · intro c hc h16c
      rw [x6 c hc]
      have n1 : c ≠ ⟨m.brk, size, false⟩ := by
        intro e; rw [e] at hc; cases hc
      have n2 : c ≠ ⟨m.brk + size, 0, true⟩ := by
        intro e; rw [e] at h16c; simp at h16c
      have n3 : c ≠ ⟨m.brk, 0, true⟩ := by
        intro e; rw [e] at h16c; simp at h16c
      simp only [List.mem_append, List.mem_cons, List.mem_singleton, List.not_mem_nil,
        or_false]
      constructor
      · rintro (hx | hx | hx | hx)
        exacts [Or.inl hx, Or.inr (Or.inl hx), absurd hx n1, absurd hx n2]
      · rintro (hx | hx | hx)
        exacts [Or.inl hx, Or.inr (Or.inl hx), absurd hx n3]
    · obtain ⟨d, hd, e, hf, hsz⟩ := x7
      exact ⟨d, hd, e, hf, hsz⟩

end Mm


namespace Mm

/-- The blocks around a block lie at other addresses. -/
theorem Layout.mm_mid_ne {m : Mem} {hl : Nat} {L R : List Blk} {p b n : Blk}
    (h : Layout m hl (L ++ p :: b :: n :: R)) {c : Blk}
    (hc : c ∈ L ∨ c = p ∨ c = n ∨ c ∈ R) : c.addr ≠ b.addr := by
  obtain ⟨hTL, hTR, t1, t2, t3, t4, -⟩ := h.trio
  have hL8 : ∀ x ∈ L, 8 ≤ x.size := by
    have := h.tiles
    rw [tiles_append L _ _ _ (by simp)] at this
    exact this.choose_spec.2.2
  rcases hc with hc | rfl | rfl | hc
  · have := tiles_mem _ _ _ hTL c hc
    have := hL8 c hc
    omega
  · omega
  · omega
  · have := tiles_mem _ _ _ hTR c hc
    omega

/-- What `mm_free` does on a well-formed heap, at an allocated block `b` other than the
prologue: it returns, the heap is well formed, and the allocated blocks are the old ones
without `b`. -/
theorem mm_free_wf {m : Mem} {hl : Nat} {B : List Blk} {F : List Nat} {b : Blk}
    (h : Part m hl B F []) (hb : b ∈ B) (hba : b.alloc = true) (h16 : 16 ≤ b.size)
    (hne : b.addr ≠ hl) :
    ∃ m' B' F', mm_free ⟨m, hl⟩ b.addr = .ok ⟨m', hl⟩ ∧ Part m' hl B' F' [] ∧
      ∀ c : Blk, c.alloc = true → (c ∈ B' ↔ c ∈ B ∧ c ≠ b) := by
  have hL0 := h.layout
  obtain ⟨L, p, n, R, hB⟩ := hL0.mm_mid hb h16 hne
  subst hB
  obtain ⟨hTL, hTR, t1, t2, t3, t4, t5, t6, t7, t7', t8, t9, t10, t11, t12, l1, l2, l3, l4, l5,
    l6⟩ := hL0.trio
  rw [hba] at l3
  have hb4 : HDRP b.addr = b.addr - 4 := mm_HDRP_eq (by omega) (by omega)
  have r0 : GET_SIZE m (b.addr - 4) = .ok b.size := GET_SIZE_of l3 t6 (by decide)
  have hpk : PACK b.size 0 = b.size := Nat.or_zero _
  have hmod : b.size % W32 = b.size := Nat.mod_eq_of_lt (by omega)
  obtain ⟨m1, w1⟩ := Seg.store_total b.size
    (show m.ok (b.addr - 4) from ⟨by omega, by omega, by omega⟩)
  have l1' : load m1 (b.addr - 4) = .ok (b.size + 0) := by
    rw [load_store w1, if_pos rfl, hmod]; rfl
  have f1 : FTRP m1 b.addr = .ok (b.addr + b.size - 8) :=
    FTRP_of l1' t6 (by decide) (by omega) (by omega) (by omega)
  obtain ⟨m2, w2⟩ := store_next w1 (show m.lo ≤ b.addr + b.size - 8 ∧
    b.addr + b.size - 8 + 4 ≤ m.brk ∧ (b.addr + b.size - 8) % 4 = 0
    from ⟨by omega, by omega, by omega⟩) b.size
  have k2 : m2.brk = m.brk ∧ m2.lo = m.lo ∧ m2.hi = m.hi := by
    rw [store_brk w2, store_lo w2, store_hi w2, store_brk w1, store_lo w1, store_hi w1]
    exact ⟨rfl, rfl, rfl⟩
  have L2 : ∀ q, load m2 q = if q = b.addr + b.size - 8 then .ok b.size
      else if q = b.addr - 4 then .ok b.size else load m q := by
    intro q
    rw [load_store w2, load_store w1, hmod]
  have hTL' : Tiles hl (L ++ [p]) b.addr := by
    have := (Layout.upto (L := L) (p := p) (R := b :: n :: R) hL0 (by simp)).1
    rw [t1] at this
    exact this
  have hTR' : Tiles (b.addr + b.size) (n :: R) m.brk := by
    have := (Layout.upto (L := L ++ [p]) (p := b) (R := n :: R) (by simpa using hL0)
      (by simp)).2
    exact this
  have hP2 : Part m2 hl ((L ++ [p]) ++ [⟨b.addr, b.size, false⟩] ++ (n :: R)) F [b.addr] := by
    refine Part.retag (X := [b]) (x := b.addr) (y := b.addr + b.size)
      (by simpa using h) (by simp) (by simp) hTL' hTR' ?_ ?_ ?_ ?_ k2 ?_ ?_ ?_ ?_ ?_ ?_
    · simp only [Tiles]
      exact ⟨trivial, t6, fun h => absurd rfl h, trivial⟩
    · intro x hx
      rw [List.mem_singleton] at hx
      subst hx
      omega
    · simp only [Tiles]
      exact ⟨trivial, t6, fun h => absurd rfl h, trivial⟩
    · intro x hx
      rw [List.mem_singleton] at hx
      subst hx
      exact t4
    · intro q hq
      rw [L2, if_neg (by omega), if_neg (by omega)]
    · intro x hx
      rw [List.mem_singleton] at hx
      subst hx
      show load m2 (b.addr - 4) = .ok (b.size + 0) ∧
        load m2 (b.addr + b.size - 8) = .ok (b.size + 0)
      rw [L2, L2, if_neg (by omega), if_pos rfl, if_pos rfl]
      exact ⟨rfl, rfl⟩
    · intro x hx hxf
      rw [List.mem_singleton] at hx
      subst hx
      rw [hba] at hxf
      cases hxf
    · intro a ha
      simp at ha
    · intro x hx _
      rw [List.mem_singleton] at hx
      subst hx
      simp
    · intro a ha
      rw [List.mem_singleton] at ha
      exact ⟨_, List.mem_singleton_self _, ha.symm⟩
  obtain ⟨m', B', F', r, x1, x2, -, -, -, x6, -⟩ :=
    mm_coalesce_spec (L := L) (p := p) (b := ⟨b.addr, b.size, false⟩) (n := n) (R := R)
      (by simpa using hP2) rfl
  refine ⟨m', B', F', ?_, x2, ?_⟩
  · unfold mm_free
    simp only [hb4, r0, hpk, PUT, w1, f1, w2, ok_bind, pure_bind, bind_assoc]
    have x1' : coalesce ⟨m2, hl⟩ b.addr = .ok (⟨m', hl⟩, r) := x1
    simp only [x1', ok_bind, pure_bind, bind_assoc]
    rfl
  · intro c hc
    rw [x6 c hc]
    have n1 : c ≠ ⟨b.addr, b.size, false⟩ := by
      intro e; rw [e] at hc; cases hc
    have n2 : c ∈ L ∨ c = p ∨ c = n ∨ c ∈ R → c ≠ b := by
      intro hx e
      exact hL0.mm_mid_ne hx (by rw [e])
    simp only [List.mem_append, List.mem_cons]
    constructor
    · rintro (hx | hx | hx | hx | hx)
      · exact ⟨Or.inl hx, n2 (Or.inl hx)⟩
      · exact ⟨Or.inr (Or.inl hx), n2 (Or.inr (Or.inl hx))⟩
      · exact absurd hx n1
      · exact ⟨Or.inr (Or.inr (Or.inr (Or.inl hx))), n2 (Or.inr (Or.inr (Or.inl hx)))⟩
      · exact ⟨Or.inr (Or.inr (Or.inr (Or.inr hx))), n2 (Or.inr (Or.inr (Or.inr hx)))⟩
    · rintro ⟨hx | hx | hx | hx | hx, hne'⟩
      · exact Or.inl hx
      · exact Or.inr (Or.inl hx)
      · exact absurd hx hne'
      · exact Or.inr (Or.inr (Or.inr (Or.inl hx)))
      · exact Or.inr (Or.inr (Or.inr (Or.inr hx)))

theorem mm_adjust_facts {n : Nat} (hn : n + 15 < W32) :
    16 ≤ adjust n ∧ adjust n % 8 = 0 ∧ adjust n < W32 := by
  unfold adjust DSIZE
  unfold W32 at hn
  split_ifs with h
  · exact ⟨by decide, by decide, by decide⟩
  · have e1 : add32 n 8 = n + 8 := add32_eq (by unfold W32; omega)
    have e2 : add32 (n + 8) (8 - 1) = n + 15 := by
      rw [add32_eq (by unfold W32; omega)]
    rw [e1, e2]
    unfold mul32 W32
    rw [Nat.mod_eq_of_lt (by omega)]
    omega

/-- What `mm_malloc` does on a well-formed heap for a request whose adjusted size does not
wrap: if it returns, the heap is well formed; the allocated blocks are the old ones, and one
new block at the returned address when that is not `NULL`. -/
theorem mm_malloc_wf {m : Mem} {hl : Nat} {B : List Blk} {F : List Nat} {n fuel : Nat}
    {s' : State} {r : Nat} (h : Part m hl B F []) (hn : n + 15 < W32)
    (hm : mm_malloc fuel ⟨m, hl⟩ n = .ok (s', r)) :
    ∃ B' F', s'.heap_listp = hl ∧ Part s'.mem hl B' F' [] ∧
      (r = 0 → ∀ c : Blk, c.alloc = true → 16 ≤ c.size → (c ∈ B' ↔ c ∈ B)) ∧
      (r ≠ 0 → (∃ z, 16 ≤ z ∧ ∀ c : Blk, c.alloc = true → 16 ≤ c.size →
          (c ∈ B' ↔ c ∈ B ∨ c = ⟨r, z, true⟩)) ∧
        ∀ c ∈ B, c.alloc = true → 16 ≤ c.size → c.addr ≠ r) := by
  obtain ⟨a16, a8, alt⟩ := mm_adjust_facts hn
  unfold mm_malloc at hm
  by_cases hn0 : n = 0
  · rw [if_pos hn0] at hm
    cases hm
    exact ⟨B, F, rfl, h, fun _ _ _ _ => Iff.rfl, fun hc => absurd rfl hc⟩
  rw [if_neg hn0] at hm
  obtain ⟨bp, hbp, hm⟩ := bind_ok hm
  -- placing in a free block of a well-formed heap
  have fin : ∀ {m1 : Mem} {B1 : List Blk} {F1 : List Nat} {d : Blk}, Part m1 hl B1 F1 [] →
      d ∈ B1 → d.alloc = false → adjust n ≤ d.size →
      (∀ c : Blk, c.alloc = true → 16 ≤ c.size → (c ∈ B1 ↔ c ∈ B)) →
      ∃ m2 B' F', place ⟨m1, hl⟩ d.addr (adjust n) = .ok ⟨m2, hl⟩ ∧ Part m2 hl B' F' [] ∧
        d.addr ≠ 0 ∧
        (∃ z, 16 ≤ z ∧ ∀ c : Blk, c.alloc = true → 16 ≤ c.size →
          (c ∈ B' ↔ c ∈ B ∨ c = ⟨d.addr, z, true⟩)) ∧
        ∀ c ∈ B, c.alloc = true → 16 ≤ c.size → c.addr ≠ d.addr := by
    intro m1 B1 F1 d hP1 hd hdf hfit hsame
    obtain ⟨L, R, hB1⟩ := List.append_of_mem hd
    subst hB1
    obtain ⟨m2, B', F', z, y1, y2, -, -, -, y6, y7⟩ := mm_place_spec hP1 hdf a16 a8 hfit
    have bd := hP1.layout.mm_bounds hd
    refine ⟨m2, B', F', y1, y2, by omega, ⟨z, y6, fun c hc h16 => ?_⟩, ?_⟩
    · rw [y7 c hc, hsame c hc h16]
    · intro c hc hca h16 e
      have hc1 := (hsame c hca h16).mpr hc
      have := hP1.layout.mm_addr_inj hc1 hd e (by omega)
      rw [this, hdf] at hca
      cases hca
  by_cases hb0 : bp ≠ 0
  · rw [if_pos hb0] at hm
    rcases (mm_find_fit_spec h (adjust n) fuel).2 bp hbp with e | ⟨f, hf, hfa, hff, hfit⟩
    · exact absurd e hb0
    · obtain ⟨m2, B', F', y1, y2, -, y4, y5⟩ :=
        fin h hf hff hfit (fun _ _ _ => Iff.rfl)
      rw [← hfa, y1] at hm
      cases hm
      refine ⟨B', F', rfl, y2, fun e => absurd e (by rw [hfa]; exact hb0), fun _ => ⟨?_, ?_⟩⟩
      · exact y4
      · exact y5
  · rw [if_neg hb0] at hm
    have hes : 16 ≤ MAX (adjust n) CHUNKSIZE ∧ MAX (adjust n) CHUNKSIZE % 8 = 0 ∧
        MAX (adjust n) CHUNKSIZE < W32 ∧ adjust n ≤ MAX (adjust n) CHUNKSIZE := by
      unfold MAX CHUNKSIZE
      split_ifs with hc
      · exact ⟨a16, a8, alt, le_refl _⟩
      · exact ⟨by decide, by decide, by decide, by omega⟩
    obtain ⟨g1, g2⟩ := @mm_extend_spec m hl B F (MAX (adjust n) CHUNKSIZE) h hes.1 hes.2.1
      hes.2.2.1
    obtain ⟨⟨s1, r1⟩, he, hm⟩ := bind_ok hm
    dsimp only at hm
    by_cases hsb : mem_sbrk m (MAX (adjust n) CHUNKSIZE) = none
    · have := g1 hsb
      unfold WSIZE at he
      rw [this] at he
      cases he
      rw [if_pos rfl] at hm
      cases hm
      exact ⟨B, F, rfl, h, fun _ _ _ _ => Iff.rfl, fun hc => absurd rfl hc⟩
    · obtain ⟨m1, B1, F1, r2, z1, z2, -, -, z5, d, hd, hda, hdf, hdsz⟩ := g2 hsb
      unfold WSIZE at he
      rw [z1] at he
      cases he
      obtain ⟨m2, B', F', y1, y2, y3, y4, y5⟩ := fin z2 hd hdf (by omega) z5
      rw [← hda] at hm
      rw [if_neg y3, y1] at hm
      cases hm
      exact ⟨B', F', rfl, y2, fun e => absurd e y3, fun _ => ⟨y4, y5⟩⟩

theorem mm_inv_malloc {fuel : Nat} {s s' : State} {L : List Nat} {n p : Nat} (h : Inv s L)
    (hn : n + 15 < W32) (hm : mm_malloc fuel s n = .ok (s', p)) :
    Inv s' (if p = 0 then L else p :: L) := by
  obtain ⟨B, F, hW, hnd, hL⟩ := h
  obtain ⟨m, hl⟩ := s
  obtain ⟨B', F', e1, hP, h0, h1⟩ := mm_malloc_wf hW hn hm
  have hW' : WF s' B' F' := by
    unfold WF
    rw [e1]
    exact hP
  by_cases hp : p = 0
  · rw [if_pos hp]
    refine ⟨B', F', hW', hnd, fun q hq => ?_⟩
    obtain ⟨b, hb, hba, hbal, hb16, hne⟩ := hL q hq
    exact ⟨b, (h0 hp b hbal hb16).mpr hb, hba, hbal, hb16, by rw [e1]; exact hne⟩
  · rw [if_neg hp]
    obtain ⟨⟨z, hz, hiff⟩, hfresh⟩ := h1 hp
    refine ⟨B', F', hW', List.nodup_cons.mpr ⟨?_, hnd⟩, fun q hq => ?_⟩
    · intro hc
      obtain ⟨b, hb, hba, hbal, hb16, -⟩ := hL p hc
      exact hfresh b hb hbal hb16 hba
    · rcases List.mem_cons.mp hq with rfl | hq
      · refine ⟨⟨q, z, true⟩, (hiff _ rfl hz).mpr (Or.inr rfl), rfl, rfl, hz, ?_⟩
        rw [e1]
        have := hfresh _ hW.layout.prologue rfl (le_refl _)
        exact fun e => this e.symm
      · obtain ⟨b, hb, hba, hbal, hb16, hne⟩ := hL q hq
        exact ⟨b, (hiff b hbal hb16).mpr (Or.inl hb), hba, hbal, hb16, by rw [e1]; exact hne⟩

theorem mm_inv_free {s s' : State} {L : List Nat} {p : Nat} (h : Inv s L) (hp : p ∈ L)
    (hf : mm_free s p = .ok s') : Inv s' (L.erase p) := by
  obtain ⟨B, F, hW, hnd, hL⟩ := h
  obtain ⟨m, hl⟩ := s
  obtain ⟨b, hb, hba, hbal, hb16, hne⟩ := hL p hp
  obtain ⟨m', B', F', x1, x2, x3⟩ := mm_free_wf hW hb hbal hb16 (by rw [hba]; exact hne)
  rw [hba, hf] at x1
  cases x1
  refine ⟨B', F', x2, hnd.erase p, fun q hq => ?_⟩
  have hq' := (hnd.mem_erase_iff).mp hq
  obtain ⟨c, hc, hca, hcal, hc16, hcne⟩ := hL q hq'.2
  refine ⟨c, (x3 c hcal).mpr ⟨hc, ?_⟩, hca, hcal, hc16, hcne⟩
  intro e
  rw [e, hba] at hca
  exact hq'.1 hca.symm

end Mm


namespace Mm

/-- A successful `mm_init` leaves a well-formed heap: the prologue, one free block of 4096
bytes that is the only node of the ring, and the epilogue. -/
theorem mm_init_wf {m0 : Mem} {s : State} (h3 : m0.hi < W32)
    (hi : mm_init m0 = .ok (s, 0)) :
    s.heap_listp = m0.brk + 8 ∧
      WF s [⟨m0.brk + 8, 16, true⟩, ⟨m0.brk + 24, 4096, false⟩, ⟨m0.brk + 4120, 0, true⟩]
        [m0.brk + 24] := by
  have hW : W32 = 4294967296 := rfl
  unfold mm_init at hi
  have e24 : 6 * WSIZE = 24 := rfl
  rw [e24] at hi
  by_cases c1 : toInt32 24 < 0 ∨ m0.brk + 24 % W32 > m0.hi
  · have : mem_sbrk m0 24 = none := by unfold mem_sbrk; rw [if_pos c1]
    rw [this] at hi
    simp only [pure, Except.pure, Except.ok.injEq, Prod.mk.injEq] at hi
    exact absurd hi.2 (by decide)
  have hs1 : mem_sbrk m0 24 = some (m0.brk, { m0 with brk := m0.brk + 24 }) := by
    unfold mem_sbrk; rw [if_neg c1]; rfl
  have c1' : m0.brk + 24 ≤ m0.hi := by
    have : ¬ (m0.brk + 24 % W32 > m0.hi) := fun hc => c1 (Or.inr hc)
    rw [show 24 % W32 = 24 from rfl] at this
    omega
  rw [hs1] at hi
  simp only at hi
  generalize hma : ({ m0 with brk := m0.brk + 24 } : Mem) = ma at hi
  have kma : ma.lo = m0.lo ∧ ma.brk = m0.brk + 24 ∧ ma.hi = m0.hi := by
    rw [← hma]; exact ⟨rfl, rfl, rfl⟩
  obtain ⟨m1, w1, hi⟩ := bind_ok hi
  unfold PUT at w1
  obtain ⟨⟨o1, o2, o3⟩, -⟩ := store_ok w1
  rw [kma.1] at o1
  generalize hh0 : m0.brk = h0 at *
  -- the five other words of the initial heap
  have a1 : add32 h0 (1 * WSIZE) = h0 + 4 := add32_eq (by show h0 + 4 < W32; omega)
  have a2 : add32 h0 (2 * WSIZE) = h0 + 8 := add32_eq (by show h0 + 8 < W32; omega)
  have a3 : add32 h0 (3 * WSIZE) = h0 + 12 := add32_eq (by show h0 + 12 < W32; omega)
  have a4 : add32 h0 (4 * WSIZE) = h0 + 16 := add32_eq (by show h0 + 16 < W32; omega)
  have a5 : add32 h0 (5 * WSIZE) = h0 + 20 := add32_eq (by show h0 + 20 < W32; omega)
  have p1 : PACK (2 * DSIZE) 1 = 17 := rfl
  have p2 : PACK 0 1 = 1 := rfl
  obtain ⟨m2, w2⟩ := store_next w1 (show ma.lo ≤ h0 + 4 ∧ h0 + 4 + 4 ≤ ma.brk ∧
    (h0 + 4) % 4 = 0 from ⟨by omega, by omega, by omega⟩) 17
  obtain ⟨m3, w3⟩ := store_next w2 (show m1.lo ≤ h0 + 8 ∧ h0 + 8 + 4 ≤ m1.brk ∧
    (h0 + 8) % 4 = 0 by rw [store_lo w1, store_brk w1]; exact ⟨by omega, by omega, by omega⟩)
    (h0 + 12)
  obtain ⟨m4, w4⟩ := store_next w3 (show m2.lo ≤ h0 + 12 ∧ h0 + 12 + 4 ≤ m2.brk ∧
    (h0 + 12) % 4 = 0 by
    rw [store_lo w2, store_brk w2, store_lo w1, store_brk w1]
    exact ⟨by omega, by omega, by omega⟩) (h0 + 8)
  obtain ⟨m5, w5⟩ := store_next w4 (show m3.lo ≤ h0 + 16 ∧ h0 + 16 + 4 ≤ m3.brk ∧
    (h0 + 16) % 4 = 0 by
    rw [store_lo w3, store_brk w3, store_lo w2, store_brk w2, store_lo w1, store_brk w1]
    exact ⟨by omega, by omega, by omega⟩) 17
  obtain ⟨m6, w6⟩ := store_next w5 (show m4.lo ≤ h0 + 20 ∧ h0 + 20 + 4 ≤ m4.brk ∧
    (h0 + 20) % 4 = 0 by
    rw [store_lo w4, store_brk w4, store_lo w3, store_brk w3, store_lo w2, store_brk w2,
      store_lo w1, store_brk w1]
    exact ⟨by omega, by omega, by omega⟩) 1
  have k6 : m6.lo = m0.lo ∧ m6.brk = h0 + 24 ∧ m6.hi = m0.hi := by
    rw [store_lo w6, store_brk w6, store_hi w6, store_lo w5, store_brk w5, store_hi w5,
      store_lo w4, store_brk w4, store_hi w4, store_lo w3, store_brk w3, store_hi w3,
      store_lo w2, store_brk w2, store_hi w2, store_lo w1, store_brk w1, store_hi w1]
    exact kma
  have L6 : ∀ q, load m6 q = if q = h0 + 20 then .ok 1 else if q = h0 + 16 then .ok 17
      else if q = h0 + 12 then .ok (h0 + 8) else if q = h0 + 8 then .ok (h0 + 12)
      else if q = h0 + 4 then .ok 17 else if q = h0 then .ok 0 else load ma q := by
    intro q
    rw [load_store w6, load_store w5, load_store w4, load_store w3, load_store w2,
      load_store w1, Nat.mod_eq_of_lt (show h0 + 8 < W32 by omega),
      Nat.mod_eq_of_lt (show h0 + 12 < W32 by omega)]
    rfl
  unfold PUT at hi
  simp only [a1, a2, a3, a4, a5, p1, p2, w2, w3, w4, w5, w6, ok_bind, pure_bind,
    bind_assoc] at hi
  -- the extension by one chunk
  have hw : (if CHUNKSIZE / WSIZE % 2 ≠ 0 then mul32 (add32 (CHUNKSIZE / WSIZE) 1) WSIZE
      else mul32 (CHUNKSIZE / WSIZE) WSIZE) = 4096 := rfl
  unfold extend_heap at hi
  simp only [hw] at hi
  by_cases c2 : toInt32 4096 < 0 ∨ m6.brk + 4096 % W32 > m6.hi
  · have : mem_sbrk m6 4096 = none := by unfold mem_sbrk; rw [if_pos c2]
    rw [this] at hi
    simp only [pure, Except.pure, Except.ok.injEq, Prod.mk.injEq, ok_bind, if_true,
      bind, Except.bind] at hi
    exact absurd hi.2 (by decide)
  have hs2 : mem_sbrk m6 4096 = some (h0 + 24, { m6 with brk := h0 + 24 + 4096 }) := by
    unfold mem_sbrk; rw [if_neg c2, k6.2.1]; rfl
  have c2' : h0 + 24 + 4096 ≤ m0.hi := by
    have : ¬ (m6.brk + 4096 % W32 > m6.hi) := fun hc => c2 (Or.inr hc)
    rw [show 4096 % W32 = 4096 from rfl, k6.2.1, k6.2.2] at this
    omega
  rw [hs2] at hi
  simp only at hi
  have hgrow : ∀ q, q + 4 ≤ h0 + 24 →
      load ({ m6 with brk := h0 + 24 + 4096 } : Mem) q = load m6 q := by
    intro q hq
    have := mm_load_grow (m := m6) (k := 4096) (q := q) (by rw [k6.2.1]; exact hq)
    rw [k6.2.1] at this
    exact this
  generalize hmb : ({ m6 with brk := h0 + 24 + 4096 } : Mem) = mb at hi hgrow
  have kmb : mb.lo = m0.lo ∧ mb.brk = h0 + 24 + 4096 ∧ mb.hi = m0.hi := by
    rw [← hmb]; exact ⟨k6.1, rfl, k6.2.2⟩
  have e1 : HDRP (h0 + 24) = h0 + 20 := by
    rw [mm_HDRP_eq (by omega) (by omega)]; omega
  have e2 : PACK 4096 0 = 4096 := rfl
  have e3 : HDRP (h0 + 24 + 4096) = h0 + 4116 := by
    rw [mm_HDRP_eq (by omega) (by omega)]; omega
  obtain ⟨m7, w7⟩ := Seg.store_total 4096 (show mb.ok (h0 + 20) from
    ⟨by rw [kmb.1]; omega, by rw [kmb.2.1]; omega, by omega⟩)
  have l7 : load m7 (h0 + 24 - 4) = .ok (4096 + 0) := by
    rw [load_store w7, if_pos (by omega)]; rfl
  have f7 : FTRP m7 (h0 + 24) = .ok (h0 + 4112) := by
    rw [FTRP_of l7 (by decide) (by decide) (by omega) (by omega) (by omega),
      show h0 + 24 + 4096 - 8 = h0 + 4112 by omega]
  obtain ⟨m8, w8⟩ := store_next w7 (show mb.lo ≤ h0 + 4112 ∧ h0 + 4112 + 4 ≤ mb.brk ∧
    (h0 + 4112) % 4 = 0 from ⟨by rw [kmb.1]; omega, by rw [kmb.2.1]; omega, by omega⟩) 4096
  have l8 : load m8 (h0 + 24 - 4) = .ok (4096 + 0) := by
    rw [load_store w8, if_neg (by omega)]; exact l7
  have f8 : NEXT_BLKP m8 (h0 + 24) = .ok (h0 + 24 + 4096) :=
    NEXT_BLKP_of l8 (by decide) (by decide) (by omega) (by omega)
  obtain ⟨m9, w9⟩ := store_next w8 (show m7.lo ≤ h0 + 4116 ∧ h0 + 4116 + 4 ≤ m7.brk ∧
    (h0 + 4116) % 4 = 0 by
    rw [store_lo w7, store_brk w7]
    exact ⟨by have := kmb.1; omega, by have := kmb.2.1; omega, by omega⟩) 1
  have k9 : m9.lo = m0.lo ∧ m9.brk = h0 + 24 + 4096 ∧ m9.hi = m0.hi := by
    rw [store_lo w9, store_brk w9, store_hi w9, store_lo w8, store_brk w8, store_hi w8,
      store_lo w7, store_brk w7, store_hi w7]
    exact kmb
  have L9 : ∀ q, load m9 q = if q = h0 + 4116 then .ok 1 else if q = h0 + 4112 then .ok 4096
      else if q = h0 + 20 then .ok 4096 else load mb q := by
    intro q
    rw [load_store w9, load_store w8, load_store w7]
    rfl
  have L9' : ∀ q, q + 4 ≤ h0 + 20 → load m9 q = load m6 q := by
    intro q hq
    rw [L9, if_neg (by omega), if_neg (by omega), if_neg (by omega)]
    exact hgrow q (by omega)
  -- the reads of coalesce
  have g1 : load m9 (h0 + 24 - 8) = .ok (16 + 1) := by
    rw [L9' _ (by omega), L6, if_neg (by omega), if_pos (by omega)]
  have g2 : load m9 (h0 + 8 - 4) = .ok (16 + 1) := by
    rw [L9' _ (by omega), L6, if_neg (by omega), if_neg (by omega), if_neg (by omega),
      if_neg (by omega), if_pos (by omega)]
  have g3 : load m9 (h0 + 24 - 4) = .ok (4096 + 0) := by
    rw [L9, if_neg (by omega), if_neg (by omega), if_pos (by omega)]
  have g4 : load m9 (h0 + 4116) = .ok (0 + 1) := by
    rw [L9, if_pos rfl]
  have g5 : load m9 (h0 + 12) = .ok (h0 + 8) := by
    rw [L9' _ (by omega), L6, if_neg (by omega), if_neg (by omega), if_pos rfl]
  have r1 : PREV_BLKP m9 (h0 + 24) = .ok (h0 + 8) := by
    rw [PREV_BLKP_of g1 (by decide) (by decide) (by omega) (by omega) (by omega),
      show h0 + 24 - 16 = h0 + 8 by omega]
  have r2 : FTRP m9 (h0 + 8) = .ok (h0 + 16) := by
    rw [FTRP_of g2 (by decide) (by decide) (by omega) (by omega) (by omega),
      show h0 + 8 + 16 - 8 = h0 + 16 by omega]
  have r3 : GET_ALLOC m9 (h0 + 16) = .ok 1 :=
    GET_ALLOC_of (z := 16) (by rw [show h0 + 16 = h0 + 24 - 8 by omega]; exact g1)
      (by decide) (by decide)
  have r4 : NEXT_BLKP m9 (h0 + 24) = .ok (h0 + 24 + 4096) :=
    NEXT_BLKP_of g3 (by decide) (by decide) (by omega) (by omega)
  have r5 : GET_ALLOC m9 (h0 + 4116) = .ok 1 := GET_ALLOC_of g4 (by decide) (by decide)
  have r6 : GET_SIZE m9 (h0 + 20) = .ok 4096 :=
    GET_SIZE_of (a := 0) (by rw [show h0 + 20 = h0 + 24 - 4 by omega]; exact g3)
      (by decide) (by decide)
  obtain ⟨m', x1, x2, x3, x4, x5⟩ := list_add_run (m := m9) (p := h0 + 24) (h0 + 8)
    (by rw [k9.2.1]; omega) (show load m9 (h0 + 8 + 4) = .ok (h0 + 8) from g5)
    ⟨by rw [k9.1]; omega, by rw [k9.2.1]; omega, by omega⟩
    ⟨by rw [k9.1]; omega, by rw [k9.2.1]; omega, by omega⟩
    ⟨by rw [k9.1]; omega, by rw [k9.2.1]; omega, by omega⟩ (by omega) (by omega)
  have hco : coalesce ⟨m9, h0 + 8⟩ (h0 + 24) = .ok (⟨m', h0 + 8⟩, h0 + 24) := by
    unfold coalesce
    simp only [r1, r2, r3, r4, e3, r5, e1, r6, ok_bind, pure_bind, bind_assoc]
    rw [if_neg (by decide), if_neg (by decide), if_neg (by decide)]
    simp only [x1, ok_bind, pure_bind, bind_assoc]
    rfl
  unfold PUT at hi
  simp only [e1, e2, w7, f7, w8, f8, e3, p2, w9, hco, ok_bind, pure_bind, bind_assoc] at hi
  rw [if_neg (by omega)] at hi
  simp only [pure, Except.pure, Except.ok.injEq, Prod.mk.injEq, and_true] at hi
  subst hi
  refine ⟨rfl, ?_⟩
  -- the final heap
  have T : ∀ q, load m' q = if q = h0 + 12 then .ok (h0 + 24) else if q = h0 + 8 then
      .ok (h0 + 24) else if q = h0 + 24 then .ok (h0 + 8) else if q = h0 + 28 then
      .ok (h0 + 8) else load m9 q := by
    intro q
    rw [x5]
  show Part m' (h0 + 8) _ _ []
  have y1 : m'.hi < W32 := by rw [x4, k9.2.2]; exact h3
  have y2 : m'.brk ≤ m'.hi := by rw [x3, x4, k9.2.1, k9.2.2]; exact c2'
  have y3 : m'.lo + 8 ≤ h0 + 8 := by rw [x2, k9.1]; omega
  have y4 : m'.brk = h0 + 4120 := by rw [x3, k9.2.1]
  refine ⟨⟨y1, y2, y3, by omega, rfl, by rw [y4]; rfl, ?_, ?_, ?_, ?_⟩, ?_, by simp,
    ?_, ?_, by simp⟩
  · rw [y4]
    simp only [Tiles]
    exact ⟨trivial, trivial, fun _ => by decide, trivial, trivial, fun _ => by decide,
      trivial, trivial, fun h => absurd rfl h, trivial⟩
  · intro b hb
    simp only [List.mem_cons, List.mem_singleton, List.not_mem_nil, or_false] at hb
    rcases hb with rfl | rfl | rfl
    · show load m' (h0 + 8 - 4) = .ok (16 + 1)
      rw [T, if_neg (by omega), if_neg (by omega), if_neg (by omega), if_neg (by omega)]
      exact g2
    · show load m' (h0 + 24 - 4) = .ok (4096 + 0)
      rw [T, if_neg (by omega), if_neg (by omega), if_neg (by omega), if_neg (by omega)]
      exact g3
    · show load m' (h0 + 4120 - 4) = .ok (0 + 1)
      rw [T, if_neg (by omega), if_neg (by omega), if_neg (by omega), if_neg (by omega),
        show h0 + 4120 - 4 = h0 + 4116 by omega]
      exact g4
  · intro b hb hb0
    simp only [List.mem_cons, List.mem_singleton, List.not_mem_nil, or_false] at hb
    rcases hb with rfl | rfl | rfl
    · show load m' (h0 + 8 + 16 - 8) = .ok (16 + 1)
      rw [T, if_neg (by omega), if_neg (by omega), if_neg (by omega), if_neg (by omega),
        show h0 + 8 + 16 - 8 = h0 + 24 - 8 by omega]
      exact g1
    · show load m' (h0 + 24 + 4096 - 8) = .ok (4096 + 0)
      rw [T, if_neg (by omega), if_neg (by omega), if_neg (by omega), if_neg (by omega),
        L9, if_neg (by omega), if_pos (by omega)]
    · exact absurd rfl hb0
  · intro b hb hb0
    simp only [List.mem_cons, List.mem_singleton, List.not_mem_nil, or_false] at hb
    rcases hb with rfl | rfl | rfl
    · exact le_refl _
    · show 16 ≤ 4096
      decide
    · exact absurd rfl hb0
  · show Links m' (h0 + 8) (h0 + 24) ∧ Links m' (h0 + 24) (h0 + 8)
    unfold Links
    refine ⟨⟨?_, ?_⟩, ?_, ?_⟩
    · rw [T, if_pos (by omega)]
    · rw [T, if_neg (by omega), if_neg (by omega), if_pos rfl]
    · rw [T, if_neg (by omega), if_neg (by omega), if_neg (by omega), if_pos (by omega)]
    · rw [T, if_neg (by omega), if_pos rfl]
  · intro a ha
    rw [List.mem_singleton] at ha
    exact ⟨⟨h0 + 24, 4096, false⟩, by simp, ha.symm, rfl⟩
  · intro b hb hf
    simp only [List.mem_cons, List.mem_singleton, List.not_mem_nil, or_false] at hb
    rcases hb with rfl | rfl | rfl
    · cases hf
    · exact Or.inl (List.mem_singleton_self _)
    · cases hf

end Mm
/-! ## `mm.c`: the invariant of the runs and what the traversals see -/


namespace Mm

/-- Every state of a run whose request sizes do not wrap satisfies the invariant. -/
theorem mm_reach_inv {m0 : Mem} (h3 : m0.hi < W32) {s : State} {L : List Nat}
    (hr : Reach (fun n => n + 15 < W32) m0 s L) : Inv s L := by
  induction hr with
  | init hi =>
    obtain ⟨-, hW⟩ := mm_init_wf h3 hi
    exact ⟨_, _, hW, List.nodup_nil, fun p hp => by simp at hp⟩
  | malloc _ hn hm ih => exact mm_inv_malloc ih hn hm
  | free _ hp hf ih => exact mm_inv_free ih hp hf

/-- The scan of a tiled heap reads the blocks one after the other. -/
theorem mm_scan_tiles (m : Mem) (e : Nat) (he : e < W32) : ∀ (B : List Blk) (a : Nat),
    Tiles a B e → (∀ b ∈ B, load m (b.addr - 4) = .ok b.tag) →
    B.getLast? = some ⟨e, 0, true⟩ → 4 ≤ a →
    scan m B.length a = .ok (B.map fun b => (b.addr, b.size, b.alloc.toNat))
  | [], _, _, _, hl, _ => by simp at hl
  | b :: rest, a, hT, hh, hl, ha => by
    obtain ⟨rfl, h8, hne, hT'⟩ := hT
    have hle := tiles_le _ _ _ hT'
    have hhb := hh b (by simp)
    unfold Blk.tag at hhb
    simp only [List.length_cons, List.map_cons]
    unfold scan
    rw [mm_HDRP_eq ha (by omega), GET_SIZE_of hhb h8 mm_tag_lt, GET_ALLOC_of hhb h8 mm_tag_lt]
    simp only [ok_bind]
    by_cases h0 : b.size = 0
    · have hr : rest = [] := by
        by_contra hr
        have := hne hr
        omega
      subst hr
      rw [if_pos h0]
      simp [pure, Except.pure]
    · have hr : rest ≠ [] := by
        intro hr
        subst hr
        simp only [List.getLast?_singleton, Option.some.injEq] at hl
        rw [hl] at h0
        exact h0 rfl
      rw [if_neg h0, add32_eq (by omega)]
      rw [mm_scan_tiles m e he rest _ hT' (fun x hx => hh x (List.mem_cons_of_mem _ hx))
        (by
          rw [← hl]
          cases rest with
          | nil => exact absurd rfl hr
          | cons y ys => simp [List.getLast?_cons_cons]) (by omega)]
      rfl

/-- Following the successor links from the first node of a segment that ends at the
prologue meets the nodes of the segment. -/
theorem ringWalk_seg {m : Mem} {hl : Nat} (hlt : m.brk < W32) : ∀ (G : List Nat) (p : Nat),
    RSeg m p G hl → hl ∉ G → ∀ fuel, G.length < fuel →
    ringWalk m hl fuel (G.headD hl) = .ok G
  | [], _, _, _, fuel, hf => by
    cases fuel with
    | zero => simp at hf
    | succ k =>
      unfold ringWalk
      rw [List.headD_nil, if_pos rfl]
      rfl
  | a :: G, p, hr, hn, fuel, hf => by
    cases fuel with
    | zero => simp at hf
    | succ k =>
      have hne : a ≠ hl := fun e => hn (by simp [e])
      have hl1 := hr.2.first_link.1
      have hok := (load_ok_iff.mp hl1).1
      have e5 : SUCC_P m a = .ok (G.headD hl) := by
        unfold SUCC_P WSIZE
        rw [add32_eq (by have := hok.2.1; omega)]
        exact hl1
      simp only [List.headD_cons]
      unfold ringWalk
      rw [if_neg hne]
      simp only [e5, ok_bind]
      rw [ringWalk_seg hlt G a hr.2 (fun hc => hn (List.mem_cons_of_mem _ hc)) k
        (by simp only [List.length_cons] at hf; omega)]
      rfl

/-- Every node of a segment is linked with a successor. -/
theorem RSeg.link_of_mem {m : Mem} {n : Nat} : ∀ (G : List Nat) (p : Nat), RSeg m p G n →
    ∀ x ∈ p :: G, ∃ y, Links m x y
  | [], p, h, x, hx => by
    simp only [List.mem_singleton] at hx
    subst hx
    exact ⟨n, h⟩
  | a :: G, p, h, x, hx => by
    rcases List.mem_cons.mp hx with rfl | hx
    · exact ⟨a, h.1⟩
    · exact RSeg.link_of_mem G a h.2 x hx

/-- What a well-formed heap shows to the two traversals: the ring holds exactly the free
blocks of the scan, each once, the links are mutual, and `find_fit` returns. -/
theorem WF.observe {s : State} {B : List Blk} {F : List Nat} (h : WF s B F) :
    ∃ bl, ring (F.length + 1) s = .ok F ∧ F.Nodup ∧
      scan s.mem bl.length s.heap_listp = .ok bl ∧
      (∀ a, a ∈ F ↔ ∃ sz, (a, sz, 0) ∈ bl) ∧
      (∀ x ∈ s.heap_listp :: F,
        ∃ y, SUCC_P s.mem x = .ok y ∧ PRED_P s.mem y = .ok x) ∧
      ∀ asize fuel, F.length < fuel → ∃ r, find_fit fuel s asize = .ok r := by
  obtain ⟨m, hl⟩ := s
  have hP : Part m hl B F [] := h
  have hL := hP.layout
  have bp := hL.mm_bounds hL.prologue
  simp only at bp
  have e5 : SUCC_P m hl = .ok (F.headD hl) := by
    unfold SUCC_P WSIZE
    rw [add32_eq (by omega)]
    exact hP.ring.first_link.1
  refine ⟨B.map fun b => (b.addr, b.size, b.alloc.toNat), ?_, hP.nodup, ?_, ?_, ?_, ?_⟩
  · unfold ring
    simp only [e5, ok_bind]
    exact ringWalk_seg hL.mm_lt_brk F hl hP.ring hP.hl_not_mem _ (by omega)
  · rw [List.length_map]
    exact mm_scan_tiles m m.brk hL.mm_lt_brk B hl hL.tiles hL.hdr hL.last (by omega)
  · intro a
    constructor
    · intro ha
      obtain ⟨b, hb, e, hf⟩ := hP.nodes a ha
      refine ⟨b.size, List.mem_map.mpr ⟨b, hb, ?_⟩⟩
      rw [e, hf]
      rfl
    · rintro ⟨sz, hm⟩
      obtain ⟨b, hb, e⟩ := List.mem_map.mp hm
      simp only [Prod.mk.injEq] at e
      have hf : b.alloc = false := by
        cases hba : b.alloc
        · rfl
        · rw [hba] at e
          exact absurd e.2.2 (by decide)
      rcases hP.complete b hb hf with c | c
      · rw [← e.1]; exact c
      · simp at c
  · intro x hx
    obtain ⟨y, hy⟩ := RSeg.link_of_mem F hl hP.ring x hx
    obtain ⟨q1, -, -⟩ := hP.node_facts hx
    refine ⟨y, ?_, hy.2⟩
    unfold SUCC_P WSIZE
    rw [add32_eq (by have := q1.2.1; have := hL.mm_lt_brk; omega)]
    exact hy.1
  · intro asize fuel hf
    exact (mm_find_fit_spec hP asize fuel).1 hf

end Mm

/-! ## Forward runs of the helpers -/



namespace Mm

/-- When the requested size exceeds the block size, the test `cur_block_size > size` that
guards the in-place branch of `mm_realloc` fails: the call is the allocate-copy-release
path, whatever the next block is. -/
theorem mm_realloc_grow_eq (fuel : Nat) (s : State) {ptr size cur nx na : Nat}
    (h1 : GET_SIZE s.mem (HDRP ptr) = .ok cur) (h2 : NEXT_BLKP s.mem ptr = .ok nx)
    (h3 : GET_ALLOC s.mem (HDRP nx) = .ok na) (hlt : cur < size) :
    mm_realloc fuel s ptr size = reallocCopy fuel s ptr size := by
  unfold mm_realloc
  simp only [h1, h2, h3, ok_bind]
  rw [if_neg (by omega), if_neg (by omega)]

end Mm

namespace Implicit

/-- On a tiling whose headers hold the tags, the block sequence met by the scan is the list
of the payload addresses of the blocks. -/
theorem blockStarts_tiles (m : Mem) (e : Nat) (he : e < W32) : ∀ (B : List Blk) (a : Nat),
    Tiles a B e → (∀ b ∈ B, load m (b.addr - 4) = .ok b.tag) →
    B.getLast? = some ⟨e, 0, true⟩ → 4 ≤ a →
    blockStarts m B.length a = .ok (B.map fun b => b.addr)
  | [], _, _, _, hl, _ => by simp at hl
  | b :: rest, a, hT, hh, hl, ha => by
    obtain ⟨rfl, h8, hne, hT'⟩ := hT
    have hle := tiles_le _ _ _ hT'
    have hhb := hh b (by simp)
    rw [Blk.tag_eq] at hhb
    have tb := toNat_lt_two b.alloc
    simp only [List.length_cons, List.map_cons]
    unfold blockStarts
    rw [HDRP_eq ha (by omega), GET_SIZE_tag hhb h8 tb]
    simp only [bind, Except.bind]
    by_cases h0 : b.size = 0
    · have hr : rest = [] := by
        by_contra hr
        have := hne hr
        omega
      subst hr
      rw [if_pos h0]
      simp [pure, Except.pure]
    · have hr : rest ≠ [] := by
        intro hr
        subst hr
        simp only [List.getLast?_singleton, Option.some.injEq] at hl
        rw [hl] at h0
        exact h0 rfl
      rw [if_neg h0, add32_eq (by omega)]
      rw [blockStarts_tiles m e he rest _ hT' (fun x hx => hh x (List.mem_cons_of_mem _ hx))
        (by
          rw [← hl]
          cases rest with
          | nil => exact absurd rfl hr
          | cons y ys => simp [List.getLast?_cons_cons]) (by omega)]
      rfl

/-- The block sequence of a represented heap. -/
theorem blockStarts_rep {s : State} {B : List Blk} (h : Rep s B) :
    blockStarts s.mem B.length s.heap_listp = .ok (B.map fun b => b.addr) :=
  blockStarts_tiles s.mem s.mem.brk h.brk_lt B s.heap_listp h.tiles h.hdr h.last
    (by have := h.hl_ge; omega)

end Implicit

/-! ## Implicit variant: `coalesce` run forward -/



namespace Implicit

/-- The geometry of three consecutive blocks of a represented heap, the tag words around
the middle one, and the reads that open `coalesce`. -/
theorem Rep.merge_reads {s : State} {L R : List Blk} {p b n : Blk}
    (h : Rep s (L ++ p :: b :: n :: R)) :
    (8 ≤ p.addr ∧ p.size % 8 = 0 ∧ 8 ≤ p.size ∧ b.addr = p.addr + p.size ∧ b.size % 8 = 0 ∧
      8 ≤ b.size ∧ n.addr = b.addr + b.size ∧ n.size % 8 = 0 ∧ (R ≠ [] → 8 ≤ n.size) ∧
      n.addr + n.size ≤ s.mem.brk ∧ s.mem.brk < W32 ∧ s.mem.lo + 8 ≤ p.addr ∧
      p.addr % 4 = 0) ∧
    (load s.mem (p.addr - 4) = .ok (p.size + p.alloc.toNat) ∧
      load s.mem (b.addr - 8) = .ok (p.size + p.alloc.toNat) ∧
      load s.mem (b.addr - 4) = .ok (b.size + b.alloc.toNat) ∧
      load s.mem (n.addr - 8) = .ok (b.size + b.alloc.toNat) ∧
      load s.mem (n.addr - 4) = .ok (n.size + n.alloc.toNat) ∧
      (n.size ≠ 0 → load s.mem (n.addr + n.size - 8) = .ok (n.size + n.alloc.toNat))) ∧
    (PREV_BLKP s.mem b.addr = .ok p.addr ∧ FTRP s.mem p.addr = .ok (b.addr - 8) ∧
      GET_ALLOC s.mem (b.addr - 8) = .ok p.alloc.toNat ∧
      NEXT_BLKP s.mem b.addr = .ok n.addr ∧
      GET_ALLOC s.mem (HDRP n.addr) = .ok n.alloc.toNat ∧
      GET_SIZE s.mem (HDRP b.addr) = .ok b.size) := by
  obtain ⟨c0, hTL, hL8, hc8, hp1, hp2, hp3, hb1, hb2, hb3, hn1, hn2, hn3, hTR, hend, hlt⟩ :=
    h.three
  have hhp := h.hdr p (by simp)
  have hfp := h.ftr p (by simp) (by omega)
  have hhb := h.hdr b (by simp)
  have hfb := h.ftr b (by simp) (by omega)
  have hhn := h.hdr n (by simp)
  have hfn := h.ftr n (by simp)
  rw [Blk.tag_eq] at hhp hfp hhb hfb hhn hfn
  have tp := toNat_lt_two p.alloc
  have tb := toNat_lt_two b.alloc
  have tn := toNat_lt_two n.alloc
  have hl := h.hl_ge
  have hle := tiles_le _ _ _ hTL
  obtain ⟨k1, k2, k3⟩ := (load_ok_iff.mp hhp).1
  have e1 : b.addr - 8 = p.addr + p.size - 8 := by omega
  have e2 : n.addr - 8 = b.addr + b.size - 8 := by omega
  have hn4 : HDRP n.addr = n.addr - 4 := HDRP_eq (by omega) (by omega)
  have hb4 : HDRP b.addr = b.addr - 4 := HDRP_eq (by omega) (by omega)
  refine ⟨⟨by omega, hp2, hp3, by omega, hb2, hb3, by omega, hn2, hn3, by omega, hlt, by omega,
    by omega⟩, ⟨hhp, by rw [e1]; exact hfp, hhb, by rw [e2]; exact hfb, hhn, hfn⟩, ?_, ?_,
    ?_, ?_, ?_, ?_⟩
  · rw [show p.addr = b.addr - p.size by omega]
    exact PREV_BLKP_tag (by rw [e1]; exact hfp) hp2 tp (by omega) (by omega) (by omega)
  · rw [e1]
    exact FTRP_tag hhp hp2 tp (by omega) (by omega)
  · exact GET_ALLOC_tag (by rw [e1]; exact hfp) hp2 tp
  · rw [show n.addr = b.addr + b.size by omega]
    exact NEXT_BLKP_tag hhb hb2 tb (by omega) (by omega)
  · rw [hn4]
    exact GET_ALLOC_tag hhn hn2 tn
  · rw [hb4]
    exact GET_SIZE_tag hhb hb2 tb

/-- A free block is determined by its address and size. -/
theorem Blk.eq_free {b : Blk} (h : b.alloc = false) : (⟨b.addr, b.size, false⟩ : Blk) = b := by
  cases b
  simp only at h
  subst h
  rfl

/-- The end of the heap is not free: a free block is followed by another block. -/
theorem Rep.free_inner_right {s : State} {L : List Blk} {n : Blk} {R : List Blk}
    (h : Rep s (L ++ n :: R)) (hn : n.alloc = false) : R ≠ [] := (h.one.2.2.2.2.2.2.2.2 hn).2

/-- The start of the heap is not free: a free block is preceded by another block. -/
theorem Rep.free_inner_left {s : State} {L : List Blk} {p : Blk} {R : List Blk}
    (h : Rep s (L ++ p :: R)) (hp : p.alloc = false) : L ≠ [] := (h.one.2.2.2.2.2.2.2.2 hp).1

/-- `coalesce` when both neighbours are allocated: nothing is written and the rover moves
to the block. -/
theorem coalesce_aa {s : State} {L R : List Blk} {p b n : Blk}
    (h : Rep s (L ++ p :: b :: n :: R)) (hfree : b.alloc = false)
    (hpa : p.alloc = true) (hna : n.alloc = true) :
    coalesce s b.addr = .ok ({ s with next_fit_position := b.addr }, b.addr) ∧
      Rep { s with next_fit_position := b.addr } (L ++ p :: b :: n :: R) := by
  obtain ⟨-, -, r1, r2, r3, r4, r5, r6⟩ := h.merge_reads
  constructor
  · unfold coalesce
    simp only [r1, r2, r3, r4, r5, r6, ok_bind, pure_bind, bind_assoc, hpa, hna,
      Bool.toNat_true]
    rw [if_pos (by decide)]
    rfl
  · exact h.of_find rfl rfl ⟨b, by simp, rfl⟩

/-- `coalesce` when only the next block is free: the block absorbs it. -/
theorem coalesce_af {s : State} {L R : List Blk} {p b n : Blk}
    (h : Rep s (L ++ p :: b :: n :: R)) (hfree : b.alloc = false)
    (hpa : p.alloc = true) (hna : n.alloc = false) :
    ∃ s', coalesce s b.addr = .ok (s', b.addr) ∧ s'.next_fit_position = b.addr ∧
      s'.heap_listp = s.heap_listp ∧
      s'.mem.brk = s.mem.brk ∧ s'.mem.lo = s.mem.lo ∧ s'.mem.hi = s.mem.hi ∧
      Rep s' (L ++ [p] ++ [⟨b.addr, b.size + n.size, false⟩] ++ R) ∧
      ∀ q, load s'.mem q = if q = b.addr + (b.size + n.size) - 8 then .ok (b.size + n.size)
        else if q = b.addr - 4 then .ok (b.size + n.size) else load s.mem q := by
  obtain ⟨⟨g1, g2, g3, g4, g5, g6, g7, g8, g9, g10, g11, g12, g13⟩,
    ⟨l1, l2, l3, l4, l5, l6⟩, r1, r2, r3, r4, r5, r6⟩ := h.merge_reads
  have hRne : R ≠ [] :=
    Rep.free_inner_right (L := L ++ [p, b]) (by simpa using h) hna
  have n8 := g9 hRne
  obtain ⟨c0, hTL, hL8, -, hp1, -, -, -, -, -, -, -, -, hTR, -, -⟩ := h.three
  have hn4 : HDRP n.addr = n.addr - 4 := HDRP_eq (by omega) (by omega)
  have hb4 : HDRP b.addr = b.addr - 4 := HDRP_eq (by omega) (by omega)
  have snz : GET_SIZE s.mem (n.addr - 4) = .ok n.size :=
    GET_SIZE_tag l5 g8 (toNat_lt_two _)
  have hsz : add32 b.size n.size = b.size + n.size := add32_eq (by omega)
  have hpk : PACK (b.size + n.size) 0 = b.size + n.size := Nat.or_zero _
  have hmod : (b.size + n.size) % W32 = b.size + n.size := Nat.mod_eq_of_lt (by omega)
  obtain ⟨m1, w1⟩ := Seg.store_total (b.size + n.size)
    (show s.mem.ok (b.addr - 4) from ⟨by omega, by omega, by omega⟩)
  have l2' : load m1 (b.addr - 4) = .ok (b.size + n.size + 0) := by
    rw [load_store w1, if_pos rfl, hmod]; rfl
  have f2 : FTRP m1 b.addr = .ok (b.addr + (b.size + n.size) - 8) :=
    FTRP_tag l2' (by omega) (by omega) (by omega) (by omega)
  obtain ⟨m2, w2⟩ := store_next w1 (show s.mem.lo ≤ b.addr + (b.size + n.size) - 8 ∧
    b.addr + (b.size + n.size) - 8 + 4 ≤ s.mem.brk ∧ (b.addr + (b.size + n.size) - 8) % 4 = 0
    from ⟨by omega, by omega, by omega⟩) (b.size + n.size)
  have k2 : m2.brk = s.mem.brk ∧ m2.lo = s.mem.lo ∧ m2.hi = s.mem.hi := by
    rw [store_brk w2, store_lo w2, store_hi w2, store_brk w1, store_lo w1, store_hi w1]
    exact ⟨rfl, rfl, rfl⟩
  have L2 : ∀ q, load m2 q = if q = b.addr + (b.size + n.size) - 8 then
      .ok (b.size + n.size) else if q = b.addr - 4 then .ok (b.size + n.size)
      else load s.mem q := by
    intro q
    rw [load_store w2, load_store w1, hmod]
  refine ⟨⟨m2, s.heap_listp, b.addr⟩, ?_, rfl, rfl, k2.1, k2.2.1, k2.2.2, ?_, L2⟩
  · unfold coalesce
    simp only [r1, r2, r3, r4, r5, r6, ok_bind, pure_bind, bind_assoc, hpa, hna,
      Bool.toNat_true, Bool.toNat_false]
    rw [if_neg (by decide), if_pos (by decide)]
    simp only [hn4, snz, hb4, hsz, hpk, PUT, w1, f2, w2, ok_bind, pure_bind, bind_assoc]
    rfl
  · have hB1 : L ++ p :: b :: n :: R = (L ++ [p]) ++ [b, n] ++ R := by simp
    rw [hB1] at h
    have hTLp : Tiles s.heap_listp (L ++ [p]) b.addr := by
      rw [tiles_append L [p] _ _ (by simp)]
      exact ⟨c0, hTL, by simp [Tiles]; omega, hL8⟩
    refine @Rep.replace s ⟨m2, s.heap_listp, b.addr⟩ _ _ _ _ (b.addr)
      (n.addr + n.size) h (by simp) hRne hTLp
      (by rw [show n.addr + n.size = c0 + p.size + b.size + n.size by omega]; exact hTR)
      (by simp [Tiles]; omega) (by simp; omega) ⟨k2.1, k2.2.1, k2.2.2, rfl⟩ ?_ ?_
      ⟨⟨b.addr, b.size + n.size, false⟩, by simp, rfl⟩
    · intro q hq
      show load m2 q = _
      rw [L2, if_neg (by omega), if_neg (by omega)]
    · intro x hx
      simp only [List.mem_singleton] at hx
      subst hx
      simp only [Blk.tag_eq, Bool.toNat_false, Nat.add_zero]
      constructor
      · show load m2 _ = _
        rw [L2, if_neg (by omega), if_pos rfl]
      · show load m2 _ = _
        rw [L2, if_pos rfl]

/-- `coalesce` when only the previous block is free: the previous block absorbs the
block. -/
theorem coalesce_fa {s : State} {L R : List Blk} {p b n : Blk}
    (h : Rep s (L ++ p :: b :: n :: R)) (hfree : b.alloc = false)
    (hpa : p.alloc = false) (hna : n.alloc = true) :
    ∃ s', coalesce s b.addr = .ok (s', p.addr) ∧ s'.next_fit_position = p.addr ∧
      s'.heap_listp = s.heap_listp ∧
      s'.mem.brk = s.mem.brk ∧ s'.mem.lo = s.mem.lo ∧ s'.mem.hi = s.mem.hi ∧
      Rep s' (L ++ [⟨p.addr, p.size + b.size, false⟩] ++ n :: R) ∧
      ∀ q, load s'.mem q = if q = p.addr - 4 then .ok (p.size + b.size)
        else if q = p.addr + (p.size + b.size) - 8 then .ok (p.size + b.size)
        else load s.mem q := by
  obtain ⟨⟨g1, g2, g3, g4, g5, g6, g7, g8, g9, g10, g11, g12, g13⟩,
    ⟨l1, l2, l3, l4, l5, l6⟩, r1, r2, r3, r4, r5, r6⟩ := h.merge_reads
  have hLne : L ≠ [] := Rep.free_inner_left h hpa
  obtain ⟨c0, hTL, hL8, -, hp1, -, -, -, -, -, -, -, -, hTR, -, -⟩ := h.three
  have hp4 : HDRP p.addr = p.addr - 4 := HDRP_eq (by omega) (by omega)
  have spz : GET_SIZE s.mem (p.addr - 4) = .ok p.size :=
    GET_SIZE_tag l1 g2 (toNat_lt_two _)
  have fb : FTRP s.mem b.addr = .ok (b.addr + b.size - 8) :=
    FTRP_tag l3 g5 (toNat_lt_two _) (by omega) (by omega)
  have hsz : add32 b.size p.size = p.size + b.size := by
    rw [add32_eq (by omega)]; omega
  have hpk : PACK (p.size + b.size) 0 = p.size + b.size := Nat.or_zero _
  have hmod : (p.size + b.size) % W32 = p.size + b.size := Nat.mod_eq_of_lt (by omega)
  obtain ⟨m1, w1⟩ := Seg.store_total (p.size + b.size)
    (show s.mem.ok (b.addr + b.size - 8) from ⟨by omega, by omega, by omega⟩)
  have pv1 : PREV_BLKP m1 b.addr = .ok p.addr := by
    rw [show p.addr = b.addr - p.size by omega]
    exact PREV_BLKP_tag (a := p.alloc.toNat)
      (by rw [load_store w1, if_neg (by omega)]; exact l2) g2 (toNat_lt_two _) (by omega)
      (by omega) (by omega)
  obtain ⟨m2, w2⟩ := store_next w1 (show s.mem.lo ≤ p.addr - 4 ∧
    p.addr - 4 + 4 ≤ s.mem.brk ∧ (p.addr - 4) % 4 = 0
    from ⟨by omega, by omega, by omega⟩) (p.size + b.size)
  have k2 : m2.brk = s.mem.brk ∧ m2.lo = s.mem.lo ∧ m2.hi = s.mem.hi := by
    rw [store_brk w2, store_lo w2, store_hi w2, store_brk w1, store_lo w1, store_hi w1]
    exact ⟨rfl, rfl, rfl⟩
  have L2 : ∀ q, load m2 q = if q = p.addr - 4 then .ok (p.size + b.size)
      else if q = p.addr + (p.size + b.size) - 8 then .ok (p.size + b.size)
      else load s.mem q := by
    intro q
    rw [load_store w2, load_store w1, hmod,
      show b.addr + b.size - 8 = p.addr + (p.size + b.size) - 8 by omega]
  have pv2 : PREV_BLKP m2 b.addr = .ok p.addr := by
    rw [show p.addr = b.addr - p.size by omega]
    exact PREV_BLKP_tag (a := p.alloc.toNat)
      (by rw [L2, if_neg (by omega), if_neg (by omega)]; exact l2) g2 (toNat_lt_two _)
      (by omega) (by omega) (by omega)
  refine ⟨⟨m2, s.heap_listp, p.addr⟩, ?_, rfl, rfl, k2.1, k2.2.1, k2.2.2, ?_, L2⟩
  · unfold coalesce
    simp only [r1, r2, r3, r4, r5, r6, ok_bind, pure_bind, bind_assoc, hpa, hna,
      Bool.toNat_true, Bool.toNat_false]
    rw [if_neg (by decide), if_neg (by decide), if_pos (by decide)]
    simp only [hp4, spz, fb, hsz, hpk, PUT, w1, pv1, w2, pv2, ok_bind, pure_bind, bind_assoc]
    rfl
  · have hB1 : L ++ p :: b :: n :: R = L ++ [p, b] ++ n :: R := by simp
    rw [hB1] at h
    refine @Rep.replace s ⟨m2, s.heap_listp, p.addr⟩ _ _ _ _ (p.addr)
      (n.addr) h hLne (by simp) (by rw [← hp1] at hTL; exact hTL)
      (by
        simp only [Tiles]
        exact ⟨trivial, g8, g9, by
          rw [show n.addr + n.size = c0 + p.size + b.size + n.size by omega]; exact hTR⟩)
      (by simp [Tiles]; omega) (by simp; omega) ⟨k2.1, k2.2.1, k2.2.2, rfl⟩ ?_ ?_
      ⟨⟨p.addr, p.size + b.size, false⟩, by simp, rfl⟩
    · intro q hq
      show load m2 q = _
      rw [L2, if_neg (by omega), if_neg (by omega)]
    · intro x hx
      simp only [List.mem_singleton] at hx
      subst hx
      simp only [Blk.tag_eq, Bool.toNat_false, Nat.add_zero]
      constructor
      · show load m2 _ = _
        rw [L2, if_pos rfl]
      · show load m2 _ = _
        rw [L2, if_neg (by omega), if_pos rfl]

/-- `coalesce` when both neighbours are free: the previous block absorbs the block and the
next one. -/
theorem coalesce_f_f {s : State} {L R : List Blk} {p b n : Blk}
    (h : Rep s (L ++ p :: b :: n :: R)) (hfree : b.alloc = false)
    (hpa : p.alloc = false) (hna : n.alloc = false) :
    ∃ s', coalesce s b.addr = .ok (s', p.addr) ∧ s'.next_fit_position = p.addr ∧
      s'.heap_listp = s.heap_listp ∧
      s'.mem.brk = s.mem.brk ∧ s'.mem.lo = s.mem.lo ∧ s'.mem.hi = s.mem.hi ∧
      Rep s' (L ++ [⟨p.addr, p.size + b.size + n.size, false⟩] ++ R) ∧
      ∀ q, load s'.mem q = if q = p.addr + (p.size + b.size + n.size) - 8 then
          .ok (p.size + b.size + n.size)
        else if q = p.addr - 4 then .ok (p.size + b.size + n.size)
        else load s.mem q := by
  obtain ⟨⟨g1, g2, g3, g4, g5, g6, g7, g8, g9, g10, g11, g12, g13⟩,
    ⟨l1, l2, l3, l4, l5, l6⟩, r1, r2, r3, r4, r5, r6⟩ := h.merge_reads
  have hLne : L ≠ [] := Rep.free_inner_left h hpa
  have hRne : R ≠ [] :=
    Rep.free_inner_right (L := L ++ [p, b]) (by simpa using h) hna
  have n8 := g9 hRne
  have l6' := l6 (by omega)
  obtain ⟨c0, hTL, hL8, -, hp1, -, -, -, -, -, -, -, -, hTR, -, -⟩ := h.three
  have hp4 : HDRP p.addr = p.addr - 4 := HDRP_eq (by omega) (by omega)
  have spz : GET_SIZE s.mem (p.addr - 4) = .ok p.size :=
    GET_SIZE_tag l1 g2 (toNat_lt_two _)
  have fn : FTRP s.mem n.addr = .ok (n.addr + n.size - 8) :=
    FTRP_tag l5 g8 (toNat_lt_two _) (by omega) (by omega)
  have snz : GET_SIZE s.mem (n.addr + n.size - 8) = .ok n.size :=
    GET_SIZE_tag l6' g8 (toNat_lt_two _)
  have hsz : add32 b.size (add32 p.size n.size) = p.size + b.size + n.size := by
    rw [add32_eq (show p.size + n.size < W32 by omega), add32_eq (by omega)]; omega
  have hpk : PACK (p.size + b.size + n.size) 0 = p.size + b.size + n.size := Nat.or_zero _
  have hmod : (p.size + b.size + n.size) % W32 = p.size + b.size + n.size :=
    Nat.mod_eq_of_lt (by omega)
  obtain ⟨m1, w1⟩ := Seg.store_total (p.size + b.size + n.size)
    (show s.mem.ok (p.addr - 4) from ⟨by omega, by omega, by omega⟩)
  have nx1 : NEXT_BLKP m1 b.addr = .ok n.addr := by
    rw [show n.addr = b.addr + b.size by omega]
    exact NEXT_BLKP_tag (a := b.alloc.toNat)
      (by rw [load_store w1, if_neg (by omega)]; exact l3) g5 (toNat_lt_two _) (by omega)
      (by omega)
  have fn1 : FTRP m1 n.addr = .ok (n.addr + n.size - 8) :=
    FTRP_tag (a := n.alloc.toNat) (by rw [load_store w1, if_neg (by omega)]; exact l5) g8
      (toNat_lt_two _) (by omega) (by omega)
  obtain ⟨m2, w2⟩ := store_next w1 (show s.mem.lo ≤ n.addr + n.size - 8 ∧
    n.addr + n.size - 8 + 4 ≤ s.mem.brk ∧ (n.addr + n.size - 8) % 4 = 0
    from ⟨by omega, by omega, by omega⟩) (p.size + b.size + n.size)
  have k2 : m2.brk = s.mem.brk ∧ m2.lo = s.mem.lo ∧ m2.hi = s.mem.hi := by
    rw [store_brk w2, store_lo w2, store_hi w2, store_brk w1, store_lo w1, store_hi w1]
    exact ⟨rfl, rfl, rfl⟩
  have L2 : ∀ q, load m2 q = if q = p.addr + (p.size + b.size + n.size) - 8 then
        .ok (p.size + b.size + n.size)
      else if q = p.addr - 4 then .ok (p.size + b.size + n.size)
      else load s.mem q := by
    intro q
    rw [load_store w2, load_store w1, hmod,
      show n.addr + n.size - 8 = p.addr + (p.size + b.size + n.size) - 8 by omega]
  have pv2 : PREV_BLKP m2 b.addr = .ok p.addr := by
    rw [show p.addr = b.addr - p.size by omega]
    exact PREV_BLKP_tag (a := p.alloc.toNat)
      (by rw [L2, if_neg (by omega), if_neg (by omega)]; exact l2) g2 (toNat_lt_two _)
      (by omega) (by omega) (by omega)
  refine ⟨⟨m2, s.heap_listp, p.addr⟩, ?_, rfl, rfl, k2.1, k2.2.1, k2.2.2, ?_, L2⟩
  · unfold coalesce
    simp only [r1, r2, r3, r4, r5, r6, ok_bind, pure_bind, bind_assoc, hpa, hna,
      Bool.toNat_true, Bool.toNat_false]
    rw [if_neg (by decide), if_neg (by decide), if_neg (by decide)]
    simp only [hp4, spz, fn, snz, hsz, hpk, PUT, w1, nx1, fn1, w2, pv2, ok_bind, pure_bind,
      bind_assoc]
    rfl
  · have hB1 : L ++ p :: b :: n :: R = L ++ [p, b, n] ++ R := by simp
    rw [hB1] at h
    refine @Rep.replace s ⟨m2, s.heap_listp, p.addr⟩ _ _ _ _ (p.addr)
      (n.addr + n.size) h hLne hRne (by rw [← hp1] at hTL; exact hTL)
      (by rw [show n.addr + n.size = c0 + p.size + b.size + n.size by omega]; exact hTR)
      (by simp [Tiles]; omega) (by simp; omega) ⟨k2.1, k2.2.1, k2.2.2, rfl⟩ ?_ ?_
      ⟨⟨p.addr, p.size + b.size + n.size, false⟩, by simp, rfl⟩
    · intro q hq
      show load m2 q = _
      rw [L2, if_neg (by omega), if_neg (by omega)]
    · intro x hx
      simp only [List.mem_singleton] at hx
      subst hx
      simp only [Blk.tag_eq, Bool.toNat_false, Nat.add_zero]
      constructor
      · show load m2 _ = _
        rw [L2, if_neg (by omega), if_pos rfl]
      · show load m2 _ = _
        rw [L2, if_pos rfl]

end Implicit

/-! ## Implicit variant: `extend_heap` run forward -/



namespace Implicit

/-- The byte count of `extend_heap` is the number of words rounded up to an even number,
times 4, in 32-bit arithmetic; it is a multiple of 8. -/
theorem extendSize_facts (words : Nat) :
    extendSize words = (4 * (words + words % 2)) % W32 ∧ extendSize words % 8 = 0 ∧
      extendSize words < W32 := by
  have hW : W32 = 4294967296 := rfl
  unfold extendSize mul32 add32 WSIZE
  by_cases h : words % 2 ≠ 0
  · rw [if_pos h]
    have e : words % 2 = 1 := by omega
    rw [e, hW]
    refine ⟨?_, ?_, ?_⟩ <;> omega
  · rw [if_neg h]
    have e : words % 2 = 0 := by omega
    rw [e, hW]
    refine ⟨?_, ?_, ?_⟩ <;> omega

/-- `extend_heap` when the facade refuses: `NULL` is returned and the state is left as it
was. -/
theorem extend_heap_refused {s : State} {words : Nat}
    (h : mem_sbrk s.mem (extendSize words) = none) : extend_heap s words = .ok (s, 0) := by
  unfold extend_heap
  simp only
  have h' : mem_sbrk s.mem
      (if words % 2 ≠ 0 then mul32 (add32 words 1) WSIZE else mul32 words WSIZE) = none := h
  rw [h']
  rfl

/-- `extend_heap` when the facade grants a non-zero byte count `sz`, run forward: the new
free block is built over the old epilogue and merged with the last block `p` when `p` is
free. -/
theorem extend_heap_run {s : State} {L : List Blk} {p : Blk} {words : Nat}
    (h : Rep s (L ++ [p, ⟨s.mem.brk, 0, true⟩])) (h0 : extendSize words ≠ 0)
    (hs : mem_sbrk s.mem (extendSize words) ≠ none) :
    ∃ s', extend_heap s words = .ok (s', if p.alloc then s.mem.brk else p.addr) ∧
      s'.next_fit_position = (if p.alloc then s.mem.brk else p.addr) ∧
      s'.heap_listp = s.heap_listp ∧ s'.mem.lo = s.mem.lo ∧ s'.mem.hi = s.mem.hi ∧
      s'.mem.brk = s.mem.brk + extendSize words ∧
      Rep s' (L ++ (if p.alloc then [p, ⟨s.mem.brk, extendSize words, false⟩]
        else [⟨p.addr, p.size + extendSize words, false⟩]) ++
          [⟨s.mem.brk + extendSize words, 0, true⟩]) ∧
      load s'.mem (s.mem.brk - 4) = .ok (extendSize words) ∧
      load s'.mem (s.mem.brk + extendSize words - 4) = .ok 1 ∧
      ∀ q, q + 8 ≤ s.mem.brk → q ≠ p.addr - 4 → load s'.mem q = load s.mem q := by
  have hW : W32 = 4294967296 := rfl
  obtain ⟨-, z8, zlt⟩ := extendSize_facts words
  generalize hz : extendSize words = sz at *
  have hsb : mem_sbrk s.mem sz = some (s.mem.brk, { s.mem with brk := s.mem.brk + sz }) ∧
      s.mem.brk + sz ≤ s.mem.hi := by
    cases hv : mem_sbrk s.mem sz with
    | none => exact absurd hv hs
    | some v =>
      obtain ⟨bp, m⟩ := v
      obtain ⟨e1, e2, e3⟩ := mem_sbrk_ok hv
      rw [Nat.mod_eq_of_lt zlt] at e2 e3
      rw [e1, e2]
      exact ⟨rfl, e3⟩
  obtain ⟨hsb, hhi⟩ := hsb
  have hB : L ++ [p, ⟨s.mem.brk, 0, true⟩] = L ++ p :: [⟨s.mem.brk, 0, true⟩] := rfl
  have hp := (hB ▸ h).one
  obtain ⟨-, -, pa8, ps8, pz8, hTe, -, hlt, -⟩ := hp
  have hea : s.mem.brk = p.addr + p.size := by
    have := hTe.1
    simpa using this
  have hl := h.hl_ge
  have hh3 := h.hi_lt
  have hpz := pz8 (by simp)
  obtain ⟨k1, k2, k3⟩ := (load_ok_iff.mp (h.hdr p (by simp))).1
  have eH : HDRP s.mem.brk = s.mem.brk - 4 := HDRP_eq (by omega) (by omega)
  have eH2 : HDRP (s.mem.brk + sz) = s.mem.brk + sz - 4 := HDRP_eq (by omega) (by omega)
  have eP : PACK sz 0 = sz := Nat.or_zero _
  have eP1 : PACK 0 1 = 1 := by decide
  have hmod : sz % W32 = sz := Nat.mod_eq_of_lt zlt
  obtain ⟨m1, w1⟩ := Seg.store_total sz
    (show ({ s.mem with brk := s.mem.brk + sz } : Mem).ok (s.mem.brk - 4) from
      ⟨by show s.mem.lo ≤ _; omega, by show _ ≤ s.mem.brk + sz; omega, by omega⟩)
  have l1 : load m1 (s.mem.brk - 4) = .ok (sz + 0) := by
    rw [load_store w1, if_pos rfl, hmod]; rfl
  have f1 : FTRP m1 s.mem.brk = .ok (s.mem.brk + sz - 8) :=
    FTRP_tag l1 z8 (by omega) (by omega) (by omega)
  obtain ⟨m2, w2⟩ := store_next w1
    (show ({ s.mem with brk := s.mem.brk + sz } : Mem).lo ≤ s.mem.brk + sz - 8 ∧
      s.mem.brk + sz - 8 + 4 ≤ ({ s.mem with brk := s.mem.brk + sz } : Mem).brk ∧
      (s.mem.brk + sz - 8) % 4 = 0 from
      ⟨by show s.mem.lo ≤ _; omega, by show _ ≤ s.mem.brk + sz; omega, by omega⟩) sz
  have l2 : load m2 (s.mem.brk - 4) = .ok (sz + 0) := by
    rw [load_store w2, if_neg (by omega)]; exact l1
  have n2 : NEXT_BLKP m2 s.mem.brk = .ok (s.mem.brk + sz) :=
    NEXT_BLKP_tag l2 z8 (by omega) (by omega) (by omega)
  have o3 : m2.ok (s.mem.brk + sz - 4) := by
    show m2.lo ≤ _ ∧ _ ≤ m2.brk ∧ _
    rw [store_lo w2, store_brk w2, store_lo w1, store_brk w1]
    exact ⟨by show s.mem.lo ≤ _; omega, by show _ ≤ s.mem.brk + sz; omega, by omega⟩
  obtain ⟨m3, w3⟩ := Seg.store_total 1 o3
  have hrep := extend_rep h z8 (by omega) rfl hhi w1 w2 w3
  have l3 : ∀ q, load m3 q = if q = s.mem.brk + sz - 4 then .ok 1
      else if q = s.mem.brk + sz - 8 then .ok sz
      else if q = s.mem.brk - 4 then .ok sz
      else load ({ s.mem with brk := s.mem.brk + sz } : Mem) q := by
    intro q
    rw [load_store w3, load_store w2, load_store w1, hmod]
    rfl
  have k3' : m3.brk = s.mem.brk + sz ∧ m3.lo = s.mem.lo ∧ m3.hi = s.mem.hi := by
    rw [store_brk w3, store_lo w3, store_hi w3, store_brk w2, store_lo w2, store_hi w2,
      store_brk w1, store_lo w1, store_hi w1]
    exact ⟨rfl, rfl, rfl⟩
  have hcall : extend_heap s words
      = coalesce { s with mem := m3 } s.mem.brk := by
    unfold extend_heap
    simp only
    have hz' : (if words % 2 ≠ 0 then mul32 (add32 words 1) WSIZE else mul32 words WSIZE)
        = sz := hz
    rw [hz', hsb]
    simp only [eH, eP, PUT, w1, f1, w2, n2, eH2, eP1, w3, ok_bind, pure_bind, bind_assoc]
  have hB3 : L ++ [p, ⟨s.mem.brk, sz, false⟩, ⟨s.mem.brk + sz, 0, true⟩] =
      L ++ p :: ⟨s.mem.brk, sz, false⟩ :: ⟨s.mem.brk + sz, 0, true⟩ :: [] := rfl
  rw [hB3] at hrep
  rw [hcall]
  have fr0 : ∀ q, q + 8 ≤ s.mem.brk → load m3 q = load s.mem q := by
    intro q hq
    rw [l3, if_neg (by omega), if_neg (by omega), if_neg (by omega)]
    exact load_grow (by omega) (by omega)
  cases hpa : p.alloc
  · simp only [Bool.false_eq_true, if_false]
    obtain ⟨s', r1, r2, r3, r4, r5, r6, r7, r8⟩ :=
      coalesce_fa (b := ⟨s.mem.brk, sz, false⟩) hrep rfl hpa rfl
    refine ⟨s', r1, r2, r3, by rw [r5]; exact k3'.2.1, by rw [r6]; exact k3'.2.2,
      by rw [r4]; exact k3'.1, by simpa using r7, ?_, ?_, fun q q1 q2 => ?_⟩
    · rw [r8, if_neg (by omega), if_neg (by show s.mem.brk - 4 ≠ p.addr + (p.size + sz) - 8; omega)]
      show load m3 _ = _
      rw [l3, if_neg (by omega), if_neg (by omega), if_pos rfl]
    · rw [r8, if_neg (by omega), if_neg (by show s.mem.brk + sz - 4 ≠ p.addr + (p.size + sz) - 8; omega)]
      show load m3 _ = _
      rw [l3, if_pos rfl]
    · rw [r8, if_neg q2, if_neg (by show q ≠ p.addr + (p.size + sz) - 8; omega)]
      exact fr0 q q1
  · simp only [if_true]
    obtain ⟨r1, r7⟩ := coalesce_aa (b := ⟨s.mem.brk, sz, false⟩) hrep rfl hpa rfl
    refine ⟨_, r1, rfl, rfl, k3'.2.1, k3'.2.2, k3'.1, by simpa using r7, ?_, ?_,
      fun q q1 _ => fr0 q q1⟩
    · show load m3 _ = _
      rw [l3, if_neg (by omega), if_neg (by omega), if_pos rfl]
    · show load m3 _ = _
      rw [l3, if_pos rfl]

end Implicit

/-! ## Implicit variant: the exact result of `find_fit` -/



namespace Implicit

/-- With fuel for every block from the start block on, the loop of `find_fit` returns the
first block in heap order, from the start block to the epilogue, that is free and has at
least `asize` bytes, and moves the rover there; when there is none it returns `NULL` and
resets the rover to `heap_listp`. -/
theorem findLoop_exact {s : State} {asize : Nat} : ∀ (R L : List Blk) (fuel : Nat),
    Rep s (L ++ R) → R ≠ [] → R.length ≤ fuel →
    findLoop s asize fuel (R.head?.getD ⟨0, 0, true⟩).addr = .ok
      (match R.find? (fun b => decide (b.alloc = false ∧ asize ≤ b.size)) with
        | some b => ({ s with next_fit_position := b.addr }, b.addr)
        | none => ({ s with next_fit_position := s.heap_listp }, 0))
  | [], _, _, _, hne, _ => absurd rfl hne
  | b :: R', L, fuel, h, _, hf => by
    obtain ⟨hT, hL8, ha8, hs8, hR8, hTR, hle, hlt, _⟩ := h.one
    have hh := h.hdr b (by simp)
    rw [Blk.tag_eq] at hh
    have tb := toNat_lt_two b.alloc
    obtain ⟨n, rfl⟩ : ∃ n, fuel = n + 1 := ⟨fuel - 1, by simp at hf; omega⟩
    show findLoop s asize (n + 1) b.addr = _
    unfold findLoop
    rw [HDRP_eq (by omega) (by omega)]
    simp only [GET_SIZE_tag hh hs8 tb, GET_ALLOC_tag hh hs8 tb, ok_bind]
    by_cases h0 : b.size > 0
    · rw [if_pos h0]
      by_cases hfit : b.alloc.toNat = 0 ∧ asize ≤ b.size
      · rw [if_pos hfit]
        have hp : decide (b.alloc = false ∧ asize ≤ b.size) = true := by
          rw [decide_eq_true_eq]
          refine ⟨?_, hfit.2⟩
          cases hb : b.alloc
          · rfl
          · rw [hb] at hfit; simp at hfit
        simp only [List.find?_cons, hp]
        rfl
      · rw [if_neg hfit]
        have hp : decide (b.alloc = false ∧ asize ≤ b.size) = false := by
          rw [decide_eq_false_iff_not]
          rintro ⟨c1, c2⟩
          exact hfit ⟨by rw [c1]; rfl, c2⟩
        simp only [List.find?_cons, hp]
        have hne : R' ≠ [] := by
          intro hn
          subst hn
          have := h.last
          rw [List.getLast?_append, List.getLast?_singleton] at this
          simp at this
          rw [this] at h0
          simp at h0
        obtain ⟨c, R'', rfl⟩ := List.exists_cons_of_ne_nil hne
        have hc : c.addr = b.addr + b.size := hTR.1
        rw [NEXT_BLKP_tag hh hs8 tb (by omega) (by omega)]
        simp only [ok_bind]
        have h' : Rep s ((L ++ [b]) ++ c :: R'') := by simpa using h
        have := @findLoop_exact s asize (c :: R'') (L ++ [b]) n h' (by simp)
          (by simp at hf ⊢; omega)
        simp only [List.head?_cons, Option.getD_some] at this
        rw [hc] at this
        exact this
    · rw [if_neg h0]
      have hR : R' = [] := by
        by_contra hn
        have := hR8 hn
        omega
      subst hR
      have hb := h.last
      rw [List.getLast?_append, List.getLast?_singleton] at hb
      simp at hb
      have hp : decide (b.alloc = false ∧ asize ≤ b.size) = false := by
        rw [decide_eq_false_iff_not, hb]
        rintro ⟨c1, -⟩
        simp at c1
      simp only [List.find?_cons, hp, List.find?_nil]
      rfl

/-- The blocks of a tiling that follow a block lie at higher addresses. -/
theorem tiles_after {pre post : List Blk} {b : Blk} {a e : Nat}
    (hT : Tiles a (pre ++ b :: post) e) : ∀ c ∈ b :: post, b.addr ≤ c.addr := by
  rw [tiles_append pre _ _ _ (by simp)] at hT
  obtain ⟨x, -, hT2, -⟩ := hT
  intro c hc
  have h1 := (tiles_mem _ _ _ hT2 c hc).1
  have h2 : b.addr = x := hT2.1
  omega

/-- The block that `find?` returns in a tiling is the fitting block of lowest address. -/
theorem find_lowest {R : List Blk} {a e asize : Nat} {b : Blk} (hT : Tiles a R e)
    (hfind : R.find? (fun b => decide (b.alloc = false ∧ asize ≤ b.size)) = some b) :
    b ∈ R ∧ b.alloc = false ∧ asize ≤ b.size ∧
      ∀ c ∈ R, c.alloc = false → asize ≤ c.size → b.addr ≤ c.addr := by
  obtain ⟨hp, pre, post, rfl, hpre⟩ := List.find?_eq_some.mp hfind
  rw [decide_eq_true_eq] at hp
  refine ⟨by simp, hp.1, hp.2, fun c hc c1 c2 => ?_⟩
  rcases List.mem_append.mp hc with hc | hc
  · have := hpre c hc
    simp only [Bool.not_eq_true', decide_eq_false_iff_not] at this
    exact absurd ⟨c1, c2⟩ this
  · exact tiles_after hT c hc

end Implicit

/-! ## Segregated variant: `insert_node` at the head of a list, undone by `delete_node` -/



namespace Seg

/-- Two memories that hold the same doubly linked segment agree on the link words of its
nodes. -/
theorem DLLseg_links {m m' : Mem} : ∀ (ns : List Nat) (prev nxt : Nat),
    DLLseg m prev ns nxt → DLLseg m' prev ns nxt →
    ∀ a ∈ ns, load m' a = load m a ∧ load m' (a + 4) = load m (a + 4)
  | [], _, _, _, _ => by intro a ha; simp at ha
  | x :: rest, prev, nxt, h, h' => by
    obtain ⟨h1, h2, h3⟩ := h
    obtain ⟨g1, g2, g3⟩ := h'
    intro a ha
    rcases List.mem_cons.mp ha with rfl | ha
    · exact ⟨by rw [g2, h2], by rw [g1, h1]⟩
    · exact DLLseg_links rest _ _ h3 g3 a ha

/-- On a heap whose free blocks are all listed except `b`, `insert_node` of `b` followed by
`delete_node` of `b` returns and restores every list head and every word of the heap other
than the two link words of `b`. -/
theorem insert_delete_restore {s : State} {h0 : Nat} {B : List Blk} {F : Nat → List Nat}
    {b : Blk} (n : Nat) (P : Part s h0 B F [b.addr]) (hb : b ∈ B) (hbf : b.alloc = false) :
    ∃ s1 s2, insert_node (n + 1) s b.addr b.size = .ok s1 ∧ delete_node s1 b.addr = .ok s2 ∧
      (∀ k, k < 20 → s2.segregated_free_lists k = s.segregated_free_lists k) ∧
      (∀ q, q ≠ b.addr → q ≠ b.addr + 4 → load s2.mem q = load s.mem q) := by
  have hk := bucket_lt b.size
  have hL := P.layout
  have hF := P.lists
  have hnin : b.addr ∉ F (bucket b.size) :=
    fun hh => P.unlinked _ hk _ hh (List.mem_singleton.mpr rfl)
  obtain ⟨s1, hi⟩ := insert_node_total n hL hF hb hbf hnin
  obtain ⟨hL1, hF1, -, -, -, fr1⟩ := insert_node_spec hL hF hb hbf hnin hi
  have hin1 : b.addr ∈ Function.update F (bucket b.size) (b.addr :: F (bucket b.size))
      (bucket b.size) := by
    rw [Function.update_same]
    exact List.mem_cons_self _ _
  obtain ⟨s2, hd⟩ := delete_node_total hL1 hF1 hb hbf hin1
  obtain ⟨hL2, hF2, -, -, -, fr2⟩ := delete_node_spec hL1 hF1 hb hbf hin1 hd
  have eF : Function.update (Function.update F (bucket b.size) (b.addr :: F (bucket b.size)))
      (bucket b.size) ((Function.update F (bucket b.size) (b.addr :: F (bucket b.size))
        (bucket b.size)).erase b.addr) = F := by
    rw [Function.update_same, List.erase_cons_head, Function.update_idem,
      Function.update_eq_self]
  rw [eF] at hF2
  refine ⟨s1, s2, hi, hd, fun k hk' => ?_, fun q q1 q2 => ?_⟩
  · rw [hF2.heads k hk', hF.heads k hk']
  · by_cases hq : ∀ f ∈ B, f.alloc = false → q ≠ f.addr ∧ q ≠ f.addr + 4
    · rw [fr2 q hq, fr1 q hq]
    · push_neg at hq
      obtain ⟨f, hf, hff, hqf⟩ := hq
      have hne : f.addr ≠ b.addr := by
        intro e
        by_cases c : q = f.addr
        · exact q1 (by rw [c, e])
        · exact q2 (by rw [hqf c, e])
      have hfl : f.addr ∈ F (bucket f.size) := by
        rcases P.complete f hf hff with c | c
        · exact absurd (List.mem_singleton.mp c) hne
        · exact c
      have hkf := bucket_lt f.size
      obtain ⟨e1, e2⟩ := DLLseg_links _ _ _ (hF.dll _ hkf) (hF2.dll _ hkf) _ hfl
      by_cases c : q = f.addr
      · rw [c]; exact e1
      · rw [hqf c]; exact e2

end Seg


namespace Seg

/-- For sizes below 2^20 the bucket loop leaves at most 1 in `size`. -/
theorem bucketLoop_rest_le_one {size : Nat} (hs : size < 2 ^ 20) :
    (bucketLoop (LISTLIMIT - 1) 0 size).2 ≤ 1 := by
  obtain ⟨_, h2, h3, h4, _⟩ := bucketLoop_facts 19 0 size rfl
  show (bucketLoop 19 0 size).2 ≤ 1
  by_cases h19 : (bucketLoop 19 0 size).1 < 19
  · exact h4 h19
  · have e : (bucketLoop 19 0 size).1 = 19 := by omega
    rw [e] at h3
    simp only [Nat.sub_zero, Nat.shiftRight_eq_div_pow] at h3
    rw [h3]
    have : size / 2 ^ 19 < 2 := by
      rw [Nat.div_lt_iff_lt_mul (by norm_num)]
      omega
    omega

/-- What `insert_node` does to memory and to the list heads when the ordering loop stops at
the head of the list: the block is linked in front of the old head. -/
theorem insert_node_head {s : State} {ptr size : Nat} (fuel : Nat)
    (hsh : (bucketLoop (LISTLIMIT - 1) 0 size).2 ≤ 1)
    (o1 : s.mem.ok ptr) (o2 : s.mem.ok (ptr + 4)) (hlt : s.mem.brk < W32)
    (hhd : s.segregated_free_lists (bucket size) ≠ 0 →
      (∃ z, GET_SIZE s.mem (HDRP (s.segregated_free_lists (bucket size))) = .ok z ∧ 1 ≤ z) ∧
      s.mem.ok (s.segregated_free_lists (bucket size) + 4) ∧
      (ptr + 8 ≤ s.segregated_free_lists (bucket size) ∨
        s.segregated_free_lists (bucket size) + 8 ≤ ptr)) :
    ∃ s', insert_node (fuel + 1) s ptr size = .ok s' ∧
      s'.segregated_free_lists (bucket size) = ptr ∧
      (∀ k, k ≠ bucket size → s'.segregated_free_lists k = s.segregated_free_lists k) ∧
      PRED s'.mem ptr = .ok (s.segregated_free_lists (bucket size)) ∧
      SUCC s'.mem ptr = .ok 0 ∧
      (s.segregated_free_lists (bucket size) ≠ 0 →
        SUCC s'.mem (s.segregated_free_lists (bucket size)) = .ok ptr) ∧
      ∀ q, q ≠ ptr → q ≠ ptr + 4 → q ≠ s.segregated_free_lists (bucket size) + 4 →
        load s'.mem q = load s.mem q := by
  have hW : W32 = 4294967296 := rfl
  obtain ⟨p1, p2, p3⟩ := o2
  have hw : insertWalk s.mem (bucketLoop (LISTLIMIT - 1) 0 size).2 (fuel + 1)
      (s.segregated_free_lists (bucketLoop (LISTLIMIT - 1) 0 size).1) 0 =
      .ok (s.segregated_free_lists (bucket size), 0) := by
    refine insertWalk_stop fuel fun hne => ?_
    obtain ⟨⟨z, hz, hz1⟩, -, -⟩ := hhd hne
    exact ⟨z, hz, by omega⟩
  have eS : SUCC_PTR ptr = ptr + 4 := SUCC_PTR_eq (by omega)
  have o2 : s.mem.ok (ptr + 4) := ⟨p1, p2, p3⟩
  have hpm : ptr % W32 = ptr := Nat.mod_eq_of_lt (by omega)
  unfold insert_node
  simp only [hw, ok_bind]
  by_cases h0 : s.segregated_free_lists (bucket size) = 0
  · simp only [h0, ne_eq, not_true_eq_false, if_false]
    unfold SET_PTR PRED_PTR
    rw [eS]
    obtain ⟨m1, w1⟩ := store_total 0 o1
    obtain ⟨m2, w2⟩ := store_next w1 o2 0
    simp only [w1, ok_bind, w2]
    refine ⟨_, rfl, ?_, ?_, ?_, ?_, ?_, ?_⟩
    · exact if_pos rfl
    · intro k hk
      exact if_neg hk
    · show load m2 ptr = _
      rw [load_store w2, if_neg (by omega), load_store w1, if_pos rfl]
      rfl
    · show load m2 (SUCC_PTR ptr) = _
      rw [eS, load_store w2, if_pos rfl]
      rfl
    · intro hne
      exact hne.elim
    · intro q q1 q2 _
      show load m2 q = _
      rw [load_store w2, if_neg q2, load_store w1, if_neg q1]
  · obtain ⟨-, y2, hsep⟩ := hhd h0
    have y3 : s.segregated_free_lists (bucket size) + 4 + 4 ≤ s.mem.brk := y2.2.1
    have eS2 : SUCC_PTR (s.segregated_free_lists (bucket size)) =
        s.segregated_free_lists (bucket size) + 4 := SUCC_PTR_eq (by omega)
    have hhm : s.segregated_free_lists (bucket size) % W32 =
        s.segregated_free_lists (bucket size) := Nat.mod_eq_of_lt (by omega)
    simp only [ne_eq, h0, not_false_eq_true, if_true, not_true_eq_false, if_false]
    unfold SET_PTR PRED_PTR
    rw [eS, eS2]
    obtain ⟨m1, w1⟩ := store_total (s.segregated_free_lists (bucket size)) o1
    obtain ⟨m2, w2⟩ := store_next w1 y2 ptr
    have o2' : m1.ok (ptr + 4) := by
      show m1.lo ≤ _ ∧ _ ≤ m1.brk ∧ _
      rw [store_lo w1, store_brk w1]
      exact o2
    obtain ⟨m3, w3⟩ := store_next w2 o2' 0
    simp only [w1, ok_bind, w2, w3]
    refine ⟨_, rfl, ?_, ?_, ?_, ?_, ?_, ?_⟩
    · exact if_pos rfl
    · intro k hk
      exact if_neg hk
    · show load m3 ptr = _
      rw [load_store w3, if_neg (by omega), load_store w2, if_neg (by omega), load_store w1,
        if_pos rfl, hhm]
    · show load m3 (SUCC_PTR ptr) = _
      rw [eS, load_store w3, if_pos rfl]
      rfl
    · intro _
      show load m3 (SUCC_PTR (s.segregated_free_lists (bucket size))) = _
      rw [eS2, load_store w3, if_neg (by omega), load_store w2, if_pos rfl, hpm]
    · intro q q1 q2 q3
      show load m3 q = _
      rw [load_store w3, if_neg q2, load_store w2, if_neg q3, load_store w1, if_neg q1]

/-- The state `pairUnlinked` is a well-formed heap except for the block `c = 4152` of 24
bytes, which is free and in no list. -/
theorem pairUnlinked_part :
    ∃ B F b, Part pairUnlinked 4104 B F [b.addr] ∧ b ∈ B ∧ b.alloc = false ∧
      b.addr = 4152 ∧ b.size = 24 := by
  have hr : Reach (fun n => n + 15 < 2147483648) (zeroMem 4096 1000000) pairFreeC [4136] :=
    @Reach.free _ _ pairFreeA pairFreeC [4152, 4136] 8 4152
      (@Reach.free _ _ pairC.1 pairFreeA [4152, 4136, 4112] 8 4112
        (@Reach.malloc _ _ pairB.1 pairC.1 [4136, 4112] 8 16 4152
          (@Reach.malloc _ _ pairA.1 pairB.1 [4112] 8 1 4136
            (@Reach.malloc _ _ initState pairA.1 [] 8 16 4112
              (@Reach.init _ _ 8 initState (by rfl)) (by decide) (by rfl))
            (by decide) (by rfl))
          (by decide) (by rfl))
        (by decide) (by rfl))
      (by decide) (by rfl)
  obtain ⟨B, F, hW, -⟩ := seg_reach_inv (by decide) hr
  have hhd := hW.lists.heads 4 (by decide)
  have e4 : pairFreeC.segregated_free_lists 4 = 4152 := by rfl
  rw [e4] at hhd
  have hin : 4152 ∈ F 4 := by
    cases hf : F 4 with
    | nil => rw [hf] at hhd; simp at hhd
    | cons y ys =>
      rw [hf] at hhd
      simp only [List.headD_cons] at hhd
      rw [← hhd]
      exact List.mem_cons_self _ _
  obtain ⟨b, hb, hba, hbf, -⟩ := hW.lists.nodes 4 (by decide) _ hin
  have hs : b.size = 24 := by
    have h1 := hW.layout.get_size hb
    rw [hba] at h1
    have h2 : GET_SIZE pairFreeC.mem (HDRP 4152) = .ok 24 := by rfl
    rw [h1] at h2
    exact Except.ok.inj h2
  have hd : delete_node pairFreeC b.addr = .ok pairUnlinked := by rw [hba]; rfl
  obtain ⟨F', hP, -⟩ := Part.delete hW.part hb hbf (by simp) hd
  exact ⟨B, F', b, hP, hb, hbf, hba, hs⟩

end Seg

/-! ## Witness states -/



namespace Implicit

/-- The heap in the middle of `mm_free(b)` is represented by three free blocks in a row
between the prologue and the epilogue. -/
theorem coalState_rep :
    Rep coalState ([⟨4104, 8, true⟩] ++ ⟨4112, 24, false⟩ :: ⟨4136, 24, false⟩ ::
      ⟨4160, 4048, false⟩ :: [⟨8208, 0, true⟩]) := by
  refine ⟨by decide, by decide, by decide, by decide, rfl, rfl, ?_, ?_, ?_, ?_⟩
  · show Tiles 4104 _ 8208
    simp [Tiles]
  · intro b hb
    simp only [List.singleton_append, List.mem_cons, List.mem_singleton, List.not_mem_nil,
      or_false] at hb
    rcases hb with rfl | rfl | rfl | rfl | rfl <;> rfl
  · intro b hb h0
    simp only [List.singleton_append, List.mem_cons, List.mem_singleton, List.not_mem_nil,
      or_false] at hb
    rcases hb with rfl | rfl | rfl | rfl | rfl
    · rfl
    · rfl
    · rfl
    · rfl
    · exact absurd rfl h0
  · exact ⟨⟨4112, 24, false⟩, by simp, rfl⟩

end Implicit

/-! ## Segregated variant: `place` run forward -/



namespace Seg

/-- `PUT` returns on every word of the heap. -/
theorem PUT_total {m : Mem} {p : Nat} (v : Nat) (h : m.ok p) : ∃ m', PUT m p v = .ok m' := by
  unfold PUT GET_TAG GET
  rw [load_eq h]
  simp only [ok_bind, pure_bind, bind_assoc]
  exact store_total _ h

/-- Writing the header and the footer of the block at `x` with `PUT`, over a header whose
reallocation bit is clear, run forward. -/
theorem set_tags_fw {α : Type} {m : Mem} {x z a t0 a0 : Nat} {k : Mem → Except Err α}
    (hh : load m (x - 4) = .ok (t0 + a0)) (ht8 : t0 % 8 = 0) (ha0 : a0 < 2)
    (hz8 : z % 8 = 0) (ha : a < 2) (hx : 8 ≤ x) (hz : 8 ≤ z) (hle : x + z ≤ m.brk)
    (hlt : m.brk < W32)
    (hk : ∀ m2, load m2 (x - 4) = .ok (z + a) → GET_SIZE m2 (x + z - 8) = .ok z →
      m2.brk = m.brk → m2.lo = m.lo → m2.hi = m.hi →
      (∀ q, q ≠ x - 4 → q ≠ x + z - 8 → load m2 q = load m q) → ∃ res, k m2 = .ok res) :
    ∃ res, (do
      let m1 ← PUT m (HDRP x) (PACK z a)
      let f ← FTRP m1 x
      let m2 ← PUT m1 f (PACK z a)
      k m2) = .ok res := by
  have a1 : 4 ≤ x := by omega
  have a2 : x < W32 := by omega
  have a3 : z + a < W32 := by omega
  have a4 : x - 4 ≠ x + z - 8 := by omega
  obtain ⟨o1, o2, o3⟩ := (load_ok_iff.mp hh).1
  rw [seg_PACK_eq hz8 ha, seg_HDRP_eq a1 a2]
  obtain ⟨m1, hp1⟩ := PUT_total (z + a) (show m.ok (x - 4) from ⟨o1, o2, o3⟩)
  have hst1 := PUT_tag hh ht8 ha0 hp1
  have hh1 : load m1 (x - 4) = .ok (z + a) := by
    rw [load_store hst1, if_pos rfl, Nat.mod_eq_of_lt a3]
  have f1 := seg_FTRP_tag hh1 hz8 ha hx (by omega)
  obtain ⟨m2, hp2⟩ := PUT_total (z + a) (show m1.ok (x + z - 8) from by
    show m1.lo ≤ _ ∧ _ ≤ m1.brk ∧ _
    rw [store_lo hst1, store_brk hst1]
    exact ⟨by omega, by omega, by omega⟩)
  obtain ⟨hf2, hb2, hl2, hi2, fr2⟩ := PUT_size hz8 ha a3 hp2
  simp only [hp1, f1, hp2, ok_bind]
  refine hk m2 (by rw [fr2 _ a4]; exact hh1) hf2 (by rw [hb2, store_brk hst1])
    (by rw [hl2, store_lo hst1]) (by rw [hi2, store_hi hst1]) fun q h1 h2 => ?_
  rw [fr2 q h2, load_store hst1, if_neg h1]

/-- Writing the header and the footer of the block that follows the block at `x` with
`PUT_NOTAG`, run forward. -/
theorem set_tags_next_fw {α : Type} {m : Mem} {x z1 a1 z a : Nat} {k : Mem → Except Err α}
    (hh : load m (x - 4) = .ok (z1 + a1)) (hz18 : z1 % 8 = 0) (ha1 : a1 < 2)
    (hz1 : 8 ≤ z1) (hz8 : z % 8 = 0) (ha : a < 2) (hx : 8 ≤ x) (hz : 8 ≤ z)
    (hle : x + z1 + z ≤ m.brk) (hlt : m.brk < W32)
    (hk : ∀ m2, load m2 (x - 4) = .ok (z1 + a1) → load m2 (x + z1 - 4) = .ok (z + a) →
      GET_SIZE m2 (x + z1 + z - 8) = .ok z → m2.brk = m.brk → m2.lo = m.lo → m2.hi = m.hi →
      (∀ q, q ≠ x + z1 - 4 → q ≠ x + z1 + z - 8 → load m2 q = load m q) →
      ∃ res, k m2 = .ok res) :
    ∃ res, (do
      let next ← NEXT_BLKP m x
      let m1 ← PUT_NOTAG m (HDRP next) (PACK z a)
      let next ← NEXT_BLKP m1 x
      let f ← FTRP m1 next
      let m2 ← PUT_NOTAG m1 f (PACK z a)
      k m2) = .ok res := by
  have b1 : 4 ≤ x := by omega
  have b2 : x + z1 < W32 := by omega
  have b3 : z + a < W32 := by omega
  have b4 : 4 ≤ x + z1 := by omega
  have b5 : x - 4 ≠ x + z1 - 4 := by omega
  have b6 : 8 ≤ x + z1 := by omega
  have b7 : x - 4 ≠ x + z1 + z - 8 := by omega
  have b8 : x + z1 - 4 ≠ x + z1 + z - 8 := by omega
  obtain ⟨o1, o2, o3⟩ := (load_ok_iff.mp hh).1
  rw [seg_NEXT_BLKP_tag hh hz18 ha1 b1 b2, ok_bind, seg_PACK_eq hz8 ha, seg_HDRP_eq b4 b2]
  unfold PUT_NOTAG
  obtain ⟨m1, hst1⟩ := store_total (z + a)
    (show m.ok (x + z1 - 4) from ⟨by omega, by omega, by omega⟩)
  have hh1 : load m1 (x - 4) = .ok (z1 + a1) := by
    rw [load_store hst1, if_neg b5]; exact hh
  have hn1 : load m1 (x + z1 - 4) = .ok (z + a) := by
    rw [load_store hst1, if_pos rfl, Nat.mod_eq_of_lt b3]
  have n1 := seg_NEXT_BLKP_tag hh1 hz18 ha1 b1 b2
  have f1 := seg_FTRP_tag hn1 hz8 ha b6 (by omega)
  obtain ⟨m2, hst2⟩ := store_next hst1
    (show m.lo ≤ x + z1 + z - 8 ∧ x + z1 + z - 8 + 4 ≤ m.brk ∧ (x + z1 + z - 8) % 4 = 0 from
      ⟨by omega, by omega, by omega⟩) (z + a)
  simp only [hst1, n1, f1, hst2, ok_bind]
  refine hk m2 ?_ ?_ ?_ (by rw [store_brk hst2, store_brk hst1])
    (by rw [store_lo hst2, store_lo hst1]) (by rw [store_hi hst2, store_hi hst1])
    fun q h1 h2 => ?_
  · rw [load_store hst2, if_neg b7]; exact hh1
  · rw [load_store hst2, if_neg b8]; exact hn1
  · exact seg_GET_SIZE_tag (by rw [load_store hst2, if_pos rfl, Nat.mod_eq_of_lt b3]) hz8 ha
  · rw [load_store hst2, if_neg h2, load_store hst1, if_neg h1]

end Seg

namespace Seg

/-- The split of `place` that allocates the tail, run forward on a heap whose block `b` has
been taken out of its list. -/
theorem place_tail_total {fuel : Nat} {s : State} {h0 : Nat} {L R : List Blk} {b : Blk}
    {F : Nat → List Nat} {asize : Nat}
    (P : Part s h0 (L ++ b :: R) F [b.addr]) (hbf : b.alloc = false) (ha8 : asize % 8 = 0)
    (ha16 : 16 ≤ asize) (hrem : asize + 16 < b.size) :
    ∃ res, (do
      let m ← PUT s.mem (HDRP b.addr) (PACK (b.size - asize) 0)
      let f ← FTRP m b.addr
      let m ← PUT m f (PACK (b.size - asize) 0)
      let next ← NEXT_BLKP m b.addr
      let m ← PUT_NOTAG m (HDRP next) (PACK asize 1)
      let next ← NEXT_BLKP m b.addr
      let f ← FTRP m next
      let m ← PUT_NOTAG m f (PACK asize 1)
      let s ← insert_node (fuel + 1) { s with mem := m } b.addr (b.size - asize)
      let next ← NEXT_BLKP s.mem b.addr
      pure (s, next) : Except Err (State × Nat)) = .ok res := by
  obtain ⟨hTL, hL8, h8, hb0, hb8, hTR, hle, hlt, hhb, hne⟩ := P.layout.single
  obtain ⟨hLne, hRne⟩ := hne hbf
  rw [Blk.tag_free hbf] at hhb
  have a1 : 8 ≤ b.addr := by omega
  have a2 : b.addr + (b.size - asize) < W32 := by omega
  have a3 : ∀ q, (q + 8 ≤ b.addr ∨ b.addr + b.size ≤ q + 4) → q ≠ b.addr - 4 ∧
      q ≠ b.addr + (b.size - asize) - 8 ∧ q ≠ b.addr + (b.size - asize) - 4 ∧
      q ≠ b.addr + (b.size - asize) + asize - 8 := by
    intro q hq; omega
  have a4 : (b.size - asize) % 8 = 0 := by omega
  have a5 : 8 ≤ b.size - asize := by omega
  have a6 : b.addr + (b.size - asize) + asize < W32 := by omega
  have a7 : b.addr - 4 ≠ b.addr + (b.size - asize) - 4 ∧
      b.addr - 4 ≠ b.addr + (b.size - asize) + asize - 8 ∧
      b.addr + (b.size - asize) - 8 ≠ b.addr + (b.size - asize) - 4 ∧
      b.addr + (b.size - asize) - 8 ≠ b.addr + (b.size - asize) + asize - 8 := by omega
  have a8 : b.addr + (b.size - asize) + asize = b.addr + b.size := by omega
  have a9 : ∀ a, a = b.addr → b.addr ≤ a ∧ a < b.addr + b.size := by
    intro a ha; omega
  have a10 : 16 ≤ b.size - asize := by omega
  have a11 : 8 ≤ asize := by omega
  have a12 : ∀ q, (q + 8 ≤ b.addr ∨ b.addr + b.size ≤ q + 4) →
      (q + 8 ≤ b.addr ∨ b.addr + (b.size - asize) ≤ q + 4) := by
    intro q hq; omega
  refine set_tags_fw hhb hb8 (by decide) a4 (by decide) a1 a5 (by omega) hlt
    fun m2 hh2 hf2 hb2 hl2 hi2 fr2 => ?_
  refine set_tags_next_fw hh2 a4 (by decide) a5 ha8 (by decide) a1 a11 (by rw [hb2]; omega)
    (by rw [hb2]; exact hlt) fun m4 hh4 hn4 hf4 hb4 hl4 hi4 fr4 => ?_
  have eB : L ++ b :: R = L ++ [b] ++ R := by simp
  rw [eB] at P
  have P4 := @Part.part_replace _ _ _ _ [⟨b.addr, b.size - asize, false⟩,
      ⟨b.addr + (b.size - asize), asize, true⟩] _ _ _ m4 _ _ [b.addr] P hLne hRne hTL hTR
    (by
      simp only [Tiles]
      exact ⟨trivial, a4, fun _ => a5, trivial, ha8, fun _ => a11, a8⟩)
    (by
      intro c hc
      simp only [List.mem_cons, List.mem_singleton, List.not_mem_nil, or_false] at hc
      rcases hc with rfl | rfl
      · exact a5
      · exact a11)
    ⟨by rw [hb4, hb2], by rw [hl4, hl2], by rw [hi4, hi2]⟩
    (fun q hq => by
      obtain ⟨q1, q2, q3, q4⟩ := a3 q hq
      rw [fr4 q q3 q4, fr2 q q1 q2])
    (by
      intro c hc
      simp only [List.mem_cons, List.mem_singleton, List.not_mem_nil, or_false] at hc
      rcases hc with rfl | rfl
      · refine ⟨hh4, ?_⟩
        show GET_SIZE m4 (b.addr + (b.size - asize) - 8) = _
        rw [GET_SIZE_congr (fr4 _ a7.2.2.1 a7.2.2.2)]; exact hf2
      · exact ⟨hn4, hf4⟩)
    (by
      intro c hc hcf
      simp only [List.mem_cons, List.mem_singleton, List.not_mem_nil, or_false] at hc
      rcases hc with rfl | rfl
      · exact a10
      · simp at hcf)
    (by intro c hc _; simp only [List.mem_singleton] at hc; subst hc; simp)
    (by intro a ha; simp only [List.mem_singleton] at ha; exact a9 a ha)
    (by
      intro c hc hcf
      simp only [List.mem_cons, List.mem_singleton, List.not_mem_nil, or_false] at hc
      rcases hc with rfl | rfl
      · simp
      · simp at hcf)
    (by intro a ha; simp only [List.mem_singleton] at ha; exact a9 a ha)
  obtain ⟨s5, hi5⟩ := insert_node_total (b := ⟨b.addr, b.size - asize, false⟩) fuel
    P4.layout P4.lists (by simp) rfl
    (fun hh => P4.unlinked _ (bucket_lt _) _ hh (List.mem_singleton.mpr rfl))
  have hi5' : insert_node (fuel + 1) { s with mem := m4 } b.addr (b.size - asize) = .ok s5 :=
    hi5
  obtain ⟨F5, P5, -⟩ := Part.insert
    (b := ⟨b.addr, b.size - asize, false⟩) [] P4 (by simp) rfl (by simp) (by simp) hi5
  have e5 : NEXT_BLKP s5.mem b.addr = .ok (b.addr + (b.size - asize)) :=
    P5.layout.next (c := ⟨b.addr, b.size - asize, false⟩) (by simp)
  simp only [hi5', e5, ok_bind]
  exact ⟨_, rfl⟩

/-- The split of `place` that allocates the head, run forward on a heap whose block `b` has
been taken out of its list. -/
theorem place_head_total {fuel : Nat} {s : State} {h0 : Nat} {L R : List Blk} {b : Blk}
    {F : Nat → List Nat} {asize : Nat}
    (P : Part s h0 (L ++ b :: R) F [b.addr]) (hbf : b.alloc = false) (ha8 : asize % 8 = 0)
    (ha16 : 16 ≤ asize) (hrem : asize + 16 < b.size) :
    ∃ res, (do
      let m ← PUT s.mem (HDRP b.addr) (PACK asize 1)
      let f ← FTRP m b.addr
      let m ← PUT m f (PACK asize 1)
      let next ← NEXT_BLKP m b.addr
      let m ← PUT_NOTAG m (HDRP next) (PACK (b.size - asize) 0)
      let next ← NEXT_BLKP m b.addr
      let f ← FTRP m next
      let m ← PUT_NOTAG m f (PACK (b.size - asize) 0)
      let next ← NEXT_BLKP m b.addr
      let s ← insert_node (fuel + 1) { s with mem := m } next (b.size - asize)
      pure (s, b.addr) : Except Err (State × Nat)) = .ok res := by
  obtain ⟨hTL, hL8, h8, hb0, hb8, hTR, hle, hlt, hhb, hne⟩ := P.layout.single
  obtain ⟨hLne, hRne⟩ := hne hbf
  rw [Blk.tag_free hbf] at hhb
  have a1 : 8 ≤ b.addr := by omega
  have a2 : b.addr + asize < W32 := by omega
  have a3 : ∀ q, (q + 8 ≤ b.addr ∨ b.addr + b.size ≤ q + 4) → q ≠ b.addr - 4 ∧
      q ≠ b.addr + asize - 8 ∧ q ≠ b.addr + asize - 4 ∧
      q ≠ b.addr + asize + (b.size - asize) - 8 := by
    intro q hq; omega
  have a4 : (b.size - asize) % 8 = 0 := by omega
  have a5 : 8 ≤ b.size - asize := by omega
  have a6 : b.addr + asize + (b.size - asize) < W32 := by omega
  have a7 : b.addr + asize - 8 ≠ b.addr + asize - 4 ∧
      b.addr + asize - 8 ≠ b.addr + asize + (b.size - asize) - 8 := by omega
  have a8 : b.addr + asize + (b.size - asize) = b.addr + b.size := by omega
  have a9 : ∀ a, a = b.addr → b.addr ≤ a ∧ a < b.addr + b.size := by
    intro a ha; omega
  have a9' : ∀ a, a = b.addr + asize → b.addr ≤ a ∧ a < b.addr + b.size := by
    intro a ha; omega
  have a10 : 16 ≤ b.size - asize := by omega
  have a11 : 8 ≤ asize := by omega
  have a12 : ∀ q, (q + 8 ≤ b.addr ∨ b.addr + b.size ≤ q + 4) →
      (q + 8 ≤ b.addr + asize ∨ b.addr + asize + (b.size - asize) ≤ q + 4) := by
    intro q hq; omega
  have a13 : 4 ≤ b.addr := by omega
  refine set_tags_fw hhb hb8 (by decide) ha8 (by decide) a1 a11 (by omega) hlt
    fun m2 hh2 hf2 hb2 hl2 hi2 fr2 => ?_
  refine set_tags_next_fw hh2 ha8 (by decide) a11 a4 (by decide) a1 a5 (by rw [hb2]; omega)
    (by rw [hb2]; exact hlt) fun m4 hh4 hn4 hf4 hb4 hl4 hi4 fr4 => ?_
  rw [seg_NEXT_BLKP_tag hh4 ha8 (by decide) a13 a2, ok_bind]
  have eB : L ++ b :: R = L ++ [b] ++ R := by simp
  rw [eB] at P
  have P4 := @Part.part_replace _ _ _ _ [⟨b.addr, asize, true⟩,
      ⟨b.addr + asize, b.size - asize, false⟩] _ _ _ m4 _ _ [b.addr + asize] P hLne hRne
    hTL hTR
    (by
      simp only [Tiles]
      exact ⟨trivial, ha8, fun _ => a11, trivial, a4, fun _ => a5, a8⟩)
    (by
      intro c hc
      simp only [List.mem_cons, List.mem_singleton, List.not_mem_nil, or_false] at hc
      rcases hc with rfl | rfl
      · exact a11
      · exact a5)
    ⟨by rw [hb4, hb2], by rw [hl4, hl2], by rw [hi4, hi2]⟩
    (fun q hq => by
      obtain ⟨q1, q2, q3, q4⟩ := a3 q hq
      rw [fr4 q q3 q4, fr2 q q1 q2])
    (by
      intro c hc
      simp only [List.mem_cons, List.mem_singleton, List.not_mem_nil, or_false] at hc
      rcases hc with rfl | rfl
      · refine ⟨hh4, ?_⟩
        show GET_SIZE m4 (b.addr + asize - 8) = _
        rw [GET_SIZE_congr (fr4 _ a7.1 a7.2)]; exact hf2
      · exact ⟨hn4, hf4⟩)
    (by
      intro c hc hcf
      simp only [List.mem_cons, List.mem_singleton, List.not_mem_nil, or_false] at hc
      rcases hc with rfl | rfl
      · simp at hcf
      · exact a10)
    (by intro c hc _; simp only [List.mem_singleton] at hc; subst hc; simp)
    (by intro a ha; simp only [List.mem_singleton] at ha; exact a9 a ha)
    (by
      intro c hc hcf
      simp only [List.mem_cons, List.mem_singleton, List.not_mem_nil, or_false] at hc
      rcases hc with rfl | rfl
      · simp at hcf
      · simp)
    (by intro a ha; simp only [List.mem_singleton] at ha; exact a9' a ha)
  obtain ⟨s5, hi5⟩ := insert_node_total (b := ⟨b.addr + asize, b.size - asize, false⟩) fuel
    P4.layout P4.lists (by simp) rfl
    (fun hh => P4.unlinked _ (bucket_lt _) _ hh (List.mem_singleton.mpr rfl))
  have hi5' : insert_node (fuel + 1) { s with mem := m4 } (b.addr + asize) (b.size - asize) =
      .ok s5 := hi5
  simp only [hi5', ok_bind]
  exact ⟨_, rfl⟩

/-- Case 1 of `place`, run forward on a heap whose block `b` has been taken out of its
list. -/
theorem place_whole_total {s : State} {h0 : Nat} {L R : List Blk} {b : Blk}
    {F : Nat → List Nat} (P : Part s h0 (L ++ b :: R) F [b.addr]) (hbf : b.alloc = false) :
    ∃ res, (do
      let m ← PUT s.mem (HDRP b.addr) (PACK b.size 1)
      let f ← FTRP m b.addr
      let m ← PUT m f (PACK b.size 1)
      pure ({ s with mem := m }, b.addr) : Except Err (State × Nat)) = .ok res := by
  obtain ⟨hTL, hL8, h8, hb0, hb8, hTR, hle, hlt, hhb, hne⟩ := P.layout.single
  have hb16 := P.layout.free16 b (by simp) hbf
  rw [Blk.tag_free hbf] at hhb
  exact set_tags_fw hhb hb8 (by decide) hb8 (by decide) (by omega) (by omega) hle hlt
    fun m2 _ _ _ _ _ _ => ⟨_, rfl⟩

/-- On a well-formed heap `place` returns, at a free block `b` large enough for `asize`,
with one unit of fuel for the ordering loop of `insert_node`. -/
theorem seg_place_total {s : State} {h0 : Nat} {L R : List Blk} {b : Blk}
    {F : Nat → List Nat} {asize : Nat} (fuel : Nat)
    (h : WF s h0 (L ++ b :: R) F) (hbf : b.alloc = false) (ha8 : asize % 8 = 0)
    (ha16 : 16 ≤ asize) (hle : asize ≤ b.size) :
    ∃ res, place (fuel + 1) s b.addr asize = .ok res := by
  have hL := h.layout
  obtain ⟨-, -, h8, hb0, hb8, -, hle', hlt, -, -⟩ := hL.single
  have a1 : b.size < W32 := by omega
  have e1 : GET_SIZE s.mem (HDRP b.addr) = .ok b.size := hL.get_size (by simp)
  obtain ⟨s1, hd⟩ := delete_node_total hL h.lists (b := b) (by simp) hbf
    (h.complete b (by simp) hbf)
  obtain ⟨F1, P1, -⟩ := h.part.delete (b := b) (by simp) hbf (by simp) hd
  unfold place
  rw [e1, ok_bind, sub32_eq hle a1]
  simp only [hd, ok_bind]
  by_cases c1 : b.size - asize ≤ DSIZE * 2
  · rw [if_pos c1]
    exact place_whole_total P1 hbf
  · rw [if_neg c1]
    have hrem : asize + 16 < b.size := by
      unfold DSIZE at c1
      omega
    by_cases c2 : asize ≥ 100
    · rw [if_pos c2]
      exact place_tail_total P1 hbf ha8 ha16 hrem
    · rw [if_neg c2]
      exact place_head_total P1 hbf ha8 ha16 hrem

end Seg


namespace Seg

/-- The two splits of `place` on a well-formed heap, at a free block `b` with more than
`asize + 16` bytes: the call returns, and the heap is well formed again with `b` replaced by
a free block and an allocated block of `asize` bytes, the allocated one last when
`asize >= 100` and first otherwise. -/
theorem place_split_run {s : State} {h0 : Nat} {L R : List Blk} {b : Blk}
    {F : Nat → List Nat} {asize : Nat} (fuel : Nat)
    (h : WF s h0 (L ++ b :: R) F) (hbf : b.alloc = false) (ha8 : asize % 8 = 0)
    (ha16 : 16 ≤ asize) (hrem : asize + 16 < b.size) :
    ∃ s' F', place (fuel + 1) s b.addr asize =
        .ok (s', if 100 ≤ asize then b.addr + (b.size - asize) else b.addr) ∧
      WF s' h0 (L ++ (if 100 ≤ asize then
        [⟨b.addr, b.size - asize, false⟩, ⟨b.addr + (b.size - asize), asize, true⟩]
        else [⟨b.addr, asize, true⟩, ⟨b.addr + asize, b.size - asize, false⟩]) ++ R) F' := by
  obtain ⟨⟨s', r⟩, hp⟩ := seg_place_total fuel h hbf ha8 ha16 (by omega)
  have hp0 := hp
  have hL := h.layout
  obtain ⟨-, -, h8, hb0, hb8, -, hle', hlt, -, -⟩ := hL.single
  have a1 : b.size < W32 := by omega
  have e1 : GET_SIZE s.mem (HDRP b.addr) = .ok b.size := hL.get_size (by simp)
  unfold place at hp
  rw [e1, ok_bind, sub32_eq (by omega) a1] at hp
  obtain ⟨s1, hd, hp⟩ := bind_ok hp
  obtain ⟨F1, P1, -⟩ := h.part.delete (b := b) (by simp) hbf (by simp) hd
  have c1 : ¬ b.size - asize ≤ DSIZE * 2 := by
    unfold DSIZE
    omega
  rw [if_neg c1] at hp
  by_cases c2 : asize ≥ 100
  · rw [if_pos c2] at hp
    obtain ⟨F', hW, rfl, -⟩ := place_tail P1 hbf ha8 ha16 hrem hp
    refine ⟨s', F', ?_, ?_⟩
    · rw [if_pos c2]; exact hp0
    · rw [if_pos c2]; simpa using hW
  · rw [if_neg c2] at hp
    obtain ⟨F', hW, rfl, -⟩ := place_head P1 hbf ha8 ha16 hrem hp
    refine ⟨s', F', ?_, ?_⟩
    · rw [if_neg c2]; exact hp0
    · rw [if_neg c2]; simpa using hW

end Seg


namespace Seg

end Seg

namespace Seg

end Seg

namespace Seg

end Seg

namespace Seg

end Seg

namespace Seg

end Seg

namespace Seg

end Seg

/-! ## Claims -/

/-- C9 — For every request size with `0 < size` and `size + 15` not overflowing the word, the
adjusted sizes of the implicit, explicit and segregated variants coincide, and the common
value is the least multiple of 8 that is at least `size + 8` and at least 16: it is 16 when
`size ≤ 8` and `8 * ceil((size + 8) / 8)` otherwise. -/
theorem adjust_agree (size : Nat) (h0 : 0 < size) (h1 : size + 15 < W32) :
    Implicit.adjust size = Explicit.adjust size ∧
    Explicit.adjust size = Seg.adjust size ∧
    Seg.adjust size = (if size ≤ 8 then 16 else 8 * ((size + 8 + 7) / 8)) ∧
    8 ∣ Seg.adjust size ∧ size + 8 ≤ Seg.adjust size ∧ 16 ≤ Seg.adjust size ∧
    ∀ u, 8 ∣ u → size + 8 ≤ u → 16 ≤ u → Seg.adjust size ≤ u := by
  unfold W32 at h1
  have hI : Implicit.adjust size = (if size ≤ 8 then 16 else 8 * ((size + 8 + 7) / 8)) := by
    unfold Implicit.adjust Implicit.DSIZE mul32 add32 W32
    split_ifs <;> omega
  have hE : Explicit.adjust size = (if size ≤ 8 then 16 else 8 * ((size + 8 + 7) / 8)) := by
    unfold Explicit.adjust Explicit.MAX Explicit.ALIGN Explicit.DSIZE Explicit.MINBLOCKSIZE
      add32 W32
    rw [land_mask8 _ (Nat.mod_lt _ (by norm_num))]
    split_ifs <;> omega
  have hS : Seg.adjust size = (if size ≤ 8 then 16 else 8 * ((size + 8 + 7) / 8)) := by
    unfold Seg.adjust Seg.ALIGN Seg.DSIZE add32 W32
    rw [land_mask8 _ (Nat.mod_lt _ (by norm_num))]
    split_ifs <;> omega
  refine ⟨by rw [hI, hE], by rw [hE, hS], hS, ?_, ?_, ?_, ?_⟩
  · rw [hS]; split_ifs <;> omega
  · rw [hS]; split_ifs <;> omega
  · rw [hS]; split_ifs <;> omega
  · intro u hu h8 h16
    rw [hS]; split_ifs <;> omega

/-- Witness for C9 at `size = 24`: all three variants compute 32. -/
theorem adjust_agree_witness :
    Implicit.adjust 24 = Explicit.adjust 24 ∧ Explicit.adjust 24 = Seg.adjust 24 ∧
    Seg.adjust 24 = 32 := by
  have h := adjust_agree 24 (by decide) (by decide)
  exact ⟨h.1, h.2.1, h.2.2.1⟩

/-- C10 (counterexample) — in the segregated variant `mm_free(NULL)` on the freshly
initialised heap is not a no-op: its first statement reads the header word at `NULL - 4`,
which lies outside the heap. -/
theorem seg_mm_free_null_faults : Seg.freeNullRun = .error .fault := by
  rfl

/-- C10 (amended) — in the explicit variant `mm_free(NULL)` is a silent no-op: it returns
with the heap words, the break and the free-list head unchanged, in every state. -/
theorem explicit_mm_free_null (s : Explicit.State) : Explicit.mm_free s 0 = .ok s :=
  rfl

/-- C1 (failing run) — segregated variant: after `a = mm_malloc(1); b = mm_malloc(1);
c = mm_malloc(1); mm_free(b); q = mm_realloc(a, 100)` the block returned for `a` has been
given size 4128 although it is followed, 32 bytes further, by the live allocation `c`:
the 100 bytes promised at `q = a` contain the address `c`. -/
theorem seg_realloc_overlap :
    ∃ a c q sz, Seg.growRun = .ok (a, c, q, sz) ∧ q = a ∧ sz = 4128 ∧ a < c ∧ c < q + 100 :=
  ⟨4112, 4144, 4112, 4128, by rfl, rfl, rfl, by decide, by decide⟩

/-- C5 (failing run) — explicit variant: after `p = mm_malloc(8); q = mm_malloc(16);
r = mm_malloc(8); mm_free(q); mm_realloc(p, 24)` the block that follows `p` has header word
8 and footer word 4100, and the live block `r` has header word 0 while its footer still
reads 17 (size 16, allocated). -/
theorem explicit_realloc_tags_disagree :
    Explicit.mergeRun = .ok (4128, 4168, 4128, 4160, (8, 4100), 0, 17) := by
  rfl

/-- C3 — Implicit variant: if the first address handed out by the memory facade is a
multiple of 8, then in every state reachable from `mm_init` by valid `mm_malloc` / `mm_free` /
`mm_realloc` calls (request sizes unrestricted), every pointer that `mm_malloc` or
`mm_realloc` returns is congruent to 0 mod 8. -/
theorem implicit_returns_aligned (m0 : Mem) (h0 : m0.brk % 8 = 0) (s : Implicit.State)
    (L : List Nat) (hr : Implicit.Reach (fun _ => True) m0 s L) :
    (∀ fuel n s' p, Implicit.mm_malloc fuel s n = .ok (s', p) → p % 8 = 0) ∧
    (∀ fuel q n s' p, q ∈ L → Implicit.mm_realloc fuel s q n = .ok (s', p) → p % 8 = 0) := by
  obtain ⟨ha, hL⟩ := Implicit.reach_aligned h0 hr
  exact ⟨fun _ _ _ _ h => (Implicit.mm_malloc_al h ha).1,
    fun _ q _ _ _ hq h => (Implicit.mm_realloc_al h ha (hL q hq)).1⟩

/-- Witness for C3: on the fresh zeroed arena at 4096 the state after `mm_init` is reachable,
`mm_malloc(24)` returns the non-null pointer 4112 there, and the theorem applies to it. -/
theorem implicit_returns_aligned_witness :
    (zeroMem 4096 1000000).brk % 8 = 0 ∧
    Implicit.Reach (fun _ => True) (zeroMem 4096 1000000) Implicit.initState [] ∧
    (∃ s', Implicit.mm_malloc 4 Implicit.initState 24 = .ok (s', 4112)) ∧
    (∀ fuel n s' p, Implicit.mm_malloc fuel Implicit.initState n = .ok (s', p) → p % 8 = 0) :=
  ⟨by decide, Implicit.Reach.init (by rfl), ⟨_, by rfl⟩,
    (implicit_returns_aligned (zeroMem 4096 1000000) (by decide) Implicit.initState []
      (Implicit.Reach.init (by rfl))).1⟩

/-- C6 (counterexample) — implicit variant: after `x = mm_malloc(4294967288)` (whose adjusted
size wraps to 0), `mm_malloc(8)`, `mm_malloc(8)` and `mm_free(x)`, the scan of the heap from
the prologue meets a free block of 32 bytes immediately followed by a free block of 4064
bytes. -/
theorem implicit_adjacent_free_after_wrap :
    Implicit.wrapRun = .ok [(8, 1), (32, 0), (4064, 0), (0, 1)] ∧
    ¬ Implicit.scanNoAdjFree [(8, 1), (32, 0), (4064, 0), (0, 1)] :=
  ⟨by rfl, by unfold Implicit.scanNoAdjFree; simp⟩

/-- C6 (amended) — implicit variant, on a facade whose arena lies below 2^32 and whose first
address is a multiple of 8: in every state reachable from `mm_init` by valid `mm_malloc` /
`mm_free` / `mm_realloc` calls whose request sizes satisfy `size + 15 < 2^32`, the scan of
the heap from the prologue reaches the epilogue and no two consecutive blocks of it are both
free (the prologue and the epilogue are allocated). -/
theorem implicit_no_adjacent_free (m0 : Mem) (h1 : m0.lo ≤ m0.brk) (h2 : m0.brk % 8 = 0)
    (h3 : m0.hi < W32) (s : Implicit.State) (L : List Nat)
    (hr : Implicit.Reach (fun n => n + 15 < W32) m0 s L) :
    ∃ fuel bl, Implicit.scan s.mem fuel s.heap_listp = .ok bl ∧ Implicit.scanNoAdjFree bl ∧
      bl.getLast? = some (0, 1) := by
  obtain ⟨B, hB, hna, _, _⟩ := Implicit.reach_inv h1 h2 h3 hr
  refine ⟨B.length, _, Implicit.scan_rep hB, Implicit.scanNoAdjFree_map hna, ?_⟩
  obtain ⟨ys, hys⟩ := List.getLast?_eq_some_iff.mp hB.last
  rw [hys]
  simp

/-- Witness for C6: the theorem applied to the state that `mm_init` builds on the fresh
zeroed arena at 4096. -/
theorem implicit_no_adjacent_free_witness :
    ∃ fuel bl, Implicit.scan Implicit.initState.mem fuel Implicit.initState.heap_listp
        = .ok bl ∧ Implicit.scanNoAdjFree bl ∧ bl.getLast? = some (0, 1) :=
  implicit_no_adjacent_free (zeroMem 4096 1000000) (by decide) (by decide) (by decide)
    Implicit.initState [] (Implicit.Reach.init (by rfl))


/-- C2 (counterexample) — segregated variant: on the freshly initialised (well-formed) heap,
`mm_malloc(4294967295)` returns the non-null pointer 4112 whose header has the allocation
bit set and encodes the block size 8: this is below `max(ALIGN(size + 8), 16) = 16`, and the
payload capacity `8 - 8 = 0` is below the request. -/
theorem seg_malloc_wrap_block :
    Seg.wrapAllocRun = .ok (4112, 8, 1) ∧
    ¬ max (Seg.ALIGN (4294967295 + 8)) 16 ≤ 8 ∧ ¬ 4294967295 ≤ 8 - 8 :=
  ⟨by rfl, by decide, by decide⟩

/-- C2 (amended) — segregated variant: on every well-formed heap, for every request with
`0 < size` and `size + 15 < 2^31`, if `mm_malloc(size)` returns a non-null pointer `p` then
the header of `p` has the allocation bit set and encodes a block size `sz` that is a multiple
of 8 with `sz ≥ max(ALIGN(size + 8), 16)`, so that the payload capacity `sz - 8` is at least
`size` (whether `place` allocated the head or the tail of the chosen free block). -/
theorem seg_malloc_block (fuel : Nat) (s s' : Seg.State) (h0 : Nat) (B : List Blk)
    (F : Nat → List Nat) (size p : Nat) (hW : Seg.WF s h0 B F) (hpos : 0 < size)
    (hs : size + 15 < 2147483648) (hm : Seg.mm_malloc fuel s size = .ok (s', p))
    (hp : p ≠ 0) :
    ∃ sz, Seg.GET_SIZE s'.mem (Seg.HDRP p) = .ok sz ∧
      Seg.GET_ALLOC s'.mem (Seg.HDRP p) = .ok 1 ∧
      sz % 8 = 0 ∧ max (Seg.ALIGN (size + 8)) 16 ≤ sz ∧ size ≤ sz - 8 := by
  obtain ⟨a8, a16, an, alt⟩ := Seg.seg_adjust_facts hs
  have hmax : max (Seg.ALIGN (size + 8)) 16 ≤ Seg.adjust size := by
    have hA := @Seg.ALIGN_facts (size + 8) (by unfold W32; omega)
    unfold Seg.adjust Seg.DSIZE
    by_cases h : size ≤ 8
    · rw [if_pos h]; omega
    · rw [if_neg h, add32_eq (by unfold W32; omega)]; omega
  rcases Seg.seg_mm_malloc_spec hW hs hm with ⟨rfl, -⟩ | ⟨B', F', c, hW', hc, rfl, hca, hcs, -⟩
  · exact absurd rfl hp
  · have hb := hW'.layout.bounds hc
    refine ⟨c.size, hW'.layout.get_size hc, ?_, hb.2.2.2.1, le_trans hmax hcs, by omega⟩
    have := hW'.layout.get_alloc hc
    rw [hca] at this
    exact this

/-- Witness for C2: the theorem applied to `mm_malloc(100)` on the heap that `mm_init`
builds on the fresh zeroed arena at 4096; the request is served from the tail of the
extended free block, at 8160. -/
theorem seg_malloc_block_witness :
    Seg.mm_malloc 8 Seg.initState 100 = .ok (Seg.afterBig.1, 8160) ∧
    ∃ sz, Seg.GET_SIZE Seg.afterBig.1.mem (Seg.HDRP 8160) = .ok sz ∧
      Seg.GET_ALLOC Seg.afterBig.1.mem (Seg.HDRP 8160) = .ok 1 ∧
      sz % 8 = 0 ∧ max (Seg.ALIGN (100 + 8)) 16 ≤ sz ∧ 100 ≤ sz - 8 := by
  obtain ⟨B, F, hW, -⟩ := @Seg.seg_mm_init_spec 8 (zeroMem 4096 1000000)
    Seg.initState (by decide) (by rfl)
  exact ⟨by rfl, seg_malloc_block 8 Seg.initState Seg.afterBig.1 _ B F 100 8160 hW
    (by decide) (by decide) (by rfl) (by decide)⟩

/-- C7 (counterexample) — segregated variant: after `mm_init(); p = mm_malloc(4294967295);
mm_free(p)` every pointer returned by `mm_malloc` has been released, but the scan of the
heap from the prologue meets a free block of 8 bytes followed by a zero word (not one free
block followed by the epilogue), and two segregated lists (3 and 5) are not empty. -/
theorem seg_wrap_release_corrupts :
    Seg.wrapFreeRun = .ok ([(8, 1), (8, 0), (0, 0)],
      [0, 0, 0, 4112, 0, 4120, 0, 0, 0, 0, 0, 0, 0, 0, 0, 0, 0, 0, 0, 0]) ∧
    ¬ ∃ sz, [(8, 1), (8, 0), (0, 0)] = [(8, 1), (sz, 0), (0, 1)] :=
  ⟨by rfl, by rintro ⟨sz, h⟩; simp [Prod.ext_iff] at h⟩

/-- C7 (amended) — segregated variant, on a facade whose arena lies below 2^32: in every
state reached from a successful `mm_init` by `mm_malloc` calls with `size + 15 < 2^31` and
`mm_free` calls on live pointers, once every pointer returned by `mm_malloc` has been
released the scan of the heap from the prologue meets exactly the prologue, one free block
and the epilogue; the size of the free block is the growth of the heap since `mm_init`
started, less the 16 bytes of prologue and epilogue; and that block is the only entry of the
twenty segregated lists. -/
theorem seg_release_all_one_block (m0 : Mem) (h3 : m0.hi < W32) (s : Seg.State)
    (hr : Seg.Reach (fun n => n + 15 < 2147483648) m0 s []) :
    ∃ sz, Seg.scan s.mem 3 (m0.brk + 8) = .ok [(8, 1), (sz, 0), (0, 1)] ∧ 16 ≤ sz ∧
      sz + 16 = s.mem.brk - m0.brk ∧
      ∀ k, k < 20 → Seg.listWalk s.mem 2 (s.segregated_free_lists k) =
        .ok (if k = Seg.bucket sz then [m0.brk + 16] else []) := by
  obtain ⟨sz, h1, h2, h3', h4⟩ := Seg.inv_empty (Seg.seg_reach_inv h3 hr)
  exact ⟨sz, h1, h2, by omega, h4⟩

/-- Witness for C7: the theorem applied to the run `mm_init(); a = mm_malloc(1);
b = mm_malloc(1); mm_free(a); mm_free(b)` on the fresh zeroed arena at 4096. -/
theorem seg_release_all_one_block_witness :
    ∃ sz, Seg.scan Seg.afterFreeB.mem 3 (4096 + 8) = .ok [(8, 1), (sz, 0), (0, 1)] ∧ 16 ≤ sz ∧
      sz + 16 = Seg.afterFreeB.mem.brk - 4096 ∧
      ∀ k, k < 20 → Seg.listWalk Seg.afterFreeB.mem 2 (Seg.afterFreeB.segregated_free_lists k) =
        .ok (if k = Seg.bucket sz then [4096 + 16] else []) :=
  seg_release_all_one_block (zeroMem 4096 1000000) (by decide) Seg.afterFreeB
    (@Seg.Reach.free _ _ Seg.afterFreeA Seg.afterFreeB [4128] 8 4128
      (@Seg.Reach.free _ _ Seg.afterB.1 Seg.afterFreeA [4128, 4112] 8 4112
        (@Seg.Reach.malloc _ _ Seg.afterA.1 Seg.afterB.1 [4112] 8 1 4128
          (@Seg.Reach.malloc _ _ Seg.initState Seg.afterA.1 [] 8 1 4112
            (@Seg.Reach.init _ _ 8 Seg.initState (by rfl)) (by decide) (by rfl))
          (by decide) (by rfl))
        (by decide) (by rfl))
      (by decide) (by rfl))


/-- C11 (counterexample) — segregated variant: after `p = mm_malloc(1)` on the freshly
initialised heap, `mm_realloc(p, 0)` returns `NULL` and the header of `p` still reads 17
(16 bytes, allocated), whereas after `mm_free(p)` on the same state it reads 64 (the block
is free and merged with its free successor): the two calls do not leave the same state. -/
theorem seg_realloc_zero_keeps_block : Seg.reallocZeroRun = .ok (0, 17, 64) ∧ (17 : Nat) ≠ 64 :=
  ⟨by rfl, by decide⟩

/-- C11 (amended) — segregated variant: in every state and for every pointer `p`,
`mm_realloc(p, 0)` returns `NULL` and leaves the heap words, the break and the twenty
segregated lists exactly as they were; the block of `p` is not released. -/
theorem seg_realloc_zero_unchanged (fuel : Nat) (s : Seg.State) (p : Nat) :
    Seg.mm_realloc fuel s p 0 = .ok (s, 0) :=
  rfl

/-- C19 (failing run) — segregated variant, on an arena of 1000 bytes: after
`p = mm_malloc(1); x = mm_malloc(1)` the block after `p` is allocated, so `mm_realloc(p, 100)`
takes the allocate-copy-release path; the call `mm_malloc(232)` it makes returns `NULL`
because the facade refuses the extension, and `mm_realloc` goes on to `memcpy` into that
null pointer: the run stops with an access outside the heap instead of returning `NULL`. -/
theorem seg_realloc_oom_faults :
    Seg.oomMallocRun = .ok (4112, 4128, 1, 0) ∧ Seg.oomReallocRun = .error .fault :=
  ⟨by rfl, by rfl⟩

/-- C12 (failing run) — `mm.c`: after `p = mm_malloc(16)` the block of `p` has 24 bytes;
`mm_realloc(p, 24)` finds `size == cur_block_size` and returns `p` itself, an allocated
block of 24 bytes whose payload capacity `24 - 8 = 16` is below the 24 bytes requested. -/
theorem mm_realloc_same_size_short :
    Mm.sameSizeRun = .ok (4120, 24, 4120, 24, 1) ∧ ¬ 24 ≤ 24 - 8 :=
  ⟨by rfl, by decide⟩


/-- C17 — Implicit variant, on a facade whose arena lies below 2^32 and whose first address
is a multiple of 8: `mm_init` always returns; it returns -1 if and only if one of its two
requests to the memory facade fails (16 bytes for the sentinels, then 4096 bytes), and 0
otherwise. On success the heap `[brk0, brk0 + 4112)` is exactly: the padding word 0, the
prologue header and footer `8 | 1`, one free block of 4096 bytes whose header and footer
both read 4096, and the epilogue header `0 | 1`; `heap_listp` is the prologue, the rover is
the free block, and the scan of the heap from the prologue meets exactly these three
blocks. -/
theorem implicit_init_result (m0 : Mem) (h1 : m0.lo ≤ m0.brk) (h2 : m0.brk % 8 = 0)
    (h3 : m0.hi < W32) :
    ∃ s r, Implicit.mm_init m0 = .ok (s, r) ∧
      (r = -1 ↔
        (mem_sbrk m0 16 = none ∨ mem_sbrk { m0 with brk := m0.brk + 16 } 4096 = none)) ∧
      (r ≠ -1 → r = 0 ∧ s.heap_listp = m0.brk + 8 ∧ s.next_fit_position = m0.brk + 16 ∧
        s.mem.lo = m0.lo ∧ s.mem.brk = m0.brk + 4112 ∧
        load s.mem m0.brk = .ok 0 ∧ load s.mem (m0.brk + 4) = .ok 9 ∧
        load s.mem (m0.brk + 8) = .ok 9 ∧ load s.mem (m0.brk + 12) = .ok 4096 ∧
        load s.mem (m0.brk + 4104) = .ok 4096 ∧ load s.mem (m0.brk + 4108) = .ok 1 ∧
        Implicit.scan s.mem 3 s.heap_listp = .ok [(8, 1), (4096, 0), (0, 1)]) := by
  have hT := Implicit.mm_init_total h1 h2 h3
  have n16 : (16 : Nat) < 2147483648 := by decide
  have n4096 : (4096 : Nat) < 2147483648 := by decide
  have s1 := mem_sbrk_none (m := m0) n16
  have s2 := mem_sbrk_none (m := { m0 with brk := m0.brk + 16 }) n4096
  have s2b : ({ m0 with brk := m0.brk + 16 } : Mem).brk = m0.brk + 16 := rfl
  have s2h : ({ m0 with brk := m0.brk + 16 } : Mem).hi = m0.hi := rfl
  rw [s2b, s2h] at s2
  by_cases hlt : m0.hi < m0.brk + 4112
  · obtain ⟨s, hs⟩ := hT.1 hlt
    refine ⟨s, -1, hs, ⟨fun _ => ?_, fun _ => rfl⟩, fun h => absurd rfl h⟩
    by_cases h16 : m0.hi < m0.brk + 16
    · exact Or.inl (s1.mpr h16)
    · exact Or.inr (s2.mpr (by omega))
  · obtain ⟨m, hs, bm, lm, hm, w0, w1, w2, w3, w4, w5⟩ := hT.2 (by omega)
    refine ⟨_, 0, hs, ⟨fun h => absurd h (by decide), fun h => ?_⟩, fun _ =>
      ⟨rfl, rfl, rfl, lm, bm, w0, w1, w2, w3, w4, w5, ?_⟩⟩
    · rcases h with h | h
      · have := s1.mp h; omega
      · have := s2.mp h; omega
    · have hB : ∀ b ∈ [(⟨m0.brk + 8, 8, true⟩ : Blk), ⟨m0.brk + 16, 4096, false⟩,
          ⟨m0.brk + 4112, 0, true⟩], load m (b.addr - 4) = .ok b.tag := by
        intro b hb
        simp only [List.mem_cons, List.mem_singleton, List.not_mem_nil, or_false] at hb
        rcases hb with rfl | rfl | rfl
        · show load m (m0.brk + 8 - 4) = .ok (8 + 1)
          rw [show m0.brk + 8 - 4 = m0.brk + 4 from by omega]
          exact w1
        · show load m (m0.brk + 16 - 4) = .ok (4096 + 0)
          rw [show m0.brk + 16 - 4 = m0.brk + 12 from by omega]
          exact w3
        · show load m (m0.brk + 4112 - 4) = .ok (0 + 1)
          rw [show m0.brk + 4112 - 4 = m0.brk + 4108 from by omega]
          exact w5
      have hT : Tiles (m0.brk + 8) [⟨m0.brk + 8, 8, true⟩, ⟨m0.brk + 16, 4096, false⟩,
          ⟨m0.brk + 4112, 0, true⟩] (m0.brk + 4112) := by
        show m0.brk + 8 = m0.brk + 8 ∧ 8 % 8 = 0 ∧ (_ → 8 ≤ 8) ∧
          (m0.brk + 16 = m0.brk + 8 + 8 ∧ 4096 % 8 = 0 ∧ (_ → 8 ≤ 4096) ∧
            (m0.brk + 4112 = m0.brk + 8 + 8 + 4096 ∧ 0 % 8 = 0 ∧ (_ → 8 ≤ 0) ∧
              m0.brk + 8 + 8 + 4096 + 0 = m0.brk + 4112))
        exact ⟨rfl, rfl, fun _ => by decide, by omega, rfl, fun _ => by decide, by omega, rfl,
          fun h => absurd rfl h, by omega⟩
      exact Implicit.scan_tiles m (m0.brk + 4112) (by omega)
        [⟨m0.brk + 8, 8, true⟩, ⟨m0.brk + 16, 4096, false⟩, ⟨m0.brk + 4112, 0, true⟩]
        (m0.brk + 8) hT hB rfl (by omega)

/-- Witness for C17: the theorem applied to the fresh zeroed arena `[4096, 1000000)`. -/
theorem implicit_init_result_witness :
    ∃ s r, Implicit.mm_init (zeroMem 4096 1000000) = .ok (s, r) ∧
      (r = -1 ↔ (mem_sbrk (zeroMem 4096 1000000) 16 = none ∨
        mem_sbrk { zeroMem 4096 1000000 with brk := (zeroMem 4096 1000000).brk + 16 } 4096
          = none)) ∧
      (r ≠ -1 → r = 0 ∧ s.heap_listp = (zeroMem 4096 1000000).brk + 8 ∧
        s.next_fit_position = (zeroMem 4096 1000000).brk + 16 ∧
        s.mem.lo = (zeroMem 4096 1000000).lo ∧ s.mem.brk = (zeroMem 4096 1000000).brk + 4112 ∧
        load s.mem (zeroMem 4096 1000000).brk = .ok 0 ∧
        load s.mem ((zeroMem 4096 1000000).brk + 4) = .ok 9 ∧
        load s.mem ((zeroMem 4096 1000000).brk + 8) = .ok 9 ∧
        load s.mem ((zeroMem 4096 1000000).brk + 12) = .ok 4096 ∧
        load s.mem ((zeroMem 4096 1000000).brk + 4104) = .ok 4096 ∧
        load s.mem ((zeroMem 4096 1000000).brk + 4108) = .ok 1 ∧
        Implicit.scan s.mem 3 s.heap_listp = .ok [(8, 1), (4096, 0), (0, 1)]) :=
  implicit_init_result (zeroMem 4096 1000000) (by decide) (by decide) (by decide)


/-- C16 (counterexample) — implicit variant: after `a = mm_malloc(8)` on the freshly
initialised heap, the call `x = mm_malloc(4294967288)` (whose adjusted size wraps to 0)
returns 4128 and changes the footer word of the live block `a` from 17 (16 bytes, allocated)
to 1: `place` writes the footer of a block of size 0 at `x - 8`. -/
theorem implicit_wrap_clobbers_footer :
    Implicit.clobberRun = .ok (4112, 4128, 17, 1) ∧ (17 : Nat) ≠ 1 :=
  ⟨by rfl, by decide⟩

/-- C16 (amended) — implicit variant: on every well-formed heap (block list `B`), for every
allocated block `c` of the heap and every byte `a` of `c` from the first byte of its header
to the last byte of its footer: a call `mm_malloc(n)` with `n + 15 < 2^32` leaves the byte
unchanged, and a call `mm_free` on the payload pointer of another block `b` (of at least 16
bytes, as every block handed out by `mm_malloc`) leaves it unchanged. -/
theorem implicit_others_untouched (s : Implicit.State) (B : List Blk)
    (hR : Implicit.Rep s B) (c : Blk) (hc : c ∈ B) (hca : c.alloc = true) (a : Nat)
    (h1 : c.addr ≤ a + 4) (h2 : a + 4 < c.addr + c.size) :
    (∀ fuel n s' p, n + 15 < W32 → Implicit.mm_malloc fuel s n = .ok (s', p) →
      byteAt s'.mem a = byteAt s.mem a) ∧
    (∀ b s', b ∈ B → 16 ≤ b.size → c ≠ b → Implicit.mm_free s b.addr = .ok s' →
      byteAt s'.mem a = byteAt s.mem a) :=
  ⟨fun _ _ _ _ hn hm => Implicit.mm_malloc_frame hR hn hm hc hca h1 h2,
    fun _ _ hb hb16 hcb hf => Implicit.mm_free_frame hR hb hb16 hf hc hca hcb h1 h2⟩

/-- Witness for C16: the run `a = mm_malloc(16); b = mm_malloc(16); mm_free(a);
c = mm_malloc(8)` on the fresh zeroed arena at 4096. The state after the two allocations is
well formed (it is reachable) and holds the blocks of `a = 4112` and `b = 4136`; the theorem
gives that `mm_free(a)` leaves every byte of the block of `b` unchanged, and `c == a`. -/
theorem implicit_others_untouched_witness :
    Implicit.mm_free Implicit.afterB.1 4112 = .ok Implicit.afterFreeA ∧
    Implicit.afterC.2 = 4112 ∧
    ∃ B cb, Implicit.Rep Implicit.afterB.1 B ∧ cb ∈ B ∧ cb.addr = 4136 ∧ 16 ≤ cb.size ∧
      ∀ a, cb.addr ≤ a + 4 → a + 4 < cb.addr + cb.size →
        byteAt Implicit.afterFreeA.mem a = byteAt Implicit.afterB.1.mem a := by
  have hr : Implicit.Reach (fun n => n + 15 < W32) (zeroMem 4096 1000000) Implicit.afterB.1
      [4136, 4112] :=
    @Implicit.Reach.malloc _ _ Implicit.afterA.1 Implicit.afterB.1 [4112] 8 16 4136
      (@Implicit.Reach.malloc _ _ Implicit.initState Implicit.afterA.1 [] 8 16 4112
        (Implicit.Reach.init (by rfl)) (by decide) (by rfl))
      (by decide) (by rfl)
  obtain ⟨B, hB, -, hnd, hlive⟩ := @Implicit.reach_inv (zeroMem 4096 1000000) (by decide)
    (by decide) (by decide) _ _ hr
  obtain ⟨cb, hcb, hcb1, hcb2, hcb3⟩ := hlive 4136 (by simp)
  obtain ⟨ca, hca, hca1, hca2, hca3⟩ := hlive 4112 (by simp)
  have hne : cb ≠ ca := by
    intro e
    rw [e, hca1] at hcb1
    exact absurd hcb1 (by decide)
  refine ⟨by rfl, by rfl, B, cb, hB, hcb, hcb1, hcb3, fun a h1 h2 => ?_⟩
  exact (implicit_others_untouched Implicit.afterB.1 B hB cb hcb hcb2 a h1 h2).2 ca
    Implicit.afterFreeA hca hca3 hne (by rw [hca1]; rfl)


/-- C13 (counterexample) — segregated variant, on an arena of more than 2 GiB: after
`a = mm_malloc(2147483000); mm_realloc(a, 2147483600)` the block of `a` is allocated with
2147487104 bytes (2^31 or more) in a heap that scans as prologue, free block, this block,
epilogue. For `n = 1` the size `max(ALIGN(n + 8), 16) + 128 = 144` is far below the block
size, yet `mm_realloc(a, 1)` returns `NULL` instead of `a`: the difference of the two sizes is
held in an `int` and reads as negative. -/
theorem seg_realloc_giant_not_kept :
    Seg.giantKeepRun = .ok (4176, 4176, 2147487104, 1,
      [(8, 1), (64, 0), (2147487104, 1), (0, 1)], 0) ∧
    max (Seg.ALIGN (add32 1 8)) 16 + 128 ≤ 2147487104 ∧ (0 : Nat) ≠ 4176 :=
  ⟨by rfl, by decide, by decide⟩

/-- C13 (amended) — segregated variant: in every well-formed heap, for every allocated block
`b` whose size is at least `max(ALIGN(n + 8), 16) + 128` and below 2^31, and every `n > 0`,
`mm_realloc(b, n)` returns the pointer of `b` itself and leaves the whole state (every heap
word, hence the header, footer, size and payload of the block, the break and the segregated
lists) exactly as it was. -/
theorem seg_realloc_large_kept (fuel : Nat) (s : Seg.State) (h0 : Nat) (B : List Blk)
    (F : Nat → List Nat) (b : Blk) (n : Nat) (hW : Seg.WF s h0 B F) (hb : b ∈ B)
    (hba : b.alloc = true) (hn : 0 < n)
    (hsz : max (Seg.ALIGN (add32 n 8)) 16 + 128 ≤ b.size) (hlt : b.size < 2147483648) :
    Seg.mm_realloc fuel s b.addr n = .ok (s, b.addr) :=
  Seg.realloc_keep hW hb hn hsz hlt

/-- Witness for C13: the theorem applied to `p = mm_malloc(136)` (a block of 144 bytes at
8128) on the heap that `mm_init` builds on the fresh zeroed arena at 4096, and `n = 1`. -/
theorem seg_realloc_large_kept_witness :
    Seg.afterKeep.2 = 8128 ∧ Seg.GET Seg.afterKeep.1.mem (Seg.HDRP 8128) = .ok 145 ∧
    Seg.mm_realloc 8 Seg.afterKeep.1 8128 1 = .ok (Seg.afterKeep.1, 8128) := by
  obtain ⟨B, F, hW, -, -, hL, -⟩ := @Seg.seg_reach_inv (zeroMem 4096 1000000) (by decide)
    Seg.afterKeep.1 [8128]
    (@Seg.Reach.malloc _ _ Seg.initState Seg.afterKeep.1 [] 8 136 8128
      (@Seg.Reach.init _ _ 8 Seg.initState (by rfl)) (by decide) (by rfl))
  obtain ⟨b, hb, hba, hbl, -⟩ := hL 8128 (by simp)
  have hs : b.size = 144 := by
    have h1 := hW.layout.get_size hb
    rw [hba] at h1
    have h2 : Seg.GET_SIZE Seg.afterKeep.1.mem (Seg.HDRP 8128) = .ok 144 := by rfl
    rw [h1] at h2
    exact Except.ok.inj h2
  have := seg_realloc_large_kept 8 Seg.afterKeep.1 _ B F b 1 hW hb hbl (by decide)
    (by rw [hs]; decide) (by rw [hs]; decide)
  rw [hba] at this
  exact ⟨by rfl, by rfl, this⟩


/-- C14 (counterexample) — segregated variant. First run: after `q = mm_malloc(128);
p = mm_malloc(128); mm_free(q)` the block of `p` has `cur = 136` bytes and the block after it
(at `q`) is free with `nxt = 136` bytes. For `n = 4294967295` the size
`max(ALIGN(n + 8), 16) + 128` is 144 in the 32-bit arithmetic of the code, so `cur < 144` and
`cur + nxt >= 144`; `mm_realloc(p, n)` returns `p` but the header of `p` still reads
`136 | 1`, not `272 | 1`: nothing was absorbed. Second run, on an arena of more than 2 GiB:
the block of `p` has 16 bytes and its free successor 2147486144 bytes, so for `n = 1`
(`asize = 144`) both conditions hold, yet `mm_realloc(p, 1)` returns `NULL`. -/
theorem seg_realloc_absorb_fails :
    (Seg.absorbWrapRun = .ok (8136, 8000, 137, 8136, 136, 8000, 137) ∧
      136 < max (Seg.ALIGN (add32 4294967295 8)) 16 + 128 ∧
      max (Seg.ALIGN (add32 4294967295 8)) 16 + 128 ≤ 136 + 136 ∧ (137 : Nat) ≠ 136 + 136 + 1) ∧
    (Seg.absorbGiantRun = .ok (4112, 17, 4128, 2147486144,
        [(8, 1), (16, 1), (2147486144, 0), (1008, 1), (0, 1)], 0) ∧
      16 < max (Seg.ALIGN (add32 1 8)) 16 + 128 ∧
      max (Seg.ALIGN (add32 1 8)) 16 + 128 ≤ 16 + 2147486144 ∧ (0 : Nat) ≠ 4112) :=
  ⟨⟨by rfl, by decide, by decide, by decide⟩, ⟨by rfl, by decide, by decide, by decide⟩⟩

/-- C14 (amended) — segregated variant: let `asize = max(ALIGN(n + 8), 16) + 128` for a
request with `n + 15 < 2^32`. In every well-formed heap, for every live block `b` of size
`cur < asize` whose next block `x` is free with size `nxt`, `asize <= cur + nxt` and
`cur + nxt < 2^31`, `mm_realloc(b, n)` returns the pointer of `b`; afterwards the header of
`b` and its footer both hold the word `cur + nxt | 1` (allocated, RA bit clear); the walk of
each of the twenty segregated lists ends and does not meet `x`; the payload bytes of `b` are
unchanged; and the heap is well formed again. -/
theorem seg_realloc_absorbs_next (fuel : Nat) (s : Seg.State) (h0 : Nat) (B : List Blk)
    (F : Nat → List Nat) (b x : Blk) (n : Nat)
    (hW : Seg.WF s h0 B F) (hb : b ∈ B) (hba : b.alloc = true) (hb16 : 16 ≤ b.size)
    (hx : x ∈ B) (hxa : x.addr = b.addr + b.size) (hxf : x.alloc = false)
    (hn : 0 < n) (hnw : n + 15 < W32)
    (hlt : b.size < max (Seg.ALIGN (n + 8)) 16 + 128)
    (hge : max (Seg.ALIGN (n + 8)) 16 + 128 ≤ b.size + x.size)
    (hsum : b.size + x.size < 2147483648) :
    ∃ s', Seg.mm_realloc fuel s b.addr n = .ok (s', b.addr) ∧
      Seg.GET s'.mem (Seg.HDRP b.addr) = .ok (b.size + x.size + 1) ∧
      (∃ f, Seg.FTRP s'.mem b.addr = .ok f ∧ Seg.GET s'.mem f = .ok (b.size + x.size + 1)) ∧
      (∀ k, k < 20 → ∃ ns, Seg.listWalk s'.mem (ns.length + 1) (s'.segregated_free_lists k) =
        .ok ns ∧ x.addr ∉ ns) ∧
      (∀ i, i + 8 < b.size → byteAt s'.mem (b.addr + i) = byteAt s.mem (b.addr + i)) ∧
      ∃ B' F', Seg.WF s' h0 B' F' := by
  have hL := hW.layout
  obtain ⟨L, p, y, R, rfl⟩ := hL.mid hb hb16
  obtain ⟨-, -, h8, hp0, -, hp8, hbp, hb8, -, hya, -⟩ := hL.triple
  have x16 := hL.free16 x hx hxf
  have hxb := hL.bounds hx
  have hxy : x = y := hL.addr_inj hx (by simp) (by omega) (by omega)
  subst hxy
  obtain ⟨s', F', hr, hW', hnot, l1, l2, hbrk, hfr⟩ :=
    @Seg.realloc_absorb fuel s h0 L R p b x F n hW hba hxf hn hnw hlt hge hsum
  have hbb := hL.bounds hb
  refine ⟨s', hr, ?_, ⟨_, Seg.seg_FTRP_tag l1 (by omega) (by omega) (by omega) (by omega), l2⟩,
    fun k hk => ⟨F' k, hW'.walk hk, hnot k hk⟩, ?_, _, _, hW'⟩
  · rw [Seg.seg_HDRP_eq (by omega) (by omega)]
    exact l1
  · intro i hi
    exact Seg.payload_bytes hL hb (show b.size - 8 + 8 ≤ b.size by omega)
      (fun q q1 q2 _ => hfr q q1 (by omega)) i (by omega)

/-- Witness for C14: the theorem applied to the heap after `q = mm_malloc(128);
p = mm_malloc(128); mm_free(q)` on the fresh zeroed arena at 4096 (the block of `p` at 8000
has 136 bytes, the free block after it at 8136 has 136 bytes) and `n = 100`
(`asize = 112 + 128 = 240`). -/
theorem seg_realloc_absorbs_next_witness :
    ∃ s', Seg.mm_realloc 8 Seg.afterFreeQ 8000 100 = .ok (s', 8000) ∧
      Seg.GET s'.mem (Seg.HDRP 8000) = .ok (136 + 136 + 1) ∧
      (∃ f, Seg.FTRP s'.mem 8000 = .ok f ∧ Seg.GET s'.mem f = .ok (136 + 136 + 1)) ∧
      (∀ k, k < 20 → ∃ ns, Seg.listWalk s'.mem (ns.length + 1) (s'.segregated_free_lists k) =
        .ok ns ∧ 8136 ∉ ns) ∧
      (∀ i, i + 8 < 136 → byteAt s'.mem (8000 + i) = byteAt Seg.afterFreeQ.mem (8000 + i)) ∧
      ∃ B' F', Seg.WF s' (4096 + 8) B' F' := by
  obtain ⟨B, F, hW, -, -, hlive, -, -⟩ := @Seg.seg_reach_inv (zeroMem 4096 1000000) (by decide)
    Seg.afterFreeQ [8000]
    (@Seg.Reach.free _ _ Seg.afterP.1 Seg.afterFreeQ [8000, 8136] 8 8136
      (@Seg.Reach.malloc _ _ Seg.afterQ.1 Seg.afterP.1 [8136] 8 128 8000
        (@Seg.Reach.malloc _ _ Seg.initState Seg.afterQ.1 [] 8 128 8136
          (@Seg.Reach.init _ _ 8 Seg.initState (by rfl)) (by decide) (by rfl))
        (by decide) (by rfl))
      (by decide) (by rfl))
  obtain ⟨b, hb, hba, hbl, hb16⟩ := hlive 8000 (by simp)
  have hs : b.size = 136 := by
    have h1 := hW.layout.get_size hb
    rw [hba] at h1
    have h2 : Seg.GET_SIZE Seg.afterFreeQ.mem (Seg.HDRP 8000) = .ok 136 := by rfl
    rw [h1] at h2
    exact Except.ok.inj h2
  obtain ⟨L, c, R, rfl, hc⟩ := hW.layout.succ hb (by omega)
  have hcm : c ∈ L ++ b :: c :: R := by simp
  rw [hba, hs] at hc
  have hcs : c.size = 136 := by
    have h1 := hW.layout.get_size hcm
    rw [hc] at h1
    have h2 : Seg.GET_SIZE Seg.afterFreeQ.mem (Seg.HDRP (8000 + 136)) = .ok 136 := by rfl
    rw [h1] at h2
    exact Except.ok.inj h2
  have hcf : c.alloc = false := by
    have h1 := hW.layout.get_alloc hcm
    rw [hc] at h1
    have h2 : Seg.GET_ALLOC Seg.afterFreeQ.mem (Seg.HDRP (8000 + 136)) = .ok 0 := by rfl
    rw [h1] at h2
    have h3 := Except.ok.inj h2
    cases hca : c.alloc with
    | false => rfl
    | true => rw [hca] at h3; exact absurd h3 (by decide)
  have := seg_realloc_absorbs_next 8 Seg.afterFreeQ _ _ F b c 100 hW hb hbl hb16 hcm
    (by rw [hc, hba, hs]) hcf (by decide) (by decide) (by rw [hs]; decide)
    (by rw [hs, hcs]; decide) (by rw [hs, hcs]; decide)
  rw [hba, hs, hcs, hc] at this
  exact this


/-- C22 (failing run) — segregated variant: after `a = mm_malloc(24); mm_malloc(1);
b = mm_malloc(40); mm_malloc(1); mm_free(a)` list 5 holds the single block `a` of 32 bytes
(sizes met: `[32]`, ascending). `mm_free(b)` then calls `insert_node(b, 48)`; afterwards the
walk of list 5 from its head along the predecessor links meets `b` then `a`, sizes
`[48, 32]`: not ascending. The bucket loop has shifted `size` down to 1 before the ordering
loop compares it with the sizes in the list, so every block is inserted at the head. -/
theorem seg_insert_breaks_size_order :
    Seg.sizeOrderRun = .ok (4112, 4176, 48, [4112], [32], [4176, 4112], [48, 32]) ∧
    List.Chain' (fun x y : Nat => x ≤ y) [32] ∧
    ¬ List.Chain' (fun x y : Nat => x ≤ y) [48, 32] :=
  ⟨by rfl, by simp, by simp⟩

/-- C23 (failing run) — segregated variant: after `a = mm_malloc(24); mm_malloc(1);
b = mm_malloc(40); mm_malloc(1); mm_free(b); mm_free(a)` the two free blocks `a = 4112` and
`b = 4176` are both in list 5; the head of the list is `a`, the block with the smaller
address, and its predecessor link points to `b`, at a higher address. -/
theorem seg_list_not_address_ordered :
    Seg.addrOrderRun = .ok (4112, 4176, [4112, 4176],
      [(8, 1), (32, 0), (32, 1), (48, 0), (16, 1), (4032, 0), (0, 1)]) ∧
    ¬ List.Chain' (fun x y : Nat => y < x) [4112, 4176] :=
  ⟨by rfl, by simp⟩

/-- C26 (failing run) — segregated variant. Kept block: after `p = mm_malloc(136)` the block
of `p` has 144 bytes; `mm_realloc(p, 1)` (`asize = 144`, surplus 0) returns `p` and the
header word of the next block reads 1: bit 1 is clear. Grown block: after
`q = mm_malloc(128); p = mm_malloc(128); mm_free(q)`, `mm_realloc(p, 100)` (`asize = 240`)
returns `p` with 272 bytes (surplus 32) and the header word of the next block reads 1 again.
`SET_RATAG` only computes `GET(p) | 0x2`; it stores nothing. -/
theorem seg_realloc_sets_no_tag :
    (Seg.raKeepRun = .ok (8128, 144, 8128, 144, 8272, 1) ∧
      144 - (max (Seg.ALIGN (1 + 8)) 16 + 128) < 256 ∧ 1 &&& 2 = 0) ∧
    (Seg.raGrowRun = .ok (8000, 8000, 272, 8272, 1) ∧
      272 - (max (Seg.ALIGN (100 + 8)) 16 + 128) < 256) :=
  ⟨⟨by rfl, by decide, by decide⟩, ⟨by rfl, by decide⟩⟩

/-- C27 (failing run) — segregated variant, on an arena that was not cleared (the word at
8236 holds 2): after `mm_init(); a = mm_malloc(1); b = mm_malloc(1); c = mm_malloc(1);
mm_free(b); q = mm_realloc(a, 100)` the block `q = a = 4112` has 4128 bytes and the header
of `next_block(q) = 8240` is the word at 8236, whose RA bit is set (`GET_TAG` reads 2).
`mm_free(q)` then returns, and `GET_TAG` of the header of `next_block(q)` still reads 2.
`REMOVE_RATAG` only computes `GET(p) & 0x2`; it stores nothing. -/
theorem seg_free_keeps_tag :
    Seg.staleTagRun = .ok (4112, 8240, 2, 8240, 2) ∧ (2 : Nat) ≠ 0 :=
  ⟨by rfl, by decide⟩

/-- C30 (failing run) — segregated variant: `mm_init` leaves one free block of `F = 64`
bytes; `mm_malloc(40)` has adjusted size 48, so `F - asize = 16`. The block is not split:
afterwards the heap scans as prologue, one allocated block of 64 bytes, epilogue, and all
twenty lists are empty. `place` tests `remainder <= 16`, so a remainder of exactly 16 bytes
(a whole minimum block) is given away with the allocation. -/
theorem seg_place_keeps_16 :
    Seg.placeEdgeRun = .ok ([(8, 1), (64, 0), (0, 1)], 48, 4112, [(8, 1), (64, 1), (0, 1)],
      [[], [], [], [], [], [], [], [], [], [], [], [], [], [], [], [], [], [], [], []]) ∧
    16 ≤ 64 - 48 :=
  ⟨by rfl, by decide⟩

/-- C28 — segregated variant, boundary-word encoding: for every word location `p` of the
heap, every size that is a multiple of 8 below 2^32 and every `alloc` in {0, 1}, the write
`PUT(p, PACK(size, alloc))` succeeds and afterwards `GET_SIZE(p) = size`,
`GET_ALLOC(p) = alloc` and `GET_TAG(p)` is what it was before the write; the write
`PUT_NOTAG(p, PACK(size, alloc))` succeeds and afterwards `GET_SIZE(p) = size`,
`GET_ALLOC(p) = alloc` and `GET_TAG(p) = 0`. -/
theorem seg_tag_encoding (m : Mem) (p size alloc : Nat) (hp : m.ok p) (h8 : size % 8 = 0)
    (hlt : size < W32) (ha : alloc < 2) :
    (∃ m', Seg.PUT m p (Seg.PACK size alloc) = .ok m' ∧ Seg.GET_SIZE m' p = .ok size ∧
      Seg.GET_ALLOC m' p = .ok alloc ∧ Seg.GET_TAG m' p = Seg.GET_TAG m p) ∧
    (∃ m', Seg.PUT_NOTAG m p (Seg.PACK size alloc) = .ok m' ∧ Seg.GET_SIZE m' p = .ok size ∧
      Seg.GET_ALLOC m' p = .ok alloc ∧ Seg.GET_TAG m' p = .ok 0) := by
  have hW : W32 = 4294967296 := rfl
  constructor
  · have ht : m.w p % W32 &&& 2 = 0 ∨ m.w p % W32 &&& 2 = 2 := by
      rw [land_two]
      omega
    have e := Seg.pack_or_tag h8 ha ht
    obtain ⟨m', hs⟩ := Seg.store_total (Seg.PACK size alloc ||| (m.w p % W32 &&& 2)) hp
    have hl : load m' p = .ok (size + (alloc + (m.w p % W32 &&& 2))) := by
      rw [load_store hs, if_pos rfl, e]
      exact congrArg _ (Nat.mod_eq_of_lt (by omega))
    obtain ⟨f1, f2, f3⟩ := Seg.fields_of_word hl h8 ha ht
    have hg : Seg.GET_TAG m p = .ok (m.w p % W32 &&& 2) := by
      unfold Seg.GET_TAG Seg.GET
      rw [load_eq hp]
      rfl
    refine ⟨m', ?_, f1, f2, by rw [f3, hg]⟩
    unfold Seg.PUT
    rw [hg]
    exact hs
  · obtain ⟨m', hs⟩ := Seg.store_total (Seg.PACK size alloc) hp
    have e := Seg.pack_or_tag (t := 0) h8 ha (Or.inl rfl)
    rw [Nat.or_zero] at e
    have hl : load m' p = .ok (size + (alloc + 0)) := by
      rw [load_store hs, if_pos rfl, e]
      exact congrArg _ (Nat.mod_eq_of_lt (by omega))
    obtain ⟨f1, f2, f3⟩ := Seg.fields_of_word hl h8 ha (Or.inl rfl)
    exact ⟨m', hs, f1, f2, f3⟩

/-- Witness for C28: the theorem applied to the header word of the first block on the
freshly initialised heap (address 4108), size 48 and `alloc = 1`. -/
theorem seg_tag_encoding_witness :
    (∃ m', Seg.PUT Seg.initState.mem 4108 (Seg.PACK 48 1) = .ok m' ∧
      Seg.GET_SIZE m' 4108 = .ok 48 ∧ Seg.GET_ALLOC m' 4108 = .ok 1 ∧
      Seg.GET_TAG m' 4108 = Seg.GET_TAG Seg.initState.mem 4108) ∧
    (∃ m', Seg.PUT_NOTAG Seg.initState.mem 4108 (Seg.PACK 48 1) = .ok m' ∧
      Seg.GET_SIZE m' 4108 = .ok 48 ∧ Seg.GET_ALLOC m' 4108 = .ok 1 ∧
      Seg.GET_TAG m' 4108 = .ok 0) :=
  seg_tag_encoding Seg.initState.mem 4108 48 1 (by decide) (by decide) (by decide) (by decide)

/-- C21 — segregated variant: for every size >= 1 the bucket index that `insert_node` and
`delete_node` compute is `min(floor(log2(size)), 19)`: it is the `k < 19` with
`2^k <= size < 2^(k+1)`, and 19 exactly when `size >= 2^19`. On a laid-out heap with
well-formed lists, for a free block `b` that is in no list, `insert_node(b, size of b)`
returns (given one unit of fuel for its ordering loop); afterwards the walk of list
`bucket(size of b)` from its head meets `b`, and the walk of every other list does not. -/
theorem seg_insert_bucket (n : Nat) (s : Seg.State) (h0 : Nat) (B : List Blk)
    (F : Nat → List Nat) (b : Blk) (size : Nat) (hs : 1 ≤ size)
    (hL : Seg.Layout s.mem h0 B) (hF : Seg.Lists s.mem s.segregated_free_lists B F)
    (hb : b ∈ B) (hbf : b.alloc = false) (hnin : b.addr ∉ F (Seg.bucket b.size)) :
    (Seg.bucket size = min (Nat.log2 size) 19 ∧
      (Seg.bucket size < 19 → 2 ^ Seg.bucket size ≤ size ∧ size < 2 ^ (Seg.bucket size + 1)) ∧
      (Seg.bucket size = 19 ↔ 2 ^ 19 ≤ size)) ∧
    ∃ s', Seg.insert_node (n + 1) s b.addr b.size = .ok s' ∧
      (∃ ns, Seg.listWalk s'.mem (ns.length + 1)
          (s'.segregated_free_lists (Seg.bucket b.size)) = .ok ns ∧ b.addr ∈ ns) ∧
      ∀ k, k < 20 → k ≠ Seg.bucket b.size →
        ∃ ns, Seg.listWalk s'.mem (ns.length + 1) (s'.segregated_free_lists k) = .ok ns ∧
          b.addr ∉ ns := by
  refine ⟨Seg.bucket_log2 hs, ?_⟩
  obtain ⟨s', hi⟩ := Seg.insert_node_total n hL hF hb hbf hnin
  obtain ⟨hL', hF', -⟩ := Seg.insert_node_spec hL hF hb hbf hnin hi
  have hk := Seg.bucket_lt b.size
  have h16 := hL.free16 b hb hbf
  refine ⟨s', hi, ⟨_, hF'.walk_eq hL' hk, ?_⟩, fun k hk' hne => ⟨_, hF'.walk_eq hL' hk', ?_⟩⟩
  · rw [Function.update_same]
    exact List.mem_cons_self _ _
  · rw [Function.update_noteq hne]
    intro hin
    obtain ⟨c, hc, e, hcf, hck⟩ := hF.nodes k hk' _ hin
    have := hL.addr_inj hb hc e.symm (by omega)
    subst this
    exact hne hck.symm

/-- Witness for C21: the theorem applied to the free block of 64 bytes at 4112 that
`mm_init` leaves, once `delete_node` has taken it out of its list, and to `size = 64`
(bucket 6): `insert_node` puts the block back at the head of list 6. -/
theorem seg_insert_bucket_witness :
    (Seg.bucket 64 = min (Nat.log2 64) 19 ∧
      (Seg.bucket 64 < 19 → 2 ^ Seg.bucket 64 ≤ 64 ∧ 64 < 2 ^ (Seg.bucket 64 + 1)) ∧
      (Seg.bucket 64 = 19 ↔ 2 ^ 19 ≤ 64)) ∧
    ∃ s', Seg.insert_node (0 + 1) Seg.unlinked64 4112 64 = .ok s' ∧
      (∃ ns, Seg.listWalk s'.mem (ns.length + 1)
          (s'.segregated_free_lists (Seg.bucket 64)) = .ok ns ∧ 4112 ∈ ns) ∧
      ∀ k, k < 20 → k ≠ Seg.bucket 64 →
        ∃ ns, Seg.listWalk s'.mem (ns.length + 1) (s'.segregated_free_lists k) = .ok ns ∧
          4112 ∉ ns := by
  obtain ⟨B, F, hW, -⟩ := @Seg.seg_mm_init_spec 8 (zeroMem 4096 1000000)
    Seg.initState (by decide) (by rfl)
  have hhd := hW.lists.heads 6 (by decide)
  have e6 : Seg.initState.segregated_free_lists 6 = 4112 := by rfl
  rw [e6] at hhd
  have hin : 4112 ∈ F 6 := by
    cases hf : F 6 with
    | nil => rw [hf] at hhd; simp at hhd
    | cons y ys =>
      rw [hf] at hhd
      simp only [List.headD_cons] at hhd
      rw [← hhd]
      exact List.mem_cons_self _ _
  obtain ⟨b, hb, hba, hbf, -⟩ := hW.lists.nodes 6 (by decide) _ hin
  have hs : b.size = 64 := by
    have h1 := hW.layout.get_size hb
    rw [hba] at h1
    have h2 : Seg.GET_SIZE Seg.initState.mem (Seg.HDRP 4112) = .ok 64 := by rfl
    rw [h1] at h2
    exact Except.ok.inj h2
  have hd : Seg.delete_node Seg.initState b.addr = .ok Seg.unlinked64 := by rw [hba]; rfl
  obtain ⟨F', hP, -⟩ := Seg.Part.delete hW.part hb hbf (by simp) hd
  have := seg_insert_bucket 0 Seg.unlinked64 _ B F' b 64 (by decide) hP.layout hP.lists hb hbf
    (fun hh => hP.unlinked _ (Seg.bucket_lt _) _ hh (List.mem_singleton.mpr rfl))
  rw [hba, hs] at this
  exact this

/-- C24 — segregated variant: the fit search inside `mm_malloc`, for an adjusted size
`asize >= 16`, on lists whose walks from the head along the predecessor links end (`walk k`
for list `k`, within the fuel given) and whose nodes have readable headers (`sizeOf`,
`tagOf`). With `k0 = min(floor(log2(asize)), 19)`, the search returns a pointer `r` such
that either `r` is `NULL` and no list `k >= k0` holds a block with `size >= asize` and RA bit
clear, or `r` is the first such block in the walk of a list `k >= k0` while no list from
`k0` to `k - 1` holds one; `r` is `NULL` (and `mm_malloc` goes on to extend the heap) if and
only if no list `k >= k0` holds such a block. -/
theorem seg_fit_search (fuel : Nat) (s : Seg.State) (asize : Nat) (sizeOf tagOf : Nat → Nat)
    (walk : Nat → List Nat) (ha : 16 ≤ asize)
    (hw : ∀ k, k < 20 → Seg.listWalk s.mem fuel (s.segregated_free_lists k) = .ok (walk k))
    (hr : ∀ k, k < 20 → ∀ a ∈ walk k, Seg.GET_SIZE s.mem (Seg.HDRP a) = .ok (sizeOf a) ∧
      Seg.GET_TAG s.mem (Seg.HDRP a) = .ok (tagOf a)) :
    ∃ r, Seg.fitLists fuel s asize Seg.LISTLIMIT 0 asize = .ok r ∧
      ((r = 0 ∧ ∀ k, min (Nat.log2 asize) 19 ≤ k → k < 20 →
          ∀ a ∈ walk k, ¬ (asize ≤ sizeOf a ∧ tagOf a = 0)) ∨
        ∃ k, min (Nat.log2 asize) 19 ≤ k ∧ k < 20 ∧
          (walk k).find? (fun a => decide (asize ≤ sizeOf a ∧ tagOf a = 0)) = some r ∧
          ∀ j, min (Nat.log2 asize) 19 ≤ j → j < k →
            ∀ a ∈ walk j, ¬ (asize ≤ sizeOf a ∧ tagOf a = 0)) ∧
      (r = 0 ↔ ∀ k, min (Nat.log2 asize) 19 ≤ k → k < 20 →
        ∀ a ∈ walk k, ¬ (asize ≤ sizeOf a ∧ tagOf a = 0)) := by
  obtain ⟨r, h1, h2⟩ := Seg.fitLists_first (show 1 ≤ asize by omega) hw hr 20 0 rfl
  refine ⟨r, h1, ?_, ?_⟩
  · rcases h2 with ⟨r0, hall⟩ | ⟨k, k1, -, k3, k4, k5⟩
    · exact Or.inl ⟨r0, fun k c1 c3 => hall k c1 (Nat.zero_le _) c3⟩
    · exact Or.inr ⟨k, k1, k3, k4, fun j c1 c3 => k5 j c1 (Nat.zero_le _) c3⟩
  · rcases h2 with ⟨r0, hall⟩ | ⟨k, k1, -, k3, k4, k5⟩
    · exact ⟨fun _ k c1 c3 => hall k c1 (Nat.zero_le _) c3, fun _ => r0⟩
    · have hm := List.mem_of_find?_eq_some k4
      have hfit := List.find?_some k4
      have hne := Seg.listWalk_ne_zero fuel _ _ (hw k k3) r hm
      constructor
      · intro e
        exact absurd e hne
      · intro hall
        exact absurd (by simpa using hfit) (hall k k1 k3 r hm)

/-- Witness for C24: the theorem applied to the heap after `a = mm_malloc(232);
mm_malloc(100); b = mm_malloc(292); mm_malloc(100); mm_free(a); mm_free(b)` (list 7 holds
the block 8032 of 240 bytes, list 8 the block 7616 of 304 bytes, list 11 the block 4112) and
`asize = 208`: the search returns 8032. -/
theorem seg_fit_search_witness :
    Seg.fitLists 8 Seg.bucketState 208 Seg.LISTLIMIT 0 208 = .ok 8032 ∧
    ∃ r, Seg.fitLists 8 Seg.bucketState 208 Seg.LISTLIMIT 0 208 = .ok r ∧
      ((r = 0 ∧ ∀ k, min (Nat.log2 208) 19 ≤ k → k < 20 → ∀ a ∈ Seg.walkOf Seg.bucketState k,
          ¬ (208 ≤ Seg.sizeAt Seg.bucketState.mem a ∧ Seg.tagAt Seg.bucketState.mem a = 0)) ∨
        ∃ k, min (Nat.log2 208) 19 ≤ k ∧ k < 20 ∧
          (Seg.walkOf Seg.bucketState k).find? (fun a => decide
            (208 ≤ Seg.sizeAt Seg.bucketState.mem a ∧ Seg.tagAt Seg.bucketState.mem a = 0))
            = some r ∧
          ∀ j, min (Nat.log2 208) 19 ≤ j → j < k → ∀ a ∈ Seg.walkOf Seg.bucketState j,
            ¬ (208 ≤ Seg.sizeAt Seg.bucketState.mem a ∧
              Seg.tagAt Seg.bucketState.mem a = 0)) ∧
      (r = 0 ↔ ∀ k, min (Nat.log2 208) 19 ≤ k → k < 20 → ∀ a ∈ Seg.walkOf Seg.bucketState k,
        ¬ (208 ≤ Seg.sizeAt Seg.bucketState.mem a ∧ Seg.tagAt Seg.bucketState.mem a = 0)) := by
  refine ⟨by rfl, seg_fit_search 8 Seg.bucketState 208 (Seg.sizeAt Seg.bucketState.mem)
    (Seg.tagAt Seg.bucketState.mem) (Seg.walkOf Seg.bucketState) (by decide) ?_ ?_⟩
  · intro k hk
    interval_cases k <;> rfl
  · intro k hk
    interval_cases k
    all_goals first | exact fun a ha => absurd ha (List.not_mem_nil a) | skip
    · intro a ha
      have ha' : a ∈ [8032] := ha
      rw [List.mem_singleton] at ha'
      subst ha'
      exact ⟨by rfl, by rfl⟩
    · intro a ha
      have ha' : a ∈ [7616] := ha
      rw [List.mem_singleton] at ha'
      subst ha'
      exact ⟨by rfl, by rfl⟩
    · intro a ha
      have ha' : a ∈ [4112] := ha
      rw [List.mem_singleton] at ha'
      subst ha'
      exact ⟨by rfl, by rfl⟩

/-- C25 (counterexample) — segregated variant. First run: on the heap after
`a = mm_malloc(232); mm_malloc(100); b = mm_malloc(292); mm_malloc(100); mm_free(a);
mm_free(b)`, list 7 holds the block 8032 of 240 bytes and list 8 the block 7616 of 304 bytes;
both fit the adjusted size 208 of `mm_malloc(200)`. The fit search selects 8032, the block of
list 7, not the one of list 8, and `mm_malloc(200)` returns 8064 inside it. Second run: after
`x = mm_malloc(4000); mm_free(x)` the only free block (4160 bytes, at 4112) is in list 12;
list 8 and all lower lists are empty, and the search selects the block of list 12, a
higher-indexed list. -/
theorem seg_malloc_200_not_bucket_8 :
    (Seg.bucketRun = .ok ([8032], [240], [7616], [304], 8032, 8064) ∧
      Seg.adjust 200 = 208 ∧ 208 ≤ 304 ∧ 8032 ∉ [7616]) ∧
    (Seg.bucketHighRun = .ok ([[], [], [], [], [], [], [], [], [], [], [], [], [4112], [], [],
        [], [], [], [], []], 4112, 4160, 12) ∧ 8 < 12) :=
  ⟨⟨by rfl, by rfl, by decide, by decide⟩, ⟨by rfl, by decide⟩⟩

/-- C25 (amended) — segregated variant: the fit search of `mm_malloc(200)` works with the
adjusted size 208 and starts at list 7 (sizes `[128, 256)`). On lists whose walks end and
whose nodes have readable headers, it returns a pointer `r` such that: if list 7 holds a
block with `size >= 208` and RA bit clear, `r` is the first such block of list 7; if list 7
holds none and list 8 holds one, `r` is the first such block of list 8; and whenever `r` is
not `NULL` it is a fitting block of some list `k >= 7`, never of a lower-indexed list. -/
theorem seg_malloc_200_bucket (fuel : Nat) (s : Seg.State) (sizeOf tagOf : Nat → Nat)
    (walk : Nat → List Nat)
    (hw : ∀ k, k < 20 → Seg.listWalk s.mem fuel (s.segregated_free_lists k) = .ok (walk k))
    (hr : ∀ k, k < 20 → ∀ a ∈ walk k, Seg.GET_SIZE s.mem (Seg.HDRP a) = .ok (sizeOf a) ∧
      Seg.GET_TAG s.mem (Seg.HDRP a) = .ok (tagOf a)) :
    ∃ r, Seg.fitLists fuel s (Seg.adjust 200) Seg.LISTLIMIT 0 (Seg.adjust 200) = .ok r ∧
      ((∃ a ∈ walk 7, 208 ≤ sizeOf a ∧ tagOf a = 0) →
        (walk 7).find? (fun a => decide (208 ≤ sizeOf a ∧ tagOf a = 0)) = some r) ∧
      ((∀ a ∈ walk 7, ¬ (208 ≤ sizeOf a ∧ tagOf a = 0)) →
        (∃ a ∈ walk 8, 208 ≤ sizeOf a ∧ tagOf a = 0) →
        (walk 8).find? (fun a => decide (208 ≤ sizeOf a ∧ tagOf a = 0)) = some r) ∧
      (r ≠ 0 → ∃ k, 7 ≤ k ∧ k < 20 ∧ r ∈ walk k ∧ 208 ≤ sizeOf r ∧ tagOf r = 0) := by
  have e200 : Seg.adjust 200 = 208 := by rfl
  rw [e200]
  obtain ⟨r, h1, h2⟩ := @Seg.fitLists_first fuel s 208 sizeOf tagOf walk (by decide) hw hr
    20 0 rfl
  rw [log2_208] at h2
  have e7 : min 7 19 = 7 := rfl
  rw [e7] at h2
  refine ⟨r, h1, ?_, ?_, ?_⟩
  · rintro ⟨a, ha, hfit⟩
    rcases h2 with ⟨-, hall⟩ | ⟨k, k1, -, k3, k4, k5⟩
    · exact absurd hfit (hall 7 (le_refl _) (Nat.zero_le _) (by decide) a ha)
    · by_cases e : k = 7
      · subst e; exact k4
      · exact absurd hfit (k5 7 (le_refl _) (Nat.zero_le _) (by omega) a ha)
  · rintro hno ⟨a, ha, hfit⟩
    rcases h2 with ⟨-, hall⟩ | ⟨k, k1, -, k3, k4, k5⟩
    · exact absurd hfit (hall 8 (by decide) (Nat.zero_le _) (by decide) a ha)
    · by_cases e : k = 8
      · subst e; exact k4
      · by_cases e7' : k = 7
        · subst e7'
          have hm := List.mem_of_find?_eq_some k4
          have hf := List.find?_some k4
          exact absurd (by simpa using hf) (hno r hm)
        · exact absurd hfit (k5 8 (by decide) (Nat.zero_le _) (by omega) a ha)
  · intro hne
    rcases h2 with ⟨r0, -⟩ | ⟨k, k1, -, k3, k4, k5⟩
    · exact absurd r0 hne
    · have hm := List.mem_of_find?_eq_some k4
      have hf := List.find?_some k4
      have hf' : 208 ≤ sizeOf r ∧ tagOf r = 0 := by simpa using hf
      exact ⟨k, k1, k3, hm, hf'.1, hf'.2⟩

/-- Witness for C25: the theorem applied to the heap of the first run of the
counterexample, where lists 7 and 8 both hold a fitting block. -/
theorem seg_malloc_200_bucket_witness :
    ∃ r, Seg.fitLists 8 Seg.bucketState (Seg.adjust 200) Seg.LISTLIMIT 0 (Seg.adjust 200)
        = .ok r ∧
      ((∃ a ∈ Seg.walkOf Seg.bucketState 7,
          208 ≤ Seg.sizeAt Seg.bucketState.mem a ∧ Seg.tagAt Seg.bucketState.mem a = 0) →
        (Seg.walkOf Seg.bucketState 7).find? (fun a => decide
          (208 ≤ Seg.sizeAt Seg.bucketState.mem a ∧ Seg.tagAt Seg.bucketState.mem a = 0))
          = some r) ∧
      ((∀ a ∈ Seg.walkOf Seg.bucketState 7,
          ¬ (208 ≤ Seg.sizeAt Seg.bucketState.mem a ∧ Seg.tagAt Seg.bucketState.mem a = 0)) →
        (∃ a ∈ Seg.walkOf Seg.bucketState 8,
          208 ≤ Seg.sizeAt Seg.bucketState.mem a ∧ Seg.tagAt Seg.bucketState.mem a = 0) →
        (Seg.walkOf Seg.bucketState 8).find? (fun a => decide
          (208 ≤ Seg.sizeAt Seg.bucketState.mem a ∧ Seg.tagAt Seg.bucketState.mem a = 0))
          = some r) ∧
      (r ≠ 0 → ∃ k, 7 ≤ k ∧ k < 20 ∧ r ∈ Seg.walkOf Seg.bucketState k ∧
        208 ≤ Seg.sizeAt Seg.bucketState.mem r ∧ Seg.tagAt Seg.bucketState.mem r = 0) := by
  refine seg_malloc_200_bucket 8 Seg.bucketState (Seg.sizeAt Seg.bucketState.mem)
    (Seg.tagAt Seg.bucketState.mem) (Seg.walkOf Seg.bucketState) ?_ ?_
  · intro k hk
    interval_cases k <;> rfl
  · intro k hk
    interval_cases k
    all_goals first | exact fun a ha => absurd ha (List.not_mem_nil a) | skip
    · intro a ha
      have ha' : a ∈ [8032] := ha
      rw [List.mem_singleton] at ha'
      subst ha'
      exact ⟨by rfl, by rfl⟩
    · intro a ha
      have ha' : a ∈ [7616] := ha
      rw [List.mem_singleton] at ha'
      subst ha'
      exact ⟨by rfl, by rfl⟩
    · intro a ha
      have ha' : a ∈ [4112] := ha
      rw [List.mem_singleton] at ha'
      subst ha'
      exact ⟨by rfl, by rfl⟩

/-- C29 — implicit variant: on every represented heap, for every free block `b` of size `F`
and every `asize` that is a multiple of 8 with `16 <= asize <= F`, `place(b, asize)` returns,
and it splits if and only if `F - asize >= 16`: in that case the heap is represented with
`b` replaced by an allocated block of `asize` bytes followed by a free block of
`F - asize` bytes (headers and footers `asize | 1` and `F - asize`); otherwise it is
represented with `b` replaced by one allocated block of `F` bytes (header and footer
`F | 1`) and no block is created. -/
theorem implicit_place_split (s : Implicit.State) (L R : List Blk) (b : Blk) (asize : Nat)
    (h : Implicit.Rep s (L ++ b :: R)) (hfree : b.alloc = false) (ha8 : asize % 8 = 0)
    (ha16 : 16 ≤ asize) (hle : asize ≤ b.size) :
    ∃ s', Implicit.place s b.addr asize = .ok s' ∧
      (16 ≤ b.size - asize →
        Implicit.Rep s' (L ++ [⟨b.addr, asize, true⟩,
          ⟨b.addr + asize, b.size - asize, false⟩] ++ R) ∧
        load s'.mem (b.addr - 4) = .ok (asize + 1) ∧
        load s'.mem (b.addr + asize - 8) = .ok (asize + 1) ∧
        load s'.mem (b.addr + asize - 4) = .ok (b.size - asize) ∧
        load s'.mem (b.addr + b.size - 8) = .ok (b.size - asize)) ∧
      (b.size - asize < 16 →
        Implicit.Rep s' (L ++ [⟨b.addr, b.size, true⟩] ++ R) ∧
        load s'.mem (b.addr - 4) = .ok (b.size + 1) ∧
        load s'.mem (b.addr + b.size - 8) = .ok (b.size + 1)) := by
  obtain ⟨s', hp⟩ := Implicit.place_total h hfree ha8 ha16 hle
  obtain ⟨B', hB', hR', -⟩ := Implicit.place_exact h hfree ha8 ha16 hle hp
  refine ⟨s', hp, fun hs => ?_, fun hs => ?_⟩
  · rw [if_pos hs] at hB'
    subst hB'
    have h1 := hR'.hdr ⟨b.addr, asize, true⟩ (by simp)
    have h2 := hR'.ftr ⟨b.addr, asize, true⟩ (by simp) (by show asize ≠ 0; omega)
    have h3 := hR'.hdr ⟨b.addr + asize, b.size - asize, false⟩ (by simp)
    have h4 := hR'.ftr ⟨b.addr + asize, b.size - asize, false⟩ (by simp)
      (by show b.size - asize ≠ 0; omega)
    refine ⟨hR', h1, h2, ?_, ?_⟩
    · have e : b.addr + asize - 4 = (⟨b.addr + asize, b.size - asize, false⟩ : Blk).addr - 4 :=
        rfl
      rw [e]
      exact h3
    · have e : b.addr + b.size - 8 = b.addr + asize + (b.size - asize) - 8 := by omega
      rw [e]
      exact h4
  · rw [if_neg (by omega)] at hB'
    subst hB'
    have h1 := hR'.hdr ⟨b.addr, b.size, true⟩ (by simp)
    have h2 := hR'.ftr ⟨b.addr, b.size, true⟩ (by simp) (by show b.size ≠ 0; omega)
    exact ⟨hR', h1, h2⟩

/-- Witness for C29: the theorem applied to the free block of 4096 bytes at 4112 on the
freshly initialised heap and `asize = 24`: the block is split into an allocated block of 24
bytes and a free block of 4072 bytes. -/
theorem implicit_place_split_witness :
    ∃ s', Implicit.place Implicit.initState 4112 24 = .ok s' ∧ 16 ≤ 4096 - 24 ∧
      (∃ L R, Implicit.Rep s' (L ++ [⟨4112, 24, true⟩, ⟨4112 + 24, 4096 - 24, false⟩] ++ R)) ∧
      load s'.mem (4112 - 4) = .ok (24 + 1) ∧ load s'.mem (4112 + 24 - 8) = .ok (24 + 1) ∧
      load s'.mem (4112 + 24 - 4) = .ok (4096 - 24) ∧
      load s'.mem (4112 + 4096 - 8) = .ok (4096 - 24) := by
  obtain ⟨B, hB, -⟩ := @Implicit.mm_init_spec (zeroMem 4096 1000000) Implicit.initState
    (by decide) (by decide) (by decide) (by rfl)
  obtain ⟨b, hb, hba⟩ := hB.rover
  have hba' : b.addr = 4112 := hba
  have ht := hB.hdr b hb
  rw [hba'] at ht
  have h2 : load Implicit.initState.mem (4112 - 4) = .ok 4096 := by rfl
  rw [ht] at h2
  have h3 : b.tag = 4096 := Except.ok.inj h2
  have h8 := (tiles_mem _ _ _ hB.tiles b hb).2.2
  have hs : b.size = 4096 ∧ b.alloc = false := by
    rw [Implicit.Blk.tag_eq] at h3
    cases hal : b.alloc with
    | false => rw [hal] at h3; exact ⟨by simpa using h3, rfl⟩
    | true =>
      rw [hal] at h3
      have : b.size + 1 = 4096 := h3
      omega
  obtain ⟨L, R, rfl⟩ := List.append_of_mem hb
  obtain ⟨s', hp, hsplit, -⟩ := implicit_place_split Implicit.initState L R b 24 hB hs.2
    (by decide) (by decide) (by rw [hs.1]; decide)
  rw [hba'] at hp
  rw [hba', hs.1] at hsplit
  obtain ⟨r1, r2, r3, r4, r5⟩ := hsplit (by decide)
  exact ⟨s', hp, by decide, ⟨L, R, r1⟩, r2, r3, r4, r5⟩

/-- C15 (explicit variant): on every well-formed heap, freeing an allocated block `b` whose
previous and next blocks are allocated (or absent) returns and makes `b` the head of the
free list, and an immediately following `mm_malloc(n)` with `n ≠ 0` whose adjusted size is
at most the size of `b` returns the address of `b` again. -/
theorem explicit_lifo_reuse {s : Explicit.State} {L R : List Blk} {b : Blk} (fuel n : Nat)
    (h : Explicit.WF s (L ++ b :: R)) (hb : b.alloc = true)
    (hprev : ∀ x, L.getLast? = some x → x.alloc = true)
    (hnext : ∀ y, R.head? = some y → y.alloc = true)
    (hn : n ≠ 0) (hfit : Explicit.adjust n ≤ b.size) :
    ∃ s1 s2, Explicit.mm_free s b.addr = .ok s1 ∧ s1.free_listp = b.addr ∧
      Explicit.mm_malloc (fuel + 1) s1 n = .ok (s2, b.addr) := by
  obtain ⟨pv, psz, nv, f1, f2, f3, f4, f5, f6, f7, f8, f9, f10, f11, f12, f13, f14, f15⟩ :=
    h.facts hb hprev hnext
  obtain ⟨m, hl, fl⟩ := s
  dsimp only at f1 f2 f6 f7 f8 f9 f10 f12 f13 f14 f15
  obtain ⟨m1, r1, r2, r3, -, r5⟩ : ∃ m1, Explicit.mm_free ⟨m, hl, fl⟩ b.addr =
      .ok ⟨m1, hl, b.addr⟩ ∧ m1.lo = m.lo ∧ m1.brk = m.brk ∧ m1.hi = m.hi ∧
      ∀ q, load m1 q = if q = b.addr + 4 then .ok 0 else if q = fl + 4 then .ok b.addr
        else if q = b.addr then .ok fl else if q = b.addr + b.size - 8 then .ok b.size
        else if q = b.addr - 4 then .ok b.size else load m q :=
    Explicit.free_run f1 f2 f3 f4 f5 f6 f7 f8 f9 f10 f11 f12 f13 f15
  obtain ⟨s2, hs2⟩ : ∃ s2, Explicit.mm_malloc (fuel + 1) ⟨m1, hl, b.addr⟩ n =
      .ok (s2, b.addr) :=
    Explicit.malloc_head fuel n (show m1.brk < W32 by rw [r3]; exact f1)
      (show m1.lo + 32 ≤ b.addr by rw [r2]; exact f2) f3 f5
      (show b.addr + b.size ≤ m1.brk by rw [r3]; exact f6) hn hfit
      (show load m1 (b.addr - 4) = .ok b.size by
        rw [r5, if_neg (by omega), if_neg (by omega), if_neg (by omega), if_neg (by omega),
          if_pos rfl])
      (show load m1 b.addr = .ok fl by
        rw [r5, if_neg (by omega), if_neg (by omega), if_pos rfl])
      (show load m1 (b.addr + 4) = .ok 0 by rw [r5, if_pos rfl])
      (show load m1 (b.addr + b.size - 4) = .ok (nv + 1) by
        rw [r5, if_neg (by omega), if_neg (by omega), if_neg (by omega), if_neg (by omega),
          if_neg (by omega)]; exact f10)
      f11 (show m1.lo ≤ fl by rw [r2]; exact f12) f14 f13
      (show fl + 16 ≤ b.addr ∨ (b.addr + b.size ≤ fl ∧ fl + 8 ≤ m1.brk) by rw [r3]; omega)
  exact ⟨_, s2, r1, rfl, hs2⟩

/-- Witness for C15: after `mm_init(); p = mm_malloc(24)` on a fresh arena the heap is well
formed with the single block of `p = 4128`; `mm_free(p)` makes it the head of the free list
and `mm_malloc(24)` returns `p` again. -/
theorem explicit_lifo_reuse_witness :
    Explicit.WF Explicit.reuseState ([] ++ ⟨4128, 32, true⟩ :: []) ∧
      ∃ s1 s2, Explicit.mm_free Explicit.reuseState 4128 = .ok s1 ∧ s1.free_listp = 4128 ∧
        Explicit.mm_malloc (0 + 1) s1 24 = .ok (s2, 4128) :=
  have hw : Explicit.WF Explicit.reuseState ([] ++ ⟨4128, 32, true⟩ :: []) :=
    ⟨⟨by decide, by decide, by decide, by decide,
      ⟨rfl, by decide, fun h => absurd rfl h, rfl⟩,
      by intro b hb; simp at hb; subst hb; decide,
      by intro b hb; simp at hb; subst hb; rfl,
      by intro b hb; simp at hb; subst hb; rfl,
      rfl, fun _ => rfl⟩, Or.inl rfl⟩
  ⟨hw, explicit_lifo_reuse 0 24 hw rfl (by simp) (by simp) (by decide) (by decide)⟩


/-- C20 (counterexample) — `mm.c`: the run `mm_init(); a = mm_malloc(4294967289);
b = mm_malloc(8); mm_free(a)` on a fresh arena uses only `mm_malloc` and `mm_free` on a live
pointer. The adjusted size of the first request wraps around to 8, so `a = 4120` is a block
of 8 bytes, and releasing it writes its successor link over the header of the live block
`b = 4128`. In the state reached the ring from the prologue is `[4120, 4144]`, while the
third block in heap order, at 4128, has allocation bit 0 in its header and is not on the
ring. -/
theorem mm_wrap_breaks_ring :
    Mm.wrapRingRun =
      .ok (4120, 4128, [4120, 4144], [(4104, 16, 1), (4120, 8, 0), (4128, 4144, 0)]) ∧
    ¬ ((4128 : Nat) ∈ [4120, 4144]) :=
  ⟨by rfl, by decide⟩

/-- C20 (amended) — `mm.c`, on a facade whose arena lies below 2^32: in every state
reached from a successful `mm_init` by `mm_malloc` calls with `size + 15 < 2^32` and
`mm_free` calls on live pointers, following the successor links from the prologue until
the prologue is reached again returns a list `F` without repetition; the scan of the heap
from the prologue reaches the epilogue, and the nodes of `F` are exactly the blocks of the
scan whose header has allocation bit 0; every node `x` of the cycle, the prologue included,
satisfies `PRED(SUCC(x)) = x`; and `find_fit` returns for every size as soon as its fuel
exceeds the length of `F`. -/
theorem mm_ring_invariant (m0 : Mem) (h3 : m0.hi < W32) (s : Mm.State) (L : List Nat)
    (hr : Mm.Reach (fun n => n + 15 < W32) m0 s L) :
    ∃ F bl, Mm.ring (F.length + 1) s = .ok F ∧ F.Nodup ∧
      Mm.scan s.mem bl.length s.heap_listp = .ok bl ∧
      (∀ a, a ∈ F ↔ ∃ sz, (a, sz, 0) ∈ bl) ∧
      (∀ x ∈ s.heap_listp :: F,
        ∃ y, Mm.SUCC_P s.mem x = .ok y ∧ Mm.PRED_P s.mem y = .ok x) ∧
      ∀ asize fuel, F.length < fuel → ∃ r, Mm.find_fit fuel s asize = .ok r := by
  obtain ⟨B, F, hW, -, -⟩ := Mm.mm_reach_inv h3 hr
  obtain ⟨bl, h⟩ := hW.observe
  exact ⟨F, bl, h⟩

/-- Witness for C20: the theorem applied to the run `mm_init(); a = mm_malloc(24);
b = mm_malloc(24); mm_free(a)` on the fresh zeroed arena at 4096. -/
theorem mm_ring_invariant_witness :
    ∃ F bl, Mm.ring (F.length + 1) Mm.afterFreeA = .ok F ∧ F.Nodup ∧
      Mm.scan Mm.afterFreeA.mem bl.length Mm.afterFreeA.heap_listp = .ok bl ∧
      (∀ a, a ∈ F ↔ ∃ sz, (a, sz, 0) ∈ bl) ∧
      (∀ x ∈ Mm.afterFreeA.heap_listp :: F,
        ∃ y, Mm.SUCC_P Mm.afterFreeA.mem x = .ok y ∧ Mm.PRED_P Mm.afterFreeA.mem y = .ok x) ∧
      ∀ asize fuel, F.length < fuel → ∃ r, Mm.find_fit fuel Mm.afterFreeA asize = .ok r :=
  mm_ring_invariant (zeroMem 4096 1000000) (by decide) Mm.afterFreeA [4152]
    (@Mm.Reach.free _ _ Mm.afterB.1 Mm.afterFreeA [4152, 4120] 4120
      (@Mm.Reach.malloc _ _ Mm.afterA.1 Mm.afterB.1 [4120] 8 24 4152
        (@Mm.Reach.malloc _ _ Mm.initState Mm.afterA.1 [] 8 24 4120
          (@Mm.Reach.init _ _ Mm.initState (by rfl)) (by decide) (by rfl))
        (by decide) (by rfl))
      (by decide) (by rfl))


/-- C35 (failing run) — `mm.c`: after `p = mm_malloc(16)` on a fresh arena the block of
`p = 4120` has 24 bytes and the block that follows is free with 4072 bytes, so a request to
grow to 100 bytes needs `100 - 24 = 76 <= 4072` bytes of the successor. `mm_realloc(p, 100)`
returns `q = 4144`, not `p`: a new block was allocated, and the header of `p` reads 24 with
the allocation bit clear (the old block was released). The in-place branch is guarded by
`cur_block_size > size`, which is false whenever the request exceeds the block size. -/
theorem mm_realloc_grow_not_in_place :
    Mm.growRun = .ok (4120, 24, 0, 4072, 4144, 24) ∧
    (24 : Nat) < 100 ∧ 100 - 24 ≤ 4072 ∧ (4144 : Nat) ≠ 4120 :=
  ⟨by rfl, by decide, by decide, by decide⟩

/-- C38 (counterexample) — implicit variant: the run `mm_init(); a = mm_malloc(16);
b = mm_malloc(16); c = mm_malloc(16); mm_free(a); q = mm_realloc(c, 4294967289)` on a fresh
arena makes only valid calls (`c` is live). The adjusted size of the request wraps around to
8, `mm_realloc` gets the block `q = a = 4112` of 8 bytes and copies the 24 bytes of `c` over
it and over the boundary tags that follow; releasing `c` then leaves the rover at 4136. The
block sequence of the heap, scanned from the prologue, is `[4104, 4112, 4120]`: the rover is
not the payload address of the prologue nor of any block of the sequence. -/
theorem implicit_wrap_rover_astray :
    Implicit.roverRun = .ok (4112, 4136, 4160, 4112, 4136, [4104, 4112, 4120]) ∧
    ¬ ((4136 : Nat) ∈ [4104, 4112, 4120]) :=
  ⟨by rfl, by decide⟩

/-- C38 (amended) — implicit variant, on a facade whose arena lies below 2^32 and whose
first address is a multiple of 8: in every state reachable from `mm_init` by valid
`mm_malloc` / `mm_free` / `mm_realloc` calls with `size + 15 < 2^32`, the scan of the heap
from the prologue reaches the epilogue, its block sequence starts with the prologue, and the
rover `next_fit_position` is the payload address of one of the blocks of that sequence. -/
theorem implicit_rover_block_start (m0 : Mem) (h1 : m0.lo ≤ m0.brk) (h2 : m0.brk % 8 = 0)
    (h3 : m0.hi < W32) (s : Implicit.State) (L : List Nat)
    (hr : Implicit.Reach (fun n => n + 15 < W32) m0 s L) :
    ∃ starts, Implicit.blockStarts s.mem starts.length s.heap_listp = .ok starts ∧
      starts.head? = some s.heap_listp ∧ s.next_fit_position ∈ starts := by
  obtain ⟨B, hB, -⟩ := Implicit.reach_inv h1 h2 h3 hr
  refine ⟨B.map fun b => b.addr, ?_, ?_, ?_⟩
  · rw [List.length_map]
    exact Implicit.blockStarts_rep hB
  · rw [List.head?_map, hB.head]
    rfl
  · obtain ⟨b, hb, e⟩ := hB.rover
    rw [← e]
    exact List.mem_map_of_mem _ hb

/-- Witness for C38: the theorem applied to the state after `mm_init(); a = mm_malloc(2000);
b = mm_malloc(16); mm_free(a); c = mm_malloc(2040)` on the fresh zeroed arena at 4096. -/
theorem implicit_rover_block_start_witness :
    ∃ starts, Implicit.blockStarts Implicit.missC.1.mem starts.length
        Implicit.missC.1.heap_listp = .ok starts ∧
      starts.head? = some Implicit.missC.1.heap_listp ∧
      Implicit.missC.1.next_fit_position ∈ starts :=
  implicit_rover_block_start (zeroMem 4096 1000000) (by decide) (by decide) (by decide)
    Implicit.missC.1 [6144, 6120]
    (@Implicit.Reach.malloc _ _ Implicit.missFreeA Implicit.missC.1 [6120] 8 2040 6144
      (@Implicit.Reach.free _ _ Implicit.missB.1 Implicit.missFreeA [6120, 4112] 4112
        (@Implicit.Reach.malloc _ _ Implicit.missA.1 Implicit.missB.1 [4112] 8 16 6120
          (@Implicit.Reach.malloc _ _ Implicit.initState Implicit.missA.1 [] 8 2000 4112
            (@Implicit.Reach.init _ _ Implicit.initState (by rfl)) (by decide) (by rfl))
          (by decide) (by rfl))
        (by decide) (by rfl))
      (by decide) (by rfl))

/-- C39 — implicit variant: the state after `mm_init(); a = mm_malloc(2000);
b = mm_malloc(16); mm_free(a); c = mm_malloc(2040)` on the fresh zeroed arena at 4096 is
reachable by `mm_malloc` and `mm_free` calls; its heap is represented by a block list that
holds the free block of 2008 bytes at 4112, below the rover 6144. For the request of 1000
bytes (adjusted size 1008) `find_fit` returns `NULL`, having searched from the rover to the
epilogue only, and `mm_malloc(1000)` extends the heap (the break grows by 4096 bytes) and
returns the pointer 8192 above the rover. -/
theorem implicit_next_fit_no_wrap_around :
    ∃ (s : Implicit.State) (L : List Nat) (n : Nat) (B : List Blk) (f : Blk),
      Implicit.Reach (fun k => k + 15 < W32) (zeroMem 4096 1000000) s L ∧
      Implicit.Rep s B ∧ f ∈ B ∧ f.alloc = false ∧ Implicit.adjust n ≤ f.size ∧
      f.addr < s.next_fit_position ∧
      (∃ s1, Implicit.find_fit 8 s (Implicit.adjust n) = .ok (s1, 0)) ∧
      ∃ s2 p, Implicit.mm_malloc 8 s n = .ok (s2, p) ∧ p ≠ 0 ∧ s.mem.brk < s2.mem.brk := by
  have hr : Implicit.Reach (fun k => k + 15 < W32) (zeroMem 4096 1000000)
      Implicit.missC.1 [6144, 6120] :=
    @Implicit.Reach.malloc _ _ Implicit.missFreeA Implicit.missC.1 [6120] 8 2040 6144
      (@Implicit.Reach.free _ _ Implicit.missB.1 Implicit.missFreeA [6120, 4112] 4112
        (@Implicit.Reach.malloc _ _ Implicit.missA.1 Implicit.missB.1 [4112] 8 16 6120
          (@Implicit.Reach.malloc _ _ Implicit.initState Implicit.missA.1 [] 8 2000 4112
            (@Implicit.Reach.init _ _ Implicit.initState (by rfl)) (by decide) (by rfl))
          (by decide) (by rfl))
        (by decide) (by rfl))
      (by decide) (by rfl)
  obtain ⟨B, hB, -⟩ := Implicit.reach_inv (by decide) (by decide) (by decide) hr
  -- the second block of the heap is the free block at 4112
  have hl : Implicit.missC.1.heap_listp = 4104 := by rfl
  have hhead := hB.head
  have hlast := hB.last
  have hT := hB.tiles
  rw [hl] at hhead hT
  obtain ⟨f, B', rfl⟩ : ∃ f B', B = ⟨4104, 8, true⟩ :: f :: B' := by
    cases B with
    | nil => simp at hhead
    | cons a B1 =>
      simp only [List.head?_cons, Option.some.injEq] at hhead
      subst hhead
      cases B1 with
      | nil =>
        simp only [List.getLast?_singleton, Option.some.injEq, Blk.mk.injEq] at hlast
        exact absurd hlast.2.1 (by decide)
      | cons f B' => exact ⟨f, B', rfl⟩
  obtain ⟨-, -, -, hfa, hf8, -, -⟩ := hT
  have hfa' : f.addr = 4112 := hfa
  have hh := hB.hdr f (by simp)
  rw [hfa'] at hh
  have h2 : load Implicit.missC.1.mem (4112 - 4) = .ok 2008 := by rfl
  rw [hh] at h2
  have h3 : f.tag = 2008 := Except.ok.inj h2
  have hs : f.size = 2008 ∧ f.alloc = false := by
    rw [Implicit.Blk.tag_eq] at h3
    cases hal : f.alloc with
    | false => rw [hal] at h3; exact ⟨by simpa using h3, rfl⟩
    | true =>
      rw [hal] at h3
      have : f.size + 1 = 2008 := h3
      omega
  refine ⟨Implicit.missC.1, [6144, 6120], 1000, _, f, hr, hB, by simp, hs.2, ?_, ?_, ?_, ?_⟩
  · rw [hs.1]; decide
  · rw [hfa']; decide
  · exact ⟨_, by rfl⟩
  · exact ⟨_, 8192, by rfl, by decide, by decide⟩


/-- C37 — segregated variant: for every `size < 2^20`, with `k` the bucket of `size`, if the
head of list `k` (when the list is not empty) has a header size of at least 16, as every
block of a bucket has, then `insert_node(ptr, size)` returns after one step of its ordering
loop and links `ptr` in front of the list: `segregated_free_lists[k]` becomes `ptr`,
`PRED(ptr)` is the old head (`NULL` when the list was empty), `SUCC(ptr)` is `NULL`, the
successor of the old head becomes `ptr`, and the other list heads are unchanged. Nothing is
assumed about the sizes and addresses of the blocks behind the head. The value compared in
the ordering loop is what the bucket-selection shifts have left of `size`, at most 1. The
link words of `ptr` and of the old head are taken to lie in the heap and not to overlap. -/
theorem seg_insert_always_head (fuel : Nat) (s : Seg.State) (ptr size : Nat)
    (hs : size < 2 ^ 20) (o1 : s.mem.ok ptr) (o2 : s.mem.ok (ptr + 4)) (hlt : s.mem.brk < W32)
    (hhd : s.segregated_free_lists (Seg.bucket size) ≠ 0 →
      (∃ z, Seg.GET_SIZE s.mem (Seg.HDRP (s.segregated_free_lists (Seg.bucket size))) = .ok z ∧
        16 ≤ z) ∧
      s.mem.ok (s.segregated_free_lists (Seg.bucket size) + 4) ∧
      (ptr + 8 ≤ s.segregated_free_lists (Seg.bucket size) ∨
        s.segregated_free_lists (Seg.bucket size) + 8 ≤ ptr)) :
    (Seg.bucketLoop (Seg.LISTLIMIT - 1) 0 size).2 ≤ 1 ∧
    ∃ s', Seg.insert_node (fuel + 1) s ptr size = .ok s' ∧
      s'.segregated_free_lists (Seg.bucket size) = ptr ∧
      Seg.PRED s'.mem ptr = .ok (s.segregated_free_lists (Seg.bucket size)) ∧
      Seg.SUCC s'.mem ptr = .ok 0 ∧
      (s.segregated_free_lists (Seg.bucket size) ≠ 0 →
        Seg.SUCC s'.mem (s.segregated_free_lists (Seg.bucket size)) = .ok ptr) ∧
      ∀ k, k ≠ Seg.bucket size → s'.segregated_free_lists k = s.segregated_free_lists k := by
  have hsh := Seg.bucketLoop_rest_le_one hs
  obtain ⟨s', r1, r2, r3, r4, r5, r6, -⟩ := Seg.insert_node_head fuel hsh o1 o2 hlt
    (fun hne => by
      obtain ⟨⟨z, hz, hz16⟩, a, b⟩ := hhd hne
      exact ⟨⟨z, hz, by omega⟩, a, b⟩)
  exact ⟨hsh, s', r1, r2, r4, r5, r6, r3⟩

/-- Witness for C37: the theorem applied to the heap after `a = mm_malloc(16);
b = mm_malloc(1); c = mm_malloc(16); mm_free(a); mm_free(c)` once `delete_node` has taken
`c = 4152` out of list 4, which still holds `a = 4112` (24 bytes), and to
`insert_node(c, 24)`: `c` becomes the head of list 4 in front of `a`. -/
theorem seg_insert_always_head_witness :
    Seg.pairUnlinked.segregated_free_lists (Seg.bucket 24) = 4112 ∧
    (Seg.bucketLoop (Seg.LISTLIMIT - 1) 0 24).2 ≤ 1 ∧
    ∃ s', Seg.insert_node (0 + 1) Seg.pairUnlinked 4152 24 = .ok s' ∧
      s'.segregated_free_lists (Seg.bucket 24) = 4152 ∧
      Seg.PRED s'.mem 4152 = .ok (Seg.pairUnlinked.segregated_free_lists (Seg.bucket 24)) ∧
      Seg.SUCC s'.mem 4152 = .ok 0 ∧
      (Seg.pairUnlinked.segregated_free_lists (Seg.bucket 24) ≠ 0 →
        Seg.SUCC s'.mem (Seg.pairUnlinked.segregated_free_lists (Seg.bucket 24)) = .ok 4152) ∧
      ∀ k, k ≠ Seg.bucket 24 →
        s'.segregated_free_lists k = Seg.pairUnlinked.segregated_free_lists k :=
  have e : Seg.pairUnlinked.segregated_free_lists (Seg.bucket 24) = 4112 := by rfl
  ⟨e, seg_insert_always_head 0 Seg.pairUnlinked 4152 24 (by decide)
    (load_ok_iff.mp (show load Seg.pairUnlinked.mem 4152 = .ok 4112 by rfl)).1
    (load_ok_iff.mp (show load Seg.pairUnlinked.mem (4152 + 4) = .ok 0 by rfl)).1
    (by decide)
    (fun _ => ⟨⟨24, by rfl, by decide⟩,
      (load_ok_iff.mp (show load Seg.pairUnlinked.mem
        (Seg.pairUnlinked.segregated_free_lists (Seg.bucket 24) + 4) = .ok 0 by rfl)).1,
      Or.inr (by rw [e]; decide)⟩)⟩

/-- C40 — segregated variant: on a laid-out heap with well-formed lists in which every free
block is listed in its bucket except the free block `b` (size `s >= 16`), which is in no
list, `insert_node(b, s)` followed by `delete_node(b)` returns and restores every bucket head
and the predecessor and successor links of every other free block; indeed every heap word
other than the two link words of `b` reads as before the insert. -/
theorem seg_insert_delete_inverse (n : Nat) (s : Seg.State) (h0 : Nat) (B : List Blk)
    (F : Nat → List Nat) (b : Blk) (P : Seg.Part s h0 B F [b.addr]) (hb : b ∈ B)
    (hbf : b.alloc = false) :
    16 ≤ b.size ∧
    ∃ s1 s2, Seg.insert_node (n + 1) s b.addr b.size = .ok s1 ∧
      Seg.delete_node s1 b.addr = .ok s2 ∧
      (∀ k, k < 20 → s2.segregated_free_lists k = s.segregated_free_lists k) ∧
      (∀ c ∈ B, c.alloc = false → c.addr ≠ b.addr →
        Seg.PRED s2.mem c.addr = Seg.PRED s.mem c.addr ∧
        Seg.SUCC s2.mem c.addr = Seg.SUCC s.mem c.addr) ∧
      ∀ q, q ≠ b.addr → q ≠ b.addr + 4 → load s2.mem q = load s.mem q := by
  obtain ⟨s1, s2, r1, r2, r3, r4⟩ := Seg.insert_delete_restore n P hb hbf
  refine ⟨P.layout.free16 b hb hbf, s1, s2, r1, r2, r3, fun c hc hcf hne => ?_, r4⟩
  have hsep := P.layout.free_sep hc hb hcf hbf hne
  have hcb := P.layout.bounds hc
  have c16 := P.layout.free16 c hc hcf
  have eS : Seg.SUCC_PTR c.addr = c.addr + 4 := Seg.SUCC_PTR_eq (by omega)
  constructor
  · exact r4 c.addr (by omega) (by omega)
  · show load s2.mem (Seg.SUCC_PTR c.addr) = load s.mem (Seg.SUCC_PTR c.addr)
    rw [eS]
    exact r4 (c.addr + 4) (by omega) (by omega)

/-- Witness for C40: the theorem applied to the heap after `a = mm_malloc(16);
b = mm_malloc(1); c = mm_malloc(16); mm_free(a); mm_free(c)` once `delete_node` has taken
`c = 4152` (24 bytes) out of list 4, which still holds `a = 4112`: `insert_node(c, 24)`
followed by `delete_node(c)` restores the twenty heads and every word but the links of
`c`. -/
theorem seg_insert_delete_inverse_witness :
    ∃ s1 s2, Seg.insert_node (0 + 1) Seg.pairUnlinked 4152 24 = .ok s1 ∧
      Seg.delete_node s1 4152 = .ok s2 ∧
      (∀ k, k < 20 →
        s2.segregated_free_lists k = Seg.pairUnlinked.segregated_free_lists k) ∧
      ∀ q, q ≠ 4152 → q ≠ 4152 + 4 → load s2.mem q = load Seg.pairUnlinked.mem q := by
  obtain ⟨B, F, b, hP, hb, hbf, hba, hs⟩ := Seg.pairUnlinked_part
  obtain ⟨-, s1, s2, r1, r2, r3, -, r5⟩ :=
    seg_insert_delete_inverse 0 Seg.pairUnlinked 4104 B F b hP hb hbf
  rw [hba, hs] at r1
  rw [hba] at r2 r5
  exact ⟨s1, s2, r1, r2, r3, r5⟩


/-- C33 — implicit variant: on every represented heap `B`, with `R` the blocks from the
rover (inclusive) to the epilogue, `find_fit(asize)` returns as soon as its fuel covers the
length of `R`. If some block of `R` is free with size at least `asize`, it returns the first
such block in heap order, which is the one of lowest address among them, and the rover becomes
that block; otherwise it returns `NULL` and the rover becomes `heap_listp`, the payload
address of the prologue. Nothing else of the state changes. -/
theorem implicit_find_fit_exact (s : Implicit.State) (B : List Blk) (asize : Nat)
    (hR : Implicit.Rep s B) :
    ∃ L R, B = L ++ R ∧ (∃ b0, R.head? = some b0 ∧ b0.addr = s.next_fit_position) ∧
      ∀ fuel, R.length ≤ fuel →
        (∀ b, R.find? (fun b => decide (b.alloc = false ∧ asize ≤ b.size)) = some b →
          Implicit.find_fit fuel s asize =
            .ok ({ s with next_fit_position := b.addr }, b.addr) ∧
          b.addr ≠ 0 ∧ b ∈ R ∧ b.alloc = false ∧ asize ≤ b.size ∧
          ∀ c ∈ R, c.alloc = false → asize ≤ c.size → b.addr ≤ c.addr) ∧
        (R.find? (fun b => decide (b.alloc = false ∧ asize ≤ b.size)) = none →
          Implicit.find_fit fuel s asize =
            .ok ({ s with next_fit_position := s.heap_listp }, 0) ∧
          ∀ c ∈ R, ¬ (c.alloc = false ∧ asize ≤ c.size)) := by
  obtain ⟨b0, hb0, hrov⟩ := hR.rover
  obtain ⟨L, R', rfl⟩ := List.append_of_mem hb0
  refine ⟨L, b0 :: R', rfl, ⟨b0, rfl, hrov⟩, fun fuel hf => ?_⟩
  have key := @Implicit.findLoop_exact s asize (b0 :: R') L fuel hR (by simp) hf
  simp only [List.head?_cons, Option.getD_some] at key
  rw [hrov] at key
  have hT : Tiles b0.addr (b0 :: R') s.mem.brk := by
    have := hR.tiles
    rw [tiles_append L _ _ _ (by simp)] at this
    obtain ⟨x, -, hT2, -⟩ := this
    have e : b0.addr = x := hT2.1
    rw [e]
    exact hT2
  constructor
  · intro b hfind
    rw [hfind] at key
    obtain ⟨m1, m2, m3, m4⟩ := Implicit.find_lowest hT hfind
    have h8 := (hR.one).2.2.1
    have h9 := (tiles_mem _ _ _ hT b m1).1
    exact ⟨key, by omega, m1, m2, m3, m4⟩
  · intro hfind
    rw [hfind] at key
    refine ⟨key, fun c hc hfit => ?_⟩
    have := List.find?_eq_none.mp hfind c hc
    simp only [decide_eq_true_eq] at this
    exact this hfit

/-- Witness for C33: the theorem applied to the heap after `a = mm_malloc(2000);
b = mm_malloc(16); mm_free(a); c = mm_malloc(2040)`, whose rover is at `c`, and to
`asize = 1008`. -/
theorem implicit_find_fit_exact_witness :
    ∃ B, Implicit.Rep Implicit.missC.1 B ∧
      ∃ L R, B = L ++ R ∧
        (∃ b0, R.head? = some b0 ∧ b0.addr = Implicit.missC.1.next_fit_position) ∧
        ∀ fuel, R.length ≤ fuel →
          (∀ b, R.find? (fun b => decide (b.alloc = false ∧ 1008 ≤ b.size)) = some b →
            Implicit.find_fit fuel Implicit.missC.1 1008 =
              .ok ({ Implicit.missC.1 with next_fit_position := b.addr }, b.addr) ∧
            b.addr ≠ 0 ∧ b ∈ R ∧ b.alloc = false ∧ 1008 ≤ b.size ∧
            ∀ c ∈ R, c.alloc = false → 1008 ≤ c.size → b.addr ≤ c.addr) ∧
          (R.find? (fun b => decide (b.alloc = false ∧ 1008 ≤ b.size)) = none →
            Implicit.find_fit fuel Implicit.missC.1 1008 =
              .ok ({ Implicit.missC.1 with
                next_fit_position := Implicit.missC.1.heap_listp }, 0) ∧
            ∀ c ∈ R, ¬ (c.alloc = false ∧ 1008 ≤ c.size)) := by
  have hr : Implicit.Reach (fun k => k + 15 < W32) (zeroMem 4096 1000000)
      Implicit.missC.1 [6144, 6120] :=
    @Implicit.Reach.malloc _ _ Implicit.missFreeA Implicit.missC.1 [6120] 8 2040 6144
      (@Implicit.Reach.free _ _ Implicit.missB.1 Implicit.missFreeA [6120, 4112] 4112
        (@Implicit.Reach.malloc _ _ Implicit.missA.1 Implicit.missB.1 [4112] 8 16 6120
          (@Implicit.Reach.malloc _ _ Implicit.initState Implicit.missA.1 [] 8 2000 4112
            (@Implicit.Reach.init _ _ Implicit.initState (by rfl)) (by decide) (by rfl))
          (by decide) (by rfl))
        (by decide) (by rfl))
      (by decide) (by rfl)
  obtain ⟨B, hB, -⟩ := Implicit.reach_inv (by decide) (by decide) (by decide) hr
  exact ⟨B, hB, implicit_find_fit_exact Implicit.missC.1 B 1008 hB⟩


/-- C32 — implicit variant: on every represented heap, for every free block `b` with
previous block `p` and next block `n`, `coalesce(b)` returns; the pointer returned (and the
new rover) is `p` if `p` was free and `b` otherwise; the heap is represented with `p`, `b`
and `n` replaced by the allocated ones among `p` and `n` around one free block at the
returned pointer whose size is the sum of the sizes of `b` and of its free neighbours; the
header and the footer of that block both read that size with the allocation bit clear; and
every other word of the heap reads as before, so the blocks outside the run are
unchanged. -/
theorem implicit_coalesce_merges (s : Implicit.State) (L R : List Blk) (p b n : Blk)
    (h : Implicit.Rep s (L ++ p :: b :: n :: R)) (hfree : b.alloc = false) :
    ∃ s', Implicit.coalesce s b.addr = .ok (s', if p.alloc then b.addr else p.addr) ∧
      s'.next_fit_position = (if p.alloc then b.addr else p.addr) ∧
      Implicit.Rep s' (L ++ (if p.alloc then [p] else []) ++
        [⟨if p.alloc then b.addr else p.addr,
          (if p.alloc then 0 else p.size) + b.size + (if n.alloc then 0 else n.size),
          false⟩] ++ (if n.alloc then [n] else []) ++ R) ∧
      load s'.mem ((if p.alloc then b.addr else p.addr) - 4) =
        .ok ((if p.alloc then 0 else p.size) + b.size + (if n.alloc then 0 else n.size)) ∧
      load s'.mem ((if p.alloc then b.addr else p.addr) +
          ((if p.alloc then 0 else p.size) + b.size + (if n.alloc then 0 else n.size)) - 8) =
        .ok ((if p.alloc then 0 else p.size) + b.size + (if n.alloc then 0 else n.size)) ∧
      (∀ q, q ≠ (if p.alloc then b.addr else p.addr) - 4 →
        q ≠ (if p.alloc then b.addr else p.addr) +
          ((if p.alloc then 0 else p.size) + b.size + (if n.alloc then 0 else n.size)) - 8 →
        load s'.mem q = load s.mem q) ∧
      s'.mem.brk = s.mem.brk ∧ s'.heap_listp = s.heap_listp := by
  obtain ⟨⟨g1, g2, g3, g4, g5, g6, g7, g8, g9, g10, g11, g12, g13⟩,
    ⟨l1, l2, l3, l4, l5, l6⟩, -⟩ := h.merge_reads
  rw [hfree] at l3 l4
  cases hpa : p.alloc <;> cases hna : n.alloc <;>
    simp only [Bool.false_eq_true, if_false, if_true, Nat.zero_add, Nat.add_zero,
      List.append_nil, List.nil_append]
  · obtain ⟨s', r1, r2, r3, r4, -, -, r7, r8⟩ := Implicit.coalesce_f_f h hfree hpa hna
    refine ⟨s', r1, r2, r7, ?_, ?_, fun q q1 q2 => ?_, r4, r3⟩
    · rw [r8, if_neg (by omega), if_pos rfl]
    · rw [r8, if_pos rfl]
    · rw [r8, if_neg q2, if_neg q1]
  · obtain ⟨s', r1, r2, r3, r4, -, -, r7, r8⟩ := Implicit.coalesce_fa h hfree hpa hna
    refine ⟨s', r1, r2, by simpa using r7, ?_, ?_, fun q q1 q2 => ?_, r4, r3⟩
    · rw [r8, if_pos rfl]
    · rw [r8, if_neg (by omega), if_pos rfl]
    · rw [r8, if_neg q1, if_neg q2]
  · obtain ⟨s', r1, r2, r3, r4, -, -, r7, r8⟩ := Implicit.coalesce_af h hfree hpa hna
    refine ⟨s', r1, r2, by simpa using r7, ?_, ?_, fun q q1 q2 => ?_, r4, r3⟩
    · rw [r8, if_neg (by omega), if_pos rfl]
    · rw [r8, if_pos rfl]
    · rw [r8, if_neg q2, if_neg q1]
  · obtain ⟨r1, r7⟩ := Implicit.coalesce_aa h hfree hpa hna
    refine ⟨_, r1, rfl, ?_, l3, ?_, fun q _ _ => rfl, rfl, rfl⟩
    · rw [Implicit.Blk.eq_free hfree]
      simpa using r7
    · rw [show b.addr + b.size - 8 = n.addr - 8 by omega]
      exact l4


/-- C34 — implicit variant: for a word count `0 < words` with `words + 1 < 2^30` (the
callers pass even counts from 1024 upwards), `extend_heap(words)` asks the facade for
`4 * words` bytes when `words` is even and for `4 * (words + 1)` bytes when it is odd; the
byte count is a multiple of 8. When the facade refuses, the call returns `NULL` and leaves
the state as it was. When the facade grants the request, on a represented heap whose last
block before the epilogue is `p`, the call returns; the break has grown by the byte count;
the word that held the old epilogue reads the byte count with the allocation bit clear; the
word just below the new break reads 1 (the new epilogue, size 0, allocated); the pointer
returned is the old break when `p` is allocated and `p` when `p` is free, the new block
being merged with `p`; the heap is represented accordingly; and the words below the old
epilogue, other than the header of `p`, are unchanged. -/
theorem implicit_extend_heap_exact (s : Implicit.State) (L : List Blk) (p : Blk) (words : Nat)
    (h : Implicit.Rep s (L ++ [p, ⟨s.mem.brk, 0, true⟩])) (hw0 : 0 < words)
    (hw : words + 1 < 1073741824) :
    (Implicit.extendSize words = (if words % 2 = 0 then 4 * words else 4 * (words + 1)) ∧
      Implicit.extendSize words % 8 = 0) ∧
    (mem_sbrk s.mem (Implicit.extendSize words) = none →
      Implicit.extend_heap s words = .ok (s, 0)) ∧
    (mem_sbrk s.mem (Implicit.extendSize words) ≠ none →
      ∃ s', Implicit.extend_heap s words =
          .ok (s', if p.alloc then s.mem.brk else p.addr) ∧
        s'.mem.brk = s.mem.brk + Implicit.extendSize words ∧
        load s'.mem (s.mem.brk - 4) = .ok (Implicit.extendSize words) ∧
        load s'.mem (s'.mem.brk - 4) = .ok 1 ∧
        Implicit.Rep s' (L ++ (if p.alloc then [p, ⟨s.mem.brk, Implicit.extendSize words, false⟩]
          else [⟨p.addr, p.size + Implicit.extendSize words, false⟩]) ++
            [⟨s.mem.brk + Implicit.extendSize words, 0, true⟩]) ∧
        ∀ q, q + 8 ≤ s.mem.brk → q ≠ p.addr - 4 → load s'.mem q = load s.mem q) := by
  obtain ⟨e1, e2, -⟩ := Implicit.extendSize_facts words
  have e3 : Implicit.extendSize words =
      (if words % 2 = 0 then 4 * words else 4 * (words + 1)) := by
    rw [e1]
    unfold W32
    split_ifs <;> omega
  have h0 : Implicit.extendSize words ≠ 0 := by
    rw [e3]
    split_ifs <;> omega
  refine ⟨⟨e3, e2⟩, Implicit.extend_heap_refused, fun hs => ?_⟩
  obtain ⟨s', r1, -, -, -, -, r6, r7, r8, r9, r10⟩ := Implicit.extend_heap_run h h0 hs
  exact ⟨s', r1, r6, r8, by rw [r6]; exact r9, r7, r10⟩

/-- Witness for C34: the theorem applied to the freshly initialised heap (its last block is
the free block of 4096 bytes at 4112) and to `words = 1024`, the count that `mm_init` and
`mm_malloc` pass for one chunk: 4096 bytes are requested and the new block is merged with the
free block, which `extend_heap` returns. -/
theorem implicit_extend_heap_exact_witness :
    Implicit.extendSize 1024 = 4096 ∧ mem_sbrk Implicit.initState.mem 4096 ≠ none ∧
    ∃ s', Implicit.extend_heap Implicit.initState 1024 = .ok (s', 4112) ∧
      s'.mem.brk = Implicit.initState.mem.brk + 4096 ∧
      load s'.mem (Implicit.initState.mem.brk - 4) = .ok 4096 ∧
      load s'.mem (s'.mem.brk - 4) = .ok 1 := by
  obtain ⟨B, hB, -⟩ := @Implicit.mm_init_spec (zeroMem 4096 1000000) Implicit.initState
    (by decide) (by decide) (by decide) (by rfl)
  obtain ⟨L, p, rfl⟩ := hB.ends
  have e5 : Implicit.extendSize 1024 = 4096 := by rfl
  have hs : mem_sbrk Implicit.initState.mem 4096 ≠ none := by
    have : mem_sbrk Implicit.initState.mem 4096 =
        some (8208, { Implicit.initState.mem with brk := 8208 + 4096 }) := by rfl
    rw [this]
    simp
  obtain ⟨-, -, hrun⟩ := implicit_extend_heap_exact Implicit.initState L p 1024 hB (by decide)
    (by decide)
  rw [e5] at hrun
  obtain ⟨s', r1, r2, r3, r4, r5, -⟩ := hrun hs
  have hr : Implicit.extend_heap Implicit.initState 1024 = .ok (s', 4112) := by
    have h2 : ∃ t, Implicit.extend_heap Implicit.initState 1024 = .ok (t, 4112) := ⟨_, by rfl⟩
    obtain ⟨t, ht⟩ := h2
    rw [ht] at r1 ⊢
    have := Except.ok.inj r1
    rw [(Prod.mk.inj this).1]
  exact ⟨e5, hs, s', hr, r2, r3, r4⟩

/-- Witness for C32: the theorem applied to the heap in the middle of `mm_free(b)` after
`a = mm_malloc(16); b = mm_malloc(16); mm_free(a)`, where the block `b = 4136` (24 bytes) lies
between the free block `a = 4112` (24 bytes) and the free rest of the heap (4048 bytes):
`coalesce(b)` returns `a`, now a free block of 4096 bytes. -/
theorem implicit_coalesce_merges_witness :
    ∃ s', Implicit.coalesce Implicit.coalState 4136 = .ok (s', 4112) ∧
      s'.next_fit_position = 4112 ∧
      Implicit.Rep s' ([⟨4104, 8, true⟩] ++ [⟨4112, 4096, false⟩] ++ [⟨8208, 0, true⟩]) ∧
      load s'.mem (4112 - 4) = .ok 4096 ∧ load s'.mem (4112 + 4096 - 8) = .ok 4096 ∧
      (∀ q, q ≠ 4112 - 4 → q ≠ 4112 + 4096 - 8 →
        load s'.mem q = load Implicit.coalState.mem q) := by
  obtain ⟨s', r1, r2, r3, r4, r5, r6, -⟩ := implicit_coalesce_merges Implicit.coalState
    [⟨4104, 8, true⟩] [⟨8208, 0, true⟩] ⟨4112, 24, false⟩ ⟨4136, 24, false⟩
    ⟨4160, 4048, false⟩ Implicit.coalState_rep rfl
  exact ⟨s', r1, r2, r3, r4, r5, r6⟩

/-- C31 — segregated variant: on every well-formed heap, for a free block `b` of size `F`
and an adjusted size `asize` (a multiple of 8, at least 16) with `F - asize > 16`, which is
when `place` splits, `place(b, asize)` returns. If `asize >= 100` the pointer returned is
`b + (F - asize)`; the heap is well formed with `b` replaced by a free block of
`F - asize` bytes at `b` followed by an allocated block of `asize` bytes at the returned
pointer. If `asize < 100` the pointer returned is `b`; the heap is well formed with `b`
replaced by an allocated block of `asize` bytes at `b` followed by a free block of
`F - asize` bytes at `b + asize`. In both cases the headers of the two blocks read
`size | alloc`, and the walk of the list of the bucket of `F - asize` from its head meets the
free remainder. -/
theorem seg_place_split (fuel : Nat) (s : Seg.State) (h0 : Nat) (L R : List Blk) (b : Blk)
    (F : Nat → List Nat) (asize : Nat) (h : Seg.WF s h0 (L ++ b :: R) F)
    (hbf : b.alloc = false) (ha8 : asize % 8 = 0) (ha16 : 16 ≤ asize)
    (hrem : asize + 16 < b.size) :
    (100 ≤ asize → ∃ s' F', Seg.place (fuel + 1) s b.addr asize =
        .ok (s', b.addr + (b.size - asize)) ∧
      Seg.WF s' h0 (L ++ [⟨b.addr, b.size - asize, false⟩,
        ⟨b.addr + (b.size - asize), asize, true⟩] ++ R) F' ∧
      load s'.mem (b.addr - 4) = .ok (b.size - asize) ∧
      load s'.mem (b.addr + (b.size - asize) - 4) = .ok (asize + 1) ∧
      ∃ ns, Seg.listWalk s'.mem (ns.length + 1)
          (s'.segregated_free_lists (Seg.bucket (b.size - asize))) = .ok ns ∧ b.addr ∈ ns) ∧
    (asize < 100 → ∃ s' F', Seg.place (fuel + 1) s b.addr asize = .ok (s', b.addr) ∧
      Seg.WF s' h0 (L ++ [⟨b.addr, asize, true⟩,
        ⟨b.addr + asize, b.size - asize, false⟩] ++ R) F' ∧
      load s'.mem (b.addr - 4) = .ok (asize + 1) ∧
      load s'.mem (b.addr + asize - 4) = .ok (b.size - asize) ∧
      ∃ ns, Seg.listWalk s'.mem (ns.length + 1)
          (s'.segregated_free_lists (Seg.bucket (b.size - asize))) = .ok ns ∧
        b.addr + asize ∈ ns) := by
  obtain ⟨s', F', hp, hW⟩ := Seg.place_split_run fuel h hbf ha8 ha16 hrem
  constructor
  · intro c
    rw [if_pos c] at hp hW
    refine ⟨s', F', hp, hW, ?_, ?_, _, hW.lists.walk_eq hW.layout (Seg.bucket_lt _), ?_⟩
    · exact hW.layout.hdr ⟨b.addr, b.size - asize, false⟩ (by simp)
    · exact hW.layout.hdr ⟨b.addr + (b.size - asize), asize, true⟩ (by simp)
    · exact hW.complete ⟨b.addr, b.size - asize, false⟩ (by simp) rfl
  · intro c
    rw [if_neg (by omega)] at hp hW
    refine ⟨s', F', hp, hW, ?_, ?_, _, hW.lists.walk_eq hW.layout (Seg.bucket_lt _), ?_⟩
    · exact hW.layout.hdr ⟨b.addr, asize, true⟩ (by simp)
    · exact hW.layout.hdr ⟨b.addr + asize, b.size - asize, false⟩ (by simp)
    · exact hW.complete ⟨b.addr + asize, b.size - asize, false⟩ (by simp) rfl

/-- Witness for C31: the theorem applied to the heap after `mm_malloc(100)` on the freshly
initialised heap, whose free block of 4048 bytes at 4112 is the head of list 11, and to
`asize = 104`: `place` returns `4112 + 3944`, the tail of the block, and the remainder of
3944 bytes stays at 4112, in list 11. -/
theorem seg_place_split_witness :
    ∃ s', Seg.place (0 + 1) Seg.afterBig.1 4112 104 = .ok (s', 4112 + (4048 - 104)) ∧
      load s'.mem (4112 - 4) = .ok (4048 - 104) ∧
      load s'.mem (4112 + (4048 - 104) - 4) = .ok (104 + 1) ∧
      ∃ ns, Seg.listWalk s'.mem (ns.length + 1)
          (s'.segregated_free_lists (Seg.bucket (4048 - 104))) = .ok ns ∧ 4112 ∈ ns := by
  have hr : Seg.Reach (fun n => n + 15 < 2147483648) (zeroMem 4096 1000000)
      Seg.afterBig.1 [8160] :=
    @Seg.Reach.malloc _ _ Seg.initState Seg.afterBig.1 [] 8 100 8160
      (@Seg.Reach.init _ _ 8 Seg.initState (by rfl)) (by decide) (by rfl)
  obtain ⟨B, F, hW, -⟩ := Seg.seg_reach_inv (by decide) hr
  have hhd := hW.lists.heads 11 (by decide)
  have e11 : Seg.afterBig.1.segregated_free_lists 11 = 4112 := by rfl
  rw [e11] at hhd
  have hin : 4112 ∈ F 11 := by
    cases hf : F 11 with
    | nil => rw [hf] at hhd; simp at hhd
    | cons y ys =>
      rw [hf] at hhd
      simp only [List.headD_cons] at hhd
      rw [← hhd]
      exact List.mem_cons_self _ _
  obtain ⟨b, hb, hba, hbf, -⟩ := hW.lists.nodes 11 (by decide) _ hin
  have hs : b.size = 4048 := by
    have h1 := hW.layout.get_size hb
    rw [hba] at h1
    have h2 : Seg.GET_SIZE Seg.afterBig.1.mem (Seg.HDRP 4112) = .ok 4048 := by rfl
    rw [h1] at h2
    exact Except.ok.inj h2
  obtain ⟨L, R, rfl⟩ := List.append_of_mem hb
  obtain ⟨htail, -⟩ := seg_place_split 0 Seg.afterBig.1 _ L R b F 104 hW hbf (by decide)
    (by decide) (by rw [hs]; decide)
  rw [hba, hs] at htail
  obtain ⟨s', F', r1, -, r3, r4, r5⟩ := htail (by decide)
  exact ⟨s', r1, r3, r4, r5⟩

end MallocLab
